import Mathlib

/-! # Value-number CSE (`src/coreclr/jit/optcse.cpp`)

A shallow embedding of the candidate indexer (`optValnumCSE_Index`, `optCSEstop`), of the
availability dataflow callbacks (`CSE_DataFlow`) and of the use/def labeler
(`optValnumCSE_Availability`), followed by the properties proved about them.

Conventions of the embedding
* `unsigned`/`size_t` counters are `Nat` (they count IR nodes and never wrap), except in
  `optCSEKeyToHashIndex`, whose 32-bit arithmetic is modelled with explicit `% 2 ^ 32`;
* block weights (`weight_t`) are an arbitrary type `W` with an addition: no law of the addition
  is ever used;
* bit vectors (`EXPSET_TP`) are finite sets of bit positions;
* a `noway_assert` that fails aborts the compilation: the embedded function returns `none`;
  debug-only `assert`s are compiled out and are not part of the embedding.
-/

namespace OptCSE

/-! ## Value numbers, exception sets, bit vectors -/

/-- Value numbers are plain integers handed out by the VN store. -/
abbrev ValueNum := Nat

/-- Modelled from the spec: the exception set of a value number (`VnStore.exceptionSet`), the set
of exceptions an expression may raise. The VN store itself is not part of the sources; a set is
identified with the value number that reifies it. -/
abbrev ExcSet := Finset Nat

/-- Modelled from the spec: `vnForEmptyExc()`, the empty exception set. -/
def VNForEmptyExcSet : ExcSet := ∅

/-- Modelled from the spec: `union(e1,e2)` of the VN store. -/
def VNExcSetUnion (a b : ExcSet) : ExcSet := a ∪ b

/-- Modelled from the spec: `intersect(e1,e2)` of the VN store. -/
def VNExcSetIntersection (a b : ExcSet) : ExcSet := a ∩ b

/-- Modelled from the spec: the subset test of the VN store. The argument order is the one of the
call sites in `optcse.cpp`: the first argument is the full set, the second the candidate subset
("The exception set held in desc->defExcSetPromise must be a subset of theLiberalExcSet" is
written `VNExcIsSubset(theLiberalExcSet, desc->defExcSetPromise)`). -/
def VNExcIsSubset (vnFullSet vnCandidateSet : ExcSet) : Bool := decide (vnCandidateSet ⊆ vnFullSet)

/-- The part of the VN store the CSE phase reads: the normal value, the exception set and the
coerced constant of a value number. -/
structure ValueNumStore where
  VNNormalValue : ValueNum → ValueNum
  VNExceptionSet : ValueNum → ExcSet
  CoercedConstantValue : ValueNum → Nat

/-- Modelled from the spec: a bit vector (`EXPSET_TP` with `BitVecOps`), the set of its set bits. -/
abbrev EXPSET_TP := Finset Nat

/-- Modelled from the spec: `BitVecOps::MakeFull` for a trait of `bitCount` bits (top, all ones). -/
def MakeFull (bitCount : Nat) : EXPSET_TP := Finset.range bitCount

/-- Modelled from the spec: `BitVecOps::MakeEmpty` (bottom, all zeros). -/
def MakeEmpty : EXPSET_TP := ∅

/-! ## CSE tags on nodes -/

/-- Modelled from the spec: the tag value `NONE` of a node (`NO_CSE`). -/
def NO_CSE : Int := 0

/-- Modelled from the spec: the node carries a CSE tag, `CANDIDATE(i)` or `DEFINITION(i)`. -/
def IS_CSE_INDEX (x : Int) : Bool := decide (x ≠ 0)

/-- Modelled from the spec: the tag is `CANDIDATE(i)`, a use (positive). -/
def IS_CSE_USE (x : Int) : Bool := decide (0 < x)

/-- Modelled from the spec: the tag is `DEFINITION(i)` (negative). -/
def IS_CSE_DEF (x : Int) : Bool := decide (x < 0)

/-- Modelled from the spec: the candidate index `i` of a tag. -/
def GET_CSE_INDEX (x : Int) : Nat := if 0 < x then x.toNat else (-x).toNat

/-- Modelled from the spec: retag `CANDIDATE(i)` as `DEFINITION(i)`. -/
def TO_CSE_DEF (x : Int) : Int := -x

/-- Modelled from the spec: zero-based position of candidate `k` (1-based). -/
def genCSEnum2bit (CSEnum : Nat) : Nat := CSEnum - 1

/-- Modelled from the spec: the `available` bit of candidate `k`, bit `2(k-1)`. -/
def getCSEAvailBit (CSEnum : Nat) : Nat := genCSEnum2bit CSEnum * 2

/-- Modelled from the spec: the `availableCrossCall` bit of candidate `k`, bit `2(k-1)+1`. -/
def getCSEAvailCrossCallBit (CSEnum : Nat) : Nat := getCSEAvailBit CSEnum + 1

/-- The limit on indexed candidates ("MAX_CSE_CNT (64)" in the header comment of
`optValnumCSE_Index`). -/
def MAX_CSE_CNT : Nat := 64

/-! ## IR nodes, occurrence lists, descriptors -/

/-- An IR node as the CSE phase sees it. `gtCSEnum` is the tag field used by the labeler, which
visits every node once and writes only the node it visits; the indexer reaches nodes through
pointers kept in descriptors and keeps their tags in `Compiler.treeCSEnum`, keyed by
`gtTreeID`. -/
structure GenTree where
  gtTreeID : Nat
  gtCSEnum : Int
  /-- The liberal value number, `GetVN(VNK_Liberal)`. -/
  vnLiberal : ValueNum
  /-- Holds for `OperIs(GT_COMMA)`. -/
  isComma : Bool
  /-- Holds for `varTypeIsStruct(tree)`. -/
  isStruct : Bool
  /-- The liberal value number of `gtOp2` (read for commas only). -/
  op2VnLiberal : ValueNum
  /-- Holds for `IsIntegralConst()`. -/
  isIntegralConst : Bool
  /-- Holds for `OperIs(GT_CNS_INT)`. -/
  isCnsInt : Bool
  /-- Holds for `ImmedValNeedsReloc`. -/
  immedValNeedsReloc : Bool
  /-- Holds for `IsIntegralConst(0)`. -/
  isIntegralConstZero : Bool
  /-- Holds for `varTypeIsGC(tree)`. -/
  isGC : Bool
  /-- The node type, `TypeGet()`. -/
  typeGet : Nat
  /-- Holds for `OperIs(GT_CALL)`. -/
  isCall : Bool
  /-- Holds for `AsCall()->IsAsync()`. -/
  isAsyncCall : Bool
  /-- The local numbers of the `LCL_VAR` nodes of the tree, in pre-order. -/
  lclVars : List Nat
deriving DecidableEq

/-- An entry of an occurrence list (`treeStmtLst` without its `tslNext` link). -/
structure treeStmtLst where
  tslTree : GenTree
  tslStmt : Nat
  tslBlock : Nat
deriving DecidableEq

/-- A candidate descriptor. The occurrence list is the embedded first entry `csdTreeList`
followed by the entries linked through `tslNext`, kept in `tslNext`; `csdTreeLast` is the last
entry of that list. `defExcSetCurrent = none` is the uninitialised marker `VNForNull()`,
`defExcSetPromise = none` is the abandoned marker `NoVN`. -/
structure CSEdsc (W : Type) where
  csdHashKey : Nat
  csdConstDefValue : Nat
  csdIndex : Nat
  csdIsSharedConst : Bool
  csdLiveAcrossCall : Bool
  csdDefCount : Nat
  csdUseCount : Nat
  csdDefWtCnt : W
  csdUseWtCnt : W
  defExcSetPromise : Option ExcSet
  defExcSetCurrent : Option ExcSet
  csdTreeList : treeStmtLst
  tslNext : List treeStmtLst
  numDistinctLocals : Nat
  numLocalOccurrences : Nat

/-- A statement: its identity and its nodes in execution order (`stmt->TreeList()`). -/
structure Statement where
  stmtID : Nat
  /-- Holds when the root node is a `GT_RETURN`. -/
  rootIsReturn : Bool
  treeList : List GenTree
deriving DecidableEq

/-- A basic block: number, predecessors, the flags the CSE phase reads, weight, statements. -/
structure BasicBlock (W : Type) where
  bbNum : Nat
  bbPreds : List Nat
  BBF_HAS_CALL : Bool
  BBF_NO_CSE_IN : Bool
  /-- Holds for `bbIsHandlerBeg(block)`. -/
  isHandlerBeg : Bool
  bbWeight : W
  stmts : List Statement

/-- The compiler state the CSE phase works on. Per-block bit vectors are keyed by `bbNum`. -/
structure Compiler (W : Type) where
  vnStore : ValueNumStore
  optCSEhash : List (List (CSEdsc W))
  optCSEhashSize : Nat
  optCSEhashCount : Nat
  optCSEhashMaxCountBeforeResize : Nat
  optCSECandidateCount : Nat
  optDoCSE : Bool
  optCSEtab : List (Option (CSEdsc W))
  compCurBB : Nat
  /-- The `gtCSEnum` field of every node, keyed by `gtTreeID` (the indexer). -/
  treeCSEnum : Nat → Int
  /-- The result of `optSharedConstantCSEEnabled()`. -/
  sharedConstantCSEEnabled : Bool
  /-- The shared-constant key encoding `Encode_Shared_Const_CSE_Value`. -/
  encodeSharedConst : Nat → Nat
  /-- The bit count of `cseLivenessTraits`. -/
  cseLivenessTraits : Nat
  cseCallKillsMask : EXPSET_TP
  cseAsyncKillsMask : EXPSET_TP
  compIsAsync : Bool
  fgFirstBB : Nat
  bbCseIn : Nat → EXPSET_TP
  bbCseOut : Nat → EXPSET_TP
  bbCseGen : Nat → EXPSET_TP
  /-- The helper `BitVecOps::DataFlowD(traits, out, gen, in)`, which yields the new `out`. It is
  declared outside the sources and is a parameter; what a property needs of it is stated as a
  hypothesis of that property. -/
  DataFlowD : EXPSET_TP → EXPSET_TP → EXPSET_TP → EXPSET_TP

/-! ## `optCSEfindDsc` -/

/-- Return the descriptor for the CSE with the given index; `none` when a `noway_assert`
(index non-zero, index within `optCSECandidateCount`, slot non-null) fails. -/
def optCSEfindDsc {W : Type} (c : Compiler W) (index : Nat) : Option (CSEdsc W) :=
  if index = 0 then none
  else if c.optCSECandidateCount < index then none
  else (c.optCSEtab.get? (index - 1)).join

/-- Write back the descriptor reached through `optCSEtab[index - 1]`. -/
def setDsc {W : Type} (c : Compiler W) (index : Nat) (desc : CSEdsc W) : Compiler W :=
  { c with optCSEtab := c.optCSEtab.set (index - 1) (some desc) }

/-! ## `optValnumCSE_Availability` -/

/-- The call handling at the end of the per-node body of `optValnumCSE_Availability`
(reached only when the body did not `continue`). -/
def availabilityCallKill {W : Type} (c : Compiler W) (available_cses : EXPSET_TP)
    (tree : GenTree) (isUse isDef : Bool) : EXPSET_TP :=
  if tree.isCall then
    if available_cses ≠ MakeEmpty then
      if isUse then available_cses
      else
        let a1 := available_cses ∩ c.cseCallKillsMask
        let a2 := if tree.isAsyncCall && c.compIsAsync then a1 ∩ c.cseAsyncKillsMask else a1
        if isDef then
          insert (getCSEAvailCrossCallBit (GET_CSE_INDEX tree.gtCSEnum)) a2
        else a2
    else available_cses
  else available_cses

/-- The live-across-call marking (lines 1486-1496): a use whose available-across-call bit is
not in `available_cses` marks the candidate live across a call. -/
def markLiveAcrossCall {W : Type} (isUse crossCallAvail : Bool) (desc : CSEdsc W) : CSEdsc W :=
  if isUse && !desc.csdLiveAcrossCall && !crossCallAvail then
    { desc with csdLiveAcrossCall := true }
  else desc

/-- The update of `defExcSetCurrent` at a def (lines 1541-1577): the first def records its
exception set, a later def with a different set intersects. -/
def recordDefExcSet {W : Type} (theLiberalExcSet : ExcSet) (desc : CSEdsc W) : CSEdsc W :=
  match desc.defExcSetCurrent with
  | none => { desc with defExcSetCurrent := some theLiberalExcSet }
  | some cur =>
    if cur ≠ theLiberalExcSet then
      { desc with defExcSetCurrent := some (VNExcSetIntersection cur theLiberalExcSet) }
    else desc

/-- The update of `defExcSetPromise` at a use with a non-empty exception set (lines
1633-1656); `promise` is the current, not abandoned, value of `defExcSetPromise`. -/
def promiseUseExcSet {W : Type} (theLiberalExcSet promise : ExcSet) (desc : CSEdsc W) :
    CSEdsc W :=
  match desc.defExcSetCurrent with
  | none => { desc with defExcSetPromise := some (VNExcSetUnion promise theLiberalExcSet) }
  | some cur =>
    if VNExcIsSubset cur theLiberalExcSet then
      { desc with defExcSetPromise := some (VNExcSetUnion promise theLiberalExcSet) }
    else desc

/-- The abandon marker: `desc->defExcSetPromise = ValueNumStore::NoVN`. -/
def abandonDsc {W : Type} (desc : CSEdsc W) : CSEdsc W :=
  { desc with defExcSetPromise := none }

/-- An accepted def: `csdDefCount += 1; csdDefWtCnt += stmw`. -/
def acceptDef {W : Type} [Add W] (stmw : W) (desc : CSEdsc W) : CSEdsc W :=
  { desc with csdDefCount := desc.csdDefCount + 1, csdDefWtCnt := desc.csdDefWtCnt + stmw }

/-- An accepted use: `csdUseCount += 1; csdUseWtCnt += stmw`. -/
def acceptUse {W : Type} [Add W] (stmw : W) (desc : CSEdsc W) : CSEdsc W :=
  { desc with csdUseCount := desc.csdUseCount + 1, csdUseWtCnt := desc.csdUseWtCnt + stmw }

/-- The assignment `tree->gtCSEnum = x`. -/
def setCSEnum (tree : GenTree) (x : Int) : GenTree := { tree with gtCSEnum := x }

/-- The body of the innermost loop of `optValnumCSE_Availability` for one node: the new compiler
state, the new `available_cses` and the node with its new tag. The three `continue` statements
skip the call handling at the end of the body. -/
def availabilityVisitTree {W : Type} [Add W] (stmw : W) (c : Compiler W)
    (available_cses : EXPSET_TP) (tree : GenTree) :
    Option (Compiler W × EXPSET_TP × GenTree) :=
  if IS_CSE_INDEX tree.gtCSEnum then
    let CSEnum := GET_CSE_INDEX tree.gtCSEnum
    let cseAvailBit := getCSEAvailBit CSEnum
    let cseAvailCrossCallBit := getCSEAvailCrossCallBit CSEnum
    match optCSEfindDsc c CSEnum with
    | none => none
    | some desc0 =>
      let isUse : Bool := decide (cseAvailBit ∈ available_cses)
      let isDef : Bool := !isUse
      let desc1 := markLiveAcrossCall isUse (decide (cseAvailCrossCallBit ∈ available_cses)) desc0
      match desc1.defExcSetPromise with
      | none =>
        -- abandoned: clear the tag and continue
        some (setDsc c CSEnum desc1, available_cses, setCSEnum tree NO_CSE)
      | some promise =>
        let theLiberalExcSet := c.vnStore.VNExceptionSet tree.vnLiberal
        if isDef then
          let desc2 := recordDefExcSet theLiberalExcSet desc1
          if promise ≠ VNForEmptyExcSet ∧ VNExcIsSubset theLiberalExcSet promise = false then
            -- abandon the candidate, clear the tag and continue
            some (setDsc c CSEnum (abandonDsc desc2), available_cses, setCSEnum tree NO_CSE)
          else
            let tree1 := setCSEnum tree (TO_CSE_DEF tree.gtCSEnum)
            let avail1 := insert cseAvailCrossCallBit (insert cseAvailBit available_cses)
            some (setDsc c CSEnum (acceptDef stmw desc2),
              availabilityCallKill c avail1 tree1 isUse isDef, tree1)
        else if theLiberalExcSet ≠ VNForEmptyExcSet then
          let desc2 := promiseUseExcSet theLiberalExcSet promise desc1
          if (match desc2.defExcSetPromise with
              | none => false
              | some p => VNExcIsSubset p theLiberalExcSet) = false then
            -- this use is dropped: clear the tag and continue
            some (setDsc c CSEnum desc2, available_cses, setCSEnum tree NO_CSE)
          else
            some (setDsc c CSEnum (acceptUse stmw desc2),
              availabilityCallKill c available_cses tree isUse isDef, tree)
        else
          some (setDsc c CSEnum (acceptUse stmw desc1),
            availabilityCallKill c available_cses tree isUse isDef, tree)
  else
    some (c, availabilityCallKill c available_cses tree false false, tree)

/-- The loop over the nodes of one statement (`for (GenTree* const tree : stmt->TreeList())`). -/
def availabilityTrees {W : Type} [Add W] (stmw : W) :
    Compiler W → EXPSET_TP → List GenTree → Option (Compiler W × EXPSET_TP × List GenTree)
  | c, a, [] => some (c, a, [])
  | c, a, t :: ts =>
    match availabilityVisitTree stmw c a t with
    | none => none
    | some (c1, a1, t1) =>
      match availabilityTrees stmw c1 a1 ts with
      | none => none
      | some (c2, a2, ts1) => some (c2, a2, t1 :: ts1)

/-- The loop over the statements of one block (`block->NonPhiStatements()`). -/
def availabilityStmts {W : Type} [Add W] (stmw : W) :
    Compiler W → EXPSET_TP → List Statement → Option (Compiler W × EXPSET_TP × List Statement)
  | c, a, [] => some (c, a, [])
  | c, a, s :: ss =>
    match availabilityTrees stmw c a s.treeList with
    | none => none
    | some (c1, a1, ts1) =>
      match availabilityStmts stmw c1 a1 ss with
      | none => none
      | some (c2, a2, ss1) => some (c2, a2, { s with treeList := ts1 } :: ss1)

/-- The loop over the blocks: `available_cses` restarts from `block->bbCseIn` in every block. -/
def availabilityBlocks {W : Type} [Add W] :
    Compiler W → List (BasicBlock W) → Option (Compiler W × List (BasicBlock W))
  | c, [] => some (c, [])
  | c, b :: bs =>
    match availabilityStmts b.bbWeight { c with compCurBB := b.bbNum } (c.bbCseIn b.bbNum)
        b.stmts with
    | none => none
    | some (c1, _, ss1) =>
      match availabilityBlocks c1 bs with
      | none => none
      | some (c2, bs1) => some (c2, { b with stmts := ss1 } :: bs1)

/-- The labeler `Compiler::optValnumCSE_Availability` over the blocks in the order given:
the final compiler state and the blocks with the new node tags. -/
def optValnumCSE_Availability {W : Type} [Add W] (c : Compiler W) (blocks : List (BasicBlock W)) :
    Option (Compiler W × List (BasicBlock W)) :=
  availabilityBlocks c blocks

/-! ### Relations used to state what the labeler does -/

/-- The exception set the labeler reads for a node, `VNExceptionSet(tree->gtVNPair.GetLiberal())`. -/
def liberalExcSet {W : Type} (c : Compiler W) (tree : GenTree) : ExcSet :=
  c.vnStore.VNExceptionSet tree.vnLiberal

/-- What one visit of the labeler does to the descriptor `d0` of the visited node (giving `d1`)
and to the tag of the node (`tag` before, `tag1` after); `lib` is the liberal exception set of
the node and `isUse` the classification of the occurrence. -/
structure VisitEffect {W : Type} (lib : ExcSet) (isUse : Bool) (d0 d1 : CSEdsc W)
    (tag tag1 : Int) : Prop where
  tag_cases : tag1 = NO_CSE ∨ (tag1 = tag ∧ isUse = true) ∨ (tag1 = TO_CSE_DEF tag ∧ isUse = false)
  abandoned : d0.defExcSetPromise = none →
    d1.defExcSetPromise = none ∧ d1.defExcSetCurrent = d0.defExcSetCurrent ∧
    d1.csdDefCount = d0.csdDefCount ∧ d1.csdUseCount = d0.csdUseCount ∧
    d1.csdDefWtCnt = d0.csdDefWtCnt ∧ d1.csdUseWtCnt = d0.csdUseWtCnt ∧ tag1 = NO_CSE
  promise_mono : ∀ P1, d1.defExcSetPromise = some P1 →
    ∃ P, d0.defExcSetPromise = some P ∧ P ⊆ P1
  current_mono : ∀ C, d0.defExcSetCurrent = some C →
    ∃ C1, d1.defExcSetCurrent = some C1 ∧ C1 ⊆ C
  promise_sub_current :
    (∀ P C, d0.defExcSetPromise = some P → d0.defExcSetCurrent = some C → P ⊆ C) →
    ∀ P C, d1.defExcSetPromise = some P → d1.defExcSetCurrent = some C → P ⊆ C
  def_has_current : (1 ≤ d0.csdDefCount → d0.defExcSetCurrent ≠ none) →
    1 ≤ d1.csdDefCount → d1.defExcSetCurrent ≠ none
  use_ok : tag1 = tag → tag ≠ 0 → ∀ P1, d1.defExcSetPromise = some P1 → lib ⊆ P1
  def_ok : tag1 = TO_CSE_DEF tag → tag ≠ 0 → ∃ C1, d1.defExcSetCurrent = some C1 ∧ C1 ⊆ lib
  use_keeps : isUse = true → d0.defExcSetPromise ≠ none → d1.defExcSetPromise ≠ none
  use_drop : isUse = true → d0.defExcSetPromise ≠ none → tag ≠ 0 → tag1 = NO_CSE →
    d1.defExcSetPromise = d0.defExcSetPromise ∧ d1.defExcSetCurrent = d0.defExcSetCurrent ∧
    d1.csdDefCount = d0.csdDefCount ∧ d1.csdUseCount = d0.csdUseCount ∧
    d1.csdDefWtCnt = d0.csdDefWtCnt ∧ d1.csdUseWtCnt = d0.csdUseWtCnt ∧
    ∀ P, d0.defExcSetPromise = some P → ¬ lib ⊆ P
  same_index : d1.csdIndex = d0.csdIndex

/-- The order in which a descriptor evolves during labeling: the promise only grows until it is
abandoned, the current def set only shrinks once set, an abandoned descriptor is frozen. -/
def DscLe {W : Type} (d d1 : CSEdsc W) : Prop :=
  (∀ P1, d1.defExcSetPromise = some P1 → ∃ P, d.defExcSetPromise = some P ∧ P ⊆ P1) ∧
  (∀ C, d.defExcSetCurrent = some C → ∃ C1, d1.defExcSetCurrent = some C1 ∧ C1 ⊆ C) ∧
  (d.defExcSetPromise = none →
    d1.defExcSetPromise = none ∧ d1.defExcSetCurrent = d.defExcSetCurrent ∧
    d1.csdDefCount = d.csdDefCount ∧ d1.csdUseCount = d.csdUseCount ∧
    d1.csdDefWtCnt = d.csdDefWtCnt ∧ d1.csdUseWtCnt = d.csdUseWtCnt)

/-- The order `DscLe` on every slot of the candidate table, the VN store being the same. -/
def LabelLe {W : Type} (c c1 : Compiler W) : Prop :=
  c1.vnStore = c.vnStore ∧
  ∀ k, (optCSEfindDsc c k = none ∧ optCSEfindDsc c1 k = none) ∨
    ∃ d d1, optCSEfindDsc c k = some d ∧ optCSEfindDsc c1 k = some d1 ∧ DscLe d d1

/-- The invariant of the labeler on every descriptor: the promise is covered by the current def
set, and a descriptor with an accepted def has its current def set initialised. -/
def LabelInv {W : Type} (c : Compiler W) : Prop :=
  ∀ k d, optCSEfindDsc c k = some d →
    (∀ P C, d.defExcSetPromise = some P → d.defExcSetCurrent = some C → P ⊆ C) ∧
    (1 ≤ d.csdDefCount → d.defExcSetCurrent ≠ none)

/-- A node that kept its candidate tag (an accepted use) needs no more than the promise. -/
def UseOK {W : Type} (c : Compiler W) (tree : GenTree) : Prop :=
  0 < tree.gtCSEnum → ∀ d P, optCSEfindDsc c (GET_CSE_INDEX tree.gtCSEnum) = some d →
    d.defExcSetPromise = some P → liberalExcSet c tree ⊆ P

/-- A node retagged as a definition (an accepted def) raises at least the current def set. -/
def DefOK {W : Type} (c : Compiler W) (tree : GenTree) : Prop :=
  tree.gtCSEnum < 0 → ∀ d, optCSEfindDsc c (GET_CSE_INDEX tree.gtCSEnum) = some d →
    ∃ C, d.defExcSetCurrent = some C ∧ C ⊆ liberalExcSet c tree

/-- All nodes of a list of blocks. -/
def blockTrees {W : Type} (blocks : List (BasicBlock W)) : List GenTree :=
  (blocks.map fun b => (b.stmts.map fun s => s.treeList).flatten).flatten

/-! ## The candidate indexer: `optValnumCSE_Init`, `optValnumCSE_Index`, `optCSEstop` -/

/-- The growth factor `s_optCSEhashGrowthFactor`. -/
def s_optCSEhashGrowthFactor : Nat := 2

/-- The bucket occupancy `s_optCSEhashBucketSize`. -/
def s_optCSEhashBucketSize : Nat := 4

/-- The initial table size `s_optCSEhashSizeInitial = EXPSET_SZ * 2`; `EXPSET_SZ` is declared
outside the sources and is a parameter. -/
def s_optCSEhashSizeInitial (EXPSET_SZ : Nat) : Nat := EXPSET_SZ * 2

/-- The function `Compiler::optValnumCSE_Init`: an empty hash table and no candidate. -/
def optValnumCSE_Init {W : Type} (EXPSET_SZ : Nat) (c : Compiler W) : Compiler W :=
  { c with
    optCSEhash := List.replicate (s_optCSEhashSizeInitial EXPSET_SZ) []
    optCSEhashSize := s_optCSEhashSizeInitial EXPSET_SZ
    optCSEhashMaxCountBeforeResize := s_optCSEhashSizeInitial EXPSET_SZ * s_optCSEhashBucketSize
    optCSEhashCount := 0
    optCSECandidateCount := 0
    optDoCSE := false }

/-- The function `optCSEKeyToHashIndex` on a 64-bit target: `hash` is a 32-bit `unsigned`. -/
def optCSEKeyToHashIndex (key optCSEhashSize : Nat) : Nat :=
  let hash0 := key % 2 ^ 32
  let hash1 := hash0 ^^^ ((key / 2 ^ 32) % 2 ^ 32)
  let hash2 := (hash1 * ((optCSEhashSize + 1) % 2 ^ 32)) % 2 ^ 32
  let hash3 := hash2 / 2 ^ 7
  hash3 % optCSEhashSize

/-- The conversion `(signed char)` of an `unsigned` value. -/
def toSignedChar (n : Nat) : Int := (((n + 128) % 256 : Nat) : Int) - 128

/-- The hash key of a node and whether it is a shared-constant key (lines 555-625 of
`optValnumCSE_Index`). -/
def cseHashKey {W : Type} (c : Compiler W) (tree : GenTree) : Nat × Bool :=
  let vnLib := tree.vnLiberal
  let vnLibNorm := c.vnStore.VNNormalValue vnLib
  if tree.isComma && !tree.isStruct then
    if tree.op2VnLiberal ≠ vnLib then (vnLib, false) else (vnLibNorm, false)
  else if c.sharedConstantCSEEnabled && tree.isIntegralConst then
    if !tree.immedValNeedsReloc && (tree.isIntegralConstZero || !tree.isGC) then
      (c.encodeSharedConst (c.vnStore.CoercedConstantValue vnLibNorm), true)
    else (vnLibNorm, false)
  else (vnLibNorm, false)

/-- The test of the lookup loop: the descriptor has the key and, for `GT_CNS_INT` nodes, the
type of the node. -/
def indexMatches {W : Type} (key : Nat) (tree : GenTree) (hashDsc : CSEdsc W) : Bool :=
  decide (hashDsc.csdHashKey = key) &&
    !(tree.isCnsInt && decide (tree.typeGet ≠ hashDsc.csdTreeList.tslTree.typeGet))

/-- Walk a bucket chain to the first descriptor that passes the test: the descriptors before
it, the descriptor, the descriptors after it. -/
def findInBucket {α : Type} (p : α → Bool) : List α → Option (List α × α × List α)
  | [] => none
  | d :: ds =>
    if p d then some ([], d, ds)
    else
      match findInBucket p ds with
      | none => none
      | some (pre, x, post) => some (d :: pre, x, post)

/-- The walk of `LocalCountingVisitor`: the distinct locals seen (at most `MAX_LOCALS = 8`) and
the number of local nodes visited; the walk aborts at the ninth distinct local. -/
def localCountingWalk : List Nat → List Nat → Nat → List Nat × Nat
  | [], m_locals, m_occurrences => (m_locals, m_occurrences)
  | lclNum :: rest, m_locals, m_occurrences =>
    if lclNum ∈ m_locals then localCountingWalk rest m_locals (m_occurrences + 1)
    else if 8 ≤ m_locals.length then (m_locals, m_occurrences + 1)
    else localCountingWalk rest (m_locals ++ [lclNum]) (m_occurrences + 1)

/-- The method `CSEdsc::ComputeNumLocals`. -/
def ComputeNumLocals {W : Type} (dsc : CSEdsc W) : CSEdsc W :=
  let r := localCountingWalk dsc.csdTreeList.tslTree.lclVars [] 0
  { dsc with numDistinctLocals := r.1.length, numLocalOccurrences := r.2 }

/-- Chain a descriptor at the head of bucket `hval`. -/
def pushBucket {α : Type} (table : List (List α)) (hval : Nat) (dsc : α) : List (List α) :=
  table.set hval (dsc :: table.getD hval [])

/-- The resize of `optValnumCSE_Index`: every descriptor of the old table, bucket by bucket and
along each chain, is chained at the head of its bucket in a table `s_optCSEhashGrowthFactor`
times as large. -/
def resizeHash {W : Type} (c : Compiler W) : Compiler W :=
  let newOptCSEhashSize := c.optCSEhashSize * s_optCSEhashGrowthFactor
  let newOptCSEhash :=
    ((c.optCSEhash.take c.optCSEhashSize).flatten).foldl
      (fun tab dsc => pushBucket tab (optCSEKeyToHashIndex dsc.csdHashKey newOptCSEhashSize) dsc)
      (List.replicate newOptCSEhashSize [])
  { c with
    optCSEhash := newOptCSEhash
    optCSEhashSize := newOptCSEhashSize
    optCSEhashMaxCountBeforeResize := c.optCSEhashMaxCountBeforeResize * s_optCSEhashGrowthFactor }

/-- The descriptor created for a key that is not in the table (lines 762-782). -/
def newCSEdsc {W : Type} [Zero W] (c : Compiler W) (key : Nat) (tree : GenTree) (stmt : Nat) :
    CSEdsc W :=
  { csdHashKey := key
    csdConstDefValue := 0
    csdIndex := 0
    csdIsSharedConst := false
    csdLiveAcrossCall := false
    csdDefCount := 0
    csdUseCount := 0
    csdDefWtCnt := 0
    csdUseWtCnt := 0
    defExcSetPromise := some VNForEmptyExcSet
    defExcSetCurrent := none
    csdTreeList := { tslTree := tree, tslStmt := stmt, tslBlock := c.compCurBB }
    tslNext := []
    numDistinctLocals := 0
    numLocalOccurrences := 0 }

/-- The function `Compiler::optValnumCSE_Index`: the new compiler state and the CSE index
returned for the node (zero when the node is not a CSE), or `none` when a `noway_assert`
fails. -/
def optValnumCSE_Index {W : Type} [Zero W] (c : Compiler W) (tree : GenTree) (stmt : Nat) :
    Option (Compiler W × Nat) :=
  let key := (cseHashKey c tree).1
  let isSharedConst := (cseHashKey c tree).2
  let vnLib := tree.vnLiberal
  let hval := optCSEKeyToHashIndex key c.optCSEhashSize
  match findInBucket (indexMatches key tree) (c.optCSEhash.getD hval []) with
  | some (pre, hashDsc, post) =>
    let prevTree := hashDsc.csdTreeList.tslTree
    let prevVnLib := prevTree.vnLiberal
    let prevExceptionSet := c.vnStore.VNExceptionSet prevVnLib
    let curExceptionSet := c.vnStore.VNExceptionSet vnLib
    if hashDsc.tslNext = [] ∧ c.compCurBB = hashDsc.csdTreeList.tslBlock ∧ prevVnLib ≠ vnLib ∧
        prevExceptionSet ≠ curExceptionSet ∧
        VNExcIsSubset curExceptionSet prevExceptionSet = true then
      -- the first occurrence is replaced by the current node
      let dsc1 : CSEdsc W :=
        { hashDsc with csdTreeList := { hashDsc.csdTreeList with tslStmt := stmt, tslTree := tree } }
      some ({ c with
              optCSEhash := c.optCSEhash.set hval (pre ++ dsc1 :: post)
              treeCSEnum := Function.update (Function.update c.treeCSEnum prevTree.gtTreeID 0)
                tree.gtTreeID (toSignedChar hashDsc.csdIndex) },
            hashDsc.csdIndex)
    else
      let dsc1 : CSEdsc W :=
        if hashDsc.tslNext = [] then { hashDsc with csdIsSharedConst := isSharedConst }
        else hashDsc
      let newElem : treeStmtLst := { tslTree := tree, tslStmt := stmt, tslBlock := c.compCurBB }
      let dsc2 : CSEdsc W := { dsc1 with tslNext := dsc1.tslNext ++ [newElem] }
      if dsc2.csdIndex = 0 then
        -- newCSE: create a new CSE (unless we have the maximum already)
        if c.optCSECandidateCount = MAX_CSE_CNT then
          some ({ c with optCSEhash := c.optCSEhash.set hval (pre ++ dsc2 :: post)
                         optDoCSE := true }, 0)
        else
          let CSEindex := c.optCSECandidateCount + 1
          if c.treeCSEnum dsc2.csdTreeList.tslTree.gtTreeID ≠ 0 then none
          else if toSignedChar CSEindex ≠ (CSEindex : Int) then none
          else
            let dsc3 : CSEdsc W := ComputeNumLocals { dsc2 with csdIndex := CSEindex }
            some ({ c with
                    optCSEhash := c.optCSEhash.set hval (pre ++ dsc3 :: post)
                    optDoCSE := true
                    optCSECandidateCount := CSEindex
                    treeCSEnum :=
                      Function.update
                        (Function.update c.treeCSEnum dsc2.csdTreeList.tslTree.gtTreeID
                          (toSignedChar CSEindex))
                        tree.gtTreeID (toSignedChar CSEindex) },
                  CSEindex)
      else
        some ({ c with
                optCSEhash := c.optCSEhash.set hval (pre ++ dsc2 :: post)
                optDoCSE := true
                treeCSEnum := Function.update c.treeCSEnum tree.gtTreeID
                  (toSignedChar dsc2.csdIndex) },
              dsc2.csdIndex)
  | none =>
    -- not found: create a new entry (unless we have too many already)
    if c.optCSECandidateCount < MAX_CSE_CNT then
      let c1 : Compiler W :=
        if c.optCSEhashCount = c.optCSEhashMaxCountBeforeResize then resizeHash c else c
      let hval1 := optCSEKeyToHashIndex key c1.optCSEhashSize
      some ({ c1 with
              optCSEhashCount := c1.optCSEhashCount + 1
              optCSEhash := pushBucket c1.optCSEhash hval1 (newCSEdsc c key tree stmt) }, 0)
    else some (c, 0)

/-- The loop of `optCSEstop` over the descriptors: fill the slot `csdIndex - 1` of the table
when it is still null; `none` when `noway_assert(csdIndex <= optCSECandidateCount)` fails. -/
def optCSEstopFill {W : Type} (optCSECandidateCount : Nat) :
    List (Option (CSEdsc W)) → List (CSEdsc W) → Option (List (Option (CSEdsc W)))
  | tab, [] => some tab
  | tab, dsc :: rest =>
    if dsc.csdIndex ≠ 0 then
      if dsc.csdIndex ≤ optCSECandidateCount then
        if (tab.get? (dsc.csdIndex - 1)).join.isNone then
          optCSEstopFill optCSECandidateCount (tab.set (dsc.csdIndex - 1) (some dsc)) rest
        else optCSEstopFill optCSECandidateCount tab rest
      else none
    else optCSEstopFill optCSECandidateCount tab rest

/-- The function `Compiler::optCSEstop`: build `optCSEtab` from the hash table. -/
def optCSEstop {W : Type} (c : Compiler W) : Option (Compiler W) :=
  if c.optCSECandidateCount = 0 then some c
  else
    match optCSEstopFill c.optCSECandidateCount (List.replicate c.optCSECandidateCount none)
        ((c.optCSEhash.take c.optCSEhashSize).flatten) with
    | none => none
    | some tab => some { c with optCSEtab := tab }

/-- The loop of `optValnumCSE_Locate` over the nodes of a statement. -/
def locateTrees {W : Type} [Zero W] (ConsiderTree : GenTree → Bool → Bool) (stmt : Statement) :
    Compiler W → List GenTree → Option (Compiler W)
  | c, [] => some c
  | c, tree :: rest =>
    if !ConsiderTree tree stmt.rootIsReturn then locateTrees ConsiderTree stmt c rest
    else
      match optValnumCSE_Index c tree stmt.stmtID with
      | none => none
      | some (c1, CSEindex) =>
        if CSEindex ≠ 0 ∧ c1.treeCSEnum tree.gtTreeID ≠ (CSEindex : Int) then none
        else locateTrees ConsiderTree stmt c1 rest

/-- The loop of `optValnumCSE_Locate` over the statements of a block. -/
def locateStmts {W : Type} [Zero W] (ConsiderTree : GenTree → Bool → Bool) :
    Compiler W → List Statement → Option (Compiler W)
  | c, [] => some c
  | c, stmt :: rest =>
    match locateTrees ConsiderTree stmt c stmt.treeList with
    | none => none
    | some c1 => locateStmts ConsiderTree c1 rest

/-- The loop of `optValnumCSE_Locate` over the blocks. -/
def locateBlocks {W : Type} [Zero W] (ConsiderTree : GenTree → Bool → Bool) :
    Compiler W → List (BasicBlock W) → Option (Compiler W)
  | c, [] => some c
  | c, block :: rest =>
    match locateStmts ConsiderTree { c with compCurBB := block.bbNum } block.stmts with
    | none => none
    | some c1 => locateBlocks ConsiderTree c1 rest

/-- The function `Compiler::optValnumCSE_Locate`: index every node the heuristic considers, then
build the table. The virtual `heuristic->ConsiderTree` is a parameter. -/
def optValnumCSE_Locate {W : Type} [Zero W] (ConsiderTree : GenTree → Bool → Bool)
    (c : Compiler W) (blocks : List (BasicBlock W)) : Option (Compiler W × Bool) :=
  match locateBlocks ConsiderTree c blocks with
  | none => none
  | some c1 =>
    if !c1.optDoCSE then some (c1, false)
    else
      match optCSEstop c1 with
      | none => none
      | some c2 => some (c2, true)

/-- All descriptors of the hash table, bucket by bucket. -/
def allDscs {W : Type} (c : Compiler W) : List (CSEdsc W) := c.optCSEhash.flatten

/-- The occurrence list of a descriptor: the embedded first entry, then the linked entries. -/
def CSEdsc.occurrences {W : Type} (dsc : CSEdsc W) : List treeStmtLst :=
  dsc.csdTreeList :: dsc.tslNext

/-! ## Availability dataflow: `optValnumCSE_InitDataFlow`, `CSE_DataFlow` -/

/-- The mask built by the first loop of `optValnumCSE_InitDataFlow`: the available bit of every
candidate `1..optCSECandidateCount`. -/
def initCallKillsMask (optCSECandidateCount : Nat) : EXPSET_TP :=
  (List.range optCSECandidateCount).foldl (fun m i => insert (getCSEAvailBit (i + 1)) m) MakeEmpty

/-- The body of the block loop of `optValnumCSE_InitDataFlow` (lines 946-982), with
`CSE_INTO_HANDLERS` undefined: `bbCseIn` is empty for the entry block and for handler entries and
full otherwise, `bbCseOut` is full, `bbCseGen` is empty. -/
def initDataFlowBlock {W : Type} (c : Compiler W) (block : BasicBlock W) : Compiler W :=
  let init_to_zero : Bool := decide (block.bbNum = c.fgFirstBB) || block.isHandlerBeg
  let newIn : EXPSET_TP := if init_to_zero then MakeEmpty else MakeFull c.cseLivenessTraits
  { c with
    bbCseIn := Function.update c.bbCseIn block.bbNum newIn
    bbCseOut := Function.update c.bbCseOut block.bbNum (MakeFull c.cseLivenessTraits)
    bbCseGen := Function.update c.bbCseGen block.bbNum MakeEmpty }

/-- Lines 931-982 of `optValnumCSE_InitDataFlow`: the traits (two bits per candidate plus one),
`cseCallKillsMask`, and the initial `bbCseIn`, `bbCseOut`, `bbCseGen` of every block. -/
def initDataFlowInOut {W : Type} (c : Compiler W) (blocks : List (BasicBlock W)) : Compiler W :=
  let bitCount := c.optCSECandidateCount * 2 + 1
  let c1 : Compiler W :=
    { c with cseLivenessTraits := bitCount
             cseCallKillsMask := initCallKillsMask c.optCSECandidateCount }
  blocks.foldl initDataFlowBlock c1

/-- The dataflow callback object: the compiler and the value of `bbCseOut` recorded by
`StartMerge`. -/
structure CSE_DataFlow (W : Type) where
  m_comp : Compiler W
  m_preMergeOut : EXPSET_TP

/-- The callback `CSE_DataFlow::StartMerge`: record `block->bbCseOut`. -/
def CSE_DataFlow.StartMerge {W : Type} (df : CSE_DataFlow W) (block : BasicBlock W) :
    CSE_DataFlow W :=
  { df with m_preMergeOut := df.m_comp.bbCseOut block.bbNum }

/-- The callback `CSE_DataFlow::Merge`: intersect `block->bbCseIn` with `predBlock->bbCseOut`. -/
def CSE_DataFlow.Merge {W : Type} (df : CSE_DataFlow W) (block : BasicBlock W) (predBlock : Nat) :
    CSE_DataFlow W :=
  let newIn := df.m_comp.bbCseIn block.bbNum ∩ df.m_comp.bbCseOut predBlock
  { df with m_comp := { df.m_comp with bbCseIn := Function.update df.m_comp.bbCseIn block.bbNum newIn } }

/-- The callback `CSE_DataFlow::MergeHandler`: its body is empty. -/
def CSE_DataFlow.MergeHandler {W : Type} (df : CSE_DataFlow W) (_block : BasicBlock W) :
    CSE_DataFlow W := df

/-- The callback `CSE_DataFlow::EndMerge`: clear `bbCseIn` of a `BBF_NO_CSE_IN` block, compute
`bbCseOut` with `DataFlowD` (from `bbCseIn`, or from `bbCseIn AND cseCallKillsMask` when the block
has a call and `bbCseIn` is not empty), and report whether `bbCseOut` differs from the value
recorded by `StartMerge`. -/
def CSE_DataFlow.EndMerge {W : Type} (df : CSE_DataFlow W) (block : BasicBlock W) :
    CSE_DataFlow W × Bool :=
  let c := df.m_comp
  let c1 : Compiler W :=
    if block.BBF_NO_CSE_IN then { c with bbCseIn := Function.update c.bbCseIn block.bbNum MakeEmpty }
    else c
  let c2 : Compiler W :=
    if !block.BBF_HAS_CALL || decide (c1.bbCseIn block.bbNum = MakeEmpty) then
      let newOut :=
        c1.DataFlowD (c1.bbCseOut block.bbNum) (c1.bbCseGen block.bbNum) (c1.bbCseIn block.bbNum)
      { c1 with bbCseOut := Function.update c1.bbCseOut block.bbNum newOut }
    else
      let cseIn_withCallsKill := c1.bbCseIn block.bbNum ∩ c1.cseCallKillsMask
      let newOut :=
        c1.DataFlowD (c1.bbCseOut block.bbNum) (c1.bbCseGen block.bbNum) cseIn_withCallsKill
      { c1 with bbCseOut := Function.update c1.bbCseOut block.bbNum newOut }
  let notDone : Bool := !decide (c2.bbCseOut block.bbNum = df.m_preMergeOut)
  ({ df with m_comp := c2 }, notDone)

/-- Modelled from the spec: one visit of the forward driver to a block. The driver
(`DataFlow::ForwardAnalysis`) is outside the sources; the spec has it take the snapshot at
start-of-merge, merge the predecessors (handler entries are not merged into: `MergeHandler`) and
compare the post-transfer `out` to the snapshot in `EndMerge`. -/
def forwardVisit {W : Type} (df : CSE_DataFlow W) (block : BasicBlock W) : CSE_DataFlow W × Bool :=
  let df1 := df.StartMerge block
  let df2 :=
    if block.isHandlerBeg then df1.MergeHandler block
    else block.bbPreds.foldl (fun d predBlock => d.Merge block predBlock) df1
  df2.EndMerge block

/-- Modelled from the spec: one pass of the forward driver over the blocks in the order given,
and whether some `EndMerge` reported a change. -/
def forwardPass {W : Type} : CSE_DataFlow W → List (BasicBlock W) → CSE_DataFlow W × Bool
  | df, [] => (df, false)
  | df, block :: rest =>
    let r := forwardVisit df block
    let r2 := forwardPass r.1 rest
    (r2.1, r.2 || r2.2)

/-- Modelled from the spec: the forward driver ("continue until no block changes"), with a bound
on the number of passes; `none` when the bound is reached before a pass without change. -/
def ForwardAnalysis {W : Type} : Nat → CSE_DataFlow W → List (BasicBlock W) → Option (CSE_DataFlow W)
  | 0, _, _ => none
  | fuel + 1, df, blocks =>
    let r := forwardPass df blocks
    if r.2 then ForwardAnalysis fuel r.1 blocks else some r.1

/-- The intersection of `bbCseOut(p)` over the predecessors `p` given (all ones for none). -/
def predsMeet {W : Type} (c : Compiler W) (preds : List Nat) : EXPSET_TP :=
  preds.foldr (fun p acc => c.bbCseOut p ∩ acc) (MakeFull c.cseLivenessTraits)

/-- The mask `M` of the block transfer: `cseCallKillsMask` for a block with `BBF_HAS_CALL`, all
ones otherwise. -/
def transferMask {W : Type} (c : Compiler W) (block : BasicBlock W) : EXPSET_TP :=
  if block.BBF_HAS_CALL then c.cseCallKillsMask else MakeFull c.cseLivenessTraits

/-- Modelled from the spec: `BitVecOps::DataFlowD(out, gen, in)`, which the sources call and do
not define: `out &= gen | in`. The helper never adds a bit to `out`; the async paragraph of the
spec and lines 1179-1181 and 1193-1194 rest on that when they intersect `bbCseOut` with
`cseAsyncKillsMask` before the analysis runs, and from the all-ones `bbCseOut` of the
initialisation the helper yields the block transfer `gen ∪ in`. -/
def clampedDataFlowD (out gen inSet : EXPSET_TP) : EXPSET_TP := out ∩ (gen ∪ inSet)

/-- The block transfer of the spec applied to a value of `in`: `gen ∪ (in ∩ M)`. -/
def blockTransfer {W : Type} (c : Compiler W) (block : BasicBlock W) (inSet : EXPSET_TP) :
    EXPSET_TP :=
  c.bbCseGen block.bbNum ∪ (inSet ∩ transferMask c block)

/-- The value of `bbCseIn(block)` after one visit of the driver to the block. -/
def visitIn {W : Type} (c : Compiler W) (block : BasicBlock W) : EXPSET_TP :=
  if block.BBF_NO_CSE_IN then MakeEmpty
  else if block.isHandlerBeg then c.bbCseIn block.bbNum
  else block.bbPreds.foldl (fun acc p => acc ∩ c.bbCseOut p) (c.bbCseIn block.bbNum)

/-- The value of `bbCseOut(block)` after one visit of the driver to the block. -/
def visitOut {W : Type} (c : Compiler W) (block : BasicBlock W) : EXPSET_TP :=
  c.DataFlowD (c.bbCseOut block.bbNum) (c.bbCseGen block.bbNum)
    (if !block.BBF_HAS_CALL || decide (visitIn c block = MakeEmpty) then visitIn c block
     else visitIn c block ∩ c.cseCallKillsMask)

/-- The invariant of the forward analysis on the blocks it visits: every set is within the
trait's bits, `bbCseOut` is still all ones or is the transfer of `bbCseIn`, and `bbCseIn` of a
block that is neither the entry, nor a handler entry, nor `BBF_NO_CSE_IN` contains the
intersection of its predecessors' `bbCseOut`. -/
def FlowWF {W : Type} (c : Compiler W) (blocks : List (BasicBlock W)) : Prop :=
  (∀ b ∈ blocks, c.bbCseGen b.bbNum ⊆ MakeFull c.cseLivenessTraits) ∧
  (∀ b ∈ blocks, c.bbCseIn b.bbNum ⊆ MakeFull c.cseLivenessTraits) ∧
  (∀ b ∈ blocks, c.bbCseOut b.bbNum = MakeFull c.cseLivenessTraits ∨
    c.bbCseOut b.bbNum = blockTransfer c b (c.bbCseIn b.bbNum)) ∧
  (∀ b ∈ blocks, b.bbNum ≠ c.fgFirstBB → b.isHandlerBeg = false → b.BBF_NO_CSE_IN = false →
    predsMeet c b.bbPreds ⊆ c.bbCseIn b.bbNum)

/-- What the forward analysis never writes: everything but `bbCseIn` and `bbCseOut`. -/
def SameStatic {W : Type} (c c1 : Compiler W) : Prop :=
  c1.bbCseGen = c.bbCseGen ∧ c1.cseCallKillsMask = c.cseCallKillsMask ∧
  c1.cseLivenessTraits = c.cseLivenessTraits ∧ c1.DataFlowD = c.DataFlowD ∧
  c1.fgFirstBB = c.fgFirstBB

/-- The number of bits set in `bbCseOut`, summed over the blocks: it bounds the number of
passes of the forward analysis. -/
def outMeasure {W : Type} (c : Compiler W) (blocks : List (BasicBlock W)) : Nat :=
  (blocks.map fun b => (c.bbCseOut b.bbNum).card).sum

/-! ## Viability of a candidate -/

/-- Modelled from the spec: `CSEdsc::IsViable` (declared outside the sources), "defCount ≥ 1 ∧
useCount ≥ 1 ∧ defExcSetPromise ≠ ABANDONED". -/
def CSEdsc.IsViable {W : Type} (dsc : CSEdsc W) : Bool :=
  decide (1 ≤ dsc.csdDefCount) && decide (1 ≤ dsc.csdUseCount) && dsc.defExcSetPromise.isSome

/-- The guards of `CSE_HeuristicRandom::ConsiderCandidates` in front of `PerformCSE`: not
abandoned, a use, a def. -/
def randomPolicyPerforms {W : Type} (dsc : CSEdsc W) : Bool :=
  dsc.defExcSetPromise.isSome && !decide (dsc.csdUseCount = 0) &&
    !(decide (dsc.csdDefCount ≤ 0) || decide (dsc.csdUseCount = 0))

/-! ### The invariant of the indexer -/

/-- The non-zero indices carried by a list of descriptors. -/
def indexedList {W : Type} (L : List (CSEdsc W)) : List Nat :=
  (L.map fun d => d.csdIndex).filter fun k => decide (k ≠ 0)

/-- The invariant of `optValnumCSE_Index`: at most `MAX_CSE_CNT` candidates; the non-zero
indices of the descriptors are exactly `1..optCSECandidateCount`, each once; an indexed
descriptor has a second occurrence; the table has `optCSEhashSize > 0` buckets; `optDoCSE` is
set once a candidate exists. -/
def IndexInv {W : Type} (c : Compiler W) : Prop :=
  c.optCSECandidateCount ≤ MAX_CSE_CNT ∧
  List.Perm (indexedList (allDscs c)) (List.range' 1 c.optCSECandidateCount) ∧
  (∀ d ∈ allDscs c, d.csdIndex ≠ 0 → d.tslNext ≠ []) ∧
  c.optCSEhash.length = c.optCSEhashSize ∧ 0 < c.optCSEhashSize ∧
  (0 < c.optCSECandidateCount → c.optDoCSE = true)

/-- The identities of the nodes of a statement that the heuristic considers, in visit order. -/
def consideredTrees (ConsiderTree : GenTree → Bool → Bool) (stmt : Statement) : List Nat :=
  (stmt.treeList.filter fun t => ConsiderTree t stmt.rootIsReturn).map fun t => t.gtTreeID

/-- The identities of the nodes that `optValnumCSE_Locate` hands to `optValnumCSE_Index`, in
visit order. -/
def consideredIDs {W : Type} (ConsiderTree : GenTree → Bool → Bool)
    (blocks : List (BasicBlock W)) : List Nat :=
  (blocks.map fun b => (b.stmts.map (consideredTrees ConsiderTree)).flatten).flatten

/-- The invariant of the tags while the nodes `todo` are still to be indexed: these nodes are
untagged and are not the first occurrence of a descriptor; the first occurrence of a descriptor
without an index is untagged (the `noway_assert` of line 817); no node is the first occurrence
of two descriptors. -/
def TagInv {W : Type} (c : Compiler W) (todo : List Nat) : Prop :=
  (∀ id ∈ todo, c.treeCSEnum id = 0) ∧
  (∀ d ∈ allDscs c, d.csdTreeList.tslTree.gtTreeID ∉ todo) ∧
  (∀ d ∈ allDscs c, d.csdIndex = 0 → c.treeCSEnum d.csdTreeList.tslTree.gtTreeID = 0) ∧
  ((allDscs c).map fun d => d.csdTreeList.tslTree.gtTreeID).Nodup

/-- The bucket invariant of the hash table: `optCSEhashSize > 0` buckets; every descriptor is
chained in the bucket `optCSEKeyToHashIndex(csdHashKey, optCSEhashSize)`; `optCSEhashCount`
counts the descriptors and is at most `optCSEhashMaxCountBeforeResize`, which is
`optCSEhashSize * s_optCSEhashBucketSize`. -/
def BucketInv {W : Type} (c : Compiler W) : Prop :=
  c.optCSEhash.length = c.optCSEhashSize ∧ 0 < c.optCSEhashSize ∧
  (∀ (i : Nat) (d : CSEdsc W), d ∈ c.optCSEhash.getD i [] →
    optCSEKeyToHashIndex d.csdHashKey c.optCSEhashSize = i) ∧
  c.optCSEhashCount = (allDscs c).length ∧
  c.optCSEhashCount ≤ c.optCSEhashMaxCountBeforeResize ∧
  c.optCSEhashMaxCountBeforeResize = c.optCSEhashSize * s_optCSEhashBucketSize

/-- A sequence of `optValnumCSE_Index` calls, each with the current block and the statement
of the node; `none` when a `noway_assert` fails. -/
def indexCalls {W : Type} [Zero W] :
    Compiler W → List (Nat × Nat × GenTree) → Option (Compiler W)
  | c, [] => some c
  | c, (block, stmt, tree) :: rest =>
    match optValnumCSE_Index { c with compCurBB := block } tree stmt with
    | none => none
    | some (c1, _) => indexCalls c1 rest

/-! ## `optValnumCSE_SetUpAsyncByrefKills`: the mask -/

/-- The by-ref test of `optValnumCSE_SetUpAsyncByrefKills` on the first tree of a candidate:
`TypeIs(TYP_BYREF)`, or `TypeIs(TYP_STRUCT)` with a layout that has a GC by-ref. The type codes
and the layout query are declared outside the sources and are parameters. -/
def isByRefCSE (TYP_BYREF TYP_STRUCT : Nat) (layoutHasGCByRef : GenTree → Bool)
    (tree : GenTree) : Bool :=
  if tree.typeGet = TYP_BYREF then true
  else if tree.typeGet = TYP_STRUCT then layoutHasGCByRef tree
  else false

/-- The first loop of `optValnumCSE_SetUpAsyncByrefKills` over the candidate numbers `inx`:
both bits of a by-ref candidate are removed from the mask; `none` when `optCSEtab[inx - 1]` is
null. -/
def asyncKillsLoop {W : Type} (TYP_BYREF TYP_STRUCT : Nat) (layoutHasGCByRef : GenTree → Bool)
    (optCSEtab : List (Option (CSEdsc W))) : List Nat → EXPSET_TP → Option EXPSET_TP
  | [], mask => some mask
  | inx :: rest, mask =>
    match (optCSEtab.get? (inx - 1)).join with
    | none => none
    | some dsc =>
      if isByRefCSE TYP_BYREF TYP_STRUCT layoutHasGCByRef dsc.csdTreeList.tslTree then
        asyncKillsLoop TYP_BYREF TYP_STRUCT layoutHasGCByRef optCSEtab rest
          ((mask.erase (getCSEAvailBit inx)).erase (getCSEAvailCrossCallBit inx))
      else asyncKillsLoop TYP_BYREF TYP_STRUCT layoutHasGCByRef optCSEtab rest mask

/-- The value `optValnumCSE_SetUpAsyncByrefKills` gives `cseAsyncKillsMask` (lines 1110-1134):
all ones, without the two bits of every by-ref candidate `1..optCSECandidateCount`. -/
def asyncKillsMask {W : Type} (TYP_BYREF TYP_STRUCT : Nat) (layoutHasGCByRef : GenTree → Bool)
    (c : Compiler W) : Option EXPSET_TP :=
  asyncKillsLoop TYP_BYREF TYP_STRUCT layoutHasGCByRef c.optCSEtab
    (List.range' 1 c.optCSECandidateCount) (MakeFull c.cseLivenessTraits)

/-! ## `optCSE_canSwap` -/

/-- The operand subtrees of a node: the first operand with its own operands, then the
remaining operands (`next`). -/
inductive GenTreeOps where
  | none : GenTreeOps
  | tree (node : GenTree) (operands : GenTreeOps) (next : GenTreeOps) : GenTreeOps
deriving DecidableEq

/-- Modelled from the spec: the nodes that `GenTreeVisitor::WalkTree` hands to `PreOrderVisit`
when every visit answers `WALK_CONTINUE`: each node before its operands. -/
def GenTreeOps.preOrder : GenTreeOps → List GenTree
  | GenTreeOps.none => []
  | GenTreeOps.tree node operands next => node :: (operands.preOrder ++ next.preOrder)

/-- The two masks of `optCSE_MaskData`; bit `genCSEnum2bit(k)` stands for candidate `k`. -/
structure optCSE_MaskData where
  CSE_defMask : EXPSET_TP
  CSE_useMask : EXPSET_TP

/-- The visit `MaskDataWalker::PreOrderVisit` of `optCSE_GetMaskData`. -/
def MaskDataWalker.PreOrderVisit (m_maskData : optCSE_MaskData) (tree : GenTree) :
    optCSE_MaskData :=
  if IS_CSE_INDEX tree.gtCSEnum then
    let cseIndex := GET_CSE_INDEX tree.gtCSEnum
    let cseBit := genCSEnum2bit cseIndex
    if IS_CSE_DEF tree.gtCSEnum then
      { m_maskData with CSE_defMask := insert cseBit m_maskData.CSE_defMask }
    else
      { m_maskData with CSE_useMask := insert cseBit m_maskData.CSE_useMask }
  else m_maskData

/-- The function `Compiler::optCSE_GetMaskData`: walk all the nodes of the tree `tree` (with
the operand subtrees `operands`) from two empty masks. -/
def optCSE_GetMaskData (tree : GenTree) (operands : GenTreeOps) : optCSE_MaskData :=
  (tree :: operands.preOrder).foldl MaskDataWalker.PreOrderVisit
    { CSE_defMask := MakeEmpty, CSE_useMask := MakeEmpty }

/-- The function `Compiler::optCSE_canSwap` on the trees `op1` and `op2`, each given with its
operand subtrees. -/
def optCSE_canSwap (op1 : GenTree) (operands1 : GenTreeOps) (op2 : GenTree)
    (operands2 : GenTreeOps) : Bool :=
  let op1MaskData := optCSE_GetMaskData op1 operands1
  let op2MaskData := optCSE_GetMaskData op2 operands2
  if ¬ (op1MaskData.CSE_defMask ∩ op2MaskData.CSE_useMask = ∅) then false
  else if ¬ (op2MaskData.CSE_defMask ∩ op1MaskData.CSE_useMask = ∅) then false
  else true

/-- Candidate `k` is tagged as a CSE def on some node of the list. -/
def hasCseDef (nodes : List GenTree) (k : Nat) : Prop :=
  ∃ n ∈ nodes, IS_CSE_DEF n.gtCSEnum = true ∧ GET_CSE_INDEX n.gtCSEnum = k

/-- Candidate `k` is tagged as a CSE use on some node of the list. -/
def hasCseUse (nodes : List GenTree) (k : Nat) : Prop :=
  ∃ n ∈ nodes, IS_CSE_USE n.gtCSEnum = true ∧ GET_CSE_INDEX n.gtCSEnum = k

/-! ## The rewriter: `optUnmarkCSE`, `optExtractSideEffectsForCSE`, `PerformCSE` -/

/-- The conversion of an integer to `ssize_t` (64 bits, two's complement). -/
def toSsize (i : Int) : Int := (i + 2 ^ 63) % 2 ^ 64 - 2 ^ 63

/-- An `ssize_t` as the 64-bit pattern kept in the field `csdConstDefValue`. -/
def ofSsize (i : Int) : Nat := (i % 2 ^ 64).toNat

/-- The call `CoercedConstantValue<ssize_t>(vn)`: the coerced constant read as a signed value. -/
def ValueNumStore.CoercedConstantValueSsize (vnStore : ValueNumStore) (vn : ValueNum) : Int :=
  toSsize (vnStore.CoercedConstantValue vn)

/-- The trees the rewriter builds: an existing node of the IR (with the subtree it has), a new
integer constant (`gtNewIconNode`), a new use of a local (`gtNewLclvNode`), a new store to a
local (`gtNewTempStore`) with the tag moved to it, a new `GT_ADD`, a new `GT_COMMA`. Value
numbers of new nodes are not part of the embedding. -/
inductive CseTree where
  | node (tree : GenTree) : CseTree
  | icon (value : Int) : CseTree
  | lclVar (lclNum : Nat) : CseTree
  | store (lclNum : Nat) (gtCSEnum : Int) (data : CseTree) : CseTree
  | add (op1 op2 : CseTree) : CseTree
  | comma (op1 op2 : CseTree) : CseTree
deriving DecidableEq

/-- The number of uses (`GT_LCL_VAR`) of the local `lclNum` among the new nodes of a tree. -/
def CseTree.loads (lclNum : Nat) : CseTree → Nat
  | CseTree.node _ => 0
  | CseTree.icon _ => 0
  | CseTree.lclVar n => if n = lclNum then 1 else 0
  | CseTree.store _ _ data => data.loads lclNum
  | CseTree.add op1 op2 => op1.loads lclNum + op2.loads lclNum
  | CseTree.comma op1 op2 => op1.loads lclNum + op2.loads lclNum

/-- The number of stores (`GT_STORE_LCL_VAR`) to the local `lclNum` among the new nodes of a
tree. -/
def CseTree.stores (lclNum : Nat) : CseTree → Nat
  | CseTree.node _ => 0
  | CseTree.icon _ => 0
  | CseTree.lclVar _ => 0
  | CseTree.store n _ data => (if n = lclNum then 1 else 0) + data.stores lclNum
  | CseTree.add op1 op2 => op1.stores lclNum + op2.stores lclNum
  | CseTree.comma op1 op2 => op1.stores lclNum + op2.stores lclNum

/-- What the rewriter asks of the IR through code outside the sources: the weight of a block
(`getBBWeight`), the operand subtrees of a node as a tree walk finds them, and the side-effect
queries `gtTreeHasSideEffects` and `gtNodeHasSideEffects` for `GTF_PERSISTENT_SIDE_EFFECTS`
(class constructors ignored). -/
structure CseIR (W : Type) where
  getBBWeight : Nat → W
  gtOperands : Nat → GenTreeOps
  gtTreeHasSideEffects : GenTree → Bool
  gtNodeHasSideEffects : GenTree → Bool

/-- A call of `ReplaceCSENode(stmt, exp, newNode)`. -/
structure Replacement where
  stmt : Nat
  exp : Nat
  newNode : CseTree
deriving DecidableEq

/-- The state the rewriter works on: the compiler state, the counters `optCSEunmarks`,
`optCSEweight`, `optCSEattempt`, `optCSEcount`, the number of locals (`lvaGrabTemp` hands out
the next one), the reference counts of the locals, and the `ReplaceCSENode` calls made so far.
`performLog` is a record kept for verification: the descriptor of each candidate as it was when
`PerformCSE` was entered for it. -/
structure CseState (W : Type) where
  comp : Compiler W
  optCSEunmarks : Nat
  optCSEweight : W
  optCSEattempt : Nat
  optCSEcount : Nat
  lvaCount : Nat
  lvRefCnt : Nat → Nat
  lvRefCntWtd : Nat → W
  replaced : List Replacement
  performLog : List (CSEdsc W)

section Rewriter
variable {W : Type} [Zero W] [Add W] [Sub W] [LE W] [LT W]
  [DecidableRel (LE.le : W → W → Prop)] [DecidableRel (LT.lt : W → W → Prop)]

/-- The assignment `tree->gtCSEnum = x` on a node reached through a pointer. -/
def CseState.setTag (st : CseState W) (gtTreeID : Nat) (x : Int) : CseState W :=
  let comp1 : Compiler W :=
    { st.comp with treeCSEnum := Function.update st.comp.treeCSEnum gtTreeID x }
  { st with comp := comp1 }

/-- The function `Compiler::optUnmarkCSE`: the new state and the result; `none` when a
`noway_assert` fails. -/
def optUnmarkCSE (st : CseState W) (tree : GenTree) : Option (CseState W × Bool) :=
  let gtCSEnum := st.comp.treeCSEnum tree.gtTreeID
  if !IS_CSE_INDEX gtCSEnum then some (st, true)
  else if ¬ (0 ≤ st.optCSEweight) then none
  else if IS_CSE_USE gtCSEnum then
    let CSEnum := GET_CSE_INDEX gtCSEnum
    match optCSEfindDsc st.comp CSEnum with
    | none => none
    | some desc =>
      if ¬ (0 < desc.csdUseCount) then none
      else
        let csdUseWtCnt : W :=
          if desc.csdUseWtCnt < st.optCSEweight then 0
          else desc.csdUseWtCnt - st.optCSEweight
        let desc1 : CSEdsc W :=
          { desc with csdUseCount := desc.csdUseCount - 1, csdUseWtCnt := csdUseWtCnt }
        let st1 : CseState W := { st with comp := setDsc st.comp CSEnum desc1 }
        let st2 := st1.setTag tree.gtTreeID NO_CSE
        some ({ st2 with optCSEunmarks := st2.optCSEunmarks + 1 }, true)
  else some (st, false)

/-- The method `Extractor::Append` of `optExtractSideEffectsForCSE`. -/
def Extractor.Append (m_result : Option CseTree) (node : GenTree) : Option CseTree :=
  match m_result with
  | none => some (CseTree.node node)
  | some result => some (CseTree.comma result (CseTree.node node))

/-- The walk of `optExtractSideEffectsForCSE` (`Extractor::PreOrderVisit` on every node the
walk reaches, in execution order): a node with persistent side effects of its own is appended
and its operands are skipped; otherwise the node is unmarked, and when that fails (a CSE def)
it is appended and its operands are skipped. -/
def Extractor.WalkTree (ir : CseIR W) :
    GenTreeOps → CseState W → Option CseTree → Option (CseState W × Option CseTree)
  | GenTreeOps.none, st, m_result => some (st, m_result)
  | GenTreeOps.tree node operands next, st, m_result =>
    if ir.gtTreeHasSideEffects node && ir.gtNodeHasSideEffects node then
      Extractor.WalkTree ir next st (Extractor.Append m_result node)
    else
      match optUnmarkCSE st node with
      | none => none
      | some (st1, true) =>
        match Extractor.WalkTree ir operands st1 m_result with
        | none => none
        | some (st2, m_result2) => Extractor.WalkTree ir next st2 m_result2
      | some (st1, false) => Extractor.WalkTree ir next st1 (Extractor.Append m_result node)

/-- The function `Compiler::optExtractSideEffectsForCSE`. -/
def optExtractSideEffectsForCSE (ir : CseIR W) (st : CseState W) (tree : GenTree) :
    Option (CseState W × Option CseTree) :=
  Extractor.WalkTree ir
    (GenTreeOps.tree tree (ir.gtOperands tree.gtTreeID) GenTreeOps.none) st none

/-- The locals of the first loop of `PerformCSE` (lines 4883-4889) and the reference counts it
gives the temp; `bestVN = none` is `ValueNumStore::NoVN`. -/
structure PerformLocals (W : Type) where
  setRefCnt : Bool
  allSame : Bool
  bestVN : Option ValueNum
  bestIsDef : Bool
  bestConstValue : Int
  lvRefCnt : Nat
  lvRefCntWtd : W

/-- The locals before the first loop. -/
def PerformLocals.init : PerformLocals W :=
  { setRefCnt := true, allSame := true, bestVN := none, bestIsDef := false,
    bestConstValue := 0, lvRefCnt := 0, lvRefCntWtd := 0 }

/-- The choice of the representative in the body of the first loop (lines 4905-4938). -/
def performBest (isSharedConst : Bool) (currVN : ValueNum) (curConstValue : Int) (isDef : Bool)
    (l : PerformLocals W) : PerformLocals W :=
  match l.bestVN with
  | none =>
    if isSharedConst then
      { l with bestVN := some currVN, bestConstValue := curConstValue, bestIsDef := isDef }
    else { l with bestVN := some currVN }
  | some bestVN =>
    if currVN ≠ bestVN then
      let diff := toSsize (curConstValue - l.bestConstValue)
      if (l.bestIsDef && decide (diff < -255)) || (!l.bestIsDef && decide (diff < 0)) then
        { l with allSame := false, bestVN := some currVN, bestConstValue := curConstValue,
                 bestIsDef := isDef }
      else { l with allSame := false }
    else l

/-- The reference counting in the body of the first loop (lines 4940-4960); `incRefCnts`,
declared outside the sources, adds one reference of the given weight. -/
def performRefCnt (curWeight : W) (isDef : Bool) (l : PerformLocals W) : PerformLocals W :=
  let l1 : PerformLocals W :=
    if l.setRefCnt then { l with lvRefCnt := 1, lvRefCntWtd := curWeight, setRefCnt := false }
    else { l with lvRefCnt := l.lvRefCnt + 1, lvRefCntWtd := l.lvRefCntWtd + curWeight }
  if isDef then { l1 with lvRefCnt := l1.lvRefCnt + 1, lvRefCntWtd := l1.lvRefCntWtd + curWeight }
  else l1

/-- The body of the first loop of `PerformCSE` for one entry of the occurrence list: an entry
whose tag has been cleared is ignored. -/
def performSelectStep (ir : CseIR W) (c : Compiler W) (isSharedConst : Bool)
    (l : PerformLocals W) (lst : treeStmtLst) : PerformLocals W :=
  let gtCSEnum := c.treeCSEnum lst.tslTree.gtTreeID
  if IS_CSE_INDEX gtCSEnum then
    let currVN := c.vnStore.VNNormalValue lst.tslTree.vnLiberal
    let curConstValue : Int :=
      if isSharedConst then c.vnStore.CoercedConstantValueSsize currVN else 0
    let isDef := IS_CSE_DEF gtCSEnum
    performRefCnt (ir.getBBWeight lst.tslBlock) isDef
      (performBest isSharedConst currVN curConstValue isDef l)
  else l

/-- The first loop of `PerformCSE` over the occurrence list. -/
def performSelect (ir : CseIR W) (c : Compiler W) (isSharedConst : Bool)
    (occurrences : List treeStmtLst) : PerformLocals W :=
  occurrences.foldl (performSelectStep ir c isSharedConst) PerformLocals.init

/-- The `delta` of an occurrence of a shared constant: `curValue - dsc->csdConstDefValue` in
`ssize_t`. -/
def sharedConstDelta (vnStore : ValueNumStore) (csdConstDefValue : Int) (exp : GenTree) : Int :=
  toSsize (vnStore.CoercedConstantValueSsize (vnStore.VNNormalValue exp.vnLiberal) -
    csdConstDefValue)

/-- The reference to the temp that stands for the occurrence `exp`: the use of the temp, or
for a shared constant with a non-zero `delta` the node `ADD(temp, delta)`. -/
def cseUseTree (vnStore : ValueNumStore) (cseLclVarNum : Nat) (isSharedConst : Bool)
    (csdConstDefValue : Int) (exp : GenTree) : CseTree :=
  if isSharedConst ∧ sharedConstDelta vnStore csdConstDefValue exp ≠ 0 then
    CseTree.add (CseTree.lclVar cseLclVarNum)
      (CseTree.icon (sharedConstDelta vnStore csdConstDefValue exp))
  else CseTree.lclVar cseLclVarNum

/-- The tree that replaces a def `exp` with the tag `gtCSEnum` (lines 5025-5092):
`COMMA(store, cseUse)`, the store writing `exp` itself or, for a shared constant with a
non-zero `delta`, a new constant `csdConstDefValue`. -/
def cseDefTree (vnStore : ValueNumStore) (cseLclVarNum : Nat) (isSharedConst : Bool)
    (csdConstDefValue : Int) (gtCSEnum : Int) (exp : GenTree) : CseTree :=
  let val : CseTree :=
    if isSharedConst ∧ sharedConstDelta vnStore csdConstDefValue exp ≠ 0 then
      CseTree.icon csdConstDefValue
    else CseTree.node exp
  CseTree.comma (CseTree.store cseLclVarNum gtCSEnum val)
    (cseUseTree vnStore cseLclVarNum isSharedConst csdConstDefValue exp)

/-- The body of the second loop of `PerformCSE` ("First process the defs") for one entry. -/
def performDef (cseLclVarNum : Nat) (isSharedConst : Bool) (csdConstDefValue : Int)
    (st : CseState W) (lst : treeStmtLst) : CseState W :=
  let exp := lst.tslTree
  let gtCSEnum := st.comp.treeCSEnum exp.gtTreeID
  if !IS_CSE_DEF gtCSEnum then st
  else
    let cse := cseDefTree st.comp.vnStore cseLclVarNum isSharedConst csdConstDefValue gtCSEnum exp
    let st1 := st.setTag exp.gtTreeID NO_CSE
    { st1 with replaced := st1.replaced ++ [{ stmt := lst.tslStmt, exp := exp.gtTreeID, newNode := cse }] }

/-- The end of the body of the third loop: with a side-effect list the replacement is
`COMMA(sideEffList, cse)`. -/
def commaWithSideEffects (sideEffList : Option CseTree) (cse : CseTree) : CseTree :=
  match sideEffList with
  | none => cse
  | some sideEff => CseTree.comma sideEff cse

/-- The body of the third loop of `PerformCSE` ("Now process the actual uses") for one entry;
`none` when a `noway_assert` of `optUnmarkCSE` fails. -/
def performUse (ir : CseIR W) (cseLclVarNum : Nat) (isSharedConst : Bool)
    (csdConstDefValue : Int) (st : CseState W) (lst : treeStmtLst) : Option (CseState W) :=
  let exp := lst.tslTree
  if !IS_CSE_USE (st.comp.treeCSEnum exp.gtTreeID) then some st
  else
    let st1 : CseState W := { st with optCSEweight := ir.getBBWeight lst.tslBlock }
    let cse0 := cseUseTree st1.comp.vnStore cseLclVarNum isSharedConst csdConstDefValue exp
    let st2 := st1.setTag exp.gtTreeID NO_CSE
    match optExtractSideEffectsForCSE ir st2 exp with
    | none => none
    | some (st3, sideEffList) =>
      let cse := commaWithSideEffects sideEffList cse0
      some { st3 with replaced := st3.replaced ++ [{ stmt := lst.tslStmt, exp := exp.gtTreeID, newNode := cse }] }

/-- The third loop of `PerformCSE` over the occurrence list. -/
def performUses (ir : CseIR W) (cseLclVarNum : Nat) (isSharedConst : Bool)
    (csdConstDefValue : Int) : CseState W → List treeStmtLst → Option (CseState W)
  | st, [] => some st
  | st, lst :: rest =>
    match performUse ir cseLclVarNum isSharedConst csdConstDefValue st lst with
    | none => none
    | some st1 => performUses ir cseLclVarNum isSharedConst csdConstDefValue st1 rest

/-- The descriptor a `CSEdsc*` into `optCSEtab` points at: the pointer is the slot number, the
descriptor is what the slot holds now. -/
def CseState.dscAt (st : CseState W) (slot : Nat) : Option (CSEdsc W) :=
  match st.comp.optCSEtab[slot]? with
  | some (some dsc) => some dsc
  | _ => none

/-- The value of `dsc->csdConstDefValue` that the second and third loop of `PerformCSE` read:
the `bestConstValue` of the first loop, stored in the descriptor and read back as `ssize_t`. -/
def performBase (ir : CseIR W) (st : CseState W) (dsc : CSEdsc W) : Int :=
  toSsize (ofSsize (performSelect ir st.comp dsc.csdIsSharedConst dsc.occurrences).bestConstValue)

/-- The descriptor after `dsc->csdConstDefValue = bestConstValue` (line 4965). -/
def enterDsc (ir : CseIR W) (st : CseState W) (dsc : CSEdsc W) : CSEdsc W :=
  let l := performSelect ir st.comp dsc.csdIsSharedConst dsc.occurrences
  { dsc with csdConstDefValue := ofSsize l.bestConstValue }

/-- The start of `PerformCSE` (lines 4813-4966) for the descriptor `dsc` in slot `slot`: the temp
`lvaCount` is grabbed, `optCSEcount` is counted up, the first loop gives the temp its reference
counts and `csdConstDefValue` is recorded. -/
def performEnter (ir : CseIR W) (st : CseState W) (slot : Nat) (dsc : CSEdsc W) : CseState W :=
  let cseLclVarNum := st.lvaCount
  let l := performSelect ir st.comp dsc.csdIsSharedConst dsc.occurrences
  let comp1 : Compiler W :=
    { st.comp with optCSEtab := st.comp.optCSEtab.set slot (some (enterDsc ir st dsc)) }
  { st with
    comp := comp1
    lvaCount := st.lvaCount + 1
    optCSEcount := st.optCSEcount + 1
    lvRefCnt := Function.update st.lvRefCnt cseLclVarNum l.lvRefCnt
    lvRefCntWtd := Function.update st.lvRefCntWtd cseLclVarNum l.lvRefCntWtd
    performLog := st.performLog ++ [dsc] }

/-- The function `CSE_HeuristicCommon::PerformCSE` for the candidate in slot `slot` of
`optCSEtab` (the pointer `dsc`): a temp is grabbed, the first loop picks the representative and
counts the references, `csdConstDefValue` is recorded, the defs and then the uses are replaced.
`none` when the slot is null or a `noway_assert` fails. `AdjustHeuristic`, the debug output and
the insertion of the temp into SSA are not part of the embedding. -/
def PerformCSE (ir : CseIR W) (st : CseState W) (slot : Nat) : Option (CseState W) :=
  match st.dscAt slot with
  | none => none
  | some dsc =>
    let st1 := performEnter ir st slot dsc
    let st2 := dsc.occurrences.foldl
      (performDef st.lvaCount dsc.csdIsSharedConst (performBase ir st dsc)) st1
    performUses ir st.lvaCount dsc.csdIsSharedConst (performBase ir st dsc) st2 dsc.occurrences

end Rewriter

/-! ## The policies: `ConsiderCandidates`

A `CSEdsc*` is `Option Nat`: the null pointer, or the slot of `optCSEtab` that holds the
descriptor. Reading a descriptor through the null pointer is a failure (`none`). -/

/-- How a run of a loop that has no bound in the source ends in the embedding: it returns, it
fails (`noway_assert`, null pointer), or it is cut off after the given number of rounds. -/
inductive Outcome (σ : Type) where
  | done (st : σ) : Outcome σ
  | failed : Outcome σ
  | outOfFuel : Outcome σ

/-- Holds when the run returned. -/
def Outcome.isDone {σ : Type} : Outcome σ → Bool
  | Outcome.done _ => true
  | _ => false

/-- An entry of the `Choice` array of the parameterized policies. -/
structure Choice (P : Type) where
  m_dsc : Option Nat
  m_preference : P
  m_softmax : P
  m_performed : Bool

/-- What `CSE_HeuristicCommon::ConsiderCandidates` reads from outside: whether the build is a
`DEBUG` build, the configuration values `JitCSEHash` and `JitCSEMask`, the method hash, and the
verdict of the virtual `PromotionCheck` on the candidate in a slot. `PromotionCheck` writes the
candidate object and thresholds of the heuristic only; its verdict may depend on the whole state,
which counts the attempts. -/
structure StandardConfig (W : Type) where
  DEBUG : Bool
  JitCSEHash : Nat
  compMethodHash : Nat
  JitCSEMask : Nat
  PromotionCheck : CseState W → Nat → Bool

/-- What `CSE_HeuristicRandom::ConsiderCandidates` reads from outside: the build kind,
`optConfigDisableCSE2()`, the results of the random number generator (`Next k bound` is the
result of the `k`-th call, made with the argument `bound`), and whether `candidate.UseCount()`
is zero after `InitializeCounts`. -/
structure RandomConfig (W : Type) where
  DEBUG : Bool
  optConfigDisableCSE2 : Bool
  Next : Nat → Nat → Nat
  UseCountIsZero : CseState W → CSEdsc W → Bool

/-- What the parameterized policies read from outside: the preference of the candidate in a
slot (`Preference`), `StoppingPreference`, the function `exp`, the random numbers
(`NextDouble k` is the result of the `k`-th call), the two mode flags of `CSE_HeuristicRL` and
the configured sequence `JitReplayCSE`. -/
structure RLConfig (W P : Type) where
  Preference : CseState W → Nat → P
  StoppingPreference : CseState W → P
  exp : P → P
  NextDouble : Nat → P
  m_updateParameters : Bool
  m_greedy : Bool
  JitReplayCSE : List Int

section Policies
variable {W : Type} [Zero W] [Add W] [Sub W] [LE W] [LT W]
  [DecidableRel (LE.le : W → W → Prop)] [DecidableRel (LT.lt : W → W → Prop)]
variable {P : Type} [Zero P] [Add P] [Sub P] [Div P] [LT P] [DecidableEq P]
  [DecidableRel (LT.lt : P → P → Prop)]

/-- The statement `const int attempt = m_pCompiler->optCSEattempt++`. -/
def CseState.nextAttempt (st : CseState W) : CseState W :=
  { st with optCSEattempt := st.optCSEattempt + 1 }

/-- The pointer that `optCSEtab[i]` holds. -/
def CseState.tabPtr (st : CseState W) (i : Nat) : Option Nat :=
  if (st.dscAt i).isSome then some i else none

/-- The value of `doCSE` in front of `PerformCSE` in `CSE_HeuristicCommon::ConsiderCandidates`
(lines 5376-5405): the verdict of `PromotionCheck`, replaced in a `DEBUG` build, when
`JitCSEHash` is 0 or the hash of the method, by bit `attempt` of `JitCSEMask`. -/
def standardDoCSE (cfg : StandardConfig W) (st : CseState W) (attempt : Nat) (slot : Nat) :
    Bool :=
  let doCSE := cfg.PromotionCheck st slot
  if cfg.DEBUG && (cfg.JitCSEHash == 0 || cfg.compMethodHash == cfg.JitCSEHash) then
    if 32 ≤ attempt then false
    else ((1 <<< attempt) &&& (cfg.JitCSEMask % 2 ^ 32)) != 0
  else doCSE

/-- The body of the loop of `CSE_HeuristicCommon::ConsiderCandidates` for the entry `*ptr`. -/
def standardStep (cfg : StandardConfig W) (ir : CseIR W) (st : CseState W) (ptr : Option Nat) :
    Option (CseState W) :=
  let attempt := st.optCSEattempt
  let st1 := st.nextAttempt
  match ptr with
  | none => none
  | some slot =>
    match st1.dscAt slot with
    | none => none
    | some dsc =>
      if !dsc.IsViable then some st1
      else if standardDoCSE cfg st1 attempt slot then PerformCSE ir st1 slot
      else some st1

/-- The loop of `CSE_HeuristicCommon::ConsiderCandidates` over the first `cnt` entries of
`sortTab`. -/
def standardLoop (cfg : StandardConfig W) (ir : CseIR W) :
    Nat → List (Option Nat) → CseState W → Option (CseState W)
  | 0, _, st => some st
  | _ + 1, [], _ => none
  | cnt + 1, ptr :: sortTab, st =>
    match standardStep cfg ir st ptr with
    | none => none
    | some st1 => standardLoop cfg ir cnt sortTab st1

/-- The function `CSE_HeuristicCommon::ConsiderCandidates` on the table `sortTab` that
`SortCandidates` has set up. -/
def CSE_HeuristicCommon.ConsiderCandidates (cfg : StandardConfig W) (ir : CseIR W)
    (sortTab : List (Option Nat)) (st : CseState W) : Option (CseState W) :=
  standardLoop cfg ir st.comp.optCSECandidateCount sortTab st

/-- One round of the shuffle of `CSE_HeuristicRandom::ConsiderCandidates` (lines 2144-2153). An
entry of the new array is `none` until it is written; reading such an entry, or one outside the
array, is a failure. -/
def randomShuffleStep (cfg : RandomConfig W) (st : CseState W)
    (sortTab : List (Option (Option Nat))) (i : Nat) : Option (List (Option (Option Nat))) :=
  let j := cfg.Next i (i + 1)
  let moved : Option (List (Option (Option Nat))) :=
    if i ≠ j then
      match sortTab[j]? with
      | some (some p) => some (sortTab.set i (some p))
      | _ => none
    else some sortTab
  match moved with
  | none => none
  | some sortTab1 =>
    if j < sortTab1.length then some (sortTab1.set j (some (st.tabPtr i))) else none

/-- The shuffle loop over `i = 0, ..., n - 1`. -/
def randomShuffleLoop (cfg : RandomConfig W) (st : CseState W) :
    List Nat → List (Option (Option Nat)) → Option (List (Option (Option Nat)))
  | [], sortTab => some sortTab
  | i :: rest, sortTab =>
    match randomShuffleStep cfg st sortTab i with
    | none => none
    | some sortTab1 => randomShuffleLoop cfg st rest sortTab1

/-- The body of the second loop of `CSE_HeuristicRandom::ConsiderCandidates` for the entry
`*ptr`. -/
def randomStep (cfg : RandomConfig W) (ir : CseIR W) (st : CseState W)
    (entry : Option (Option Nat)) : Option (CseState W) :=
  let st1 := st.nextAttempt
  match entry with
  | none => none
  | some ptr =>
    if cfg.DEBUG && cfg.optConfigDisableCSE2 then some st1
    else
      match ptr with
      | none => none
      | some slot =>
        match st1.dscAt slot with
        | none => none
        | some dsc =>
          if dsc.defExcSetPromise.isNone then some st1
          else if cfg.UseCountIsZero st1 dsc then some st1
          else if decide (dsc.csdDefCount ≤ 0) || decide (dsc.csdUseCount = 0) then some st1
          else PerformCSE ir st1 slot

/-- The second loop of `CSE_HeuristicRandom::ConsiderCandidates` over the first `k` entries. -/
def randomLoop (cfg : RandomConfig W) (ir : CseIR W) :
    Nat → List (Option (Option Nat)) → CseState W → Option (CseState W)
  | 0, _, st => some st
  | _ + 1, [], _ => none
  | k + 1, entry :: sortTab, st =>
    match randomStep cfg ir st entry with
    | none => none
    | some st1 => randomLoop cfg ir k sortTab st1

/-- The function `CSE_HeuristicRandom::ConsiderCandidates`. -/
def CSE_HeuristicRandom.ConsiderCandidates (cfg : RandomConfig W) (ir : CseIR W)
    (st : CseState W) : Option (CseState W) :=
  let n := st.comp.optCSECandidateCount
  if n = 0 then some st
  else
    match randomShuffleLoop cfg st (List.range n) (List.replicate n none) with
    | none => none
    | some sortTab => randomLoop cfg ir (cfg.Next n n + 1) sortTab st

/-- The body of the loop of `CSE_HeuristicReplay::ConsiderCandidates` for one number of the
configured sequence. -/
def replayStep (ir : CseIR W) (n : Nat) (st : CseState W) (candNumber : Int) :
    Option (CseState W) :=
  let index := candNumber - 1
  if index < 0 ∨ index ≥ n then some st
  else
    let st1 := st.nextAttempt
    match st1.dscAt index.toNat with
    | none => none
    | some dsc =>
      if !dsc.IsViable then some st1
      else PerformCSE ir st1 index.toNat

/-- The loop of `CSE_HeuristicReplay::ConsiderCandidates`. -/
def replayLoop (ir : CseIR W) (n : Nat) : List Int → CseState W → Option (CseState W)
  | [], st => some st
  | candNumber :: rest, st =>
    match replayStep ir n st candNumber with
    | none => none
    | some st1 => replayLoop ir n rest st1

/-- The function `CSE_HeuristicReplay::ConsiderCandidates` for the sequence `JitReplayCSE`. -/
def CSE_HeuristicReplay.ConsiderCandidates (ir : CseIR W) (JitReplayCSE : List Int)
    (st : CseState W) : Option (CseState W) :=
  let n := st.comp.optCSECandidateCount
  if n = 0 then some st else replayLoop ir n JitReplayCSE st

/-- The body of the loop of `CSE_HeuristicRLHook::ConsiderCandidates` for one number of the
configured sequence. -/
def hookStep (ir : CseIR W) (cnt : Nat) (st : CseState W) (index : Int) :
    Option (CseState W) :=
  if index < 0 ∨ index ≥ cnt then some st
  else
    match st.dscAt index.toNat with
    | none => none
    | some dsc =>
      if !dsc.IsViable then some st
      else PerformCSE ir st.nextAttempt index.toNat

/-- The loop of `CSE_HeuristicRLHook::ConsiderCandidates`. -/
def hookLoop (ir : CseIR W) (cnt : Nat) : List Int → CseState W → Option (CseState W)
  | [], st => some st
  | index :: rest, st =>
    match hookStep ir cnt st index with
    | none => none
    | some st1 => hookLoop ir cnt rest st1

/-- The function `CSE_HeuristicRLHook::ConsiderCandidates`; `JitRLHookCSEDecisions = none` is
the configuration value `nullptr`. -/
def CSE_HeuristicRLHook.ConsiderCandidates (ir : CseIR W)
    (JitRLHookCSEDecisions : Option (List Int)) (st : CseState W) : Option (CseState W) :=
  match JitRLHookCSEDecisions with
  | none => some st
  | some decisions => hookLoop ir st.comp.optCSECandidateCount decisions st

/-- The loop of `CSE_HeuristicParameterized::BuildChoices` over `i`; the head of the list of
choices is the top of the `ArrayStack` (`TopRef(0)`). -/
def buildChoicesLoop (cfg : RLConfig W P) (st : CseState W) (sortTab : List (Option Nat)) :
    List Nat → List (Choice P) → Option (List (Choice P))
  | [], choices => some choices
  | i :: rest, choices =>
    match sortTab[i]? with
    | none => none
    | some none => buildChoicesLoop cfg st sortTab rest choices
    | some (some slot) =>
      match st.dscAt slot with
      | none => none
      | some dsc =>
        if !dsc.IsViable then buildChoicesLoop cfg st sortTab rest choices
        else
          buildChoicesLoop cfg st sortTab rest
            ({ m_dsc := some slot, m_preference := cfg.Preference st slot, m_softmax := 0,
               m_performed := false } :: choices)

/-- The function `CSE_HeuristicParameterized::BuildChoices`. -/
def BuildChoices (cfg : RLConfig W P) (st : CseState W) (sortTab : List (Option Nat))
    (choices : List (Choice P)) : Option (List (Choice P)) :=
  match buildChoicesLoop cfg st sortTab (List.range st.comp.optCSECandidateCount) choices with
  | none => none
  | some choices1 =>
    some ({ m_dsc := none, m_preference := cfg.StoppingPreference st, m_softmax := 0,
            m_performed := false } :: choices1)

/-- The value of `update` in the loop of `ChooseGreedy` (lines 2803-2821). -/
def chooseGreedyUpdate (st : CseState W) (choice bestChoice : Choice P) : Option Bool :=
  let delta := choice.m_preference - bestChoice.m_preference
  if 0 < delta then some true
  else if delta = 0 then
    match choice.m_dsc with
    | none => some true
    | some slot =>
      match bestChoice.m_dsc with
      | none => some false
      | some bestSlot =>
        match st.dscAt slot, st.dscAt bestSlot with
        | some dsc, some bestDsc => some (decide (dsc.csdIndex < bestDsc.csdIndex))
        | _, _ => none
  else some false

/-- The loop of `ChooseGreedy` from `i` on; `rest` holds `TopRef(i)`, `TopRef(i + 1)`, ... -/
def chooseGreedyLoop (st : CseState W) (choices : List (Choice P)) :
    Nat → List (Choice P) → Nat → Option Nat
  | _, [], choiceNum => some choiceNum
  | i, choice :: rest, choiceNum =>
    if choice.m_performed then chooseGreedyLoop st choices (i + 1) rest choiceNum
    else
      match choices[choiceNum]? with
      | none => none
      | some bestChoice =>
        match chooseGreedyUpdate st choice bestChoice with
        | none => none
        | some update =>
          chooseGreedyLoop st choices (i + 1) rest (if update then i else choiceNum)

/-- The function `CSE_HeuristicParameterized::ChooseGreedy`: the choice array after the call
and the number `choiceNum` of the choice returned. -/
def ChooseGreedy (cfg : RLConfig W P) (st : CseState W) (sortTab : List (Option Nat))
    (choices : List (Choice P)) (recompute : Bool) : Option (List (Choice P) × Nat) :=
  let rebuilt : Option (List (Choice P)) :=
    if recompute then BuildChoices cfg st sortTab []
    else
      match choices with
      | [] => none
      | stopping :: rest =>
        some ({ stopping with m_preference := cfg.StoppingPreference st } :: rest)
  match rebuilt with
  | none => none
  | some choices1 =>
    match chooseGreedyLoop st choices1 1 (choices1.drop 1) 0 with
    | none => none
    | some choiceNum => some (choices1, choiceNum)

/-- The loop of `CSE_HeuristicParameterized::GreedyPolicy`, cut off after `fuel` rounds. -/
def greedyLoop (cfg : RLConfig W P) (ir : CseIR W) :
    Nat → List (Option Nat) → List (Choice P) → Nat → Bool → CseState W →
      Outcome (CseState W)
  | 0, _, _, _, _, _ => Outcome.outOfFuel
  | fuel + 1, sortTab, choices, numUnmarked, recomputeFeatures, st =>
    match ChooseGreedy cfg st sortTab choices recomputeFeatures with
    | none => Outcome.failed
    | some (choices1, choiceNum) =>
      match choices1[choiceNum]? with
      | none => Outcome.failed
      | some choice =>
        match choice.m_dsc with
        | none => Outcome.done st
        | some slot =>
          match st.dscAt slot with
          | none => Outcome.failed
          | some dsc =>
            match PerformCSE ir st slot with
            | none => Outcome.failed
            | some st1 =>
              greedyLoop cfg ir fuel (sortTab.set (dsc.csdIndex - 1) none)
                (choices1.set choiceNum { choice with m_performed := true })
                st1.optCSEunmarks (numUnmarked != st1.optCSEunmarks) st1

/-- The function `CSE_HeuristicParameterized::GreedyPolicy`, cut off after `fuel` rounds. -/
def GreedyPolicy (cfg : RLConfig W P) (ir : CseIR W) (fuel : Nat) (sortTab : List (Option Nat))
    (st : CseState W) : Outcome (CseState W) :=
  greedyLoop cfg ir fuel sortTab [] st.optCSEunmarks true st

/-- The copy of `optCSEtab` that the parameterized policies make (`memcpy`). -/
def copySortTab (st : CseState W) : List (Option Nat) :=
  (List.range st.comp.optCSECandidateCount).map st.tabPtr

/-- The function `CSE_HeuristicParameterized::ConsiderCandidates`, cut off after `fuel` rounds
of the greedy loop; `CaptureLocalWeights` reads the locals only. -/
def CSE_HeuristicParameterized.ConsiderCandidates (cfg : RLConfig W P) (ir : CseIR W)
    (fuel : Nat) (st : CseState W) : Outcome (CseState W) :=
  GreedyPolicy cfg ir fuel (copySortTab st) st

/-- The function `CSE_HeuristicRL::Softmax`. -/
def Softmax (cfg : RLConfig W P) (choices : List (Choice P)) : List (Choice P) :=
  let choices1 := choices.map (fun c => { c with m_softmax := cfg.exp c.m_preference })
  let softmaxSum := choices1.foldl (fun sum c => sum + c.m_softmax) 0
  choices1.map (fun c => { c with m_softmax := c.m_softmax / softmaxSum })

/-- The loop of `ChooseSoftmax` from `i` on. -/
def chooseSoftmaxLoop (randomFactor : P) : Nat → List (Choice P) → P → Nat
  | _, [], _ => 0
  | i, c :: rest, softmaxSum =>
    if randomFactor < softmaxSum + c.m_softmax then i
    else chooseSoftmaxLoop randomFactor (i + 1) rest (softmaxSum + c.m_softmax)

/-- The function `CSE_HeuristicRL::ChooseSoftmax` for the random number `randomFactor`: the
choice array after the call and the number of the choice returned. -/
def ChooseSoftmax (cfg : RLConfig W P) (st : CseState W) (sortTab : List (Option Nat))
    (randomFactor : P) : Option (List (Choice P) × Nat) :=
  match BuildChoices cfg st sortTab [] with
  | none => none
  | some choices =>
    some (Softmax cfg choices, chooseSoftmaxLoop randomFactor 0 (Softmax cfg choices) 0)

/-- The loop of `CSE_HeuristicRL::SoftmaxPolicy`, cut off after `fuel` rounds; `k` counts the
calls of the random number generator. The likelihood logs are not part of the embedding. -/
def softmaxLoop (cfg : RLConfig W P) (ir : CseIR W) :
    Nat → Nat → List (Option Nat) → CseState W → Outcome (CseState W)
  | 0, _, _, _ => Outcome.outOfFuel
  | fuel + 1, k, sortTab, st =>
    match ChooseSoftmax cfg st sortTab (cfg.NextDouble k) with
    | none => Outcome.failed
    | some (choices, choiceNum) =>
      match choices[choiceNum]? with
      | none => Outcome.failed
      | some choice =>
        match choice.m_dsc with
        | none => Outcome.done st
        | some slot =>
          match st.dscAt slot with
          | none => Outcome.failed
          | some dsc =>
            match PerformCSE ir st slot with
            | none => Outcome.failed
            | some st1 => softmaxLoop cfg ir fuel (k + 1) (sortTab.set (dsc.csdIndex - 1) none) st1

/-- The function `CSE_HeuristicRL::SoftmaxPolicy`, cut off after `fuel` rounds. -/
def SoftmaxPolicy (cfg : RLConfig W P) (ir : CseIR W) (fuel : Nat) (sortTab : List (Option Nat))
    (st : CseState W) : Outcome (CseState W) :=
  softmaxLoop cfg ir fuel 0 sortTab st

/-- The loop of `CSE_HeuristicRL::UpdateParameters` over the configured sequence: the final
state and `sortTab`. `UpdateParametersStep` writes the parameter deltas only. -/
def updateLoop (cfg : RLConfig W P) (ir : CseIR W) (n : Nat) :
    List Int → List (Option Nat) → CseState W → Option (CseState W × List (Option Nat))
  | [], sortTab, st => some (st, sortTab)
  | candNumber :: rest, sortTab, st =>
    if candNumber = 0 then some (st, sortTab)
    else
      let index := candNumber - 1
      if index < 0 ∨ index ≥ n then updateLoop cfg ir n rest sortTab st
      else
        match BuildChoices cfg st sortTab [] with
        | none => none
        | some _ =>
          let st1 := st.nextAttempt
          match sortTab[index.toNat]? with
          | some (some slot) =>
            match st1.dscAt slot with
            | none => none
            | some dsc =>
              if !dsc.IsViable then
                updateLoop cfg ir n rest (sortTab.set (dsc.csdIndex - 1) none) st1
              else
                match PerformCSE ir st1 slot with
                | none => none
                | some st2 => updateLoop cfg ir n rest (sortTab.set (dsc.csdIndex - 1) none) st2
          | _ => none

/-- The function `CSE_HeuristicRL::UpdateParameters`. -/
def UpdateParameters (cfg : RLConfig W P) (ir : CseIR W) (sortTab : List (Option Nat))
    (st : CseState W) : Option (CseState W) :=
  let n := st.comp.optCSECandidateCount
  if n = 0 then some st
  else
    match updateLoop cfg ir n cfg.JitReplayCSE sortTab st with
    | none => none
    | some (st1, sortTab1) =>
      match BuildChoices cfg st1 sortTab1 [] with
      | none => none
      | some _ => some st1

/-- The function `CSE_HeuristicRL::ConsiderCandidates`, cut off after `fuel` rounds of the
greedy or softmax loop. -/
def CSE_HeuristicRL.ConsiderCandidates (cfg : RLConfig W P) (ir : CseIR W) (fuel : Nat)
    (st : CseState W) : Outcome (CseState W) :=
  let sortTab := copySortTab st
  if cfg.m_updateParameters then
    match UpdateParameters cfg ir sortTab st with
    | none => Outcome.failed
    | some st1 => Outcome.done st1
  else if cfg.m_greedy then GreedyPolicy cfg ir fuel sortTab st
  else SoftmaxPolicy cfg ir fuel sortTab st

end Policies

/-! ### Notions used to state what the rewriter does -/

/-- The constant of an occurrence as the rewriter reads it:
`CoercedConstantValue<ssize_t>(VNLiberalNormalValue(tree->gtVNPair))`. -/
def occConst {W : Type} (c : Compiler W) (x : treeStmtLst) : Int :=
  c.vnStore.CoercedConstantValueSsize (c.vnStore.VNNormalValue x.tslTree.vnLiberal)

/-- The tag of an occurrence, `lst->tslTree->gtCSEnum`. -/
def occTag {W : Type} (c : Compiler W) (x : treeStmtLst) : Int :=
  c.treeCSEnum x.tslTree.gtTreeID

/-- The invariant of the first loop of `PerformCSE` for a shared constant, over the entries
`seen` so far: nothing tagged was seen and `bestVN` is `NoVN`, or the representative is a tagged
entry seen, every tagged entry seen is at most 255 below a representative that is a def, and
not below a representative that is a use. -/
def SelectInv {W : Type} (c : Compiler W) (seen : List treeStmtLst) (l : PerformLocals W) :
    Prop :=
  (l.bestVN = none ∧ ∀ y ∈ seen, IS_CSE_INDEX (occTag c y) = false) ∨
  ((∃ x ∈ seen, IS_CSE_INDEX (occTag c x) = true ∧
      l.bestVN = some (c.vnStore.VNNormalValue x.tslTree.vnLiberal) ∧
      l.bestConstValue = occConst c x ∧ l.bestIsDef = IS_CSE_DEF (occTag c x)) ∧
    ∀ y ∈ seen, IS_CSE_INDEX (occTag c y) = true →
      (if l.bestIsDef then -255 else 0) ≤ occConst c y - l.bestConstValue)

/-- What `optUnmarkCSE` may do to a descriptor: lower the use count and the weighted use
count, nothing else. -/
def DscUnmarked {W : Type} (d d1 : CSEdsc W) : Prop :=
  d1 = { d with csdUseCount := d1.csdUseCount, csdUseWtCnt := d1.csdUseWtCnt } ∧
    d1.csdUseCount ≤ d.csdUseCount

/-- What unmarking may do to the state: `optCSEunmarks` does not decrease, null slots of
`optCSEtab` stay null, a descriptor changes by `DscUnmarked` only, and not at all while
`optCSEunmarks` keeps its value; the other parts of the state that the policies read stay. -/
def UnmarkLe {W : Type} (st st1 : CseState W) : Prop :=
  st.optCSEunmarks ≤ st1.optCSEunmarks ∧
  st1.comp.vnStore = st.comp.vnStore ∧
  st1.comp.optCSECandidateCount = st.comp.optCSECandidateCount ∧
  st1.lvaCount = st.lvaCount ∧ st1.optCSEcount = st.optCSEcount ∧
  st1.optCSEattempt = st.optCSEattempt ∧ st1.performLog = st.performLog ∧
  st1.lvRefCnt = st.lvRefCnt ∧
  st1.comp.optCSEtab.length = st.comp.optCSEtab.length ∧
  ∀ (i : Nat),
    (st.comp.optCSEtab[i]? = some none → st1.comp.optCSEtab[i]? = some none) ∧
    ∀ d, st.comp.optCSEtab[i]? = some (some d) →
      ∃ d1, st1.comp.optCSEtab[i]? = some (some d1) ∧ DscUnmarked d d1 ∧
        (st1.optCSEunmarks = st.optCSEunmarks → d1 = d)

/-- The total, over a list of `ReplaceCSENode` calls, of the uses of a local in the new
trees. -/
def totalLoads (lclNum : Nat) (rs : List Replacement) : Nat :=
  (rs.map (fun r => r.newNode.loads lclNum)).sum

/-- The total, over a list of `ReplaceCSENode` calls, of the stores to a local in the new
trees. -/
def totalStores (lclNum : Nat) (rs : List Replacement) : Nat :=
  (rs.map (fun r => r.newNode.stores lclNum)).sum

/-- The replacement made for the def entry `x`. -/
def defReplacement (vnStore : ValueNumStore) (tags : Nat → Int) (cseLclVarNum : Nat)
    (isSharedConst : Bool) (csdConstDefValue : Int) (x : treeStmtLst) : Replacement :=
  { stmt := x.tslStmt, exp := x.tslTree.gtTreeID,
    newNode := cseDefTree vnStore cseLclVarNum isSharedConst csdConstDefValue
      (tags x.tslTree.gtTreeID) x.tslTree }

/-- The entries of an occurrence list that carry a def tag. -/
def defEntries (tags : Nat → Int) (occurrences : List treeStmtLst) : List treeStmtLst :=
  occurrences.filter (fun x => IS_CSE_DEF (tags x.tslTree.gtTreeID))

/-- The entries of an occurrence list that carry a use tag. -/
def useEntries (tags : Nat → Int) (occurrences : List treeStmtLst) : List treeStmtLst :=
  occurrences.filter (fun x => IS_CSE_USE (tags x.tslTree.gtTreeID))

/-- The replacement made for the use entry `x` when no side effect is extracted. -/
def useReplacement (vnStore : ValueNumStore) (cseLclVarNum : Nat) (isSharedConst : Bool)
    (csdConstDefValue : Int) (x : treeStmtLst) : Replacement :=
  { stmt := x.tslStmt, exp := x.tslTree.gtTreeID,
    newNode := cseUseTree vnStore cseLclVarNum isSharedConst csdConstDefValue x.tslTree }

/-- A tree built of existing nodes and commas only (a side-effect list). -/
def CseTree.isSideEffList : CseTree → Bool
  | CseTree.node _ => true
  | CseTree.comma op1 op2 => op1.isSideEffList && op2.isSideEffList
  | _ => false

/-- The shape of the replacement made for the use entry `x`: the reference to the temp, under a
comma with the side-effect list when there is one. -/
def UseReplacement (vnStore : ValueNumStore) (cseLclVarNum : Nat) (isSharedConst : Bool)
    (csdConstDefValue : Int) (x : treeStmtLst) (r : Replacement) : Prop :=
  r.stmt = x.tslStmt ∧ r.exp = x.tslTree.gtTreeID ∧
  (r.newNode = cseUseTree vnStore cseLclVarNum isSharedConst csdConstDefValue x.tslTree ∨
    ∃ sideEffList : CseTree, sideEffList.isSideEffList = true ∧
      r.newNode = CseTree.comma sideEffList
        (cseUseTree vnStore cseLclVarNum isSharedConst csdConstDefValue x.tslTree))

/-- What `PerformCSE` may do to a descriptor: record `csdConstDefValue`, and unmark. -/
def DscPerformed {W : Type} (d d1 : CSEdsc W) : Prop :=
  d1 = { d with csdUseCount := d1.csdUseCount, csdUseWtCnt := d1.csdUseWtCnt,
                csdConstDefValue := d1.csdConstDefValue } ∧
    d1.csdUseCount ≤ d.csdUseCount

/-- What a call of `PerformCSE` may do to the candidate table: `optCSEunmarks` does not
decrease, null slots stay null, a descriptor changes by `DscPerformed` only, and no use count
changes while `optCSEunmarks` keeps its value. -/
def PerformLe {W : Type} (st st1 : CseState W) : Prop :=
  st.optCSEunmarks ≤ st1.optCSEunmarks ∧
  st1.comp.optCSECandidateCount = st.comp.optCSECandidateCount ∧
  st1.comp.optCSEtab.length = st.comp.optCSEtab.length ∧
  ∀ (i : Nat),
    (st.comp.optCSEtab[i]? = some none → st1.comp.optCSEtab[i]? = some none) ∧
    ∀ d, st.comp.optCSEtab[i]? = some (some d) →
      ∃ d1, st1.comp.optCSEtab[i]? = some (some d1) ∧ DscPerformed d d1 ∧
        (st1.optCSEunmarks = st.optCSEunmarks → d1.csdUseCount = d.csdUseCount)

/-- The three conditions of viability, on a descriptor. -/
def Viable3 {W : Type} (d : CSEdsc W) : Prop :=
  1 ≤ d.csdDefCount ∧ 1 ≤ d.csdUseCount ∧ d.defExcSetPromise ≠ none

/-- Between the states `st` and `st1`, `PerformCSE` was entered only for candidates whose
descriptor met the three conditions of viability at that moment. -/
def OnlyViablePerformed {W : Type} (st st1 : CseState W) : Prop :=
  ∃ new, st1.performLog = st.performLog ++ new ∧ ∀ d ∈ new, Viable3 d

/-- No choice that may still be taken names a candidate that is not viable in `st`, and the top
of the array is the stop choice. -/
def ChoicesViable {W P : Type} (st : CseState W) (choices : List (Choice P)) : Prop :=
  (∀ ch, choices.head? = some ch → ch.m_dsc = none) ∧
  ∀ ch ∈ choices, ch.m_performed = false → ∀ slot, ch.m_dsc = some slot →
    ∃ d, st.dscAt slot = some d ∧ d.IsViable = true

/-! ### Notions used to state what `ChooseGreedy` returns -/

/-- The `csdIndex` of the candidate a choice names (0 for the stop choice). -/
def choiceIndex {W P : Type} (st : CseState W) (c : Choice P) : Nat :=
  match c.m_dsc with
  | none => 0
  | some slot =>
    match st.dscAt slot with
    | some dsc => dsc.csdIndex
    | none => 0

/-- The choice array as `BuildChoices` and `GreedyPolicy` leave it: the stop choice on top, not
performed, and every other choice that is not performed names a candidate of the table. -/
def choicesWellFormed {W P : Type} (st : CseState W) : List (Choice P) → Bool
  | [] => false
  | stopping :: rest =>
    stopping.m_dsc.isNone && !stopping.m_performed &&
      rest.all fun c =>
        c.m_performed ||
          (match c.m_dsc with
           | some slot => (st.dscAt slot).isSome
           | none => false)

/-- The array `sortTab` has an entry for every candidate number, and every entry that is not
null points to a descriptor of the table. -/
def sortTabWellFormed {W : Type} (st : CseState W) (sortTab : List (Option Nat)) : Bool :=
  decide (st.comp.optCSECandidateCount ≤ sortTab.length) &&
    sortTab.all fun e =>
      match e with
      | none => true
      | some slot => (st.dscAt slot).isSome

/-! ## The standard heuristic: the sort comparators and `PromotionCheck` -/

/-- The comparator `Compiler::optCSEcostCmpEx::operator()` (lines 324-351), used by
`SortCandidates` when `CodeOptKind() != SMALL_CODE`: execution cost, weighted use count,
weighted def count, `csdIndex`. `GetCostEx` is a method of `GenTree` declared outside the
sources and is a parameter. -/
def optCSEcostCmpEx {W : Type} [LT W] [DecidableEq W] [DecidableRel (LT.lt : W → W → Prop)]
    (GetCostEx : GenTree → Nat) (dsc1 dsc2 : CSEdsc W) : Bool :=
  let exp1 := dsc1.csdTreeList.tslTree
  let exp2 := dsc2.csdTreeList.tslTree
  let expCost1 := GetCostEx exp1
  let expCost2 := GetCostEx exp2
  if expCost2 ≠ expCost1 then decide (expCost2 < expCost1)
  else if dsc2.csdUseWtCnt ≠ dsc1.csdUseWtCnt then decide (dsc2.csdUseWtCnt < dsc1.csdUseWtCnt)
  else if dsc1.csdDefWtCnt ≠ dsc2.csdDefWtCnt then decide (dsc1.csdDefWtCnt < dsc2.csdDefWtCnt)
  else decide (dsc1.csdIndex < dsc2.csdIndex)

/-- The comparator `Compiler::optCSEcostCmpSz::operator()` (lines 360-387), used by
`SortCandidates` when `CodeOptKind() == SMALL_CODE`: size cost, use count, def count,
`csdIndex`. `GetCostSz` is a parameter. -/
def optCSEcostCmpSz {W : Type} (GetCostSz : GenTree → Nat) (dsc1 dsc2 : CSEdsc W) : Bool :=
  let exp1 := dsc1.csdTreeList.tslTree
  let exp2 := dsc2.csdTreeList.tslTree
  let expCost1 := GetCostSz exp1
  let expCost2 := GetCostSz exp2
  if expCost2 ≠ expCost1 then decide (expCost2 < expCost1)
  else if dsc2.csdUseCount ≠ dsc1.csdUseCount then decide (dsc2.csdUseCount < dsc1.csdUseCount)
  else if dsc1.csdDefCount ≠ dsc2.csdDefCount then decide (dsc1.csdDefCount < dsc2.csdDefCount)
  else decide (dsc1.csdIndex < dsc2.csdIndex)

/-- The comparator `CSE_Heuristic::SortCandidates` passes to `jitstd::sort` (lines 4271-4278):
`optCSEcostCmpSz` for `SMALL_CODE`, `optCSEcostCmpEx` otherwise. -/
def CSE_Heuristic.sortComparator {W : Type} [LT W] [DecidableEq W]
    [DecidableRel (LT.lt : W → W → Prop)] (SMALL_CODE : Bool) (GetCostEx GetCostSz : GenTree → Nat)
    (dsc1 dsc2 : CSEdsc W) : Bool :=
  if SMALL_CODE then optCSEcostCmpSz GetCostSz dsc1 dsc2 else optCSEcostCmpEx GetCostEx dsc1 dsc2

/-- The promotion rule a candidate records with `SetAggressive`, `SetModerate` or
`SetConservative`. -/
inductive PromotionRule where
  | aggressive
  | moderate
  | conservative
deriving DecidableEq

/-- What `PromotionCheck` reads of a `CSE_Candidate` (the class is declared outside the
sources): the weighted or unweighted counts `DefCount()`, `UseCount()`, the costs `Cost()`,
`Size()`, `LiveAcrossCall()`, the descriptor `CseDsc()`, and the type queries on `Expr()`. -/
structure CSE_Candidate (W : Type) where
  DefCount : W
  UseCount : W
  Cost : Nat
  Size : Nat
  LiveAcrossCall : Bool
  CseDsc : CSEdsc W
  /-- The result of `Expr()->TypeIs(TYP_STRUCT)`. -/
  ExprIsStruct : Bool
  /-- The result of `Expr()->GetLayout(m_pCompiler)->GetSize()`. -/
  ExprLayoutSize : Nat
  /-- The result of `varTypeUsesIntReg(Expr())`. -/
  ExprUsesIntReg : Bool
  /-- The result of `varTypeUsesMaskReg(Expr())`. -/
  ExprUsesMaskReg : Bool
  /-- The result of `varTypeIsFloating(Expr()->TypeGet())`. -/
  ExprIsFloating : Bool
  /-- The result of `Expr()->TypeIs(TYP_SIMD32, TYP_SIMD64)`. -/
  ExprIsSimd32or64 : Bool
  /-- The result of `Expr()->TypeIs(TYP_SIMD16)`. -/
  ExprIsSimd16 : Bool

/-- What `CSE_Heuristic::PromotionCheck` reads besides the candidate: the build kind and the
result of `optConfigDisableCSE2()`, the code-optimisation kind, the thresholds and frame flags
set by `Initialize`, the enregistration counts, the target constants, and the stress query
`compStressCompile(STRESS_MAKE_CSE, percentage)` with the `(int)` conversion of a weight. -/
structure PromotionConfig (W : Type) where
  DEBUG : Bool
  optConfigDisableCSE2 : Bool
  SMALL_CODE : Bool
  aggressiveRefCnt : W
  moderateRefCnt : W
  largeFrame : Bool
  hugeFrame : Bool
  enregCountInt : Nat
  enregCountFlt : Nat
  enregCountMsk : Nat
  CNT_AGGRESSIVE_ENREG : Nat
  CNT_AGGRESSIVE_ENREG_FLT : Nat
  CNT_AGGRESSIVE_ENREG_MSK : Nat
  CNT_CALLEE_SAVED_MASK : Nat
  CNT_CALLEE_SAVED_FLOAT : Nat
  TARGET_XARCH : Bool
  TARGET_ARM64 : Bool
  FEATURE_SIMD : Bool
  /-- The constant `TARGET_POINTER_SIZE` is 8 on a 64-bit target and 4 otherwise. -/
  TARGET_64BIT : Bool
  BB_UNITY_WEIGHT_UNSIGNED : Nat
  lvaTrackedCount : Nat
  JitMaxLocalsToTrack : Int
  compStressCompile : Int → Bool
  toInt : W → Int

/-- The quantities `PromotionCheck` computes for a candidate. -/
structure PromotionCosts (W : Type) where
  rule : PromotionRule
  cse_def_cost : Nat
  cse_use_cost : Nat
  extra_yes_cost : Nat
  extra_no_cost : Nat
  no_cse_cost : W
  yes_cse_cost : W

/-- The constant `TARGET_POINTER_SIZE`. -/
def PromotionConfig.TARGET_POINTER_SIZE {W : Type} (h : PromotionConfig W) : Nat :=
  if h.TARGET_64BIT then 8 else 4

/-- Lines 4409-4433 of `PromotionCheck`: `canEnregister`, `slotCount`, `enregCount` and
`cntAggressiveEnreg` from the type of the expression. The `assert` of the last branch is
not modelled. -/
def promotionEnreg {W : Type} (h : PromotionConfig W) (candidate : CSE_Candidate W) :
    Bool × Nat × Nat × Nat :=
  if candidate.ExprIsStruct then
    let size := candidate.ExprLayoutSize % 2 ^ 32
    (false, ((size + h.TARGET_POINTER_SIZE - 1) % 2 ^ 32) / h.TARGET_POINTER_SIZE, 0, 0)
  else if candidate.ExprUsesIntReg then
    (true, 1, h.enregCountInt, h.CNT_AGGRESSIVE_ENREG)
  else if candidate.ExprUsesMaskReg then
    (true, 1, h.enregCountMsk, h.CNT_AGGRESSIVE_ENREG_MSK)
  else
    (true, 1, h.enregCountFlt, h.CNT_AGGRESSIVE_ENREG_FLT)

/-- Lines 4435-4537 of `PromotionCheck`, the `SMALL_CODE` branch: the rule, `cse_def_cost` and
`cse_use_cost`. -/
def promotionSmallCode {W : Type} [LE W] [DecidableRel (LE.le : W → W → Prop)]
    (h : PromotionConfig W) (candidate : CSE_Candidate W) (cseRefCnt : W)
    (canEnregister : Bool) : PromotionRule × Nat × Nat :=
  let r : PromotionRule × Nat × Nat :=
    if h.aggressiveRefCnt ≤ cseRefCnt then
      let onStack : Bool := candidate.LiveAcrossCall || !canEnregister
      let large : Nat := if onStack && h.largeFrame then 1 else 0
      let huge : Nat := if onStack && h.hugeFrame then 1 else 0
      (PromotionRule.aggressive, 1 + large + huge, 1 + large + huge)
    else if h.largeFrame then
      if h.TARGET_XARCH then (PromotionRule.conservative, 6, 5)
      else if h.hugeFrame then (PromotionRule.conservative, 10 + 2, 10 + 2)
      else (PromotionRule.conservative, 6 + 2, 6 + 2)
    else
      if h.TARGET_XARCH then (PromotionRule.conservative, 3, 2)
      else (PromotionRule.conservative, 2, 2)
  if h.TARGET_XARCH && candidate.ExprIsFloating then (r.1, r.2.1 + 2, r.2.2 + 1) else r

/-- Lines 4538-4641 of `PromotionCheck`, the branch for `BLENDED_CODE` and `FAST_CODE`: the
rule, `cse_def_cost` and `cse_use_cost`. -/
def promotionBlended {W : Type} [LE W] [DecidableRel (LE.le : W → W → Prop)]
    (h : PromotionConfig W) (candidate : CSE_Candidate W) (cseRefCnt : W)
    (canEnregister : Bool) (enregCount cntAggressiveEnreg : Nat) : PromotionRule × Nat × Nat :=
  if decide (h.aggressiveRefCnt ≤ cseRefCnt) && canEnregister then
    (PromotionRule.aggressive, 1, 1)
  else if h.moderateRefCnt ≤ cseRefCnt then
    if !candidate.LiveAcrossCall && canEnregister then (PromotionRule.moderate, 2, 1)
    else if canEnregister then
      if enregCount < cntAggressiveEnreg then (PromotionRule.moderate, 2, 1)
      else (PromotionRule.moderate, 2, 2)
    else (PromotionRule.moderate, 2, 3)
  else
    let r : Nat × Nat := if !candidate.LiveAcrossCall && canEnregister then (2, 2) else (2, 3)
    if h.lvaTrackedCount = (h.JitMaxLocalsToTrack % 2 ^ 32).toNat then
      (PromotionRule.conservative, r.1 + 1, r.2 + 1)
    else (PromotionRule.conservative, r.1, r.2)

/-- Lines 4662-4692 of `PromotionCheck`: `hasRequiredSpill`. The two `assert`s are not
modelled. -/
def hasRequiredSpill {W : Type} (h : PromotionConfig W) (candidate : CSE_Candidate W) : Bool :=
  if candidate.ExprUsesIntReg then false
  else if candidate.ExprUsesMaskReg then decide (h.CNT_CALLEE_SAVED_MASK = 0)
  else if h.CNT_CALLEE_SAVED_FLOAT = 0 then true
  else if h.FEATURE_SIMD && h.TARGET_XARCH then candidate.ExprIsSimd32or64
  else if h.FEATURE_SIMD && h.TARGET_ARM64 then candidate.ExprIsSimd16
  else false

/-- Lines 4402-4730 of `PromotionCheck`: every quantity computed before the decision. The
`unsigned` products are reduced modulo `2 ^ 32`; `IsConservative()` is read as "the rule set
in this call is the conservative one". -/
def promotionCosts {W : Type} [Add W] [Mul W] [NatCast W] [LE W] [LT W]
    [DecidableRel (LE.le : W → W → Prop)] [DecidableRel (LT.lt : W → W → Prop)]
    (h : PromotionConfig W) (candidate : CSE_Candidate W) : PromotionCosts W :=
  let cseRefCnt : W := candidate.DefCount * ((2 : Nat) : W) + candidate.UseCount
  let e := promotionEnreg h candidate
  let canEnregister := e.1
  let slotCount := e.2.1
  let enregCount := e.2.2.1
  let cntAggressiveEnreg := e.2.2.2
  let r : PromotionRule × Nat × Nat :=
    if h.SMALL_CODE then promotionSmallCode h candidate cseRefCnt canEnregister
    else promotionBlended h candidate cseRefCnt canEnregister enregCount cntAggressiveEnreg
  let def1 : Nat := if 1 < slotCount then (r.2.1 * slotCount) % 2 ^ 32 else r.2.1
  let use1 : Nat := if 1 < slotCount then (r.2.2 * slotCount) % 2 ^ 32 else r.2.2
  let spill : Bool :=
    candidate.LiveAcrossCall && decide (r.1 ≠ PromotionRule.conservative) &&
      hasRequiredSpill h candidate
  let def2 : Nat := if spill then (def1 + 1) % 2 ^ 32 else def1
  let use2 : Nat := if spill then (use1 + 1) % 2 ^ 32 else use1
  let extra_yes_cost : Nat :=
    if candidate.LiveAcrossCall && decide (enregCount < cntAggressiveEnreg) then
      if cseRefCnt < h.moderateRefCnt then (h.BB_UNITY_WEIGHT_UNSIGNED * 2) % 2 ^ 32
      else h.BB_UNITY_WEIGHT_UNSIGNED
    else 0
  let extra_no_cost : Nat :=
    if use2 < candidate.Size then
      ((((candidate.Size - use2) * candidate.CseDsc.csdUseCount) % 2 ^ 32) * 2) % 2 ^ 32
    else 0
  let no_cse_cost : W :=
    candidate.UseCount * ((candidate.Cost : Nat) : W) + ((extra_no_cost : Nat) : W)
  let yes_cse_cost : W :=
    candidate.DefCount * ((def2 : Nat) : W) + candidate.UseCount * ((use2 : Nat) : W) +
      ((extra_yes_cost : Nat) : W)
  PromotionCosts.mk r.1 def2 use2 extra_yes_cost extra_no_cost no_cse_cost yes_cse_cost

/-- The method `CSE_Heuristic::PromotionCheck` (lines 4342-4774): the `DEBUG` exit on
`optConfigDisableCSE2()`, the cost comparison `yes_cse_cost <= no_cse_cost`, and the stress
query made when the comparison fails and `no_cse_cost > 0`. -/
def CSE_Heuristic.PromotionCheck {W : Type} [Zero W] [Add W] [Mul W] [Div W] [NatCast W]
    [LE W] [LT W] [DecidableRel (LE.le : W → W → Prop)] [DecidableRel (LT.lt : W → W → Prop)]
    (h : PromotionConfig W) (candidate : CSE_Candidate W) : Bool :=
  if h.DEBUG && h.optConfigDisableCSE2 then false
  else
    let v := promotionCosts h candidate
    if v.yes_cse_cost ≤ v.no_cse_cost then true
    else if 0 < v.no_cse_cost then
      h.compStressCompile (h.toInt (v.no_cse_cost * ((100 : Nat) : W) / v.yes_cse_cost))
    else false

/-! ## Concrete inputs used by the witnesses and the scenarios -/

/-- A node with the given identity, tag, liberal value number and call flag. -/
def exTree (id : Nat) (tag : Int) (vn : ValueNum) (call : Bool) : GenTree :=
  { gtTreeID := id, gtCSEnum := tag, vnLiberal := vn, isComma := false, isStruct := false,
    op2VnLiberal := 0, isIntegralConst := false, isCnsInt := false, immedValNeedsReloc := false,
    isIntegralConstZero := false, isGC := false, typeGet := 0, isCall := call,
    isAsyncCall := false, lclVars := [] }

/-- A VN store in which the value numbers 1, 2, 3 have the normal value 5 and the exception sets
`{ExA}`, `{ExB}`, `{ExA, ExB}` (`ExA = 10`, `ExB = 20`); every other value number is its own
normal value and raises nothing. -/
def exVnStore : ValueNumStore :=
  { VNNormalValue := fun v => if v = 1 ∨ v = 2 ∨ v = 3 then 5 else v
    VNExceptionSet := fun v =>
      if v = 1 then {10} else if v = 2 then {20} else if v = 3 then {10, 20} else ∅
    CoercedConstantValue := fun _ => 0 }

/-- A freshly indexed descriptor of candidate 1 (as `optValnumCSE_Index` leaves it). -/
def exDsc : CSEdsc Nat :=
  { csdHashKey := 5, csdConstDefValue := 0, csdIndex := 1, csdIsSharedConst := false,
    csdLiveAcrossCall := false, csdDefCount := 0, csdUseCount := 0, csdDefWtCnt := 0,
    csdUseWtCnt := 0, defExcSetPromise := some VNForEmptyExcSet, defExcSetCurrent := none,
    csdTreeList := { tslTree := exTree 1 1 1 false, tslStmt := 1, tslBlock := 1 },
    tslNext := [{ tslTree := exTree 2 1 2 false, tslStmt := 2, tslBlock := 2 }],
    numDistinctLocals := 0, numLocalOccurrences := 0 }

/-- A compiler state with the one candidate `exDsc`; the candidate is available (and available
across calls) on entry to block 3 and to no other block. -/
def exCompiler : Compiler Nat :=
  { vnStore := exVnStore, optCSEhash := [], optCSEhashSize := 0, optCSEhashCount := 0,
    optCSEhashMaxCountBeforeResize := 0, optCSECandidateCount := 1, optDoCSE := true,
    optCSEtab := [some exDsc], compCurBB := 0, treeCSEnum := fun _ => 0,
    sharedConstantCSEEnabled := false, encodeSharedConst := fun v => v, cseLivenessTraits := 3,
    cseCallKillsMask := {0}, cseAsyncKillsMask := {0, 1, 2}, compIsAsync := false, fgFirstBB := 0,
    bbCseIn := fun b => if b = 3 then {0, 1} else ∅, bbCseOut := fun _ => ∅,
    bbCseGen := fun _ => ∅, DataFlowD := clampedDataFlowD }

/-- The state `exCompiler` with candidate 1 abandoned. -/
def exCompilerAbandoned : Compiler Nat :=
  { exCompiler with optCSEtab := [some (abandonDsc exDsc)] }

/-- A block of weight 1 with one statement of one node. -/
def exBlock (n : Nat) (t : GenTree) : BasicBlock Nat :=
  { bbNum := n, bbPreds := [], BBF_HAS_CALL := false, BBF_NO_CSE_IN := false,
    isHandlerBeg := false, bbWeight := 1,
    stmts := [{ stmtID := n, rootIsReturn := false, treeList := [t] }] }

/-- Scenario S1: an occurrence in block 1 raising `{ExA}`. -/
def s1Def : BasicBlock Nat := exBlock 1 (exTree 1 1 1 false)

/-- Scenario S1: an occurrence raising `{ExA}` in block 3, where the candidate is available. -/
def s1Use : BasicBlock Nat := exBlock 3 (exTree 3 1 1 false)

/-- Scenario S5: an occurrence in block 1 raising `{ExA}`. -/
def s5DefA : BasicBlock Nat := exBlock 1 (exTree 1 1 1 false)

/-- Scenario S5: an occurrence in block 2 raising `{ExB}`. -/
def s5DefB : BasicBlock Nat := exBlock 2 (exTree 2 1 2 false)

/-- Scenario S5: an occurrence raising `{ExA, ExB}` in block 3, where the candidate is
available. -/
def s5Use : BasicBlock Nat := exBlock 3 (exTree 3 1 3 false)

/-- The outcome of labeling for candidate 1: abandoned or not, viable or not, performed by the
random policy or not, and the counts. -/
def s5Outcome (order : List (BasicBlock Nat)) : Option (Bool × Bool × Bool × Nat × Nat) :=
  (optValnumCSE_Availability exCompiler order).bind fun r =>
    (optCSEfindDsc r.1 1).map fun d =>
      (d.defExcSetPromise.isNone, d.IsViable, randomPolicyPerforms d, d.csdDefCount,
        d.csdUseCount)

/-- A block without statements, with the given number, predecessors and call flag. -/
def exFlowBlock (n : Nat) (preds : List Nat) (hasCall : Bool) : BasicBlock Nat :=
  { bbNum := n, bbPreds := preds, BBF_HAS_CALL := hasCall, BBF_NO_CSE_IN := false,
    isHandlerBeg := false, bbWeight := 1, stmts := [] }

/-- The state before the forward analysis for one candidate, generated (both bits) in block 0:
the in/out initialisation of `optValnumCSE_InitDataFlow`, then `bbCseGen`. The helper
`DataFlowD` is the argument. -/
def exFlowStart (dataFlowD : EXPSET_TP → EXPSET_TP → EXPSET_TP → EXPSET_TP)
    (blocks : List (BasicBlock Nat)) : CSE_DataFlow Nat :=
  { m_comp :=
      { initDataFlowInOut { exCompiler with DataFlowD := dataFlowD } blocks with
        bbCseGen := fun b => if b = 0 then {0, 1} else ∅ }
    m_preMergeOut := MakeEmpty }

/-- A straight-line flow graph: the entry block 0, then block 1 (with a call), then block 2. -/
def exFlowLine : List (BasicBlock Nat) :=
  [exFlowBlock 0 [] false, exFlowBlock 1 [0] true, exFlowBlock 2 [1] false]

/-- A flow graph whose entry block 0 is the target of a back edge from block 1. -/
def exFlowLoop : List (BasicBlock Nat) :=
  [exFlowBlock 0 [1] false, exFlowBlock 1 [0] false]

/-- The values of `bbCseIn` and of the intersection of the predecessors' `bbCseOut` for a
block, once the forward analysis (at most `fuel` passes) has terminated. -/
def exFlowInAndMeet (dataFlowD : EXPSET_TP → EXPSET_TP → EXPSET_TP → EXPSET_TP)
    (blocks : List (BasicBlock Nat)) (fuel : Nat) (block : BasicBlock Nat) :
    Option (EXPSET_TP × EXPSET_TP) :=
  (ForwardAnalysis fuel (exFlowStart dataFlowD blocks) blocks).map fun df =>
    (df.m_comp.bbCseIn block.bbNum, predsMeet df.m_comp block.bbPreds)

/-- A state in which no node is tagged. -/
def exIndexBase : Compiler Nat :=
  { exCompiler with optCSEtab := [], optCSECandidateCount := 0 }

/-- Two blocks of one statement each: nodes 1 and 2 with the value numbers 7 and 8, then nodes 3
and 4 with the value numbers 8 and 7. -/
def exLocateBlocks : List (BasicBlock Nat) :=
  [{ exBlock 1 (exTree 1 0 7 false) with
      stmts := [{ stmtID := 1, rootIsReturn := false,
                  treeList := [exTree 1 0 7 false, exTree 2 0 8 false] }] },
   { exBlock 2 (exTree 3 0 8 false) with
      stmts := [{ stmtID := 2, rootIsReturn := false,
                  treeList := [exTree 3 0 8 false, exTree 4 0 7 false] }] }]

/-- Calls of the indexer in block 1: node 1000 with the value number 1000, then for each
`i < n` the nodes `2 i` and `2 i + 1` with the value number `100 + i`. -/
def exIndexCalls (n : Nat) : List (Nat × Nat × GenTree) :=
  (1, 0, exTree 1000 0 1000 false) ::
    ((List.range n).map fun i =>
      [(1, i + 1, exTree (2 * i) 0 (100 + i) false),
       (1, i + 1, exTree (2 * i + 1) 0 (100 + i) false)]).flatten

/-- The state after `exIndexCalls 64`: `MAX_CSE_CNT` candidates and one descriptor without an
index (key 1000, one occurrence). -/
def exFullCompiler : Compiler Nat :=
  (indexCalls (optValnumCSE_Init 64 exIndexBase) (exIndexCalls 64)).getD exIndexBase

/-- Calls of the indexer in block 1 for `n` nodes with pairwise distinct value numbers. -/
def exDistinctKeys (n : Nat) : List (Nat × Nat × GenTree) :=
  (List.range n).map fun i => (1, i, exTree i 0 (100 + i) false)

/-- Scenario S2: the node `IND p`, liberal value number 5 (a normal value, no exception). -/
def s2Ind (id : Nat) : GenTree := exTree id 0 5 false

/-- Scenario S2: the node `COMMA(BOUNDS_CHECK(i,n), IND p)`, liberal value number 1 (normal
value 5 with the exception set `{ExA}`); its second operand has the liberal value number 5. -/
def s2Comma (id : Nat) : GenTree :=
  { exTree id 0 1 false with isComma := true, op2VnLiberal := 5 }

/-- Scenario S2 as calls of the indexer: in block 0 the operand `IND p` (node 1) and the comma
(node 2), in block 1 the node `IND p` (node 3). -/
def s2Calls : List (Nat × Nat × GenTree) :=
  [(0, 1, s2Ind 1), (0, 1, s2Comma 2), (1, 2, s2Ind 3)]

/-- The tree `ADD(a, b)` in which the node `a` (7) is a def of candidate 1 and `b` (8) a use
of candidate 2: the root node and its operand subtrees. -/
def exSwapDef : GenTree × GenTreeOps :=
  (exTree 6 0 60 false,
    GenTreeOps.tree (exTree 7 (-1) 61 false) GenTreeOps.none
      (GenTreeOps.tree (exTree 8 2 62 false) GenTreeOps.none GenTreeOps.none))

/-- A tree whose root (node 9) is a use of candidate `k`, with an untagged operand. -/
def exSwapUse (k : Int) : GenTree × GenTreeOps :=
  (exTree 9 k 61 false,
    GenTreeOps.tree (exTree 10 0 63 false) GenTreeOps.none GenTreeOps.none)

/-- A second candidate, like `exDsc`, with index 2 and key 6. -/
def exDsc2 : CSEdsc Nat :=
  { exDsc with
    csdHashKey := 6
    csdIndex := 2
    csdTreeList := { tslTree := exTree 11 2 6 false, tslStmt := 1, tslBlock := 1 }
    tslNext := [{ tslTree := exTree 12 2 6 false, tslStmt := 2, tslBlock := 2 }] }

/-- A compiler state with the two candidates `exDsc` and `exDsc2` and the call-kill mask
`optValnumCSE_InitDataFlow` builds for two candidates. -/
def exCompiler2 : Compiler Nat :=
  { exCompiler with
    optCSECandidateCount := 2
    optCSEtab := [some exDsc, some exDsc2]
    cseLivenessTraits := 5
    cseCallKillsMask := {0, 2} }

/-- Scenario S3: `t = ADD a b` (node 1, candidate 1), `CALL f()` (node 2, no tag), then a
second occurrence of `t` (node 3). -/
def s3Trees : List GenTree :=
  [exTree 1 1 1 false, exTree 2 0 9 true, exTree 3 1 1 false]

/-- Scenario S6: an async procedure in which candidate 1 is of by-ref type (the type code 0 of
its first tree standing for `TYP_BYREF`), so that `cseAsyncKillsMask` lacks its two bits. -/
def exCompilerAsync : Compiler Nat :=
  { exCompiler with compIsAsync := true, cseAsyncKillsMask := {2} }

/-- Scenario S6: an async call (node 2, no tag). -/
def s6Call : GenTree := { exTree 2 0 9 true with isAsyncCall := true }

/-- Scenario S6: the async call, then an occurrence of candidate 1 (node 3). -/
def s6Trees : List GenTree := [s6Call, exTree 3 1 1 false]

/-- A VN store with two integer constants: value number 1 is `0x1000`, value number 2 is
`0x1010`; every value number is its own normal value. -/
def s4VnStore : ValueNumStore :=
  { VNNormalValue := fun v => v
    VNExceptionSet := fun _ => ∅
    CoercedConstantValue := fun v => if v = 1 then 0x1000 else if v = 2 then 0x1010 else 0 }

/-- Scenario S4: a shared-constant candidate whose occurrences are the constant `0x1000` (node
1) and the constant `0x1010` (node 2). -/
def s4Dsc : CSEdsc Nat :=
  { exDsc with
    csdIsSharedConst := true
    csdDefCount := 1
    csdUseCount := 1
    csdTreeList := { tslTree := exTree 1 0 1 false, tslStmt := 1, tslBlock := 1 }
    tslNext := [{ tslTree := exTree 2 0 2 false, tslStmt := 2, tslBlock := 2 }] }

/-- A rewriter state over the given VN store and candidate table, with the given tags; the next
local to be grabbed is `V07`. -/
def exCseState (vnStore : ValueNumStore) (optCSEtab : List (Option (CSEdsc Nat)))
    (treeCSEnum : Nat → Int) : CseState Nat :=
  { comp :=
      { exCompiler with
        vnStore := vnStore
        optCSECandidateCount := optCSEtab.length
        optCSEtab := optCSEtab
        treeCSEnum := treeCSEnum }
    optCSEunmarks := 0
    optCSEweight := 0
    optCSEattempt := 0
    optCSEcount := 0
    lvaCount := 7
    lvRefCnt := fun _ => 0
    lvRefCntWtd := fun _ => 0
    replaced := []
    performLog := [] }

/-- Scenario S4 after labeling: node 1 is the def, node 2 the use. -/
def s4State : CseState Nat :=
  exCseState s4VnStore [some s4Dsc] (fun id => if id = 1 then -1 else if id = 2 then 1 else 0)

/-- An IR in which every block has weight 1, the nodes 1 and 2 are leaves, and node 3 has the
operands node 4 (a call, with side effects) and node 5. -/
def exIR : CseIR Nat :=
  { getBBWeight := fun _ => 1
    gtOperands := fun id =>
      if id = 3 then
        GenTreeOps.tree (exTree 4 0 9 true) GenTreeOps.none
          (GenTreeOps.tree (exTree 5 0 8 false) GenTreeOps.none GenTreeOps.none)
      else GenTreeOps.none
    gtTreeHasSideEffects := fun t => t.isCall
    gtNodeHasSideEffects := fun t => t.isCall }

/-- A candidate (index 1) with a def at node 1 and uses at the nodes 2 and 3. -/
def exPerfDsc : CSEdsc Nat :=
  { exDsc with
    csdDefCount := 1
    csdUseCount := 2
    csdTreeList := { tslTree := exTree 1 0 1 false, tslStmt := 1, tslBlock := 1 }
    tslNext := [{ tslTree := exTree 2 0 1 false, tslStmt := 2, tslBlock := 2 },
      { tslTree := exTree 3 0 1 false, tslStmt := 3, tslBlock := 3 }] }

/-- A second candidate (index 2) with a def at node 6 and a use at node 5, which is an operand
of node 3. -/
def exPerfDsc2 : CSEdsc Nat :=
  { exDsc with
    csdIndex := 2
    csdHashKey := 8
    csdDefCount := 1
    csdUseCount := 1
    csdUseWtCnt := 1
    csdTreeList := { tslTree := exTree 6 0 8 false, tslStmt := 1, tslBlock := 1 }
    tslNext := [{ tslTree := exTree 5 0 8 false, tslStmt := 3, tslBlock := 3 }] }

/-- The two candidates `exPerfDsc` and `exPerfDsc2` after labeling. -/
def exPerfState : CseState Nat :=
  exCseState exVnStore [some exPerfDsc, some exPerfDsc2]
    (fun id => if id = 1 then -1 else if id = 2 then 1 else if id = 3 then 1
      else if id = 6 then -2 else if id = 5 then 2 else 0)

/-- A candidate with one def (node 1) and one use (node 2), after labeling. -/
def exDefUseDsc : CSEdsc Nat :=
  { exDsc with
    csdDefCount := 1
    csdUseCount := 1
    csdTreeList := { tslTree := exTree 1 0 1 false, tslStmt := 1, tslBlock := 1 }
    tslNext := [{ tslTree := exTree 2 0 1 false, tslStmt := 2, tslBlock := 2 }] }

/-- The candidate `exDefUseDsc` after labeling. -/
def exDefUseState : CseState Nat :=
  exCseState exVnStore [some exDefUseDsc] (fun id => if id = 1 then -1 else if id = 2 then 1 else 0)

/-- A configuration of the parameterized policies with integer preferences: candidate 2 (slot
1) is preferred to candidate 1 (slot 0), which is preferred to stopping; greedy mode. -/
def exRLConfig : RLConfig Nat Int :=
  { Preference := fun _ slot => if slot = 1 then 3 else 2
    StoppingPreference := fun _ => 1
    exp := fun p => p
    NextDouble := fun _ => 0
    m_updateParameters := false
    m_greedy := true
    JitReplayCSE := [] }

/-- A configuration of the standard policy: a release build in which `PromotionCheck` accepts
every candidate. -/
def exStandardConfig : StandardConfig Nat :=
  { DEBUG := false, JitCSEHash := 0, compMethodHash := 0, JitCSEMask := 0,
    PromotionCheck := fun _ _ => true }

/-- A `DEBUG` configuration of the standard policy in which `PromotionCheck` rejects every
candidate, `JitCSEHash` is 0 and bit 0 of `JitCSEMask` is set. -/
def exMaskConfig : StandardConfig Nat :=
  { DEBUG := true, JitCSEHash := 0, compMethodHash := 0, JitCSEMask := 1,
    PromotionCheck := fun _ _ => false }

/-- The two candidates of the comparator scenario: equal costs, candidate 1 with one use of
weight 5, candidate 2 with two uses of weight 1 each. -/
def exSortDscA : CSEdsc Nat :=
  { exDsc with csdIndex := 1, csdUseCount := 1, csdUseWtCnt := 5 }

/-- The second candidate of the comparator scenario. -/
def exSortDscB : CSEdsc Nat :=
  { exDsc with csdIndex := 2, csdUseCount := 2, csdUseWtCnt := 2 }

/-- A candidate with one def and three uses (weights as counts), cost 4, size 4, an integer
type, not live across a call. -/
def exCandidate : CSE_Candidate Nat :=
  { DefCount := 1
    UseCount := 3
    Cost := 4
    Size := 4
    LiveAcrossCall := false
    CseDsc := { exDsc with csdDefCount := 1, csdUseCount := 3 }
    ExprIsStruct := false
    ExprLayoutSize := 0
    ExprUsesIntReg := true
    ExprUsesMaskReg := false
    ExprIsFloating := false
    ExprIsSimd32or64 := false
    ExprIsSimd16 := false }

/-- A release configuration of `PromotionCheck` for a 64-bit xarch target, blended code, no
stress. -/
def exPromotionConfig : PromotionConfig Nat :=
  { DEBUG := false
    optConfigDisableCSE2 := false
    SMALL_CODE := false
    aggressiveRefCnt := 20
    moderateRefCnt := 10
    largeFrame := false
    hugeFrame := false
    enregCountInt := 2
    enregCountFlt := 0
    enregCountMsk := 0
    CNT_AGGRESSIVE_ENREG := 6
    CNT_AGGRESSIVE_ENREG_FLT := 12
    CNT_AGGRESSIVE_ENREG_MSK := 1
    CNT_CALLEE_SAVED_MASK := 0
    CNT_CALLEE_SAVED_FLOAT := 0
    TARGET_XARCH := true
    TARGET_ARM64 := false
    FEATURE_SIMD := true
    TARGET_64BIT := true
    BB_UNITY_WEIGHT_UNSIGNED := 100
    lvaTrackedCount := 3
    JitMaxLocalsToTrack := 1024
    compStressCompile := fun _ => false
    toInt := fun w => (w : Int) }

/-- The configuration `exPromotionConfig` in a `DEBUG` build in which `optConfigDisableCSE2()`
answers true (`JitNoCSE2` set). -/
def exPromotionConfigNoCSE2 : PromotionConfig Nat :=
  { exPromotionConfig with DEBUG := true, optConfigDisableCSE2 := true }

/-- A release configuration of the random policy whose generator answers `(k + 1) mod bound`
at its `k`-th call. -/
def exRandomConfig : RandomConfig Nat :=
  { DEBUG := false
    optConfigDisableCSE2 := false
    Next := fun k bound => (k + 1) % bound
    UseCountIsZero := fun _ dsc => decide (dsc.csdUseCount = 0) }

/-! ## `optValnumCSE_InitDataFlow`: the sets `bbCseGen`; `optValnumCSE_SetUpAsyncByrefKills` -/

/-- The flag `BBF_HAS_CALL` of the block with the number `bbNum`: an entry of an occurrence
list holds the block pointer `tslBlock`, and the flag is read through it. -/
def blockHasCall {W : Type} (blocks : List (BasicBlock W)) (bbNum : Nat) : Bool :=
  blocks.any fun b => decide (b.bbNum = bbNum) && b.BBF_HAS_CALL

/-- The body of the loop `while (lst != nullptr)` of `optValnumCSE_InitDataFlow` (lines
995-1011) for one entry of an occurrence list: the available bit is added to `bbCseGen` of the
block of the entry, and the available-across-call bit when the block has no `BBF_HAS_CALL`. -/
def initGenOccurrence {W : Type} (blocks : List (BasicBlock W)) (CSEindex : Nat)
    (c : Compiler W) (lst : treeStmtLst) : Compiler W :=
  let block := lst.tslBlock
  let cseAvailBit := getCSEAvailBit CSEindex
  let cseAvailCrossCallBit := getCSEAvailCrossCallBit CSEindex
  let gen1 := insert cseAvailBit (c.bbCseGen block)
  let gen2 := if !blockHasCall blocks block then insert cseAvailCrossCallBit gen1 else gen1
  { c with bbCseGen := Function.update c.bbCseGen block gen2 }

/-- The loop over `inx` of `optValnumCSE_InitDataFlow` (lines 987-1013); `none` when
`optCSEtab[inx]` is null. -/
def initGenLoop {W : Type} (blocks : List (BasicBlock W)) :
    List Nat → Compiler W → Option (Compiler W)
  | [], c => some c
  | inx :: rest, c =>
    match (c.optCSEtab.get? inx).join with
    | none => none
    | some dsc =>
      initGenLoop blocks rest (dsc.occurrences.foldl (initGenOccurrence blocks dsc.csdIndex) c)

/-- The inner loop of the search for the last async call (lines 1146-1154), on the nodes of a
statement from the root backwards (`gtPrev`): the nodes from the async call found to the end of
the statement, in execution order. `after` holds the nodes already passed. -/
def findAsyncCallInStmt : List GenTree → List GenTree → Option (List GenTree)
  | [], _ => none
  | tree :: prev, after =>
    if tree.isCall && tree.isAsyncCall then some (tree :: after)
    else findAsyncCallInStmt prev (tree :: after)

/-- The loop `while (asyncCall == nullptr)` (lines 1142-1160) on the statements of a block from
the last one backwards: the nodes from the async call found to the end of the block, in
execution order, which are the nodes the re-add loop walks. `GTF_CALL_root stmt` is the test
`(stmt->GetRootNode()->gtFlags & GTF_CALL) != 0`, a flag kept outside the sources; `later` holds
the nodes of the statements already passed. -/
def findLastAsyncCall (GTF_CALL_root : Statement → Bool) :
    List Statement → List GenTree → Option (List GenTree)
  | [], _ => none
  | stmt :: prevStmts, later =>
    match (if GTF_CALL_root stmt then findAsyncCallInStmt stmt.treeList.reverse [] else none) with
    | some tail => some (tail ++ later)
    | none => findLastAsyncCall GTF_CALL_root prevStmts (stmt.treeList ++ later)

/-- The re-add loop of `optValnumCSE_SetUpAsyncByrefKills` (lines 1179-1204) on one of the two
sets: the available bit of every tagged node from the async call to the end of the block. -/
def asyncReAdd (s : EXPSET_TP) : List GenTree → EXPSET_TP
  | [] => s
  | curTree :: rest =>
    if IS_CSE_INDEX curTree.gtCSEnum then
      asyncReAdd (insert (getCSEAvailBit (GET_CSE_INDEX curTree.gtCSEnum)) s) rest
    else asyncReAdd s rest

/-- The body of the block loop of `optValnumCSE_SetUpAsyncByrefKills` (lines 1137-1205): in a
block with an async call, `bbCseGen` and `bbCseOut` are intersected with `cseAsyncKillsMask` and
the available bits of the tagged nodes from the last async call on are added again. -/
def asyncKillsBlock {W : Type} (GTF_CALL_root : Statement → Bool) (c : Compiler W)
    (block : BasicBlock W) : Compiler W :=
  match findLastAsyncCall GTF_CALL_root block.stmts.reverse [] with
  | none => c
  | some tail =>
    let gen1 := c.bbCseGen block.bbNum ∩ c.cseAsyncKillsMask
    let out1 := c.bbCseOut block.bbNum ∩ c.cseAsyncKillsMask
    { c with
      bbCseGen := Function.update c.bbCseGen block.bbNum (asyncReAdd gen1 tail)
      bbCseOut := Function.update c.bbCseOut block.bbNum (asyncReAdd out1 tail) }

/-- The value of `anyAsyncKills` after the first loop of `optValnumCSE_SetUpAsyncByrefKills`:
some candidate is of by-ref type. -/
def anyAsyncKills {W : Type} (TYP_BYREF TYP_STRUCT : Nat) (layoutHasGCByRef : GenTree → Bool)
    (c : Compiler W) : Bool :=
  (List.range' 1 c.optCSECandidateCount).any fun inx =>
    match (c.optCSEtab.get? (inx - 1)).join with
    | some dsc => isByRefCSE TYP_BYREF TYP_STRUCT layoutHasGCByRef dsc.csdTreeList.tslTree
    | none => false

/-- The function `Compiler::optValnumCSE_SetUpAsyncByrefKills` (lines 1108-1207); `none` when a
slot of `optCSEtab` is null. The `assert` on `csdIndex` is not modelled. -/
def optValnumCSE_SetUpAsyncByrefKills {W : Type} (TYP_BYREF TYP_STRUCT : Nat)
    (layoutHasGCByRef : GenTree → Bool) (GTF_CALL_root : Statement → Bool) (c : Compiler W)
    (blocks : List (BasicBlock W)) : Option (Compiler W) :=
  match asyncKillsMask TYP_BYREF TYP_STRUCT layoutHasGCByRef c with
  | none => none
  | some mask =>
    let c1 : Compiler W := { c with cseAsyncKillsMask := mask }
    if anyAsyncKills TYP_BYREF TYP_STRUCT layoutHasGCByRef c then
      some (blocks.foldl (asyncKillsBlock GTF_CALL_root) c1)
    else some c1

/-- The inner loop of the backward scan of `optValnumCSE_InitDataFlow` (lines 1046-1064), on
the nodes of a statement from the root backwards: the available-across-call bit of every tagged
node is added, up to and including the first call met; the flag is `foundCall`. -/
def callGenTrees (gen : EXPSET_TP) : List GenTree → EXPSET_TP × Bool
  | [] => (gen, false)
  | tree :: prev =>
    let gen1 :=
      if IS_CSE_INDEX tree.gtCSEnum then
        insert (getCSEAvailCrossCallBit (GET_CSE_INDEX tree.gtCSEnum)) gen
      else gen
    if tree.isCall then (gen1, true) else callGenTrees gen1 prev

/-- The loop `while (!foundCall)` of the backward scan (lines 1039-1073), on the statements of a
block from the last one backwards. -/
def callGenStmts (gen : EXPSET_TP) : List Statement → EXPSET_TP
  | [] => gen
  | stmt :: prevStmts =>
    let r := callGenTrees gen stmt.treeList.reverse
    if r.2 then r.1 else callGenStmts r.1 prevStmts

/-- The body of the last block loop of `optValnumCSE_InitDataFlow` (lines 1020-1074): blocks
without `BBF_HAS_CALL` and blocks with an empty `bbCseGen` are skipped. -/
def callGenBlock {W : Type} (c : Compiler W) (block : BasicBlock W) : Compiler W :=
  if !block.BBF_HAS_CALL then c
  else if c.bbCseGen block.bbNum = MakeEmpty then c
  else
    { c with
      bbCseGen := Function.update c.bbCseGen block.bbNum
        (callGenStmts (c.bbCseGen block.bbNum) block.stmts.reverse) }

/-- The function `Compiler::optValnumCSE_InitDataFlow` (lines 918-1074): the in/out
initialisation, the gen bits of every occurrence, the async kills in an async procedure, and
the backward scan of the blocks with a call. The nodes carry their tags in `gtCSEnum`. -/
def optValnumCSE_InitDataFlow {W : Type} (TYP_BYREF TYP_STRUCT : Nat)
    (layoutHasGCByRef : GenTree → Bool) (GTF_CALL_root : Statement → Bool) (c : Compiler W)
    (blocks : List (BasicBlock W)) : Option (Compiler W) :=
  let c1 := initDataFlowInOut c blocks
  match initGenLoop blocks (List.range c1.optCSECandidateCount) c1 with
  | none => none
  | some c2 =>
    match (if c2.compIsAsync then
        optValnumCSE_SetUpAsyncByrefKills TYP_BYREF TYP_STRUCT layoutHasGCByRef GTF_CALL_root c2
          blocks
      else some c2) with
    | none => none
    | some c3 => some (blocks.foldl callGenBlock c3)

/-! ### Notions used to state what the dataflow sets hold -/

/-- The nodes of a block in execution order. -/
def BasicBlock.nodes {W : Type} (block : BasicBlock W) : List GenTree :=
  block.stmts.flatMap fun s => s.treeList

/-- The node carries a tag of candidate `k`. -/
def taggedWith (k : Nat) (t : GenTree) : Prop :=
  IS_CSE_INDEX t.gtCSEnum = true ∧ GET_CSE_INDEX t.gtCSEnum = k

/-- The node `u` stands at or after the last call of the nodes given (in execution order): no
node behind it is a call. Without a call among the nodes, every node does. -/
def atOrAfterLastCall (nodes : List GenTree) (u : GenTree) : Prop :=
  ∃ pre post, nodes = pre ++ u :: post ∧ ∀ v ∈ post, v.isCall = false

/-- The node `u` stands after the last call of the nodes given: neither it nor a node behind it
is a call. -/
def afterLastCall (nodes : List GenTree) (u : GenTree) : Prop :=
  ∃ pre post, nodes = pre ++ u :: post ∧ ∀ v ∈ u :: post, v.isCall = false

/-- The node is an async call (`tree->IsCall() && tree->AsCall()->IsAsync()`). -/
def isAsyncCallNode (t : GenTree) : Bool := t.isCall && t.isAsyncCall

/-- The node `u` stands at or after the last async call of the nodes given, which hold one. -/
def atOrAfterLastAsyncCall (nodes : List GenTree) (u : GenTree) : Prop :=
  ∃ pre t post, nodes = pre ++ t :: post ∧ isAsyncCallNode t = true ∧
    (∀ v ∈ post, isAsyncCallNode v = false) ∧ u ∈ t :: post

/-- The value the block loop of `optValnumCSE_SetUpAsyncByrefKills` leaves in `bbCseGen` or
`bbCseOut` of a block, from the value `s` it finds there. -/
def asyncKillsSet (GTF_CALL_root : Statement → Bool) (mask : EXPSET_TP) (stmts : List Statement)
    (s : EXPSET_TP) : EXPSET_TP :=
  match findLastAsyncCall GTF_CALL_root stmts.reverse [] with
  | none => s
  | some tail => asyncReAdd (s ∩ mask) tail

/-- The value the backward scan of `optValnumCSE_InitDataFlow` leaves in `bbCseGen` of a block,
from the value `gen` it finds there. -/
def callGenSet (hasCall : Bool) (stmts : List Statement) (gen : EXPSET_TP) : EXPSET_TP :=
  if !hasCall then gen
  else if gen = MakeEmpty then gen
  else callGenStmts gen stmts.reverse

/-- Candidate `k` has an occurrence in the block with the number `bbNum`: an entry of its
occurrence list names that block. -/
def hasOccurrenceIn {W : Type} (c : Compiler W) (k bbNum : Nat) : Prop :=
  ∃ dsc, optCSEfindDsc c k = some dsc ∧ ∃ occ ∈ dsc.occurrences, occ.tslBlock = bbNum

/-- The candidate table is dense: slot `inx` holds the descriptor with `csdIndex = inx + 1`, for
every `inx < optCSECandidateCount`. -/
def TableDense {W : Type} (c : Compiler W) : Prop :=
  ∀ inx, inx < c.optCSECandidateCount →
    ∃ dsc, (c.optCSEtab.get? inx).join = some dsc ∧ dsc.csdIndex = inx + 1

/-- Every tagged node of the block is listed: its tag names a candidate that has an occurrence
in the block. -/
def TagsListed {W : Type} (c : Compiler W) (block : BasicBlock W) : Prop :=
  ∀ t ∈ block.nodes, IS_CSE_INDEX t.gtCSEnum = true →
    hasOccurrenceIn c (GET_CSE_INDEX t.gtCSEnum) block.bbNum

/-- The test of `TableDense` on the slots `0..optCSECandidateCount - 1`. -/
def tableDenseB {W : Type} (c : Compiler W) : Bool :=
  (List.range c.optCSECandidateCount).all fun inx =>
    match (c.optCSEtab.get? inx).join with
    | some dsc => decide (dsc.csdIndex = inx + 1)
    | none => false

/-- The test of `TagsListed` on the nodes of the block. -/
def tagsListedB {W : Type} (c : Compiler W) (block : BasicBlock W) : Bool :=
  block.nodes.all fun t =>
    !IS_CSE_INDEX t.gtCSEnum ||
      match optCSEfindDsc c (GET_CSE_INDEX t.gtCSEnum) with
      | some dsc => dsc.occurrences.any fun occ => decide (occ.tslBlock = block.bbNum)
      | none => false

/-- No illegal bit pair: the available-across-call bit of a candidate is in the set only
together with its available bit. -/
def PairClosed (s : EXPSET_TP) : Prop :=
  ∀ k, 1 ≤ k → getCSEAvailCrossCallBit k ∈ s → getCSEAvailBit k ∈ s

/-- A call of one of the callbacks of `CSE_DataFlow` by the dataflow driver. -/
inductive FlowStep (W : Type) where
  | StartMerge (block : BasicBlock W) : FlowStep W
  | Merge (block : BasicBlock W) (predBlock : Nat) : FlowStep W
  | MergeHandler (block : BasicBlock W) : FlowStep W
  | EndMerge (block : BasicBlock W) : FlowStep W

/-- The state after one callback call. -/
def CSE_DataFlow.step {W : Type} (df : CSE_DataFlow W) : FlowStep W → CSE_DataFlow W
  | FlowStep.StartMerge block => df.StartMerge block
  | FlowStep.Merge block predBlock => df.Merge block predBlock
  | FlowStep.MergeHandler block => df.MergeHandler block
  | FlowStep.EndMerge block => (df.EndMerge block).1

/-- The state after a sequence of callback calls, in whatever order a driver makes them. -/
def CSE_DataFlow.run {W : Type} (df : CSE_DataFlow W) (steps : List (FlowStep W)) :
    CSE_DataFlow W :=
  steps.foldl CSE_DataFlow.step df

/-- The block and predecessor numbers a callback call names. -/
def FlowStep.nums {W : Type} : FlowStep W → List Nat
  | FlowStep.StartMerge block => [block.bbNum]
  | FlowStep.Merge block predBlock => [block.bbNum, predBlock]
  | FlowStep.MergeHandler block => [block.bbNum]
  | FlowStep.EndMerge block => [block.bbNum]

/-- The number of `EndMerge` calls, in a sequence of callback calls, that changed `bbCseOut` of
the block with the number `n`. -/
def outChanges {W : Type} : CSE_DataFlow W → List (FlowStep W) → Nat → Nat
  | _, [], _ => 0
  | df, s :: rest, n =>
    (if (df.step s).m_comp.bbCseOut n ≠ df.m_comp.bbCseOut n then 1 else 0) +
      outChanges (df.step s) rest n

/-! ## The `DEBUG` assertion of `optValnumCSE_Availability` -/

/-- The assertion of lines 1500-1506 at a node: for a def (the available bit of the candidate is
not in `available_cses`) the available-across-call bit is not in `available_cses` either. -/
def availabilityDefAssert (available_cses : EXPSET_TP) (tree : GenTree) : Bool :=
  if IS_CSE_INDEX tree.gtCSEnum then
    let CSEnum := GET_CSE_INDEX tree.gtCSEnum
    let cseAvailBit := getCSEAvailBit CSEnum
    let cseAvailCrossCallBit := getCSEAvailCrossCallBit CSEnum
    let isUse : Bool := decide (cseAvailBit ∈ available_cses)
    let isDef : Bool := !isUse
    if isDef then !decide (cseAvailCrossCallBit ∈ available_cses) else true
  else true

/-- The assertion holds at every node of the statement that the labeler reaches (a failing
`noway_assert` of `optCSEfindDsc` ends the walk before the assertion). -/
def availabilityAssertsTrees {W : Type} [Add W] (stmw : W) :
    Compiler W → EXPSET_TP → List GenTree → Bool
  | _, _, [] => true
  | c, a, t :: ts =>
    match availabilityVisitTree stmw c a t with
    | none => true
    | some (c1, a1, _) => availabilityDefAssert a t && availabilityAssertsTrees stmw c1 a1 ts

/-- The assertion holds at every node of the statements that the labeler reaches. -/
def availabilityAssertsStmts {W : Type} [Add W] (stmw : W) :
    Compiler W → EXPSET_TP → List Statement → Bool
  | _, _, [] => true
  | c, a, s :: ss =>
    availabilityAssertsTrees stmw c a s.treeList &&
      (match availabilityTrees stmw c a s.treeList with
       | none => true
       | some (c1, a1, _) => availabilityAssertsStmts stmw c1 a1 ss)

/-- The assertion holds at every node that `optValnumCSE_Availability` reaches. -/
def availabilityAssertsBlocks {W : Type} [Add W] : Compiler W → List (BasicBlock W) → Bool
  | _, [] => true
  | c, b :: bs =>
    availabilityAssertsStmts b.bbWeight { c with compCurBB := b.bbNum } (c.bbCseIn b.bbNum)
        b.stmts &&
      (match availabilityStmts b.bbWeight { c with compCurBB := b.bbNum } (c.bbCseIn b.bbNum)
          b.stmts with
       | none => true
       | some (c1, _, _) => availabilityAssertsBlocks c1 bs)

/-! ### Notions used to state what `optExtractSideEffectsForCSE` returns -/

/-- The node is one the walk appends: it has a persistent side effect itself, or it is tagged
as a CSE def. -/
def isAppended {W : Type} (ir : CseIR W) (tags : Nat → Int) (node : GenTree) : Bool :=
  ir.gtNodeHasSideEffects node || IS_CSE_DEF (tags node.gtTreeID)

/-- The nodes the walk visits, in execution order: every node that has no appended node above
it. -/
def walkVisited {W : Type} (ir : CseIR W) (tags : Nat → Int) : GenTreeOps → List GenTree
  | GenTreeOps.none => []
  | GenTreeOps.tree node operands next =>
    if isAppended ir tags node then node :: walkVisited ir tags next
    else node :: (walkVisited ir tags operands ++ walkVisited ir tags next)

/-- The nodes the walk appends, in the order it meets them: the visited nodes that have a
persistent side effect themselves or are tagged as a CSE def. -/
def walkAppended {W : Type} (ir : CseIR W) (tags : Nat → Int) : GenTreeOps → List GenTree
  | GenTreeOps.none => []
  | GenTreeOps.tree node operands next =>
    if isAppended ir tags node then node :: walkAppended ir tags next
    else walkAppended ir tags operands ++ walkAppended ir tags next

/-- The left-nested chain of `GT_COMMA` nodes over the nodes given, null for no node. -/
def commaChain : List GenTree → Option CseTree
  | [] => none
  | node :: rest =>
    some (rest.foldl (fun chain n => CseTree.comma chain (CseTree.node n)) (CseTree.node node))

/-- The leaves of a tree of commas, read left to right. -/
def CseTree.commaLeaves : CseTree → List GenTree
  | CseTree.node tree => [tree]
  | CseTree.comma op1 op2 => op1.commaLeaves ++ op2.commaLeaves
  | _ => []

/-- The tree is a chain of commas nested to the left: every second operand is a node. -/
def CseTree.isLeftNested : CseTree → Bool
  | CseTree.node _ => true
  | CseTree.comma op1 (CseTree.node _) => op1.isLeftNested
  | _ => false

/-- The node is tagged as a use of candidate `k`. -/
def useTagged (tags : Nat → Int) (k : Nat) (node : GenTree) : Bool :=
  IS_CSE_USE (tags node.gtTreeID) && decide (GET_CSE_INDEX (tags node.gtTreeID) = k)

/-- The use count of every candidate covers the nodes of the list that are tagged as its uses:
the descriptor is in the table and `csdUseCount` is at least their number. -/
def UseCountsCover {W : Type} (st : CseState W) (nodes : List GenTree) : Prop :=
  ∀ k, 0 < nodes.countP (useTagged st.comp.treeCSEnum k) →
    ∃ dsc, optCSEfindDsc st.comp k = some dsc ∧
      nodes.countP (useTagged st.comp.treeCSEnum k) ≤ dsc.csdUseCount

/-! ### The two guarded operations of `PromotionCheck` -/

/-- The operands of the division `(no_cse_cost * 100) / yes_cse_cost` (line 4764) when a call
of `PromotionCheck` executes it, `none` when it does not. -/
def promotionStressDivision {W : Type} [Zero W] [Add W] [Mul W] [NatCast W]
    [LE W] [LT W] [DecidableRel (LE.le : W → W → Prop)] [DecidableRel (LT.lt : W → W → Prop)]
    (h : PromotionConfig W) (candidate : CSE_Candidate W) : Option (W × W) :=
  if h.DEBUG && h.optConfigDisableCSE2 then none
  else
    let v := promotionCosts h candidate
    if v.yes_cse_cost ≤ v.no_cse_cost then none
    else if 0 < v.no_cse_cost then some (v.no_cse_cost * ((100 : Nat) : W), v.yes_cse_cost)
    else none

/-- The operands of the subtraction `candidate->Size() - cse_use_cost` (line 4725) when a call
of `PromotionCheck` executes it, `none` when it does not; `cse_use_cost` is the final value of
the variable. -/
def promotionSizeSubtraction {W : Type} [Add W] [Mul W] [NatCast W]
    [LE W] [LT W] [DecidableRel (LE.le : W → W → Prop)] [DecidableRel (LT.lt : W → W → Prop)]
    (h : PromotionConfig W) (candidate : CSE_Candidate W) : Option (Nat × Nat) :=
  let v := promotionCosts h candidate
  if v.cse_use_cost < candidate.Size then some (candidate.Size, v.cse_use_cost) else none

/-- The candidate table is indexed: the descriptor in slot `i` has `csdIndex = i + 1`, which
`GreedyPolicy` asserts as `sortTab[dsc->csdIndex - 1] == dsc`. -/
def TableIndexed {W : Type} (st : CseState W) : Prop :=
  ∀ i dsc, st.dscAt i = some dsc → dsc.csdIndex = i + 1

/-- The test of `TableIndexed` on the slots of `optCSEtab`. -/
def tableIndexedB {W : Type} (st : CseState W) : Bool :=
  (List.range st.comp.optCSEtab.length).all fun i =>
    match st.comp.optCSEtab[i]? with
    | some (some dsc) => decide (dsc.csdIndex = i + 1)
    | _ => true

/-- The number of entries of `sortTab` that are not null. -/
def sortTabLive (sortTab : List (Option Nat)) : Nat :=
  sortTab.countP fun e => e.isSome

/-! ## Further concrete inputs -/

/-- A candidate with five defs and one use, cost 1 and size 1: creating the CSE costs more than
it saves. -/
def exCandidateCostly : CSE_Candidate Nat :=
  { exCandidate with DefCount := 5, UseCount := 1, Cost := 1, Size := 1 }

/-- A block in which candidate 2 is defined (node 11), then candidate 1 by a helper call raising
`{ExA}` (node 1), then candidate 1 is used by a second such call (node 3), which promises
`{ExA}` to the use. -/
def exAbandonBlockA : BasicBlock Nat :=
  { exBlock 1 (exTree 11 2 6 false) with
    stmts := [{ stmtID := 1, rootIsReturn := false,
                treeList := [exTree 11 2 6 false, exTree 1 1 1 true, exTree 3 1 1 true] }] }

/-- A block in which candidate 2 is defined (node 12), then a helper call raising `{ExB}` is an
occurrence of candidate 1 (node 2), then candidate 2 occurs again (node 13). -/
def exAbandonBlockB : BasicBlock Nat :=
  { exBlock 2 (exTree 12 2 6 false) with
    stmts := [{ stmtID := 2, rootIsReturn := false,
                treeList := [exTree 12 2 6 false, exTree 2 1 2 true, exTree 13 2 6 false] }] }

/-- A block with the given number, call flag and statements (each the list of its nodes in
execution order). -/
def exGenBlock (n : Nat) (hasCall : Bool) (stmts : List (List GenTree)) : BasicBlock Nat :=
  { bbNum := n, bbPreds := [], BBF_HAS_CALL := hasCall, BBF_NO_CSE_IN := false,
    isHandlerBeg := false, bbWeight := 1,
    stmts := stmts.map fun nodes => { stmtID := n, rootIsReturn := false, treeList := nodes } }

/-- A node of by-ref type (type code 7) with the given identity and tag. -/
def exByRefTree (id : Nat) (tag : Int) : GenTree := { exTree id tag 1 false with typeGet := 7 }

/-- An async call without a tag. -/
def exAsyncCall (id : Nat) : GenTree := { exTree id 0 9 true with isAsyncCall := true }

/-- Four blocks. Block 1 (with a call): two helper calls that are occurrences of candidate 2.
Block 2 (with a call): an occurrence of candidate 3 and a call without a tag, then a second
statement with an occurrence of candidate 3. Block 3 (no call): an occurrence of the by-ref
candidate 1. Block 4 (with a call): an occurrence of candidate 1, an async call, an occurrence
of candidate 3. -/
def exGenBlocks : List (BasicBlock Nat) :=
  [exGenBlock 1 true [[exTree 1 2 6 true, exTree 2 2 6 true]],
   exGenBlock 2 true [[exTree 11 3 8 false, exTree 20 0 9 true], [exTree 12 3 8 false]],
   exGenBlock 3 false [[exByRefTree 3 1]],
   exGenBlock 4 true [[exByRefTree 41 1, exAsyncCall 42, exTree 43 3 8 false]]]

/-- Block 1 of `exGenBlocks`. -/
def exGenBlockCalls : BasicBlock Nat :=
  exGenBlock 1 true [[exTree 1 2 6 true, exTree 2 2 6 true]]

/-- Block 2 of `exGenBlocks`. -/
def exGenBlockMixed : BasicBlock Nat :=
  exGenBlock 2 true [[exTree 11 3 8 false, exTree 20 0 9 true], [exTree 12 3 8 false]]

/-- Block 4 of `exGenBlocks`. -/
def exGenBlockAsync : BasicBlock Nat :=
  exGenBlock 4 true [[exByRefTree 41 1, exAsyncCall 42, exTree 43 3 8 false]]

/-- The state after `optValnumCSE_Index` for the blocks `exGenBlocks`: three candidates with
their occurrence lists. -/
def exGenCompiler : Compiler Nat :=
  { exCompiler with
    optCSECandidateCount := 3
    optCSEtab :=
      [some { exDsc with
          csdIndex := 1
          csdTreeList := { tslTree := exByRefTree 3 1, tslStmt := 3, tslBlock := 3 }
          tslNext := [{ tslTree := exByRefTree 41 1, tslStmt := 4, tslBlock := 4 }] },
       some { exDsc with
          csdIndex := 2
          csdHashKey := 6
          csdTreeList := { tslTree := exTree 1 2 6 true, tslStmt := 1, tslBlock := 1 }
          tslNext := [{ tslTree := exTree 2 2 6 true, tslStmt := 1, tslBlock := 1 }] },
       some { exDsc with
          csdIndex := 3
          csdHashKey := 8
          csdTreeList := { tslTree := exTree 11 3 8 false, tslStmt := 2, tslBlock := 2 }
          tslNext := [{ tslTree := exTree 12 3 8 false, tslStmt := 2, tslBlock := 2 },
                      { tslTree := exTree 43 3 8 false, tslStmt := 4, tslBlock := 4 }] }]
    bbCseIn := fun _ => ∅
    DataFlowD := clampedDataFlowD }

/-- The state `exGenCompiler` in an async procedure. -/
def exGenCompilerAsync : Compiler Nat := { exGenCompiler with compIsAsync := true }

/-- The flag `GTF_CALL` of the root of a statement, as the flag propagation sets it: some node
of the statement is a call. -/
def exCallRoot (stmt : Statement) : Bool := stmt.treeList.any fun t => t.isCall

/-- The state of the async procedure `exGenCompilerAsync` when `optValnumCSE_InitDataFlow`
calls `optValnumCSE_SetUpAsyncByrefKills`: after the in/out initialisation and the gen bits of
the occurrences. -/
def exGenAsyncStart : Compiler Nat :=
  (initGenLoop exGenBlocks (List.range 3)
    (initDataFlowInOut exGenCompilerAsync exGenBlocks)).getD exGenCompilerAsync

/-- An IR in which node 3 has the operands node 4 (a call, with side effects), node 6 and
node 5. -/
def exIRChain : CseIR Nat :=
  { exIR with
    gtOperands := fun id =>
      if id = 3 then
        GenTreeOps.tree (exTree 4 0 9 true) GenTreeOps.none
          (GenTreeOps.tree (exTree 6 0 8 false) GenTreeOps.none
            (GenTreeOps.tree (exTree 5 0 8 false) GenTreeOps.none GenTreeOps.none))
      else GenTreeOps.none }

/-! ## The visits of the forward driver -/

/-- The block a callback call is made on. -/
def FlowStep.block {W : Type} : FlowStep W → BasicBlock W
  | FlowStep.StartMerge block => block
  | FlowStep.Merge block _ => block
  | FlowStep.MergeHandler block => block
  | FlowStep.EndMerge block => block

/-- Modelled from the spec: the state after the forward driver has visited the blocks of the
list one after the other, each visit being `forwardVisit` (`StartMerge`, the merges and
`EndMerge`). -/
def forwardVisits {W : Type} (df : CSE_DataFlow W) (visits : List (BasicBlock W)) :
    CSE_DataFlow W :=
  visits.foldl (fun d block => (forwardVisit d block).1) df

/-- Modelled from the spec: the order in which the forward driver ("worklist-or-iterative")
reaches blocks. The driver is not part of the sources; the comment of `EndMerge` (lines
1325-1332) has it start at the entry block and visit a block as a successor of a block it has
visited ("we will visit every the successor of" the block). A block of the sequence is thus the
entry block, or a handler entry (reached through the exception edges, which `bbPreds` does not
list), or has a predecessor among the blocks visited before it; `visited` holds their
numbers. -/
def forwardVisitOrder {W : Type} (fgFirstBB : Nat) : List Nat → List (BasicBlock W) → Bool
  | _, [] => true
  | visited, block :: rest =>
    (decide (block.bbNum = fgFirstBB) || block.isHandlerBeg ||
      block.bbPreds.any fun p => decide (p ∈ visited)) &&
    forwardVisitOrder fgFirstBB (block.bbNum :: visited) rest

/-! ## Concrete inputs: an async procedure with a flow graph -/

/-- The blocks of `exGenBlocks` in a flow graph `3 → 4 → 1 → 2`: block 3 (the entry block, an
occurrence of the by-ref candidate 1, no call), block 4 (an occurrence of candidate 1, an async
call, an occurrence of candidate 3), block 1 and block 2. -/
def exAsyncFlowBlocks : List (BasicBlock Nat) :=
  [{ exGenBlock 3 false [[exByRefTree 3 1]] with bbPreds := [] },
   { exGenBlockAsync with bbPreds := [3] },
   { exGenBlockCalls with bbPreds := [4] },
   { exGenBlockMixed with bbPreds := [1] }]

/-- Block 3 of `exAsyncFlowBlocks`, the entry block. -/
def exAsyncFlowEntry : BasicBlock Nat :=
  { exGenBlock 3 false [[exByRefTree 3 1]] with bbPreds := [] }

/-- Block 4 of `exAsyncFlowBlocks`, the block with the async call. -/
def exAsyncFlowAsync : BasicBlock Nat := { exGenBlockAsync with bbPreds := [3] }

/-- Block 1 of `exAsyncFlowBlocks`, a successor of the block with the async call. -/
def exAsyncFlowCalls : BasicBlock Nat := { exGenBlockCalls with bbPreds := [4] }

/-- The async procedure `exGenCompilerAsync` with block 3 as the entry block. -/
def exAsyncFlowCompiler : Compiler Nat := { exGenCompilerAsync with fgFirstBB := 3 }

/-- The same procedure when it is not async. -/
def exSyncFlowCompiler : Compiler Nat := { exGenCompiler with fgFirstBB := 3 }

/-- The state after `optValnumCSE_InitDataFlow` on the compiler given and the blocks
`exAsyncFlowBlocks`, followed by the visits of the forward driver to the blocks given. -/
def exFlowAfter (c : Compiler Nat) (visits : List (BasicBlock Nat)) :
    Option (CSE_DataFlow Nat) :=
  (optValnumCSE_InitDataFlow 7 99 (fun _ => false) exCallRoot c exAsyncFlowBlocks).map fun c1 =>
    forwardVisits { m_comp := c1, m_preMergeOut := MakeEmpty } visits

/-- The state `optValnumCSE_InitDataFlow` leaves for the async procedure `exAsyncFlowCompiler`
and the blocks `exAsyncFlowBlocks`. -/
def exAsyncFlowInit : Compiler Nat :=
  (optValnumCSE_InitDataFlow 7 99 (fun _ => false) exCallRoot exAsyncFlowCompiler
    exAsyncFlowBlocks).getD exAsyncFlowCompiler

/-- The callback calls of the visits to block 3 and to block 4, and of the visit to block 1 up
to its `EndMerge`. -/
def exAsyncFlowSteps : List (FlowStep Nat) :=
  [FlowStep.StartMerge exAsyncFlowEntry, FlowStep.EndMerge exAsyncFlowEntry,
   FlowStep.StartMerge exAsyncFlowAsync, FlowStep.Merge exAsyncFlowAsync 3,
   FlowStep.EndMerge exAsyncFlowAsync,
   FlowStep.StartMerge exAsyncFlowCalls, FlowStep.Merge exAsyncFlowCalls 4]

/-! # Properties -/

variable {W : Type}

/-! ## The labeler: one visit -/

theorem findDsc_setDsc_same (c : Compiler W) (k : Nat) (d0 d : CSEdsc W)
    (h : optCSEfindDsc c k = some d0) : optCSEfindDsc (setDsc c k d) k = some d := by
  unfold optCSEfindDsc at h ⊢
  unfold setDsc
  by_cases hk : k = 0
  · simp [hk] at h
  · by_cases hc : c.optCSECandidateCount < k
    · simp [hk, hc] at h
    · simp only [hk, hc, if_false] at h ⊢
      have hlt : k - 1 < c.optCSEtab.length := by
        by_contra hge
        have : c.optCSEtab[k - 1]? = none := List.getElem?_eq_none (by omega)
        simp [this] at h
      simp [List.getElem?_set, hlt]

theorem findDsc_setDsc_other (c : Compiler W) (k j : Nat) (d : CSEdsc W) (hk : k ≠ 0)
    (hjk : j ≠ k) : optCSEfindDsc (setDsc c k d) j = optCSEfindDsc c j := by
  unfold optCSEfindDsc setDsc
  by_cases hj : j = 0
  · simp [hj]
  · by_cases hc : c.optCSECandidateCount < j
    · simp [hj, hc]
    · have : k - 1 ≠ j - 1 := by omega
      simp [hj, hc, List.getElem?_set, this]

section helpers
variable (isUse cross : Bool) (lib promise : ExcSet) (d : CSEdsc W)

@[simp] theorem markLive_promise : (markLiveAcrossCall isUse cross d).defExcSetPromise = d.defExcSetPromise := by
  unfold markLiveAcrossCall; split <;> rfl
@[simp] theorem markLive_current : (markLiveAcrossCall isUse cross d).defExcSetCurrent = d.defExcSetCurrent := by
  unfold markLiveAcrossCall; split <;> rfl
@[simp] theorem markLive_defCount : (markLiveAcrossCall isUse cross d).csdDefCount = d.csdDefCount := by
  unfold markLiveAcrossCall; split <;> rfl
@[simp] theorem markLive_useCount : (markLiveAcrossCall isUse cross d).csdUseCount = d.csdUseCount := by
  unfold markLiveAcrossCall; split <;> rfl
@[simp] theorem markLive_defWt : (markLiveAcrossCall isUse cross d).csdDefWtCnt = d.csdDefWtCnt := by
  unfold markLiveAcrossCall; split <;> rfl
@[simp] theorem markLive_useWt : (markLiveAcrossCall isUse cross d).csdUseWtCnt = d.csdUseWtCnt := by
  unfold markLiveAcrossCall; split <;> rfl
@[simp] theorem markLive_index : (markLiveAcrossCall isUse cross d).csdIndex = d.csdIndex := by
  unfold markLiveAcrossCall; split <;> rfl

@[simp] theorem recordDef_promise : (recordDefExcSet lib d).defExcSetPromise = d.defExcSetPromise := by
  unfold recordDefExcSet; split <;> [rfl; (split <;> rfl)]
theorem recordDef_current : (recordDefExcSet lib d).defExcSetCurrent =
    some (match d.defExcSetCurrent with | none => lib | some cur => cur ∩ lib) := by
  unfold recordDefExcSet
  cases h : d.defExcSetCurrent with
  | none => rfl
  | some cur =>
    simp only
    split
    · rfl
    · rename_i hne
      have : cur = lib := by simpa using hne
      simp [h, this]
@[simp] theorem recordDef_defCount : (recordDefExcSet lib d).csdDefCount = d.csdDefCount := by
  unfold recordDefExcSet; split <;> [rfl; (split <;> rfl)]
@[simp] theorem recordDef_useCount : (recordDefExcSet lib d).csdUseCount = d.csdUseCount := by
  unfold recordDefExcSet; split <;> [rfl; (split <;> rfl)]
@[simp] theorem recordDef_defWt : (recordDefExcSet lib d).csdDefWtCnt = d.csdDefWtCnt := by
  unfold recordDefExcSet; split <;> [rfl; (split <;> rfl)]
@[simp] theorem recordDef_useWt : (recordDefExcSet lib d).csdUseWtCnt = d.csdUseWtCnt := by
  unfold recordDefExcSet; split <;> [rfl; (split <;> rfl)]
@[simp] theorem recordDef_index : (recordDefExcSet lib d).csdIndex = d.csdIndex := by
  unfold recordDefExcSet; split <;> [rfl; (split <;> rfl)]

@[simp] theorem promiseUse_current : (promiseUseExcSet lib promise d).defExcSetCurrent = d.defExcSetCurrent := by
  unfold promiseUseExcSet; split <;> [rfl; (split <;> rfl)]
@[simp] theorem promiseUse_defCount : (promiseUseExcSet lib promise d).csdDefCount = d.csdDefCount := by
  unfold promiseUseExcSet; split <;> [rfl; (split <;> rfl)]
@[simp] theorem promiseUse_useCount : (promiseUseExcSet lib promise d).csdUseCount = d.csdUseCount := by
  unfold promiseUseExcSet; split <;> [rfl; (split <;> rfl)]
@[simp] theorem promiseUse_defWt : (promiseUseExcSet lib promise d).csdDefWtCnt = d.csdDefWtCnt := by
  unfold promiseUseExcSet; split <;> [rfl; (split <;> rfl)]
@[simp] theorem promiseUse_useWt : (promiseUseExcSet lib promise d).csdUseWtCnt = d.csdUseWtCnt := by
  unfold promiseUseExcSet; split <;> [rfl; (split <;> rfl)]
@[simp] theorem promiseUse_index : (promiseUseExcSet lib promise d).csdIndex = d.csdIndex := by
  unfold promiseUseExcSet; split <;> [rfl; (split <;> rfl)]
/-- The promise after a use: either extended by the use's set (which the defs seen so far
cover), or unchanged. -/
theorem promiseUse_promise (hp : d.defExcSetPromise = some promise) :
    ((promiseUseExcSet lib promise d).defExcSetPromise = some (promise ∪ lib) ∧
      ∀ C, d.defExcSetCurrent = some C → lib ⊆ C) ∨
    ((promiseUseExcSet lib promise d).defExcSetPromise = some promise ∧
      ∃ C, d.defExcSetCurrent = some C ∧ ¬ lib ⊆ C) := by
  unfold promiseUseExcSet
  cases h : d.defExcSetCurrent with
  | none => left; simp [VNExcSetUnion]
  | some cur =>
    by_cases hs : lib ⊆ cur
    · left; simp [VNExcIsSubset, hs, VNExcSetUnion]
    · right; simp [VNExcIsSubset, hs, hp]
end helpers

@[simp] theorem abandonDsc_promise (d : CSEdsc W) : (abandonDsc d).defExcSetPromise = none := rfl
@[simp] theorem abandonDsc_current (d : CSEdsc W) : (abandonDsc d).defExcSetCurrent = d.defExcSetCurrent := rfl
@[simp] theorem abandonDsc_defCount (d : CSEdsc W) : (abandonDsc d).csdDefCount = d.csdDefCount := rfl
@[simp] theorem abandonDsc_useCount (d : CSEdsc W) : (abandonDsc d).csdUseCount = d.csdUseCount := rfl
@[simp] theorem abandonDsc_defWt (d : CSEdsc W) : (abandonDsc d).csdDefWtCnt = d.csdDefWtCnt := rfl
@[simp] theorem abandonDsc_useWt (d : CSEdsc W) : (abandonDsc d).csdUseWtCnt = d.csdUseWtCnt := rfl
@[simp] theorem abandonDsc_index (d : CSEdsc W) : (abandonDsc d).csdIndex = d.csdIndex := rfl
@[simp] theorem acceptDef_promise [Add W] (w : W) (d : CSEdsc W) : (acceptDef w d).defExcSetPromise = d.defExcSetPromise := rfl
@[simp] theorem acceptDef_current [Add W] (w : W) (d : CSEdsc W) : (acceptDef w d).defExcSetCurrent = d.defExcSetCurrent := rfl
@[simp] theorem acceptDef_defCount [Add W] (w : W) (d : CSEdsc W) : (acceptDef w d).csdDefCount = d.csdDefCount + 1 := rfl
@[simp] theorem acceptDef_index [Add W] (w : W) (d : CSEdsc W) : (acceptDef w d).csdIndex = d.csdIndex := rfl
@[simp] theorem acceptUse_promise [Add W] (w : W) (d : CSEdsc W) : (acceptUse w d).defExcSetPromise = d.defExcSetPromise := rfl
@[simp] theorem acceptUse_current [Add W] (w : W) (d : CSEdsc W) : (acceptUse w d).defExcSetCurrent = d.defExcSetCurrent := rfl
@[simp] theorem acceptUse_defCount [Add W] (w : W) (d : CSEdsc W) : (acceptUse w d).csdDefCount = d.csdDefCount := rfl
@[simp] theorem acceptUse_index [Add W] (w : W) (d : CSEdsc W) : (acceptUse w d).csdIndex = d.csdIndex := rfl
@[simp] theorem setCSEnum_tag (t : GenTree) (x : Int) : (setCSEnum t x).gtCSEnum = x := rfl
@[simp] theorem setCSEnum_vn (t : GenTree) (x : Int) : (setCSEnum t x).vnLiberal = t.vnLiberal := rfl

@[simp] theorem acceptDef_useCount [Add W] (w : W) (d : CSEdsc W) : (acceptDef w d).csdUseCount = d.csdUseCount := rfl
@[simp] theorem acceptUse_useCount [Add W] (w : W) (d : CSEdsc W) : (acceptUse w d).csdUseCount = d.csdUseCount + 1 := rfl

theorem tag_neg_ne_zero {tag : Int} (h : tag ≠ 0) : TO_CSE_DEF tag ≠ NO_CSE := by
  unfold TO_CSE_DEF NO_CSE; omega

theorem tag_neg_ne_self {tag : Int} (h : tag ≠ 0) : TO_CSE_DEF tag ≠ tag := by
  unfold TO_CSE_DEF; omega

theorem recordDef_current_sub_lib (lib : ExcSet) (d : CSEdsc W) :
    ∃ C1, (recordDefExcSet lib d).defExcSetCurrent = some C1 ∧ C1 ⊆ lib := by
  rw [recordDef_current]
  refine ⟨_, rfl, ?_⟩
  cases d.defExcSetCurrent with
  | none => exact Finset.Subset.refl _
  | some cur => exact Finset.inter_subset_right

theorem recordDef_current_mono (lib : ExcSet) (d : CSEdsc W) (C : ExcSet)
    (hC : d.defExcSetCurrent = some C) :
    ∃ C1, (recordDefExcSet lib d).defExcSetCurrent = some C1 ∧ C1 ⊆ C := by
  rw [recordDef_current, hC]
  exact ⟨_, rfl, Finset.inter_subset_left⟩

theorem recordDef_current_ne_none (lib : ExcSet) (d : CSEdsc W) :
    (recordDefExcSet lib d).defExcSetCurrent ≠ none := by
  rw [recordDef_current]; simp

theorem recordDef_current_inv (lib P : ExcSet) (d : CSEdsc W) (hsub : P ⊆ lib)
    (hinv : ∀ C, d.defExcSetCurrent = some C → P ⊆ C) (C : ExcSet)
    (hC : (recordDefExcSet lib d).defExcSetCurrent = some C) : P ⊆ C := by
  rw [recordDef_current] at hC
  cases hc0 : d.defExcSetCurrent with
  | none =>
    rw [hc0] at hC
    have : lib = C := by simpa using hC
    exact this ▸ hsub
  | some cur =>
    rw [hc0] at hC
    have : cur ∩ lib = C := by simpa using hC
    exact this ▸ Finset.subset_inter (hinv cur hc0) hsub

theorem effect_abandoned (lib : ExcSet) (isUse cross : Bool) (d0 : CSEdsc W) (tag : Int)
    (hp : d0.defExcSetPromise = none) :
    VisitEffect lib isUse d0 (markLiveAcrossCall isUse cross d0) tag NO_CSE := by
  constructor
  · exact Or.inl rfl
  · intro _; simp [hp]
  · intro P1 h1; simp [hp] at h1
  · intro C hC; exact ⟨C, by simpa using hC, Finset.Subset.refl _⟩
  · intro _ P C h1; simp [hp] at h1
  · intro h0 h1; simp only [markLive_defCount, markLive_current] at h1 ⊢; exact h0 h1
  · intro h1 h2; exact absurd h1.symm h2
  · intro h1 h2; exact absurd h1.symm (tag_neg_ne_zero h2)
  · intro _ h; exact absurd hp h
  · intro _ h; exact absurd hp h
  · simp

theorem effect_abandon_def (lib promise : ExcSet) (cross : Bool) (d0 : CSEdsc W) (tag : Int)
    (hp : d0.defExcSetPromise = some promise) :
    VisitEffect lib false d0
      (abandonDsc (recordDefExcSet lib (markLiveAcrossCall false cross d0))) tag NO_CSE := by
  constructor
  · exact Or.inl rfl
  · intro h; simp [hp] at h
  · intro P1 h1; simp at h1
  · intro C hC
    simp only [abandonDsc_current]
    exact recordDef_current_mono lib _ C (by simpa using hC)
  · intro _ P C h1; simp at h1
  · intro _ _; simp only [abandonDsc_current]; exact recordDef_current_ne_none _ _
  · intro h1 h2; exact absurd h1.symm h2
  · intro h1 h2; exact absurd h1.symm (tag_neg_ne_zero h2)
  · intro h; simp at h
  · intro h; simp at h
  · simp

theorem effect_accept_def [Add W] (w : W) (lib promise : ExcSet) (cross : Bool) (d0 : CSEdsc W)
    (tag : Int) (hp : d0.defExcSetPromise = some promise) (hsub : promise ⊆ lib) :
    VisitEffect lib false d0
      (acceptDef w (recordDefExcSet lib (markLiveAcrossCall false cross d0))) tag
      (TO_CSE_DEF tag) := by
  constructor
  · exact Or.inr (Or.inr ⟨rfl, rfl⟩)
  · intro h; simp [hp] at h
  · intro P1 h1
    simp only [acceptDef_promise, recordDef_promise, markLive_promise] at h1
    exact ⟨P1, h1, Finset.Subset.refl _⟩
  · intro C hC
    simp only [acceptDef_current]
    exact recordDef_current_mono lib _ C (by simpa using hC)
  · intro hinv P C h1 h2
    simp only [acceptDef_promise, recordDef_promise, markLive_promise] at h1
    simp only [acceptDef_current] at h2
    have hP : promise = P := by rw [hp] at h1; simpa using h1
    subst hP
    refine recordDef_current_inv lib promise _ hsub ?_ C h2
    intro C0 hC0
    exact hinv promise C0 hp (by simpa using hC0)
  · intro _ _; simp only [acceptDef_current]; exact recordDef_current_ne_none _ _
  · intro h1 h2; exact absurd h1 (tag_neg_ne_self h2)
  · intro _ _; simp only [acceptDef_current]; exact recordDef_current_sub_lib _ _
  · intro h; simp at h
  · intro h; simp at h
  · simp

theorem effect_drop_use (lib promise : ExcSet) (cross : Bool) (d0 : CSEdsc W) (tag : Int)
    (hp : d0.defExcSetPromise = some promise)
    (hdrop : (match (promiseUseExcSet lib promise
        (markLiveAcrossCall true cross d0)).defExcSetPromise with
      | none => false
      | some p => VNExcIsSubset p lib) = false) :
    VisitEffect lib true d0 (promiseUseExcSet lib promise (markLiveAcrossCall true cross d0)) tag
      NO_CSE := by
  have hp1 : (markLiveAcrossCall true cross d0).defExcSetPromise = some promise := by simpa using hp
  have hsame : (promiseUseExcSet lib promise (markLiveAcrossCall true cross d0)).defExcSetPromise
      = some promise := by
    rcases promiseUse_promise lib promise _ hp1 with ⟨h1, _⟩ | ⟨h1, _⟩
    · rw [h1] at hdrop
      simp [VNExcIsSubset, Finset.subset_union_right] at hdrop
    · exact h1
  constructor
  · exact Or.inl rfl
  · intro h; simp [hp] at h
  · intro P1 h1
    rw [hsame] at h1
    exact ⟨promise, hp, by rw [Option.some.inj h1]⟩
  · intro C hC; exact ⟨C, by simpa using hC, Finset.Subset.refl _⟩
  · intro hinv P C h1 h2
    rw [hsame] at h1
    simp only [promiseUse_current, markLive_current] at h2
    exact hinv P C (by rw [hp, h1]) h2
  · intro h0 h1
    simp only [promiseUse_defCount, markLive_defCount, promiseUse_current, markLive_current] at h1 ⊢
    exact h0 h1
  · intro h1 h2; exact absurd h1.symm h2
  · intro h1 h2; exact absurd h1.symm (tag_neg_ne_zero h2)
  · intro _ _; rw [hsame]; simp
  · intro _ _ _ _
    rw [hsame]
    refine ⟨hp.symm, by simp, by simp, by simp, by simp, by simp, ?_⟩
    intro P hP hsub
    have hPp : promise = P := by rw [hp] at hP; exact Option.some.inj hP
    subst hPp
    rw [hsame] at hdrop
    simp [VNExcIsSubset, hsub] at hdrop
  · simp

theorem effect_accept_use [Add W] (w : W) (lib promise : ExcSet) (cross : Bool) (d0 : CSEdsc W)
    (tag : Int) (hp : d0.defExcSetPromise = some promise)
    (hkeep : ¬ (match (promiseUseExcSet lib promise
        (markLiveAcrossCall true cross d0)).defExcSetPromise with
      | none => false
      | some p => VNExcIsSubset p lib) = false) :
    VisitEffect lib true d0
      (acceptUse w (promiseUseExcSet lib promise (markLiveAcrossCall true cross d0))) tag tag := by
  have hp1 : (markLiveAcrossCall true cross d0).defExcSetPromise = some promise := by simpa using hp
  obtain ⟨P', hP', hlibP', hPP', hcur⟩ : ∃ P',
      (promiseUseExcSet lib promise (markLiveAcrossCall true cross d0)).defExcSetPromise = some P' ∧
      lib ⊆ P' ∧ promise ⊆ P' ∧ (∀ C, d0.defExcSetCurrent = some C → promise ⊆ C → P' ⊆ C) := by
    rcases promiseUse_promise lib promise _ hp1 with ⟨h1, h2⟩ | ⟨h1, _⟩
    · refine ⟨_, h1, Finset.subset_union_right, Finset.subset_union_left, ?_⟩
      intro C hC hPC
      exact Finset.union_subset hPC (h2 C (by simpa using hC))
    · refine ⟨_, h1, ?_, Finset.Subset.refl _, fun C _ h => h⟩
      rw [h1] at hkeep
      simpa [VNExcIsSubset] using hkeep
  constructor
  · exact Or.inr (Or.inl ⟨rfl, rfl⟩)
  · intro h; simp [hp] at h
  · intro P1 h1
    simp only [acceptUse_promise] at h1
    rw [hP'] at h1
    exact ⟨promise, hp, by rw [← Option.some.inj h1]; exact hPP'⟩
  · intro C hC; exact ⟨C, by simpa using hC, Finset.Subset.refl _⟩
  · intro hinv P C h1 h2
    simp only [acceptUse_promise] at h1
    rw [hP'] at h1
    simp only [acceptUse_current, promiseUse_current, markLive_current] at h2
    rw [← Option.some.inj h1]
    exact hcur C h2 (hinv promise C hp h2)
  · intro h0 h1
    simp only [acceptUse_defCount, promiseUse_defCount, markLive_defCount, acceptUse_current,
      promiseUse_current, markLive_current] at h1 ⊢
    exact h0 h1
  · intro _ _ P1 h1
    simp only [acceptUse_promise] at h1
    rw [hP'] at h1
    rw [← Option.some.inj h1]; exact hlibP'
  · intro h1 h2; exact absurd h1.symm (tag_neg_ne_self h2)
  · intro _ _; simp only [acceptUse_promise]; rw [hP']; simp
  · intro _ _ h0 h; exact absurd h h0
  · simp

theorem effect_accept_use_empty [Add W] (w : W) (promise : ExcSet) (cross : Bool) (d0 : CSEdsc W)
    (tag : Int) (hp : d0.defExcSetPromise = some promise) :
    VisitEffect VNForEmptyExcSet true d0
      (acceptUse w (markLiveAcrossCall true cross d0)) tag tag := by
  constructor
  · exact Or.inr (Or.inl ⟨rfl, rfl⟩)
  · intro h; simp [hp] at h
  · intro P1 h1
    exact ⟨P1, by simpa using h1, Finset.Subset.refl _⟩
  · intro C hC; exact ⟨C, by simpa using hC, Finset.Subset.refl _⟩
  · intro hinv P C h1 h2
    exact hinv P C (by simpa using h1) (by simpa using h2)
  · intro h0 h1
    simp only [acceptUse_defCount, markLive_defCount, acceptUse_current, markLive_current] at h1 ⊢
    exact h0 h1
  · intro _ _ P1 _; simp [VNForEmptyExcSet]
  · intro h1 h2; exact absurd h1.symm (tag_neg_ne_self h2)
  · intro _ _; simp [hp]
  · intro _ _ h0 h; exact absurd h h0
  · simp

theorem visit_effect [Add W] (stmw : W) (c c1 : Compiler W) (a a1 : EXPSET_TP) (t t1 : GenTree)
    (h : availabilityVisitTree stmw c a t = some (c1, a1, t1)) :
    (t.gtCSEnum = 0 ∧ c1 = c ∧ t1 = t) ∨
    (t.gtCSEnum ≠ 0 ∧ t1 = setCSEnum t t1.gtCSEnum ∧
      ∃ d0 d1, optCSEfindDsc c (GET_CSE_INDEX t.gtCSEnum) = some d0 ∧
        c1 = setDsc c (GET_CSE_INDEX t.gtCSEnum) d1 ∧
        VisitEffect (c.vnStore.VNExceptionSet t.vnLiberal)
          (decide (getCSEAvailBit (GET_CSE_INDEX t.gtCSEnum) ∈ a)) d0 d1 t.gtCSEnum t1.gtCSEnum) := by
  unfold availabilityVisitTree at h
  by_cases htag : t.gtCSEnum = 0
  · left
    simp [IS_CSE_INDEX, htag] at h
    exact ⟨htag, h.1.symm, h.2.2.symm⟩
  · right
    refine ⟨htag, ?_⟩
    simp only [IS_CSE_INDEX, htag, ne_eq, not_false_eq_true, decide_True, if_true] at h
    cases hd : optCSEfindDsc c (GET_CSE_INDEX t.gtCSEnum) with
    | none => simp [hd] at h
    | some d0 =>
      simp only [hd] at h
      generalize hu : decide (getCSEAvailBit (GET_CSE_INDEX t.gtCSEnum) ∈ a) = isUse at h ⊢
      generalize hcr : decide (getCSEAvailCrossCallBit (GET_CSE_INDEX t.gtCSEnum) ∈ a) = cross at h
      generalize hlib : c.vnStore.VNExceptionSet t.vnLiberal = lib at h ⊢
      cases hp : d0.defExcSetPromise with
      | none =>
        simp only [markLive_promise, hp] at h
        simp only [Option.some.injEq, Prod.mk.injEq] at h
        obtain ⟨rfl, -, rfl⟩ := h
        exact ⟨rfl, d0, _, rfl, rfl, effect_abandoned lib isUse cross d0 _ hp⟩
      | some promise =>
        simp only [markLive_promise, hp] at h
        cases isUse with
        | false =>
          simp only [Bool.not_false, if_true] at h
          split_ifs at h with hab
          · simp only [Option.some.injEq, Prod.mk.injEq] at h
            obtain ⟨rfl, -, rfl⟩ := h
            exact ⟨rfl, d0, _, rfl, rfl, effect_abandon_def lib promise cross d0 _ hp⟩
          · simp only [Option.some.injEq, Prod.mk.injEq] at h
            obtain ⟨rfl, -, rfl⟩ := h
            have hsub : promise ⊆ lib := by
              by_cases he : promise = VNForEmptyExcSet
              · simp [he, VNForEmptyExcSet]
              · have := not_and.mp hab he
                simpa [VNExcIsSubset] using this
            exact ⟨rfl, d0, _, rfl, rfl, effect_accept_def stmw lib promise cross d0 _ hp hsub⟩
        | true =>
          simp only [Bool.not_true, Bool.false_eq_true, if_false] at h
          split_ifs at h with hne hdrop
          · simp only [Option.some.injEq, Prod.mk.injEq] at h
            obtain ⟨rfl, -, rfl⟩ := h
            subst hne
            exact ⟨by cases t; rfl, d0, _, rfl, rfl,
              effect_accept_use_empty stmw promise cross d0 _ hp⟩
          · simp only [Option.some.injEq, Prod.mk.injEq] at h
            obtain ⟨rfl, -, rfl⟩ := h
            exact ⟨rfl, d0, _, rfl, rfl, effect_drop_use lib promise cross d0 _ hp hdrop⟩
          · simp only [Option.some.injEq, Prod.mk.injEq] at h
            obtain ⟨rfl, -, rfl⟩ := h
            exact ⟨by cases t; rfl, d0, _, rfl, rfl,
              effect_accept_use stmw lib promise cross d0 _ hp hdrop⟩


/-! ## The labeler: order and invariant along the walk -/

theorem GET_CSE_INDEX_neg (tag : Int) : GET_CSE_INDEX (TO_CSE_DEF tag) = GET_CSE_INDEX tag := by
  unfold GET_CSE_INDEX TO_CSE_DEF
  split_ifs <;> omega

theorem DscLe_refl (d : CSEdsc W) : DscLe d d :=
  ⟨fun P1 h => ⟨P1, h, Finset.Subset.refl _⟩, fun C h => ⟨C, h, Finset.Subset.refl _⟩,
    fun h => ⟨h, rfl, rfl, rfl, rfl, rfl⟩⟩

theorem DscLe_trans {a b d : CSEdsc W} (h1 : DscLe a b) (h2 : DscLe b d) : DscLe a d := by
  obtain ⟨p1, c1, f1⟩ := h1
  obtain ⟨p2, c2, f2⟩ := h2
  refine ⟨?_, ?_, ?_⟩
  · intro P1 hP1
    obtain ⟨P, hP, hs⟩ := p2 P1 hP1
    obtain ⟨P0, hP0, hs0⟩ := p1 P hP
    exact ⟨P0, hP0, hs0.trans hs⟩
  · intro C hC
    obtain ⟨C1, hC1, hs⟩ := c1 C hC
    obtain ⟨C2, hC2, hs2⟩ := c2 C1 hC1
    exact ⟨C2, hC2, hs2.trans hs⟩
  · intro ha
    obtain ⟨hb, e1, e2, e3, e4, e5⟩ := f1 ha
    obtain ⟨hd, g1, g2, g3, g4, g5⟩ := f2 hb
    exact ⟨hd, g1.trans e1, g2.trans e2, g3.trans e3, g4.trans e4, g5.trans e5⟩

theorem LabelLe_refl (c : Compiler W) : LabelLe c c := by
  refine ⟨rfl, fun k => ?_⟩
  cases h : optCSEfindDsc c k with
  | none => exact Or.inl ⟨rfl, rfl⟩
  | some d => exact Or.inr ⟨d, d, rfl, rfl, DscLe_refl d⟩

theorem LabelLe_trans {a b d : Compiler W} (h1 : LabelLe a b) (h2 : LabelLe b d) :
    LabelLe a d := by
  refine ⟨h2.1.trans h1.1, fun k => ?_⟩
  rcases h1.2 k with ⟨ha, hb⟩ | ⟨x, y, hx, hy, hxy⟩
  · rcases h2.2 k with ⟨_, hd⟩ | ⟨y2, _, hy2, _, _⟩
    · exact Or.inl ⟨ha, hd⟩
    · rw [hb] at hy2; cases hy2
  · rcases h2.2 k with ⟨hb, _⟩ | ⟨y2, z, hy2, hz, hyz⟩
    · rw [hy] at hb; cases hb
    · rw [hy] at hy2
      cases hy2
      exact Or.inr ⟨x, z, hx, hz, DscLe_trans hxy hyz⟩

theorem LabelLe_of_findDsc_eq {c c1 : Compiler W} (hv : c1.vnStore = c.vnStore)
    (h : ∀ k, optCSEfindDsc c1 k = optCSEfindDsc c k) : LabelLe c c1 := by
  refine ⟨hv, fun k => ?_⟩
  cases hk : optCSEfindDsc c k with
  | none => exact Or.inl ⟨rfl, by rw [h, hk]⟩
  | some d => exact Or.inr ⟨d, d, rfl, by rw [h, hk], DscLe_refl d⟩

theorem VisitEffect_dscLe {lib : ExcSet} {isUse : Bool} {d0 d1 : CSEdsc W} {tag tag1 : Int}
    (e : VisitEffect lib isUse d0 d1 tag tag1) : DscLe d0 d1 :=
  ⟨e.promise_mono, e.current_mono, fun h => by
    obtain ⟨h1, h2, h3, h4, h5, h6, _⟩ := e.abandoned h
    exact ⟨h1, h2, h3, h4, h5, h6⟩⟩

theorem findDsc_ne_zero {c : Compiler W} {k : Nat} {d : CSEdsc W}
    (h : optCSEfindDsc c k = some d) : k ≠ 0 := by
  intro hk
  simp [optCSEfindDsc, hk] at h

theorem LabelLe_setDsc (c : Compiler W) (k : Nat) (d0 d1 : CSEdsc W)
    (h0 : optCSEfindDsc c k = some d0) (hle : DscLe d0 d1) : LabelLe c (setDsc c k d1) := by
  refine ⟨rfl, fun j => ?_⟩
  by_cases hj : j = k
  · subst hj
    exact Or.inr ⟨d0, d1, h0, findDsc_setDsc_same c j d0 d1 h0, hle⟩
  · rw [findDsc_setDsc_other c k j d1 (findDsc_ne_zero h0) hj]
    cases hk : optCSEfindDsc c j with
    | none => exact Or.inl ⟨rfl, rfl⟩
    | some d => exact Or.inr ⟨d, d, rfl, rfl, DscLe_refl d⟩

theorem visit_LabelLe [Add W] {stmw : W} {c c1 : Compiler W} {a a1 : EXPSET_TP} {t t1 : GenTree}
    (h : availabilityVisitTree stmw c a t = some (c1, a1, t1)) : LabelLe c c1 := by
  rcases visit_effect stmw c c1 a a1 t t1 h with ⟨_, rfl, _⟩ | ⟨_, _, d0, d1, h0, rfl, e⟩
  · exact LabelLe_refl _
  · exact LabelLe_setDsc c _ d0 d1 h0 (VisitEffect_dscLe e)

theorem visit_LabelInv [Add W] {stmw : W} {c c1 : Compiler W} {a a1 : EXPSET_TP} {t t1 : GenTree}
    (h : availabilityVisitTree stmw c a t = some (c1, a1, t1)) (hinv : LabelInv c) :
    LabelInv c1 := by
  rcases visit_effect stmw c c1 a a1 t t1 h with ⟨_, rfl, _⟩ | ⟨_, _, d0, d1, h0, rfl, e⟩
  · exact hinv
  · intro j d hd
    by_cases hj : j = GET_CSE_INDEX t.gtCSEnum
    · subst hj
      rw [findDsc_setDsc_same c _ d0 d1 h0] at hd
      cases hd
      exact ⟨e.promise_sub_current (hinv _ d0 h0).1, e.def_has_current (hinv _ d0 h0).2⟩
    · rw [findDsc_setDsc_other c _ j d1 (findDsc_ne_zero h0) hj] at hd
      exact hinv j d hd

theorem visit_UseOK [Add W] {stmw : W} {c c1 : Compiler W} {a a1 : EXPSET_TP} {t t1 : GenTree}
    (h : availabilityVisitTree stmw c a t = some (c1, a1, t1)) (ht : 0 ≤ t.gtCSEnum) :
    UseOK c1 t1 := by
  rcases visit_effect stmw c c1 a a1 t t1 h with ⟨h0, rfl, rfl⟩ | ⟨hne, ht1, d0, d1, h0, rfl, e⟩
  · intro hpos; omega
  · intro hpos d P hd hP
    have htag : t1.gtCSEnum = t.gtCSEnum := by
      rcases e.tag_cases with h1 | ⟨h1, _⟩ | ⟨h1, _⟩
      · rw [h1] at hpos; exact absurd hpos (by decide)
      · exact h1
      · rw [h1] at hpos; unfold TO_CSE_DEF at hpos; omega
    rw [htag, findDsc_setDsc_same c _ d0 d1 h0] at hd
    cases hd
    have hl : liberalExcSet (setDsc c (GET_CSE_INDEX t.gtCSEnum) d1) t1
        = c.vnStore.VNExceptionSet t.vnLiberal := by
      rw [ht1]; rfl
    rw [hl]
    exact e.use_ok htag hne P hP

theorem visit_DefOK [Add W] {stmw : W} {c c1 : Compiler W} {a a1 : EXPSET_TP} {t t1 : GenTree}
    (h : availabilityVisitTree stmw c a t = some (c1, a1, t1)) (ht : 0 ≤ t.gtCSEnum) :
    DefOK c1 t1 := by
  rcases visit_effect stmw c c1 a a1 t t1 h with ⟨h0, rfl, rfl⟩ | ⟨hne, ht1, d0, d1, h0, rfl, e⟩
  · intro hneg; omega
  · intro hneg d hd
    have htag : t1.gtCSEnum = TO_CSE_DEF t.gtCSEnum := by
      rcases e.tag_cases with h1 | ⟨h1, _⟩ | ⟨h1, _⟩
      · rw [h1] at hneg; exact absurd hneg (by decide)
      · omega
      · exact h1
    rw [htag, GET_CSE_INDEX_neg, findDsc_setDsc_same c _ d0 d1 h0] at hd
    cases hd
    have hl : liberalExcSet (setDsc c (GET_CSE_INDEX t.gtCSEnum) d1) t1
        = c.vnStore.VNExceptionSet t.vnLiberal := by
      rw [ht1]; rfl
    rw [hl]
    exact e.def_ok htag hne

theorem UseOK_mono {c1 c2 : Compiler W} {t : GenTree} (hle : LabelLe c1 c2) (h : UseOK c1 t) :
    UseOK c2 t := by
  intro hpos d2 P2 hd2 hP2
  rcases hle.2 (GET_CSE_INDEX t.gtCSEnum) with ⟨_, hn⟩ | ⟨d1, d2', hd1, hd2', p, _, _⟩
  · rw [hn] at hd2; cases hd2
  · rw [hd2'] at hd2
    cases hd2
    obtain ⟨P1, hP1, hs⟩ := p P2 hP2
    have := h hpos d1 P1 hd1 hP1
    unfold liberalExcSet at this ⊢
    rw [hle.1]
    exact this.trans hs

theorem DefOK_mono {c1 c2 : Compiler W} {t : GenTree} (hle : LabelLe c1 c2) (h : DefOK c1 t) :
    DefOK c2 t := by
  intro hneg d2 hd2
  rcases hle.2 (GET_CSE_INDEX t.gtCSEnum) with ⟨_, hn⟩ | ⟨d1, d2', hd1, hd2', _, q, _⟩
  · rw [hn] at hd2; cases hd2
  · rw [hd2'] at hd2
    cases hd2
    obtain ⟨C1, hC1, hs⟩ := h hneg d1 hd1
    obtain ⟨C2, hC2, hs2⟩ := q C1 hC1
    refine ⟨C2, hC2, ?_⟩
    unfold liberalExcSet at hs ⊢
    rw [hle.1]
    exact hs2.trans hs

/-! ## The labeler: the three loops -/

theorem trees_walk [Add W] (I : Compiler W → Prop) (Pin : GenTree → Prop)
    (Q : Compiler W → GenTree → Prop)
    (hstab : ∀ c1 c2 t, LabelLe c1 c2 → Q c1 t → Q c2 t)
    (hstep : ∀ (w : W) c a t c1 a1 t1, I c → Pin t →
      availabilityVisitTree w c a t = some (c1, a1, t1) → I c1 ∧ Q c1 t1)
    (w : W) : ∀ (ts : List GenTree) (c : Compiler W) (a : EXPSET_TP) c1 a1 ts1,
      availabilityTrees w c a ts = some (c1, a1, ts1) → I c → (∀ t ∈ ts, Pin t) →
      I c1 ∧ LabelLe c c1 ∧ ∀ t1 ∈ ts1, Q c1 t1 := by
  intro ts
  induction ts with
  | nil =>
    intro c a c1 a1 ts1 h hI _
    simp only [availabilityTrees, Option.some.injEq, Prod.mk.injEq] at h
    obtain ⟨rfl, -, rfl⟩ := h
    exact ⟨hI, LabelLe_refl _, by simp⟩
  | cons t ts ih =>
    intro c a c1 a1 ts1 h hI hin
    simp only [availabilityTrees] at h
    cases hv : availabilityVisitTree w c a t with
    | none => simp [hv] at h
    | some r =>
      obtain ⟨c2, a2, t2⟩ := r
      simp only [hv] at h
      cases hr : availabilityTrees w c2 a2 ts with
      | none => simp [hr] at h
      | some r2 =>
        obtain ⟨c3, a3, ts3⟩ := r2
        simp only [hr, Option.some.injEq, Prod.mk.injEq] at h
        obtain ⟨rfl, -, rfl⟩ := h
        obtain ⟨hI2, hQ2⟩ := hstep w c a t c2 a2 t2 hI (hin t (List.mem_cons_self _ _)) hv
        obtain ⟨hI3, hle, hQ3⟩ := ih c2 a2 c3 a3 ts3 hr hI2
          (fun x hx => hin x (List.mem_cons_of_mem _ hx))
        refine ⟨hI3, LabelLe_trans (visit_LabelLe hv) hle, ?_⟩
        intro t1 ht1
        rcases List.mem_cons.mp ht1 with rfl | hmem
        · exact hstab _ _ _ hle hQ2
        · exact hQ3 t1 hmem

theorem stmts_walk [Add W] (I : Compiler W → Prop) (Pin : GenTree → Prop)
    (Q : Compiler W → GenTree → Prop)
    (hstab : ∀ c1 c2 t, LabelLe c1 c2 → Q c1 t → Q c2 t)
    (hstep : ∀ (w : W) c a t c1 a1 t1, I c → Pin t →
      availabilityVisitTree w c a t = some (c1, a1, t1) → I c1 ∧ Q c1 t1)
    (w : W) : ∀ (ss : List Statement) (c : Compiler W) (a : EXPSET_TP) c1 a1 ss1,
      availabilityStmts w c a ss = some (c1, a1, ss1) → I c →
      (∀ s ∈ ss, ∀ t ∈ s.treeList, Pin t) →
      I c1 ∧ LabelLe c c1 ∧ ∀ s1 ∈ ss1, ∀ t1 ∈ s1.treeList, Q c1 t1 := by
  intro ss
  induction ss with
  | nil =>
    intro c a c1 a1 ss1 h hI _
    simp only [availabilityStmts, Option.some.injEq, Prod.mk.injEq] at h
    obtain ⟨rfl, -, rfl⟩ := h
    exact ⟨hI, LabelLe_refl _, by simp⟩
  | cons s ss ih =>
    intro c a c1 a1 ss1 h hI hin
    simp only [availabilityStmts] at h
    cases hv : availabilityTrees w c a s.treeList with
    | none => simp [hv] at h
    | some r =>
      obtain ⟨c2, a2, ts2⟩ := r
      simp only [hv] at h
      cases hr : availabilityStmts w c2 a2 ss with
      | none => simp [hr] at h
      | some r2 =>
        obtain ⟨c3, a3, ss3⟩ := r2
        simp only [hr, Option.some.injEq, Prod.mk.injEq] at h
        obtain ⟨rfl, -, rfl⟩ := h
        obtain ⟨hI2, hle2, hQ2⟩ := trees_walk I Pin Q hstab hstep w s.treeList c a c2 a2 ts2 hv hI
          (hin s (List.mem_cons_self _ _))
        obtain ⟨hI3, hle, hQ3⟩ := ih c2 a2 c3 a3 ss3 hr hI2
          (fun x hx => hin x (List.mem_cons_of_mem _ hx))
        refine ⟨hI3, LabelLe_trans hle2 hle, ?_⟩
        intro s1 hs1
        rcases List.mem_cons.mp hs1 with rfl | hmem
        · intro t1 ht1
          exact hstab _ _ _ hle (hQ2 t1 ht1)
        · exact hQ3 s1 hmem

theorem findDsc_compCurBB (c : Compiler W) (n k : Nat) :
    optCSEfindDsc { c with compCurBB := n } k = optCSEfindDsc c k := rfl

theorem blocks_walk [Add W] (I : Compiler W → Prop) (Pin : GenTree → Prop)
    (Q : Compiler W → GenTree → Prop)
    (hstab : ∀ c1 c2 t, LabelLe c1 c2 → Q c1 t → Q c2 t)
    (hstep : ∀ (w : W) c a t c1 a1 t1, I c → Pin t →
      availabilityVisitTree w c a t = some (c1, a1, t1) → I c1 ∧ Q c1 t1)
    (hcur : ∀ c n, I c → I { c with compCurBB := n }) :
    ∀ (bs : List (BasicBlock W)) (c : Compiler W) c1 bs1,
      availabilityBlocks c bs = some (c1, bs1) → I c →
      (∀ b ∈ bs, ∀ s ∈ b.stmts, ∀ t ∈ s.treeList, Pin t) →
      I c1 ∧ LabelLe c c1 ∧ ∀ b1 ∈ bs1, ∀ s1 ∈ b1.stmts, ∀ t1 ∈ s1.treeList, Q c1 t1 := by
  intro bs
  induction bs with
  | nil =>
    intro c c1 bs1 h hI _
    simp only [availabilityBlocks, Option.some.injEq, Prod.mk.injEq] at h
    obtain ⟨rfl, rfl⟩ := h
    exact ⟨hI, LabelLe_refl _, by simp⟩
  | cons b bs ih =>
    intro c c1 bs1 h hI hin
    simp only [availabilityBlocks] at h
    cases hv : availabilityStmts b.bbWeight { c with compCurBB := b.bbNum } (c.bbCseIn b.bbNum)
        b.stmts with
    | none => simp [hv] at h
    | some r =>
      obtain ⟨c2, a2, ss2⟩ := r
      simp only [hv] at h
      cases hr : availabilityBlocks c2 bs with
      | none => simp [hr] at h
      | some r2 =>
        obtain ⟨c3, bs3⟩ := r2
        simp only [hr, Option.some.injEq, Prod.mk.injEq] at h
        obtain ⟨rfl, rfl⟩ := h
        obtain ⟨hI2, hle2, hQ2⟩ := stmts_walk I Pin Q hstab hstep b.bbWeight b.stmts _ _ c2 a2 ss2
          hv (hcur c b.bbNum hI) (hin b (List.mem_cons_self _ _))
        have hle0 : LabelLe c { c with compCurBB := b.bbNum } :=
          LabelLe_of_findDsc_eq rfl (fun k => findDsc_compCurBB c b.bbNum k)
        obtain ⟨hI3, hle, hQ3⟩ := ih c2 c3 bs3 hr hI2
          (fun x hx => hin x (List.mem_cons_of_mem _ hx))
        refine ⟨hI3, LabelLe_trans (LabelLe_trans hle0 hle2) hle, ?_⟩
        intro b1 hb1
        rcases List.mem_cons.mp hb1 with rfl | hmem
        · intro s1 hs1 t1 ht1
          exact hstab _ _ _ hle (hQ2 s1 hs1 t1 ht1)
        · exact hQ3 b1 hmem

theorem GET_CSE_INDEX_ofNat (k : Nat) : GET_CSE_INDEX (k : Int) = k := by
  unfold GET_CSE_INDEX
  split_ifs <;> omega

theorem GET_CSE_INDEX_negOfNat (k : Nat) : GET_CSE_INDEX (-(k : Int)) = k := by
  unfold GET_CSE_INDEX
  split_ifs <;> omega

theorem LabelInv_of_fresh {c : Compiler W}
    (hfresh : ∀ k d, optCSEfindDsc c k = some d →
      d.defExcSetPromise = some VNForEmptyExcSet ∧ d.defExcSetCurrent = none ∧
        d.csdDefCount = 0) : LabelInv c := by
  intro k d hd
  obtain ⟨_, h2, h3⟩ := hfresh k d hd
  refine ⟨?_, ?_⟩
  · intro P C _ hC; rw [h2] at hC; cases hC
  · intro h; omega

/-- C1. At the end of `optValnumCSE_Availability`, started on freshly created descriptors and on
nodes tagged as candidates, for every candidate that is not abandoned (`defExcSetPromise = some
P`) and has an accepted def (`csdDefCount ≥ 1`): `defExcSetCurrent` is set to some `C`, `P ⊆ C`,
and every node that kept the candidate tag `k` (an accepted use) has its liberal exception set
inside `P`. The blocks, their order, their `bbCseIn` and the exception sets are arbitrary. -/
theorem availability_use_within_promise_within_current [Add W] (c c1 : Compiler W)
    (blocks blocks1 : List (BasicBlock W))
    (hfresh : ∀ k d, optCSEfindDsc c k = some d →
      d.defExcSetPromise = some VNForEmptyExcSet ∧ d.defExcSetCurrent = none ∧
        d.csdDefCount = 0)
    (htags : ∀ b ∈ blocks, ∀ s ∈ b.stmts, ∀ t ∈ s.treeList, 0 ≤ t.gtCSEnum)
    (hrun : optValnumCSE_Availability c blocks = some (c1, blocks1)) :
    ∀ k d P, optCSEfindDsc c1 k = some d → d.defExcSetPromise = some P → 1 ≤ d.csdDefCount →
      ∃ C, d.defExcSetCurrent = some C ∧ P ⊆ C ∧
        ∀ b ∈ blocks1, ∀ s ∈ b.stmts, ∀ t ∈ s.treeList, t.gtCSEnum = (k : Int) →
          liberalExcSet c1 t ⊆ P := by
  intro k d P hd hP hdef
  obtain ⟨hinv, _, hQ⟩ := blocks_walk LabelInv (fun t => 0 ≤ t.gtCSEnum) UseOK
    (fun _ _ _ hle h => UseOK_mono hle h)
    (fun w c a t c1 a1 t1 hI hin hv => ⟨visit_LabelInv hv hI, visit_UseOK hv hin⟩)
    (fun c n hI => hI) blocks c c1 blocks1 hrun (LabelInv_of_fresh hfresh) htags
  obtain ⟨h1, h2⟩ := hinv k d hd
  cases hC : d.defExcSetCurrent with
  | none => exact absurd hC (h2 hdef)
  | some C =>
    refine ⟨C, rfl, h1 P C hP hC, ?_⟩
    intro b hb s hs t ht htag
    have hk : k ≠ 0 := findDsc_ne_zero hd
    have hpos : 0 < t.gtCSEnum := by omega
    refine hQ b hb s hs t ht hpos d P ?_ hP
    rw [htag, GET_CSE_INDEX_ofNat]
    exact hd

/-- C2. At the end of `optValnumCSE_Availability` on nodes tagged as candidates, for every
candidate `k` and every node retagged as a definition of `k` (tag `-k`, an accepted def), the
final `defExcSetCurrent` of `k` is some `C` inside that def's liberal exception set. Moreover
`defExcSetCurrent` only shrinks once it is set: from any state, a single visit and a whole walk
take a set value `C` to a set value `C1 ⊆ C`. -/
theorem availability_current_within_defs [Add W] (c c1 : Compiler W)
    (blocks blocks1 : List (BasicBlock W))
    (hrun : optValnumCSE_Availability c blocks = some (c1, blocks1)) :
    ((∀ b ∈ blocks, ∀ s ∈ b.stmts, ∀ t ∈ s.treeList, 0 ≤ t.gtCSEnum) →
      ∀ k d, optCSEfindDsc c1 k = some d →
        ∀ b ∈ blocks1, ∀ s ∈ b.stmts, ∀ t ∈ s.treeList, t.gtCSEnum = -(k : Int) →
          ∃ C, d.defExcSetCurrent = some C ∧ C ⊆ liberalExcSet c1 t) ∧
    (∀ k d C, optCSEfindDsc c k = some d → d.defExcSetCurrent = some C →
      ∃ d1 C1, optCSEfindDsc c1 k = some d1 ∧ d1.defExcSetCurrent = some C1 ∧ C1 ⊆ C) ∧
    (∀ (stmw : W) (c2 c3 : Compiler W) (a a1 : EXPSET_TP) (t t1 : GenTree) k d C,
      availabilityVisitTree stmw c2 a t = some (c3, a1, t1) →
      optCSEfindDsc c2 k = some d → d.defExcSetCurrent = some C →
      ∃ d1 C1, optCSEfindDsc c3 k = some d1 ∧ d1.defExcSetCurrent = some C1 ∧ C1 ⊆ C) := by
  have hmono : ∀ (x y : Compiler W), LabelLe x y → ∀ k d C, optCSEfindDsc x k = some d →
      d.defExcSetCurrent = some C →
      ∃ d1 C1, optCSEfindDsc y k = some d1 ∧ d1.defExcSetCurrent = some C1 ∧ C1 ⊆ C := by
    intro x y hle k d C hd hC
    rcases hle.2 k with ⟨hn, _⟩ | ⟨d0, d1, hd0, hd1, _, q, _⟩
    · rw [hn] at hd; cases hd
    · rw [hd0] at hd
      cases hd
      obtain ⟨C1, hC1, hs⟩ := q C hC
      exact ⟨d1, C1, hd1, hC1, hs⟩
  refine ⟨?_, ?_, ?_⟩
  · intro htags k d hd b hb s hs t ht htag
    obtain ⟨_, _, hQ⟩ := blocks_walk (fun _ => True) (fun t => 0 ≤ t.gtCSEnum) DefOK
      (fun _ _ _ hle h => DefOK_mono hle h)
      (fun w c a t c1 a1 t1 _ hin hv => ⟨trivial, visit_DefOK hv hin⟩)
      (fun c n hI => hI) blocks c c1 blocks1 hrun trivial htags
    have hk : k ≠ 0 := findDsc_ne_zero hd
    have hneg : t.gtCSEnum < 0 := by omega
    refine hQ b hb s hs t ht hneg d ?_
    rw [htag, GET_CSE_INDEX_negOfNat]
    exact hd
  · obtain ⟨_, hle, _⟩ := blocks_walk (fun _ => True) (fun _ => True) (fun _ _ => True)
      (fun _ _ _ _ _ => trivial) (fun w c a t c1 a1 t1 _ _ _ => ⟨trivial, trivial⟩)
      (fun c n hI => hI) blocks c c1 blocks1 hrun trivial (fun _ _ _ _ _ _ => trivial)
    exact hmono c c1 hle
  · intro stmw c2 c3 a a1 t t1 k d C hv
    exact hmono c2 c3 (visit_LabelLe hv) k d C

theorem GET_CSE_INDEX_tag_cases {lib : ExcSet} {isUse : Bool} {d0 d1 : CSEdsc W} {tag tag1 : Int}
    (e : VisitEffect lib isUse d0 d1 tag tag1) (h1 : tag1 ≠ 0) :
    GET_CSE_INDEX tag1 = GET_CSE_INDEX tag := by
  rcases e.tag_cases with h | ⟨h, _⟩ | ⟨h, _⟩
  · exact absurd h h1
  · rw [h]
  · rw [h, GET_CSE_INDEX_neg]

theorem visit_abandoned [Add W] {stmw : W} {c c1 : Compiler W} {a a1 : EXPSET_TP} {t t1 : GenTree}
    (k : Nat) (h : availabilityVisitTree stmw c a t = some (c1, a1, t1))
    (hab : ∃ d, optCSEfindDsc c k = some d ∧ d.defExcSetPromise = none) :
    (∃ d1, optCSEfindDsc c1 k = some d1 ∧ d1.defExcSetPromise = none) ∧
    (t1.gtCSEnum ≠ 0 → GET_CSE_INDEX t1.gtCSEnum ≠ k) ∧
    (t.gtCSEnum ≠ 0 → GET_CSE_INDEX t.gtCSEnum = k → t1.gtCSEnum = NO_CSE) := by
  obtain ⟨d, hd, hp⟩ := hab
  rcases visit_effect stmw c c1 a a1 t t1 h with ⟨h0, rfl, rfl⟩ | ⟨hne, ht1, d0, d1, h0, rfl, e⟩
  · exact ⟨⟨d, hd, hp⟩, fun h => absurd h0 h, fun h => absurd h0 h⟩
  · by_cases hk : GET_CSE_INDEX t.gtCSEnum = k
    · subst hk
      have hdd : d0 = d := by rw [h0] at hd; exact Option.some.inj hd
      subst hdd
      obtain ⟨q1, _, _, _, _, _, q7⟩ := e.abandoned hp
      refine ⟨⟨d1, findDsc_setDsc_same c _ d0 d1 h0, q1⟩, fun h => absurd q7 h, fun _ _ => q7⟩
    · refine ⟨⟨d, ?_, hp⟩, ?_, fun _ h => absurd h hk⟩
      · rw [findDsc_setDsc_other c _ k d1 (findDsc_ne_zero h0) (Ne.symm hk)]
        exact hd
      · intro h1
        rw [GET_CSE_INDEX_tag_cases e h1]
        exact hk

theorem frozen_of_LabelLe {c c1 : Compiler W} (hle : LabelLe c c1) (k : Nat) (d : CSEdsc W)
    (hd : optCSEfindDsc c k = some d) (hab : d.defExcSetPromise = none) :
    ∃ d1, optCSEfindDsc c1 k = some d1 ∧ d1.defExcSetPromise = none ∧
      d1.defExcSetCurrent = d.defExcSetCurrent ∧ d1.csdDefCount = d.csdDefCount ∧
      d1.csdUseCount = d.csdUseCount ∧ d1.csdDefWtCnt = d.csdDefWtCnt ∧
      d1.csdUseWtCnt = d.csdUseWtCnt := by
  rcases hle.2 k with ⟨hn, _⟩ | ⟨d0, d1, hd0, hd1, _, _, f⟩
  · rw [hn] at hd; cases hd
  · rw [hd0] at hd
    cases hd
    exact ⟨d1, hd1, f hab⟩

/-- C3. Abandonment is absorbing. From any state in which candidate `k` is abandoned
(`defExcSetPromise = none`, the `NoVN` marker): after a single visit, after the nodes of a
statement and after a whole walk over any blocks, `k` is still abandoned and its `csdDefCount`,
`csdUseCount`, `csdDefWtCnt`, `csdUseWtCnt` and `defExcSetCurrent` are what they were; a visited
node tagged with `k` gets the tag `NO_CSE`, and no node leaves the walk tagged with `k`. -/
theorem availability_abandoned_absorbing [Add W] (c : Compiler W) (k : Nat) (d : CSEdsc W)
    (hd : optCSEfindDsc c k = some d) (hab : d.defExcSetPromise = none) :
    (∀ (stmw : W) a t c1 a1 t1, availabilityVisitTree stmw c a t = some (c1, a1, t1) →
      (∃ d1, optCSEfindDsc c1 k = some d1 ∧ d1.defExcSetPromise = none ∧
        d1.defExcSetCurrent = d.defExcSetCurrent ∧ d1.csdDefCount = d.csdDefCount ∧
        d1.csdUseCount = d.csdUseCount ∧ d1.csdDefWtCnt = d.csdDefWtCnt ∧
        d1.csdUseWtCnt = d.csdUseWtCnt) ∧
      (t.gtCSEnum ≠ 0 → GET_CSE_INDEX t.gtCSEnum = k → t1.gtCSEnum = NO_CSE)) ∧
    (∀ (stmw : W) a ts c1 a1 ts1, availabilityTrees stmw c a ts = some (c1, a1, ts1) →
      (∃ d1, optCSEfindDsc c1 k = some d1 ∧ d1.defExcSetPromise = none ∧
        d1.defExcSetCurrent = d.defExcSetCurrent ∧ d1.csdDefCount = d.csdDefCount ∧
        d1.csdUseCount = d.csdUseCount ∧ d1.csdDefWtCnt = d.csdDefWtCnt ∧
        d1.csdUseWtCnt = d.csdUseWtCnt) ∧
      ∀ t1 ∈ ts1, t1.gtCSEnum ≠ 0 → GET_CSE_INDEX t1.gtCSEnum ≠ k) ∧
    (∀ blocks c1 blocks1, optValnumCSE_Availability c blocks = some (c1, blocks1) →
      (∃ d1, optCSEfindDsc c1 k = some d1 ∧ d1.defExcSetPromise = none ∧
        d1.defExcSetCurrent = d.defExcSetCurrent ∧ d1.csdDefCount = d.csdDefCount ∧
        d1.csdUseCount = d.csdUseCount ∧ d1.csdDefWtCnt = d.csdDefWtCnt ∧
        d1.csdUseWtCnt = d.csdUseWtCnt) ∧
      ∀ b ∈ blocks1, ∀ s ∈ b.stmts, ∀ t ∈ s.treeList,
        t.gtCSEnum ≠ 0 → GET_CSE_INDEX t.gtCSEnum ≠ k) := by
  have hstep : ∀ (w : W) (c : Compiler W) a t c1 a1 t1,
      (∃ d, optCSEfindDsc c k = some d ∧ d.defExcSetPromise = none) → True →
      availabilityVisitTree w c a t = some (c1, a1, t1) →
      (∃ d, optCSEfindDsc c1 k = some d ∧ d.defExcSetPromise = none) ∧
        (t1.gtCSEnum ≠ 0 → GET_CSE_INDEX t1.gtCSEnum ≠ k) :=
    fun w c a t c1 a1 t1 hI _ hv => ⟨(visit_abandoned k hv hI).1, (visit_abandoned k hv hI).2.1⟩
  refine ⟨?_, ?_, ?_⟩
  · intro stmw a t c1 a1 t1 hv
    exact ⟨frozen_of_LabelLe (visit_LabelLe hv) k d hd hab,
      (visit_abandoned k hv ⟨d, hd, hab⟩).2.2⟩
  · intro stmw a ts c1 a1 ts1 hrun
    obtain ⟨_, hle, hQ⟩ := trees_walk
      (fun c => ∃ d, optCSEfindDsc c k = some d ∧ d.defExcSetPromise = none) (fun _ => True)
      (fun _ t1 => t1.gtCSEnum ≠ 0 → GET_CSE_INDEX t1.gtCSEnum ≠ k)
      (fun _ _ _ _ h => h) hstep stmw ts c a c1 a1 ts1 hrun ⟨d, hd, hab⟩ (fun _ _ => trivial)
    exact ⟨frozen_of_LabelLe hle k d hd hab, hQ⟩
  · intro blocks c1 blocks1 hrun
    obtain ⟨_, hle, hQ⟩ := blocks_walk
      (fun c => ∃ d, optCSEfindDsc c k = some d ∧ d.defExcSetPromise = none) (fun _ => True)
      (fun _ t1 => t1.gtCSEnum ≠ 0 → GET_CSE_INDEX t1.gtCSEnum ≠ k)
      (fun _ _ _ _ h => h) hstep (fun c n hI => hI) blocks c c1 blocks1 hrun ⟨d, hd, hab⟩
      (fun _ _ _ _ _ _ => trivial)
    exact ⟨frozen_of_LabelLe hle k d hd hab, hQ⟩

/-- C4. Processing a use never abandons a candidate. When the labeler visits a tagged node that
it classifies as a use (the available bit of its candidate is in `available_cses`) and the
candidate is not abandoned, the candidate is not abandoned afterwards and no other descriptor
changes. If the visit clears the tag (the use is dropped), the liberal exception set of the node
is not inside `defExcSetPromise`, and `defExcSetPromise`, `defExcSetCurrent`, `csdDefCount`,
`csdUseCount` and both weights are exactly what they were; the node is otherwise unchanged. -/
theorem availability_use_never_abandons [Add W] (stmw : W) (c c1 : Compiler W)
    (a a1 : EXPSET_TP) (t t1 : GenTree) (d0 : CSEdsc W)
    (hv : availabilityVisitTree stmw c a t = some (c1, a1, t1))
    (htag : t.gtCSEnum ≠ 0)
    (huse : getCSEAvailBit (GET_CSE_INDEX t.gtCSEnum) ∈ a)
    (hd0 : optCSEfindDsc c (GET_CSE_INDEX t.gtCSEnum) = some d0)
    (hna : d0.defExcSetPromise ≠ none) :
    ∃ d1, optCSEfindDsc c1 (GET_CSE_INDEX t.gtCSEnum) = some d1 ∧
      d1.defExcSetPromise ≠ none ∧
      (∀ j, j ≠ GET_CSE_INDEX t.gtCSEnum → optCSEfindDsc c1 j = optCSEfindDsc c j) ∧
      (t1.gtCSEnum = NO_CSE ∨ t1.gtCSEnum = t.gtCSEnum) ∧
      t1 = setCSEnum t t1.gtCSEnum ∧
      (t1.gtCSEnum = NO_CSE →
        (∀ P, d0.defExcSetPromise = some P → ¬ liberalExcSet c t ⊆ P) ∧
        d1.defExcSetPromise = d0.defExcSetPromise ∧
        d1.defExcSetCurrent = d0.defExcSetCurrent ∧ d1.csdDefCount = d0.csdDefCount ∧
        d1.csdUseCount = d0.csdUseCount ∧ d1.csdDefWtCnt = d0.csdDefWtCnt ∧
        d1.csdUseWtCnt = d0.csdUseWtCnt) := by
  rcases visit_effect stmw c c1 a a1 t t1 hv with ⟨h0, _, _⟩ | ⟨hne, ht1, d, d1, h0, rfl, e⟩
  · exact absurd h0 htag
  · have hdd : d0 = d := by rw [hd0] at h0; exact Option.some.inj h0
    subst hdd
    have hu : decide (getCSEAvailBit (GET_CSE_INDEX t.gtCSEnum) ∈ a) = true := by simpa using huse
    rw [hu] at e
    refine ⟨d1, findDsc_setDsc_same c _ d0 d1 hd0, e.use_keeps rfl hna, ?_, ?_, ht1, ?_⟩
    · intro j hj
      exact findDsc_setDsc_other c _ j d1 (findDsc_ne_zero hd0) hj
    · rcases e.tag_cases with h | ⟨h, _⟩ | ⟨_, h⟩
      · exact Or.inl h
      · exact Or.inr h
      · cases h
    · intro hcl
      obtain ⟨q1, q2, q3, q4, q5, q6, q7⟩ := e.use_drop rfl hna htag hcl
      exact ⟨q7, q1, q2, q3, q4, q5, q6⟩

/-! ## The labeler on concrete inputs -/

theorem exCompiler_findDsc (k : Nat) (d : CSEdsc Nat) (h : optCSEfindDsc exCompiler k = some d) :
    k = 1 ∧ d = exDsc := by
  unfold optCSEfindDsc at h
  split_ifs at h with h1 h2
  have h3 : ¬ 1 < k := h2
  have hk : k = 1 := by omega
  subst hk
  exact ⟨rfl, (Option.some.inj h).symm⟩

theorem exCompiler_fresh (k : Nat) (d : CSEdsc Nat) (h : optCSEfindDsc exCompiler k = some d) :
    d.defExcSetPromise = some VNForEmptyExcSet ∧ d.defExcSetCurrent = none ∧
      d.csdDefCount = 0 := by
  obtain ⟨_, rfl⟩ := exCompiler_findDsc k d h
  exact ⟨rfl, rfl, rfl⟩

theorem s1_tags : ∀ b ∈ [s1Def, s1Use], ∀ s ∈ b.stmts, ∀ t ∈ s.treeList, 0 ≤ t.gtCSEnum := by
  decide

/-- Witness of C1 on scenario S1 (a def raising `{ExA}` in block 1, a use raising `{ExA}` in
block 3): candidate 1 ends with the promise `{ExA}`, one accepted def, and the conclusion of C1
holds for it. -/
theorem availability_use_within_promise_within_current_witness :
    ∃ c1 blocks1 d, optValnumCSE_Availability exCompiler [s1Def, s1Use] = some (c1, blocks1) ∧
      optCSEfindDsc c1 1 = some d ∧ d.defExcSetPromise = some {10} ∧ 1 ≤ d.csdDefCount ∧
      ∃ C, d.defExcSetCurrent = some C ∧ {10} ⊆ C ∧
        ∀ b ∈ blocks1, ∀ s ∈ b.stmts, ∀ t ∈ s.treeList, t.gtCSEnum = ((1 : Nat) : Int) →
          liberalExcSet c1 t ⊆ {10} := by
  refine ⟨_, _, _, rfl, rfl, rfl, by decide, ?_⟩
  exact availability_use_within_promise_within_current exCompiler _ [s1Def, s1Use] _
    exCompiler_fresh s1_tags (by rfl) 1 _ {10} rfl rfl (by decide)

/-- Witness of C2 on scenario S1: the node of block 1 leaves the walk retagged `-1`, and the
final `defExcSetCurrent` of candidate 1 is inside its liberal exception set. -/
theorem availability_current_within_defs_witness :
    ∃ c1 blocks1 d, optValnumCSE_Availability exCompiler [s1Def, s1Use] = some (c1, blocks1) ∧
      optCSEfindDsc c1 1 = some d ∧
      ∃ C, d.defExcSetCurrent = some C ∧
        C ⊆ liberalExcSet c1 (setCSEnum (exTree 1 1 1 false) (-1)) := by
  refine ⟨_, _, _, rfl, rfl, ?_⟩
  exact (availability_current_within_defs exCompiler _ [s1Def, s1Use] _ (by rfl)).1 s1_tags 1 _
    (by rfl) _ (List.Mem.head _) _ (List.Mem.head _) _ (List.Mem.head _) (by rfl)

/-- Witness of C3: in a state where candidate 1 is abandoned, visiting a node tagged with
candidate 1 leaves the candidate abandoned with the same counts and clears the tag. -/
theorem availability_abandoned_absorbing_witness :
    ∃ c1 a1 t1, availabilityVisitTree (1 : Nat) exCompilerAbandoned ∅ (exTree 7 1 1 false)
        = some (c1, a1, t1) ∧
      (∃ d1, optCSEfindDsc c1 1 = some d1 ∧ d1.defExcSetPromise = none ∧
        d1.defExcSetCurrent = (abandonDsc exDsc).defExcSetCurrent ∧
        d1.csdDefCount = (abandonDsc exDsc).csdDefCount ∧
        d1.csdUseCount = (abandonDsc exDsc).csdUseCount ∧
        d1.csdDefWtCnt = (abandonDsc exDsc).csdDefWtCnt ∧
        d1.csdUseWtCnt = (abandonDsc exDsc).csdUseWtCnt) ∧
      t1.gtCSEnum = NO_CSE := by
  refine ⟨_, _, _, rfl, ?_, ?_⟩
  · exact ((availability_abandoned_absorbing exCompilerAbandoned 1 (abandonDsc exDsc) rfl rfl).1
      1 ∅ (exTree 7 1 1 false) _ _ _ rfl).1
  · exact ((availability_abandoned_absorbing exCompilerAbandoned 1 (abandonDsc exDsc) rfl rfl).1
      1 ∅ (exTree 7 1 1 false) _ _ _ rfl).2 (by decide) rfl

/-- Witness of C4: with candidate 1 available and no def seen, a use raising `{ExA}` is
accepted on promise; the candidate is not abandoned. -/
theorem availability_use_never_abandons_witness :
    ∃ c1 a1 t1, availabilityVisitTree (1 : Nat) exCompiler {0, 1} (exTree 3 1 1 false)
        = some (c1, a1, t1) ∧
      ∃ d1, optCSEfindDsc c1 (GET_CSE_INDEX (exTree 3 1 1 false).gtCSEnum) = some d1 ∧
        d1.defExcSetPromise ≠ none := by
  refine ⟨_, _, _, rfl, ?_⟩
  exact (availability_use_never_abandons 1 exCompiler _ {0, 1} _ (exTree 3 1 1 false) _ exDsc
    (by rfl) (by decide) (by decide) rfl (by decide)).imp fun _ h => ⟨h.1, h.2.1⟩

/-- C5, as stated, fails. In scenario S5 with the two defs visited before the use, the use is
dropped and the candidate is not abandoned: `defExcSetPromise` ends as the empty set, with two
accepted defs and no accepted use. -/
theorem s5_defs_before_use_not_abandoned :
    ∃ c1 blocks1 d, optValnumCSE_Availability exCompiler [s5DefA, s5DefB, s5Use]
        = some (c1, blocks1) ∧
      optCSEfindDsc c1 1 = some d ∧ d.defExcSetPromise = some VNForEmptyExcSet ∧
      d.defExcSetPromise.isNone = false ∧ d.csdDefCount = 2 ∧ d.csdUseCount = 0 ∧
      blockTrees blocks1 = [setCSEnum (exTree 1 1 1 false) (-1),
        setCSEnum (exTree 2 1 2 false) (-1), setCSEnum (exTree 3 1 3 false) NO_CSE] :=
  ⟨_, _, _, rfl, rfl, rfl, rfl, rfl, rfl, rfl⟩

/-- C5 as amended. In scenario S5, whatever the order in which the three blocks are visited,
candidate 1 ends not viable and no policy performs it (neither `IsViable` nor the guards of the
random policy hold). It ends abandoned exactly when the use is visited before both defs (the use
is then accepted on promise and the first def abandons the candidate: no accepted def, one
use); when a def is visited first the use is dropped and the candidate is not abandoned (two
accepted defs, no use). -/
theorem s5_never_viable :
    s5Outcome [s5DefA, s5DefB, s5Use] = some (false, false, false, 2, 0) ∧
    s5Outcome [s5DefA, s5Use, s5DefB] = some (false, false, false, 2, 0) ∧
    s5Outcome [s5DefB, s5DefA, s5Use] = some (false, false, false, 2, 0) ∧
    s5Outcome [s5DefB, s5Use, s5DefA] = some (false, false, false, 2, 0) ∧
    s5Outcome [s5Use, s5DefA, s5DefB] = some (true, false, false, 0, 1) ∧
    s5Outcome [s5Use, s5DefB, s5DefA] = some (true, false, false, 0, 1) :=
  ⟨rfl, rfl, rfl, rfl, rfl, rfl⟩

/-! ## The availability dataflow -/

theorem merge_fold (block : BasicBlock W) : ∀ (preds : List Nat) (df : CSE_DataFlow W),
    preds.foldl (fun d predBlock => d.Merge block predBlock) df =
      { df with m_comp := { df.m_comp with
          bbCseIn := Function.update df.m_comp.bbCseIn block.bbNum
            (preds.foldl (fun acc p => acc ∩ df.m_comp.bbCseOut p)
              (df.m_comp.bbCseIn block.bbNum)) } } := by
  intro preds
  induction preds with
  | nil =>
    intro df
    simp [Function.update_eq_self]
  | cons p ps ih =>
    intro df
    simp only [List.foldl_cons]
    rw [ih]
    simp [CSE_DataFlow.Merge, Function.update_idem]

theorem forwardVisit_comp (df : CSE_DataFlow W) (block : BasicBlock W) :
    (forwardVisit df block).1.m_comp =
      { df.m_comp with
        bbCseIn := Function.update df.m_comp.bbCseIn block.bbNum (visitIn df.m_comp block)
        bbCseOut := Function.update df.m_comp.bbCseOut block.bbNum (visitOut df.m_comp block) } := by
  unfold forwardVisit
  simp only [merge_fold]
  cases hh : block.isHandlerBeg <;> cases hn : block.BBF_NO_CSE_IN <;>
    cases hc : block.BBF_HAS_CALL <;>
    simp [CSE_DataFlow.EndMerge, CSE_DataFlow.StartMerge, CSE_DataFlow.MergeHandler, visitIn,
      visitOut, hh, hn, hc, Function.update_idem] <;>
    split_ifs <;> simp [Function.update_idem, *]

theorem forwardVisit_changed (df : CSE_DataFlow W) (block : BasicBlock W) :
    (forwardVisit df block).2 =
      !decide (visitOut df.m_comp block = df.m_comp.bbCseOut block.bbNum) := by
  unfold forwardVisit
  simp only [merge_fold]
  cases hh : block.isHandlerBeg <;> cases hn : block.BBF_NO_CSE_IN <;>
    cases hc : block.BBF_HAS_CALL <;>
    simp [CSE_DataFlow.EndMerge, CSE_DataFlow.StartMerge, CSE_DataFlow.MergeHandler, visitIn,
      visitOut, hh, hn, hc, Function.update_idem] <;>
    split_ifs <;> simp [Function.update_idem, *]

theorem foldl_inter_subset (out : Nat → EXPSET_TP) : ∀ (preds : List Nat) (x : EXPSET_TP),
    preds.foldl (fun acc p => acc ∩ out p) x ⊆ x := by
  intro preds
  induction preds with
  | nil => intro x; exact Finset.Subset.refl _
  | cons p ps ih =>
    intro x
    simp only [List.foldl_cons]
    exact (ih (x ∩ out p)).trans Finset.inter_subset_left

theorem foldl_inter_eq (c : Compiler W) : ∀ (preds : List Nat) (x : EXPSET_TP),
    x ⊆ MakeFull c.cseLivenessTraits →
    preds.foldl (fun acc p => acc ∩ c.bbCseOut p) x = x ∩ predsMeet c preds := by
  intro preds
  induction preds with
  | nil =>
    intro x hx
    simp only [List.foldl_nil, predsMeet, List.foldr_nil]
    exact (Finset.inter_eq_left.mpr hx).symm
  | cons p ps ih =>
    intro x hx
    simp only [List.foldl_cons]
    rw [ih (x ∩ c.bbCseOut p) (Finset.inter_subset_left.trans hx)]
    simp only [predsMeet, List.foldr_cons]
    rw [Finset.inter_assoc]

theorem predsMeet_subset_full (c : Compiler W) (preds : List Nat) :
    predsMeet c preds ⊆ MakeFull c.cseLivenessTraits := by
  induction preds with
  | nil => exact Finset.Subset.refl _
  | cons p ps ih =>
    simp only [predsMeet, List.foldr_cons] at ih ⊢
    exact Finset.inter_subset_right.trans ih

theorem predsMeet_mono {c c1 : Compiler W} (ht : c1.cseLivenessTraits = c.cseLivenessTraits)
    (ho : ∀ p, c1.bbCseOut p ⊆ c.bbCseOut p) (preds : List Nat) :
    predsMeet c1 preds ⊆ predsMeet c preds := by
  induction preds with
  | nil => simp [predsMeet, ht]
  | cons p ps ih =>
    simp only [predsMeet, List.foldr_cons] at ih ⊢
    exact Finset.inter_subset_inter (ho p) ih

theorem visitIn_subset (c : Compiler W) (block : BasicBlock W) :
    visitIn c block ⊆ c.bbCseIn block.bbNum := by
  unfold visitIn
  split_ifs
  · simp [MakeEmpty]
  · exact Finset.Subset.refl _
  · exact foldl_inter_subset _ _ _

theorem visitIn_subset_meet (c : Compiler W) (block : BasicBlock W)
    (hin : c.bbCseIn block.bbNum ⊆ MakeFull c.cseLivenessTraits)
    (hh : block.isHandlerBeg = false) :
    visitIn c block ⊆ predsMeet c block.bbPreds := by
  unfold visitIn
  simp only [hh, Bool.false_eq_true, if_false]
  split_ifs with h1
  · simp [MakeEmpty]
  · rw [foldl_inter_eq c _ _ hin]
    exact Finset.inter_subset_right

theorem visitIn_eq (c : Compiler W) (block : BasicBlock W)
    (hin : c.bbCseIn block.bbNum ⊆ MakeFull c.cseLivenessTraits)
    (hh : block.isHandlerBeg = false) (hn : block.BBF_NO_CSE_IN = false) :
    visitIn c block = c.bbCseIn block.bbNum ∩ predsMeet c block.bbPreds := by
  unfold visitIn
  simp only [hh, hn, Bool.false_eq_true, if_false]
  exact foldl_inter_eq c _ _ hin

theorem transfer_arg (c : Compiler W) (block : BasicBlock W) (i : EXPSET_TP)
    (hi : i ⊆ MakeFull c.cseLivenessTraits) :
    (if !block.BBF_HAS_CALL || decide (i = MakeEmpty) then i else i ∩ c.cseCallKillsMask) =
      i ∩ transferMask c block := by
  unfold transferMask
  cases hc : block.BBF_HAS_CALL
  · simp [Finset.inter_eq_left.mpr hi]
  · by_cases he : i = MakeEmpty
    · simp [he, MakeEmpty]
    · simp [he]

theorem blockTransfer_mono (c : Compiler W) (block : BasicBlock W) {i j : EXPSET_TP}
    (h : i ⊆ j) : blockTransfer c block i ⊆ blockTransfer c block j :=
  Finset.union_subset_union (Finset.Subset.refl _) (Finset.inter_subset_inter h (Finset.Subset.refl _))

theorem visitOut_eq (c : Compiler W) (blocks : List (BasicBlock W)) (block : BasicBlock W)
    (hwf : FlowWF c blocks) (hb : block ∈ blocks)
    (hDF : ∀ o g i, g ∪ i ⊆ o → c.DataFlowD o g i = g ∪ i) :
    visitOut c block = blockTransfer c block (visitIn c block) ∧
      visitOut c block ⊆ c.bbCseOut block.bbNum := by
  obtain ⟨hgen, hin, hout, _⟩ := hwf
  have hi : visitIn c block ⊆ MakeFull c.cseLivenessTraits :=
    (visitIn_subset c block).trans (hin block hb)
  have hsub : blockTransfer c block (visitIn c block) ⊆ c.bbCseOut block.bbNum := by
    rcases hout block hb with h | h
    · rw [h]
      exact Finset.union_subset (hgen block hb) (Finset.inter_subset_left.trans hi)
    · rw [h]
      exact blockTransfer_mono c block (visitIn_subset c block)
  have heq : visitOut c block = blockTransfer c block (visitIn c block) := by
    unfold visitOut
    rw [transfer_arg c block _ hi]
    exact hDF _ _ _ hsub
  exact ⟨heq, heq ▸ hsub⟩

theorem blockTransfer_static {c c1 : Compiler W} (hs : SameStatic c c1) (block : BasicBlock W)
    (i : EXPSET_TP) : blockTransfer c1 block i = blockTransfer c block i := by
  obtain ⟨h1, h2, h3, _, _⟩ := hs
  simp [blockTransfer, transferMask, h1, h2, h3]

theorem forwardVisit_static (df : CSE_DataFlow W) (block : BasicBlock W) :
    SameStatic df.m_comp (forwardVisit df block).1.m_comp := by
  rw [forwardVisit_comp]
  exact ⟨rfl, rfl, rfl, rfl, rfl⟩

theorem forwardVisit_out_subset (df : CSE_DataFlow W) (blocks : List (BasicBlock W))
    (block : BasicBlock W) (hb : block ∈ blocks) (hwf : FlowWF df.m_comp blocks)
    (hDF : ∀ o g i, g ∪ i ⊆ o → df.m_comp.DataFlowD o g i = g ∪ i) (p : Nat) :
    (forwardVisit df block).1.m_comp.bbCseOut p ⊆ df.m_comp.bbCseOut p := by
  rw [forwardVisit_comp]
  simp only [Function.update_apply]
  split_ifs with h
  · rw [h]
    exact (visitOut_eq df.m_comp blocks block hwf hb hDF).2
  · exact Finset.Subset.refl _

theorem forwardVisit_in_subset (df : CSE_DataFlow W) (block : BasicBlock W) (p : Nat) :
    (forwardVisit df block).1.m_comp.bbCseIn p ⊆ df.m_comp.bbCseIn p := by
  rw [forwardVisit_comp]
  simp only [Function.update_apply]
  split_ifs with h
  · rw [h]
    exact visitIn_subset df.m_comp block
  · exact Finset.Subset.refl _

theorem forwardVisit_FlowWF (df : CSE_DataFlow W) (blocks : List (BasicBlock W))
    (block : BasicBlock W) (hnodup : (blocks.map fun b => b.bbNum).Nodup) (hb : block ∈ blocks)
    (hwf : FlowWF df.m_comp blocks)
    (hDF : ∀ o g i, g ∪ i ⊆ o → df.m_comp.DataFlowD o g i = g ∪ i) :
    FlowWF (forwardVisit df block).1.m_comp blocks := by
  have hst := forwardVisit_static df block
  have hO := forwardVisit_out_subset df blocks block hb hwf hDF
  have hvo := visitOut_eq df.m_comp blocks block hwf hb hDF
  have hI := forwardVisit_in_subset df block
  obtain ⟨hgen, hin, hout, hmeet⟩ := hwf
  have hinj : ∀ g ∈ blocks, g.bbNum = block.bbNum → g = block :=
    fun g hg h => List.inj_on_of_nodup_map hnodup hg hb h
  refine ⟨?_, ?_, ?_, ?_⟩
  · intro g hg
    rw [hst.1, hst.2.2.1]
    exact hgen g hg
  · intro g hg
    rw [hst.2.2.1]
    exact (hI g.bbNum).trans (hin g hg)
  · intro g hg
    rw [hst.2.2.1, blockTransfer_static hst]
    by_cases h : g.bbNum = block.bbNum
    · have hgb := hinj g hg h
      subst hgb
      right
      rw [forwardVisit_comp]
      simp only [Function.update_same]
      exact hvo.1
    · rw [forwardVisit_comp]
      simp only [Function.update_noteq h]
      exact hout g hg
  · intro g hg h1 h2 h3
    rw [hst.2.2.2.2] at h1
    have hm : predsMeet (forwardVisit df block).1.m_comp g.bbPreds ⊆
        predsMeet df.m_comp g.bbPreds := predsMeet_mono hst.2.2.1 hO g.bbPreds
    by_cases h : g.bbNum = block.bbNum
    · have hgb := hinj g hg h
      subst hgb
      refine hm.trans ?_
      rw [forwardVisit_comp]
      simp only [Function.update_same]
      rw [visitIn_eq df.m_comp g (hin g hg) h2 h3]
      exact Finset.subset_inter (hmeet g hg h1 h2 h3) (Finset.Subset.refl _)
    · refine hm.trans ?_
      rw [forwardVisit_comp]
      simp only [Function.update_noteq h]
      exact hmeet g hg h1 h2 h3

theorem SameStatic_refl (c : Compiler W) : SameStatic c c := ⟨rfl, rfl, rfl, rfl, rfl⟩

theorem SameStatic_trans {a b c : Compiler W} (h1 : SameStatic a b) (h2 : SameStatic b c) :
    SameStatic a c :=
  ⟨h2.1.trans h1.1, h2.2.1.trans h1.2.1, h2.2.2.1.trans h1.2.2.1,
    h2.2.2.2.1.trans h1.2.2.2.1, h2.2.2.2.2.trans h1.2.2.2.2⟩

theorem predsMeet_congr {c c1 : Compiler W} (ht : c1.cseLivenessTraits = c.cseLivenessTraits)
    (ho : c1.bbCseOut = c.bbCseOut) (preds : List Nat) :
    predsMeet c1 preds = predsMeet c preds := by
  unfold predsMeet
  rw [ht, ho]

theorem forwardVisit_unchanged (df : CSE_DataFlow W) (block : BasicBlock W)
    (h : (forwardVisit df block).2 = false) :
    (forwardVisit df block).1.m_comp.bbCseOut = df.m_comp.bbCseOut ∧
      (forwardVisit df block).1.m_comp.bbCseIn block.bbNum = visitIn df.m_comp block := by
  rw [forwardVisit_changed] at h
  have h1 : visitOut df.m_comp block = df.m_comp.bbCseOut block.bbNum := by simpa using h
  rw [forwardVisit_comp]
  simp only [Function.update_same, and_true]
  rw [h1]
  exact Function.update_eq_self _ _

theorem forwardPass_spec (blocks : List (BasicBlock W))
    (hnodup : (blocks.map fun b => b.bbNum).Nodup) :
    ∀ (l : List (BasicBlock W)) (df : CSE_DataFlow W), (∀ b ∈ l, b ∈ blocks) →
      FlowWF df.m_comp blocks →
      (∀ o g i, g ∪ i ⊆ o → df.m_comp.DataFlowD o g i = g ∪ i) →
      FlowWF (forwardPass df l).1.m_comp blocks ∧
      SameStatic df.m_comp (forwardPass df l).1.m_comp ∧
      (∀ p, (forwardPass df l).1.m_comp.bbCseOut p ⊆ df.m_comp.bbCseOut p) ∧
      (∀ p, (forwardPass df l).1.m_comp.bbCseIn p ⊆ df.m_comp.bbCseIn p) ∧
      ((forwardPass df l).2 = false →
        (forwardPass df l).1.m_comp.bbCseOut = df.m_comp.bbCseOut ∧
        ∀ b ∈ l,
          (b.isHandlerBeg = false →
            (forwardPass df l).1.m_comp.bbCseIn b.bbNum ⊆
              predsMeet (forwardPass df l).1.m_comp b.bbPreds) ∧
          (b.BBF_NO_CSE_IN = true → (forwardPass df l).1.m_comp.bbCseIn b.bbNum = MakeEmpty)) := by
  intro l
  induction l with
  | nil =>
    intro df _ hwf _
    simp only [forwardPass]
    exact ⟨hwf, SameStatic_refl _, fun _ => Finset.Subset.refl _, fun _ => Finset.Subset.refl _,
      fun _ => ⟨by simp, by simp⟩⟩
  | cons b rest ih =>
    intro df hl hwf hDF
    have hb : b ∈ blocks := hl b (List.mem_cons_self _ _)
    have hwf1 := forwardVisit_FlowWF df blocks b hnodup hb hwf hDF
    have hst1 := forwardVisit_static df b
    have hDF1 : ∀ o g i, g ∪ i ⊆ o → (forwardVisit df b).1.m_comp.DataFlowD o g i = g ∪ i := by
      intro o g i h
      rw [hst1.2.2.2.1]
      exact hDF o g i h
    obtain ⟨hwf2, hst2, hO2, hI2, hfix⟩ := ih (forwardVisit df b).1
      (fun x hx => hl x (List.mem_cons_of_mem _ hx)) hwf1 hDF1
    simp only [forwardPass]
    refine ⟨hwf2, SameStatic_trans hst1 hst2,
      fun p => (hO2 p).trans (forwardVisit_out_subset df blocks b hb hwf hDF p),
      fun p => (hI2 p).trans (forwardVisit_in_subset df b p), ?_⟩
    intro hflag
    have hf1 : (forwardVisit df b).2 = false := by
      cases h : (forwardVisit df b).2 <;> simp [h] at hflag ⊢
    have hf2 : (forwardPass (forwardVisit df b).1 rest).2 = false := by
      cases h : (forwardPass (forwardVisit df b).1 rest).2 <;> simp [h] at hflag ⊢
    obtain ⟨hout2, hrest⟩ := hfix hf2
    obtain ⟨hout1, hin1⟩ := forwardVisit_unchanged df b hf1
    refine ⟨hout2.trans hout1, ?_⟩
    intro x hx
    rcases List.mem_cons.mp hx with rfl | hmem
    · refine ⟨?_, ?_⟩
      · intro hh
        have h3 : predsMeet (forwardPass (forwardVisit df x).1 rest).1.m_comp x.bbPreds =
            predsMeet df.m_comp x.bbPreds :=
          predsMeet_congr (SameStatic_trans hst1 hst2).2.2.1 (hout2.trans hout1) _
        rw [h3]
        refine (hI2 x.bbNum).trans ?_
        rw [hin1]
        exact visitIn_subset_meet df.m_comp x (hwf.2.1 x hb) hh
      · intro hn
        have : (forwardVisit df x).1.m_comp.bbCseIn x.bbNum = MakeEmpty := by
          rw [hin1]
          simp [visitIn, hn]
        have h4 := hI2 x.bbNum
        rw [this] at h4
        exact Finset.subset_empty.mp h4
    · exact hrest x hmem

theorem ForwardAnalysis_spec (blocks : List (BasicBlock W))
    (hnodup : (blocks.map fun b => b.bbNum).Nodup) :
    ∀ (fuel : Nat) (df df1 : CSE_DataFlow W), FlowWF df.m_comp blocks →
      (∀ o g i, g ∪ i ⊆ o → df.m_comp.DataFlowD o g i = g ∪ i) →
      ForwardAnalysis fuel df blocks = some df1 →
      FlowWF df1.m_comp blocks ∧ SameStatic df.m_comp df1.m_comp ∧
      (∀ p, df1.m_comp.bbCseIn p ⊆ df.m_comp.bbCseIn p) ∧
      ∀ b ∈ blocks,
        (b.isHandlerBeg = false → df1.m_comp.bbCseIn b.bbNum ⊆ predsMeet df1.m_comp b.bbPreds) ∧
        (b.BBF_NO_CSE_IN = true → df1.m_comp.bbCseIn b.bbNum = MakeEmpty) := by
  intro fuel
  induction fuel with
  | zero =>
    intro df df1 _ _ h
    simp [ForwardAnalysis] at h
  | succ n ih =>
    intro df df1 hwf hDF h
    obtain ⟨hwf1, hst1, _, hI1, hfix⟩ := forwardPass_spec blocks hnodup blocks df
      (fun _ hb => hb) hwf hDF
    simp only [ForwardAnalysis] at h
    split_ifs at h with hflag
    · have hDF1 : ∀ o g i, g ∪ i ⊆ o →
          (forwardPass df blocks).1.m_comp.DataFlowD o g i = g ∪ i := by
        intro o g i hs
        rw [hst1.2.2.2.1]
        exact hDF o g i hs
      obtain ⟨hwf2, hst2, hI2, hres⟩ := ih (forwardPass df blocks).1 df1 hwf1 hDF1 h
      exact ⟨hwf2, SameStatic_trans hst1 hst2, fun p => (hI2 p).trans (hI1 p), hres⟩
    · have hf : (forwardPass df blocks).2 = false := by simpa using hflag
      have hdf : (forwardPass df blocks).1 = df1 := Option.some.inj h
      subst hdf
      exact ⟨hwf1, hst1, hI1, (hfix hf).2⟩

theorem initFold_spec : ∀ (l : List (BasicBlock W)) (c1 : Compiler W),
    (l.map fun b => b.bbNum).Nodup →
    (l.foldl initDataFlowBlock c1).cseLivenessTraits = c1.cseLivenessTraits ∧
    (l.foldl initDataFlowBlock c1).fgFirstBB = c1.fgFirstBB ∧
    (l.foldl initDataFlowBlock c1).DataFlowD = c1.DataFlowD ∧
    (l.foldl initDataFlowBlock c1).cseCallKillsMask = c1.cseCallKillsMask ∧
    ∀ b ∈ l,
      (l.foldl initDataFlowBlock c1).bbCseOut b.bbNum = MakeFull c1.cseLivenessTraits ∧
      (l.foldl initDataFlowBlock c1).bbCseIn b.bbNum =
        (if b.bbNum = c1.fgFirstBB ∨ b.isHandlerBeg = true then MakeEmpty
         else MakeFull c1.cseLivenessTraits) := by
  intro l
  induction l using List.reverseRecOn with
  | nil =>
    intro c1 _
    simp
  | append_singleton l b ih =>
    intro c1 hnd
    rw [List.map_append, List.nodup_append] at hnd
    obtain ⟨hnd1, _, hdisj⟩ := hnd
    obtain ⟨h1, h2, h3, h4, h5⟩ := ih c1 hnd1
    rw [List.foldl_append]
    simp only [List.foldl_cons, List.foldl_nil]
    refine ⟨h1, h2, h3, h4, ?_⟩
    intro x hx
    rcases List.mem_append.mp hx with hxl | hxb
    · have hne : x.bbNum ≠ b.bbNum := by
        intro he
        exact hdisj (List.mem_map.mpr ⟨x, hxl, rfl⟩) (by simp [he])
      simp only [initDataFlowBlock, Function.update_noteq hne]
      exact h5 x hxl
    · have hxb2 : x = b := by simpa using hxb
      subst hxb2
      simp only [initDataFlowBlock, Function.update_same, h1, h2]
      refine ⟨trivial, ?_⟩
      by_cases he : x.bbNum = c1.fgFirstBB <;> cases hh : x.isHandlerBeg <;> simp [he, hh]

theorem FlowWF_of_init (c0 : Compiler W) (blocks : List (BasicBlock W))
    (hgen : ∀ b ∈ blocks, c0.bbCseGen b.bbNum ⊆ MakeFull c0.cseLivenessTraits)
    (hout : ∀ b ∈ blocks, c0.bbCseOut b.bbNum = MakeFull c0.cseLivenessTraits)
    (hin : ∀ b ∈ blocks, c0.bbCseIn b.bbNum =
      (if b.bbNum = c0.fgFirstBB ∨ b.isHandlerBeg = true then MakeEmpty
       else MakeFull c0.cseLivenessTraits)) : FlowWF c0 blocks := by
  refine ⟨hgen, ?_, fun b hb => Or.inl (hout b hb), ?_⟩
  · intro b hb
    rw [hin b hb]
    split_ifs
    · simp [MakeEmpty]
    · exact Finset.Subset.refl _
  · intro b hb hne hh _
    rw [hin b hb, if_neg (by simp [hne, hh])]
    exact predsMeet_subset_full c0 b.bbPreds

theorem initInOut_spec (c : Compiler W) (blocks : List (BasicBlock W))
    (hnodup : (blocks.map fun b => b.bbNum).Nodup) :
    (initDataFlowInOut c blocks).cseLivenessTraits = c.optCSECandidateCount * 2 + 1 ∧
    (initDataFlowInOut c blocks).fgFirstBB = c.fgFirstBB ∧
    (initDataFlowInOut c blocks).DataFlowD = c.DataFlowD ∧
    ∀ b ∈ blocks,
      (initDataFlowInOut c blocks).bbCseOut b.bbNum =
        MakeFull (c.optCSECandidateCount * 2 + 1) ∧
      (initDataFlowInOut c blocks).bbCseIn b.bbNum =
        (if b.bbNum = c.fgFirstBB ∨ b.isHandlerBeg = true then MakeEmpty
         else MakeFull (c.optCSECandidateCount * 2 + 1)) := by
  obtain ⟨h1, h2, h3, _, h5⟩ := initFold_spec blocks
    { c with cseLivenessTraits := c.optCSECandidateCount * 2 + 1
             cseCallKillsMask := initCallKillsMask c.optCSECandidateCount } hnodup
  exact ⟨h1, h2, h3, h5⟩

theorem initDataFlow_FlowWF (c : Compiler W) (blocks : List (BasicBlock W))
    (gen : Nat → EXPSET_TP) (hnodup : (blocks.map fun b => b.bbNum).Nodup)
    (hgen : ∀ b, gen b ⊆ MakeFull (c.optCSECandidateCount * 2 + 1)) :
    FlowWF { initDataFlowInOut c blocks with bbCseGen := gen } blocks := by
  obtain ⟨h1, h2, _, h5⟩ := initInOut_spec c blocks hnodup
  apply FlowWF_of_init
  · intro b _
    show gen b.bbNum ⊆ MakeFull (initDataFlowInOut c blocks).cseLivenessTraits
    rw [h1]
    exact hgen b.bbNum
  · intro b hb
    show (initDataFlowInOut c blocks).bbCseOut b.bbNum =
      MakeFull (initDataFlowInOut c blocks).cseLivenessTraits
    rw [h1]
    exact (h5 b hb).1
  · intro b hb
    show (initDataFlowInOut c blocks).bbCseIn b.bbNum =
      (if b.bbNum = (initDataFlowInOut c blocks).fgFirstBB ∨ b.isHandlerBeg = true then MakeEmpty
       else MakeFull (initDataFlowInOut c blocks).cseLivenessTraits)
    rw [h1, h2]
    exact (h5 b hb).2

theorem forwardPass_strict (blocks : List (BasicBlock W))
    (hnodup : (blocks.map fun b => b.bbNum).Nodup) :
    ∀ (l : List (BasicBlock W)) (df : CSE_DataFlow W), (∀ b ∈ l, b ∈ blocks) →
      FlowWF df.m_comp blocks →
      (∀ o g i, g ∪ i ⊆ o → df.m_comp.DataFlowD o g i = g ∪ i) →
      (forwardPass df l).2 = true →
      ∃ b ∈ l, (forwardPass df l).1.m_comp.bbCseOut b.bbNum ⊂ df.m_comp.bbCseOut b.bbNum := by
  intro l
  induction l with
  | nil =>
    intro df _ _ _ h
    simp [forwardPass] at h
  | cons b rest ih =>
    intro df hl hwf hDF hflag
    have hb : b ∈ blocks := hl b (List.mem_cons_self _ _)
    have hwf1 := forwardVisit_FlowWF df blocks b hnodup hb hwf hDF
    have hst1 := forwardVisit_static df b
    have hDF1 : ∀ o g i, g ∪ i ⊆ o → (forwardVisit df b).1.m_comp.DataFlowD o g i = g ∪ i := by
      intro o g i h
      rw [hst1.2.2.2.1]
      exact hDF o g i h
    have hrest : ∀ x ∈ rest, x ∈ blocks := fun x hx => hl x (List.mem_cons_of_mem _ hx)
    obtain ⟨_, _, hO2, _, _⟩ := forwardPass_spec blocks hnodup rest (forwardVisit df b).1
      hrest hwf1 hDF1
    have hO1 := forwardVisit_out_subset df blocks b hb hwf hDF
    simp only [forwardPass] at hflag ⊢
    cases h1 : (forwardVisit df b).2 with
    | true =>
      refine ⟨b, List.mem_cons_self _ _, ?_⟩
      rw [forwardVisit_changed] at h1
      have hne : visitOut df.m_comp b ≠ df.m_comp.bbCseOut b.bbNum := by simpa using h1
      have hv : (forwardVisit df b).1.m_comp.bbCseOut b.bbNum = visitOut df.m_comp b := by
        rw [forwardVisit_comp]
        simp
      have hss : (forwardVisit df b).1.m_comp.bbCseOut b.bbNum ⊂ df.m_comp.bbCseOut b.bbNum :=
        Finset.ssubset_iff_subset_ne.mpr ⟨hO1 b.bbNum, by rw [hv]; exact hne⟩
      exact Finset.ssubset_of_subset_of_ssubset (hO2 b.bbNum) hss
    | false =>
      have h2 : (forwardPass (forwardVisit df b).1 rest).2 = true := by
        simpa [h1] using hflag
      obtain ⟨x, hx, hss⟩ := ih (forwardVisit df b).1 hrest hwf1 hDF1 h2
      exact ⟨x, List.mem_cons_of_mem _ hx,
        Finset.ssubset_of_ssubset_of_subset hss (hO1 x.bbNum)⟩

theorem forwardPass_measure (blocks : List (BasicBlock W))
    (hnodup : (blocks.map fun b => b.bbNum).Nodup) (df : CSE_DataFlow W)
    (hwf : FlowWF df.m_comp blocks)
    (hDF : ∀ o g i, g ∪ i ⊆ o → df.m_comp.DataFlowD o g i = g ∪ i)
    (hflag : (forwardPass df blocks).2 = true) :
    outMeasure (forwardPass df blocks).1.m_comp blocks < outMeasure df.m_comp blocks := by
  obtain ⟨_, _, hO, _, _⟩ := forwardPass_spec blocks hnodup blocks df (fun _ h => h) hwf hDF
  obtain ⟨b, hb, hss⟩ := forwardPass_strict blocks hnodup blocks df (fun _ h => h) hwf hDF hflag
  unfold outMeasure
  exact List.sum_lt_sum _ _ (fun x _ => Finset.card_le_card (hO x.bbNum))
    ⟨b, hb, Finset.card_lt_card hss⟩

theorem ForwardAnalysis_terminates (blocks : List (BasicBlock W))
    (hnodup : (blocks.map fun b => b.bbNum).Nodup) :
    ∀ (n : Nat) (df : CSE_DataFlow W), outMeasure df.m_comp blocks < n →
      FlowWF df.m_comp blocks →
      (∀ o g i, g ∪ i ⊆ o → df.m_comp.DataFlowD o g i = g ∪ i) →
      ∃ df1, ForwardAnalysis n df blocks = some df1 := by
  intro n
  induction n with
  | zero => intro df h; omega
  | succ n ih =>
    intro df hlt hwf hDF
    simp only [ForwardAnalysis]
    split_ifs with hflag
    · obtain ⟨hwf1, hst1, _, _, _⟩ := forwardPass_spec blocks hnodup blocks df
        (fun _ h => h) hwf hDF
      have hm := forwardPass_measure blocks hnodup df hwf hDF hflag
      refine ih (forwardPass df blocks).1 (by omega) hwf1 ?_
      intro o g i hs
      rw [hst1.2.2.2.1]
      exact hDF o g i hs
    · exact ⟨_, rfl⟩

/-- C6 as amended. From the state left by the in/out initialisation of
`optValnumCSE_InitDataFlow` (with any `bbCseGen` inside the trait's bits), for blocks with
pairwise distinct numbers and a `DataFlowD` that yields `gen ∪ in` whenever that is inside the
previous `out`: the forward analysis terminates, and when it has terminated every visited block
that is not the entry block, not a handler entry and not `BBF_NO_CSE_IN` has `bbCseIn` equal to
the intersection of `bbCseOut` over its predecessors, while the entry block, handler entries and
`BBF_NO_CSE_IN` blocks have an empty `bbCseIn`. -/
theorem forward_dataflow_fixpoint (c : Compiler W) (blocks : List (BasicBlock W))
    (gen : Nat → EXPSET_TP) (pm : EXPSET_TP)
    (hnodup : (blocks.map fun b => b.bbNum).Nodup)
    (hgen : ∀ b, gen b ⊆ MakeFull (c.optCSECandidateCount * 2 + 1))
    (hDF : ∀ o g i, g ∪ i ⊆ o → c.DataFlowD o g i = g ∪ i) :
    (∃ fuel df1, ForwardAnalysis fuel
      { m_comp := { initDataFlowInOut c blocks with bbCseGen := gen }, m_preMergeOut := pm }
      blocks = some df1) ∧
    ∀ fuel df1, ForwardAnalysis fuel
      { m_comp := { initDataFlowInOut c blocks with bbCseGen := gen }, m_preMergeOut := pm }
      blocks = some df1 →
      ∀ b ∈ blocks,
        (b.bbNum ≠ c.fgFirstBB → b.isHandlerBeg = false → b.BBF_NO_CSE_IN = false →
          df1.m_comp.bbCseIn b.bbNum = predsMeet df1.m_comp b.bbPreds) ∧
        (b.bbNum = c.fgFirstBB ∨ b.isHandlerBeg = true ∨ b.BBF_NO_CSE_IN = true →
          df1.m_comp.bbCseIn b.bbNum = MakeEmpty) := by
  have hwf := initDataFlow_FlowWF c blocks gen hnodup hgen
  obtain ⟨_, h2, h3, h5⟩ := initInOut_spec c blocks hnodup
  have hDF0 : ∀ o g i, g ∪ i ⊆ o →
      ({ initDataFlowInOut c blocks with bbCseGen := gen } : Compiler W).DataFlowD o g i
        = g ∪ i := by
    intro o g i hs
    show (initDataFlowInOut c blocks).DataFlowD o g i = g ∪ i
    rw [h3]
    exact hDF o g i hs
  refine ⟨?_, ?_⟩
  · exact ⟨_, ForwardAnalysis_terminates blocks hnodup _
      { m_comp := { initDataFlowInOut c blocks with bbCseGen := gen }, m_preMergeOut := pm }
      (Nat.lt_succ_self _) hwf hDF0⟩
  · intro fuel df1 hrun b hb
    obtain ⟨hwf1, hst, hI, hres⟩ := ForwardAnalysis_spec blocks hnodup fuel _ df1 hwf hDF0 hrun
    refine ⟨?_, ?_⟩
    · intro hne hh hn
      refine Finset.Subset.antisymm ((hres b hb).1 hh) ?_
      refine hwf1.2.2.2 b hb ?_ hh hn
      rw [hst.2.2.2.2]
      show b.bbNum ≠ (initDataFlowInOut c blocks).fgFirstBB
      rw [h2]
      exact hne
    · intro hcase
      rcases hcase with he | hh | hn
      · have h0 := hI b.bbNum
        have : (initDataFlowInOut c blocks).bbCseIn b.bbNum = MakeEmpty := by
          rw [(h5 b hb).2, if_pos (Or.inl he)]
        rw [show ({ initDataFlowInOut c blocks with bbCseGen := gen } : Compiler W).bbCseIn
          b.bbNum = MakeEmpty from this] at h0
        exact Finset.subset_empty.mp h0
      · have h0 := hI b.bbNum
        have : (initDataFlowInOut c blocks).bbCseIn b.bbNum = MakeEmpty := by
          rw [(h5 b hb).2, if_pos (Or.inr hh)]
        rw [show ({ initDataFlowInOut c blocks with bbCseGen := gen } : Compiler W).bbCseIn
          b.bbNum = MakeEmpty from this] at h0
        exact Finset.subset_empty.mp h0
      · exact (hres b hb).2 hn

theorem exFlow_gen_bits (b : Nat) :
    (fun b => if b = 0 then ({0, 1} : EXPSET_TP) else ∅) b ⊆
      MakeFull (({ exCompiler with DataFlowD := clampedDataFlowD } : Compiler Nat).optCSECandidateCount
        * 2 + 1) := by
  by_cases h : b = 0
  · simp only [h, if_true]; decide
  · simp [h]

/-- Witness of C6 as amended, on the straight-line graph `0 → 1 → 2`: the analysis terminates
within three passes and `bbCseIn(1)` is the intersection over the predecessor `0`. -/
theorem forward_dataflow_fixpoint_witness :
    ∃ df1, ForwardAnalysis 3 (exFlowStart clampedDataFlowD exFlowLine) exFlowLine = some df1 ∧
      df1.m_comp.bbCseIn 1 = predsMeet df1.m_comp [0] ∧ df1.m_comp.bbCseIn 1 = {0, 1} ∧
      df1.m_comp.bbCseIn 0 = MakeEmpty := by
  refine ⟨_, rfl, ?_, by decide, ?_⟩
  · exact ((forward_dataflow_fixpoint { exCompiler with DataFlowD := clampedDataFlowD } exFlowLine
      (fun b => if b = 0 then {0, 1} else ∅) MakeEmpty (by decide) exFlow_gen_bits
      (fun _ _ _ h => Finset.inter_eq_right.mpr h)).2 3 _ (by rfl) (exFlowBlock 1 [0] true)
      (List.mem_cons_of_mem _ (List.mem_cons_self _ _))).1
      (by decide) rfl rfl
  · exact ((forward_dataflow_fixpoint { exCompiler with DataFlowD := clampedDataFlowD } exFlowLine
      (fun b => if b = 0 then {0, 1} else ∅) MakeEmpty (by decide) exFlow_gen_bits
      (fun _ _ _ h => Finset.inter_eq_right.mpr h)).2 3 _ (by rfl) (exFlowBlock 0 [] false)
      (List.mem_cons_self _ _)).2
      (Or.inl rfl)

/-- C6, as stated, fails at the entry block. On the loop `0 → 1 → 0` the terminated analysis
leaves `bbCseIn(0)` empty although the block is neither a handler entry nor `BBF_NO_CSE_IN` and
the `bbCseOut` of its only predecessor is `{0, 1}`; on the graph `0 → 1 → 2` the entry block has
no predecessor, its `bbCseIn` is empty and the empty intersection is all ones. -/
theorem entry_block_in_is_not_the_meet :
    exFlowInAndMeet clampedDataFlowD exFlowLoop 4 (exFlowBlock 0 [1] false)
      = some (∅, {0, 1}) ∧
    exFlowInAndMeet clampedDataFlowD exFlowLine 4 (exFlowBlock 0 [] false)
      = some (∅, {0, 1, 2}) ∧
    exFlowBlock 0 [1] false ∈ exFlowLoop ∧ (exFlowBlock 0 [1] false).isHandlerBeg = false ∧
    (exFlowBlock 0 [1] false).BBF_NO_CSE_IN = false := by
  refine ⟨by decide, by decide, List.mem_cons_self _ _, rfl, rfl⟩

/-! ## The candidate indexer -/

theorem findInBucket_some {α : Type} (p : α → Bool) : ∀ (l pre post : List α) (d : α),
    findInBucket p l = some (pre, d, post) →
    l = pre ++ d :: post ∧ p d = true ∧ ∀ x ∈ pre, p x = false := by
  intro l
  induction l with
  | nil => intro pre post d h; simp [findInBucket] at h
  | cons a as ih =>
    intro pre post d h
    simp only [findInBucket] at h
    by_cases hp : p a = true
    · simp only [hp, if_true, Option.some.injEq, Prod.mk.injEq] at h
      obtain ⟨rfl, rfl, rfl⟩ := h
      exact ⟨rfl, hp, by simp⟩
    · simp only [hp, Bool.false_eq_true, if_false] at h
      cases hr : findInBucket p as with
      | none => simp [hr] at h
      | some r =>
        obtain ⟨pre1, x, post1⟩ := r
        simp only [hr, Option.some.injEq, Prod.mk.injEq] at h
        obtain ⟨rfl, rfl, rfl⟩ := h
        obtain ⟨h1, h2, h3⟩ := ih pre1 post1 x hr
        refine ⟨by rw [h1]; rfl, h2, ?_⟩
        intro y hy
        rcases List.mem_cons.mp hy with rfl | hy1
        · simpa using hp
        · exact h3 y hy1

theorem findInBucket_none {α : Type} (p : α → Bool) : ∀ (l : List α),
    findInBucket p l = none → ∀ x ∈ l, p x = false := by
  intro l
  induction l with
  | nil => intro _ x hx; simp at hx
  | cons a as ih =>
    intro h x hx
    simp only [findInBucket] at h
    by_cases hp : p a = true
    · simp [hp] at h
    · simp only [hp, Bool.false_eq_true, if_false] at h
      cases hr : findInBucket p as with
      | none =>
        rcases List.mem_cons.mp hx with rfl | hx1
        · simpa using hp
        · exact ih hr x hx1
      | some r =>
        obtain ⟨pre1, y, post1⟩ := r
        simp [hr] at h

theorem flatten_set_perm {α : Type} : ∀ (table : List (List α)) (hval : Nat)
    (pre post : List α) (d : α), table.getD hval [] = pre ++ d :: post →
    ∃ R, List.Perm table.flatten (d :: R) ∧
      ∀ d1, List.Perm (table.set hval (pre ++ d1 :: post)).flatten (d1 :: R) := by
  intro table
  induction table with
  | nil =>
    intro hval pre post d h
    simp at h
  | cons b bs ih =>
    intro hval pre post d h
    cases hval with
    | zero =>
      simp only [List.getD_cons_zero] at h
      refine ⟨pre ++ post ++ bs.flatten, ?_, ?_⟩
      · rw [List.flatten_cons, h]
        simp only [List.append_assoc, List.cons_append]
        exact List.perm_middle
      · intro d1
        simp only [List.set_cons_zero, List.flatten_cons, List.append_assoc, List.cons_append]
        exact List.perm_middle
    | succ n =>
      simp only [List.getD_cons_succ] at h
      obtain ⟨R, h1, h2⟩ := ih n pre post d h
      refine ⟨b ++ R, ?_, ?_⟩
      · rw [List.flatten_cons]
        exact (List.Perm.append_left b h1).trans List.perm_middle
      · intro d1
        simp only [List.set_cons_succ, List.flatten_cons]
        exact (List.Perm.append_left b (h2 d1)).trans List.perm_middle

theorem flatten_pushBucket_perm {α : Type} : ∀ (table : List (List α)) (hval : Nat) (d : α),
    hval < table.length → List.Perm (pushBucket table hval d).flatten (d :: table.flatten) := by
  intro table
  induction table with
  | nil => intro hval d h; simp at h
  | cons b bs ih =>
    intro hval d h
    cases hval with
    | zero =>
      simp [pushBucket]
    | succ n =>
      have hn : n < bs.length := by simpa using h
      have := ih n d hn
      simp only [pushBucket, List.getD_cons_succ, List.set_cons_succ, List.flatten_cons] at this ⊢
      exact (List.Perm.append_left b this).trans List.perm_middle

theorem length_pushBucket {α : Type} (table : List (List α)) (hval : Nat) (d : α) :
    (pushBucket table hval d).length = table.length := by
  simp [pushBucket]

theorem foldl_pushBucket_perm {α : Type} (h : α → Nat) (n : Nat) (hn : ∀ d, h d < n) :
    ∀ (L : List α) (T : List (List α)), T.length = n →
      (L.foldl (fun tab d => pushBucket tab (h d) d) T).length = n ∧
      List.Perm (L.foldl (fun tab d => pushBucket tab (h d) d) T).flatten (L ++ T.flatten) := by
  intro L
  induction L with
  | nil => intro T hT; exact ⟨hT, List.Perm.refl _⟩
  | cons a as ih =>
    intro T hT
    simp only [List.foldl_cons]
    obtain ⟨h1, h2⟩ := ih (pushBucket T (h a) a) (by rw [length_pushBucket, hT])
    refine ⟨h1, h2.trans ?_⟩
    have h3 := flatten_pushBucket_perm T (h a) a (by rw [hT]; exact hn a)
    exact (List.Perm.append_left as h3).trans List.perm_middle

theorem optCSEKeyToHashIndex_lt (key size : Nat) (h : 0 < size) :
    optCSEKeyToHashIndex key size < size := by
  unfold optCSEKeyToHashIndex
  exact Nat.mod_lt _ h

theorem indexedList_perm {L L1 : List (CSEdsc W)} (h : List.Perm L L1) :
    List.Perm (indexedList L) (indexedList L1) :=
  (h.map _).filter _

theorem indexedList_cons (d : CSEdsc W) (R : List (CSEdsc W)) :
    indexedList (d :: R) =
      if d.csdIndex ≠ 0 then d.csdIndex :: indexedList R else indexedList R := by
  unfold indexedList
  by_cases h : d.csdIndex = 0 <;> simp [h, List.filter_cons]

theorem indexed_replace_same {L L1 R : List (CSEdsc W)} {d d1 : CSEdsc W}
    (hL : List.Perm L (d :: R)) (hL1 : List.Perm L1 (d1 :: R))
    (hidx : d1.csdIndex = d.csdIndex) : List.Perm (indexedList L1) (indexedList L) := by
  refine (indexedList_perm hL1).trans (List.Perm.trans ?_ (indexedList_perm hL).symm)
  rw [indexedList_cons, indexedList_cons, hidx]

theorem range'_succ_perm (N : Nat) :
    List.Perm ((N + 1) :: List.range' 1 N) (List.range' 1 (N + 1)) := by
  rw [List.range'_1_concat, Nat.add_comm 1 N]
  exact (List.perm_append_singleton _ _).symm

theorem indexed_replace_new {L L1 R : List (CSEdsc W)} {d d1 : CSEdsc W} {N : Nat}
    (hL : List.Perm L (d :: R)) (hL1 : List.Perm L1 (d1 :: R))
    (h0 : d.csdIndex = 0) (h1 : d1.csdIndex = N + 1)
    (hN : List.Perm (indexedList L) (List.range' 1 N)) :
    List.Perm (indexedList L1) (List.range' 1 (N + 1)) := by
  have hR : List.Perm (indexedList R) (List.range' 1 N) := by
    have := (indexedList_perm hL).symm.trans hN
    rw [indexedList_cons] at this
    simpa [h0] using this
  refine (indexedList_perm hL1).trans ?_
  rw [indexedList_cons]
  simp only [h1, ne_eq, Nat.add_one_ne_zero, not_false_eq_true, if_true]
  exact (List.Perm.cons _ hR).trans (range'_succ_perm N)

theorem resizeHash_spec (c : Compiler W) (hlen : c.optCSEhash.length = c.optCSEhashSize)
    (hpos : 0 < c.optCSEhashSize) :
    (resizeHash c).optCSEhash.length = (resizeHash c).optCSEhashSize ∧
    0 < (resizeHash c).optCSEhashSize ∧
    List.Perm (allDscs (resizeHash c)) (allDscs c) ∧
    (resizeHash c).optCSECandidateCount = c.optCSECandidateCount ∧
    (resizeHash c).optDoCSE = c.optDoCSE ∧
    (resizeHash c).treeCSEnum = c.treeCSEnum := by
  have hnew : 0 < c.optCSEhashSize * s_optCSEhashGrowthFactor := by
    unfold s_optCSEhashGrowthFactor; omega
  obtain ⟨h1, h2⟩ := foldl_pushBucket_perm
    (fun d : CSEdsc W => optCSEKeyToHashIndex d.csdHashKey
      (c.optCSEhashSize * s_optCSEhashGrowthFactor))
    (c.optCSEhashSize * s_optCSEhashGrowthFactor)
    (fun d => optCSEKeyToHashIndex_lt _ _ hnew)
    ((c.optCSEhash.take c.optCSEhashSize).flatten)
    (List.replicate (c.optCSEhashSize * s_optCSEhashGrowthFactor) [])
    (List.length_replicate _ _)
  refine ⟨h1, hnew, ?_, rfl, rfl, rfl⟩
  have htake : c.optCSEhash.take c.optCSEhashSize = c.optCSEhash := by
    rw [← hlen]; exact List.take_length _
  have hempty : (List.replicate (c.optCSEhashSize * s_optCSEhashGrowthFactor)
      ([] : List (CSEdsc W))).flatten = [] := by
    simp
  rw [hempty, List.append_nil] at h2
  have hall : allDscs c = (c.optCSEhash.take c.optCSEhashSize).flatten := by
    rw [htake]; rfl
  rw [hall]
  exact h2

theorem Index_not_found [Zero W] (c : Compiler W) (tree : GenTree) (stmt : Nat)
    (hnf : findInBucket (indexMatches (cseHashKey c tree).1 tree)
      (c.optCSEhash.getD (optCSEKeyToHashIndex (cseHashKey c tree).1 c.optCSEhashSize) [])
      = none) :
    ∃ c1, optValnumCSE_Index c tree stmt = some (c1, 0) ∧
      c1.treeCSEnum = c.treeCSEnum ∧ c1.optCSECandidateCount = c.optCSECandidateCount ∧
      c1.optDoCSE = c.optDoCSE ∧
      ((¬ c.optCSECandidateCount < MAX_CSE_CNT ∧ c1 = c) ∨
       (c.optCSECandidateCount < MAX_CSE_CNT ∧
        ∃ cR, (cR = c ∨ cR = resizeHash c) ∧
          c1.optCSEhash = pushBucket cR.optCSEhash
            (optCSEKeyToHashIndex (cseHashKey c tree).1 cR.optCSEhashSize)
            (newCSEdsc c (cseHashKey c tree).1 tree stmt) ∧
          c1.optCSEhashSize = cR.optCSEhashSize)) := by
  unfold optValnumCSE_Index
  simp only [hnf]
  by_cases hlt : c.optCSECandidateCount < MAX_CSE_CNT
  · rw [if_pos hlt]
    refine ⟨_, rfl, ?_, ?_, ?_, Or.inr ⟨hlt, ?_⟩⟩
    · split_ifs <;> rfl
    · split_ifs <;> rfl
    · split_ifs <;> rfl
    · by_cases hr : c.optCSEhashCount = c.optCSEhashMaxCountBeforeResize
      · exact ⟨resizeHash c, Or.inr rfl, by simp [hr], by simp [hr]⟩
      · exact ⟨c, Or.inl rfl, by simp [hr], by simp [hr]⟩
  · rw [if_neg hlt]
    exact ⟨c, rfl, rfl, rfl, rfl, Or.inl ⟨hlt, rfl⟩⟩

theorem Index_found [Zero W] (c c1 : Compiler W) (tree : GenTree) (stmt r : Nat)
    (pre post : List (CSEdsc W)) (d : CSEdsc W)
    (hf : findInBucket (indexMatches (cseHashKey c tree).1 tree)
      (c.optCSEhash.getD (optCSEKeyToHashIndex (cseHashKey c tree).1 c.optCSEhashSize) [])
      = some (pre, d, post))
    (h : optValnumCSE_Index c tree stmt = some (c1, r)) :
    ∃ d1, c1.optCSEhash = c.optCSEhash.set
        (optCSEKeyToHashIndex (cseHashKey c tree).1 c.optCSEhashSize) (pre ++ d1 :: post) ∧
      c1.optCSEhashSize = c.optCSEhashSize ∧ d1.csdHashKey = d.csdHashKey ∧
      ((d.tslNext = [] ∧ d1.tslNext = [] ∧ d1.csdIndex = d.csdIndex ∧ r = d.csdIndex ∧
          c1.optCSECandidateCount = c.optCSECandidateCount ∧ c1.optDoCSE = c.optDoCSE ∧
          d1.csdTreeList = { tslTree := tree, tslStmt := stmt, tslBlock := d.csdTreeList.tslBlock } ∧
          c1.treeCSEnum = Function.update
            (Function.update c.treeCSEnum d.csdTreeList.tslTree.gtTreeID 0)
            tree.gtTreeID (toSignedChar d.csdIndex)) ∨
       (d.csdIndex ≠ 0 ∧ d1.csdIndex = d.csdIndex ∧ r = d.csdIndex ∧
          d1.csdTreeList = d.csdTreeList ∧
          d1.tslNext = d.tslNext ++
            [{ tslTree := tree, tslStmt := stmt, tslBlock := c.compCurBB }] ∧
          c1.optCSECandidateCount = c.optCSECandidateCount ∧ c1.optDoCSE = true ∧
          c1.treeCSEnum = Function.update c.treeCSEnum tree.gtTreeID
            (toSignedChar d.csdIndex)) ∨
       (d.csdIndex = 0 ∧ c.optCSECandidateCount = MAX_CSE_CNT ∧ d1.csdIndex = 0 ∧ r = 0 ∧
          d1.csdTreeList = d.csdTreeList ∧
          d1.tslNext = d.tslNext ++
            [{ tslTree := tree, tslStmt := stmt, tslBlock := c.compCurBB }] ∧
          c1.optCSECandidateCount = c.optCSECandidateCount ∧ c1.optDoCSE = true ∧
          c1.treeCSEnum = c.treeCSEnum) ∨
       (d.csdIndex = 0 ∧ c.optCSECandidateCount ≠ MAX_CSE_CNT ∧
          d1.csdIndex = c.optCSECandidateCount + 1 ∧ r = c.optCSECandidateCount + 1 ∧
          d1.csdTreeList = d.csdTreeList ∧
          d1.tslNext = d.tslNext ++
            [{ tslTree := tree, tslStmt := stmt, tslBlock := c.compCurBB }] ∧
          c1.optCSECandidateCount = c.optCSECandidateCount + 1 ∧ c1.optDoCSE = true ∧
          c.treeCSEnum d.csdTreeList.tslTree.gtTreeID = 0 ∧
          c1.treeCSEnum = Function.update
            (Function.update c.treeCSEnum d.csdTreeList.tslTree.gtTreeID
              (toSignedChar (c.optCSECandidateCount + 1)))
            tree.gtTreeID (toSignedChar (c.optCSECandidateCount + 1)))) := by
  unfold optValnumCSE_Index at h
  simp only [hf] at h
  split_ifs at h with hrep hnil h0 hmax htag hsc h0 hmax htag hsc
  all_goals (try simp only [Option.some.injEq, Prod.mk.injEq] at h)
  all_goals (try obtain ⟨rfl, rfl⟩ := h)
  · refine ⟨_, rfl, rfl, rfl, Or.inl ?_⟩
    exact ⟨hrep.1, hrep.1, rfl, rfl, rfl, rfl, rfl, rfl⟩
  · refine ⟨_, rfl, rfl, rfl, Or.inr (Or.inr (Or.inl ?_))⟩
    exact ⟨h0, hmax, h0, rfl, rfl, by simp [hnil], rfl, rfl, rfl⟩
  · refine ⟨_, rfl, rfl, rfl, Or.inr (Or.inr (Or.inr ?_))⟩
    exact ⟨h0, hmax, rfl, rfl, rfl, by simp [ComputeNumLocals, hnil], rfl, rfl,
      by simpa using htag, rfl⟩
  · refine ⟨_, rfl, rfl, rfl, Or.inr (Or.inl ?_)⟩
    exact ⟨h0, rfl, rfl, rfl, by simp [hnil], rfl, rfl, rfl⟩
  · refine ⟨_, rfl, rfl, rfl, Or.inr (Or.inr (Or.inl ?_))⟩
    exact ⟨h0, hmax, h0, rfl, rfl, rfl, rfl, rfl, rfl⟩
  · refine ⟨_, rfl, rfl, rfl, Or.inr (Or.inr (Or.inr ?_))⟩
    exact ⟨h0, hmax, rfl, rfl, rfl, rfl, rfl, rfl, by simpa using htag, rfl⟩
  · refine ⟨_, rfl, rfl, rfl, Or.inr (Or.inl ?_)⟩
    exact ⟨h0, rfl, rfl, rfl, rfl, rfl, rfl, rfl⟩

theorem IndexInv_of_replace (c c1 : Compiler W) (R : List (CSEdsc W)) (d d1 : CSEdsc W)
    (hinv : IndexInv c) (hL : List.Perm (allDscs c) (d :: R))
    (hL1 : List.Perm (allDscs c1) (d1 :: R))
    (hlen : c1.optCSEhash.length = c.optCSEhash.length)
    (hsize : c1.optCSEhashSize = c.optCSEhashSize)
    (hcase : (d1.csdIndex = d.csdIndex ∧ (d1.csdIndex ≠ 0 → d1.tslNext ≠ []) ∧
        c1.optCSECandidateCount = c.optCSECandidateCount ∧
        (0 < c.optCSECandidateCount → c1.optDoCSE = true)) ∨
      (d.csdIndex = 0 ∧ d1.csdIndex = c.optCSECandidateCount + 1 ∧ d1.tslNext ≠ [] ∧
        c.optCSECandidateCount ≠ MAX_CSE_CNT ∧
        c1.optCSECandidateCount = c.optCSECandidateCount + 1 ∧ c1.optDoCSE = true)) :
    IndexInv c1 := by
  obtain ⟨i1, i2, i3, i4, i5, i6⟩ := hinv
  have hmem : ∀ x ∈ allDscs c1, x = d1 ∨ x ∈ allDscs c := by
    intro x hx
    rcases List.mem_cons.mp (hL1.mem_iff.mp hx) with h | h
    · exact Or.inl h
    · exact Or.inr (hL.mem_iff.mpr (List.mem_cons_of_mem _ h))
  rcases hcase with ⟨h1, h2, h3, h4⟩ | ⟨h1, h2, h3, h4, h5, h6⟩
  · refine ⟨by rw [h3]; exact i1, ?_, ?_, by rw [hlen, hsize]; exact i4, by rw [hsize]; exact i5,
      by rw [h3]; exact h4⟩
    · rw [h3]
      exact (indexed_replace_same hL hL1 h1).trans i2
    · intro x hx hne
      rcases hmem x hx with rfl | hx1
      · exact h2 hne
      · exact i3 x hx1 hne
  · refine ⟨by rw [h5]; omega, ?_, ?_, by rw [hlen, hsize]; exact i4, by rw [hsize]; exact i5,
      fun _ => h6⟩
    · rw [h5]
      exact indexed_replace_new hL hL1 h1 h2 i2
    · intro x hx hne
      rcases hmem x hx with rfl | hx1
      · exact h3
      · exact i3 x hx1 hne

theorem Index_IndexInv [Zero W] (c c1 : Compiler W) (tree : GenTree) (stmt r : Nat)
    (hinv : IndexInv c) (h : optValnumCSE_Index c tree stmt = some (c1, r)) : IndexInv c1 := by
  cases hf : findInBucket (indexMatches (cseHashKey c tree).1 tree)
      (c.optCSEhash.getD (optCSEKeyToHashIndex (cseHashKey c tree).1 c.optCSEhashSize) []) with
  | none =>
    obtain ⟨c2, h2, _, hcnt, hdo, hcase⟩ := Index_not_found c tree stmt hf
    rw [h2] at h
    obtain ⟨rfl, -⟩ := Prod.mk.inj (Option.some.inj h)
    rcases hcase with ⟨_, rfl⟩ | ⟨_, cR, hcR, hhash, hsz⟩
    · exact hinv
    · obtain ⟨i1, i2, i3, i4, i5, i6⟩ := hinv
      have hR : cR.optCSEhash.length = cR.optCSEhashSize ∧ 0 < cR.optCSEhashSize ∧
          List.Perm (allDscs cR) (allDscs c) := by
        rcases hcR with rfl | rfl
        · exact ⟨i4, i5, List.Perm.refl _⟩
        · obtain ⟨r1, r2, r3, _⟩ := resizeHash_spec c i4 i5
          exact ⟨r1, r2, r3⟩
      obtain ⟨r1, r2, r3⟩ := hR
      have hperm : List.Perm (allDscs c2)
          (newCSEdsc c (cseHashKey c tree).1 tree stmt :: allDscs c) := by
        unfold allDscs
        rw [hhash]
        refine (flatten_pushBucket_perm _ _ _ ?_).trans (List.Perm.cons _ r3)
        rw [r1]
        exact optCSEKeyToHashIndex_lt _ _ r2
      refine ⟨by rw [hcnt]; exact i1, ?_, ?_, ?_, by rw [hsz]; exact r2,
        by rw [hcnt, hdo]; exact i6⟩
      · rw [hcnt]
        refine (indexedList_perm hperm).trans ?_
        rw [indexedList_cons]
        simpa [newCSEdsc] using i2
      · intro x hx hne
        rcases List.mem_cons.mp (hperm.mem_iff.mp hx) with rfl | hx1
        · exact absurd rfl hne
        · exact i3 x hx1 hne
      · rw [hhash, length_pushBucket, r1, hsz]
  | some res =>
    obtain ⟨pre, d, post⟩ := res
    obtain ⟨d1, hhash, hsz, _, hcase⟩ := Index_found c c1 tree stmt r pre post d hf h
    obtain ⟨hget, _, _⟩ := findInBucket_some _ _ pre post d hf
    obtain ⟨R, hL, hL1⟩ := flatten_set_perm c.optCSEhash _ pre post d hget
    have hL1 : List.Perm (allDscs c1) (d1 :: R) := by
      unfold allDscs
      rw [hhash]
      exact hL1 d1
    have hdmem : d ∈ allDscs c := hL.mem_iff.mpr (List.mem_cons_self _ _)
    refine IndexInv_of_replace c c1 R d d1 hinv hL hL1 (by rw [hhash, List.length_set]) hsz ?_
    rcases hcase with ⟨a1, a2, a3, _, a5, a6, _⟩ | ⟨b1, b2, _, _, b5, b6, b7, _⟩ |
      ⟨e1, _, e3, _, _, e6, e7, e8, _⟩ | ⟨g1, g2, g3, _, _, g6, g7, g8, _⟩
    · refine Or.inl ⟨a3, ?_, a5, ?_⟩
      · intro hne
        rw [a3] at hne
        exact absurd a1 (hinv.2.2.1 d hdmem hne)
      · intro hpos
        rw [a6]
        exact hinv.2.2.2.2.2 hpos
    · exact Or.inl ⟨b2, fun _ => by rw [b5]; simp, b6, fun _ => b7⟩
    · exact Or.inl ⟨by rw [e3, e1], fun _ => by rw [e6]; simp, e7, fun _ => e8⟩
    · exact Or.inr ⟨g1, g3, by rw [g6]; simp, g2, g7, g8⟩

theorem Init_IndexInv (EXPSET_SZ : Nat) (hpos : 0 < EXPSET_SZ) (c : Compiler W) :
    IndexInv (optValnumCSE_Init EXPSET_SZ c) := by
  unfold IndexInv optValnumCSE_Init allDscs indexedList s_optCSEhashSizeInitial
  simp only [List.length_replicate]
  refine ⟨Nat.zero_le _, ?_, ?_, trivial, by omega, fun h => absurd h (lt_irrefl _)⟩
  · simp
  · intro d hd
    simp at hd

theorem IndexInv_compCurBB (c : Compiler W) (n : Nat) (h : IndexInv c) :
    IndexInv { c with compCurBB := n } := h

theorem indexCalls_IndexInv [Zero W] : ∀ (calls : List (Nat × Nat × GenTree))
    (c c1 : Compiler W), IndexInv c → indexCalls c calls = some c1 → IndexInv c1 := by
  intro calls
  induction calls with
  | nil =>
    intro c c1 hinv h
    simp only [indexCalls, Option.some.injEq] at h
    exact h ▸ hinv
  | cons a rest ih =>
    intro c c1 hinv h
    obtain ⟨block, stmt, tree⟩ := a
    simp only [indexCalls] at h
    cases hi : optValnumCSE_Index { c with compCurBB := block } tree stmt with
    | none => simp [hi] at h
    | some res =>
      obtain ⟨c2, r⟩ := res
      simp only [hi] at h
      exact ih c2 c1 (Index_IndexInv _ c2 tree stmt r (IndexInv_compCurBB c block hinv) hi) h

theorem locateTrees_IndexInv [Zero W] (ConsiderTree : GenTree → Bool → Bool) (stmt : Statement) :
    ∀ (trees : List GenTree) (c c1 : Compiler W), IndexInv c →
      locateTrees ConsiderTree stmt c trees = some c1 → IndexInv c1 := by
  intro trees
  induction trees with
  | nil =>
    intro c c1 hinv h
    simp only [locateTrees, Option.some.injEq] at h
    exact h ▸ hinv
  | cons t rest ih =>
    intro c c1 hinv h
    simp only [locateTrees] at h
    split_ifs at h with hc
    · exact ih c c1 hinv h
    · cases hi : optValnumCSE_Index c t stmt.stmtID with
      | none => simp [hi] at h
      | some res =>
        obtain ⟨c2, r⟩ := res
        simp only [hi] at h
        split_ifs at h with hchk
        exact ih c2 c1 (Index_IndexInv c c2 t _ r hinv hi) h

theorem locateStmts_IndexInv [Zero W] (ConsiderTree : GenTree → Bool → Bool) :
    ∀ (stmts : List Statement) (c c1 : Compiler W), IndexInv c →
      locateStmts ConsiderTree c stmts = some c1 → IndexInv c1 := by
  intro stmts
  induction stmts with
  | nil =>
    intro c c1 hinv h
    simp only [locateStmts, Option.some.injEq] at h
    exact h ▸ hinv
  | cons s rest ih =>
    intro c c1 hinv h
    simp only [locateStmts] at h
    cases hi : locateTrees ConsiderTree s c s.treeList with
    | none => simp [hi] at h
    | some c2 =>
      simp only [hi] at h
      exact ih c2 c1 (locateTrees_IndexInv ConsiderTree s _ c c2 hinv hi) h

theorem locateBlocks_IndexInv [Zero W] (ConsiderTree : GenTree → Bool → Bool) :
    ∀ (blocks : List (BasicBlock W)) (c c1 : Compiler W), IndexInv c →
      locateBlocks ConsiderTree c blocks = some c1 → IndexInv c1 := by
  intro blocks
  induction blocks with
  | nil =>
    intro c c1 hinv h
    simp only [locateBlocks, Option.some.injEq] at h
    exact h ▸ hinv
  | cons b rest ih =>
    intro c c1 hinv h
    simp only [locateBlocks] at h
    cases hi : locateStmts ConsiderTree { c with compCurBB := b.bbNum } b.stmts with
    | none => simp [hi] at h
    | some c2 =>
      simp only [hi] at h
      exact ih c2 c1
        (locateStmts_IndexInv ConsiderTree _ _ c2 (IndexInv_compCurBB c b.bbNum hinv) hi) h

theorem optCSEstopFill_spec (N : Nat) (A : List (CSEdsc W)) :
    ∀ (L : List (CSEdsc W)) (tab : List (Option (CSEdsc W))), tab.length = N →
      (∀ d ∈ L, d ∈ A) → (∀ d ∈ L, d.csdIndex ≠ 0 → d.csdIndex ≤ N) →
      (∀ (i : Nat) (d : CSEdsc W), tab[i]? = some (some d) → d.csdIndex = i + 1 ∧ d ∈ A) →
      ∃ tab1, optCSEstopFill N tab L = some tab1 ∧ tab1.length = N ∧
        (∀ (i : Nat) (d : CSEdsc W), tab1[i]? = some (some d) → d.csdIndex = i + 1 ∧ d ∈ A) ∧
        (∀ i : Nat, tab[i]?.join ≠ none → tab1[i]?.join ≠ none) ∧
        (∀ d ∈ L, d.csdIndex ≠ 0 → tab1[d.csdIndex - 1]?.join ≠ none) := by
  intro L
  induction L with
  | nil =>
    intro tab hlen _ _ hgood
    exact ⟨tab, rfl, hlen, hgood, fun _ h => h, by simp⟩
  | cons a rest ih =>
    intro tab hlen hA hle hgood
    have hrestA : ∀ d ∈ rest, d ∈ A := fun d hd => hA d (List.mem_cons_of_mem _ hd)
    have hrestle : ∀ d ∈ rest, d.csdIndex ≠ 0 → d.csdIndex ≤ N :=
      fun d hd => hle d (List.mem_cons_of_mem _ hd)
    simp only [optCSEstopFill, List.get?_eq_getElem?]
    by_cases h0 : a.csdIndex = 0
    · simp only [h0, ne_eq, not_true_eq_false, if_false]
      obtain ⟨tab1, h1, h2, h3, h4, h5⟩ := ih tab hlen hrestA hrestle hgood
      refine ⟨tab1, h1, h2, h3, h4, ?_⟩
      intro d hd hne
      rcases List.mem_cons.mp hd with rfl | hd1
      · exact absurd h0 hne
      · exact h5 d hd1 hne
    · have hle1 : a.csdIndex ≤ N := hle a (List.mem_cons_self _ _) h0
      have hlt : a.csdIndex - 1 < tab.length := by omega
      simp only [h0, ne_eq, not_false_eq_true, if_true, hle1]
      by_cases hnone : (tab[a.csdIndex - 1]?.join).isNone = true
      · simp only [hnone, if_true]
        have hgood1 : ∀ (i : Nat) (d : CSEdsc W), (tab.set (a.csdIndex - 1) (some a))[i]? = some (some d) →
            d.csdIndex = i + 1 ∧ d ∈ A := by
          intro i d hid
          by_cases he : a.csdIndex - 1 = i
          · rw [List.getElem?_set, if_pos he, if_pos hlt] at hid
            have : a = d := by simpa using hid
            subst this
            exact ⟨by omega, hA _ (List.mem_cons_self _ _)⟩
          · rw [List.getElem?_set, if_neg he] at hid
            exact hgood i d hid
        obtain ⟨tab1, h1, h2, h3, h4, h5⟩ := ih (tab.set (a.csdIndex - 1) (some a))
          (by rw [List.length_set]; exact hlen) hrestA hrestle hgood1
        have hset : (tab.set (a.csdIndex - 1) (some a))[a.csdIndex - 1]?.join ≠ none := by
          rw [List.getElem?_set]
          simp [hlt]
        refine ⟨tab1, h1, h2, h3, ?_, ?_⟩
        · intro i hi
          apply h4
          by_cases he : a.csdIndex - 1 = i
          · rw [List.getElem?_set, if_pos he, if_pos hlt]
            simp
          · rw [List.getElem?_set, if_neg he]
            exact hi
        · intro d hd hne
          rcases List.mem_cons.mp hd with rfl | hd1
          · exact h4 _ hset
          · exact h5 d hd1 hne
      · simp only [hnone, Bool.false_eq_true, if_false]
        obtain ⟨tab1, h1, h2, h3, h4, h5⟩ := ih tab hlen hrestA hrestle hgood
        refine ⟨tab1, h1, h2, h3, h4, ?_⟩
        intro d hd hne
        rcases List.mem_cons.mp hd with rfl | hd1
        · apply h4
          intro hn
          rw [hn] at hnone
          simp at hnone
        · exact h5 d hd1 hne

theorem indexed_le_count (c : Compiler W) (hinv : IndexInv c) (d : CSEdsc W)
    (hd : d ∈ allDscs c) (hne : d.csdIndex ≠ 0) :
    1 ≤ d.csdIndex ∧ d.csdIndex ≤ c.optCSECandidateCount := by
  have hmem : d.csdIndex ∈ indexedList (allDscs c) := by
    simp only [indexedList, List.mem_filter, List.mem_map, decide_eq_true_eq]
    exact ⟨⟨d, hd, rfl⟩, hne⟩
  have h2 := (hinv.2.1.mem_iff).mp hmem
  rw [List.mem_range'_1] at h2
  omega

theorem exists_indexed (c : Compiler W) (hinv : IndexInv c) (k : Nat) (h1 : 1 ≤ k)
    (h2 : k ≤ c.optCSECandidateCount) : ∃ d ∈ allDscs c, d.csdIndex = k := by
  have hmem : k ∈ List.range' 1 c.optCSECandidateCount := by
    rw [List.mem_range'_1]; omega
  have h3 := (hinv.2.1.mem_iff).mpr hmem
  simp only [indexedList, List.mem_filter, List.mem_map, decide_eq_true_eq] at h3
  obtain ⟨⟨d, hd, hk⟩, _⟩ := h3
  exact ⟨d, hd, hk⟩

theorem optCSEstop_spec (c : Compiler W) (hinv : IndexInv c) :
    ∃ c1, optCSEstop c = some c1 ∧ allDscs c1 = allDscs c ∧
      c1.optCSECandidateCount = c.optCSECandidateCount ∧
      ∀ k, 1 ≤ k → k ≤ c.optCSECandidateCount →
        ∃ d ∈ allDscs c, c1.optCSEtab[k - 1]? = some (some d) ∧ d.csdIndex = k := by
  unfold optCSEstop
  by_cases h0 : c.optCSECandidateCount = 0
  · rw [if_pos h0]
    exact ⟨c, rfl, rfl, rfl, fun k h1 h2 => by omega⟩
  · rw [if_neg h0]
    have htake : (c.optCSEhash.take c.optCSEhashSize).flatten = allDscs c := by
      rw [← hinv.2.2.2.1, List.take_length]; rfl
    rw [htake]
    obtain ⟨tab1, h1, h2, h3, _, h5⟩ := optCSEstopFill_spec c.optCSECandidateCount (allDscs c)
      (allDscs c) (List.replicate c.optCSECandidateCount none) (List.length_replicate _ _)
      (fun d hd => hd) (fun d hd hne => (indexed_le_count c hinv d hd hne).2)
      (by
        intro i d hid
        rw [List.getElem?_replicate] at hid
        split_ifs at hid
        simp at hid)
    rw [h1]
    refine ⟨_, rfl, rfl, rfl, ?_⟩
    intro k hk1 hk2
    obtain ⟨d, hd, hdk⟩ := exists_indexed c hinv k hk1 hk2
    have hne : d.csdIndex ≠ 0 := by omega
    have h6 := h5 d hd hne
    rw [hdk] at h6
    show ∃ d ∈ allDscs c, tab1[k - 1]? = some (some d) ∧ d.csdIndex = k
    cases hget : tab1[k - 1]? with
    | none => rw [hget] at h6; simp at h6
    | some o =>
      cases o with
      | none => rw [hget] at h6; simp at h6
      | some e =>
        obtain ⟨he1, he2⟩ := h3 (k - 1) e hget
        exact ⟨e, he2, rfl, by omega⟩

theorem Locate_spec [Zero W] (EXPSET_SZ : Nat) (hsz : 0 < EXPSET_SZ)
    (ConsiderTree : GenTree → Bool → Bool) (c0 c1 : Compiler W) (blocks : List (BasicBlock W))
    (found : Bool)
    (hrun : optValnumCSE_Locate ConsiderTree (optValnumCSE_Init EXPSET_SZ c0) blocks =
      some (c1, found)) :
    List.Perm (indexedList (allDscs c1)) (List.range' 1 c1.optCSECandidateCount) ∧
      ∀ k, 1 ≤ k → k ≤ c1.optCSECandidateCount →
        ∃ d ∈ allDscs c1, c1.optCSEtab[k - 1]? = some (some d) ∧ d.csdIndex = k := by
  unfold optValnumCSE_Locate at hrun
  cases hloc : locateBlocks ConsiderTree (optValnumCSE_Init EXPSET_SZ c0) blocks with
  | none => simp [hloc] at hrun
  | some c2 =>
    have hinv : IndexInv c2 :=
      locateBlocks_IndexInv ConsiderTree blocks _ c2 (Init_IndexInv EXPSET_SZ hsz c0) hloc
    simp only [hloc] at hrun
    by_cases hdo : c2.optDoCSE = true
    · obtain ⟨c3, hs1, hs2, hs3, hs4⟩ := optCSEstop_spec c2 hinv
      simp only [hdo, Bool.not_true, Bool.false_eq_true, if_false, hs1, Option.some.injEq,
        Prod.mk.injEq] at hrun
      obtain ⟨hc, _⟩ := hrun
      subst hc
      rw [hs2, hs3]
      exact ⟨hinv.2.1, hs4⟩
    · have hdo1 : c2.optDoCSE = false := by simpa using hdo
      simp only [hdo1, Bool.not_false, if_true, Option.some.injEq, Prod.mk.injEq] at hrun
      obtain ⟨hc, _⟩ := hrun
      subst hc
      have hz : c2.optCSECandidateCount = 0 := by
        by_contra hne
        have := hinv.2.2.2.2.2 (Nat.pos_of_ne_zero hne)
        rw [this] at hdo1
        exact Bool.noConfusion hdo1
      exact ⟨hinv.2.1, fun k h1 h2 => by omega⟩

/-! ### Tags during indexing -/

theorem toSignedChar_small (n : Nat) (h : n ≤ 127) : toSignedChar n = (n : Int) := by
  unfold toSignedChar
  have : (n + 128) % 256 = n + 128 := Nat.mod_eq_of_lt (by omega)
  rw [this]
  push_cast
  ring

theorem TagInv_weaken (c : Compiler W) (tid : Nat) (todo : List Nat)
    (h : TagInv c (tid :: todo)) : TagInv c todo :=
  ⟨fun id hid => h.1 id (List.mem_cons_of_mem _ hid),
   fun d hd hmem => h.2.1 d hd (List.mem_cons_of_mem _ hmem), h.2.2.1, h.2.2.2⟩

theorem TagInv_push (c c1 : Compiler W) (dnew : CSEdsc W) (tid : Nat) (todo : List Nat)
    (hL1 : List.Perm (allDscs c1) (dnew :: allDscs c)) (htags : c1.treeCSEnum = c.treeCSEnum)
    (hfirst : dnew.csdTreeList.tslTree.gtTreeID = tid)
    (htag : TagInv c (tid :: todo)) (hnd : tid ∉ todo) : TagInv c1 todo := by
  obtain ⟨t1, t2, t3, t4⟩ := htag
  have hmem : ∀ x ∈ allDscs c1, x = dnew ∨ x ∈ allDscs c := fun x hx =>
    List.mem_cons.mp (hL1.mem_iff.mp hx)
  refine ⟨?_, ?_, ?_, ?_⟩
  · intro id hid
    rw [htags]
    exact t1 id (List.mem_cons_of_mem _ hid)
  · intro x hx
    rcases hmem x hx with rfl | hx1
    · rw [hfirst]; exact hnd
    · exact fun hm => t2 x hx1 (List.mem_cons_of_mem _ hm)
  · intro x hx h0
    rw [htags]
    rcases hmem x hx with rfl | hx1
    · rw [hfirst]; exact t1 tid (List.mem_cons_self _ _)
    · exact t3 x hx1 h0
  · have hp := hL1.map (fun d : CSEdsc W => d.csdTreeList.tslTree.gtTreeID)
    rw [hp.nodup_iff, List.map_cons, List.nodup_cons]
    refine ⟨?_, t4⟩
    intro hm
    obtain ⟨x, hx, hxe⟩ := List.mem_map.mp hm
    apply t2 x hx
    rw [hxe, hfirst]
    exact List.mem_cons_self _ _

theorem TagInv_step (c c1 : Compiler W) (R : List (CSEdsc W)) (d d1 : CSEdsc W) (tid : Nat)
    (todo : List Nat) (hL : List.Perm (allDscs c) (d :: R))
    (hL1 : List.Perm (allDscs c1) (d1 :: R))
    (htag : TagInv c (tid :: todo)) (hnd : tid ∉ todo)
    (hfirst : d1.csdTreeList.tslTree.gtTreeID = d.csdTreeList.tslTree.gtTreeID ∨
      d1.csdTreeList.tslTree.gtTreeID = tid)
    (htags : ∀ id, id ≠ tid → (c1.treeCSEnum id = c.treeCSEnum id ∨ c1.treeCSEnum id = 0 ∨
      id = d.csdTreeList.tslTree.gtTreeID))
    (hd1 : d1.csdIndex = 0 → c1.treeCSEnum d1.csdTreeList.tslTree.gtTreeID = 0) :
    TagInv c1 todo := by
  obtain ⟨t1, t2, t3, t4⟩ := htag
  have hdmem : d ∈ allDscs c := hL.mem_iff.mpr (List.mem_cons_self _ _)
  have hRmem : ∀ x ∈ R, x ∈ allDscs c := fun x hx =>
    hL.mem_iff.mpr (List.mem_cons_of_mem _ hx)
  have hmem : ∀ x ∈ allDscs c1, x = d1 ∨ x ∈ R := fun x hx =>
    List.mem_cons.mp (hL1.mem_iff.mp hx)
  have hnodup : (d.csdTreeList.tslTree.gtTreeID ::
      R.map fun d : CSEdsc W => d.csdTreeList.tslTree.gtTreeID).Nodup := by
    have hp := hL.map (fun d : CSEdsc W => d.csdTreeList.tslTree.gtTreeID)
    rw [hp.nodup_iff, List.map_cons] at t4
    exact t4
  have hRne : ∀ x ∈ R, x.csdTreeList.tslTree.gtTreeID ≠ d.csdTreeList.tslTree.gtTreeID := by
    intro x hx he
    apply (List.nodup_cons.mp hnodup).1
    rw [← he]
    exact List.mem_map.mpr ⟨x, hx, rfl⟩
  have hRtid : ∀ x ∈ R, x.csdTreeList.tslTree.gtTreeID ≠ tid := by
    intro x hx he
    apply t2 x (hRmem x hx)
    rw [he]
    exact List.mem_cons_self _ _
  refine ⟨?_, ?_, ?_, ?_⟩
  · intro id hid
    have hne : id ≠ tid := fun he => hnd (he ▸ hid)
    rcases htags id hne with h | h | h
    · rw [h]; exact t1 id (List.mem_cons_of_mem _ hid)
    · exact h
    · exact absurd (List.mem_cons_of_mem tid hid) (h ▸ t2 d hdmem)
  · intro x hx
    rcases hmem x hx with rfl | hx1
    · rcases hfirst with h | h
      · rw [h]; exact fun hm => t2 d hdmem (List.mem_cons_of_mem _ hm)
      · rw [h]; exact hnd
    · exact fun hm => t2 x (hRmem x hx1) (List.mem_cons_of_mem _ hm)
  · intro x hx h0
    rcases hmem x hx with rfl | hx1
    · exact hd1 h0
    · rcases htags _ (hRtid x hx1) with h | h | h
      · rw [h]; exact t3 x (hRmem x hx1) h0
      · exact h
      · exact absurd h (hRne x hx1)
  · have hp := hL1.map (fun d : CSEdsc W => d.csdTreeList.tslTree.gtTreeID)
    rw [hp.nodup_iff, List.map_cons, List.nodup_cons]
    refine ⟨?_, (List.nodup_cons.mp hnodup).2⟩
    intro hm
    obtain ⟨x, hx, hxe⟩ := List.mem_map.mp hm
    rcases hfirst with h | h
    · exact hRne x hx (hxe.trans h)
    · exact hRtid x hx (hxe.trans h)

theorem Index_found_total [Zero W] (c : Compiler W) (tree : GenTree) (stmt : Nat)
    (pre post : List (CSEdsc W)) (d : CSEdsc W)
    (hf : findInBucket (indexMatches (cseHashKey c tree).1 tree)
      (c.optCSEhash.getD (optCSEKeyToHashIndex (cseHashKey c tree).1 c.optCSEhashSize) [])
      = some (pre, d, post))
    (hcount : c.optCSECandidateCount ≤ MAX_CSE_CNT)
    (hfirst : d.csdIndex = 0 → c.treeCSEnum d.csdTreeList.tslTree.gtTreeID = 0) :
    ∃ c1 r, optValnumCSE_Index c tree stmt = some (c1, r) := by
  have hsc : c.optCSECandidateCount ≠ MAX_CSE_CNT →
      toSignedChar (c.optCSECandidateCount + 1) = ((c.optCSECandidateCount + 1 : Nat) : Int) := by
    intro hne
    apply toSignedChar_small
    unfold MAX_CSE_CNT at hcount hne
    omega
  unfold optValnumCSE_Index
  simp only [hf]
  split_ifs with hrep hnil h0 hmax htag hsc1 h0 hmax htag hsc1
  all_goals (first
    | exact ⟨_, _, rfl⟩
    | (exfalso; first
        | exact htag (hfirst (by simpa using h0))
        | exact hsc1 (hsc hmax)))

theorem Index_step [Zero W] (c : Compiler W) (tree : GenTree) (stmt : Nat) (todo : List Nat)
    (hinv : IndexInv c) (htag : TagInv c (tree.gtTreeID :: todo))
    (hnd : tree.gtTreeID ∉ todo) :
    ∃ c1 r, optValnumCSE_Index c tree stmt = some (c1, r) ∧ TagInv c1 todo ∧
      (r ≠ 0 → c1.treeCSEnum tree.gtTreeID = (r : Int)) := by
  cases hf : findInBucket (indexMatches (cseHashKey c tree).1 tree)
      (c.optCSEhash.getD (optCSEKeyToHashIndex (cseHashKey c tree).1 c.optCSEhashSize) []) with
  | none =>
    obtain ⟨c1, h1, htags, _, _, hcase⟩ := Index_not_found c tree stmt hf
    refine ⟨c1, 0, h1, ?_, fun h => absurd rfl h⟩
    rcases hcase with ⟨_, hc⟩ | ⟨_, cR, hcR, hhash, hsz⟩
    · rw [hc]
      exact TagInv_weaken c _ todo htag
    · obtain ⟨_, _, _, i4, i5, _⟩ := hinv
      have hR : cR.optCSEhash.length = cR.optCSEhashSize ∧ 0 < cR.optCSEhashSize ∧
          List.Perm (allDscs cR) (allDscs c) := by
        rcases hcR with rfl | rfl
        · exact ⟨i4, i5, List.Perm.refl _⟩
        · obtain ⟨r1, r2, r3, _⟩ := resizeHash_spec c i4 i5
          exact ⟨r1, r2, r3⟩
      obtain ⟨r1, r2, r3⟩ := hR
      have hperm : List.Perm (allDscs c1)
          (newCSEdsc c (cseHashKey c tree).1 tree stmt :: allDscs c) := by
        unfold allDscs
        rw [hhash]
        refine (flatten_pushBucket_perm _ _ _ ?_).trans (List.Perm.cons _ r3)
        rw [r1]
        exact optCSEKeyToHashIndex_lt _ _ r2
      exact TagInv_push c c1 _ tree.gtTreeID todo hperm htags rfl htag hnd
  | some res =>
    obtain ⟨pre, d, post⟩ := res
    obtain ⟨hget, _, _⟩ := findInBucket_some _ _ pre post d hf
    obtain ⟨R, hL, hL1⟩ := flatten_set_perm c.optCSEhash _ pre post d hget
    have hdmem : d ∈ allDscs c := hL.mem_iff.mpr (List.mem_cons_self _ _)
    obtain ⟨c1, r, h⟩ := Index_found_total c tree stmt pre post d hf hinv.1
      (htag.2.2.1 d hdmem)
    obtain ⟨d1, hhash, hsz, _, hcase⟩ := Index_found c c1 tree stmt r pre post d hf h
    have hL1 : List.Perm (allDscs c1) (d1 :: R) := by
      unfold allDscs
      rw [hhash]
      exact hL1 d1
    have hle := indexed_le_count c hinv d hdmem
    have hmax : c.optCSECandidateCount ≤ 64 := hinv.1
    refine ⟨c1, r, h, ?_⟩
    rcases hcase with ⟨a1, _, a3, a4, _, _, a7, a8⟩ | ⟨b1, b2, b3, b4, _, _, _, b8⟩ |
      ⟨e1, _, e3, e4, e5, _, _, _, e9⟩ | ⟨g1, g2, g3, g4, g5, _, _, _, g9, g10⟩
    · have hd0 : d.csdIndex = 0 := by
        by_contra hne
        exact hinv.2.2.1 d hdmem hne a1
      have hz : toSignedChar d.csdIndex = 0 := by rw [hd0]; rfl
      refine ⟨TagInv_step c c1 R d d1 tree.gtTreeID todo hL hL1 htag hnd
        (Or.inr (by rw [a7])) ?_ ?_, ?_⟩
      · intro id hne
        rw [a8, Function.update_noteq hne]
        by_cases hp : id = d.csdTreeList.tslTree.gtTreeID
        · exact Or.inr (Or.inr hp)
        · exact Or.inl (Function.update_noteq hp _ _)
      · intro _
        rw [a8, a7]
        show Function.update _ tree.gtTreeID _ tree.gtTreeID = 0
        rw [Function.update_same, hz]
      · intro hr
        rw [a4] at hr
        exact absurd hd0 hr
    · refine ⟨TagInv_step c c1 R d d1 tree.gtTreeID todo hL hL1 htag hnd
        (Or.inl (by rw [b4])) ?_ ?_, ?_⟩
      · intro id hne
        rw [b8, Function.update_noteq hne]
        exact Or.inl rfl
      · intro h0
        rw [b2] at h0
        exact absurd h0 b1
      · intro _
        rw [b8, Function.update_same, b3]
        exact toSignedChar_small _ (by have := (hle b1).2; omega)
    · refine ⟨TagInv_step c c1 R d d1 tree.gtTreeID todo hL hL1 htag hnd
        (Or.inl (by rw [e5])) ?_ ?_, fun hr => absurd e4 hr⟩
      · intro id _
        rw [e9]
        exact Or.inl rfl
      · intro _
        rw [e9, e5]
        exact htag.2.2.1 d hdmem e1
    · have hlt : c.optCSECandidateCount + 1 ≤ 127 := by
        unfold MAX_CSE_CNT at g2
        omega
      refine ⟨TagInv_step c c1 R d d1 tree.gtTreeID todo hL hL1 htag hnd
        (Or.inl (by rw [g5])) ?_ ?_, ?_⟩
      · intro id hne
        rw [g10, Function.update_noteq hne]
        by_cases hp : id = d.csdTreeList.tslTree.gtTreeID
        · exact Or.inr (Or.inr hp)
        · exact Or.inl (Function.update_noteq hp _ _)
      · intro h0
        rw [g3] at h0
        omega
      · intro _
        rw [g10, Function.update_same, g4]
        exact toSignedChar_small _ hlt

theorem locateTrees_total [Zero W] (ConsiderTree : GenTree → Bool → Bool) (stmt : Statement) :
    ∀ (trees : List GenTree) (c : Compiler W) (todo : List Nat), IndexInv c →
      TagInv c (((trees.filter fun t => ConsiderTree t stmt.rootIsReturn).map
        fun t => t.gtTreeID) ++ todo) →
      (((trees.filter fun t => ConsiderTree t stmt.rootIsReturn).map
        fun t => t.gtTreeID) ++ todo).Nodup →
      ∃ c1, locateTrees ConsiderTree stmt c trees = some c1 ∧ IndexInv c1 ∧ TagInv c1 todo := by
  intro trees
  induction trees with
  | nil =>
    intro c todo hinv htag _
    exact ⟨c, rfl, hinv, htag⟩
  | cons t rest ih =>
    intro c todo hinv htag hnd
    simp only [locateTrees]
    by_cases hc : ConsiderTree t stmt.rootIsReturn = true
    · simp only [List.filter_cons, hc, if_true, List.map_cons, List.cons_append] at htag hnd
      obtain ⟨hnotin, hnd1⟩ := List.nodup_cons.mp hnd
      obtain ⟨c1, r, h1, h2, h3⟩ := Index_step c t stmt.stmtID _ hinv htag hnotin
      have hinv1 := Index_IndexInv c c1 t _ r hinv h1
      obtain ⟨c2, k1, k2, k3⟩ := ih c1 todo hinv1 h2 hnd1
      refine ⟨c2, ?_, k2, k3⟩
      simp only [hc, Bool.not_true, Bool.false_eq_true, if_false, h1]
      rw [if_neg (fun hh => hh.2 (h3 hh.1))]
      exact k1
    · have hc1 : ConsiderTree t stmt.rootIsReturn = false := by simpa using hc
      simp only [List.filter_cons, hc1, Bool.false_eq_true, if_false] at htag hnd
      obtain ⟨c2, k1, k2, k3⟩ := ih c todo hinv htag hnd
      refine ⟨c2, ?_, k2, k3⟩
      simp only [hc1, Bool.not_false, if_true]
      exact k1

theorem locateStmts_total [Zero W] (ConsiderTree : GenTree → Bool → Bool) :
    ∀ (stmts : List Statement) (c : Compiler W) (todo : List Nat), IndexInv c →
      TagInv c ((stmts.map (consideredTrees ConsiderTree)).flatten ++ todo) →
      ((stmts.map (consideredTrees ConsiderTree)).flatten ++ todo).Nodup →
      ∃ c1, locateStmts ConsiderTree c stmts = some c1 ∧ IndexInv c1 ∧ TagInv c1 todo := by
  intro stmts
  induction stmts with
  | nil =>
    intro c todo hinv htag _
    exact ⟨c, rfl, hinv, htag⟩
  | cons s rest ih =>
    intro c todo hinv htag hnd
    simp only [List.map_cons, List.flatten_cons, List.append_assoc] at htag hnd
    obtain ⟨c1, h1, h2, h3⟩ := locateTrees_total ConsiderTree s s.treeList c _ hinv htag hnd
    obtain ⟨c2, k1, k2, k3⟩ := ih c1 todo h2 h3 (List.Nodup.of_append_right hnd)
    refine ⟨c2, ?_, k2, k3⟩
    simp only [locateStmts, h1]
    exact k1

theorem locateBlocks_total [Zero W] (ConsiderTree : GenTree → Bool → Bool) :
    ∀ (blocks : List (BasicBlock W)) (c : Compiler W) (todo : List Nat), IndexInv c →
      TagInv c (consideredIDs ConsiderTree blocks ++ todo) →
      (consideredIDs ConsiderTree blocks ++ todo).Nodup →
      ∃ c1, locateBlocks ConsiderTree c blocks = some c1 ∧ IndexInv c1 ∧ TagInv c1 todo := by
  intro blocks
  induction blocks with
  | nil =>
    intro c todo hinv htag _
    exact ⟨c, rfl, hinv, htag⟩
  | cons b rest ih =>
    intro c todo hinv htag hnd
    simp only [consideredIDs, List.map_cons, List.flatten_cons, List.append_assoc] at htag hnd
    obtain ⟨c1, h1, h2, h3⟩ := locateStmts_total ConsiderTree b.stmts
      { c with compCurBB := b.bbNum } _ (IndexInv_compCurBB c b.bbNum hinv) htag hnd
    obtain ⟨c2, k1, k2, k3⟩ := ih c1 todo h2 h3 (List.Nodup.of_append_right hnd)
    refine ⟨c2, ?_, k2, k3⟩
    simp only [locateBlocks, h1]
    exact k1

theorem Init_TagInv (EXPSET_SZ : Nat) (c : Compiler W) (todo : List Nat)
    (h : ∀ id ∈ todo, c.treeCSEnum id = 0) : TagInv (optValnumCSE_Init EXPSET_SZ c) todo := by
  unfold TagInv optValnumCSE_Init allDscs
  refine ⟨h, ?_, ?_, ?_⟩
  · intro d hd; simp at hd
  · intro d hd; simp at hd
  · simp

/-- C8. After `optValnumCSE_Locate` (run from the state `optValnumCSE_Init` leaves), with
`N = optCSECandidateCount`: the non-zero indices carried by the descriptors of the hash table
are the numbers `1..N`, each exactly once, and for every `k` in `1..N` the entry
`optCSEtab[k-1]` is a descriptor of the hash table with `csdIndex == k`. This holds of every
state `optValnumCSE_Locate` returns, and it does return one (no `noway_assert` fails) when the
nodes handed to the indexer are distinct and start untagged. -/
theorem locate_indices_dense_and_table [Zero W] (EXPSET_SZ : Nat) (hsz : 0 < EXPSET_SZ)
    (ConsiderTree : GenTree → Bool → Bool) (c0 : Compiler W) (blocks : List (BasicBlock W)) :
    (∀ c1 found,
      optValnumCSE_Locate ConsiderTree (optValnumCSE_Init EXPSET_SZ c0) blocks =
        some (c1, found) →
      List.Perm (indexedList (allDscs c1)) (List.range' 1 c1.optCSECandidateCount) ∧
      ∀ k, 1 ≤ k → k ≤ c1.optCSECandidateCount →
        ∃ d ∈ allDscs c1, c1.optCSEtab[k - 1]? = some (some d) ∧ d.csdIndex = k) ∧
    ((consideredIDs ConsiderTree blocks).Nodup →
      (∀ id ∈ consideredIDs ConsiderTree blocks, c0.treeCSEnum id = 0) →
      ∃ c1 found,
        optValnumCSE_Locate ConsiderTree (optValnumCSE_Init EXPSET_SZ c0) blocks =
          some (c1, found)) := by
  refine ⟨fun c1 found hrun => Locate_spec EXPSET_SZ hsz ConsiderTree c0 c1 blocks found hrun,
    ?_⟩
  intro hnd hun
  obtain ⟨c2, h1, h2, _⟩ := locateBlocks_total ConsiderTree blocks
    (optValnumCSE_Init EXPSET_SZ c0) [] (Init_IndexInv EXPSET_SZ hsz c0)
    (Init_TagInv EXPSET_SZ c0 _ (by simpa using hun)) (by simpa using hnd)
  unfold optValnumCSE_Locate
  simp only [h1]
  by_cases hdo : c2.optDoCSE = true
  · obtain ⟨c3, hs1, _⟩ := optCSEstop_spec c2 h2
    exact ⟨c3, true, by simp [hdo, hs1]⟩
  · have hdo1 : c2.optDoCSE = false := by simpa using hdo
    exact ⟨c2, false, by simp [hdo1]⟩

/-! ### The candidate limit and single occurrences -/

theorem findInBucket_eq_none {α : Type} (p : α → Bool) : ∀ (l : List α),
    (∀ x ∈ l, p x = false) → findInBucket p l = none := by
  intro l
  induction l with
  | nil => intro _; rfl
  | cons a as ih =>
    intro h
    simp only [findInBucket, h a (List.mem_cons_self _ _), Bool.false_eq_true, if_false,
      ih (fun x hx => h x (List.mem_cons_of_mem _ hx))]

theorem mem_flatten_of_getD {α : Type} : ∀ (table : List (List α)) (i : Nat) (x : α),
    x ∈ table.getD i [] → x ∈ table.flatten := by
  intro table
  induction table with
  | nil => intro i x h; simp at h
  | cons b bs ih =>
    intro i x h
    cases i with
    | zero =>
      simp only [List.getD_cons_zero] at h
      simp [h]
    | succ n =>
      simp only [List.getD_cons_succ] at h
      simp only [List.flatten_cons, List.mem_append]
      exact Or.inr (ih n x h)

theorem map_set_same {α β : Type} (f : List α → β) : ∀ (table : List (List α)) (i : Nat)
    (b : List α), table.getD i [] ≠ [] → f b = f (table.getD i []) →
    (table.set i b).map f = table.map f := by
  intro table
  induction table with
  | nil => intro i b _ _; rfl
  | cons a as ih =>
    intro i b hne h
    cases i with
    | zero =>
      simp only [List.getD_cons_zero] at h
      simp [h]
    | succ n =>
      simp only [List.getD_cons_succ] at h hne
      simp only [List.set_cons_succ, List.map_cons, ih n b hne h]

theorem Index_count_le [Zero W] (c c1 : Compiler W) (tree : GenTree) (stmt r : Nat)
    (hcount : c.optCSECandidateCount ≤ MAX_CSE_CNT)
    (h : optValnumCSE_Index c tree stmt = some (c1, r)) :
    c1.optCSECandidateCount ≤ MAX_CSE_CNT := by
  cases hf : findInBucket (indexMatches (cseHashKey c tree).1 tree)
      (c.optCSEhash.getD (optCSEKeyToHashIndex (cseHashKey c tree).1 c.optCSEhashSize) []) with
  | none =>
    obtain ⟨c2, h2, _, hcnt, _⟩ := Index_not_found c tree stmt hf
    rw [h2] at h
    obtain ⟨hc, -⟩ := Prod.mk.inj (Option.some.inj h)
    rw [← hc, hcnt]
    exact hcount
  | some res =>
    obtain ⟨pre, d, post⟩ := res
    obtain ⟨d1, _, _, _, hcase⟩ := Index_found c c1 tree stmt r pre post d hf h
    rcases hcase with ⟨_, _, _, _, a5, _⟩ | ⟨_, _, _, _, _, b6, _⟩ |
      ⟨_, _, _, _, _, _, e7, _⟩ | ⟨_, g2, _, _, _, _, g7, _⟩
    · rw [a5]; exact hcount
    · rw [b6]; exact hcount
    · rw [e7]; exact hcount
    · rw [g7]
      unfold MAX_CSE_CNT at hcount g2 ⊢
      omega

theorem Index_at_max [Zero W] (c : Compiler W) (tree : GenTree) (stmt : Nat)
    (hmax : c.optCSECandidateCount = MAX_CSE_CNT)
    (hkey : ∀ d ∈ allDscs c, d.csdHashKey = (cseHashKey c tree).1 → d.csdIndex = 0)
    (htree : c.treeCSEnum tree.gtTreeID = 0)
    (hfirst : ∀ d ∈ allDscs c, d.csdIndex = 0 →
      c.treeCSEnum d.csdTreeList.tslTree.gtTreeID = 0) :
    ∃ c1, optValnumCSE_Index c tree stmt = some (c1, 0) ∧ c1.treeCSEnum = c.treeCSEnum ∧
      c1.optCSECandidateCount = c.optCSECandidateCount ∧
      c1.optCSEhash.map (List.filter fun d => decide (d.csdIndex ≠ 0)) =
        c.optCSEhash.map (List.filter fun d => decide (d.csdIndex ≠ 0)) := by
  cases hf : findInBucket (indexMatches (cseHashKey c tree).1 tree)
      (c.optCSEhash.getD (optCSEKeyToHashIndex (cseHashKey c tree).1 c.optCSEhashSize) []) with
  | none =>
    obtain ⟨c1, h1, h2, h3, _, hcase⟩ := Index_not_found c tree stmt hf
    refine ⟨c1, h1, h2, h3, ?_⟩
    rcases hcase with ⟨_, hc⟩ | ⟨hlt, _⟩
    · rw [hc]
    · rw [hmax] at hlt
      exact absurd hlt (lt_irrefl _)
  | some res =>
    obtain ⟨pre, d, post⟩ := res
    obtain ⟨hget, hp, _⟩ := findInBucket_some _ _ pre post d hf
    have hdmem : d ∈ allDscs c := by
      apply mem_flatten_of_getD c.optCSEhash _ d
      rw [hget]
      simp
    have hdkey : d.csdHashKey = (cseHashKey c tree).1 := by
      unfold indexMatches at hp
      simp only [Bool.and_eq_true, decide_eq_true_eq] at hp
      exact hp.1
    have hd0 : d.csdIndex = 0 := hkey d hdmem hdkey
    obtain ⟨c1, r, h⟩ := Index_found_total c tree stmt pre post d hf (le_of_eq hmax)
      (hfirst d hdmem)
    obtain ⟨d1, hhash, _, _, hcase⟩ := Index_found c c1 tree stmt r pre post d hf h
    have hfilter : ∀ d1 : CSEdsc W, d1.csdIndex = 0 →
        c1.optCSEhash = c.optCSEhash.set
          (optCSEKeyToHashIndex (cseHashKey c tree).1 c.optCSEhashSize) (pre ++ d1 :: post) →
        c1.optCSEhash.map (List.filter fun d => decide (d.csdIndex ≠ 0)) =
          c.optCSEhash.map (List.filter fun d => decide (d.csdIndex ≠ 0)) := by
      intro d1 hd1 hh
      rw [hh]
      apply map_set_same
      · rw [hget]; simp
      · rw [hget]
        simp [List.filter_append, List.filter_cons, hd1, hd0]
    rcases hcase with ⟨_, _, a3, a4, a5, _, _, a8⟩ | ⟨b1, _⟩ |
      ⟨_, _, e3, e4, _, _, e7, _, e9⟩ | ⟨_, g2, _⟩
    · have hr : r = 0 := by rw [a4, hd0]
      subst hr
      refine ⟨c1, h, ?_, a5, hfilter d1 (by rw [a3, hd0]) hhash⟩
      rw [a8, hd0]
      have hz : toSignedChar 0 = 0 := rfl
      rw [hz]
      have h1 : Function.update c.treeCSEnum d.csdTreeList.tslTree.gtTreeID 0 = c.treeCSEnum := by
        rw [← hfirst d hdmem hd0]
        exact Function.update_eq_self _ _
      rw [h1, ← htree]
      exact Function.update_eq_self _ _
    · exact absurd hd0 b1
    · subst e4
      exact ⟨c1, h, e9, e7, hfilter d1 e3 hhash⟩
    · exact absurd hmax g2

/-- C9. A call of `optValnumCSE_Index` in a state with at most `MAX_CSE_CNT` (64) candidates
leaves at most `MAX_CSE_CNT` candidates. With exactly `MAX_CSE_CNT` candidates, a call for an
untagged node whose key has no indexed descriptor (in a state where the first occurrence of
every descriptor without an index is untagged, which line 817 asserts) returns 0 and leaves
every tag, the candidate count, and every indexed descriptor of every bucket unchanged. -/
theorem index_respects_candidate_limit [Zero W] (c : Compiler W) (tree : GenTree) (stmt : Nat)
    (hcount : c.optCSECandidateCount ≤ MAX_CSE_CNT) :
    MAX_CSE_CNT = 64 ∧
    (∀ c1 r, optValnumCSE_Index c tree stmt = some (c1, r) →
      c1.optCSECandidateCount ≤ MAX_CSE_CNT) ∧
    (c.optCSECandidateCount = MAX_CSE_CNT →
      (∀ d ∈ allDscs c, d.csdHashKey = (cseHashKey c tree).1 → d.csdIndex = 0) →
      c.treeCSEnum tree.gtTreeID = 0 →
      (∀ d ∈ allDscs c, d.csdIndex = 0 → c.treeCSEnum d.csdTreeList.tslTree.gtTreeID = 0) →
      ∃ c1, optValnumCSE_Index c tree stmt = some (c1, 0) ∧
        c1.treeCSEnum = c.treeCSEnum ∧
        c1.optCSECandidateCount = c.optCSECandidateCount ∧
        c1.optCSEhash.map (List.filter fun d => decide (d.csdIndex ≠ 0)) =
          c.optCSEhash.map (List.filter fun d => decide (d.csdIndex ≠ 0))) :=
  ⟨rfl, fun c1 r h => Index_count_le c c1 tree stmt r hcount h,
    fun hmax hkey htree hfirst => Index_at_max c tree stmt hmax hkey htree hfirst⟩

theorem Index_first_seen [Zero W] (c : Compiler W) (tree : GenTree) (stmt : Nat)
    (hkey : ∀ d ∈ allDscs c, d.csdHashKey ≠ (cseHashKey c tree).1) :
    ∃ c1, optValnumCSE_Index c tree stmt = some (c1, 0) ∧ c1.treeCSEnum = c.treeCSEnum := by
  have hf : findInBucket (indexMatches (cseHashKey c tree).1 tree)
      (c.optCSEhash.getD (optCSEKeyToHashIndex (cseHashKey c tree).1 c.optCSEhashSize) [])
      = none := by
    apply findInBucket_eq_none
    intro x hx
    have hne := hkey x (mem_flatten_of_getD c.optCSEhash _ x hx)
    unfold indexMatches
    simp [hne]
  obtain ⟨c1, h1, h2, _⟩ := Index_not_found c tree stmt hf
  exact ⟨c1, h1, h2⟩

/-- C10. After any sequence of `optValnumCSE_Index` calls from the state `optValnumCSE_Init`
leaves, every descriptor with `csdIndex != 0` has at least two entries in its occurrence list;
and a node whose key is carried by no descriptor of the table gets the return value 0 and no
tag (no tag changes at all). -/
theorem index_needs_two_occurrences [Zero W] (EXPSET_SZ : Nat) (hsz : 0 < EXPSET_SZ)
    (c0 c : Compiler W) (calls : List (Nat × Nat × GenTree))
    (hrun : indexCalls (optValnumCSE_Init EXPSET_SZ c0) calls = some c) :
    (∀ d ∈ allDscs c, d.csdIndex ≠ 0 → 2 ≤ d.occurrences.length) ∧
    (∀ (tree : GenTree) (stmt : Nat),
      (∀ d ∈ allDscs c, d.csdHashKey ≠ (cseHashKey c tree).1) →
      ∃ c1, optValnumCSE_Index c tree stmt = some (c1, 0) ∧
        c1.treeCSEnum = c.treeCSEnum) := by
  have hinv := indexCalls_IndexInv calls _ c (Init_IndexInv EXPSET_SZ hsz c0) hrun
  refine ⟨?_, fun tree stmt hkey => Index_first_seen c tree stmt hkey⟩
  intro d hd hne
  have h := hinv.2.2.1 d hd hne
  unfold CSEdsc.occurrences
  cases hn : d.tslNext with
  | nil => exact absurd hn h
  | cons a as => simp

/-! ### Concrete runs of the indexer -/

set_option maxRecDepth 1000000

/-- Witness of C8: `optValnumCSE_Locate` on two blocks with two keys seen twice each; two
candidates result. -/
theorem locate_indices_dense_and_table_witness :
    0 < 64 ∧ ∃ c1,
      optValnumCSE_Locate (fun _ _ => true) (optValnumCSE_Init 64 exIndexBase) exLocateBlocks =
        some (c1, true) ∧
      c1.optCSECandidateCount = 2 ∧
      (List.Perm (indexedList (allDscs c1)) (List.range' 1 c1.optCSECandidateCount) ∧
        ∀ k, 1 ≤ k → k ≤ c1.optCSECandidateCount →
          ∃ d ∈ allDscs c1, c1.optCSEtab[k - 1]? = some (some d) ∧ d.csdIndex = k) ∧
      ((consideredIDs (fun _ _ => true) exLocateBlocks).Nodup →
        (∀ id ∈ consideredIDs (fun _ _ => true) exLocateBlocks,
          exIndexBase.treeCSEnum id = 0) →
        ∃ c2 found,
          optValnumCSE_Locate (fun _ _ => true) (optValnumCSE_Init 64 exIndexBase)
            exLocateBlocks = some (c2, found)) := by
  refine ⟨by decide, _, rfl, by decide, ?_, ?_⟩
  · exact (locate_indices_dense_and_table 64 (by decide) (fun _ _ => true) exIndexBase
      exLocateBlocks).1 _ true (by rfl)
  · exact (locate_indices_dense_and_table 64 (by decide) (fun _ _ => true) exIndexBase
      exLocateBlocks).2

/-- Witness of C9: with `MAX_CSE_CNT` candidates indexed, the second occurrence (node 1001) of
the key 1000, whose descriptor has no index, is presented. -/
theorem index_respects_candidate_limit_witness :
    exFullCompiler.optCSECandidateCount ≤ MAX_CSE_CNT ∧
    exFullCompiler.optCSECandidateCount = MAX_CSE_CNT ∧
    (∃ d ∈ allDscs exFullCompiler, d.csdHashKey = 1000 ∧ d.csdIndex = 0 ∧ d.tslNext = []) ∧
    ∃ c1, optValnumCSE_Index exFullCompiler (exTree 1001 0 1000 false) 99 = some (c1, 0) ∧
      c1.treeCSEnum = exFullCompiler.treeCSEnum ∧
      c1.optCSECandidateCount = exFullCompiler.optCSECandidateCount ∧
      c1.optCSEhash.map (List.filter fun d => decide (d.csdIndex ≠ 0)) =
        exFullCompiler.optCSEhash.map (List.filter fun d => decide (d.csdIndex ≠ 0)) :=
  ⟨by decide, by decide, by decide,
    (index_respects_candidate_limit exFullCompiler (exTree 1001 0 1000 false) 99
      (by decide)).2.2 (by decide) (by decide) (by decide) (by decide)⟩

/-- Witness of C10: after three calls (key 1000 once, key 100 twice) the table holds two
descriptors. -/
theorem index_needs_two_occurrences_witness :
    0 < 64 ∧ ∃ c, indexCalls (optValnumCSE_Init 64 exIndexBase) (exIndexCalls 1) = some c ∧
      (allDscs c).length = 2 ∧
      (∀ d ∈ allDscs c, d.csdIndex ≠ 0 → 2 ≤ d.occurrences.length) ∧
      (∀ (tree : GenTree) (stmt : Nat),
        (∀ d ∈ allDscs c, d.csdHashKey ≠ (cseHashKey c tree).1) →
        ∃ c1, optValnumCSE_Index c tree stmt = some (c1, 0) ∧
          c1.treeCSEnum = c.treeCSEnum) := by
  refine ⟨by decide, _, rfl, by decide, ?_⟩
  exact index_needs_two_occurrences 64 (by decide) exIndexBase _ (exIndexCalls 1) (by rfl)

/-! ## The hash table: buckets, resize, load -/

theorem mem_getD_set {α : Type} : ∀ (table : List (List α)) (h i : Nat) (b : List α) (x : α),
    x ∈ (table.set h b).getD i [] → (i = h ∧ x ∈ b) ∨ x ∈ table.getD i [] := by
  intro table
  induction table with
  | nil => intro h i b x hx; simp at hx
  | cons a as ih =>
    intro h i b x hx
    cases h with
    | zero =>
      cases i with
      | zero =>
        simp only [List.set_cons_zero, List.getD_cons_zero] at hx
        exact Or.inl ⟨rfl, hx⟩
      | succ j =>
        simp only [List.set_cons_zero, List.getD_cons_succ] at hx
        exact Or.inr (by simpa using hx)
    | succ k =>
      cases i with
      | zero =>
        simp only [List.set_cons_succ, List.getD_cons_zero] at hx
        exact Or.inr (by simpa using hx)
      | succ j =>
        simp only [List.set_cons_succ, List.getD_cons_succ] at hx
        rcases ih k j b x hx with ⟨h1, h2⟩ | h3
        · exact Or.inl ⟨by rw [h1], h2⟩
        · exact Or.inr (by simpa using h3)

theorem mem_getD_pushBucket {α : Type} (table : List (List α)) (h i : Nat) (d x : α)
    (hx : x ∈ (pushBucket table h d).getD i []) :
    (i = h ∧ x = d) ∨ x ∈ table.getD i [] := by
  unfold pushBucket at hx
  rcases mem_getD_set table h i _ x hx with ⟨h1, h2⟩ | h3
  · rcases List.mem_cons.mp h2 with h4 | h4
    · exact Or.inl ⟨h1, h4⟩
    · exact Or.inr (h1 ▸ h4)
  · exact Or.inr h3

theorem foldl_pushBucket_bucket {α : Type} (h : α → Nat) :
    ∀ (L : List α) (T : List (List α)),
      (∀ (i : Nat) (x : α), x ∈ T.getD i [] → h x = i) →
      ∀ (i : Nat) (x : α),
        x ∈ (L.foldl (fun tab d => pushBucket tab (h d) d) T).getD i [] → h x = i := by
  intro L
  induction L with
  | nil => intro T hT i x hx; exact hT i x hx
  | cons a as ih =>
    intro T hT i x hx
    simp only [List.foldl_cons] at hx
    refine ih (pushBucket T (h a) a) ?_ i x hx
    intro j y hy
    rcases mem_getD_pushBucket T (h a) j a y hy with ⟨h1, h2⟩ | h3
    · rw [h2, h1]
    · exact hT j y h3

theorem getD_replicate_nil {α : Type} (n i : Nat) (x : α) :
    ¬ x ∈ (List.replicate n ([] : List α)).getD i [] := by
  intro hx
  rw [List.getD_eq_getElem?_getD, List.getElem?_replicate] at hx
  split_ifs at hx <;> simp at hx

theorem resizeHash_bucket (c : Compiler W) (i : Nat) (d : CSEdsc W)
    (hd : d ∈ (resizeHash c).optCSEhash.getD i []) :
    optCSEKeyToHashIndex d.csdHashKey (resizeHash c).optCSEhashSize = i := by
  have h := foldl_pushBucket_bucket
    (fun d : CSEdsc W => optCSEKeyToHashIndex d.csdHashKey
      (c.optCSEhashSize * s_optCSEhashGrowthFactor))
    ((c.optCSEhash.take c.optCSEhashSize).flatten)
    (List.replicate (c.optCSEhashSize * s_optCSEhashGrowthFactor) [])
    (fun j x hx => absurd hx (getD_replicate_nil _ j x)) i d hd
  exact h

theorem resizeHash_counts (c : Compiler W) :
    (resizeHash c).optCSEhashCount = c.optCSEhashCount ∧
    (resizeHash c).optCSEhashMaxCountBeforeResize =
      c.optCSEhashMaxCountBeforeResize * s_optCSEhashGrowthFactor ∧
    (resizeHash c).optCSEhashSize = c.optCSEhashSize * s_optCSEhashGrowthFactor :=
  ⟨rfl, rfl, rfl⟩

theorem Index_not_found_counts [Zero W] (c : Compiler W) (tree : GenTree) (stmt : Nat)
    (hnf : findInBucket (indexMatches (cseHashKey c tree).1 tree)
      (c.optCSEhash.getD (optCSEKeyToHashIndex (cseHashKey c tree).1 c.optCSEhashSize) [])
      = none)
    (hlt : c.optCSECandidateCount < MAX_CSE_CNT) :
    ∃ c1 cR, optValnumCSE_Index c tree stmt = some (c1, 0) ∧
      ((c.optCSEhashCount ≠ c.optCSEhashMaxCountBeforeResize ∧ cR = c) ∨
       (c.optCSEhashCount = c.optCSEhashMaxCountBeforeResize ∧ cR = resizeHash c)) ∧
      c1.optCSEhash = pushBucket cR.optCSEhash
        (optCSEKeyToHashIndex (cseHashKey c tree).1 cR.optCSEhashSize)
        (newCSEdsc c (cseHashKey c tree).1 tree stmt) ∧
      c1.optCSEhashSize = cR.optCSEhashSize ∧
      c1.optCSEhashCount = cR.optCSEhashCount + 1 ∧
      c1.optCSEhashMaxCountBeforeResize = cR.optCSEhashMaxCountBeforeResize := by
  unfold optValnumCSE_Index
  simp only [hnf]
  rw [if_pos hlt]
  by_cases hr : c.optCSEhashCount = c.optCSEhashMaxCountBeforeResize
  · exact ⟨_, resizeHash c, rfl, Or.inr ⟨hr, rfl⟩, by simp [hr], by simp [hr], by simp [hr],
      by simp [hr]⟩
  · exact ⟨_, c, rfl, Or.inl ⟨hr, rfl⟩, by simp [hr], by simp [hr], by simp [hr], by simp [hr]⟩

theorem Index_found_counts [Zero W] (c c1 : Compiler W) (tree : GenTree) (stmt r : Nat)
    (pre post : List (CSEdsc W)) (d : CSEdsc W)
    (hf : findInBucket (indexMatches (cseHashKey c tree).1 tree)
      (c.optCSEhash.getD (optCSEKeyToHashIndex (cseHashKey c tree).1 c.optCSEhashSize) [])
      = some (pre, d, post))
    (h : optValnumCSE_Index c tree stmt = some (c1, r)) :
    c1.optCSEhashCount = c.optCSEhashCount ∧
    c1.optCSEhashMaxCountBeforeResize = c.optCSEhashMaxCountBeforeResize := by
  unfold optValnumCSE_Index at h
  simp only [hf] at h
  split_ifs at h
  all_goals (try simp only [Option.some.injEq, Prod.mk.injEq] at h)
  all_goals (obtain ⟨rfl, -⟩ := h; exact ⟨rfl, rfl⟩)

theorem Index_BucketInv [Zero W] (c c1 : Compiler W) (tree : GenTree) (stmt r : Nat)
    (hinv : BucketInv c) (h : optValnumCSE_Index c tree stmt = some (c1, r)) :
    BucketInv c1 := by
  obtain ⟨b1, b2, b3, b4, b5, b6⟩ := hinv
  cases hf : findInBucket (indexMatches (cseHashKey c tree).1 tree)
      (c.optCSEhash.getD (optCSEKeyToHashIndex (cseHashKey c tree).1 c.optCSEhashSize) []) with
  | none =>
    by_cases hlt : c.optCSECandidateCount < MAX_CSE_CNT
    · obtain ⟨c2, cR, h2, hcR, hhash, hsz, hcnt, hmax⟩ :=
        Index_not_found_counts c tree stmt hf hlt
      rw [h2] at h
      obtain ⟨hc, -⟩ := Prod.mk.inj (Option.some.inj h)
      subst hc
      have hR : cR.optCSEhash.length = cR.optCSEhashSize ∧ 0 < cR.optCSEhashSize ∧
          (∀ (i : Nat) (d : CSEdsc W), d ∈ cR.optCSEhash.getD i [] →
            optCSEKeyToHashIndex d.csdHashKey cR.optCSEhashSize = i) ∧
          cR.optCSEhashCount = (allDscs cR).length ∧
          cR.optCSEhashCount + 1 ≤ cR.optCSEhashMaxCountBeforeResize ∧
          cR.optCSEhashMaxCountBeforeResize = cR.optCSEhashSize * s_optCSEhashBucketSize := by
        rcases hcR with ⟨hne, rfl⟩ | ⟨heq, rfl⟩
        · exact ⟨b1, b2, b3, b4, by omega, b6⟩
        · obtain ⟨r1, r2, r3, _⟩ := resizeHash_spec c b1 b2
          obtain ⟨k1, k2, k3⟩ := resizeHash_counts c
          refine ⟨r1, r2, fun i d hd => resizeHash_bucket c i d hd, ?_, ?_, ?_⟩
          · rw [k1, b4, r3.length_eq]
          · rw [k1, k2, heq, b6]
            unfold s_optCSEhashGrowthFactor s_optCSEhashBucketSize
            omega
          · rw [k2, k3, b6]
            unfold s_optCSEhashGrowthFactor s_optCSEhashBucketSize
            omega
      obtain ⟨r1, r2, r3, r4, r5, r6⟩ := hR
      have hlt1 : optCSEKeyToHashIndex (cseHashKey c tree).1 cR.optCSEhashSize
          < cR.optCSEhash.length := by
        rw [r1]; exact optCSEKeyToHashIndex_lt _ _ r2
      refine ⟨by rw [hhash, length_pushBucket, r1, hsz], by rw [hsz]; exact r2, ?_, ?_,
        by rw [hcnt, hmax]; exact r5, by rw [hmax, hsz]; exact r6⟩
      · intro i d hd
        rw [hhash] at hd
        rw [hsz]
        rcases mem_getD_pushBucket _ _ i _ d hd with ⟨h1, h2⟩ | h3
        · rw [h2, h1]; rfl
        · exact r3 i d h3
      · rw [hcnt, r4]
        unfold allDscs
        rw [hhash, (flatten_pushBucket_perm _ _ _ hlt1).length_eq]
        rfl
    · obtain ⟨c2, h2, _, _, _, hcase⟩ := Index_not_found c tree stmt hf
      rw [h2] at h
      obtain ⟨hc, -⟩ := Prod.mk.inj (Option.some.inj h)
      subst hc
      rcases hcase with ⟨_, hc⟩ | ⟨hlt2, _⟩
      · rw [hc]; exact ⟨b1, b2, b3, b4, b5, b6⟩
      · exact absurd hlt2 hlt
  | some res =>
    obtain ⟨pre, d, post⟩ := res
    obtain ⟨d1, hhash, hsz, hkey, _⟩ := Index_found c c1 tree stmt r pre post d hf h
    obtain ⟨hcnt, hmax⟩ := Index_found_counts c c1 tree stmt r pre post d hf h
    obtain ⟨hget, _, _⟩ := findInBucket_some _ _ pre post d hf
    obtain ⟨R, hL, hL1⟩ := flatten_set_perm c.optCSEhash _ pre post d hget
    refine ⟨by rw [hhash, List.length_set, hsz]; exact b1, by rw [hsz]; exact b2, ?_, ?_,
      by rw [hcnt, hmax]; exact b5, by rw [hmax, hsz]; exact b6⟩
    · intro i x hx
      rw [hhash] at hx
      rw [hsz]
      rcases mem_getD_set _ _ i _ x hx with ⟨h1, h2⟩ | h3
      · have hdin : ∀ y, y ∈ pre ++ d :: post → optCSEKeyToHashIndex y.csdHashKey
            c.optCSEhashSize = i := by
          intro y hy
          apply b3 i y
          rw [h1, hget]
          exact hy
        rcases List.mem_append.mp h2 with h4 | h4
        · exact hdin x (List.mem_append_left _ h4)
        · rcases List.mem_cons.mp h4 with h5 | h5
          · rw [h5, hkey]
            exact hdin d (List.mem_append_right _ (List.mem_cons_self _ _))
          · exact hdin x (List.mem_append_right _ (List.mem_cons_of_mem _ h5))
      · exact b3 i x h3
    · rw [hcnt, b4]
      unfold allDscs
      rw [hhash, (hL1 d1).length_eq, hL.length_eq]
      rfl

theorem Init_BucketInv (EXPSET_SZ : Nat) (hpos : 0 < EXPSET_SZ) (c : Compiler W) :
    BucketInv (optValnumCSE_Init EXPSET_SZ c) := by
  unfold BucketInv optValnumCSE_Init allDscs s_optCSEhashSizeInitial
  simp only [List.length_replicate]
  refine ⟨trivial, by omega, ?_, by simp, Nat.zero_le _, trivial⟩
  intro i d hd
  exact absurd hd (getD_replicate_nil _ i d)

theorem indexCalls_BucketInv [Zero W] : ∀ (calls : List (Nat × Nat × GenTree))
    (c c1 : Compiler W), BucketInv c → indexCalls c calls = some c1 → BucketInv c1 := by
  intro calls
  induction calls with
  | nil =>
    intro c c1 hinv h
    simp only [indexCalls, Option.some.injEq] at h
    exact h ▸ hinv
  | cons a rest ih =>
    intro c c1 hinv h
    obtain ⟨block, stmt, tree⟩ := a
    simp only [indexCalls] at h
    cases hi : optValnumCSE_Index { c with compCurBB := block } tree stmt with
    | none => simp [hi] at h
    | some res =>
      obtain ⟨c2, r⟩ := res
      simp only [hi] at h
      have hinv1 : BucketInv { c with compCurBB := block } := hinv
      exact ih c2 c1 (Index_BucketInv _ c2 tree stmt r hinv1 hi) h

/-- C11. After any sequence of `optValnumCSE_Index` calls from the state `optValnumCSE_Init`
leaves (resizes included): every descriptor is chained in the bucket
`optCSEKeyToHashIndex(csdHashKey, optCSEhashSize)` of the current table; `optCSEhashCount` is
the number of descriptors and `optCSEhashCount <= optCSEhashSize * 4 ==
optCSEhashMaxCountBeforeResize`; and a resize of that table keeps every descriptor exactly once
(the new chains are a permutation of the old ones), each in its bucket of the doubled table. -/
theorem hash_buckets_resize_and_load [Zero W] (EXPSET_SZ : Nat) (hsz : 0 < EXPSET_SZ)
    (c0 c : Compiler W) (calls : List (Nat × Nat × GenTree))
    (hrun : indexCalls (optValnumCSE_Init EXPSET_SZ c0) calls = some c) :
    (∀ (i : Nat) (d : CSEdsc W), d ∈ c.optCSEhash.getD i [] →
      optCSEKeyToHashIndex d.csdHashKey c.optCSEhashSize = i) ∧
    c.optCSEhashCount = (allDscs c).length ∧
    c.optCSEhashCount ≤ c.optCSEhashSize * 4 ∧
    c.optCSEhashSize * 4 = c.optCSEhashMaxCountBeforeResize ∧
    List.Perm (allDscs (resizeHash c)) (allDscs c) ∧
    (resizeHash c).optCSEhashSize = c.optCSEhashSize * 2 ∧
    (∀ (i : Nat) (d : CSEdsc W), d ∈ (resizeHash c).optCSEhash.getD i [] →
      optCSEKeyToHashIndex d.csdHashKey (resizeHash c).optCSEhashSize = i) := by
  obtain ⟨b1, b2, b3, b4, b5, b6⟩ :=
    indexCalls_BucketInv calls _ c (Init_BucketInv EXPSET_SZ hsz c0) hrun
  obtain ⟨_, _, r3, _⟩ := resizeHash_spec c b1 b2
  have h4 : s_optCSEhashBucketSize = 4 := rfl
  rw [h4] at b6
  exact ⟨b3, b4, by omega, b6.symm, r3, rfl, fun i d hd => resizeHash_bucket c i d hd⟩

/-! ## The hash key of a node -/

/-- C19. In `optValnumCSE_Index` a non-struct `GT_COMMA` whose liberal VN differs from the
liberal VN of its second operand is keyed by its liberal VN as it is (exception set included);
a node of any other kind that is not a shared constant, the second operand `op2` here, is keyed
by the normal value of its liberal VN. With the normal values of the comma and of `op2` equal
(the `assert` of line 601), the exceptions of `op2` among those of the comma, a VN that is its
own normal value raising nothing and equal exception sets making the two VNs equal, the two keys
differ, so no descriptor matches both nodes. -/
theorem comma_keyed_by_liberal_vn (c : Compiler W) (comma op2 : GenTree)
    (hcomma : comma.isComma = true) (hns : comma.isStruct = false)
    (hop2 : comma.op2VnLiberal = op2.vnLiberal) (hdiff : comma.vnLiberal ≠ op2.vnLiberal)
    (hother : (op2.isComma && !op2.isStruct && decide (op2.op2VnLiberal ≠ op2.vnLiberal)) = false)
    (hnotshared : (cseHashKey c op2).2 = false)
    (hnorm : c.vnStore.VNNormalValue comma.vnLiberal = c.vnStore.VNNormalValue op2.vnLiberal)
    (hexc : c.vnStore.VNExceptionSet op2.vnLiberal ⊆ c.vnStore.VNExceptionSet comma.vnLiberal)
    (hnormal : c.vnStore.VNNormalValue comma.vnLiberal = comma.vnLiberal →
      c.vnStore.VNExceptionSet comma.vnLiberal = ∅)
    (hinj : c.vnStore.VNExceptionSet comma.vnLiberal = c.vnStore.VNExceptionSet op2.vnLiberal →
      comma.vnLiberal = op2.vnLiberal) :
    cseHashKey c comma = (comma.vnLiberal, false) ∧
    (cseHashKey c op2).1 = c.vnStore.VNNormalValue op2.vnLiberal ∧
    (cseHashKey c comma).1 ≠ (cseHashKey c op2).1 ∧
    (∀ d : CSEdsc W, indexMatches (cseHashKey c comma).1 comma d = true →
      indexMatches (cseHashKey c op2).1 op2 d = false) ∧
    (∀ t : GenTree,
      (t.isComma && !t.isStruct && decide (t.op2VnLiberal ≠ t.vnLiberal)) = false →
      (cseHashKey c t).2 = false →
      (cseHashKey c t).1 = c.vnStore.VNNormalValue t.vnLiberal) := by
  have hgen : ∀ t : GenTree,
      (t.isComma && !t.isStruct && decide (t.op2VnLiberal ≠ t.vnLiberal)) = false →
      (cseHashKey c t).2 = false →
      (cseHashKey c t).1 = c.vnStore.VNNormalValue t.vnLiberal := by
    intro t h1 h2
    unfold cseHashKey at h2 ⊢
    by_cases hc : (t.isComma && !t.isStruct) = true
    · have hd : t.op2VnLiberal = t.vnLiberal := by
        rw [hc] at h1
        simpa using h1
      simp [hc, hd]
    · simp only [hc, Bool.false_eq_true, if_false] at h2 ⊢
      split_ifs at h2 ⊢ <;> rfl
  have hk1 : cseHashKey c comma = (comma.vnLiberal, false) := by
    unfold cseHashKey
    have hd : comma.op2VnLiberal ≠ comma.vnLiberal := by
      rw [hop2]; exact fun h => hdiff h.symm
    simp [hcomma, hns, hd]
  have hk2 := hgen op2 hother hnotshared
  have hne : (cseHashKey c comma).1 ≠ (cseHashKey c op2).1 := by
    rw [hk1, hk2]
    intro heq
    have h1 : c.vnStore.VNNormalValue comma.vnLiberal = comma.vnLiberal := by
      rw [hnorm]; exact heq.symm
    have h2 := hnormal h1
    have h3 : c.vnStore.VNExceptionSet op2.vnLiberal = ∅ := by
      rw [h2] at hexc
      exact Finset.subset_empty.mp hexc
    exact hdiff (hinj (by rw [h2, h3]))
  refine ⟨hk1, hk2, hne, ?_, hgen⟩
  intro d hd
  unfold indexMatches at hd ⊢
  simp only [Bool.and_eq_true, decide_eq_true_eq] at hd
  have : d.csdHashKey ≠ (cseHashKey c op2).1 := by
    rw [hd.1]; exact hne
  simp [this]

/-! ### Concrete runs: resize and scenario S2 -/

set_option maxRecDepth 1000000

/-- Witness of C11: twenty distinct keys in a table that starts with two buckets (`EXPSET_SZ`
scaled down to 1); the table is resized at the ninth and at the seventeenth insertion. -/
theorem hash_buckets_resize_and_load_witness :
    0 < 1 ∧ ∃ c : Compiler Nat,
      indexCalls (optValnumCSE_Init 1 exIndexBase) (exDistinctKeys 20) = some c ∧
      c.optCSEhashSize = 8 ∧ c.optCSEhashCount = 20 ∧
      ((∀ (i : Nat) (d : CSEdsc Nat), d ∈ c.optCSEhash.getD i [] →
        optCSEKeyToHashIndex d.csdHashKey c.optCSEhashSize = i) ∧
      c.optCSEhashCount = (allDscs c).length ∧
      c.optCSEhashCount ≤ c.optCSEhashSize * 4 ∧
      c.optCSEhashSize * 4 = c.optCSEhashMaxCountBeforeResize ∧
      List.Perm (allDscs (resizeHash c)) (allDscs c) ∧
      (resizeHash c).optCSEhashSize = c.optCSEhashSize * 2 ∧
      (∀ (i : Nat) (d : CSEdsc Nat), d ∈ (resizeHash c).optCSEhash.getD i [] →
        optCSEKeyToHashIndex d.csdHashKey (resizeHash c).optCSEhashSize = i)) := by
  refine ⟨by decide, _, rfl, by decide, by decide, ?_⟩
  exact hash_buckets_resize_and_load 1 (by decide) exIndexBase _ (exDistinctKeys 20) (by rfl)

/-- Witness of C19, scenario S2: the comma is keyed by its liberal VN 1, `IND p` by the normal
value 5; after the three calls the table holds one descriptor per key. -/
theorem comma_keyed_by_liberal_vn_witness :
    cseHashKey exIndexBase (s2Comma 2) = (1, false) ∧
    (cseHashKey exIndexBase (s2Ind 1)).1 = 5 ∧
    (∃ c : Compiler Nat, indexCalls (optValnumCSE_Init 64 exIndexBase) s2Calls = some c ∧
      ((allDscs c).map fun d => (d.csdHashKey, d.csdIndex, d.occurrences.length)) =
        [(1, 0, 1), (5, 1, 2)]) ∧
    (cseHashKey exIndexBase (s2Comma 2) = ((s2Comma 2).vnLiberal, false) ∧
    (cseHashKey exIndexBase (s2Ind 1)).1 = exIndexBase.vnStore.VNNormalValue (s2Ind 1).vnLiberal ∧
    (cseHashKey exIndexBase (s2Comma 2)).1 ≠ (cseHashKey exIndexBase (s2Ind 1)).1 ∧
    (∀ d : CSEdsc Nat, indexMatches (cseHashKey exIndexBase (s2Comma 2)).1 (s2Comma 2) d = true →
      indexMatches (cseHashKey exIndexBase (s2Ind 1)).1 (s2Ind 1) d = false) ∧
    (∀ t : GenTree,
      (t.isComma && !t.isStruct && decide (t.op2VnLiberal ≠ t.vnLiberal)) = false →
      (cseHashKey exIndexBase t).2 = false →
      (cseHashKey exIndexBase t).1 = exIndexBase.vnStore.VNNormalValue t.vnLiberal)) :=
  ⟨by decide, by decide, ⟨_, rfl, by decide⟩,
    comma_keyed_by_liberal_vn exIndexBase (s2Comma 2) (s2Ind 1) rfl rfl rfl (by decide)
      rfl rfl (by decide) (by decide) (by decide) (by decide)⟩

/-! ## `optCSE_canSwap` -/

theorem GET_CSE_INDEX_pos (x : Int) (h : IS_CSE_INDEX x = true) : 1 ≤ GET_CSE_INDEX x := by
  unfold IS_CSE_INDEX at h
  unfold GET_CSE_INDEX
  simp only [decide_eq_true_eq] at h
  split_ifs with hp <;> omega

theorem genCSEnum2bit_inj (a b : Nat) (ha : 1 ≤ a) (hb : 1 ≤ b)
    (h : genCSEnum2bit a = genCSEnum2bit b) : a = b := by
  unfold genCSEnum2bit at h
  omega

theorem exists_cons_iff (P : GenTree → Prop) (a : GenTree) (rest : List GenTree) :
    (∃ n ∈ a :: rest, P n) ↔ P a ∨ ∃ n ∈ rest, P n := by
  simp only [List.mem_cons, exists_eq_or_imp]

theorem or_shuffle (A B E : Prop) : ((B ∨ A) ∨ E) ↔ (A ∨ (B ∨ E)) := by
  constructor
  · rintro ((h | h) | h)
    · exact Or.inr (Or.inl h)
    · exact Or.inl h
    · exact Or.inr (Or.inr h)
  · rintro (h | h | h)
    · exact Or.inl (Or.inr h)
    · exact Or.inl (Or.inl h)
    · exact Or.inr h

theorem maskFold_spec : ∀ (nodes : List GenTree) (m : optCSE_MaskData) (bit : Nat),
    (bit ∈ (nodes.foldl MaskDataWalker.PreOrderVisit m).CSE_defMask ↔
      bit ∈ m.CSE_defMask ∨ ∃ n ∈ nodes, IS_CSE_DEF n.gtCSEnum = true ∧
        genCSEnum2bit (GET_CSE_INDEX n.gtCSEnum) = bit) ∧
    (bit ∈ (nodes.foldl MaskDataWalker.PreOrderVisit m).CSE_useMask ↔
      bit ∈ m.CSE_useMask ∨ ∃ n ∈ nodes, IS_CSE_USE n.gtCSEnum = true ∧
        genCSEnum2bit (GET_CSE_INDEX n.gtCSEnum) = bit) := by
  intro nodes
  induction nodes with
  | nil => intro m bit; simp
  | cons a rest ih =>
    intro m bit
    simp only [List.foldl_cons]
    obtain ⟨h1, h2⟩ := ih (MaskDataWalker.PreOrderVisit m a) bit
    rw [h1, h2, exists_cons_iff, exists_cons_iff]
    have e : (bit = genCSEnum2bit (GET_CSE_INDEX a.gtCSEnum)) ↔
        (genCSEnum2bit (GET_CSE_INDEX a.gtCSEnum) = bit) := eq_comm
    by_cases h0 : a.gtCSEnum = 0
    · have hstep : MaskDataWalker.PreOrderVisit m a = m := by
        simp [MaskDataWalker.PreOrderVisit, IS_CSE_INDEX, h0]
      have hd : IS_CSE_DEF a.gtCSEnum = false := by simp [IS_CSE_DEF, h0]
      have hu : IS_CSE_USE a.gtCSEnum = false := by simp [IS_CSE_USE, h0]
      rw [hstep, hd, hu]
      constructor
      · rw [show (false = true ∧ genCSEnum2bit (GET_CSE_INDEX a.gtCSEnum) = bit) ↔ False from
          ⟨fun h => Bool.noConfusion h.1, False.elim⟩, false_or]
      · rw [show (false = true ∧ genCSEnum2bit (GET_CSE_INDEX a.gtCSEnum) = bit) ↔ False from
          ⟨fun h => Bool.noConfusion h.1, False.elim⟩, false_or]
    · by_cases hneg : a.gtCSEnum < 0
      · have hnp : ¬ 0 < a.gtCSEnum := by omega
        have hstep : MaskDataWalker.PreOrderVisit m a =
            { m with CSE_defMask :=
                insert (genCSEnum2bit (GET_CSE_INDEX a.gtCSEnum)) m.CSE_defMask } := by
          simp [MaskDataWalker.PreOrderVisit, IS_CSE_INDEX, IS_CSE_DEF, h0, hneg]
        have hd : IS_CSE_DEF a.gtCSEnum = true := by simp [IS_CSE_DEF, hneg]
        have hu : IS_CSE_USE a.gtCSEnum = false := by simp [IS_CSE_USE, hnp]
        rw [hstep, hd, hu]
        constructor
        · show bit ∈ insert (genCSEnum2bit (GET_CSE_INDEX a.gtCSEnum)) m.CSE_defMask ∨ _ ↔ _
          rw [Finset.mem_insert, e, show (true = true ∧
            genCSEnum2bit (GET_CSE_INDEX a.gtCSEnum) = bit) ↔
            (genCSEnum2bit (GET_CSE_INDEX a.gtCSEnum) = bit) from ⟨fun h => h.2, fun h => ⟨rfl, h⟩⟩]
          exact or_shuffle _ _ _
        · rw [show (false = true ∧ genCSEnum2bit (GET_CSE_INDEX a.gtCSEnum) = bit) ↔ False from
            ⟨fun h => Bool.noConfusion h.1, False.elim⟩, false_or]
      · have hp : 0 < a.gtCSEnum := by omega
        have hstep : MaskDataWalker.PreOrderVisit m a =
            { m with CSE_useMask :=
                insert (genCSEnum2bit (GET_CSE_INDEX a.gtCSEnum)) m.CSE_useMask } := by
          simp [MaskDataWalker.PreOrderVisit, IS_CSE_INDEX, IS_CSE_DEF, h0, hneg]
        have hd : IS_CSE_DEF a.gtCSEnum = false := by simp [IS_CSE_DEF, hneg]
        have hu : IS_CSE_USE a.gtCSEnum = true := by simp [IS_CSE_USE, hp]
        rw [hstep, hd, hu]
        constructor
        · rw [show (false = true ∧ genCSEnum2bit (GET_CSE_INDEX a.gtCSEnum) = bit) ↔ False from
            ⟨fun h => Bool.noConfusion h.1, False.elim⟩, false_or]
        · show bit ∈ insert (genCSEnum2bit (GET_CSE_INDEX a.gtCSEnum)) m.CSE_useMask ∨ _ ↔ _
          rw [Finset.mem_insert, e, show (true = true ∧
            genCSEnum2bit (GET_CSE_INDEX a.gtCSEnum) = bit) ↔
            (genCSEnum2bit (GET_CSE_INDEX a.gtCSEnum) = bit) from ⟨fun h => h.2, fun h => ⟨rfl, h⟩⟩]
          exact or_shuffle _ _ _

theorem GetMaskData_spec (tree : GenTree) (operands : GenTreeOps) (bit : Nat) :
    (bit ∈ (optCSE_GetMaskData tree operands).CSE_defMask ↔
      ∃ n ∈ tree :: operands.preOrder, IS_CSE_DEF n.gtCSEnum = true ∧
        genCSEnum2bit (GET_CSE_INDEX n.gtCSEnum) = bit) ∧
    (bit ∈ (optCSE_GetMaskData tree operands).CSE_useMask ↔
      ∃ n ∈ tree :: operands.preOrder, IS_CSE_USE n.gtCSEnum = true ∧
        genCSEnum2bit (GET_CSE_INDEX n.gtCSEnum) = bit) := by
  obtain ⟨h1, h2⟩ := maskFold_spec (tree :: operands.preOrder)
    { CSE_defMask := MakeEmpty, CSE_useMask := MakeEmpty } bit
  unfold optCSE_GetMaskData
  rw [h1, h2]
  simp [MakeEmpty]

theorem masks_meet_iff (t1 : GenTree) (o1 : GenTreeOps) (t2 : GenTree) (o2 : GenTreeOps) :
    ¬ ((optCSE_GetMaskData t1 o1).CSE_defMask ∩ (optCSE_GetMaskData t2 o2).CSE_useMask = ∅) ↔
      ∃ k, hasCseDef (t1 :: o1.preOrder) k ∧ hasCseUse (t2 :: o2.preOrder) k := by
  rw [← ne_eq, ← Finset.nonempty_iff_ne_empty]
  constructor
  · rintro ⟨bit, hbit⟩
    rw [Finset.mem_inter] at hbit
    obtain ⟨n1, hn1, hd1, hb1⟩ := (GetMaskData_spec t1 o1 bit).1.mp hbit.1
    obtain ⟨n2, hn2, hu2, hb2⟩ := (GetMaskData_spec t2 o2 bit).2.mp hbit.2
    refine ⟨GET_CSE_INDEX n1.gtCSEnum, ⟨n1, hn1, hd1, rfl⟩, ⟨n2, hn2, hu2, ?_⟩⟩
    have i1 : IS_CSE_INDEX n1.gtCSEnum = true := by
      unfold IS_CSE_DEF at hd1; unfold IS_CSE_INDEX
      simp only [decide_eq_true_eq] at hd1 ⊢; omega
    have i2 : IS_CSE_INDEX n2.gtCSEnum = true := by
      unfold IS_CSE_USE at hu2; unfold IS_CSE_INDEX
      simp only [decide_eq_true_eq] at hu2 ⊢; omega
    exact genCSEnum2bit_inj _ _ (GET_CSE_INDEX_pos _ i2) (GET_CSE_INDEX_pos _ i1)
      (hb2.trans hb1.symm)
  · rintro ⟨k, ⟨n1, hn1, hd1, hk1⟩, ⟨n2, hn2, hu2, hk2⟩⟩
    refine ⟨genCSEnum2bit k, ?_⟩
    rw [Finset.mem_inter]
    exact ⟨(GetMaskData_spec t1 o1 _).1.mpr ⟨n1, hn1, hd1, by rw [hk1]⟩,
      (GetMaskData_spec t2 o2 _).2.mpr ⟨n2, hn2, hu2, by rw [hk2]⟩⟩

/-- C12. `optCSE_canSwap(op1, op2)` returns true if and only if no candidate index is tagged
as a CSE def on some node of the tree of `op1` and as a CSE use on some node of the tree of
`op2`, and no candidate index is tagged as a def in the tree of `op2` and as a use in the tree
of `op1`. -/
theorem canSwap_iff_no_def_use_overlap (op1 : GenTree) (operands1 : GenTreeOps) (op2 : GenTree)
    (operands2 : GenTreeOps) :
    optCSE_canSwap op1 operands1 op2 operands2 = true ↔
      (¬ ∃ k, hasCseDef (op1 :: operands1.preOrder) k ∧
          hasCseUse (op2 :: operands2.preOrder) k) ∧
      (¬ ∃ k, hasCseDef (op2 :: operands2.preOrder) k ∧
          hasCseUse (op1 :: operands1.preOrder) k) := by
  rw [← masks_meet_iff, ← masks_meet_iff]
  unfold optCSE_canSwap
  by_cases h1 : (optCSE_GetMaskData op1 operands1).CSE_defMask ∩
      (optCSE_GetMaskData op2 operands2).CSE_useMask = ∅
  · by_cases h2 : (optCSE_GetMaskData op2 operands2).CSE_defMask ∩
        (optCSE_GetMaskData op1 operands1).CSE_useMask = ∅
    · simp [h1, h2]
    · simp [h1, h2]
  · simp [h1]

theorem canSwap_examples :
    optCSE_canSwap exSwapDef.1 exSwapDef.2 (exSwapUse 1).1 (exSwapUse 1).2 = false ∧
    optCSE_canSwap (exSwapUse 2).1 (exSwapUse 2).2 exSwapDef.1 exSwapDef.2 = true ∧
    optCSE_canSwap exSwapDef.1 exSwapDef.2 (exSwapUse 3).1 (exSwapUse 3).2 = true := by
  decide

/-! ## The labeler: calls and the two availability bits -/

section liveHelpers
variable (lib promise : ExcSet) (d : CSEdsc W)

theorem recordDef_live : (recordDefExcSet lib d).csdLiveAcrossCall = d.csdLiveAcrossCall := by
  unfold recordDefExcSet
  split
  · rfl
  · split <;> rfl

theorem promiseUse_live :
    (promiseUseExcSet lib promise d).csdLiveAcrossCall = d.csdLiveAcrossCall := by
  unfold promiseUseExcSet
  split
  · rfl
  · split <;> rfl

end liveHelpers

/-- What one visit of the labeler does to `available_cses`, to the tag and to
`csdLiveAcrossCall`. -/
theorem visit_avail [Add W] (stmw : W) (c c1 : Compiler W) (a a1 : EXPSET_TP) (t t1 : GenTree)
    (h : availabilityVisitTree stmw c a t = some (c1, a1, t1)) :
    (t.gtCSEnum = 0 ∧ c1 = c ∧ t1 = t ∧ a1 = availabilityCallKill c a t false false) ∨
    (t.gtCSEnum ≠ 0 ∧
      ∃ d0 d1, optCSEfindDsc c (GET_CSE_INDEX t.gtCSEnum) = some d0 ∧
        c1 = setDsc c (GET_CSE_INDEX t.gtCSEnum) d1 ∧
        d1.csdLiveAcrossCall =
          (markLiveAcrossCall (decide (getCSEAvailBit (GET_CSE_INDEX t.gtCSEnum) ∈ a))
            (decide (getCSEAvailCrossCallBit (GET_CSE_INDEX t.gtCSEnum) ∈ a))
            d0).csdLiveAcrossCall ∧
        ((t1 = setCSEnum t NO_CSE ∧ a1 = a) ∨
         (getCSEAvailBit (GET_CSE_INDEX t.gtCSEnum) ∉ a ∧
            t1 = setCSEnum t (TO_CSE_DEF t.gtCSEnum) ∧
            a1 = availabilityCallKill c
              (insert (getCSEAvailCrossCallBit (GET_CSE_INDEX t.gtCSEnum))
                (insert (getCSEAvailBit (GET_CSE_INDEX t.gtCSEnum)) a)) t1 false true) ∨
         (getCSEAvailBit (GET_CSE_INDEX t.gtCSEnum) ∈ a ∧ t1 = t ∧ a1 = a))) := by
  unfold availabilityVisitTree at h
  by_cases htag : t.gtCSEnum = 0
  · left
    simp [IS_CSE_INDEX, htag] at h
    exact ⟨htag, h.1.symm, h.2.2.symm, h.2.1.symm⟩
  · right
    refine ⟨htag, ?_⟩
    simp only [IS_CSE_INDEX, htag, ne_eq, not_false_eq_true, decide_True, if_true] at h
    cases hd : optCSEfindDsc c (GET_CSE_INDEX t.gtCSEnum) with
    | none => simp [hd] at h
    | some d0 =>
      simp only [hd] at h
      have hkill : ∀ x : EXPSET_TP, availabilityCallKill c x t true false = x := by
        intro x
        simp [availabilityCallKill]
      by_cases hu : getCSEAvailBit (GET_CSE_INDEX t.gtCSEnum) ∈ a
      · simp only [hu, decide_True] at h ⊢
        generalize hcr : decide (getCSEAvailCrossCallBit (GET_CSE_INDEX t.gtCSEnum) ∈ a) = cross
          at h ⊢
        cases hp : d0.defExcSetPromise with
        | none =>
          simp only [markLive_promise, hp] at h
          simp only [Option.some.injEq, Prod.mk.injEq] at h
          obtain ⟨rfl, rfl, rfl⟩ := h
          exact ⟨d0, _, rfl, rfl, rfl, Or.inl ⟨rfl, rfl⟩⟩
        | some promise =>
          simp only [markLive_promise, hp, Bool.not_true, Bool.false_eq_true, if_false] at h
          split_ifs at h with hne hdrop
          · simp only [Option.some.injEq, Prod.mk.injEq] at h
            obtain ⟨rfl, rfl, rfl⟩ := h
            exact ⟨d0, _, rfl, rfl, rfl, Or.inr (Or.inr ⟨trivial, rfl, hkill _⟩)⟩
          · simp only [Option.some.injEq, Prod.mk.injEq] at h
            obtain ⟨rfl, rfl, rfl⟩ := h
            exact ⟨d0, _, rfl, rfl, promiseUse_live _ _ _, Or.inl ⟨rfl, rfl⟩⟩
          · simp only [Option.some.injEq, Prod.mk.injEq] at h
            obtain ⟨rfl, rfl, rfl⟩ := h
            exact ⟨d0, _, rfl, rfl, promiseUse_live _ _ _, Or.inr (Or.inr ⟨trivial, rfl, hkill _⟩)⟩
      · simp only [hu, decide_False] at h ⊢
        generalize hcr : decide (getCSEAvailCrossCallBit (GET_CSE_INDEX t.gtCSEnum) ∈ a) = cross
          at h ⊢
        cases hp : d0.defExcSetPromise with
        | none =>
          simp only [markLive_promise, hp] at h
          simp only [Option.some.injEq, Prod.mk.injEq] at h
          obtain ⟨rfl, rfl, rfl⟩ := h
          exact ⟨d0, _, rfl, rfl, rfl, Or.inl ⟨rfl, rfl⟩⟩
        | some promise =>
          simp only [markLive_promise, hp, Bool.not_false, if_true] at h
          split_ifs at h with hab
          · simp only [Option.some.injEq, Prod.mk.injEq] at h
            obtain ⟨rfl, rfl, rfl⟩ := h
            exact ⟨d0, _, rfl, rfl, recordDef_live _ _, Or.inl ⟨rfl, rfl⟩⟩
          · simp only [Option.some.injEq, Prod.mk.injEq] at h
            obtain ⟨rfl, rfl, rfl⟩ := h
            exact ⟨d0, _, rfl, rfl, recordDef_live _ _, Or.inr (Or.inl ⟨not_false, rfl, rfl⟩)⟩

theorem exists_mem_cons_nat (P : Nat → Prop) (x : Nat) (rest : List Nat) :
    (∃ i ∈ x :: rest, P i) ↔ P x ∨ ∃ i ∈ rest, P i := by
  simp only [List.mem_cons, exists_eq_or_imp]

theorem mem_initCallKillsMask_fold : ∀ (l : List Nat) (m : EXPSET_TP) (b : Nat),
    b ∈ l.foldl (fun m i => insert (getCSEAvailBit (i + 1)) m) m ↔
      b ∈ m ∨ ∃ i ∈ l, b = getCSEAvailBit (i + 1) := by
  intro l
  induction l with
  | nil => intro m b; simp
  | cons x rest ih =>
    intro m b
    simp only [List.foldl_cons]
    rw [ih, Finset.mem_insert, exists_mem_cons_nat]
    constructor
    · rintro ((h | h) | h)
      · exact Or.inr (Or.inl h)
      · exact Or.inl h
      · exact Or.inr (Or.inr h)
    · rintro (h | h | h)
      · exact Or.inl (Or.inr h)
      · exact Or.inl (Or.inl h)
      · exact Or.inr h

theorem mem_initCallKillsMask (n b : Nat) :
    b ∈ initCallKillsMask n ↔ ∃ k, 1 ≤ k ∧ k ≤ n ∧ b = getCSEAvailBit k := by
  unfold initCallKillsMask
  rw [mem_initCallKillsMask_fold]
  simp only [MakeEmpty, Finset.not_mem_empty, false_or, List.mem_range]
  constructor
  · rintro ⟨i, hi, hb⟩
    exact ⟨i + 1, by omega, by omega, hb⟩
  · rintro ⟨k, h1, h2, hb⟩
    refine ⟨k - 1, by omega, ?_⟩
    rw [hb]
    congr 1
    omega

theorem availBit_ne_crossBit (j k : Nat) : getCSEAvailBit j ≠ getCSEAvailCrossCallBit k := by
  unfold getCSEAvailCrossCallBit getCSEAvailBit
  omega

theorem availBit_inj (j k : Nat) (hj : 1 ≤ j) (hk : 1 ≤ k)
    (h : getCSEAvailBit j = getCSEAvailBit k) : j = k := by
  unfold getCSEAvailBit genCSEnum2bit at h
  omega

theorem crossBit_inj (j k : Nat) (hj : 1 ≤ j) (hk : 1 ≤ k)
    (h : getCSEAvailCrossCallBit j = getCSEAvailCrossCallBit k) : j = k := by
  unfold getCSEAvailCrossCallBit getCSEAvailBit genCSEnum2bit at h
  omega

theorem availBit_mem_mask (n k : Nat) (h1 : 1 ≤ k) (h2 : k ≤ n) :
    getCSEAvailBit k ∈ initCallKillsMask n :=
  (mem_initCallKillsMask n _).mpr ⟨k, h1, h2, rfl⟩

theorem crossBit_not_mem_mask (n k : Nat) : getCSEAvailCrossCallBit k ∉ initCallKillsMask n := by
  intro h
  obtain ⟨j, _, _, hb⟩ := (mem_initCallKillsMask n _).mp h
  exact availBit_ne_crossBit j k hb.symm

theorem findDsc_le {c : Compiler W} {k : Nat} {d : CSEdsc W}
    (h : optCSEfindDsc c k = some d) : 1 ≤ k ∧ k ≤ c.optCSECandidateCount := by
  unfold optCSEfindDsc at h
  split_ifs at h with h0 h1
  omega

/-- C17. In `optValnumCSE_Availability`, after a call node that is not an async kill and is
itself an accepted def of candidate `k` has been processed (the call-kill mask being the one
`optValnumCSE_InitDataFlow` builds): both bits of `k` are in `available_cses`, the
available-across-call bit of every other candidate is absent, and the available bit of every
other candidate `1..optCSECandidateCount` is as it was before the node. -/
theorem call_def_keeps_its_own_bits [Add W] (stmw : W) (c c1 : Compiler W) (a a1 : EXPSET_TP)
    (t t1 : GenTree) (h : availabilityVisitTree stmw c a t = some (c1, a1, t1))
    (hcall : t.isCall = true) (hasync : (t.isAsyncCall && c.compIsAsync) = false)
    (htag : t.gtCSEnum ≠ 0) (hacc : t1.gtCSEnum = TO_CSE_DEF t.gtCSEnum)
    (hmask : c.cseCallKillsMask = initCallKillsMask c.optCSECandidateCount) :
    getCSEAvailBit (GET_CSE_INDEX t.gtCSEnum) ∈ a1 ∧
    getCSEAvailCrossCallBit (GET_CSE_INDEX t.gtCSEnum) ∈ a1 ∧
    (∀ j, 1 ≤ j → j ≠ GET_CSE_INDEX t.gtCSEnum → getCSEAvailCrossCallBit j ∉ a1) ∧
    (∀ j, 1 ≤ j → j ≤ c.optCSECandidateCount → j ≠ GET_CSE_INDEX t.gtCSEnum →
      (getCSEAvailBit j ∈ a1 ↔ getCSEAvailBit j ∈ a)) := by
  rcases visit_avail stmw c c1 a a1 t t1 h with ⟨h0, _⟩ | ⟨_, d0, d1, hd, _, _, hcase⟩
  · exact absurd h0 htag
  · obtain ⟨hk1, hk2⟩ := findDsc_le hd
    rcases hcase with ⟨ht1, _⟩ | ⟨hnu, ht1, ha1⟩ | ⟨_, ht1, _⟩
    · rw [ht1] at hacc
      exact absurd hacc.symm (tag_neg_ne_zero htag)
    · have hidx : GET_CSE_INDEX t1.gtCSEnum = GET_CSE_INDEX t.gtCSEnum := by
        rw [ht1]; exact GET_CSE_INDEX_neg _
      have hcall1 : t1.isCall = true := by rw [ht1]; exact hcall
      have hasync1 : (t1.isAsyncCall && c.compIsAsync) = false := by rw [ht1]; exact hasync
      have hne : insert (getCSEAvailCrossCallBit (GET_CSE_INDEX t.gtCSEnum))
          (insert (getCSEAvailBit (GET_CSE_INDEX t.gtCSEnum)) a) ≠ MakeEmpty := by
        intro he
        have : getCSEAvailCrossCallBit (GET_CSE_INDEX t.gtCSEnum) ∈ MakeEmpty := by
          rw [← he]; exact Finset.mem_insert_self _ _
        simp [MakeEmpty] at this
      have hval : a1 = insert (getCSEAvailCrossCallBit (GET_CSE_INDEX t.gtCSEnum))
          ((insert (getCSEAvailCrossCallBit (GET_CSE_INDEX t.gtCSEnum))
            (insert (getCSEAvailBit (GET_CSE_INDEX t.gtCSEnum)) a)) ∩
            initCallKillsMask c.optCSECandidateCount) := by
        rw [ha1]
        unfold availabilityCallKill
        simp only [hcall1, if_true, hne, ne_eq, not_false_eq_true, Bool.false_eq_true, if_false,
          hasync1, hidx, hmask]
      rw [hval]
      refine ⟨?_, Finset.mem_insert_self _ _, ?_, ?_⟩
      · apply Finset.mem_insert_of_mem
        rw [Finset.mem_inter]
        exact ⟨Finset.mem_insert_of_mem (Finset.mem_insert_self _ _),
          availBit_mem_mask _ _ hk1 hk2⟩
      · intro j hj hne1 hmem
        rcases Finset.mem_insert.mp hmem with h1 | h1
        · exact hne1 (crossBit_inj _ _ hj hk1 h1)
        · exact crossBit_not_mem_mask _ _ (Finset.mem_inter.mp h1).2
      · intro j hj1 hj2 hne1
        constructor
        · intro hmem
          rcases Finset.mem_insert.mp hmem with h1 | h1
          · exact absurd h1 (availBit_ne_crossBit _ _)
          · rcases Finset.mem_insert.mp (Finset.mem_inter.mp h1).1 with h2 | h2
            · exact absurd h2 (availBit_ne_crossBit _ _)
            · rcases Finset.mem_insert.mp h2 with h3 | h3
              · exact absurd (availBit_inj _ _ hj1 hk1 h3) hne1
              · exact h3
        · intro hmem
          apply Finset.mem_insert_of_mem
          rw [Finset.mem_inter]
          exact ⟨Finset.mem_insert_of_mem (Finset.mem_insert_of_mem hmem),
            availBit_mem_mask _ _ hj1 hj2⟩
    · rw [ht1] at hacc
      exact absurd hacc.symm (tag_neg_ne_self htag)

/-! ### Bits along a walk -/

theorem callKill_subset (c : Compiler W) (x : EXPSET_TP) (t : GenTree) (isDef : Bool) :
    availabilityCallKill c x t false isDef ⊆
      insert (getCSEAvailCrossCallBit (GET_CSE_INDEX t.gtCSEnum)) x ∧
    (isDef = false → availabilityCallKill c x t false isDef ⊆ x) := by
  unfold availabilityCallKill
  constructor
  · intro b hb
    split_ifs at hb
    all_goals first
      | exact Finset.mem_insert_of_mem hb
      | (rcases Finset.mem_insert.mp hb with h1 | h1
         · rw [h1]; exact Finset.mem_insert_self _ _
         · apply Finset.mem_insert_of_mem
           simp only [Finset.mem_inter] at h1
           first | exact h1.1.1 | exact h1.1)
      | (apply Finset.mem_insert_of_mem
         simp only [Finset.mem_inter] at hb
         first | exact hb.1.1 | exact hb.1)
  · intro hd b hb
    subst hd
    split_ifs at hb
    all_goals first
      | exact hb
      | (simp only [Finset.mem_inter] at hb
         first | exact hb.1.1 | exact hb.1)

theorem callKill_keeps (c : Compiler W) (x : EXPSET_TP) (t : GenTree) (isDef : Bool) (b : Nat)
    (hno : (t.isCall && t.isAsyncCall && c.compIsAsync) = false)
    (hb : b ∈ c.cseCallKillsMask) (hx : b ∈ x) :
    b ∈ availabilityCallKill c x t false isDef := by
  unfold availabilityCallKill
  by_cases hc : t.isCall = true
  · have hno1 : (t.isAsyncCall && c.compIsAsync) = false := by
      rw [hc] at hno
      simpa using hno
    simp only [hc, if_true, hno1, Bool.false_eq_true, if_false]
    split_ifs
    · exact Finset.mem_insert_of_mem (Finset.mem_inter.mpr ⟨hx, hb⟩)
    · exact Finset.mem_inter.mpr ⟨hx, hb⟩
    · exact hx
  · simp only [hc, Bool.false_eq_true, if_false]
    exact hx

theorem visit_static [Add W] {stmw : W} {c c1 : Compiler W} {a a1 : EXPSET_TP} {t t1 : GenTree}
    (h : availabilityVisitTree stmw c a t = some (c1, a1, t1)) :
    c1.cseCallKillsMask = c.cseCallKillsMask ∧ c1.cseAsyncKillsMask = c.cseAsyncKillsMask ∧
    c1.compIsAsync = c.compIsAsync ∧ c1.optCSECandidateCount = c.optCSECandidateCount := by
  rcases visit_avail stmw c c1 a a1 t t1 h with ⟨_, hc, _⟩ | ⟨_, d0, d1, _, hc, _⟩
  · rw [hc]; exact ⟨rfl, rfl, rfl, rfl⟩
  · rw [hc]; exact ⟨rfl, rfl, rfl, rfl⟩

theorem visit_keeps_avail [Add W] {stmw : W} {c c1 : Compiler W} {a a1 : EXPSET_TP}
    {t t1 : GenTree} (h : availabilityVisitTree stmw c a t = some (c1, a1, t1)) (b : Nat)
    (hno : (t.isCall && t.isAsyncCall && c.compIsAsync) = false)
    (hb : b ∈ c.cseCallKillsMask) (hx : b ∈ a) : b ∈ a1 := by
  rcases visit_avail stmw c c1 a a1 t t1 h with ⟨_, _, _, ha⟩ | ⟨_, d0, d1, _, _, _, hcase⟩
  · rw [ha]; exact callKill_keeps c a t false b hno hb hx
  · rcases hcase with ⟨_, ha⟩ | ⟨_, ht1, ha⟩ | ⟨_, _, ha⟩
    · rw [ha]; exact hx
    · rw [ha]
      refine callKill_keeps c _ t1 true b ?_ hb
        (Finset.mem_insert_of_mem (Finset.mem_insert_of_mem hx))
      rw [ht1]; exact hno
    · rw [ha]; exact hx

theorem visit_keeps_absent [Add W] {stmw : W} {c c1 : Compiler W} {a a1 : EXPSET_TP}
    {t t1 : GenTree} (h : availabilityVisitTree stmw c a t = some (c1, a1, t1)) (k : Nat)
    (hk : 1 ≤ k) (hother : t.gtCSEnum ≠ 0 → GET_CSE_INDEX t.gtCSEnum ≠ k) :
    (getCSEAvailBit k ∉ a → getCSEAvailBit k ∉ a1) ∧
    (getCSEAvailCrossCallBit k ∉ a → getCSEAvailCrossCallBit k ∉ a1) := by
  rcases visit_avail stmw c c1 a a1 t t1 h with ⟨_, _, _, ha⟩ | ⟨htag, d0, d1, hd, _, _, hcase⟩
  · rw [ha]
    have hs := (callKill_subset c a t false).2 rfl
    exact ⟨fun hn hm => hn (hs hm), fun hn hm => hn (hs hm)⟩
  · obtain ⟨hj1, _⟩ := findDsc_le hd
    have hjk := hother htag
    rcases hcase with ⟨_, ha⟩ | ⟨_, ht1, ha⟩ | ⟨_, _, ha⟩
    · rw [ha]; exact ⟨id, id⟩
    · rw [ha]
      have hs := (callKill_subset c (insert (getCSEAvailCrossCallBit (GET_CSE_INDEX t.gtCSEnum))
        (insert (getCSEAvailBit (GET_CSE_INDEX t.gtCSEnum)) a)) t1 true).1
      have hidx : GET_CSE_INDEX t1.gtCSEnum = GET_CSE_INDEX t.gtCSEnum := by
        rw [ht1]; exact GET_CSE_INDEX_neg _
      rw [hidx] at hs
      constructor
      · intro hn hm
        rcases Finset.mem_insert.mp (hs hm) with h1 | h1
        · exact availBit_ne_crossBit _ _ h1
        · rcases Finset.mem_insert.mp h1 with h2 | h2
          · exact availBit_ne_crossBit _ _ h2
          · rcases Finset.mem_insert.mp h2 with h3 | h3
            · exact hjk (availBit_inj _ _ hk hj1 h3).symm
            · exact hn h3
      · intro hn hm
        rcases Finset.mem_insert.mp (hs hm) with h1 | h1
        · exact hjk (crossBit_inj _ _ hk hj1 h1).symm
        · rcases Finset.mem_insert.mp h1 with h2 | h2
          · exact hjk (crossBit_inj _ _ hk hj1 h2).symm
          · rcases Finset.mem_insert.mp h2 with h3 | h3
            · exact availBit_ne_crossBit _ _ h3.symm
            · exact hn h3
    · rw [ha]; exact ⟨id, id⟩

theorem trees_cons [Add W] (stmw : W) (t : GenTree) (rest : List GenTree) (c c2 : Compiler W)
    (a a2 : EXPSET_TP) (out : List GenTree)
    (h : availabilityTrees stmw c a (t :: rest) = some (c2, a2, out)) :
    ∃ c1 a1 t1 out2, availabilityVisitTree stmw c a t = some (c1, a1, t1) ∧
      availabilityTrees stmw c1 a1 rest = some (c2, a2, out2) ∧ out = t1 :: out2 := by
  simp only [availabilityTrees] at h
  cases hv : availabilityVisitTree stmw c a t with
  | none => simp [hv] at h
  | some r =>
    obtain ⟨c1, a1, t1⟩ := r
    simp only [hv] at h
    cases hr : availabilityTrees stmw c1 a1 rest with
    | none => simp [hr] at h
    | some r2 =>
      obtain ⟨c3, a3, ts⟩ := r2
      simp only [hr, Option.some.injEq, Prod.mk.injEq] at h
      obtain ⟨rfl, rfl, rfl⟩ := h
      exact ⟨c1, a1, t1, ts, rfl, hr, rfl⟩

theorem trees_append [Add W] (stmw : W) : ∀ (l1 l2 : List GenTree) (c c2 : Compiler W)
    (a a2 : EXPSET_TP) (out : List GenTree),
    availabilityTrees stmw c a (l1 ++ l2) = some (c2, a2, out) →
    ∃ c1 a1 out1 out2, availabilityTrees stmw c a l1 = some (c1, a1, out1) ∧
      availabilityTrees stmw c1 a1 l2 = some (c2, a2, out2) ∧ out = out1 ++ out2 := by
  intro l1
  induction l1 with
  | nil =>
    intro l2 c c2 a a2 out h
    exact ⟨c, a, [], out, rfl, h, rfl⟩
  | cons t rest ih =>
    intro l2 c c2 a a2 out h
    rw [List.cons_append] at h
    obtain ⟨c1, a1, t1, o, hv, hr, ho⟩ := trees_cons stmw t (rest ++ l2) c c2 a a2 out h
    obtain ⟨c4, a4, o1, o2, h1, h2, h3⟩ := ih l2 c1 c2 a1 a2 o hr
    refine ⟨c4, a4, t1 :: o1, o2, ?_, h2, by rw [ho, h3]; rfl⟩
    simp only [availabilityTrees, hv, h1]

theorem trees_static [Add W] (stmw : W) : ∀ (l : List GenTree) (c c1 : Compiler W)
    (a a1 : EXPSET_TP) (out : List GenTree),
    availabilityTrees stmw c a l = some (c1, a1, out) →
    c1.cseCallKillsMask = c.cseCallKillsMask ∧ c1.cseAsyncKillsMask = c.cseAsyncKillsMask ∧
    c1.compIsAsync = c.compIsAsync ∧ c1.optCSECandidateCount = c.optCSECandidateCount := by
  intro l
  induction l with
  | nil =>
    intro c c1 a a1 out h
    simp only [availabilityTrees, Option.some.injEq, Prod.mk.injEq] at h
    obtain ⟨rfl, -, -⟩ := h
    exact ⟨rfl, rfl, rfl, rfl⟩
  | cons t rest ih =>
    intro c c1 a a1 out h
    obtain ⟨c2, a2, t2, o2, h1, h2, _⟩ := trees_cons stmw t rest c c1 a a1 out h
    obtain ⟨s1, s2, s3, s4⟩ := visit_static h1
    obtain ⟨r1, r2, r3, r4⟩ := ih c2 c1 a2 a1 o2 h2
    exact ⟨r1.trans s1, r2.trans s2, r3.trans s3, r4.trans s4⟩

theorem trees_keep_avail [Add W] (stmw : W) (b : Nat) : ∀ (l : List GenTree)
    (c c1 : Compiler W) (a a1 : EXPSET_TP) (out : List GenTree),
    availabilityTrees stmw c a l = some (c1, a1, out) →
    (∀ t ∈ l, (t.isCall && t.isAsyncCall && c.compIsAsync) = false) →
    b ∈ c.cseCallKillsMask → b ∈ a → b ∈ a1 := by
  intro l
  induction l with
  | nil =>
    intro c c1 a a1 out h _ _ hx
    simp only [availabilityTrees, Option.some.injEq, Prod.mk.injEq] at h
    obtain ⟨-, rfl, -⟩ := h
    exact hx
  | cons t rest ih =>
    intro c c1 a a1 out h hno hb hx
    obtain ⟨c2, a2, t2, o2, h1, h2, _⟩ := trees_cons stmw t rest c c1 a a1 out h
    obtain ⟨s1, _, s3, _⟩ := visit_static h1
    refine ih c2 c1 a2 a1 o2 h2 ?_ (by rw [s1]; exact hb)
      (visit_keeps_avail h1 b (hno t (List.mem_cons_self _ _)) hb hx)
    intro u hu
    rw [s3]
    exact hno u (List.mem_cons_of_mem _ hu)

theorem trees_keep_absent [Add W] (stmw : W) (k : Nat) (hk : 1 ≤ k) : ∀ (l : List GenTree)
    (c c1 : Compiler W) (a a1 : EXPSET_TP) (out : List GenTree),
    availabilityTrees stmw c a l = some (c1, a1, out) →
    (∀ t ∈ l, t.gtCSEnum ≠ 0 → GET_CSE_INDEX t.gtCSEnum ≠ k) →
    (getCSEAvailBit k ∉ a → getCSEAvailBit k ∉ a1) ∧
    (getCSEAvailCrossCallBit k ∉ a → getCSEAvailCrossCallBit k ∉ a1) := by
  intro l
  induction l with
  | nil =>
    intro c c1 a a1 out h _
    simp only [availabilityTrees, Option.some.injEq, Prod.mk.injEq] at h
    obtain ⟨-, rfl, -⟩ := h
    exact ⟨id, id⟩
  | cons t rest ih =>
    intro c c1 a a1 out h hother
    obtain ⟨c2, a2, t2, o2, h1, h2, _⟩ := trees_cons stmw t rest c c1 a a1 out h
    obtain ⟨v1, v2⟩ := visit_keeps_absent h1 k hk (hother t (List.mem_cons_self _ _))
    obtain ⟨r1, r2⟩ := ih c2 c1 a2 a1 o2 h2 (fun u hu => hother u (List.mem_cons_of_mem _ hu))
    exact ⟨fun hn => r1 (v1 hn), fun hn => r2 (v2 hn)⟩

theorem markLive_true (d : CSEdsc W) :
    (markLiveAcrossCall true false d).csdLiveAcrossCall = true := by
  unfold markLiveAcrossCall
  cases h : d.csdLiveAcrossCall <;> simp [h]

theorem callKill_call_sub_mask (c : Compiler W) (x : EXPSET_TP) (t : GenTree)
    (hcall : t.isCall = true) (hne : x ≠ MakeEmpty) :
    availabilityCallKill c x t false false ⊆ c.cseCallKillsMask := by
  intro b hb
  unfold availabilityCallKill at hb
  simp only [hcall, if_true, hne, ne_eq, not_false_eq_true, Bool.false_eq_true, if_false] at hb
  split_ifs at hb
  · exact (Finset.mem_inter.mp (Finset.mem_inter.mp hb).1).2
  · exact (Finset.mem_inter.mp hb).2

/-- C16. In `optValnumCSE_Availability`, within the nodes of a block: when an accepted def of
candidate `k` is followed by a call node that carries no CSE tag and then by another occurrence
of `k`, with no async kill on the way and no node of `k` between the call and that occurrence
(the call-kill mask being the one `optValnumCSE_InitDataFlow` builds), the later occurrence is
reached with the available bit of `k` set and its available-across-call bit clear, so it is
classified as a use (its tag is kept or cleared, never turned into a def tag), and the
candidate has `csdLiveAcrossCall` set afterwards. -/
theorem def_call_use_marks_live_across_call [Add W] (stmw : W) (c c1 : Compiler W)
    (a a1 : EXPSET_TP) (tdef tcall tocc : GenTree) (mid1 mid2 out : List GenTree)
    (hrun : availabilityTrees stmw c a (tdef :: (mid1 ++ tcall :: (mid2 ++ [tocc]))) =
      some (c1, a1, out))
    (hmask : c.cseCallKillsMask = initCallKillsMask c.optCSECandidateCount)
    (hdef : tdef.gtCSEnum ≠ 0)
    (hacc : (out.head?.map fun t => t.gtCSEnum) = some (TO_CSE_DEF tdef.gtCSEnum))
    (hcall : tcall.isCall = true) (hcalltag : tcall.gtCSEnum = 0)
    (hno : ∀ t ∈ tdef :: (mid1 ++ tcall :: mid2),
      (t.isCall && t.isAsyncCall && c.compIsAsync) = false)
    (hmid2 : ∀ t ∈ mid2, t.gtCSEnum ≠ 0 →
      GET_CSE_INDEX t.gtCSEnum ≠ GET_CSE_INDEX tdef.gtCSEnum)
    (hocc : tocc.gtCSEnum ≠ 0)
    (hocck : GET_CSE_INDEX tocc.gtCSEnum = GET_CSE_INDEX tdef.gtCSEnum) :
    ∃ c2 a2 outp tfin d,
      availabilityTrees stmw c a (tdef :: (mid1 ++ tcall :: mid2)) = some (c2, a2, outp) ∧
      availabilityVisitTree stmw c2 a2 tocc = some (c1, a1, tfin) ∧
      getCSEAvailBit (GET_CSE_INDEX tdef.gtCSEnum) ∈ a2 ∧
      getCSEAvailCrossCallBit (GET_CSE_INDEX tdef.gtCSEnum) ∉ a2 ∧
      (tfin.gtCSEnum = tocc.gtCSEnum ∨ tfin.gtCSEnum = NO_CSE) ∧
      optCSEfindDsc c1 (GET_CSE_INDEX tdef.gtCSEnum) = some d ∧
      d.csdLiveAcrossCall = true := by
  have hlist : tdef :: (mid1 ++ tcall :: (mid2 ++ [tocc])) =
      (tdef :: (mid1 ++ tcall :: mid2)) ++ [tocc] := by
    simp
  rw [hlist] at hrun
  obtain ⟨c2, a2, outp, outl, hpre, hlast, hout⟩ :=
    trees_append stmw _ _ c c1 a a1 out hrun
  obtain ⟨c3, a3, tfin, o3, hvis, hnil, _⟩ := trees_cons stmw tocc [] c2 c1 a2 a1 outl hlast
  simp only [availabilityTrees, Option.some.injEq, Prod.mk.injEq] at hnil
  obtain ⟨rfl, rfl, -⟩ := hnil
  -- the def
  obtain ⟨cA, aA, tA, oA, hvA, hrA, hoA⟩ :=
    trees_cons stmw tdef (mid1 ++ tcall :: mid2) c c2 a a2 outp hpre
  have htA : tA.gtCSEnum = TO_CSE_DEF tdef.gtCSEnum := by
    rw [hout, hoA] at hacc
    simpa using hacc
  obtain ⟨sA1, _, sA3, sA4⟩ := visit_static hvA
  have hnoA : (tdef.isCall && tdef.isAsyncCall && c.compIsAsync) = false :=
    hno tdef (List.mem_cons_self _ _)
  have hkA : getCSEAvailBit (GET_CSE_INDEX tdef.gtCSEnum) ∈ aA ∧
      1 ≤ GET_CSE_INDEX tdef.gtCSEnum ∧
      GET_CSE_INDEX tdef.gtCSEnum ≤ c.optCSECandidateCount := by
    rcases visit_avail stmw c cA a aA tdef tA hvA with ⟨h0, _⟩ | ⟨_, d0, d1, hd, _, _, hcase⟩
    · exact absurd h0 hdef
    · obtain ⟨hk1, hk2⟩ := findDsc_le hd
      refine ⟨?_, hk1, hk2⟩
      rcases hcase with ⟨ht1, _⟩ | ⟨_, ht1, ha1⟩ | ⟨_, ht1, _⟩
      · rw [ht1] at htA
        exact absurd htA.symm (tag_neg_ne_zero hdef)
      · rw [ha1]
        refine callKill_keeps c _ tA true _ ?_ ?_
          (Finset.mem_insert_of_mem (Finset.mem_insert_self _ _))
        · rw [ht1]; exact hnoA
        · rw [hmask]; exact availBit_mem_mask _ _ hk1 hk2
      · rw [ht1] at htA
        exact absurd htA.symm (tag_neg_ne_self hdef)
  obtain ⟨hkA, hk1, hk2⟩ := hkA
  have hbit : getCSEAvailBit (GET_CSE_INDEX tdef.gtCSEnum) ∈ c.cseCallKillsMask := by
    rw [hmask]; exact availBit_mem_mask _ _ hk1 hk2
  -- the nodes up to the call
  obtain ⟨cB, aB, oB1, oB2, hrB, hrC, _⟩ :=
    trees_append stmw mid1 (tcall :: mid2) cA c2 aA a2 oA hrA
  obtain ⟨sB1, _, sB3, sB4⟩ := trees_static stmw mid1 cA cB aA aB oB1 hrB
  have hkB : getCSEAvailBit (GET_CSE_INDEX tdef.gtCSEnum) ∈ aB := by
    refine trees_keep_avail stmw _ mid1 cA cB aA aB oB1 hrB ?_ (by rw [sA1]; exact hbit) hkA
    intro u hu
    rw [sA3]
    exact hno u (List.mem_cons_of_mem _ (List.mem_append_left _ hu))
  -- the call
  obtain ⟨cC, aC, tC, oC, hvC, hrD, _⟩ := trees_cons stmw tcall mid2 cB c2 aB a2 oB2 hrC
  obtain ⟨sC1, _, sC3, sC4⟩ := visit_static hvC
  have hnoC : (tcall.isCall && tcall.isAsyncCall && cB.compIsAsync) = false := by
    rw [sB3, sA3]
    exact hno tcall (List.mem_cons_of_mem _ (List.mem_append_right _ (List.mem_cons_self _ _)))
  have hmB : cB.cseCallKillsMask = c.cseCallKillsMask := sB1.trans sA1
  have hkC : getCSEAvailBit (GET_CSE_INDEX tdef.gtCSEnum) ∈ aC ∧
      getCSEAvailCrossCallBit (GET_CSE_INDEX tdef.gtCSEnum) ∉ aC := by
    rcases visit_avail stmw cB cC aB aC tcall tC hvC with ⟨_, _, _, ha⟩ | ⟨h0, _⟩
    · rw [ha]
      refine ⟨callKill_keeps cB aB tcall false _ hnoC (by rw [hmB]; exact hbit) hkB, ?_⟩
      intro hm
      have hne : aB ≠ MakeEmpty := by
        intro he
        rw [he] at hkB
        simp [MakeEmpty] at hkB
      have := callKill_call_sub_mask cB aB tcall hcall hne hm
      rw [hmB, hmask] at this
      exact crossBit_not_mem_mask _ _ this
    · exact absurd hcalltag h0
  -- the nodes between the call and the occurrence
  obtain ⟨sD1, _, sD3, sD4⟩ := trees_static stmw mid2 cC c2 aC a2 oC hrD
  have hk2a : getCSEAvailBit (GET_CSE_INDEX tdef.gtCSEnum) ∈ a2 := by
    refine trees_keep_avail stmw _ mid2 cC c2 aC a2 oC hrD ?_
      (by rw [sC1, hmB]; exact hbit) hkC.1
    intro u hu
    rw [sC3, sB3, sA3]
    exact hno u (List.mem_cons_of_mem _ (List.mem_append_right _ (List.mem_cons_of_mem _ hu)))
  have hk2c : getCSEAvailCrossCallBit (GET_CSE_INDEX tdef.gtCSEnum) ∉ a2 :=
    (trees_keep_absent stmw _ hk1 mid2 cC c2 aC a2 oC hrD hmid2).2 hkC.2
  -- the occurrence
  rcases visit_avail stmw c2 c3 a2 a3 tocc tfin hvis with
    ⟨h0, _⟩ | ⟨_, d0, d1, hd, hc1, hlive, hcase⟩
  · exact absurd h0 hocc
  · rw [hocck] at hd hc1 hlive hcase
    have hl : d1.csdLiveAcrossCall = true := by
      rw [hlive]
      simp only [hk2a, hk2c, decide_True, decide_False]
      exact markLive_true d0
    refine ⟨c2, a2, outp, tfin, d1, hpre, hvis, hk2a, hk2c, ?_, ?_, hl⟩
    · rcases hcase with ⟨ht, _⟩ | ⟨hn, _⟩ | ⟨_, ht, _⟩
      · exact Or.inr (by rw [ht]; rfl)
      · exact absurd hk2a hn
      · exact Or.inl (by rw [ht])
    · rw [hc1]
      exact findDsc_setDsc_same c2 _ d0 d1 hd

/-! ### The async kill -/

theorem asyncKillsLoop_spec (TYP_BYREF TYP_STRUCT : Nat) (layoutHasGCByRef : GenTree → Bool)
    (tab : List (Option (CSEdsc W))) : ∀ (l : List Nat) (m m1 : EXPSET_TP),
    asyncKillsLoop TYP_BYREF TYP_STRUCT layoutHasGCByRef tab l m = some m1 →
    m1 ⊆ m ∧ ∀ inx ∈ l, ∀ d, (tab.get? (inx - 1)).join = some d →
      isByRefCSE TYP_BYREF TYP_STRUCT layoutHasGCByRef d.csdTreeList.tslTree = true →
      getCSEAvailBit inx ∉ m1 ∧ getCSEAvailCrossCallBit inx ∉ m1 := by
  intro l
  induction l with
  | nil =>
    intro m m1 h
    simp only [asyncKillsLoop, Option.some.injEq] at h
    subst h
    exact ⟨Finset.Subset.refl _, fun inx hi => absurd hi (List.not_mem_nil _)⟩
  | cons x rest ih =>
    intro m m1 h
    unfold asyncKillsLoop at h
    split at h
    · exact absurd h (by simp)
    · rename_i dx hx
      by_cases hb : isByRefCSE TYP_BYREF TYP_STRUCT layoutHasGCByRef dx.csdTreeList.tslTree = true
      · rw [if_pos hb] at h
        obtain ⟨h1, h2⟩ := ih _ m1 h
        have hsub : m1 ⊆ m := fun b hbm =>
          Finset.mem_of_mem_erase (Finset.mem_of_mem_erase (h1 hbm))
        refine ⟨hsub, ?_⟩
        intro inx hi d hd hbr
        rcases List.mem_cons.mp hi with rfl | hi1
        · constructor
          · intro hm
            have h3 := Finset.mem_of_mem_erase (h1 hm)
            exact (Finset.mem_erase.mp h3).1 rfl
          · intro hm
            exact (Finset.mem_erase.mp (h1 hm)).1 rfl
        · exact h2 inx hi1 d hd hbr
      · rw [if_neg hb] at h
        obtain ⟨h1, h2⟩ := ih _ m1 h
        refine ⟨h1, ?_⟩
        intro inx hi d hd hbr
        rcases List.mem_cons.mp hi with rfl | hi1
        · rw [hx] at hd
          obtain rfl := Option.some.inj hd
          exact absurd hbr hb
        · exact h2 inx hi1 d hd hbr

theorem callKill_async (c : Compiler W) (x : EXPSET_TP) (t : GenTree) (b : Nat)
    (hcall : t.isCall = true) (hac : t.isAsyncCall = true) (hasync : c.compIsAsync = true)
    (hb : b ∉ c.cseAsyncKillsMask) : b ∉ availabilityCallKill c x t false false := by
  intro hm
  unfold availabilityCallKill at hm
  simp only [hcall, if_true, hac, hasync, Bool.and_self, Bool.false_eq_true, if_false] at hm
  split_ifs at hm with hne
  · exact hb (Finset.mem_inter.mp hm).2
  · have : x = MakeEmpty := by simpa using hne
    rw [this] at hm
    simp [MakeEmpty] at hm

/-- C18 (scenario S6). In an async procedure, for a candidate `k` whose first tree is of by-ref
type (or a struct with by-ref fields), `cseAsyncKillsMask` being the mask
`optValnumCSE_SetUpAsyncByrefKills` builds: after an async call node (which carries no CSE tag:
`CanConsiderTree` rejects calls with persistent side effects) and any nodes that are not
occurrences of `k`, neither bit of `k` is in `available_cses`, so an occurrence of `k` visited
then is not classified as a use: its tag becomes a def tag, or is cleared when the def abandons
the candidate. -/
theorem async_call_kills_byref_candidate [Add W] (stmw : W) (TYP_BYREF TYP_STRUCT : Nat)
    (layoutHasGCByRef : GenTree → Bool) (c c2 : Compiler W) (a a2 : EXPSET_TP)
    (tcall : GenTree) (mid out : List GenTree) (k : Nat) (d : CSEdsc W)
    (hrun : availabilityTrees stmw c a (tcall :: mid) = some (c2, a2, out))
    (hasync : c.compIsAsync = true)
    (hmaskA : asyncKillsMask TYP_BYREF TYP_STRUCT layoutHasGCByRef c = some c.cseAsyncKillsMask)
    (hk1 : 1 ≤ k) (hk2 : k ≤ c.optCSECandidateCount)
    (hd : (c.optCSEtab.get? (k - 1)).join = some d)
    (hbyref : isByRefCSE TYP_BYREF TYP_STRUCT layoutHasGCByRef d.csdTreeList.tslTree = true)
    (hcall : tcall.isCall = true) (hac : tcall.isAsyncCall = true)
    (hcalltag : tcall.gtCSEnum = 0)
    (hmid : ∀ t ∈ mid, t.gtCSEnum ≠ 0 → GET_CSE_INDEX t.gtCSEnum ≠ k) :
    getCSEAvailBit k ∉ a2 ∧ getCSEAvailCrossCallBit k ∉ a2 ∧
    ∀ (tocc : GenTree) (c3 : Compiler W) (a3 : EXPSET_TP) (t3 : GenTree),
      tocc.gtCSEnum ≠ 0 → GET_CSE_INDEX tocc.gtCSEnum = k →
      availabilityVisitTree stmw c2 a2 tocc = some (c3, a3, t3) →
      t3.gtCSEnum = TO_CSE_DEF tocc.gtCSEnum ∨ t3.gtCSEnum = NO_CSE := by
  obtain ⟨_, hbits⟩ := asyncKillsLoop_spec TYP_BYREF TYP_STRUCT layoutHasGCByRef c.optCSEtab
    _ _ _ hmaskA
  obtain ⟨hb1, hb2⟩ := hbits k (by rw [List.mem_range'_1]; omega) d hd hbyref
  obtain ⟨cC, aC, tC, oC, hvC, hrD, _⟩ := trees_cons stmw tcall mid c c2 a a2 out hrun
  have hkC : getCSEAvailBit k ∉ aC ∧ getCSEAvailCrossCallBit k ∉ aC := by
    rcases visit_avail stmw c cC a aC tcall tC hvC with ⟨_, _, _, ha⟩ | ⟨h0, _⟩
    · rw [ha]
      exact ⟨callKill_async c a tcall _ hcall hac hasync hb1,
        callKill_async c a tcall _ hcall hac hasync hb2⟩
    · exact absurd hcalltag h0
  obtain ⟨r1, r2⟩ := trees_keep_absent stmw k hk1 mid cC c2 aC a2 oC hrD hmid
  refine ⟨r1 hkC.1, r2 hkC.2, ?_⟩
  intro tocc c3 a3 t3 hocc hocck hvis
  rcases visit_avail stmw c2 c3 a2 a3 tocc t3 hvis with ⟨h0, _⟩ | ⟨_, d0, d1, _, _, _, hcase⟩
  · exact absurd h0 hocc
  · rw [hocck] at hcase
    rcases hcase with ⟨ht, _⟩ | ⟨_, ht, _⟩ | ⟨hu, _⟩
    · exact Or.inr (by rw [ht]; rfl)
    · exact Or.inl (by rw [ht]; rfl)
    · exact absurd hu (r1 hkC.1)

/-! ### Scenarios S3 and S6 -/

/-- Witness of C16, scenario S3: a def of candidate 1, an untagged call, a second occurrence:
the occurrence stays tagged as a use and the candidate becomes live across a call. -/
theorem def_call_use_marks_live_across_call_witness :
    exDsc.csdLiveAcrossCall = false ∧
    ∃ c1 a1 out, availabilityTrees 1 exCompiler ∅ s3Trees = some (c1, a1, out) ∧
      (out.map fun t => t.gtCSEnum) = [-1, 0, 1] ∧
      ∃ d, optCSEfindDsc c1 1 = some d ∧ d.csdLiveAcrossCall = true := by
  refine ⟨rfl, _, _, _, rfl, by decide, ?_⟩
  obtain ⟨c2, a2, outp, tfin, d, _, _, _, _, _, hd, hl⟩ :=
    def_call_use_marks_live_across_call 1 exCompiler _ ∅ _ (exTree 1 1 1 false)
      (exTree 2 0 9 true) (exTree 3 1 1 false) [] [] _ (by rfl) (by decide) (by decide)
      (by decide) rfl rfl (by decide) (by simp) (by decide) (by decide)
  exact ⟨d, hd, hl⟩

/-- Witness of C17: a call that is a def of candidate 1 while candidate 2 is available (bits 2
and 3): afterwards bits 0, 1 and 2 are set. -/
theorem call_def_keeps_its_own_bits_witness :
    ∃ c1 a1 t1, availabilityVisitTree 1 exCompiler2 {2, 3} (exTree 1 1 1 true) =
        some (c1, a1, t1) ∧ a1 = {0, 1, 2} ∧ t1.gtCSEnum = -1 ∧
      (getCSEAvailBit 1 ∈ a1 ∧ getCSEAvailCrossCallBit 1 ∈ a1 ∧
        (∀ j, 1 ≤ j → j ≠ 1 → getCSEAvailCrossCallBit j ∉ a1) ∧
        (∀ j, 1 ≤ j → j ≤ 2 → j ≠ 1 →
          (getCSEAvailBit j ∈ a1 ↔ getCSEAvailBit j ∈ ({2, 3} : EXPSET_TP)))) := by
  refine ⟨_, _, _, rfl, by decide, by decide, ?_⟩
  exact call_def_keeps_its_own_bits 1 exCompiler2 _ {2, 3} _ (exTree 1 1 1 true) _ (by rfl)
    rfl rfl (by decide) (by decide) (by decide)

/-- Witness of C18, scenario S6: candidate 1 (by-ref) is available on entry; after the async
call nothing is available and the occurrence that follows is tagged as a def. -/
theorem async_call_kills_byref_candidate_witness :
    ((availabilityTrees 1 exCompilerAsync {0, 1} s6Trees).map fun r =>
      r.2.2.map fun t => t.gtCSEnum) = some [0, -1] ∧
    ∃ c2 a2 out, availabilityTrees 1 exCompilerAsync {0, 1} [s6Call] =
        some (c2, a2, out) ∧ a2 = ∅ ∧
      (getCSEAvailBit 1 ∉ a2 ∧ getCSEAvailCrossCallBit 1 ∉ a2 ∧
        ∀ (tocc : GenTree) (c3 : Compiler Nat) (a3 : EXPSET_TP) (t3 : GenTree),
          tocc.gtCSEnum ≠ 0 → GET_CSE_INDEX tocc.gtCSEnum = 1 →
          availabilityVisitTree 1 c2 a2 tocc = some (c3, a3, t3) →
          t3.gtCSEnum = TO_CSE_DEF tocc.gtCSEnum ∨ t3.gtCSEnum = NO_CSE) := by
  refine ⟨by decide, _, _, _, rfl, by decide, ?_⟩
  exact async_call_kills_byref_candidate 1 0 99 (fun _ => false) exCompilerAsync _ {0, 1} _
    s6Call [] _ 1 exDsc (by rfl) rfl (by decide) (by decide) (by decide) rfl rfl rfl
    rfl rfl (by simp)

/-! ## The rewriter -/

theorem toSsize_of_range (i : Int) (h1 : -2 ^ 63 ≤ i) (h2 : i < 2 ^ 63) : toSsize i = i := by
  unfold toSsize
  norm_num at h1 h2 ⊢
  omega

theorem toSsize_range (i : Int) : -2 ^ 63 ≤ toSsize i ∧ toSsize i < 2 ^ 63 := by
  unfold toSsize
  norm_num
  omega

theorem toSsize_ofSsize (i : Int) : toSsize (ofSsize i) = toSsize i := by
  unfold toSsize ofSsize
  have h : ((i % 2 ^ 64).toNat : Int) = i % 2 ^ 64 :=
    Int.toNat_of_nonneg (Int.emod_nonneg _ (by norm_num))
  rw [h]
  norm_num

theorem toSsize_toSsize (i : Int) : toSsize (toSsize i) = toSsize i :=
  toSsize_of_range _ (toSsize_range i).1 (toSsize_range i).2

theorem toSsize_add_delta (base c : Int) : toSsize (base + toSsize (c - base)) = toSsize c := by
  unfold toSsize
  norm_num
  omega

section Rewriter
set_option linter.unusedSectionVars false
variable [Zero W] [Add W] [Sub W] [LE W] [LT W]
  [DecidableRel (LE.le : W → W → Prop)] [DecidableRel (LT.lt : W → W → Prop)]

theorem performRefCnt_best (w : W) (d : Bool) (l : PerformLocals W) :
    (performRefCnt w d l).bestVN = l.bestVN ∧
    (performRefCnt w d l).bestConstValue = l.bestConstValue ∧
    (performRefCnt w d l).bestIsDef = l.bestIsDef := by
  unfold performRefCnt
  cases d <;> cases h : l.setRefCnt <;> simp

theorem occConst_range (c : Compiler W) (x : treeStmtLst) :
    -2 ^ 63 ≤ occConst c x ∧ occConst c x < 2 ^ 63 :=
  toSsize_range _

theorem SelectInv_step (ir : CseIR W) (c : Compiler W) (seen : List treeStmtLst)
    (l : PerformLocals W) (x : treeStmtLst) (hinv : SelectInv c seen l)
    (hfit : ∀ y ∈ seen, IS_CSE_INDEX (occTag c y) = true → IS_CSE_INDEX (occTag c x) = true →
      -2 ^ 63 ≤ occConst c x - occConst c y ∧ occConst c x - occConst c y < 2 ^ 63) :
    SelectInv c (seen ++ [x]) (performSelectStep ir c true l x) := by
  unfold performSelectStep
  by_cases ht : IS_CSE_INDEX (c.treeCSEnum x.tslTree.gtTreeID) = true
  · simp only [ht, if_true]
    have hb := performRefCnt_best (ir.getBBWeight x.tslBlock)
      (IS_CSE_DEF (c.treeCSEnum x.tslTree.gtTreeID))
      (performBest true (c.vnStore.VNNormalValue x.tslTree.vnLiberal)
        (c.vnStore.CoercedConstantValueSsize (c.vnStore.VNNormalValue x.tslTree.vnLiberal))
        (IS_CSE_DEF (c.treeCSEnum x.tslTree.gtTreeID)) l)
    unfold SelectInv
    rw [hb.1, hb.2.1, hb.2.2]
    right
    rcases hinv with ⟨hnone, hun⟩ | ⟨⟨b, hb1, hb2, hb3, hb4, hb5⟩, hall⟩
    · -- first tagged entry
      have hbest : performBest true (c.vnStore.VNNormalValue x.tslTree.vnLiberal)
          (c.vnStore.CoercedConstantValueSsize (c.vnStore.VNNormalValue x.tslTree.vnLiberal))
          (IS_CSE_DEF (c.treeCSEnum x.tslTree.gtTreeID)) l =
          { l with bestVN := some (c.vnStore.VNNormalValue x.tslTree.vnLiberal),
                   bestConstValue := c.vnStore.CoercedConstantValueSsize
                     (c.vnStore.VNNormalValue x.tslTree.vnLiberal),
                   bestIsDef := IS_CSE_DEF (c.treeCSEnum x.tslTree.gtTreeID) } := by
        unfold performBest
        rw [hnone]
        simp
      rw [hbest]
      refine ⟨⟨x, by simp, ht, rfl, rfl, rfl⟩, ?_⟩
      intro y hy hty
      rcases List.mem_append.1 hy with hy | hy
      · rw [hun y hy] at hty
        exact absurd hty (by simp)
      · have hyx : y = x := by simpa using hy
        subst hyx
        show (if IS_CSE_DEF (c.treeCSEnum y.tslTree.gtTreeID) = true then (-255 : Int) else 0) ≤
          occConst c y - occConst c y
        split <;> omega
    · -- a representative exists
      have hfx := hfit b hb1 hb2 ht
      have hdiff : toSsize (occConst c x - l.bestConstValue) = occConst c x - l.bestConstValue := by
        rw [hb4]
        exact toSsize_of_range _ hfx.1 hfx.2
      by_cases hvn : c.vnStore.VNNormalValue x.tslTree.vnLiberal =
          c.vnStore.VNNormalValue b.tslTree.vnLiberal
      · -- the same value number: nothing changes
        have hbest : performBest true (c.vnStore.VNNormalValue x.tslTree.vnLiberal)
            (c.vnStore.CoercedConstantValueSsize (c.vnStore.VNNormalValue x.tslTree.vnLiberal))
            (IS_CSE_DEF (c.treeCSEnum x.tslTree.gtTreeID)) l = l := by
          unfold performBest
          rw [hb3]
          simp [hvn]
        rw [hbest]
        refine ⟨⟨b, by simp [hb1], hb2, hb3, hb4, hb5⟩, ?_⟩
        intro y hy hty
        rcases List.mem_append.1 hy with hy | hy
        · exact hall y hy hty
        · have hyx : y = x := by simpa using hy
          subst hyx
          have : occConst c y = l.bestConstValue := by
            rw [hb4]
            unfold occConst
            rw [hvn]
          rw [this]
          split <;> omega
      · have hfold : occConst c x =
            c.vnStore.CoercedConstantValueSsize (c.vnStore.VNNormalValue x.tslTree.vnLiberal) := rfl
        by_cases hrep : ((l.bestIsDef && decide (occConst c x - l.bestConstValue < -255)) ||
            (!l.bestIsDef && decide (occConst c x - l.bestConstValue < 0))) = true
        · have hbest : performBest true (c.vnStore.VNNormalValue x.tslTree.vnLiberal)
              (c.vnStore.CoercedConstantValueSsize (c.vnStore.VNNormalValue x.tslTree.vnLiberal))
              (IS_CSE_DEF (c.treeCSEnum x.tslTree.gtTreeID)) l =
              { l with allSame := false,
                       bestVN := some (c.vnStore.VNNormalValue x.tslTree.vnLiberal),
                       bestConstValue := c.vnStore.CoercedConstantValueSsize
                         (c.vnStore.VNNormalValue x.tslTree.vnLiberal),
                       bestIsDef := IS_CSE_DEF (c.treeCSEnum x.tslTree.gtTreeID) } := by
            unfold performBest
            rw [hb3]
            simp only [ne_eq, hvn, not_false_eq_true, if_true]
            rw [← hfold, hdiff, if_pos hrep]
          rw [hbest]
          refine ⟨⟨x, by simp, ht, rfl, rfl, rfl⟩, ?_⟩
          intro y hy hty
          show (if IS_CSE_DEF (c.treeCSEnum x.tslTree.gtTreeID) = true then (-255 : Int) else 0) ≤
            occConst c y - occConst c x
          rcases List.mem_append.1 hy with hy | hy
          · have h1 := hall y hy hty
            cases hd : l.bestIsDef
            · rw [hd] at h1 hrep
              simp at h1 hrep
              split <;> omega
            · rw [hd] at h1 hrep
              simp at h1 hrep
              split <;> omega
          · have hyx : y = x := by simpa using hy
            subst hyx
            split <;> omega
        · have hbest : performBest true (c.vnStore.VNNormalValue x.tslTree.vnLiberal)
              (c.vnStore.CoercedConstantValueSsize (c.vnStore.VNNormalValue x.tslTree.vnLiberal))
              (IS_CSE_DEF (c.treeCSEnum x.tslTree.gtTreeID)) l =
              { l with allSame := false } := by
            unfold performBest
            rw [hb3]
            simp only [ne_eq, hvn, not_false_eq_true, if_true]
            rw [← hfold, hdiff, if_neg hrep]
          rw [hbest]
          refine ⟨⟨b, by simp [hb1], hb2, hb3, hb4, hb5⟩, ?_⟩
          intro y hy hty
          show (if l.bestIsDef = true then (-255 : Int) else 0) ≤ occConst c y - l.bestConstValue
          rcases List.mem_append.1 hy with hy | hy
          · exact hall y hy hty
          · have hyx : y = x := by simpa using hy
            subst hyx
            cases hd : l.bestIsDef
            · rw [hd] at hrep
              simp at hrep
              simp
              omega
            · rw [hd] at hrep
              simp at hrep
              simp
              omega
  · have hf : IS_CSE_INDEX (c.treeCSEnum x.tslTree.gtTreeID) = false := by
      simpa using ht
    simp only [hf, Bool.false_eq_true, if_false]
    rcases hinv with ⟨hnone, hun⟩ | ⟨⟨b, hb1, hb2, hb3, hb4, hb5⟩, hall⟩
    · left
      refine ⟨hnone, ?_⟩
      intro y hy
      rcases List.mem_append.1 hy with hy | hy
      · exact hun y hy
      · have hyx : y = x := by simpa using hy
        subst hyx
        exact hf
    · right
      refine ⟨⟨b, by simp [hb1], hb2, hb3, hb4, hb5⟩, ?_⟩
      intro y hy hty
      rcases List.mem_append.1 hy with hy | hy
      · exact hall y hy hty
      · have hyx : y = x := by simpa using hy
        subst hyx
        rw [show occTag c y = c.treeCSEnum y.tslTree.gtTreeID from rfl, hf] at hty
        exact absurd hty (by simp)

theorem SelectInv_fold (ir : CseIR W) (c : Compiler W) :
    ∀ (occs seen : List treeStmtLst) (l : PerformLocals W), SelectInv c seen l →
      (∀ x ∈ seen ++ occs, ∀ y ∈ seen ++ occs, IS_CSE_INDEX (occTag c y) = true →
        IS_CSE_INDEX (occTag c x) = true →
        -2 ^ 63 ≤ occConst c x - occConst c y ∧ occConst c x - occConst c y < 2 ^ 63) →
      SelectInv c (seen ++ occs) (occs.foldl (performSelectStep ir c true) l) := by
  intro occs
  induction occs with
  | nil =>
    intro seen l h _
    simpa using h
  | cons x rest ih =>
    intro seen l h hfit
    have hstep := SelectInv_step ir c seen l x h (fun y hy h1 h2 =>
      hfit x (by simp) y (by simp [hy]) h1 h2)
    have := ih (seen ++ [x]) _ hstep (by simpa using hfit)
    simpa using this

theorem performBest_refs (sc : Bool) (vn : ValueNum) (k : Int) (d : Bool)
    (l : PerformLocals W) :
    (performBest sc vn k d l).setRefCnt = l.setRefCnt ∧
    (performBest sc vn k d l).lvRefCnt = l.lvRefCnt := by
  unfold performBest
  split
  · split <;> exact ⟨rfl, rfl⟩
  · split
    · simp only
      split <;> exact ⟨rfl, rfl⟩
    · exact ⟨rfl, rfl⟩

theorem performSelectStep_refs (ir : CseIR W) (c : Compiler W) (sc : Bool)
    (l : PerformLocals W) (x : treeStmtLst) :
    let l1 := performSelectStep ir c sc l x
    (IS_CSE_INDEX (c.treeCSEnum x.tslTree.gtTreeID) = false → l1 = l) ∧
    (IS_CSE_INDEX (c.treeCSEnum x.tslTree.gtTreeID) = true →
      l1.setRefCnt = false ∧
      l1.lvRefCnt = (if l.setRefCnt then 1 else l.lvRefCnt + 1) +
        (if IS_CSE_DEF (c.treeCSEnum x.tslTree.gtTreeID) then 1 else 0)) := by
  intro l1
  constructor
  · intro h
    show performSelectStep ir c sc l x = l
    unfold performSelectStep
    simp [h]
  · intro h
    have hl1 : l1 = performRefCnt (ir.getBBWeight x.tslBlock)
        (IS_CSE_DEF (c.treeCSEnum x.tslTree.gtTreeID))
        (performBest sc (c.vnStore.VNNormalValue x.tslTree.vnLiberal)
          (if sc then c.vnStore.CoercedConstantValueSsize
            (c.vnStore.VNNormalValue x.tslTree.vnLiberal) else 0)
          (IS_CSE_DEF (c.treeCSEnum x.tslTree.gtTreeID)) l) := by
      show performSelectStep ir c sc l x = _
      unfold performSelectStep
      simp [h]
    have hb := performBest_refs sc (c.vnStore.VNNormalValue x.tslTree.vnLiberal)
      (if sc then c.vnStore.CoercedConstantValueSsize
        (c.vnStore.VNNormalValue x.tslTree.vnLiberal) else 0)
      (IS_CSE_DEF (c.treeCSEnum x.tslTree.gtTreeID)) l
    rw [hl1]
    unfold performRefCnt
    rw [hb.1, ← hb.2]
    cases l.setRefCnt <;> cases IS_CSE_DEF (c.treeCSEnum x.tslTree.gtTreeID) <;> simp

theorem tag_def_or_use (t : Int) (h : IS_CSE_INDEX t = true) :
    (IS_CSE_DEF t = true ∧ IS_CSE_USE t = false) ∨ (IS_CSE_DEF t = false ∧ IS_CSE_USE t = true) := by
  unfold IS_CSE_INDEX at h
  unfold IS_CSE_DEF IS_CSE_USE
  simp at h ⊢
  omega

theorem tag_untagged (t : Int) (h : IS_CSE_INDEX t = false) :
    IS_CSE_DEF t = false ∧ IS_CSE_USE t = false := by
  unfold IS_CSE_INDEX at h
  unfold IS_CSE_DEF IS_CSE_USE
  simp at h ⊢
  omega

theorem select_refcnt_fold (ir : CseIR W) (c : Compiler W) (sc : Bool) :
    ∀ (occs : List treeStmtLst) (l : PerformLocals W),
      (l.setRefCnt = true → l.lvRefCnt = 0) →
      (occs.foldl (performSelectStep ir c sc) l).lvRefCnt =
        l.lvRefCnt + 2 * (defEntries c.treeCSEnum occs).length +
          (useEntries c.treeCSEnum occs).length ∧
      ((occs.foldl (performSelectStep ir c sc) l).setRefCnt = true →
        (occs.foldl (performSelectStep ir c sc) l).lvRefCnt = 0) := by
  intro occs
  induction occs with
  | nil =>
    intro l h
    simpa [defEntries, useEntries] using h
  | cons x rest ih =>
    intro l h
    have hs := performSelectStep_refs ir c sc l x
    simp only at hs
    rw [List.foldl_cons]
    cases ht : IS_CSE_INDEX (c.treeCSEnum x.tslTree.gtTreeID)
    · rw [hs.1 ht]
      have hu := tag_untagged _ ht
      have := ih l h
      simp only [defEntries, useEntries, List.filter_cons, hu.1, hu.2] at this ⊢
      simpa using this
    · obtain ⟨h1, h2⟩ := hs.2 ht
      have := ih (performSelectStep ir c sc l x) (by rw [h1]; simp)
      refine ⟨?_, this.2⟩
      rw [this.1, h2]
      rcases tag_def_or_use _ ht with ⟨hd, hu⟩ | ⟨hd, hu⟩
      · simp only [defEntries, useEntries, List.filter_cons, hd, hu]
        cases hsr : l.setRefCnt
        · simp
          omega
        · have := h hsr
          simp [this]
          omega
      · simp only [defEntries, useEntries, List.filter_cons, hd, hu]
        cases hsr : l.setRefCnt
        · simp
          omega
        · have := h hsr
          simp [this]
          omega

theorem performSelect_refcnt (ir : CseIR W) (c : Compiler W) (sc : Bool)
    (occs : List treeStmtLst) :
    (performSelect ir c sc occs).lvRefCnt =
      2 * (defEntries c.treeCSEnum occs).length + (useEntries c.treeCSEnum occs).length := by
  have := (select_refcnt_fold ir c sc occs PerformLocals.init (fun _ => rfl)).1
  unfold performSelect
  rw [this]
  simp [PerformLocals.init]

/-! ### Unmarking and the extraction of side effects -/

theorem DscUnmarked_refl (d : CSEdsc W) : DscUnmarked d d := ⟨rfl, le_refl _⟩

theorem DscUnmarked_trans (d d1 d2 : CSEdsc W) (h1 : DscUnmarked d d1) (h2 : DscUnmarked d1 d2) :
    DscUnmarked d d2 := by
  obtain ⟨e1, l1⟩ := h1
  obtain ⟨e2, l2⟩ := h2
  refine ⟨?_, le_trans l2 l1⟩
  rw [e2, e1]

theorem UnmarkLe_refl (st : CseState W) : UnmarkLe st st := by
  refine ⟨le_refl _, rfl, rfl, rfl, rfl, rfl, rfl, rfl, rfl, ?_⟩
  intro i
  exact ⟨fun h => h, fun d h => ⟨d, h, DscUnmarked_refl d, fun _ => rfl⟩⟩

theorem UnmarkLe_trans (st st1 st2 : CseState W) (h1 : UnmarkLe st st1) (h2 : UnmarkLe st1 st2) :
    UnmarkLe st st2 := by
  obtain ⟨a1, a2, a3, a4, a5, a6, a7, a8, a9, a10⟩ := h1
  obtain ⟨b1, b2, b3, b4, b5, b6, b7, b8, b9, b10⟩ := h2
  refine ⟨le_trans a1 b1, b2.trans a2, b3.trans a3, b4.trans a4, b5.trans a5, b6.trans a6,
    b7.trans a7, b8.trans a8, b9.trans a9, ?_⟩
  intro i
  refine ⟨fun h => (b10 i).1 ((a10 i).1 h), ?_⟩
  intro d hd
  obtain ⟨d1, hd1, hu1, he1⟩ := (a10 i).2 d hd
  obtain ⟨d2, hd2, hu2, he2⟩ := (b10 i).2 d1 hd1
  refine ⟨d2, hd2, DscUnmarked_trans d d1 d2 hu1 hu2, ?_⟩
  intro he
  have e1 : st1.optCSEunmarks = st.optCSEunmarks := by omega
  have e2 : st2.optCSEunmarks = st1.optCSEunmarks := by omega
  rw [he2 e2, he1 e1]

theorem optUnmarkCSE_spec (st st1 : CseState W) (t : GenTree) (b : Bool)
    (h : optUnmarkCSE st t = some (st1, b)) :
    UnmarkLe st st1 ∧ st1.replaced = st.replaced ∧ st1.optCSEweight = st.optCSEweight ∧
    (∀ id, id ≠ t.gtTreeID → st1.comp.treeCSEnum id = st.comp.treeCSEnum id) ∧
    (st1.comp.treeCSEnum t.gtTreeID = st.comp.treeCSEnum t.gtTreeID ∨
      st1.comp.treeCSEnum t.gtTreeID = 0) := by
  unfold optUnmarkCSE at h
  simp only at h
  split at h
  · simp only [Option.some.injEq, Prod.mk.injEq] at h
    obtain ⟨rfl, -⟩ := h
    exact ⟨UnmarkLe_refl _, rfl, rfl, fun _ _ => rfl, Or.inl rfl⟩
  · split at h
    · exact absurd h (by simp)
    · split at h
      · split at h
        · exact absurd h (by simp)
        · rename_i desc hfind
          split at h
          · exact absurd h (by simp)
          · simp only [Option.some.injEq, Prod.mk.injEq] at h
            obtain ⟨rfl, -⟩ := h
            refine ⟨?_, rfl, rfl, ?_, ?_⟩
            · refine ⟨Nat.le_succ _, rfl, rfl, rfl, rfl, rfl, rfl, rfl, ?_, ?_⟩
              · simp [CseState.setTag, setDsc]
              · intro i
                have hslot : st.comp.optCSEtab[GET_CSE_INDEX
                    (st.comp.treeCSEnum t.gtTreeID) - 1]? = some (some desc) := by
                  unfold optCSEfindDsc at hfind
                  split at hfind
                  · exact absurd hfind (by simp)
                  · split at hfind
                    · exact absurd hfind (by simp)
                    · cases hg : st.comp.optCSEtab[GET_CSE_INDEX
                          (st.comp.treeCSEnum t.gtTreeID) - 1]? with
                      | none => simp [hg] at hfind
                      | some o =>
                        simp [hg] at hfind
                        rw [hfind]
                have hlt : GET_CSE_INDEX (st.comp.treeCSEnum t.gtTreeID) - 1 <
                    st.comp.optCSEtab.length := by
                  by_contra hn
                  rw [List.getElem?_eq_none (by omega)] at hslot
                  exact absurd hslot (by simp)
                by_cases hi : GET_CSE_INDEX (st.comp.treeCSEnum t.gtTreeID) - 1 = i
                · subst hi
                  constructor
                  · intro hnone
                    rw [hslot] at hnone
                    exact absurd hnone (by simp)
                  · intro d hd
                    rw [hslot] at hd
                    simp only [Option.some.injEq] at hd
                    subst hd
                    refine ⟨{ desc with
                      csdUseCount := desc.csdUseCount - 1
                      csdUseWtCnt := (if desc.csdUseWtCnt < st.optCSEweight then 0
                        else desc.csdUseWtCnt - st.optCSEweight) }, ?_,
                      ⟨rfl, Nat.sub_le _ _⟩, ?_⟩
                    · simp [CseState.setTag, setDsc, List.getElem?_set, hlt]
                    · intro he
                      simp [CseState.setTag] at he
                · constructor
                  · intro hnone
                    simpa [CseState.setTag, setDsc, List.getElem?_set, hi] using hnone
                  · intro d hd
                    refine ⟨d, ?_, DscUnmarked_refl d, fun _ => rfl⟩
                    simpa [CseState.setTag, setDsc, List.getElem?_set, hi] using hd
            · intro id hid
              simp [CseState.setTag, setDsc, Function.update, hid]
            · right
              simp [CseState.setTag, setDsc, NO_CSE]
      · simp only [Option.some.injEq, Prod.mk.injEq] at h
        obtain ⟨rfl, -⟩ := h
        exact ⟨UnmarkLe_refl _, rfl, rfl, fun _ _ => rfl, Or.inl rfl⟩

theorem sideEffList_counts (n : Nat) :
    ∀ t : CseTree, t.isSideEffList = true → t.loads n = 0 ∧ t.stores n = 0 := by
  intro t
  induction t with
  | node _ => intro _; exact ⟨rfl, rfl⟩
  | icon _ => intro h; exact absurd h (by simp [CseTree.isSideEffList])
  | lclVar _ => intro h; exact absurd h (by simp [CseTree.isSideEffList])
  | store _ _ _ _ => intro h; exact absurd h (by simp [CseTree.isSideEffList])
  | add _ _ _ _ => intro h; exact absurd h (by simp [CseTree.isSideEffList])
  | comma a b iha ihb =>
    intro h
    simp only [CseTree.isSideEffList, Bool.and_eq_true] at h
    have ha := iha h.1
    have hb := ihb h.2
    simp [CseTree.loads, CseTree.stores, ha, hb]

theorem Append_sideEff (r : Option CseTree) (node : GenTree)
    (h : ∀ t, r = some t → t.isSideEffList = true) :
    ∀ t, Extractor.Append r node = some t → t.isSideEffList = true := by
  intro t ht
  unfold Extractor.Append at ht
  cases r with
  | none =>
    simp only [Option.some.injEq] at ht
    rw [← ht]
    rfl
  | some r0 =>
    simp only [Option.some.injEq] at ht
    rw [← ht]
    simp [CseTree.isSideEffList, h r0 rfl]

theorem WalkTree_spec (ir : CseIR W) :
    ∀ (ops : GenTreeOps) (st : CseState W) (r : Option CseTree) (st1 : CseState W)
      (r1 : Option CseTree), Extractor.WalkTree ir ops st r = some (st1, r1) →
      UnmarkLe st st1 ∧ st1.replaced = st.replaced ∧ st1.optCSEweight = st.optCSEweight ∧
      (∀ id, (∀ n ∈ ops.preOrder, n.gtTreeID ≠ id) →
        st1.comp.treeCSEnum id = st.comp.treeCSEnum id) ∧
      (∀ id, st1.comp.treeCSEnum id = st.comp.treeCSEnum id ∨ st1.comp.treeCSEnum id = 0) ∧
      ((∀ t, r = some t → t.isSideEffList = true) →
        ∀ t, r1 = some t → t.isSideEffList = true) := by
  intro ops
  induction ops with
  | none =>
    intro st r st1 r1 h
    simp only [Extractor.WalkTree, Option.some.injEq, Prod.mk.injEq] at h
    obtain ⟨rfl, rfl⟩ := h
    exact ⟨UnmarkLe_refl _, rfl, rfl, fun _ _ => rfl, fun _ => Or.inl rfl, fun h => h⟩
  | tree node operands next ihop ihnext =>
    intro st r st1 r1 h
    unfold Extractor.WalkTree at h
    split at h
    · obtain ⟨h1, h2, h3, h4, h5, h6⟩ := ihnext st _ st1 r1 h
      refine ⟨h1, h2, h3, ?_, h5, fun hr => h6 (Append_sideEff r node hr)⟩
      intro id hid
      exact h4 id (fun n hn => hid n (by simp [GenTreeOps.preOrder, hn]))
    · split at h
      · exact absurd h (by simp)
      · rename_i stm hun
        obtain ⟨u1, u2, u3, u4, u5⟩ := optUnmarkCSE_spec st stm node true hun
        split at h
        · exact absurd h (by simp)
        · rename_i st2 r2 hop
          obtain ⟨o1, o2, o3, o4, o5, o6⟩ := ihop stm r st2 r2 hop
          obtain ⟨n1, n2, n3, n4, n5, n6⟩ := ihnext st2 r2 st1 r1 h
          refine ⟨UnmarkLe_trans _ _ _ u1 (UnmarkLe_trans _ _ _ o1 n1), by rw [n2, o2, u2],
            by rw [n3, o3, u3], ?_, ?_, fun hr => n6 (o6 hr)⟩
          · intro id hid
            rw [n4 id (fun n hn => hid n (by simp [GenTreeOps.preOrder, hn])),
              o4 id (fun n hn => hid n (by simp [GenTreeOps.preOrder, hn])),
              u4 id (fun e => hid node (by simp [GenTreeOps.preOrder]) e.symm)]
          · intro id
            rcases n5 id with e | e
            · rcases o5 id with e2 | e2
              · by_cases hid : id = node.gtTreeID
                · subst hid
                  rcases u5 with e3 | e3
                  · left; rw [e, e2, e3]
                  · right; rw [e, e2, e3]
                · left; rw [e, e2, u4 id hid]
              · right; rw [e, e2]
            · right; exact e
      · rename_i stm hun
        obtain ⟨u1, u2, u3, u4, u5⟩ := optUnmarkCSE_spec st stm node false hun
        obtain ⟨n1, n2, n3, n4, n5, n6⟩ := ihnext stm _ st1 r1 h
        refine ⟨UnmarkLe_trans _ _ _ u1 n1, by rw [n2, u2], by rw [n3, u3], ?_, ?_,
          fun hr => n6 (Append_sideEff r node hr)⟩
        · intro id hid
          rw [n4 id (fun n hn => hid n (by simp [GenTreeOps.preOrder, hn])),
            u4 id (fun e => hid node (by simp [GenTreeOps.preOrder]) e.symm)]
        · intro id
          rcases n5 id with e | e
          · by_cases hid : id = node.gtTreeID
            · subst hid
              rcases u5 with e3 | e3
              · left; rw [e, e3]
              · right; rw [e, e3]
            · left; rw [e, u4 id hid]
          · right; exact e

/-! ### The loop over the defs -/

theorem performDef_spec (temp : Nat) (sc : Bool) (base : Int) (st : CseState W)
    (x : treeStmtLst) :
    UnmarkLe st (performDef temp sc base st x) ∧
    (performDef temp sc base st x).optCSEunmarks = st.optCSEunmarks ∧
    (performDef temp sc base st x).comp.optCSEtab = st.comp.optCSEtab ∧
    (performDef temp sc base st x).optCSEweight = st.optCSEweight ∧
    (∀ id, id ≠ x.tslTree.gtTreeID →
      (performDef temp sc base st x).comp.treeCSEnum id = st.comp.treeCSEnum id) ∧
    (IS_CSE_DEF (st.comp.treeCSEnum x.tslTree.gtTreeID) = true →
      (performDef temp sc base st x).comp.treeCSEnum x.tslTree.gtTreeID = 0 ∧
      (performDef temp sc base st x).replaced = st.replaced ++
        [defReplacement st.comp.vnStore st.comp.treeCSEnum temp sc base x]) ∧
    (IS_CSE_DEF (st.comp.treeCSEnum x.tslTree.gtTreeID) = false →
      performDef temp sc base st x = st) := by
  cases hd : IS_CSE_DEF (st.comp.treeCSEnum x.tslTree.gtTreeID)
  · have he : performDef temp sc base st x = st := by
      unfold performDef
      simp [hd]
    rw [he]
    exact ⟨UnmarkLe_refl _, rfl, rfl, rfl, fun _ _ => rfl, fun h => absurd h (by simp),
      fun _ => rfl⟩
  · have he : performDef temp sc base st x =
        { st.setTag x.tslTree.gtTreeID NO_CSE with
          replaced := st.replaced ++
            [defReplacement st.comp.vnStore st.comp.treeCSEnum temp sc base x] } := by
      unfold performDef
      simp only [hd, Bool.not_true, Bool.false_eq_true, if_false]
      rfl
    rw [he]
    refine ⟨?_, rfl, rfl, rfl, ?_, fun _ => ⟨?_, rfl⟩, fun h => absurd h (by simp)⟩
    · refine ⟨le_refl _, rfl, rfl, rfl, rfl, rfl, rfl, rfl, rfl, ?_⟩
      intro i
      exact ⟨fun h => h, fun d h => ⟨d, h, DscUnmarked_refl d, fun _ => rfl⟩⟩
    · intro id hid
      simp [CseState.setTag, Function.update, hid]
    · simp [CseState.setTag, NO_CSE]

theorem defEntries_congr (f g : Nat → Int) (occs : List treeStmtLst)
    (h : ∀ x ∈ occs, IS_CSE_DEF (f x.tslTree.gtTreeID) = IS_CSE_DEF (g x.tslTree.gtTreeID)) :
    defEntries f occs = defEntries g occs := by
  unfold defEntries
  exact List.filter_congr h

theorem useEntries_congr (f g : Nat → Int) (occs : List treeStmtLst)
    (h : ∀ x ∈ occs, IS_CSE_USE (f x.tslTree.gtTreeID) = IS_CSE_USE (g x.tslTree.gtTreeID)) :
    useEntries f occs = useEntries g occs := by
  unfold useEntries
  exact List.filter_congr h

theorem performDefs_spec (temp : Nat) (sc : Bool) (base : Int) :
    ∀ (occs : List treeStmtLst) (st : CseState W),
      (occs.map (fun x => x.tslTree.gtTreeID)).Nodup →
      UnmarkLe st (occs.foldl (performDef temp sc base) st) ∧
      (occs.foldl (performDef temp sc base) st).optCSEunmarks = st.optCSEunmarks ∧
      (occs.foldl (performDef temp sc base) st).comp.optCSEtab = st.comp.optCSEtab ∧
      (occs.foldl (performDef temp sc base) st).optCSEweight = st.optCSEweight ∧
      (∀ id, (occs.foldl (performDef temp sc base) st).comp.treeCSEnum id =
          st.comp.treeCSEnum id ∨
        ((occs.foldl (performDef temp sc base) st).comp.treeCSEnum id = 0 ∧
          IS_CSE_DEF (st.comp.treeCSEnum id) = true)) ∧
      (∀ x ∈ occs, IS_CSE_DEF (st.comp.treeCSEnum x.tslTree.gtTreeID) = true →
        (occs.foldl (performDef temp sc base) st).comp.treeCSEnum x.tslTree.gtTreeID = 0) ∧
      (occs.foldl (performDef temp sc base) st).replaced = st.replaced ++
        (defEntries st.comp.treeCSEnum occs).map
          (defReplacement st.comp.vnStore st.comp.treeCSEnum temp sc base) := by
  intro occs
  induction occs with
  | nil =>
    intro st _
    refine ⟨UnmarkLe_refl _, rfl, rfl, rfl, fun _ => Or.inl rfl, ?_, ?_⟩
    · intro x hx
      exact absurd hx (by simp)
    · simp [defEntries]
  | cons x rest ih =>
    intro st hnd
    rw [List.map_cons, List.nodup_cons] at hnd
    obtain ⟨hx, hrest⟩ := hnd
    obtain ⟨p1, p2, p3, p4, p5, p6, p7⟩ := performDef_spec temp sc base st x
    obtain ⟨q1, q2, q3, q4, q5, q6, q7⟩ := ih (performDef temp sc base st x) hrest
    have hvn : (performDef temp sc base st x).comp.vnStore = st.comp.vnStore := p1.2.1
    have htag : ∀ y ∈ rest, (performDef temp sc base st x).comp.treeCSEnum y.tslTree.gtTreeID =
        st.comp.treeCSEnum y.tslTree.gtTreeID := by
      intro y hy
      apply p5
      intro e
      exact hx (List.mem_map.2 ⟨y, hy, e⟩)
    rw [List.foldl_cons]
    refine ⟨UnmarkLe_trans _ _ _ p1 q1, by rw [q2, p2], by rw [q3, p3], by rw [q4, p4],
      ?_, ?_, ?_⟩
    · intro id
      by_cases hid : id = x.tslTree.gtTreeID
      · subst hid
        cases hd : IS_CSE_DEF (st.comp.treeCSEnum x.tslTree.gtTreeID)
        · rw [p7 hd]
          rcases q5 x.tslTree.gtTreeID with e | e
          · left
            rw [p7 hd] at e
            exact e
          · right
            rw [p7 hd] at e
            exact ⟨e.1, by rw [← hd]; exact e.2⟩
        · right
          refine ⟨?_, rfl⟩
          rcases q5 x.tslTree.gtTreeID with e | e
          · rw [e]
            exact (p6 hd).1
          · exact e.1
      · rcases q5 id with e | e
        · left
          rw [e, p5 id hid]
        · right
          rw [p5 id hid] at e
          exact e
    · intro y hy hdy
      rcases List.mem_cons.1 hy with rfl | hy
      · rcases q5 y.tslTree.gtTreeID with e | e
        · rw [e]
          exact (p6 hdy).1
        · exact e.1
      · apply q6 y hy
        rw [htag y hy]
        exact hdy
    · rw [q7, hvn]
      have hde : defEntries (performDef temp sc base st x).comp.treeCSEnum rest =
          defEntries st.comp.treeCSEnum rest :=
        defEntries_congr _ _ _ (fun y hy => by rw [htag y hy])
      rw [hde]
      have hmap : (defEntries st.comp.treeCSEnum rest).map
          (defReplacement st.comp.vnStore (performDef temp sc base st x).comp.treeCSEnum
            temp sc base) =
          (defEntries st.comp.treeCSEnum rest).map
          (defReplacement st.comp.vnStore st.comp.treeCSEnum temp sc base) := by
        apply List.map_congr_left
        intro y hy
        have hy2 : y ∈ rest := (List.mem_filter.1 hy).1
        unfold defReplacement
        rw [htag y hy2]
      rw [hmap]
      cases hd : IS_CSE_DEF (st.comp.treeCSEnum x.tslTree.gtTreeID)
      · rw [p7 hd]
        simp [defEntries, List.filter_cons, hd]
      · rw [(p6 hd).2]
        simp [defEntries, List.filter_cons, hd]

/-! ### The loop over the uses -/

theorem UnmarkLe_of_fields (st st1 : CseState W)
    (h1 : st1.optCSEunmarks = st.optCSEunmarks) (h2 : st1.comp.vnStore = st.comp.vnStore)
    (h3 : st1.comp.optCSECandidateCount = st.comp.optCSECandidateCount)
    (h4 : st1.lvaCount = st.lvaCount) (h5 : st1.optCSEcount = st.optCSEcount)
    (h6 : st1.optCSEattempt = st.optCSEattempt) (h7 : st1.performLog = st.performLog)
    (h8 : st1.lvRefCnt = st.lvRefCnt) (h9 : st1.comp.optCSEtab = st.comp.optCSEtab) :
    UnmarkLe st st1 := by
  refine ⟨by omega, h2, h3, h4, h5, h6, h7, h8, by rw [h9], ?_⟩
  intro i
  rw [h9]
  exact ⟨fun h => h, fun d h => ⟨d, h, DscUnmarked_refl d, fun _ => rfl⟩⟩

theorem performUse_spec (ir : CseIR W) (temp : Nat) (sc : Bool) (base : Int)
    (st : CseState W) (x : treeStmtLst) (st1 : CseState W)
    (h : performUse ir temp sc base st x = some st1) :
    UnmarkLe st st1 ∧
    (∀ id, id ≠ x.tslTree.gtTreeID →
      (∀ n ∈ (ir.gtOperands x.tslTree.gtTreeID).preOrder, n.gtTreeID ≠ id) →
      st1.comp.treeCSEnum id = st.comp.treeCSEnum id) ∧
    (∀ id, st1.comp.treeCSEnum id = st.comp.treeCSEnum id ∨ st1.comp.treeCSEnum id = 0) ∧
    (IS_CSE_USE (st.comp.treeCSEnum x.tslTree.gtTreeID) = true →
      st1.comp.treeCSEnum x.tslTree.gtTreeID = 0 ∧
      ∃ r, st1.replaced = st.replaced ++ [r] ∧
        UseReplacement st.comp.vnStore temp sc base x r) ∧
    (IS_CSE_USE (st.comp.treeCSEnum x.tslTree.gtTreeID) = false → st1 = st) := by
  cases hu : IS_CSE_USE (st.comp.treeCSEnum x.tslTree.gtTreeID)
  · have he : performUse ir temp sc base st x = some st := by
      unfold performUse
      simp [hu]
    rw [he] at h
    simp only [Option.some.injEq] at h
    subst h
    exact ⟨UnmarkLe_refl _, fun _ _ _ => rfl, fun _ => Or.inl rfl,
      fun h => absurd h (by simp), fun _ => rfl⟩
  · unfold performUse at h
    simp only [hu, Bool.not_true, Bool.false_eq_true, if_false] at h
    split at h
    · exact absurd h (by simp)
    · rename_i st3 sideEffList hex
      simp only [Option.some.injEq] at h
      subst h
      unfold optExtractSideEffectsForCSE at hex
      obtain ⟨w1, w2, w3, w4, w5, w6⟩ := WalkTree_spec ir _ _ _ _ _ hex
      have hpre : UnmarkLe st
          (CseState.setTag { st with optCSEweight := ir.getBBWeight x.tslBlock }
            x.tslTree.gtTreeID NO_CSE) :=
        UnmarkLe_of_fields _ _ rfl rfl rfl rfl rfl rfl rfl rfl rfl
      have hpost : UnmarkLe st3 { st3 with replaced := st3.replaced ++
          [Replacement.mk x.tslStmt x.tslTree.gtTreeID
            (commaWithSideEffects sideEffList
              (cseUseTree st.comp.vnStore temp sc base x.tslTree))] } :=
        UnmarkLe_of_fields _ _ rfl rfl rfl rfl rfl rfl rfl rfl rfl
      refine ⟨UnmarkLe_trans _ _ _ hpre (UnmarkLe_trans _ _ _ w1 hpost), ?_, ?_,
        fun _ => ⟨?_, ?_⟩, fun hf => absurd hf (by simp)⟩
      · intro id hid hops
        show st3.comp.treeCSEnum id = _
        rw [w4 id]
        · simp [CseState.setTag, Function.update, hid]
        · intro n hn
          simp only [GenTreeOps.preOrder, List.append_nil, List.mem_cons] at hn
          rcases hn with rfl | hn
          · exact fun e => hid e.symm
          · exact hops n hn
      · intro id
        show st3.comp.treeCSEnum id = _ ∨ st3.comp.treeCSEnum id = 0
        rcases w5 id with e | e
        · by_cases hid : id = x.tslTree.gtTreeID
          · right
            rw [e, hid]
            simp [CseState.setTag, NO_CSE]
          · left
            rw [e]
            simp [CseState.setTag, Function.update, hid]
        · right
          exact e
      · show st3.comp.treeCSEnum x.tslTree.gtTreeID = 0
        rcases w5 x.tslTree.gtTreeID with e | e
        · rw [e]
          simp [CseState.setTag, NO_CSE]
        · exact e
      · refine ⟨Replacement.mk x.tslStmt x.tslTree.gtTreeID
            (commaWithSideEffects sideEffList
              (cseUseTree st.comp.vnStore temp sc base x.tslTree)),
          ?_, ?_⟩
        · show st3.replaced ++ _ = _
          rw [w2]
          rfl
        · refine ⟨rfl, rfl, ?_⟩
          cases hs : sideEffList with
          | none => left; rfl
          | some sideEff =>
            right
            exact ⟨sideEff, w6 (fun t ht => absurd ht (by simp)) sideEff hs, rfl⟩

theorem performUses_spec (ir : CseIR W) (temp : Nat) (sc : Bool) (base : Int) :
    ∀ (occs : List treeStmtLst) (st st1 : CseState W),
      (occs.map (fun x => x.tslTree.gtTreeID)).Nodup →
      (∀ x ∈ occs, ∀ y ∈ occs, ∀ n ∈ (ir.gtOperands x.tslTree.gtTreeID).preOrder,
        n.gtTreeID ≠ y.tslTree.gtTreeID) →
      performUses ir temp sc base st occs = some st1 →
      UnmarkLe st st1 ∧
      (∀ id, st1.comp.treeCSEnum id = st.comp.treeCSEnum id ∨ st1.comp.treeCSEnum id = 0) ∧
      ∃ news, st1.replaced = st.replaced ++ news ∧
        List.Forall₂ (UseReplacement st.comp.vnStore temp sc base)
          (useEntries st.comp.treeCSEnum occs) news := by
  intro occs
  induction occs with
  | nil =>
    intro st st1 _ _ h
    simp only [performUses, Option.some.injEq] at h
    subst h
    exact ⟨UnmarkLe_refl _, fun _ => Or.inl rfl, [], by simp, by simp [useEntries]⟩
  | cons x rest ih =>
    intro st st1 hnd hops h
    rw [List.map_cons, List.nodup_cons] at hnd
    obtain ⟨hx, hrest⟩ := hnd
    unfold performUses at h
    split at h
    · exact absurd h (by simp)
    · rename_i st2 hstep
      obtain ⟨p1, p2, p3, p4, p5⟩ := performUse_spec ir temp sc base st x st2 hstep
      obtain ⟨q1, q2, news, q3, q4⟩ := ih st2 st1 hrest
        (fun a ha b hb => hops a (List.mem_cons_of_mem _ ha) b (List.mem_cons_of_mem _ hb)) h
      have hvn : st2.comp.vnStore = st.comp.vnStore := p1.2.1
      have htag : ∀ y ∈ rest, st2.comp.treeCSEnum y.tslTree.gtTreeID =
          st.comp.treeCSEnum y.tslTree.gtTreeID := by
        intro y hy
        apply p2
        · intro e
          exact hx (List.mem_map.2 ⟨y, hy, e⟩)
        · intro n hn
          exact hops x (List.mem_cons_self _ _) y (List.mem_cons_of_mem _ hy) n hn
      have hue : useEntries st2.comp.treeCSEnum rest = useEntries st.comp.treeCSEnum rest :=
        useEntries_congr _ _ _ (fun y hy => by rw [htag y hy])
      rw [hue, hvn] at q4
      refine ⟨UnmarkLe_trans _ _ _ p1 q1, ?_, ?_⟩
      · intro id
        rcases q2 id with e | e
        · rcases p3 id with e2 | e2
          · left; rw [e, e2]
          · right; rw [e, e2]
        · right; exact e
      · cases hu : IS_CSE_USE (st.comp.treeCSEnum x.tslTree.gtTreeID)
        · rw [p5 hu] at q3
          refine ⟨news, q3, ?_⟩
          simpa [useEntries, List.filter_cons, hu] using q4
        · obtain ⟨-, r, hr1, hr2⟩ := p4 hu
          refine ⟨r :: news, ?_, ?_⟩
          · rw [q3, hr1]
            simp
          · have : useEntries st.comp.treeCSEnum (x :: rest) =
                x :: useEntries st.comp.treeCSEnum rest := by
              simp [useEntries, List.filter_cons, hu]
            rw [this]
            exact List.Forall₂.cons hr2 q4

theorem optUnmarkCSE_untagged (st : CseState W) (t : GenTree)
    (h : st.comp.treeCSEnum t.gtTreeID = 0) : optUnmarkCSE st t = some (st, true) := by
  unfold optUnmarkCSE
  simp [h, IS_CSE_INDEX]

theorem WalkTree_untagged (ir : CseIR W) :
    ∀ (ops : GenTreeOps) (st : CseState W) (r : Option CseTree),
      (∀ n ∈ ops.preOrder, st.comp.treeCSEnum n.gtTreeID = 0) →
      ∃ r1, Extractor.WalkTree ir ops st r = some (st, r1) := by
  intro ops
  induction ops with
  | none =>
    intro st r _
    exact ⟨r, rfl⟩
  | tree node operands next ihop ihnext =>
    intro st r h
    have hnode : st.comp.treeCSEnum node.gtTreeID = 0 :=
      h node (by simp [GenTreeOps.preOrder])
    have hop : ∀ n ∈ operands.preOrder, st.comp.treeCSEnum n.gtTreeID = 0 :=
      fun n hn => h n (by simp [GenTreeOps.preOrder, hn])
    have hnext : ∀ n ∈ next.preOrder, st.comp.treeCSEnum n.gtTreeID = 0 :=
      fun n hn => h n (by simp [GenTreeOps.preOrder, hn])
    unfold Extractor.WalkTree
    split
    · exact ihnext st _ hnext
    · rw [optUnmarkCSE_untagged st node hnode]
      obtain ⟨r2, hr2⟩ := ihop st r hop
      simp only [hr2]
      exact ihnext st r2 hnext

theorem performUse_total (ir : CseIR W) (temp : Nat) (sc : Bool) (base : Int)
    (st : CseState W) (x : treeStmtLst)
    (h : ∀ n ∈ (ir.gtOperands x.tslTree.gtTreeID).preOrder,
      st.comp.treeCSEnum n.gtTreeID = 0) :
    ∃ st1, performUse ir temp sc base st x = some st1 := by
  unfold performUse
  simp only
  split
  · exact ⟨st, rfl⟩
  · have hw := WalkTree_untagged ir
      (GenTreeOps.tree x.tslTree (ir.gtOperands x.tslTree.gtTreeID) GenTreeOps.none)
      (CseState.setTag { st with optCSEweight := ir.getBBWeight x.tslBlock }
        x.tslTree.gtTreeID NO_CSE) none (by
        intro n hn
        simp only [GenTreeOps.preOrder, List.append_nil, List.mem_cons] at hn
        rcases hn with rfl | hn
        · simp [CseState.setTag, NO_CSE]
        · by_cases hid : n.gtTreeID = x.tslTree.gtTreeID
          · rw [hid]
            simp [CseState.setTag, NO_CSE]
          · simp only [CseState.setTag, Function.update, hid]
            simpa using h n hn)
    obtain ⟨r1, hr1⟩ := hw
    unfold optExtractSideEffectsForCSE
    rw [hr1]
    exact ⟨_, rfl⟩

theorem performUses_total (ir : CseIR W) (temp : Nat) (sc : Bool) (base : Int) :
    ∀ (occs : List treeStmtLst) (st : CseState W),
      (∀ x ∈ occs, ∀ n ∈ (ir.gtOperands x.tslTree.gtTreeID).preOrder,
        st.comp.treeCSEnum n.gtTreeID = 0) →
      ∃ st1, performUses ir temp sc base st occs = some st1 := by
  intro occs
  induction occs with
  | nil =>
    intro st _
    exact ⟨st, rfl⟩
  | cons x rest ih =>
    intro st h
    obtain ⟨st2, h2⟩ := performUse_total ir temp sc base st x (h x (List.mem_cons_self _ _))
    obtain ⟨-, -, p3, -, -⟩ := performUse_spec ir temp sc base st x st2 h2
    obtain ⟨st1, h1⟩ := ih st2 (by
      intro y hy n hn
      rcases p3 n.gtTreeID with e | e
      · rw [e]
        exact h y (List.mem_cons_of_mem _ hy) n hn
      · exact e)
    refine ⟨st1, ?_⟩
    unfold performUses
    rw [h2]
    exact h1

/-! ### `PerformCSE` as a whole -/

theorem dscAt_eq_some (st : CseState W) (slot : Nat) (d : CSEdsc W) :
    st.dscAt slot = some d ↔ st.comp.optCSEtab[slot]? = some (some d) := by
  unfold CseState.dscAt
  constructor
  · intro h
    split at h
    · rename_i dsc hd
      simp only [Option.some.injEq] at h
      rw [hd, h]
    · exact absurd h (by simp)
  · intro h
    rw [h]

theorem performDefs_frame (temp : Nat) (sc : Bool) (base : Int) :
    ∀ (occs : List treeStmtLst) (st : CseState W),
      UnmarkLe st (occs.foldl (performDef temp sc base) st) ∧
      (occs.foldl (performDef temp sc base) st).optCSEunmarks = st.optCSEunmarks ∧
      (occs.foldl (performDef temp sc base) st).comp.optCSEtab = st.comp.optCSEtab := by
  intro occs
  induction occs with
  | nil =>
    intro st
    exact ⟨UnmarkLe_refl _, rfl, rfl⟩
  | cons x rest ih =>
    intro st
    obtain ⟨p1, p2, p3, -⟩ := performDef_spec temp sc base st x
    obtain ⟨q1, q2, q3⟩ := ih (performDef temp sc base st x)
    rw [List.foldl_cons]
    exact ⟨UnmarkLe_trans _ _ _ p1 q1, by rw [q2, p2], by rw [q3, p3]⟩

theorem performUses_frame (ir : CseIR W) (temp : Nat) (sc : Bool) (base : Int) :
    ∀ (occs : List treeStmtLst) (st st1 : CseState W),
      performUses ir temp sc base st occs = some st1 → UnmarkLe st st1 := by
  intro occs
  induction occs with
  | nil =>
    intro st st1 h
    simp only [performUses, Option.some.injEq] at h
    subst h
    exact UnmarkLe_refl _
  | cons x rest ih =>
    intro st st1 h
    unfold performUses at h
    split at h
    · exact absurd h (by simp)
    · rename_i st2 hstep
      exact UnmarkLe_trans _ _ _ (performUse_spec ir temp sc base st x st2 hstep).1
        (ih st2 st1 h)

theorem DscPerformed_of (d d1 d2 : CSEdsc W) (h1 : DscPerformed d d1) (h2 : DscUnmarked d1 d2) :
    DscPerformed d d2 := by
  obtain ⟨e1, l1⟩ := h1
  obtain ⟨e2, l2⟩ := h2
  refine ⟨?_, le_trans l2 l1⟩
  rw [e2, e1]

theorem DscPerformed_of_unmarked (d d1 : CSEdsc W) (h : DscUnmarked d d1) :
    DscPerformed d d1 := by
  obtain ⟨e, l⟩ := h
  refine ⟨?_, l⟩
  rw [e]

theorem PerformCSE_frame (ir : CseIR W) (st st1 : CseState W) (slot : Nat)
    (h : PerformCSE ir st slot = some st1) :
    PerformLe st st1 ∧ st1.optCSEattempt = st.optCSEattempt ∧
    ∃ dsc, st.dscAt slot = some dsc ∧ st1.performLog = st.performLog ++ [dsc] := by
  unfold PerformCSE at h
  split at h
  · exact absurd h (by simp)
  · rename_i dsc hdsc
    simp only at h
    have hslot := (dscAt_eq_some st slot dsc).1 hdsc
    have hlt : slot < st.comp.optCSEtab.length := by
      by_contra hn
      rw [List.getElem?_eq_none (by omega)] at hslot
      exact absurd hslot (by simp)
    obtain ⟨d1, d2, d3⟩ := performDefs_frame st.lvaCount dsc.csdIsSharedConst
      (performBase ir st dsc) dsc.occurrences (performEnter ir st slot dsc)
    have hu := performUses_frame ir _ _ _ _ _ _ h
    have hle := UnmarkLe_trans _ _ _ d1 hu
    obtain ⟨a1, a2, a3, a4, a5, a6, a7, a8, a9, a10⟩ := hle
    refine ⟨⟨a1, a3, ?_, ?_⟩, a6, dsc, hdsc, a7⟩
    · rw [a9]
      simp [performEnter]
    · intro i
      by_cases hi : slot = i
      · subst hi
        constructor
        · intro hnone
          rw [hslot] at hnone
          exact absurd hnone (by simp)
        · intro d hd
          rw [hslot] at hd
          simp only [Option.some.injEq] at hd
          rw [← hd]
          have hs1 : (performEnter ir st slot dsc).comp.optCSEtab[slot]? =
              some (some (enterDsc ir st dsc)) := by
            simp [performEnter, List.getElem?_set, hlt]
          obtain ⟨d3, hd3, hun, he⟩ := (a10 slot).2 _ hs1
          refine ⟨d3, hd3, DscPerformed_of dsc (enterDsc ir st dsc) d3 ⟨rfl, le_refl _⟩ hun, ?_⟩
          intro hsame
          rw [he hsame]
          rfl
      · constructor
        · intro hnone
          apply (a10 i).1
          simpa [performEnter, List.getElem?_set, hi] using hnone
        · intro d hd
          have hs1 : (performEnter ir st slot dsc).comp.optCSEtab[i]? = some (some d) := by
            simpa [performEnter, List.getElem?_set, hi] using hd
          obtain ⟨d3, hd3, hun, he⟩ := (a10 i).2 _ hs1
          refine ⟨d3, hd3, DscPerformed_of_unmarked _ _ hun, ?_⟩
          intro hsame
          rw [he hsame]

theorem useEntries_after_defs (f g : Nat → Int) (occs : List treeStmtLst)
    (h : ∀ id, g id = f id ∨ (g id = 0 ∧ IS_CSE_DEF (f id) = true)) :
    useEntries g occs = useEntries f occs := by
  apply useEntries_congr
  intro x _
  rcases h x.tslTree.gtTreeID with e | ⟨e1, e2⟩
  · rw [e]
  · rw [e1]
    unfold IS_CSE_DEF at e2
    unfold IS_CSE_USE
    simp at e2 ⊢
    omega

theorem PerformCSE_spec (ir : CseIR W) (st st1 : CseState W) (slot : Nat) (dsc : CSEdsc W)
    (hslot : st.dscAt slot = some dsc)
    (hnd : (dsc.occurrences.map (fun x => x.tslTree.gtTreeID)).Nodup)
    (hops : ∀ x ∈ dsc.occurrences, ∀ y ∈ dsc.occurrences,
      ∀ n ∈ (ir.gtOperands x.tslTree.gtTreeID).preOrder, n.gtTreeID ≠ y.tslTree.gtTreeID)
    (h : PerformCSE ir st slot = some st1) :
    (∃ uses, st1.replaced = st.replaced ++
        ((defEntries st.comp.treeCSEnum dsc.occurrences).map
          (defReplacement st.comp.vnStore st.comp.treeCSEnum st.lvaCount dsc.csdIsSharedConst
            (performBase ir st dsc)) ++ uses) ∧
      List.Forall₂ (UseReplacement st.comp.vnStore st.lvaCount dsc.csdIsSharedConst
          (performBase ir st dsc)) (useEntries st.comp.treeCSEnum dsc.occurrences) uses) ∧
    st1.lvaCount = st.lvaCount + 1 ∧
    st1.lvRefCnt st.lvaCount = 2 * (defEntries st.comp.treeCSEnum dsc.occurrences).length +
      (useEntries st.comp.treeCSEnum dsc.occurrences).length ∧
    ∃ d1, st1.dscAt slot = some d1 ∧ toSsize d1.csdConstDefValue = performBase ir st dsc := by
  unfold PerformCSE at h
  rw [hslot] at h
  simp only at h
  have hslot2 := (dscAt_eq_some st slot dsc).1 hslot
  have hlt : slot < st.comp.optCSEtab.length := by
    by_contra hn
    rw [List.getElem?_eq_none (by omega)] at hslot2
    exact absurd hslot2 (by simp)
  obtain ⟨d1, -, d3, -, d5, -, d7⟩ := performDefs_spec st.lvaCount dsc.csdIsSharedConst
    (performBase ir st dsc) dsc.occurrences (performEnter ir st slot dsc) hnd
  obtain ⟨u1, -, news, u3, u4⟩ := performUses_spec ir _ _ _ _ _ _ hnd hops h
  have hvn2 : (List.foldl (performDef st.lvaCount dsc.csdIsSharedConst (performBase ir st dsc))
      (performEnter ir st slot dsc) dsc.occurrences).comp.vnStore = st.comp.vnStore := d1.2.1
  rw [hvn2, useEntries_after_defs _ _ _ d5] at u4
  have hle := UnmarkLe_trans _ _ _ d1 u1
  refine ⟨⟨news, ?_, u4⟩, hle.2.2.2.1, ?_, ?_⟩
  · rw [u3, d7]
    simp [performEnter, List.append_assoc]
  · rw [hle.2.2.2.2.2.2.2.1]
    simp [performEnter, performSelect_refcnt]
  · have hs1 : (performEnter ir st slot dsc).comp.optCSEtab[slot]? =
        some (some (enterDsc ir st dsc)) := by
      simp [performEnter, List.getElem?_set, hlt]
    obtain ⟨d3, hd3, hun, -⟩ := (hle.2.2.2.2.2.2.2.2.2 slot).2 _ hs1
    refine ⟨d3, (dscAt_eq_some _ _ _).2 hd3, ?_⟩
    have := congrArg CSEdsc.csdConstDefValue hun.1
    simp only at this
    rw [this]
    rfl

theorem PerformCSE_unmark (ir : CseIR W) (st st1 : CseState W) (slot : Nat)
    (h : PerformCSE ir st slot = some st1) :
    ∃ dsc, st.dscAt slot = some dsc ∧ UnmarkLe (performEnter ir st slot dsc) st1 := by
  unfold PerformCSE at h
  split at h
  · exact absurd h (by simp)
  · rename_i dsc hdsc
    simp only at h
    obtain ⟨d1, -, -⟩ := performDefs_frame st.lvaCount dsc.csdIsSharedConst
      (performBase ir st dsc) dsc.occurrences (performEnter ir st slot dsc)
    exact ⟨dsc, hdsc, UnmarkLe_trans _ _ _ d1 (performUses_frame ir _ _ _ _ _ _ h)⟩

theorem PerformCSE_constDef (ir : CseIR W) (st st1 : CseState W) (slot : Nat) (dsc : CSEdsc W)
    (hslot : st.dscAt slot = some dsc) (h : PerformCSE ir st slot = some st1) :
    ∃ d1, st1.dscAt slot = some d1 ∧ toSsize d1.csdConstDefValue = performBase ir st dsc := by
  obtain ⟨dsc2, hdsc2, hle⟩ := PerformCSE_unmark ir st st1 slot h
  rw [hslot] at hdsc2
  simp only [Option.some.injEq] at hdsc2
  subst hdsc2
  have hslot2 := (dscAt_eq_some st slot dsc).1 hslot
  have hlt : slot < st.comp.optCSEtab.length := by
    by_contra hn
    rw [List.getElem?_eq_none (by omega)] at hslot2
    exact absurd hslot2 (by simp)
  have hs1 : (performEnter ir st slot dsc).comp.optCSEtab[slot]? =
      some (some (enterDsc ir st dsc)) := by
    simp [performEnter, List.getElem?_set, hlt]
  obtain ⟨d3, hd3, hun, -⟩ := (hle.2.2.2.2.2.2.2.2.2 slot).2 _ hs1
  refine ⟨d3, (dscAt_eq_some _ _ _).2 hd3, ?_⟩
  have := congrArg CSEdsc.csdConstDefValue hun.1
  simp only at this
  rw [this]
  rfl

theorem performSelect_inv (ir : CseIR W) (c : Compiler W) (occs : List treeStmtLst)
    (hfit : ∀ x ∈ occs, ∀ y ∈ occs, IS_CSE_INDEX (occTag c y) = true →
      IS_CSE_INDEX (occTag c x) = true →
      -2 ^ 63 ≤ occConst c x - occConst c y ∧ occConst c x - occConst c y < 2 ^ 63) :
    SelectInv c occs (performSelect ir c true occs) := by
  have := SelectInv_fold ir c occs [] PerformLocals.init
    (Or.inl ⟨rfl, fun y hy => absurd hy (by simp)⟩) (by simpa using hfit)
  simpa [performSelect] using this

/-- C14: for a shared-constant candidate of which some occurrence is still tagged, and whose
tagged occurrences have constants that differ by less than the range of `ssize_t` (they share
one key), the value `csdConstDefValue` chosen by `PerformCSE` is the constant of a still-tagged
occurrence `x`; every still-tagged occurrence has a constant `c` with
`c - csdConstDefValue ≥ -255` in exact integer arithmetic, and with `c - csdConstDefValue ≥ 0`
when `x` is a use. The value is the one the loops of `PerformCSE` read, and the one the
descriptor holds when `PerformCSE` returns. -/
theorem shared_const_representative_within_255 (ir : CseIR W) (st : CseState W) (slot : Nat)
    (dsc : CSEdsc W) (hslot : st.dscAt slot = some dsc)
    (hshared : dsc.csdIsSharedConst = true)
    (htagged : ∃ x ∈ dsc.occurrences, IS_CSE_INDEX (occTag st.comp x) = true)
    (hfit : ∀ x ∈ dsc.occurrences, ∀ y ∈ dsc.occurrences,
      IS_CSE_INDEX (occTag st.comp y) = true → IS_CSE_INDEX (occTag st.comp x) = true →
      -2 ^ 63 ≤ occConst st.comp x - occConst st.comp y ∧
        occConst st.comp x - occConst st.comp y < 2 ^ 63) :
    (∃ x ∈ dsc.occurrences, IS_CSE_INDEX (occTag st.comp x) = true ∧
      performBase ir st dsc = occConst st.comp x ∧
      (∀ y ∈ dsc.occurrences, IS_CSE_INDEX (occTag st.comp y) = true →
        occConst st.comp y - performBase ir st dsc ≥ -255) ∧
      (IS_CSE_USE (occTag st.comp x) = true →
        ∀ y ∈ dsc.occurrences, IS_CSE_INDEX (occTag st.comp y) = true →
          occConst st.comp y - performBase ir st dsc ≥ 0)) ∧
    ∀ st1, PerformCSE ir st slot = some st1 →
      ∃ d1, st1.dscAt slot = some d1 ∧ toSsize d1.csdConstDefValue = performBase ir st dsc := by
  refine ⟨?_, fun st1 h => PerformCSE_constDef ir st st1 slot dsc hslot h⟩
  have hinv := performSelect_inv ir st.comp dsc.occurrences hfit
  rcases hinv with ⟨-, hun⟩ | ⟨⟨x, hx, hxt, -, hxc, hxd⟩, hall⟩
  · obtain ⟨x, hx, hxt⟩ := htagged
    rw [hun x hx] at hxt
    exact absurd hxt (by simp)
  · have hbase : performBase ir st dsc = occConst st.comp x := by
      unfold performBase
      rw [hshared, toSsize_ofSsize, hxc]
      exact toSsize_of_range _ (occConst_range _ _).1 (occConst_range _ _).2
    refine ⟨x, hx, hxt, hbase, ?_, ?_⟩
    · intro y hy hyt
      have := hall y hy hyt
      rw [hbase, ← hxc]
      split at this <;> omega
    · intro hxu y hy hyt
      have := hall y hy hyt
      have hnd : IS_CSE_DEF (occTag st.comp x) = false := by
        rcases tag_def_or_use _ hxt with ⟨-, h2⟩ | ⟨h1, -⟩
        · rw [h2] at hxu
          exact absurd hxu (by simp)
        · exact h1
      rw [hxd, hnd] at this
      rw [hbase, ← hxc]
      simpa using this

/-! ### Occurrences that are leaves without side effects (constants) -/

theorem performUse_leaf (ir : CseIR W) (temp : Nat) (sc : Bool) (base : Int)
    (st : CseState W) (x : treeStmtLst)
    (hleaf : ir.gtOperands x.tslTree.gtTreeID = GenTreeOps.none)
    (hpure : ir.gtNodeHasSideEffects x.tslTree = false)
    (huse : IS_CSE_USE (st.comp.treeCSEnum x.tslTree.gtTreeID) = true) :
    ∃ st1, performUse ir temp sc base st x = some st1 ∧
      st1.replaced = st.replaced ++ [useReplacement st.comp.vnStore temp sc base x] ∧
      st1.comp.vnStore = st.comp.vnStore ∧
      ∀ id, id ≠ x.tslTree.gtTreeID → st1.comp.treeCSEnum id = st.comp.treeCSEnum id := by
  have hun := optUnmarkCSE_untagged
    (CseState.setTag { st with optCSEweight := ir.getBBWeight x.tslBlock }
      x.tslTree.gtTreeID NO_CSE) x.tslTree (by simp [CseState.setTag, NO_CSE])
  have hex : optExtractSideEffectsForCSE ir
      (CseState.setTag { st with optCSEweight := ir.getBBWeight x.tslBlock }
        x.tslTree.gtTreeID NO_CSE) x.tslTree =
      some (CseState.setTag { st with optCSEweight := ir.getBBWeight x.tslBlock }
        x.tslTree.gtTreeID NO_CSE, none) := by
    unfold optExtractSideEffectsForCSE
    rw [hleaf]
    unfold Extractor.WalkTree
    simp only [hpure, Bool.and_false, Bool.false_eq_true, if_false, hun]
    simp [Extractor.WalkTree]
  have he : performUse ir temp sc base st x =
      some { CseState.setTag { st with optCSEweight := ir.getBBWeight x.tslBlock }
          x.tslTree.gtTreeID NO_CSE with
        replaced := st.replaced ++ [useReplacement st.comp.vnStore temp sc base x] } := by
    unfold performUse
    simp only [huse, Bool.not_true, Bool.false_eq_true, if_false, hex]
    rfl
  refine ⟨_, he, rfl, rfl, ?_⟩
  intro id hid
  simp [CseState.setTag, Function.update, hid]

theorem performUses_leaf (ir : CseIR W) (temp : Nat) (sc : Bool) (base : Int) :
    ∀ (occs : List treeStmtLst) (st : CseState W),
      (occs.map (fun x => x.tslTree.gtTreeID)).Nodup →
      (∀ x ∈ occs, ir.gtOperands x.tslTree.gtTreeID = GenTreeOps.none) →
      (∀ x ∈ occs, ir.gtNodeHasSideEffects x.tslTree = false) →
      ∃ st1, performUses ir temp sc base st occs = some st1 ∧
        st1.replaced = st.replaced ++
          (useEntries st.comp.treeCSEnum occs).map (useReplacement st.comp.vnStore temp sc base) := by
  intro occs
  induction occs with
  | nil =>
    intro st _ _ _
    exact ⟨st, rfl, by simp [useEntries]⟩
  | cons x rest ih =>
    intro st hnd hleaf hpure
    rw [List.map_cons, List.nodup_cons] at hnd
    obtain ⟨hx, hrest⟩ := hnd
    cases hu : IS_CSE_USE (st.comp.treeCSEnum x.tslTree.gtTreeID)
    · obtain ⟨st1, h1, h2⟩ := ih st hrest
        (fun y hy => hleaf y (List.mem_cons_of_mem _ hy))
        (fun y hy => hpure y (List.mem_cons_of_mem _ hy))
      refine ⟨st1, ?_, ?_⟩
      · unfold performUses
        have : performUse ir temp sc base st x = some st := by
          unfold performUse
          simp [hu]
        rw [this]
        exact h1
      · rw [h2]
        simp [useEntries, List.filter_cons, hu]
    · obtain ⟨st2, p1, p2, p3, p4⟩ := performUse_leaf ir temp sc base st x
        (hleaf x (List.mem_cons_self _ _)) (hpure x (List.mem_cons_self _ _)) hu
      obtain ⟨st1, h1, h2⟩ := ih st2 hrest
        (fun y hy => hleaf y (List.mem_cons_of_mem _ hy))
        (fun y hy => hpure y (List.mem_cons_of_mem _ hy))
      have htag : ∀ y ∈ rest, st2.comp.treeCSEnum y.tslTree.gtTreeID =
          st.comp.treeCSEnum y.tslTree.gtTreeID := by
        intro y hy
        apply p4
        intro e
        exact hx (List.mem_map.2 ⟨y, hy, e⟩)
      refine ⟨st1, ?_, ?_⟩
      · unfold performUses
        rw [p1]
        exact h1
      · rw [h2, p2, p3, useEntries_congr _ _ _ (fun y hy => by rw [htag y hy])]
        simp [useEntries, List.filter_cons, hu]

theorem delta_zero_iff (c base : Int) (hc1 : -2 ^ 63 ≤ c) (hc2 : c < 2 ^ 63)
    (hb1 : -2 ^ 63 ≤ base) (hb2 : base < 2 ^ 63) : toSsize (c - base) = 0 ↔ c = base := by
  unfold toSsize
  norm_num at hc1 hc2 hb1 hb2 ⊢
  omega

theorem performBase_range (ir : CseIR W) (st : CseState W) (dsc : CSEdsc W) :
    -2 ^ 63 ≤ performBase ir st dsc ∧ performBase ir st dsc < 2 ^ 63 :=
  toSsize_range _

theorem PerformCSE_leaf (ir : CseIR W) (st : CseState W) (slot : Nat) (dsc : CSEdsc W)
    (hslot : st.dscAt slot = some dsc)
    (hnd : (dsc.occurrences.map (fun x => x.tslTree.gtTreeID)).Nodup)
    (hleaf : ∀ x ∈ dsc.occurrences, ir.gtOperands x.tslTree.gtTreeID = GenTreeOps.none)
    (hpure : ∀ x ∈ dsc.occurrences, ir.gtNodeHasSideEffects x.tslTree = false) :
    ∃ st1, PerformCSE ir st slot = some st1 ∧
      st1.replaced = st.replaced ++
        ((defEntries st.comp.treeCSEnum dsc.occurrences).map
          (defReplacement st.comp.vnStore st.comp.treeCSEnum st.lvaCount dsc.csdIsSharedConst
            (performBase ir st dsc)) ++
        (useEntries st.comp.treeCSEnum dsc.occurrences).map
          (useReplacement st.comp.vnStore st.lvaCount dsc.csdIsSharedConst
            (performBase ir st dsc))) := by
  obtain ⟨d1, -, -, -, d5, -, d7⟩ := performDefs_spec st.lvaCount dsc.csdIsSharedConst
    (performBase ir st dsc) dsc.occurrences (performEnter ir st slot dsc) hnd
  obtain ⟨st1, u1, u2⟩ := performUses_leaf ir st.lvaCount dsc.csdIsSharedConst
    (performBase ir st dsc) dsc.occurrences
    (List.foldl (performDef st.lvaCount dsc.csdIsSharedConst (performBase ir st dsc))
      (performEnter ir st slot dsc) dsc.occurrences) hnd hleaf hpure
  have hvn2 : (List.foldl (performDef st.lvaCount dsc.csdIsSharedConst (performBase ir st dsc))
      (performEnter ir st slot dsc) dsc.occurrences).comp.vnStore = st.comp.vnStore := d1.2.1
  refine ⟨st1, ?_, ?_⟩
  · unfold PerformCSE
    rw [hslot]
    exact u1
  · rw [u2, d7, hvn2, useEntries_after_defs _ _ _ d5]
    simp [performEnter, List.append_assoc]

set_option maxRecDepth 1000000

theorem s4_performCSE_values :
    (PerformCSE exIR s4State 0).bind
        (fun s => (s.dscAt 0).map (fun d => d.csdConstDefValue)) = some 0x1000 ∧
    (PerformCSE exIR s4State 0).map (fun s => s.replaced) =
      some [Replacement.mk 1 1
          (CseTree.comma (CseTree.store 7 (-1) (CseTree.node (exTree 1 0 1 false)))
            (CseTree.lclVar 7)),
        Replacement.mk 2 2 (CseTree.add (CseTree.lclVar 7) (CseTree.icon 0x10))] :=
  ⟨by rfl, by rfl⟩

/-- C15: for a shared-constant candidate whose occurrences are distinct constant nodes (leaves
without side effects), `PerformCSE` returns, and with `base` the `csdConstDefValue` it leaves in
the descriptor (as `ssize_t`) and `delta = c - base` in `ssize_t` for an occurrence with
constant `c`: the replacements are those of the defs followed by those of the uses; a use is
replaced by the bare use of the temp when `delta = 0` and by `ADD(temp, delta)` otherwise, and
`base + delta == c` in `ssize_t`; a def is replaced by `COMMA(store, use)` where the store
writes a new constant `base` when `delta ≠ 0` and the def itself, whose constant is `base`,
when `delta = 0`. For the occurrences `0x1000` (def) and `0x1010` (use) the value recorded is
`0x1000`, the def stores itself and the use becomes `ADD(temp, 0x10)`. -/
theorem shared_const_use_is_temp_plus_delta :
    (∀ (W : Type) [Zero W] [Add W] [Sub W] [LE W] [LT W]
      [DecidableRel (LE.le : W → W → Prop)] [DecidableRel (LT.lt : W → W → Prop)]
      (ir : CseIR W) (st : CseState W) (slot : Nat) (dsc : CSEdsc W),
      st.dscAt slot = some dsc → dsc.csdIsSharedConst = true →
      (dsc.occurrences.map (fun x => x.tslTree.gtTreeID)).Nodup →
      (∀ x ∈ dsc.occurrences, ir.gtOperands x.tslTree.gtTreeID = GenTreeOps.none) →
      (∀ x ∈ dsc.occurrences, ir.gtNodeHasSideEffects x.tslTree = false) →
      ∃ st1 d1 base, PerformCSE ir st slot = some st1 ∧ st1.dscAt slot = some d1 ∧
        base = toSsize d1.csdConstDefValue ∧
        st1.replaced = st.replaced ++
          ((defEntries st.comp.treeCSEnum dsc.occurrences).map
            (defReplacement st.comp.vnStore st.comp.treeCSEnum st.lvaCount true base) ++
          (useEntries st.comp.treeCSEnum dsc.occurrences).map
            (useReplacement st.comp.vnStore st.lvaCount true base)) ∧
        (∀ x ∈ dsc.occurrences,
          toSsize (base + toSsize (occConst st.comp x - base)) = occConst st.comp x ∧
          (useReplacement st.comp.vnStore st.lvaCount true base x).newNode =
            (if toSsize (occConst st.comp x - base) = 0 then CseTree.lclVar st.lvaCount
              else CseTree.add (CseTree.lclVar st.lvaCount)
                (CseTree.icon (toSsize (occConst st.comp x - base)))) ∧
          (defReplacement st.comp.vnStore st.comp.treeCSEnum st.lvaCount true base x).newNode =
            CseTree.comma
              (CseTree.store st.lvaCount (occTag st.comp x)
                (if toSsize (occConst st.comp x - base) = 0 then CseTree.node x.tslTree
                  else CseTree.icon base))
              (if toSsize (occConst st.comp x - base) = 0 then CseTree.lclVar st.lvaCount
                else CseTree.add (CseTree.lclVar st.lvaCount)
                  (CseTree.icon (toSsize (occConst st.comp x - base)))) ∧
          (toSsize (occConst st.comp x - base) = 0 → occConst st.comp x = base))) ∧
    (PerformCSE exIR s4State 0).bind
        (fun s => (s.dscAt 0).map (fun d => d.csdConstDefValue)) = some 0x1000 ∧
    (PerformCSE exIR s4State 0).map (fun s => s.replaced) =
      some [Replacement.mk 1 1
          (CseTree.comma (CseTree.store 7 (-1) (CseTree.node (exTree 1 0 1 false)))
            (CseTree.lclVar 7)),
        Replacement.mk 2 2 (CseTree.add (CseTree.lclVar 7) (CseTree.icon 0x10))] := by
  refine ⟨?_, s4_performCSE_values⟩
  intro W _ _ _ _ _ _ _ ir st slot dsc hslot hshared hnd hleaf hpure
  obtain ⟨st1, h1, h2⟩ := PerformCSE_leaf ir st slot dsc hslot hnd hleaf hpure
  obtain ⟨d1, hd1, hbase⟩ := PerformCSE_constDef ir st st1 slot dsc hslot h1
  refine ⟨st1, d1, _, h1, hd1, rfl, ?_, ?_⟩
  · rw [h2, hshared, hbase]
  · intro x _
    have hr := toSsize_range (d1.csdConstDefValue : Int)
    have hc := occConst_range st.comp x
    refine ⟨?_, ?_, ?_, ?_⟩
    · rw [toSsize_add_delta]
      exact toSsize_of_range _ hc.1 hc.2
    · simp only [useReplacement, cseUseTree, sharedConstDelta, occConst]
      split <;> simp_all
    · simp only [defReplacement, cseDefTree, cseUseTree, sharedConstDelta, occConst, occTag]
      split <;> simp_all
    · intro h0
      exact (delta_zero_iff _ _ hc.1 hc.2 hr.1 hr.2).1 h0

/-! ### Stores and loads of the temp -/

theorem cseUseTree_counts (vnStore : ValueNumStore) (temp : Nat) (sc : Bool) (base : Int)
    (e : GenTree) :
    (cseUseTree vnStore temp sc base e).loads temp = 1 ∧
    (cseUseTree vnStore temp sc base e).stores temp = 0 := by
  unfold cseUseTree
  split <;> simp [CseTree.loads, CseTree.stores]

theorem cseDefTree_counts (vnStore : ValueNumStore) (temp : Nat) (sc : Bool) (base : Int)
    (tag : Int) (e : GenTree) :
    (cseDefTree vnStore temp sc base tag e).loads temp = 1 ∧
    (cseDefTree vnStore temp sc base tag e).stores temp = 1 := by
  have hu := cseUseTree_counts vnStore temp sc base e
  unfold cseDefTree
  simp only [CseTree.loads, CseTree.stores, hu.1, hu.2]
  split <;> simp [CseTree.loads, CseTree.stores]

theorem totalLoads_append (n : Nat) (a b : List Replacement) :
    totalLoads n (a ++ b) = totalLoads n a + totalLoads n b := by
  simp [totalLoads]

theorem totalStores_append (n : Nat) (a b : List Replacement) :
    totalStores n (a ++ b) = totalStores n a + totalStores n b := by
  simp [totalStores]

theorem defReplacements_counts (vnStore : ValueNumStore) (tags : Nat → Int) (temp : Nat)
    (sc : Bool) (base : Int) (l : List treeStmtLst) :
    totalLoads temp (l.map (defReplacement vnStore tags temp sc base)) = l.length ∧
    totalStores temp (l.map (defReplacement vnStore tags temp sc base)) = l.length := by
  induction l with
  | nil => simp [totalLoads, totalStores]
  | cons x rest ih =>
    have hc := cseDefTree_counts vnStore temp sc base (tags x.tslTree.gtTreeID) x.tslTree
    simp only [totalLoads, totalStores, List.map_cons, List.sum_cons, List.length_cons] at ih ⊢
    rw [ih.1, ih.2]
    simp only [defReplacement, hc.1, hc.2]
    omega

theorem useReplacements_counts (vnStore : ValueNumStore) (temp : Nat) (sc : Bool) (base : Int)
    (l : List treeStmtLst) (rs : List Replacement)
    (h : List.Forall₂ (UseReplacement vnStore temp sc base) l rs) :
    totalLoads temp rs = l.length ∧ totalStores temp rs = 0 := by
  induction h with
  | nil => simp [totalLoads, totalStores]
  | @cons x r l1 rs1 hr _ ih =>
    have hc := cseUseTree_counts vnStore temp sc base x.tslTree
    have hnode : r.newNode.loads temp = 1 ∧ r.newNode.stores temp = 0 := by
      rcases hr.2.2 with e | ⟨se, hse, e⟩
      · rw [e]
        exact hc
      · have hs := sideEffList_counts temp se hse
        rw [e]
        simp [CseTree.loads, CseTree.stores, hs.1, hs.2, hc.1, hc.2]
    simp only [totalLoads, totalStores, List.map_cons, List.sum_cons, List.length_cons] at ih ⊢
    rw [ih.1, ih.2, hnode.1, hnode.2]
    omega

theorem PerformCSE_total (ir : CseIR W) (st : CseState W) (slot : Nat) (dsc : CSEdsc W)
    (hslot : st.dscAt slot = some dsc)
    (hun : ∀ x ∈ dsc.occurrences, ∀ n ∈ (ir.gtOperands x.tslTree.gtTreeID).preOrder,
      st.comp.treeCSEnum n.gtTreeID = 0) :
    ∃ st1, PerformCSE ir st slot = some st1 := by
  unfold PerformCSE
  rw [hslot]
  simp only
  apply performUses_total
  intro x hx n hn
  have hframe : ∀ (occs : List treeStmtLst) (s : CseState W) (id : Nat),
      s.comp.treeCSEnum id = 0 →
      (occs.foldl (performDef st.lvaCount dsc.csdIsSharedConst (performBase ir st dsc))
        s).comp.treeCSEnum id = 0 := by
    intro occs
    induction occs with
    | nil => intro s id h; exact h
    | cons y rest ih =>
      intro s id h
      rw [List.foldl_cons]
      apply ih
      obtain ⟨-, -, -, -, p5, p6, p7⟩ := performDef_spec st.lvaCount dsc.csdIsSharedConst
        (performBase ir st dsc) s y
      by_cases hid : id = y.tslTree.gtTreeID
      · subst hid
        cases hd : IS_CSE_DEF (s.comp.treeCSEnum y.tslTree.gtTreeID)
        · rw [p7 hd]
          exact h
        · exact (p6 hd).1
      · rw [p5 id hid]
        exact h
  exact hframe dsc.occurrences _ n.gtTreeID (hun x hx n hn)

/-- C13, as the code has it: for a candidate whose occurrences are distinct nodes none of which
lies below another one, with `csdDefCount` def-tagged and `csdUseCount` use-tagged occurrences,
a call of `PerformCSE` that returns has made `ReplaceCSENode` calls whose new trees hold exactly
`csdDefCount` stores to the new temp and exactly `csdDefCount + csdUseCount` uses of it (every
def is replaced by `COMMA(store, use)`), and has given the temp the reference count
`2 * csdDefCount + csdUseCount`; the call returns when no operand of an occurrence carries a
CSE tag. -/
theorem performCSE_stores_and_loads (ir : CseIR W) (st : CseState W) (slot : Nat)
    (dsc : CSEdsc W) (hslot : st.dscAt slot = some dsc)
    (hnd : (dsc.occurrences.map (fun x => x.tslTree.gtTreeID)).Nodup)
    (hops : ∀ x ∈ dsc.occurrences, ∀ y ∈ dsc.occurrences,
      ∀ n ∈ (ir.gtOperands x.tslTree.gtTreeID).preOrder, n.gtTreeID ≠ y.tslTree.gtTreeID)
    (hdef : (defEntries st.comp.treeCSEnum dsc.occurrences).length = dsc.csdDefCount)
    (huse : (useEntries st.comp.treeCSEnum dsc.occurrences).length = dsc.csdUseCount) :
    (∀ st1, PerformCSE ir st slot = some st1 →
      ∃ new, st1.replaced = st.replaced ++ new ∧
        totalStores st.lvaCount new = dsc.csdDefCount ∧
        totalLoads st.lvaCount new = dsc.csdDefCount + dsc.csdUseCount ∧
        st1.lvRefCnt st.lvaCount = 2 * dsc.csdDefCount + dsc.csdUseCount ∧
        st1.lvaCount = st.lvaCount + 1) ∧
    ((∀ x ∈ dsc.occurrences, ∀ n ∈ (ir.gtOperands x.tslTree.gtTreeID).preOrder,
        st.comp.treeCSEnum n.gtTreeID = 0) →
      ∃ st1, PerformCSE ir st slot = some st1) := by
  refine ⟨?_, PerformCSE_total ir st slot dsc hslot⟩
  intro st1 h
  obtain ⟨⟨uses, h1, h2⟩, h3, h4, -⟩ := PerformCSE_spec ir st st1 slot dsc hslot hnd hops h
  have hd := defReplacements_counts st.comp.vnStore st.comp.treeCSEnum st.lvaCount
    dsc.csdIsSharedConst (performBase ir st dsc) (defEntries st.comp.treeCSEnum dsc.occurrences)
  have hu := useReplacements_counts _ _ _ _ _ _ h2
  refine ⟨_, h1, ?_, ?_, ?_, h3⟩
  · rw [totalStores_append, hd.2, hu.2, hdef]
    rfl
  · rw [totalLoads_append, hd.1, hu.1, hdef, huse]
  · rw [h4, hdef, huse]

/-- C13, as stated, fails: the candidate `exDefUseDsc` has one def and one use, and `PerformCSE`
makes one store to the temp `V07` and two uses of it. -/
theorem performCSE_def_adds_a_load :
    exDefUseState.dscAt 0 = some exDefUseDsc ∧
    exDefUseDsc.csdDefCount = 1 ∧ exDefUseDsc.csdUseCount = 1 ∧
    (PerformCSE exIR exDefUseState 0).map (fun s => s.replaced) =
      some [Replacement.mk 1 1
          (CseTree.comma (CseTree.store 7 (-1) (CseTree.node (exTree 1 0 1 false)))
            (CseTree.lclVar 7)),
        Replacement.mk 2 2 (CseTree.lclVar 7)] ∧
    (PerformCSE exIR exDefUseState 0).map (fun s => totalStores 7 s.replaced) = some 1 ∧
    (PerformCSE exIR exDefUseState 0).map (fun s => totalLoads 7 s.replaced) = some 2 :=
  ⟨by rfl, by rfl, by rfl, by rfl, by rfl, by rfl⟩

/-! ### Witnesses -/

theorem shared_const_representative_within_255_witness :
    (∃ x ∈ s4Dsc.occurrences, IS_CSE_INDEX (occTag s4State.comp x) = true ∧
      performBase exIR s4State s4Dsc = occConst s4State.comp x ∧
      (∀ y ∈ s4Dsc.occurrences, IS_CSE_INDEX (occTag s4State.comp y) = true →
        occConst s4State.comp y - performBase exIR s4State s4Dsc ≥ -255) ∧
      (IS_CSE_USE (occTag s4State.comp x) = true →
        ∀ y ∈ s4Dsc.occurrences, IS_CSE_INDEX (occTag s4State.comp y) = true →
          occConst s4State.comp y - performBase exIR s4State s4Dsc ≥ 0)) ∧
    ∀ st1, PerformCSE exIR s4State 0 = some st1 →
      ∃ d1, st1.dscAt 0 = some d1 ∧
        toSsize d1.csdConstDefValue = performBase exIR s4State s4Dsc :=
  shared_const_representative_within_255 exIR s4State 0 s4Dsc (by rfl) (by rfl)
    ⟨s4Dsc.csdTreeList, by decide, by decide⟩ (by decide)

theorem shared_const_use_is_temp_plus_delta_witness :
    ∃ st1 d1 base, PerformCSE exIR s4State 0 = some st1 ∧ st1.dscAt 0 = some d1 ∧
      base = toSsize d1.csdConstDefValue ∧
      st1.replaced = s4State.replaced ++
        ((defEntries s4State.comp.treeCSEnum s4Dsc.occurrences).map
          (defReplacement s4State.comp.vnStore s4State.comp.treeCSEnum s4State.lvaCount true
            base) ++
        (useEntries s4State.comp.treeCSEnum s4Dsc.occurrences).map
          (useReplacement s4State.comp.vnStore s4State.lvaCount true base)) := by
  obtain ⟨st1, d1, base, h1, h2, h3, h4, -⟩ :=
    shared_const_use_is_temp_plus_delta.1 Nat exIR s4State 0 s4Dsc (by rfl) (by rfl)
      (by decide) (by decide) (by decide)
  exact ⟨st1, d1, base, h1, h2, h3, h4⟩

theorem performCSE_stores_and_loads_witness :
    ∃ st1, PerformCSE exIR exPerfState 0 = some st1 ∧
      ∃ new, st1.replaced = exPerfState.replaced ++ new ∧
        totalStores 7 new = 1 ∧ totalLoads 7 new = 3 ∧ st1.lvRefCnt 7 = 4 ∧
        st1.lvaCount = 8 := by
  have hsome : (PerformCSE exIR exPerfState 0).isSome = true := by rfl
  cases h : PerformCSE exIR exPerfState 0 with
  | none =>
    rw [h] at hsome
    exact absurd hsome (by simp)
  | some st1 =>
    exact ⟨st1, rfl, (performCSE_stores_and_loads exIR exPerfState 0 exPerfDsc (by rfl)
      (by decide) (by decide) (by rfl) (by rfl)).1 st1 h⟩

end Rewriter

/-! ## The policies -/

section Policies
set_option linter.unusedSectionVars false
variable [Zero W] [Add W] [Sub W] [LE W] [LT W]
  [DecidableRel (LE.le : W → W → Prop)] [DecidableRel (LT.lt : W → W → Prop)]
variable {P : Type} [Zero P] [Add P] [Sub P] [Div P] [LT P] [DecidableEq P]
  [DecidableRel (LT.lt : P → P → Prop)]

theorem OnlyViablePerformed_refl (st : CseState W) : OnlyViablePerformed st st :=
  ⟨[], by simp, fun d hd => absurd hd (by simp)⟩

theorem OnlyViablePerformed_of_log (st st1 : CseState W) (h : st1.performLog = st.performLog) :
    OnlyViablePerformed st st1 :=
  ⟨[], by simp [h], fun d hd => absurd hd (by simp)⟩

theorem OnlyViablePerformed_trans (st st1 st2 : CseState W) (h1 : OnlyViablePerformed st st1)
    (h2 : OnlyViablePerformed st1 st2) : OnlyViablePerformed st st2 := by
  obtain ⟨n1, e1, v1⟩ := h1
  obtain ⟨n2, e2, v2⟩ := h2
  refine ⟨n1 ++ n2, by rw [e2, e1, List.append_assoc], ?_⟩
  intro d hd
  rcases List.mem_append.1 hd with h | h
  · exact v1 d h
  · exact v2 d h

theorem IsViable_iff (d : CSEdsc W) : d.IsViable = true ↔ Viable3 d := by
  unfold CSEdsc.IsViable Viable3
  simp only [Bool.and_eq_true, decide_eq_true_eq, Option.isSome_iff_ne_none]
  tauto

theorem PerformCSE_onlyViable (ir : CseIR W) (st st1 : CseState W) (slot : Nat)
    (dsc : CSEdsc W) (hslot : st.dscAt slot = some dsc) (hv : Viable3 dsc)
    (h : PerformCSE ir st slot = some st1) : OnlyViablePerformed st st1 := by
  obtain ⟨-, -, d, hd, hlog⟩ := PerformCSE_frame ir st st1 slot h
  rw [hslot] at hd
  simp only [Option.some.injEq] at hd
  subst hd
  refine ⟨[dsc], hlog, ?_⟩
  intro d hd
  simp only [List.mem_singleton] at hd
  rw [hd]
  exact hv

theorem nextAttempt_onlyViable (st : CseState W) : OnlyViablePerformed st st.nextAttempt :=
  OnlyViablePerformed_of_log _ _ rfl

/-! ### The standard policy -/

theorem standardStep_onlyViable (cfg : StandardConfig W) (ir : CseIR W) (st st1 : CseState W)
    (ptr : Option Nat) (h : standardStep cfg ir st ptr = some st1) :
    OnlyViablePerformed st st1 := by
  unfold standardStep at h
  simp only at h
  split at h
  · exact absurd h (by simp)
  · rename_i slot
    split at h
    · exact absurd h (by simp)
    · rename_i dsc hdsc
      split at h
      · simp only [Option.some.injEq] at h
        rw [← h]
        exact nextAttempt_onlyViable st
      · rename_i hv
        split at h
        · exact OnlyViablePerformed_trans _ _ _ (nextAttempt_onlyViable st)
            (PerformCSE_onlyViable ir _ _ slot dsc hdsc
              ((IsViable_iff dsc).1 (by simpa using hv)) h)
        · simp only [Option.some.injEq] at h
          rw [← h]
          exact nextAttempt_onlyViable st

theorem standardLoop_onlyViable (cfg : StandardConfig W) (ir : CseIR W) :
    ∀ (cnt : Nat) (sortTab : List (Option Nat)) (st st1 : CseState W),
      standardLoop cfg ir cnt sortTab st = some st1 → OnlyViablePerformed st st1 := by
  intro cnt
  induction cnt with
  | zero =>
    intro sortTab st st1 h
    simp only [standardLoop, Option.some.injEq] at h
    rw [← h]
    exact OnlyViablePerformed_refl st
  | succ cnt ih =>
    intro sortTab st st1 h
    cases sortTab with
    | nil => exact absurd h (by simp [standardLoop])
    | cons ptr rest =>
      unfold standardLoop at h
      split at h
      · exact absurd h (by simp)
      · rename_i st2 hstep
        exact OnlyViablePerformed_trans _ _ _
          (standardStep_onlyViable cfg ir st st2 ptr hstep) (ih rest st2 st1 h)

/-! ### The random policy -/

theorem randomStep_onlyViable (cfg : RandomConfig W) (ir : CseIR W) (st st1 : CseState W)
    (entry : Option (Option Nat)) (h : randomStep cfg ir st entry = some st1) :
    OnlyViablePerformed st st1 := by
  unfold randomStep at h
  simp only at h
  split at h
  · exact absurd h (by simp)
  · split at h
    · simp only [Option.some.injEq] at h
      rw [← h]
      exact nextAttempt_onlyViable st
    · split at h
      · exact absurd h (by simp)
      · rename_i slot
        split at h
        · exact absurd h (by simp)
        · rename_i dsc hdsc
          split at h
          · simp only [Option.some.injEq] at h
            rw [← h]
            exact nextAttempt_onlyViable st
          · rename_i hp
            split at h
            · simp only [Option.some.injEq] at h
              rw [← h]
              exact nextAttempt_onlyViable st
            · split at h
              · simp only [Option.some.injEq] at h
                rw [← h]
                exact nextAttempt_onlyViable st
              · rename_i hc
                have hv : Viable3 dsc := by
                  simp only [Bool.or_eq_true, decide_eq_true_eq, not_or] at hc
                  refine ⟨by omega, by omega, ?_⟩
                  intro hn
                  rw [hn] at hp
                  exact hp rfl
                exact OnlyViablePerformed_trans _ _ _ (nextAttempt_onlyViable st)
                  (PerformCSE_onlyViable ir _ _ slot dsc hdsc hv h)

theorem randomLoop_onlyViable (cfg : RandomConfig W) (ir : CseIR W) :
    ∀ (k : Nat) (sortTab : List (Option (Option Nat))) (st st1 : CseState W),
      randomLoop cfg ir k sortTab st = some st1 → OnlyViablePerformed st st1 := by
  intro k
  induction k with
  | zero =>
    intro sortTab st st1 h
    simp only [randomLoop, Option.some.injEq] at h
    rw [← h]
    exact OnlyViablePerformed_refl st
  | succ k ih =>
    intro sortTab st st1 h
    cases sortTab with
    | nil => exact absurd h (by simp [randomLoop])
    | cons entry rest =>
      unfold randomLoop at h
      split at h
      · exact absurd h (by simp)
      · rename_i st2 hstep
        exact OnlyViablePerformed_trans _ _ _
          (randomStep_onlyViable cfg ir st st2 entry hstep) (ih rest st2 st1 h)

/-! ### The replay policy and the hook -/

theorem replayStep_onlyViable (ir : CseIR W) (n : Nat) (st st1 : CseState W) (x : Int)
    (h : replayStep ir n st x = some st1) : OnlyViablePerformed st st1 := by
  unfold replayStep at h
  simp only at h
  split at h
  · simp only [Option.some.injEq] at h
    rw [← h]
    exact OnlyViablePerformed_refl st
  · split at h
    · exact absurd h (by simp)
    · rename_i dsc hdsc
      split at h
      · simp only [Option.some.injEq] at h
        rw [← h]
        exact nextAttempt_onlyViable st
      · rename_i hv
        exact OnlyViablePerformed_trans _ _ _ (nextAttempt_onlyViable st)
          (PerformCSE_onlyViable ir _ _ _ dsc hdsc ((IsViable_iff dsc).1 (by simpa using hv)) h)

theorem replayLoop_onlyViable (ir : CseIR W) (n : Nat) :
    ∀ (l : List Int) (st st1 : CseState W),
      replayLoop ir n l st = some st1 → OnlyViablePerformed st st1 := by
  intro l
  induction l with
  | nil =>
    intro st st1 h
    simp only [replayLoop, Option.some.injEq] at h
    rw [← h]
    exact OnlyViablePerformed_refl st
  | cons x rest ih =>
    intro st st1 h
    unfold replayLoop at h
    split at h
    · exact absurd h (by simp)
    · rename_i st2 hstep
      exact OnlyViablePerformed_trans _ _ _ (replayStep_onlyViable ir n st st2 x hstep)
        (ih st2 st1 h)

theorem hookStep_onlyViable (ir : CseIR W) (cnt : Nat) (st st1 : CseState W) (x : Int)
    (h : hookStep ir cnt st x = some st1) : OnlyViablePerformed st st1 := by
  unfold hookStep at h
  split at h
  · simp only [Option.some.injEq] at h
    rw [← h]
    exact OnlyViablePerformed_refl st
  · split at h
    · exact absurd h (by simp)
    · rename_i dsc hdsc
      split at h
      · simp only [Option.some.injEq] at h
        rw [← h]
        exact OnlyViablePerformed_refl st
      · rename_i hv
        exact OnlyViablePerformed_trans _ _ _ (nextAttempt_onlyViable st)
          (PerformCSE_onlyViable ir st.nextAttempt _ _ dsc hdsc
            ((IsViable_iff dsc).1 (by simpa using hv)) h)

theorem hookLoop_onlyViable (ir : CseIR W) (cnt : Nat) :
    ∀ (l : List Int) (st st1 : CseState W),
      hookLoop ir cnt l st = some st1 → OnlyViablePerformed st st1 := by
  intro l
  induction l with
  | nil =>
    intro st st1 h
    simp only [hookLoop, Option.some.injEq] at h
    rw [← h]
    exact OnlyViablePerformed_refl st
  | cons x rest ih =>
    intro st st1 h
    unfold hookLoop at h
    split at h
    · exact absurd h (by simp)
    · rename_i st2 hstep
      exact OnlyViablePerformed_trans _ _ _ (hookStep_onlyViable ir cnt st st2 x hstep)
        (ih st2 st1 h)

/-! ### The parameterized policies -/

theorem updateLoop_onlyViable (cfg : RLConfig W P) (ir : CseIR W) (n : Nat) :
    ∀ (l : List Int) (sortTab : List (Option Nat)) (st st1 : CseState W)
      (sortTab1 : List (Option Nat)),
      updateLoop cfg ir n l sortTab st = some (st1, sortTab1) → OnlyViablePerformed st st1 := by
  intro l
  induction l with
  | nil =>
    intro sortTab st st1 sortTab1 h
    simp only [updateLoop, Option.some.injEq, Prod.mk.injEq] at h
    rw [← h.1]
    exact OnlyViablePerformed_refl st
  | cons x rest ih =>
    intro sortTab st st1 sortTab1 h
    unfold updateLoop at h
    split at h
    · simp only [Option.some.injEq, Prod.mk.injEq] at h
      rw [← h.1]
      exact OnlyViablePerformed_refl st
    · simp only at h
      split at h
      · exact ih _ _ _ _ h
      · split at h
        · exact absurd h (by simp)
        · split at h
          · rename_i slot _
            split at h
            · exact absurd h (by simp)
            · rename_i dsc hdsc
              split at h
              · exact OnlyViablePerformed_trans _ _ _ (nextAttempt_onlyViable st)
                  (ih _ _ _ _ h)
              · rename_i hv
                split at h
                · exact absurd h (by simp)
                · rename_i st2 hperf
                  exact OnlyViablePerformed_trans _ _ _ (nextAttempt_onlyViable st)
                    (OnlyViablePerformed_trans _ _ _
                      (PerformCSE_onlyViable ir _ _ slot dsc hdsc
                        ((IsViable_iff dsc).1 (by simpa using hv)) hperf)
                      (ih _ _ _ _ h))
          · exact absurd h (by simp)

theorem UpdateParameters_onlyViable (cfg : RLConfig W P) (ir : CseIR W)
    (sortTab : List (Option Nat)) (st st1 : CseState W)
    (h : UpdateParameters cfg ir sortTab st = some st1) : OnlyViablePerformed st st1 := by
  unfold UpdateParameters at h
  simp only at h
  split at h
  · simp only [Option.some.injEq] at h
    rw [← h]
    exact OnlyViablePerformed_refl st
  · split at h
    · exact absurd h (by simp)
    · rename_i st2 sortTab2 hloop
      split at h
      · exact absurd h (by simp)
      · simp only [Option.some.injEq] at h
        rw [← h]
        exact updateLoop_onlyViable cfg ir _ _ _ _ _ _ hloop

theorem buildChoicesLoop_viable (cfg : RLConfig W P) (st : CseState W)
    (sortTab : List (Option Nat)) :
    ∀ (todo : List Nat) (choices choices1 : List (Choice P)),
      buildChoicesLoop cfg st sortTab todo choices = some choices1 →
      (∀ ch ∈ choices, ∀ slot, ch.m_dsc = some slot →
        ∃ d, st.dscAt slot = some d ∧ d.IsViable = true) →
      ∀ ch ∈ choices1, ∀ slot, ch.m_dsc = some slot →
        ∃ d, st.dscAt slot = some d ∧ d.IsViable = true := by
  intro todo
  induction todo with
  | nil =>
    intro choices choices1 h hq
    simp only [buildChoicesLoop, Option.some.injEq] at h
    rw [← h]
    exact hq
  | cons i rest ih =>
    intro choices choices1 h hq
    unfold buildChoicesLoop at h
    split at h
    · exact absurd h (by simp)
    · exact ih _ _ h hq
    · rename_i slot _
      split at h
      · exact absurd h (by simp)
      · rename_i dsc hdsc
        split at h
        · exact ih _ _ h hq
        · rename_i hv
          apply ih _ _ h
          intro ch hch s hs
          rcases List.mem_cons.1 hch with rfl | hch
          · simp only [Option.some.injEq] at hs
            subst hs
            exact ⟨dsc, hdsc, by simpa using hv⟩
          · exact hq ch hch s hs

theorem BuildChoices_viable (cfg : RLConfig W P) (st : CseState W)
    (sortTab : List (Option Nat)) (choices1 : List (Choice P))
    (h : BuildChoices cfg st sortTab [] = some choices1) :
    (∀ ch, choices1.head? = some ch → ch.m_dsc = none) ∧
    ∀ ch ∈ choices1, ∀ slot, ch.m_dsc = some slot →
      ∃ d, st.dscAt slot = some d ∧ d.IsViable = true := by
  unfold BuildChoices at h
  split at h
  · exact absurd h (by simp)
  · rename_i built hb
    simp only [Option.some.injEq] at h
    have hq := buildChoicesLoop_viable cfg st sortTab _ _ _ hb
      (fun ch hch => absurd hch (by simp))
    rw [← h]
    constructor
    · intro ch hch
      simp only [List.head?_cons, Option.some.injEq] at hch
      rw [← hch]
    · intro ch hch slot hs
      rcases List.mem_cons.1 hch with rfl | hch
      · exact absurd hs (by simp)
      · exact hq ch hch slot hs

theorem Softmax_dsc (cfg : RLConfig W P) (choices : List (Choice P)) :
    ∀ ch ∈ Softmax cfg choices, ∃ c0 ∈ choices, c0.m_dsc = ch.m_dsc := by
  intro ch hch
  unfold Softmax at hch
  simp only [List.mem_map] at hch
  obtain ⟨c1, ⟨c0, hc0, rfl⟩, rfl⟩ := hch
  exact ⟨c0, hc0, rfl⟩

theorem softmaxLoop_onlyViable (cfg : RLConfig W P) (ir : CseIR W) :
    ∀ (fuel k : Nat) (sortTab : List (Option Nat)) (st st1 : CseState W),
      softmaxLoop cfg ir fuel k sortTab st = Outcome.done st1 →
      OnlyViablePerformed st st1 := by
  intro fuel
  induction fuel with
  | zero =>
    intro k sortTab st st1 h
    exact absurd h (by simp [softmaxLoop])
  | succ fuel ih =>
    intro k sortTab st st1 h
    unfold softmaxLoop at h
    split at h
    · exact absurd h (by simp)
    · rename_i choices choiceNum hchoose
      split at h
      · exact absurd h (by simp)
      · rename_i choice hget
        split at h
        · simp only [Outcome.done.injEq] at h
          rw [← h]
          exact OnlyViablePerformed_refl st
        · rename_i slot hslot
          split at h
          · exact absurd h (by simp)
          · rename_i dsc hdsc
            split at h
            · exact absurd h (by simp)
            · rename_i st2 hperf
              have hv : dsc.IsViable = true := by
                unfold ChooseSoftmax at hchoose
                split at hchoose
                · exact absurd hchoose (by simp)
                · rename_i built hb
                  simp only [Option.some.injEq, Prod.mk.injEq] at hchoose
                  obtain ⟨hc1, -⟩ := hchoose
                  have hmem : choice ∈ Softmax cfg built := by
                    rw [hc1]
                    exact List.getElem?_mem hget
                  obtain ⟨c0, hc0, he⟩ := Softmax_dsc cfg built choice hmem
                  obtain ⟨d, hd, hdv⟩ := (BuildChoices_viable cfg st sortTab built hb).2 c0 hc0
                    slot (by rw [he]; exact hslot)
                  rw [hdsc] at hd
                  simp only [Option.some.injEq] at hd
                  rw [hd]
                  exact hdv
              exact OnlyViablePerformed_trans _ _ _
                (PerformCSE_onlyViable ir _ _ slot dsc hdsc ((IsViable_iff dsc).1 hv) hperf)
                (ih _ _ _ _ h)

theorem chooseGreedyLoop_spec (st : CseState W) (choices : List (Choice P)) :
    ∀ (rest : List (Choice P)) (i c r : Nat),
      chooseGreedyLoop st choices i rest c = some r →
      (∀ (k : Nat) ch, rest[k]? = some ch → choices[i + k]? = some ch) →
      r = c ∨ ∃ ch, choices[r]? = some ch ∧ ch.m_performed = false := by
  intro rest
  induction rest with
  | nil =>
    intro i c r h _
    simp only [chooseGreedyLoop, Option.some.injEq] at h
    exact Or.inl h.symm
  | cons choice rest ih =>
    intro i c r h hidx
    have hrest : ∀ (k : Nat) ch, rest[k]? = some ch → choices[i + 1 + k]? = some ch := by
      intro k ch hk
      have := hidx (k + 1) ch (by simpa using hk)
      rw [← this]
      congr 1
      omega
    unfold chooseGreedyLoop at h
    split at h
    · exact ih _ _ _ h hrest
    · rename_i hperf
      split at h
      · exact absurd h (by simp)
      · split at h
        · exact absurd h (by simp)
        · rename_i update _
          rcases ih _ _ _ h hrest with e | e
          · cases update
            · left
              simpa using e
            · right
              simp only [if_true] at e
              refine ⟨choice, ?_, by simpa using hperf⟩
              rw [e]
              simpa using hidx 0 choice (by simp)
          · exact Or.inr e

theorem ChooseGreedy_spec (cfg : RLConfig W P) (st : CseState W) (sortTab : List (Option Nat))
    (choices choices1 : List (Choice P)) (recompute : Bool) (choiceNum : Nat)
    (hinv : recompute = false → ChoicesViable st choices)
    (h : ChooseGreedy cfg st sortTab choices recompute = some (choices1, choiceNum)) :
    ChoicesViable st choices1 ∧
    (choiceNum = 0 ∨ ∃ ch, choices1[choiceNum]? = some ch ∧ ch.m_performed = false) := by
  unfold ChooseGreedy at h
  simp only at h
  split at h
  · exact absurd h (by simp)
  · rename_i built hb
    split at h
    · exact absurd h (by simp)
    · rename_i num hloop
      simp only [Option.some.injEq, Prod.mk.injEq] at h
      obtain ⟨rfl, rfl⟩ := h
      constructor
      · cases recompute
        · simp only [Bool.false_eq_true, if_false] at hb
          obtain ⟨hhead, hall⟩ := hinv rfl
          split at hb
          · exact absurd hb (by simp)
          · rename_i stopping rest
            simp only [Option.some.injEq] at hb
            rw [← hb]
            constructor
            · intro ch hch
              simp only [List.head?_cons, Option.some.injEq] at hch
              rw [← hch]
              exact hhead stopping (by simp)
            · intro ch hch hp slot hs
              rcases List.mem_cons.1 hch with rfl | hch
              · exact hall stopping (by simp) hp slot hs
              · exact hall ch (List.mem_cons_of_mem _ hch) hp slot hs
        · simp only [if_true] at hb
          obtain ⟨b1, b2⟩ := BuildChoices_viable cfg st sortTab built hb
          exact ⟨b1, fun ch hch _ slot hs => b2 ch hch slot hs⟩
      · exact chooseGreedyLoop_spec st built _ 1 0 num hloop
          (fun k ch hk => by rw [← hk, List.getElem?_drop])

theorem IsViable_of_performed (d d1 : CSEdsc W) (h : DscPerformed d d1)
    (hu : d1.csdUseCount = d.csdUseCount) : d1.IsViable = d.IsViable := by
  have h1 := congrArg CSEdsc.csdDefCount h.1
  have h2 := congrArg CSEdsc.defExcSetPromise h.1
  simp only at h1 h2
  unfold CSEdsc.IsViable
  rw [h1, h2, hu]

theorem greedyLoop_onlyViable (cfg : RLConfig W P) (ir : CseIR W) :
    ∀ (fuel : Nat) (sortTab : List (Option Nat)) (choices : List (Choice P))
      (numUnmarked : Nat) (recompute : Bool) (st st1 : CseState W),
      numUnmarked = st.optCSEunmarks →
      (recompute = false → ChoicesViable st choices) →
      greedyLoop cfg ir fuel sortTab choices numUnmarked recompute st = Outcome.done st1 →
      OnlyViablePerformed st st1 := by
  intro fuel
  induction fuel with
  | zero =>
    intro sortTab choices numUnmarked recompute st st1 _ _ h
    exact absurd h (by simp [greedyLoop])
  | succ fuel ih =>
    intro sortTab choices numUnmarked recompute st st1 hnum hinv h
    unfold greedyLoop at h
    split at h
    · exact absurd h (by simp)
    · rename_i choices1 choiceNum hchoose
      obtain ⟨⟨hhead, hall⟩, hidx⟩ :=
        ChooseGreedy_spec cfg st sortTab choices choices1 recompute choiceNum hinv hchoose
      split at h
      · exact absurd h (by simp)
      · rename_i choice hget
        split at h
        · simp only [Outcome.done.injEq] at h
          rw [← h]
          exact OnlyViablePerformed_refl st
        · rename_i slot hslot
          split at h
          · exact absurd h (by simp)
          · rename_i dsc hdsc
            split at h
            · exact absurd h (by simp)
            · rename_i st2 hperf
              have hne : choiceNum ≠ 0 := by
                intro h0
                rw [h0, ← List.head?_eq_getElem?] at hget
                rw [hhead choice hget] at hslot
                exact absurd hslot (by simp)
              have hnp : choice.m_performed = false := by
                rcases hidx with h0 | ⟨ch, hch, hp⟩
                · exact absurd h0 hne
                · rw [hget] at hch
                  simp only [Option.some.injEq] at hch
                  rw [hch]
                  exact hp
              have hv : dsc.IsViable = true := by
                obtain ⟨d, hd, hdv⟩ := hall choice (List.getElem?_mem hget) hnp slot hslot
                rw [hdsc] at hd
                simp only [Option.some.injEq] at hd
                rw [hd]
                exact hdv
              obtain ⟨hle, -, -⟩ := PerformCSE_frame ir st st2 slot hperf
              refine OnlyViablePerformed_trans _ _ _
                (PerformCSE_onlyViable ir _ _ slot dsc hdsc ((IsViable_iff dsc).1 hv) hperf)
                (ih _ _ _ _ _ _ rfl ?_ h)
              intro hrec
              have hsame : st2.optCSEunmarks = st.optCSEunmarks := by
                rw [hnum] at hrec
                have : st.optCSEunmarks = st2.optCSEunmarks := by simpa using hrec
                exact this.symm
              constructor
              · intro ch hch
                rw [List.head?_eq_getElem?, List.getElem?_set, if_neg hne,
                  ← List.head?_eq_getElem?] at hch
                exact hhead ch hch
              · intro ch hch hp s hs
                rcases List.mem_or_eq_of_mem_set hch with hmem | heq
                · obtain ⟨d, hd, hdv⟩ := hall ch hmem hp s hs
                  obtain ⟨d1, hd1, hdp, hduse⟩ :=
                    (hle.2.2.2 s).2 d ((dscAt_eq_some st s d).1 hd)
                  refine ⟨d1, (dscAt_eq_some st2 s d1).2 hd1, ?_⟩
                  rw [IsViable_of_performed d d1 hdp (hduse hsame)]
                  exact hdv
                · rw [heq] at hp
                  exact absurd hp (by simp)

/-- C20: every policy enters `PerformCSE` only for viable candidates. For each of the loops
`CSE_HeuristicCommon::ConsiderCandidates` (standard), `CSE_HeuristicRandom::ConsiderCandidates`,
`CSE_HeuristicReplay::ConsiderCandidates`, `CSE_HeuristicParameterized::ConsiderCandidates`
(greedy), `CSE_HeuristicRL::SoftmaxPolicy`, `CSE_HeuristicRL::UpdateParameters`,
`CSE_HeuristicRL::ConsiderCandidates` (the dispatch) and
`CSE_HeuristicRLHook::ConsiderCandidates`: in a run that returns, every descriptor for which
`PerformCSE` was entered had, at that moment, `csdDefCount ≥ 1`, `csdUseCount ≥ 1` and
`defExcSetPromise` not abandoned, whatever the configuration, the random numbers, the
preferences and the table `sortTab` are. -/
theorem policies_perform_only_viable (ir : CseIR W) (st st1 : CseState W) :
    (∀ (cfg : StandardConfig W) (sortTab : List (Option Nat)),
      CSE_HeuristicCommon.ConsiderCandidates cfg ir sortTab st = some st1 →
      OnlyViablePerformed st st1) ∧
    (∀ (cfg : RandomConfig W),
      CSE_HeuristicRandom.ConsiderCandidates cfg ir st = some st1 →
      OnlyViablePerformed st st1) ∧
    (∀ (JitReplayCSE : List Int),
      CSE_HeuristicReplay.ConsiderCandidates ir JitReplayCSE st = some st1 →
      OnlyViablePerformed st st1) ∧
    (∀ (cfg : RLConfig W P) (fuel : Nat),
      CSE_HeuristicParameterized.ConsiderCandidates cfg ir fuel st = Outcome.done st1 →
      OnlyViablePerformed st st1) ∧
    (∀ (cfg : RLConfig W P) (fuel : Nat) (sortTab : List (Option Nat)),
      SoftmaxPolicy cfg ir fuel sortTab st = Outcome.done st1 →
      OnlyViablePerformed st st1) ∧
    (∀ (cfg : RLConfig W P) (sortTab : List (Option Nat)),
      UpdateParameters cfg ir sortTab st = some st1 → OnlyViablePerformed st st1) ∧
    (∀ (cfg : RLConfig W P) (fuel : Nat),
      CSE_HeuristicRL.ConsiderCandidates cfg ir fuel st = Outcome.done st1 →
      OnlyViablePerformed st st1) ∧
    (∀ (JitRLHookCSEDecisions : Option (List Int)),
      CSE_HeuristicRLHook.ConsiderCandidates ir JitRLHookCSEDecisions st = some st1 →
      OnlyViablePerformed st st1) := by
  refine ⟨?_, ?_, ?_, ?_, ?_, ?_, ?_, ?_⟩
  · intro cfg sortTab h
    exact standardLoop_onlyViable cfg ir _ _ _ _ h
  · intro cfg h
    unfold CSE_HeuristicRandom.ConsiderCandidates at h
    simp only at h
    split at h
    · simp only [Option.some.injEq] at h
      rw [← h]
      exact OnlyViablePerformed_refl st
    · split at h
      · exact absurd h (by simp)
      · exact randomLoop_onlyViable cfg ir _ _ _ _ h
  · intro l h
    unfold CSE_HeuristicReplay.ConsiderCandidates at h
    simp only at h
    split at h
    · simp only [Option.some.injEq] at h
      rw [← h]
      exact OnlyViablePerformed_refl st
    · exact replayLoop_onlyViable ir _ _ _ _ h
  · intro cfg fuel h
    exact greedyLoop_onlyViable cfg ir fuel _ _ _ _ _ _ rfl (fun h => absurd h (by simp)) h
  · intro cfg fuel sortTab h
    exact softmaxLoop_onlyViable cfg ir fuel _ _ _ _ h
  · intro cfg sortTab h
    exact UpdateParameters_onlyViable cfg ir sortTab st st1 h
  · intro cfg fuel h
    unfold CSE_HeuristicRL.ConsiderCandidates at h
    simp only at h
    split at h
    · split at h
      · exact absurd h (by simp)
      · rename_i st2 hup
        simp only [Outcome.done.injEq] at h
        rw [← h]
        exact UpdateParameters_onlyViable cfg ir _ st st2 hup
    · split at h
      · exact greedyLoop_onlyViable cfg ir fuel _ _ _ _ _ _ rfl (fun h => absurd h (by simp)) h
      · exact softmaxLoop_onlyViable cfg ir fuel _ _ _ _ h
  · intro d h
    unfold CSE_HeuristicRLHook.ConsiderCandidates at h
    split at h
    · simp only [Option.some.injEq] at h
      rw [← h]
      exact OnlyViablePerformed_refl st
    · exact hookLoop_onlyViable ir _ _ _ _ h

set_option maxRecDepth 1000000

theorem policies_perform_only_viable_witness :
    (∃ st1, CSE_HeuristicParameterized.ConsiderCandidates exRLConfig exIR 3 exPerfState =
        Outcome.done st1 ∧ st1.performLog.length = 2 ∧ OnlyViablePerformed exPerfState st1) ∧
    (∃ st1, CSE_HeuristicCommon.ConsiderCandidates exStandardConfig exIR [some 0, some 1]
        exPerfState = some st1 ∧ st1.performLog.length = 1 ∧
        OnlyViablePerformed exPerfState st1) := by
  constructor
  · have hdone : (CSE_HeuristicParameterized.ConsiderCandidates exRLConfig exIR 3
        exPerfState).isDone = true := by rfl
    have hlen : (match CSE_HeuristicParameterized.ConsiderCandidates exRLConfig exIR 3
        exPerfState with
        | Outcome.done s => s.performLog.length
        | _ => 0) = 2 := by rfl
    cases h : CSE_HeuristicParameterized.ConsiderCandidates exRLConfig exIR 3 exPerfState with
    | done st1 =>
      rw [h] at hlen
      exact ⟨st1, rfl, hlen,
        (policies_perform_only_viable exIR exPerfState st1).2.2.2.1 exRLConfig 3 h⟩
    | failed =>
      rw [h] at hdone
      exact absurd hdone (by simp [Outcome.isDone])
    | outOfFuel =>
      rw [h] at hdone
      exact absurd hdone (by simp [Outcome.isDone])
  · have hlen : (CSE_HeuristicCommon.ConsiderCandidates exStandardConfig exIR [some 0, some 1]
        exPerfState).map (fun s => s.performLog.length) = some 1 := by rfl
    cases h : CSE_HeuristicCommon.ConsiderCandidates exStandardConfig exIR [some 0, some 1]
        exPerfState with
    | none =>
      rw [h] at hlen
      exact absurd hlen (by simp)
    | some st1 =>
      rw [h] at hlen
      exact ⟨st1, rfl, by simpa using hlen,
        (policies_perform_only_viable (P := Int) exIR exPerfState st1).1 exStandardConfig
          [some 0, some 1] h⟩

end Policies

/-! ## `optUnmarkCSE`, the replay sequence, the mask of the standard policy -/

section Late
set_option linter.unusedSectionVars false
variable [Zero W] [Add W] [Sub W] [LE W] [LT W]
  [DecidableRel (LE.le : W → W → Prop)] [DecidableRel (LT.lt : W → W → Prop)]
variable {P : Type} [Zero P] [Add P] [Sub P] [Div P] [LT P] [DecidableEq P]
  [DecidableRel (LT.lt : P → P → Prop)]

theorem optUnmarkCSE_def (st : CseState W) (tree : GenTree)
    (hd : IS_CSE_DEF (st.comp.treeCSEnum tree.gtTreeID) = true) (hw : 0 ≤ st.optCSEweight) :
    optUnmarkCSE st tree = some (st, false) := by
  have hidx : IS_CSE_INDEX (st.comp.treeCSEnum tree.gtTreeID) = true := by
    unfold IS_CSE_DEF at hd
    unfold IS_CSE_INDEX
    simp at hd ⊢
    omega
  have hu : IS_CSE_USE (st.comp.treeCSEnum tree.gtTreeID) = false := by
    unfold IS_CSE_DEF at hd
    unfold IS_CSE_USE
    simp at hd ⊢
    omega
  unfold optUnmarkCSE
  simp [hidx, hu, hw]

theorem optUnmarkCSE_use (st : CseState W) (tree : GenTree) (desc : CSEdsc W)
    (hu : IS_CSE_USE (st.comp.treeCSEnum tree.gtTreeID) = true) (hw : 0 ≤ st.optCSEweight)
    (hf : optCSEfindDsc st.comp (GET_CSE_INDEX (st.comp.treeCSEnum tree.gtTreeID)) = some desc)
    (hc : 0 < desc.csdUseCount) :
    optUnmarkCSE st tree = some
      ({ st with
         comp :=
          { setDsc st.comp (GET_CSE_INDEX (st.comp.treeCSEnum tree.gtTreeID))
              { desc with
                csdUseCount := desc.csdUseCount - 1
                csdUseWtCnt := (if desc.csdUseWtCnt < st.optCSEweight then 0
                  else desc.csdUseWtCnt - st.optCSEweight) } with
            treeCSEnum := Function.update st.comp.treeCSEnum tree.gtTreeID NO_CSE }
         optCSEunmarks := st.optCSEunmarks + 1 }, true) := by
  have hidx : IS_CSE_INDEX (st.comp.treeCSEnum tree.gtTreeID) = true := by
    unfold IS_CSE_USE at hu
    unfold IS_CSE_INDEX
    simp at hu ⊢
    omega
  unfold optUnmarkCSE
  simp only [hidx, hu, hw, hf, hc, Bool.not_true, Bool.false_eq_true, if_false, not_true_eq_false,
    if_true]
  rfl

/-- C27: `optUnmarkCSE(tree)` on an untagged tree returns true and changes nothing; on a tree
tagged as a CSE def (with `optCSEweight` initialised, `noway_assert(optCSEweight >= 0)`) it
returns false and changes nothing; on a tree tagged as a use of candidate `k` whose descriptor
has `csdUseCount > 0` (the second `noway_assert`) it returns true, `csdUseCount` of `k` is one
less, `csdUseWtCnt` of `k` is `0` when it was below `optCSEweight` and is lowered by
`optCSEweight` otherwise (so it is not below 0), the tag of the tree is cleared,
`optCSEunmarks` is one more, and no other descriptor, tag or counter changes. Whenever the
function returns, it returns false exactly for a tree tagged as a def. -/
theorem optUnmarkCSE_contract (hz : (0 : W) ≤ 0) (hsub : ∀ a b : W, ¬ a < b → 0 ≤ a - b)
    (st : CseState W) (tree : GenTree) :
    (IS_CSE_INDEX (st.comp.treeCSEnum tree.gtTreeID) = false →
      optUnmarkCSE st tree = some (st, true)) ∧
    (IS_CSE_DEF (st.comp.treeCSEnum tree.gtTreeID) = true → 0 ≤ st.optCSEweight →
      optUnmarkCSE st tree = some (st, false)) ∧
    (∀ desc, IS_CSE_USE (st.comp.treeCSEnum tree.gtTreeID) = true → 0 ≤ st.optCSEweight →
      optCSEfindDsc st.comp (GET_CSE_INDEX (st.comp.treeCSEnum tree.gtTreeID)) = some desc →
      0 < desc.csdUseCount →
      ∃ st1 desc1, optUnmarkCSE st tree = some (st1, true) ∧
        optCSEfindDsc st1.comp (GET_CSE_INDEX (st.comp.treeCSEnum tree.gtTreeID)) =
          some desc1 ∧
        desc1.csdUseCount + 1 = desc.csdUseCount ∧
        desc1.csdUseWtCnt = (if desc.csdUseWtCnt < st.optCSEweight then 0
          else desc.csdUseWtCnt - st.optCSEweight) ∧
        0 ≤ desc1.csdUseWtCnt ∧
        desc1 = { desc with csdUseCount := desc1.csdUseCount, csdUseWtCnt := desc1.csdUseWtCnt } ∧
        (∀ j, j ≠ GET_CSE_INDEX (st.comp.treeCSEnum tree.gtTreeID) →
          optCSEfindDsc st1.comp j = optCSEfindDsc st.comp j) ∧
        st1.comp.treeCSEnum tree.gtTreeID = 0 ∧
        (∀ id, id ≠ tree.gtTreeID → st1.comp.treeCSEnum id = st.comp.treeCSEnum id) ∧
        st1.optCSEunmarks = st.optCSEunmarks + 1 ∧
        st1.optCSEweight = st.optCSEweight ∧ st1.replaced = st.replaced ∧
        st1.lvaCount = st.lvaCount ∧ st1.optCSEcount = st.optCSEcount ∧
        st1.optCSEattempt = st.optCSEattempt) ∧
    (∀ st1 b, optUnmarkCSE st tree = some (st1, b) →
      (b = false ↔ IS_CSE_DEF (st.comp.treeCSEnum tree.gtTreeID) = true)) := by
  refine ⟨?_, optUnmarkCSE_def st tree, ?_, ?_⟩
  · intro h
    unfold optUnmarkCSE
    simp [h]
  · intro desc hu hw hf hc
    have hk : GET_CSE_INDEX (st.comp.treeCSEnum tree.gtTreeID) ≠ 0 := by
      intro h0
      unfold optCSEfindDsc at hf
      simp [h0] at hf
    refine ⟨_, { desc with
        csdUseCount := desc.csdUseCount - 1
        csdUseWtCnt := (if desc.csdUseWtCnt < st.optCSEweight then 0
          else desc.csdUseWtCnt - st.optCSEweight) },
      optUnmarkCSE_use st tree desc hu hw hf hc, ?_, ?_, rfl, ?_, rfl, ?_, ?_, ?_,
      rfl, rfl, rfl, rfl, rfl, rfl⟩
    · exact findDsc_setDsc_same st.comp _ desc _ hf
    · show desc.csdUseCount - 1 + 1 = desc.csdUseCount
      omega
    · show (0 : W) ≤ (if desc.csdUseWtCnt < st.optCSEweight then 0
        else desc.csdUseWtCnt - st.optCSEweight)
      split
      · exact hz
      · rename_i hlt
        exact hsub _ _ hlt
    · intro j hj
      exact findDsc_setDsc_other st.comp _ j _ hk hj
    · show Function.update st.comp.treeCSEnum tree.gtTreeID NO_CSE tree.gtTreeID = 0
      simp [NO_CSE]
    · intro id hid
      show Function.update st.comp.treeCSEnum tree.gtTreeID NO_CSE id = _
      simp [Function.update, hid]
  · intro st1 b h
    cases hidx : IS_CSE_INDEX (st.comp.treeCSEnum tree.gtTreeID)
    · have hn := tag_untagged _ hidx
      have : optUnmarkCSE st tree = some (st, true) := by
        unfold optUnmarkCSE
        simp [hidx]
      rw [this] at h
      simp only [Option.some.injEq, Prod.mk.injEq] at h
      rw [← h.2, hn.1]
      simp
    · rcases tag_def_or_use _ hidx with ⟨hd, hu⟩ | ⟨hd, hu⟩
      · unfold optUnmarkCSE at h
        simp only [hidx, hu, Bool.not_true, Bool.false_eq_true, if_false] at h
        split at h
        · exact absurd h (by simp)
        · simp only [Option.some.injEq, Prod.mk.injEq] at h
          rw [← h.2, hd]
          simp
      · have hb := (optUnmarkCSE_spec st st1 tree b h)
        unfold optUnmarkCSE at h
        simp only [hidx, hu, Bool.not_true, Bool.false_eq_true, if_false, if_true] at h
        split at h
        · exact absurd h (by simp)
        · split at h
          · exact absurd h (by simp)
          · split at h
            · exact absurd h (by simp)
            · simp only [Option.some.injEq, Prod.mk.injEq] at h
              rw [← h.2, hd]
              simp

/-- C28: dominator preference. In a state reached by indexing, when the lookup of
`optValnumCSE_Index` finds a descriptor `d` with exactly one occurrence, in the current block,
whose liberal value number differs from the one of the current tree and whose exception set is
a strict subset of the exception set of the current tree, the call returns 0, the descriptor
keeps one occurrence, which is the current tree with the current statement, it stays without an
index and is otherwise unchanged, the tags of the previous tree and of the current tree are 0
and no other tag changes, and `optCSECandidateCount`, `optCSEhashCount` and `optDoCSE` keep
their values. -/
theorem index_dominator_preference (EXPSET_SZ : Nat) (hsz : 0 < EXPSET_SZ) (c0 c : Compiler W)
    (calls : List (Nat × Nat × GenTree))
    (hrun : indexCalls (optValnumCSE_Init EXPSET_SZ c0) calls = some c)
    (block stmt : Nat) (tree : GenTree) (pre post : List (CSEdsc W)) (d : CSEdsc W)
    (hf : findInBucket (indexMatches (cseHashKey c tree).1 tree)
      (c.optCSEhash.getD (optCSEKeyToHashIndex (cseHashKey c tree).1 c.optCSEhashSize) [])
      = some (pre, d, post))
    (hone : d.occurrences.length = 1)
    (hblock : d.csdTreeList.tslBlock = block)
    (hvn : d.csdTreeList.tslTree.vnLiberal ≠ tree.vnLiberal)
    (hexc : c.vnStore.VNExceptionSet d.csdTreeList.tslTree.vnLiberal ⊂
      c.vnStore.VNExceptionSet tree.vnLiberal) :
    ∃ c1 d1, optValnumCSE_Index { c with compCurBB := block } tree stmt = some (c1, 0) ∧
      c1.optCSEhash = c.optCSEhash.set
        (optCSEKeyToHashIndex (cseHashKey c tree).1 c.optCSEhashSize) (pre ++ d1 :: post) ∧
      d1.occurrences = [{ tslTree := tree, tslStmt := stmt, tslBlock := block }] ∧
      d1.csdIndex = 0 ∧ d.csdIndex = 0 ∧
      d1 = { d with csdTreeList := { tslTree := tree, tslStmt := stmt, tslBlock := block } } ∧
      c1.treeCSEnum d.csdTreeList.tslTree.gtTreeID = 0 ∧
      c1.treeCSEnum tree.gtTreeID = 0 ∧
      (∀ id, id ≠ d.csdTreeList.tslTree.gtTreeID → id ≠ tree.gtTreeID →
        c1.treeCSEnum id = c.treeCSEnum id) ∧
      c1.optCSECandidateCount = c.optCSECandidateCount ∧
      c1.optCSEhashCount = c.optCSEhashCount ∧ c1.optDoCSE = c.optDoCSE := by
  have hinv : IndexInv c :=
    indexCalls_IndexInv calls _ c (Init_IndexInv EXPSET_SZ hsz c0) hrun
  have hnext : d.tslNext = [] := by
    unfold CSEdsc.occurrences at hone
    simp only [List.length_cons] at hone
    exact List.length_eq_zero.1 (by omega)
  have hmem : d ∈ allDscs c := by
    apply mem_flatten_of_getD c.optCSEhash
      (optCSEKeyToHashIndex (cseHashKey c tree).1 c.optCSEhashSize)
    rw [(findInBucket_some _ _ _ _ _ hf).1]
    simp
  have hidx : d.csdIndex = 0 := by
    by_contra hne
    exact hinv.2.2.1 d hmem hne hnext
  have hkey : ∀ b : Nat, cseHashKey { c with compCurBB := b } tree = cseHashKey c tree :=
    fun _ => rfl
  have hne : c.vnStore.VNExceptionSet d.csdTreeList.tslTree.vnLiberal ≠
      c.vnStore.VNExceptionSet tree.vnLiberal := (Finset.ssubset_iff_subset_ne.1 hexc).2
  have hss : VNExcIsSubset (c.vnStore.VNExceptionSet tree.vnLiberal)
      (c.vnStore.VNExceptionSet d.csdTreeList.tslTree.vnLiberal) = true := by
    unfold VNExcIsSubset
    simpa using (Finset.ssubset_iff_subset_ne.1 hexc).1
  have hcall : optValnumCSE_Index { c with compCurBB := block } tree stmt = some
      ({ c with
          compCurBB := block
          optCSEhash := c.optCSEhash.set
            (optCSEKeyToHashIndex (cseHashKey c tree).1 c.optCSEhashSize)
            (pre ++ { d with csdTreeList :=
              { tslTree := tree, tslStmt := stmt, tslBlock := block } } :: post)
          treeCSEnum := Function.update
            (Function.update c.treeCSEnum d.csdTreeList.tslTree.gtTreeID 0)
            tree.gtTreeID (toSignedChar d.csdIndex) }, d.csdIndex) := by
    unfold optValnumCSE_Index
    simp only [hkey, hf, hnext, hblock, hvn, hne, hss, ne_eq, not_false_eq_true, and_self,
      if_true]
  refine ⟨{ c with
      compCurBB := block
      optCSEhash := c.optCSEhash.set
        (optCSEKeyToHashIndex (cseHashKey c tree).1 c.optCSEhashSize)
        (pre ++ { d with csdTreeList :=
          { tslTree := tree, tslStmt := stmt, tslBlock := block } } :: post)
      treeCSEnum := Function.update
        (Function.update c.treeCSEnum d.csdTreeList.tslTree.gtTreeID 0)
        tree.gtTreeID (toSignedChar d.csdIndex) },
    { d with csdTreeList := { tslTree := tree, tslStmt := stmt, tslBlock := block } },
    ?_, rfl, ?_, hidx, hidx, rfl, ?_, ?_, ?_, rfl, rfl, rfl⟩
  · rw [hcall, hidx]
  · unfold CSEdsc.occurrences
    rw [hnext]
  · show Function.update (Function.update c.treeCSEnum d.csdTreeList.tslTree.gtTreeID 0)
      tree.gtTreeID (toSignedChar d.csdIndex) d.csdTreeList.tslTree.gtTreeID = 0
    rw [hidx]
    by_cases he : d.csdTreeList.tslTree.gtTreeID = tree.gtTreeID
    · rw [he]
      simp [toSignedChar]
    · simp [Function.update, he]
  · show Function.update (Function.update c.treeCSEnum d.csdTreeList.tslTree.gtTreeID 0)
      tree.gtTreeID (toSignedChar d.csdIndex) tree.gtTreeID = 0
    rw [hidx]
    simp [toSignedChar]
  · intro id h1 h2
    show Function.update (Function.update c.treeCSEnum d.csdTreeList.tslTree.gtTreeID 0)
      tree.gtTreeID (toSignedChar d.csdIndex) id = c.treeCSEnum id
    simp [Function.update, h1, h2]

theorem mem_foldl_inter (out : Nat → EXPSET_TP) (e : Nat) :
    ∀ (preds : List Nat) (x : EXPSET_TP),
      e ∈ preds.foldl (fun acc p => acc ∩ out p) x → e ∈ x ∧ ∀ p ∈ preds, e ∈ out p := by
  intro preds
  induction preds with
  | nil =>
    intro x h
    exact ⟨h, fun p hp => absurd hp (by simp)⟩
  | cons q qs ih =>
    intro x h
    simp only [List.foldl_cons] at h
    obtain ⟨h1, h2⟩ := ih _ h
    rw [Finset.mem_inter] at h1
    refine ⟨h1.1, ?_⟩
    intro p hp
    rcases List.mem_cons.1 hp with rfl | hp
    · exact h1.2
    · exact h2 p hp

theorem replayStep_zero (ir : CseIR W) (n : Nat) (st : CseState W) :
    replayStep ir n st 0 = some st := by
  unfold replayStep
  simp

theorem replayLoop_filter (ir : CseIR W) (n : Nat) :
    ∀ (l : List Int) (st : CseState W),
      replayLoop ir n l st = replayLoop ir n (l.filter (fun x => decide (x ≠ 0))) st := by
  intro l
  induction l with
  | nil => intro st; rfl
  | cons x rest ih =>
    intro st
    by_cases hx : x = 0
    · subst hx
      have : replayLoop ir n (0 :: rest) st = replayLoop ir n rest st := by
        rw [replayLoop, replayStep_zero]
      rw [this, ih st]
      simp
    · have hf : (x :: rest).filter (fun x => decide (x ≠ 0)) =
          x :: rest.filter (fun x => decide (x ≠ 0)) := by
        simp [List.filter_cons, hx]
      rw [hf, replayLoop, replayLoop]
      cases replayStep ir n st x with
      | none => rfl
      | some st1 => exact ih st1

theorem updateLoop_stops_at_zero (cfg : RLConfig W P) (ir : CseIR W) (n : Nat)
    (rest : List Int) :
    ∀ (pre : List Int) (sortTab : List (Option Nat)) (st : CseState W),
      updateLoop cfg ir n (pre ++ 0 :: rest) sortTab st =
        updateLoop cfg ir n (pre ++ [0]) sortTab st := by
  intro pre
  induction pre with
  | nil =>
    intro sortTab st
    simp [updateLoop]
  | cons x pre ih =>
    intro sortTab st
    simp only [List.cons_append, updateLoop, List.append_eq, ih]

/-- C24, as the code has it: in `CSE_HeuristicReplay::ConsiderCandidates` an entry 0 of the
sequence is an invalid candidate number and is skipped, leaving the state as it is; the entries
after it are processed as if the 0 were not there. In `CSE_HeuristicRL::UpdateParameters` an
entry 0 stops the loop: what follows the first 0 has no effect. -/
theorem replay_skips_zero_update_stops_at_zero (ir : CseIR W) (n : Nat) :
    (∀ (st : CseState W), replayStep ir n st 0 = some st) ∧
    (∀ (l : List Int) (st : CseState W),
      replayLoop ir n l st = replayLoop ir n (l.filter (fun x => decide (x ≠ 0))) st) ∧
    (∀ (cfg : RLConfig W P) (pre rest : List Int) (sortTab : List (Option Nat))
      (st : CseState W),
      updateLoop cfg ir n (pre ++ 0 :: rest) sortTab st =
        updateLoop cfg ir n (pre ++ [0]) sortTab st) :=
  ⟨replayStep_zero ir n, replayLoop_filter ir n,
    fun cfg pre rest sortTab st => updateLoop_stops_at_zero cfg ir n rest pre sortTab st⟩

set_option maxRecDepth 1000000

/-- C24, as stated, fails: for the sequence `0, 1` the replay policy performs candidate 1, which
is listed after the 0. -/
theorem replay_performs_after_zero :
    (CSE_HeuristicReplay.ConsiderCandidates exIR [0, 1] exDefUseState).map
      (fun s => s.performLog.map (fun d => d.csdIndex)) = some [1] := by
  rfl

/-- C29: the code does not keep to suppressing. In a `DEBUG` build with `JitCSEHash = 0` and
bit 0 of `JitCSEMask` set, the first attempt is a viable candidate that `PromotionCheck`
rejects, and `doCSE` is overwritten with the mask bit: `PerformCSE` is entered for it. -/
theorem mask_overrides_promotion_check :
    exMaskConfig.PromotionCheck exDefUseState.nextAttempt 0 = false ∧
    (exDefUseState.dscAt 0).map (fun d => d.IsViable) = some true ∧
    standardDoCSE exMaskConfig exDefUseState.nextAttempt 0 0 = true ∧
    (CSE_HeuristicCommon.ConsiderCandidates exMaskConfig exIR [some 0] exDefUseState).map
      (fun s => s.performLog.map (fun d => d.csdIndex)) = some [1] :=
  ⟨by rfl, by rfl, by rfl, by rfl⟩

theorem optUnmarkCSE_contract_witness :
    ∃ (st1 : CseState Nat) (desc1 : CSEdsc Nat),
      optUnmarkCSE exPerfState (exTree 5 0 8 false) = some (st1, true) ∧
      desc1.csdUseCount + 1 = exPerfDsc2.csdUseCount ∧ st1.optCSEunmarks = 1 := by
  obtain ⟨st1, desc1, h1, -, h3, -, -, -, -, -, -, h10, -⟩ :=
    (optUnmarkCSE_contract (by decide) (fun _ _ _ => Nat.zero_le _) exPerfState
      (exTree 5 0 8 false)).2.2.1 exPerfDsc2 (by rfl) (by decide) (by rfl) (by decide)
  exact ⟨st1, desc1, h1, h3, h10⟩

theorem index_dominator_preference_witness :
    0 < 64 ∧ ∃ c : Compiler Nat,
      indexCalls (optValnumCSE_Init 64 exIndexBase) [(1, 1, exTree 1 0 1 false)] = some c ∧
      ∃ (c1 : Compiler Nat) (d1 : CSEdsc Nat),
        optValnumCSE_Index { c with compCurBB := 1 } (exTree 3 0 3 false) 2 = some (c1, 0) ∧
        d1.occurrences = [{ tslTree := exTree 3 0 3 false, tslStmt := 2, tslBlock := 1 }] ∧
        c1.treeCSEnum 1 = 0 ∧
        c1.optCSECandidateCount = c.optCSECandidateCount := by
  refine ⟨by decide, _, rfl, ?_⟩
  obtain ⟨c1, d1, h1, -, h3, -, -, -, h7, -, -, h10, -, -⟩ :=
    index_dominator_preference 64 (by decide) exIndexBase _ [(1, 1, exTree 1 0 1 false)] (by rfl)
      1 2 (exTree 3 0 3 false) []  []
      (newCSEdsc { optValnumCSE_Init 64 exIndexBase with compCurBB := 1 } 5 (exTree 1 0 1 false) 1)
      (by rfl) (by rfl) (by rfl) (by decide) (by decide)
  exact ⟨c1, d1, h1, h3, h7, h10⟩

end Late

/-! ## The standard heuristic: sorting and the promotion check -/

theorem optCSEcostCmpSz_iff (GetCostSz : GenTree → Nat) (a b : CSEdsc W) :
    optCSEcostCmpSz GetCostSz a b = true ↔
      (GetCostSz b.csdTreeList.tslTree < GetCostSz a.csdTreeList.tslTree ∨
       (GetCostSz a.csdTreeList.tslTree = GetCostSz b.csdTreeList.tslTree ∧
          b.csdUseCount < a.csdUseCount) ∨
       (GetCostSz a.csdTreeList.tslTree = GetCostSz b.csdTreeList.tslTree ∧
          a.csdUseCount = b.csdUseCount ∧ a.csdDefCount < b.csdDefCount) ∨
       (GetCostSz a.csdTreeList.tslTree = GetCostSz b.csdTreeList.tslTree ∧
          a.csdUseCount = b.csdUseCount ∧ a.csdDefCount = b.csdDefCount ∧
          a.csdIndex < b.csdIndex)) := by
  unfold optCSEcostCmpSz
  simp only
  by_cases h1 : GetCostSz b.csdTreeList.tslTree = GetCostSz a.csdTreeList.tslTree
  · by_cases h2 : b.csdUseCount = a.csdUseCount
    · by_cases h3 : a.csdDefCount = b.csdDefCount
      · simp [h1, h2, h3]
      · simp [h1, h2, h3]
    · simp only [h1, h2, ne_eq, not_true_eq_false, if_false, not_false_eq_true, if_true,
        decide_eq_true_eq]
      constructor
      · intro h
        exact Or.inr (Or.inl ⟨trivial, h⟩)
      · rintro (h | h | h | h)
        · exact absurd h (lt_irrefl _)
        · exact h.2
        · exact absurd h.2.1.symm h2
        · exact absurd h.2.1.symm h2
  · simp only [h1, ne_eq, not_false_eq_true, if_true, decide_eq_true_eq]
    constructor
    · intro h
      exact Or.inl h
    · rintro (h | h | h | h)
      · exact h
      · exact absurd h.1.symm h1
      · exact absurd h.1.symm h1
      · exact absurd h.1.symm h1

theorem optCSEcostCmpEx_iff [LT W] [DecidableEq W] [DecidableRel (LT.lt : W → W → Prop)]
    (hirr : ∀ x : W, ¬ x < x) (GetCostEx : GenTree → Nat) (a b : CSEdsc W) :
    optCSEcostCmpEx GetCostEx a b = true ↔
      (GetCostEx b.csdTreeList.tslTree < GetCostEx a.csdTreeList.tslTree ∨
       (GetCostEx a.csdTreeList.tslTree = GetCostEx b.csdTreeList.tslTree ∧
          b.csdUseWtCnt < a.csdUseWtCnt) ∨
       (GetCostEx a.csdTreeList.tslTree = GetCostEx b.csdTreeList.tslTree ∧
          a.csdUseWtCnt = b.csdUseWtCnt ∧ a.csdDefWtCnt < b.csdDefWtCnt) ∨
       (GetCostEx a.csdTreeList.tslTree = GetCostEx b.csdTreeList.tslTree ∧
          a.csdUseWtCnt = b.csdUseWtCnt ∧ a.csdDefWtCnt = b.csdDefWtCnt ∧
          a.csdIndex < b.csdIndex)) := by
  unfold optCSEcostCmpEx
  simp only
  by_cases h1 : GetCostEx b.csdTreeList.tslTree = GetCostEx a.csdTreeList.tslTree
  · by_cases h2 : b.csdUseWtCnt = a.csdUseWtCnt
    · by_cases h3 : a.csdDefWtCnt = b.csdDefWtCnt
      · simp [h1, h2, h3, hirr]
      · simp only [h1, h2, h3, ne_eq, not_true_eq_false, if_false, not_false_eq_true, if_true,
          decide_eq_true_eq]
        constructor
        · intro h
          exact Or.inr (Or.inr (Or.inl ⟨trivial, trivial, h⟩))
        · rintro (h | h | h | h)
          · exact absurd h (lt_irrefl _)
          · exact absurd h.2 (hirr _)
          · exact h.2.2
          · exact h.2.2.1.elim
    · simp only [h1, h2, ne_eq, not_true_eq_false, if_false, not_false_eq_true, if_true,
        decide_eq_true_eq]
      constructor
      · intro h
        exact Or.inr (Or.inl ⟨trivial, h⟩)
      · rintro (h | h | h | h)
        · exact absurd h (lt_irrefl _)
        · exact h.2
        · exact absurd h.2.1.symm h2
        · exact absurd h.2.1.symm h2
  · simp only [h1, ne_eq, not_false_eq_true, if_true, decide_eq_true_eq]
    constructor
    · intro h
      exact Or.inl h
    · rintro (h | h | h | h)
      · exact h
      · exact absurd h.1.symm h1
      · exact absurd h.1.symm h1
      · exact absurd h.1.symm h1

/-- C22, as the code has it: the comparator `SortCandidates` uses places `a` before `b` exactly
when `a` has the higher cost, or equal cost and the higher use count, or equal cost and use count
and the lower def count, or all three equal and the lower `csdIndex`; in `SMALL_CODE` mode the
cost is the size cost and the counts are `csdUseCount` and `csdDefCount`, otherwise the cost is
the execution cost and the counts are the weighted counts `csdUseWtCnt` and `csdDefWtCnt`
(weights compared as exact numbers: no weight is below itself). -/
theorem sort_comparator_order [LT W] [DecidableEq W] [DecidableRel (LT.lt : W → W → Prop)]
    (hirr : ∀ x : W, ¬ x < x) (SMALL_CODE : Bool) (GetCostEx GetCostSz : GenTree → Nat)
    (a b : CSEdsc W) :
    (SMALL_CODE = true →
      (CSE_Heuristic.sortComparator SMALL_CODE GetCostEx GetCostSz a b = true ↔
        (GetCostSz b.csdTreeList.tslTree < GetCostSz a.csdTreeList.tslTree ∨
         (GetCostSz a.csdTreeList.tslTree = GetCostSz b.csdTreeList.tslTree ∧
            b.csdUseCount < a.csdUseCount) ∨
         (GetCostSz a.csdTreeList.tslTree = GetCostSz b.csdTreeList.tslTree ∧
            a.csdUseCount = b.csdUseCount ∧ a.csdDefCount < b.csdDefCount) ∨
         (GetCostSz a.csdTreeList.tslTree = GetCostSz b.csdTreeList.tslTree ∧
            a.csdUseCount = b.csdUseCount ∧ a.csdDefCount = b.csdDefCount ∧
            a.csdIndex < b.csdIndex)))) ∧
    (SMALL_CODE = false →
      (CSE_Heuristic.sortComparator SMALL_CODE GetCostEx GetCostSz a b = true ↔
        (GetCostEx b.csdTreeList.tslTree < GetCostEx a.csdTreeList.tslTree ∨
         (GetCostEx a.csdTreeList.tslTree = GetCostEx b.csdTreeList.tslTree ∧
            b.csdUseWtCnt < a.csdUseWtCnt) ∨
         (GetCostEx a.csdTreeList.tslTree = GetCostEx b.csdTreeList.tslTree ∧
            a.csdUseWtCnt = b.csdUseWtCnt ∧ a.csdDefWtCnt < b.csdDefWtCnt) ∨
         (GetCostEx a.csdTreeList.tslTree = GetCostEx b.csdTreeList.tslTree ∧
            a.csdUseWtCnt = b.csdUseWtCnt ∧ a.csdDefWtCnt = b.csdDefWtCnt ∧
            a.csdIndex < b.csdIndex)))) := by
  constructor
  · intro hs
    subst hs
    simp only [CSE_Heuristic.sortComparator, if_true]
    exact optCSEcostCmpSz_iff GetCostSz a b
  · intro hs
    subst hs
    simp only [CSE_Heuristic.sortComparator, Bool.false_eq_true, if_false]
    exact optCSEcostCmpEx_iff hirr GetCostEx a b

/-- C22, as stated, fails outside `SMALL_CODE` mode: with equal execution costs, candidate 1
(one use, of weight 5) is placed before candidate 2 (two uses, of weight 1 each), although it
has neither the higher cost nor the higher `csdUseCount`; by `csdUseCount` candidate 2 would
come first. -/
theorem cmpEx_orders_by_weighted_counts :
    CSE_Heuristic.sortComparator false (fun _ => 4) (fun _ => 4) exSortDscA exSortDscB = true ∧
    CSE_Heuristic.sortComparator false (fun _ => 4) (fun _ => 4) exSortDscB exSortDscA = false ∧
    ¬ ((fun _ => 4 : GenTree → Nat) exSortDscB.csdTreeList.tslTree <
          (fun _ => 4 : GenTree → Nat) exSortDscA.csdTreeList.tslTree ∨
       exSortDscB.csdUseCount < exSortDscA.csdUseCount ∨
       (exSortDscA.csdUseCount = exSortDscB.csdUseCount ∧
          exSortDscA.csdDefCount < exSortDscB.csdDefCount) ∨
       (exSortDscA.csdUseCount = exSortDscB.csdUseCount ∧
          exSortDscA.csdDefCount = exSortDscB.csdDefCount ∧
          exSortDscA.csdIndex < exSortDscB.csdIndex)) ∧
    exSortDscA.csdUseCount < exSortDscB.csdUseCount := by
  refine ⟨by decide, by decide, by decide, by decide⟩

theorem sort_comparator_order_witness :
    (∀ x : Nat, ¬ x < x) ∧
    (CSE_Heuristic.sortComparator false (fun _ => 4) (fun _ => 4) exSortDscA exSortDscB = true ↔
      ((4 : Nat) < 4 ∨
       ((4 : Nat) = 4 ∧ exSortDscB.csdUseWtCnt < exSortDscA.csdUseWtCnt) ∨
       ((4 : Nat) = 4 ∧ exSortDscA.csdUseWtCnt = exSortDscB.csdUseWtCnt ∧
          exSortDscA.csdDefWtCnt < exSortDscB.csdDefWtCnt) ∨
       ((4 : Nat) = 4 ∧ exSortDscA.csdUseWtCnt = exSortDscB.csdUseWtCnt ∧
          exSortDscA.csdDefWtCnt = exSortDscB.csdDefWtCnt ∧
          exSortDscA.csdIndex < exSortDscB.csdIndex))) :=
  ⟨fun x => lt_irrefl x,
    (sort_comparator_order (fun x => lt_irrefl x) false (fun _ => 4) (fun _ => 4)
      exSortDscA exSortDscB).2 rfl⟩

/-- C21, as the code has it. With stress mode off (`compStressCompile` answers false),
`PromotionCheck` returns true exactly when the call is not stopped by the `DEBUG` exit on
`optConfigDisableCSE2()` and
`useCount * cost + extra_no_cost >= defCount * cse_def_cost + useCount * cse_use_cost +
extra_yes_cost`, where `cost` is `candidate->Cost()` and the other quantities are the ones the
method computes; the two sides are the values of `no_cse_cost` and `yes_cse_cost`. -/
theorem promotion_check_iff_cost_inequality [Zero W] [Add W] [Mul W] [Div W] [NatCast W]
    [LE W] [LT W] [DecidableRel (LE.le : W → W → Prop)] [DecidableRel (LT.lt : W → W → Prop)]
    (h : PromotionConfig W) (candidate : CSE_Candidate W)
    (hstress : ∀ percentage, h.compStressCompile percentage = false) :
    (CSE_Heuristic.PromotionCheck h candidate = true ↔
      ((h.DEBUG && h.optConfigDisableCSE2) = false ∧
        candidate.DefCount * (((promotionCosts h candidate).cse_def_cost : Nat) : W) +
            candidate.UseCount * (((promotionCosts h candidate).cse_use_cost : Nat) : W) +
            (((promotionCosts h candidate).extra_yes_cost : Nat) : W) ≤
          candidate.UseCount * ((candidate.Cost : Nat) : W) +
            (((promotionCosts h candidate).extra_no_cost : Nat) : W))) ∧
    (promotionCosts h candidate).no_cse_cost =
      candidate.UseCount * ((candidate.Cost : Nat) : W) +
        (((promotionCosts h candidate).extra_no_cost : Nat) : W) ∧
    (promotionCosts h candidate).yes_cse_cost =
      candidate.DefCount * (((promotionCosts h candidate).cse_def_cost : Nat) : W) +
        candidate.UseCount * (((promotionCosts h candidate).cse_use_cost : Nat) : W) +
        (((promotionCosts h candidate).extra_yes_cost : Nat) : W) := by
  have hno : (promotionCosts h candidate).no_cse_cost =
      candidate.UseCount * ((candidate.Cost : Nat) : W) +
        (((promotionCosts h candidate).extra_no_cost : Nat) : W) := rfl
  have hyes : (promotionCosts h candidate).yes_cse_cost =
      candidate.DefCount * (((promotionCosts h candidate).cse_def_cost : Nat) : W) +
        candidate.UseCount * (((promotionCosts h candidate).cse_use_cost : Nat) : W) +
        (((promotionCosts h candidate).extra_yes_cost : Nat) : W) := rfl
  refine ⟨?_, hno, hyes⟩
  rw [← hno, ← hyes]
  unfold CSE_Heuristic.PromotionCheck
  cases hg : (h.DEBUG && h.optConfigDisableCSE2)
  · simp only [Bool.false_eq_true, if_false, true_and]
    by_cases hle : (promotionCosts h candidate).yes_cse_cost ≤
        (promotionCosts h candidate).no_cse_cost
    · simp [hle]
    · simp [hle, hstress]
  · simp

/-- C21, as stated, fails in a `DEBUG` build when `optConfigDisableCSE2()` answers true: for a
candidate with one def and three uses, cost 4 and size 4, the method computes
`cse_def_cost = cse_use_cost = 2`, `extra_no_cost = 12`, `extra_yes_cost = 0`, so that
`3 * 4 + 12 >= 1 * 2 + 3 * 2 + 0`, and with stress mode off it returns false there, while it
returns true when `optConfigDisableCSE2()` answers false. -/
theorem promotion_check_disabled_by_config :
    CSE_Heuristic.PromotionCheck exPromotionConfigNoCSE2 exCandidate = false ∧
    (∀ percentage, exPromotionConfigNoCSE2.compStressCompile percentage = false) ∧
    (promotionCosts exPromotionConfigNoCSE2 exCandidate).cse_def_cost = 2 ∧
    (promotionCosts exPromotionConfigNoCSE2 exCandidate).cse_use_cost = 2 ∧
    (promotionCosts exPromotionConfigNoCSE2 exCandidate).extra_no_cost = 12 ∧
    (promotionCosts exPromotionConfigNoCSE2 exCandidate).extra_yes_cost = 0 ∧
    exCandidate.DefCount * 2 + exCandidate.UseCount * 2 + 0 ≤
      exCandidate.UseCount * exCandidate.Cost + 12 ∧
    CSE_Heuristic.PromotionCheck exPromotionConfig exCandidate = true :=
  ⟨by decide, fun _ => rfl, by decide, by decide, by decide, by decide, by decide, by decide⟩

theorem promotion_check_iff_cost_inequality_witness :
    (∀ percentage, exPromotionConfig.compStressCompile percentage = false) ∧
    (CSE_Heuristic.PromotionCheck exPromotionConfig exCandidate = true ↔
      ((exPromotionConfig.DEBUG && exPromotionConfig.optConfigDisableCSE2) = false ∧
        exCandidate.DefCount *
              (((promotionCosts exPromotionConfig exCandidate).cse_def_cost : Nat) : Nat) +
            exCandidate.UseCount *
              (((promotionCosts exPromotionConfig exCandidate).cse_use_cost : Nat) : Nat) +
            (((promotionCosts exPromotionConfig exCandidate).extra_yes_cost : Nat) : Nat) ≤
          exCandidate.UseCount * ((exCandidate.Cost : Nat) : Nat) +
            (((promotionCosts exPromotionConfig exCandidate).extra_no_cost : Nat) : Nat))) ∧
    CSE_Heuristic.PromotionCheck exPromotionConfig exCandidate = true :=
  ⟨fun _ => rfl,
    (promotion_check_iff_cost_inequality exPromotionConfig exCandidate (fun _ => rfl)).1,
    by decide⟩

/-! ## The random and the parameterized policies: shuffle, softmax, greedy choice -/

section Par
set_option linter.unusedSectionVars false
variable [Zero W] [Add W] [Sub W] [LE W] [LT W]
  [DecidableRel (LE.le : W → W → Prop)] [DecidableRel (LT.lt : W → W → Prop)]

theorem set_append_getElem_perm {α : Type} (x : α) :
    ∀ (l : List α) (j : Nat) (h : j < l.length),
      List.Perm (l.set j x ++ [l.get ⟨j, h⟩]) (x :: l) := by
  intro l
  induction l with
  | nil =>
    intro j h
    exact absurd h (by simp)
  | cons a t ih =>
    intro j h
    cases j with
    | zero =>
      simp only [List.set_cons_zero, List.get_eq_getElem, List.getElem_cons_zero,
        List.cons_append]
      exact (List.Perm.cons x (List.perm_append_singleton a t))
    | succ j =>
      simp only [List.set_cons_succ, List.get_eq_getElem, List.getElem_cons_succ,
        List.cons_append]
      have h1 : j < t.length := by
        simp only [List.length_cons] at h
        omega
      have := ih j h1
      simp only [List.get_eq_getElem] at this
      exact (List.Perm.cons a this).trans (List.Perm.swap x a t)

/-- The shape of `sortTab` after `m` rounds of the shuffle: the first `m` entries are written
and are a permutation of `optCSEtab[0..m)`, the others are not written yet. -/
theorem randomShuffleStep_inv (cfg : RandomConfig W) (st : CseState W) (n m : Nat) (hm : m < n)
    (hNext : ∀ k bound, 0 < bound → cfg.Next k bound < bound)
    (p : List (Option Nat)) (hlen : p.length = m)
    (hperm : List.Perm p ((List.range m).map st.tabPtr)) :
    ∃ p1 : List (Option Nat),
      randomShuffleStep cfg st (p.map some ++ List.replicate (n - m) none) m =
        some (p1.map some ++ List.replicate (n - (m + 1)) none) ∧
      p1.length = m + 1 ∧ List.Perm p1 ((List.range (m + 1)).map st.tabPtr) := by
  have hj : cfg.Next m (m + 1) < m + 1 := hNext m (m + 1) (Nat.succ_pos m)
  have hrep : List.replicate (n - m) (none : Option (Option Nat)) =
      none :: List.replicate (n - (m + 1)) none := by
    have : n - m = (n - (m + 1)) + 1 := by omega
    rw [this, List.replicate_succ]
  have hrange : (List.range (m + 1)).map st.tabPtr =
      (List.range m).map st.tabPtr ++ [st.tabPtr m] := by
    rw [List.range_succ, List.map_append]
    rfl
  unfold randomShuffleStep
  simp only
  by_cases hij : m = cfg.Next m (m + 1)
  · refine ⟨p ++ [st.tabPtr m], ?_, by simp [hlen], ?_⟩
    · rw [← hij]
      simp only [ne_eq, not_true_eq_false, if_false, List.length_append, List.length_map,
        List.length_replicate, hlen]
      rw [if_pos (by omega), hrep]
      rw [List.set_append_right _ _ (by simp [hlen])]
      simp [hlen]
    · rw [hrange]
      exact List.Perm.append_right _ hperm
  · have hjm : cfg.Next m (m + 1) < m := by omega
    have hjp : cfg.Next m (m + 1) < p.length := by omega
    refine ⟨(p ++ [p.get ⟨cfg.Next m (m + 1), hjp⟩]).set (cfg.Next m (m + 1)) (st.tabPtr m),
      ?_, by simp [hlen], ?_⟩
    · have hread : (p.map some ++ List.replicate (n - m) none)[cfg.Next m (m + 1)]? =
          some (some (p.get ⟨cfg.Next m (m + 1), hjp⟩)) := by
        rw [List.getElem?_append_left (by simpa using hjp)]
        simp [List.getElem?_map, List.getElem?_eq_getElem hjp]
      simp only [ne_eq, hij, not_false_eq_true, if_true, hread]
      have hset1 : (p.map some ++ List.replicate (n - m) none).set m
            (some (p.get ⟨cfg.Next m (m + 1), hjp⟩)) =
          (p ++ [p.get ⟨cfg.Next m (m + 1), hjp⟩]).map some ++
            List.replicate (n - (m + 1)) none := by
        rw [hrep, List.set_append_right _ _ (by simp [hlen])]
        simp [hlen]
      rw [hset1]
      rw [if_pos (by simp [hlen]; omega)]
      rw [List.set_append_left _ _ (by simp [hlen]; omega)]
      simp [List.map_set]
    · rw [hrange]
      rw [List.set_append_left _ _ hjp]
      exact (set_append_getElem_perm (st.tabPtr m) p _ hjp).trans
        ((List.perm_append_singleton _ _).symm.trans (List.Perm.append_right _ hperm))

theorem randomShuffleLoop_inv (cfg : RandomConfig W) (st : CseState W) (n : Nat)
    (hNext : ∀ k bound, 0 < bound → cfg.Next k bound < bound) :
    ∀ (k m : Nat) (p : List (Option Nat)), m + k = n → p.length = m →
      List.Perm p ((List.range m).map st.tabPtr) →
      ∃ p1 : List (Option Nat),
        randomShuffleLoop cfg st (List.range' m k)
          (p.map some ++ List.replicate (n - m) none) = some (p1.map some) ∧
        p1.length = n ∧ List.Perm p1 ((List.range n).map st.tabPtr) := by
  intro k
  induction k with
  | zero =>
    intro m p hmk hlen hperm
    have : m = n := by omega
    subst this
    refine ⟨p, ?_, hlen, hperm⟩
    simp [randomShuffleLoop]
  | succ k ih =>
    intro m p hmk hlen hperm
    obtain ⟨p1, h1, h2, h3⟩ :=
      randomShuffleStep_inv cfg st n m (by omega) hNext p hlen hperm
    obtain ⟨p2, h4, h5, h6⟩ := ih (m + 1) p1 (by omega) h2 h3
    refine ⟨p2, ?_, h5, h6⟩
    rw [List.range'_succ]
    simp only [randomShuffleLoop, h1]
    exact h4

/-- C25. In `CSE_HeuristicRandom::ConsiderCandidates`, for `n >= 1` candidates and random
numbers with `Next(m)` in `[0, m)`: the shuffle loop completes without reading an entry that has
not been written, the shuffled `sortTab[0..n)` is a permutation of `optCSEtab[0..n)` (of the
pointers to the `n` descriptors, each exactly once, when every slot holds one), and the number
`k = Next(n) + 1` of leading entries the second loop attempts satisfies `1 <= k <= n`; the
second loop is run on that table with that `k`. -/
theorem random_shuffle_is_permutation (cfg : RandomConfig W) (ir : CseIR W) (st : CseState W)
    (hn : 1 ≤ st.comp.optCSECandidateCount)
    (hNext : ∀ k bound, 0 < bound → cfg.Next k bound < bound) :
    ∃ p : List (Option Nat),
      randomShuffleLoop cfg st (List.range st.comp.optCSECandidateCount)
        (List.replicate st.comp.optCSECandidateCount none) = some (p.map some) ∧
      p.length = st.comp.optCSECandidateCount ∧
      List.Perm p ((List.range st.comp.optCSECandidateCount).map st.tabPtr) ∧
      ((∀ i, i < st.comp.optCSECandidateCount → (st.dscAt i).isSome = true) →
        List.Perm p ((List.range st.comp.optCSECandidateCount).map some) ∧ p.Nodup) ∧
      1 ≤ cfg.Next st.comp.optCSECandidateCount st.comp.optCSECandidateCount + 1 ∧
      cfg.Next st.comp.optCSECandidateCount st.comp.optCSECandidateCount + 1 ≤
        st.comp.optCSECandidateCount ∧
      CSE_HeuristicRandom.ConsiderCandidates cfg ir st =
        randomLoop cfg ir
          (cfg.Next st.comp.optCSECandidateCount st.comp.optCSECandidateCount + 1)
          (p.map some) st := by
  obtain ⟨p, h1, h2, h3⟩ := randomShuffleLoop_inv cfg st st.comp.optCSECandidateCount hNext
    st.comp.optCSECandidateCount 0 [] (by omega) rfl (by simp)
  rw [← List.range_eq_range'] at h1
  simp only [List.map_nil, List.nil_append, Nat.sub_zero] at h1
  have hk := hNext st.comp.optCSECandidateCount st.comp.optCSECandidateCount (by omega)
  refine ⟨p, h1, h2, h3, ?_, by omega, by omega, ?_⟩
  · intro hall
    have hmap : (List.range st.comp.optCSECandidateCount).map st.tabPtr =
        (List.range st.comp.optCSECandidateCount).map some := by
      apply List.map_congr_left
      intro i hi
      have := hall i (List.mem_range.1 hi)
      simp [CseState.tabPtr, this]
    rw [hmap] at h3
    refine ⟨h3, ?_⟩
    rw [h3.nodup_iff]
    exact (List.nodup_range _).map (fun a b hab => Option.some.inj hab)
  · unfold CSE_HeuristicRandom.ConsiderCandidates
    simp only
    rw [if_neg (by omega), h1]

theorem random_shuffle_is_permutation_witness :
    1 ≤ exPerfState.comp.optCSECandidateCount ∧
    (∀ k bound, 0 < bound → exRandomConfig.Next k bound < bound) ∧
    ∃ p : List (Option Nat),
      randomShuffleLoop exRandomConfig exPerfState (List.range 2) (List.replicate 2 none) =
        some (p.map some) ∧
      List.Perm p ((List.range 2).map exPerfState.tabPtr) ∧
      1 ≤ exRandomConfig.Next 2 2 + 1 ∧ exRandomConfig.Next 2 2 + 1 ≤ 2 := by
  refine ⟨by decide, fun k bound hb => Nat.mod_lt _ hb, ?_⟩
  obtain ⟨p, h1, -, h3, -, h5, h6, -⟩ :=
    random_shuffle_is_permutation exRandomConfig exIR exPerfState (by decide)
      (fun k bound hb => Nat.mod_lt _ hb)
  exact ⟨p, h1, h3, h5, h6⟩

theorem foldl_add_eq_sum {α P : Type} [LinearOrderedField P] (g : α → P) :
    ∀ (l : List α) (a : P), l.foldl (fun sum c => sum + g c) a = a + (l.map g).sum := by
  intro l
  induction l with
  | nil =>
    intro a
    simp
  | cons x t ih =>
    intro a
    simp only [List.foldl_cons, List.map_cons, List.sum_cons]
    rw [ih]
    ring

theorem sum_map_div {α P : Type} [LinearOrderedField P] (g : α → P) (s : P) :
    ∀ l : List α, (l.map (fun c => g c / s)).sum = (l.map g).sum / s := by
  intro l
  induction l with
  | nil => simp
  | cons x t ih =>
    simp only [List.map_cons, List.sum_cons]
    rw [ih, add_div]

theorem Softmax_eq {P : Type} [LinearOrderedField P] (cfg : RLConfig W P)
    (choices : List (Choice P)) :
    Softmax cfg choices =
      choices.map (fun c => { c with m_softmax := cfg.exp c.m_preference /
        (choices.map (fun c => cfg.exp c.m_preference)).sum }) := by
  unfold Softmax
  simp only [List.map_map]
  have hs : (choices.map (fun c => ({ c with m_softmax := cfg.exp c.m_preference } :
        Choice P))).foldl (fun sum c => sum + c.m_softmax) 0 =
      (choices.map (fun c => cfg.exp c.m_preference)).sum := by
    rw [List.foldl_map]
    rw [foldl_add_eq_sum (fun c : Choice P => cfg.exp c.m_preference) choices 0]
    simp
  rw [hs]
  rfl

/-- C26. After `CSE_HeuristicRL::Softmax` on a non-empty choice array, with preferences in an
ordered field (the reals) and `exp` a positive function (the real exponential), the array has
the same choices, the `m_softmax` of each choice is `exp(preference)` divided by the sum of
`exp(preference)` over all choices, every `m_softmax` lies in `(0, 1]`, and the `m_softmax`
values sum to 1. -/
theorem softmax_is_distribution {P : Type} [LinearOrderedField P] (cfg : RLConfig W P)
    (hexp : ∀ x, 0 < cfg.exp x) (choices : List (Choice P)) (hne : choices ≠ []) :
    (Softmax cfg choices).length = choices.length ∧
    (∀ (i : Nat) (c : Choice P), choices[i]? = some c →
      ∃ c1, (Softmax cfg choices)[i]? = some c1 ∧
        c1.m_softmax = cfg.exp c.m_preference /
          (choices.map (fun c => cfg.exp c.m_preference)).sum ∧
        c1.m_dsc = c.m_dsc ∧ c1.m_preference = c.m_preference ∧
        c1.m_performed = c.m_performed) ∧
    (∀ c1 ∈ Softmax cfg choices, 0 < c1.m_softmax ∧ c1.m_softmax ≤ 1) ∧
    ((Softmax cfg choices).map (fun c => c.m_softmax)).sum = 1 := by
  have hpos : 0 < (choices.map (fun c => cfg.exp c.m_preference)).sum := by
    cases choices with
    | nil => exact absurd rfl hne
    | cons x t =>
      simp only [List.map_cons, List.sum_cons]
      have : 0 ≤ (t.map (fun c => cfg.exp c.m_preference)).sum := by
        apply List.sum_nonneg
        intro y hy
        obtain ⟨c, -, rfl⟩ := List.mem_map.1 hy
        exact le_of_lt (hexp _)
      linarith [hexp x.m_preference]
  rw [Softmax_eq]
  refine ⟨by simp, ?_, ?_, ?_⟩
  · intro i c hc
    refine ⟨{ c with m_softmax := cfg.exp c.m_preference /
      (choices.map (fun c => cfg.exp c.m_preference)).sum }, ?_, rfl, rfl, rfl, rfl⟩
    rw [List.getElem?_map, hc]
    rfl
  · intro c1 hc1
    obtain ⟨c, hc, rfl⟩ := List.mem_map.1 hc1
    simp only
    refine ⟨div_pos (hexp _) hpos, ?_⟩
    rw [div_le_one hpos]
    apply List.single_le_sum
    · intro y hy
      obtain ⟨c2, -, rfl⟩ := List.mem_map.1 hy
      exact le_of_lt (hexp _)
    · exact List.mem_map.2 ⟨c, hc, rfl⟩
  · rw [List.map_map]
    have : ((fun c : Choice P => c.m_softmax) ∘ fun c : Choice P =>
        ({ c with m_softmax := cfg.exp c.m_preference /
          (choices.map (fun c => cfg.exp c.m_preference)).sum } : Choice P)) =
        fun c => cfg.exp c.m_preference /
          (choices.map (fun c => cfg.exp c.m_preference)).sum := rfl
    rw [this, sum_map_div]
    exact div_self (ne_of_gt hpos)

theorem softmax_is_distribution_witness :
    (∀ x : ℝ, 0 < Real.exp x) ∧
    ([⟨none, 0, 0, false⟩, ⟨some 0, 1, 0, false⟩, ⟨some 1, 2, 0, false⟩] : List (Choice ℝ)) ≠ [] ∧
    ((Softmax (RLConfig.mk (fun _ _ => 0) (fun _ => 0) Real.exp (fun _ => 0) false false [] :
        RLConfig Nat ℝ)
      [⟨none, 0, 0, false⟩, ⟨some 0, 1, 0, false⟩, ⟨some 1, 2, 0, false⟩]).map
        (fun c => c.m_softmax)).sum = 1 :=
  ⟨Real.exp_pos, by simp,
    (softmax_is_distribution (RLConfig.mk (fun _ _ => 0) (fun _ => 0) Real.exp (fun _ => 0)
      false false [] : RLConfig Nat ℝ) Real.exp_pos
      [⟨none, 0, 0, false⟩, ⟨some 0, 1, 0, false⟩, ⟨some 1, 2, 0, false⟩] (by simp)).2.2.2⟩

end Par

section Greedy
set_option linter.unusedSectionVars false
variable [Zero W] [Add W] [Sub W] [LE W] [LT W]
  [DecidableRel (LE.le : W → W → Prop)] [DecidableRel (LT.lt : W → W → Prop)]

theorem choiceIndex_of_dsc {P : Type} (st : CseState W) (c : Choice P) (slot : Nat)
    (d : CSEdsc W) (h1 : c.m_dsc = some slot) (h2 : st.dscAt slot = some d) :
    choiceIndex st c = d.csdIndex := by
  unfold choiceIndex
  rw [h1]
  simp only
  rw [h2]

theorem chooseGreedyUpdate_spec {P : Type} [LinearOrderedRing P] (st : CseState W)
    (choice best : Choice P)
    (hc : ∃ slot d, choice.m_dsc = some slot ∧ st.dscAt slot = some d)
    (hb : best.m_dsc = none ∨ ∃ slot d, best.m_dsc = some slot ∧ st.dscAt slot = some d) :
    ∃ u, chooseGreedyUpdate st choice best = some u ∧
      (u = true → best.m_preference < choice.m_preference ∨
        (choice.m_preference = best.m_preference ∧ best.m_dsc ≠ none ∧
          choiceIndex st choice < choiceIndex st best)) ∧
      (u = false → choice.m_preference < best.m_preference ∨
        (choice.m_preference = best.m_preference ∧
          (best.m_dsc = none ∨ choiceIndex st best ≤ choiceIndex st choice))) := by
  obtain ⟨slot, d, hc1, hc2⟩ := hc
  unfold chooseGreedyUpdate
  simp only
  rcases lt_trichotomy (choice.m_preference - best.m_preference) 0 with hlt | heq | hgt
  · have h1 : ¬ (0 < choice.m_preference - best.m_preference) := not_lt.2 (le_of_lt hlt)
    have h2 : ¬ (choice.m_preference - best.m_preference = 0) := ne_of_lt hlt
    refine ⟨false, ?_, fun h => absurd h (by simp), fun _ => Or.inl (sub_neg.1 hlt)⟩
    rw [if_neg h1, if_neg h2]
  · have h1 : ¬ (0 < choice.m_preference - best.m_preference) := by
      rw [heq]
      exact lt_irrefl _
    have hpe : choice.m_preference = best.m_preference := sub_eq_zero.1 heq
    rw [if_neg h1, if_pos heq, hc1]
    simp only
    rcases hb with hb | ⟨bslot, bd, hb1, hb2⟩
    · rw [hb]
      simp only
      exact ⟨false, rfl, fun h => absurd h (by simp), fun _ => Or.inr ⟨hpe, Or.inl trivial⟩⟩
    · rw [hb1]
      simp only
      rw [hc2, hb2]
      simp only
      refine ⟨decide (d.csdIndex < bd.csdIndex), rfl, ?_, ?_⟩
      · intro hu
        refine Or.inr ⟨hpe, by simp, ?_⟩
        rw [choiceIndex_of_dsc st choice slot d hc1 hc2,
          choiceIndex_of_dsc st best bslot bd hb1 hb2]
        simpa using hu
      · intro hu
        refine Or.inr ⟨hpe, Or.inr ?_⟩
        rw [choiceIndex_of_dsc st choice slot d hc1 hc2,
          choiceIndex_of_dsc st best bslot bd hb1 hb2]
        simpa using hu
  · refine ⟨true, ?_, fun _ => Or.inl (sub_pos.1 hgt), fun h => absurd h (by simp)⟩
    rw [if_pos hgt]

theorem chooseGreedyLoop_max {P : Type} [LinearOrderedRing P] (st : CseState W)
    (choices : List (Choice P)) (stop : Choice P) (hsd : stop.m_dsc = none)
    (hsp : stop.m_performed = false) :
    ∀ (rest pre : List (Choice P)) (num : Nat) (best : Choice P),
      choices = pre ++ rest →
      pre[0]? = some stop →
      (∀ c ∈ rest, c.m_performed = false →
        ∃ slot d, c.m_dsc = some slot ∧ st.dscAt slot = some d) →
      pre[num]? = some best → best.m_performed = false →
      (num = 0 ∨ ((∃ slot d, best.m_dsc = some slot ∧ st.dscAt slot = some d) ∧
        stop.m_preference < best.m_preference)) →
      (∀ c ∈ pre, c.m_performed = false → c.m_preference ≤ best.m_preference ∧
        (c.m_preference = best.m_preference →
          num = 0 ∨ choiceIndex st best ≤ choiceIndex st c)) →
      ∃ r bestR, chooseGreedyLoop st choices pre.length rest num = some r ∧
        choices[r]? = some bestR ∧ bestR.m_performed = false ∧
        (r = 0 ∨ ((∃ slot d, bestR.m_dsc = some slot ∧ st.dscAt slot = some d) ∧
          stop.m_preference < bestR.m_preference)) ∧
        (∀ c ∈ choices, c.m_performed = false → c.m_preference ≤ bestR.m_preference ∧
          (c.m_preference = bestR.m_preference →
            r = 0 ∨ choiceIndex st bestR ≤ choiceIndex st c)) := by
  intro rest
  induction rest with
  | nil =>
    intro pre num best hch h0 _ hnum hperf hdisj hall
    have hcp : choices = pre := by simpa using hch
    refine ⟨num, best, by simp [chooseGreedyLoop], ?_, hperf, hdisj, ?_⟩
    · rw [hcp]
      exact hnum
    · rw [hcp]
      exact hall
  | cons choice rest ih =>
    intro pre num best hch h0 hgood hnum hperf hdisj hall
    have hlen0 : 0 < pre.length := by
      by_contra hn
      have : pre = [] := List.length_eq_zero.1 (by omega)
      rw [this] at h0
      simp at h0
    have hnumlt : num < pre.length := by
      by_contra hn
      rw [List.getElem?_eq_none (by omega)] at hnum
      exact absurd hnum (by simp)
    have hch1 : choices = (pre ++ [choice]) ++ rest := by
      rw [hch]
      simp
    have h01 : (pre ++ [choice])[0]? = some stop := by
      rw [List.getElem?_append_left hlen0]
      exact h0
    have hgood1 : ∀ c ∈ rest, c.m_performed = false →
        ∃ slot d, c.m_dsc = some slot ∧ st.dscAt slot = some d :=
      fun c hc => hgood c (List.mem_cons_of_mem _ hc)
    have hlen1 : (pre ++ [choice]).length = pre.length + 1 := by simp
    have hstop_mem : stop ∈ pre := List.getElem?_mem h0
    have hpre0 : num = 0 → best = stop := by
      intro hz
      rw [hz, h0] at hnum
      exact (Option.some.inj hnum).symm
    unfold chooseGreedyLoop
    by_cases hp : choice.m_performed = true
    · rw [if_pos hp]
      have := ih (pre ++ [choice]) num best hch1 h01 hgood1
        (by rw [List.getElem?_append_left hnumlt]; exact hnum) hperf hdisj
        (by
          intro c hc hcp
          rcases List.mem_append.1 hc with hc | hc
          · exact hall c hc hcp
          · simp only [List.mem_singleton] at hc
            rw [hc, hp] at hcp
            exact absurd hcp (by simp))
      rw [hlen1] at this
      exact this
    · rw [if_neg hp]
      have hpf : choice.m_performed = false := by simpa using hp
      have hbest_read : choices[num]? = some best := by
        rw [hch, List.getElem?_append_left hnumlt]
        exact hnum
      rw [hbest_read]
      simp only
      have hcd := hgood choice (List.mem_cons_self _ _) hpf
      have hbd : best.m_dsc = none ∨
          ∃ slot d, best.m_dsc = some slot ∧ st.dscAt slot = some d := by
        rcases hdisj with hz | ⟨hd, -⟩
        · left
          rw [hpre0 hz]
          exact hsd
        · exact Or.inr hd
      obtain ⟨u, hu, hut, huf⟩ := chooseGreedyUpdate_spec st choice best hcd hbd
      rw [hu]
      simp only
      cases u with
      | true =>
        simp only [if_true]
        have hcase := hut rfl
        have hstop_lt : stop.m_preference < choice.m_preference := by
          rcases hcase with hlt | ⟨heq, hne, -⟩
          · exact lt_of_le_of_lt (hall stop hstop_mem hsp).1 hlt
          · rcases hdisj with hz | ⟨-, hlt⟩
            · rw [hpre0 hz] at hne
              exact absurd hsd hne
            · rw [heq]
              exact hlt
        have := ih (pre ++ [choice]) pre.length choice hch1 h01 hgood1
          (by simp) hpf (Or.inr ⟨hcd, hstop_lt⟩)
          (by
            intro c hc hcp
            rcases List.mem_append.1 hc with hc | hc
            · obtain ⟨hle, htie⟩ := hall c hc hcp
              rcases hcase with hlt | ⟨heq, hne, hidx⟩
              · refine ⟨le_of_lt (lt_of_le_of_lt hle hlt), ?_⟩
                intro he
                rw [he] at hle
                exact absurd hlt (not_lt.2 hle)
              · refine ⟨by rw [heq]; exact hle, ?_⟩
                intro he
                rcases htie (by rw [he, heq]) with hz | hle2
                · rw [hpre0 hz] at hne
                  exact absurd hsd hne
                · exact Or.inr (le_trans (le_of_lt hidx) hle2)
            · simp only [List.mem_singleton] at hc
              rw [hc]
              exact ⟨le_refl _, fun _ => Or.inr (le_refl _)⟩)
        rw [hlen1] at this
        exact this
      | false =>
        simp only [Bool.false_eq_true, if_false]
        have hcase := huf rfl
        have := ih (pre ++ [choice]) num best hch1 h01 hgood1
          (by rw [List.getElem?_append_left hnumlt]; exact hnum) hperf hdisj
          (by
            intro c hc hcp
            rcases List.mem_append.1 hc with hc | hc
            · exact hall c hc hcp
            · simp only [List.mem_singleton] at hc
              rw [hc]
              rcases hcase with hlt | ⟨heq, hor⟩
              · exact ⟨le_of_lt hlt, fun he => absurd hlt (by rw [he]; exact lt_irrefl _)⟩
              · refine ⟨le_of_eq heq, fun _ => ?_⟩
                rcases hor with hnone | hle
                · rcases hdisj with hz | ⟨⟨slot, d, hs, -⟩, -⟩
                  · exact Or.inl hz
                  · rw [hs] at hnone
                    exact absurd hnone (by simp)
                · exact Or.inr hle)
        rw [hlen1] at this
        exact this

theorem buildChoicesLoop_total {P : Type} [LinearOrderedRing P] (cfg : RLConfig W P)
    (st : CseState W) (sortTab : List (Option Nat))
    (htab : ∀ e ∈ sortTab, ∀ slot, e = some slot → (st.dscAt slot).isSome = true) :
    ∀ (todo : List Nat) (acc : List (Choice P)),
      (∀ i ∈ todo, i < sortTab.length) →
      (∀ c ∈ acc, c.m_performed = false ∧
        ∃ slot d, c.m_dsc = some slot ∧ st.dscAt slot = some d) →
      ∃ res, buildChoicesLoop cfg st sortTab todo acc = some res ∧
        ∀ c ∈ res, c.m_performed = false ∧
          ∃ slot d, c.m_dsc = some slot ∧ st.dscAt slot = some d := by
  intro todo
  induction todo with
  | nil =>
    intro acc _ hacc
    exact ⟨acc, by simp [buildChoicesLoop], hacc⟩
  | cons i rest ih =>
    intro acc hi hacc
    have hlt : i < sortTab.length := hi i (List.mem_cons_self _ _)
    have hrest : ∀ k ∈ rest, k < sortTab.length := fun k hk => hi k (List.mem_cons_of_mem _ hk)
    unfold buildChoicesLoop
    rw [List.getElem?_eq_getElem hlt]
    cases he : sortTab[i] with
    | none =>
      exact ih acc hrest hacc
    | some slot =>
      have hsome := htab (sortTab[i]) (List.getElem_mem hlt) slot he
      obtain ⟨d, hd⟩ := Option.isSome_iff_exists.1 hsome
      simp only [hd]
      by_cases hv : d.IsViable = true
      · simp only [hv, Bool.not_true, Bool.false_eq_true, if_false]
        apply ih _ hrest
        intro c hc
        rcases List.mem_cons.1 hc with rfl | hc
        · exact ⟨rfl, slot, d, rfl, hd⟩
        · exact hacc c hc
      · have hv2 : d.IsViable = false := by simpa using hv
        simp only [hv2, Bool.not_false, if_true]
        exact ih acc hrest hacc

/-- C23. On a choice array as `BuildChoices` or an earlier round of `GreedyPolicy` left it (the
stop choice on top; the array is rebuilt when `recompute` is set), with preferences in a
linearly ordered ring (exact numbers, no NaN), `ChooseGreedy` returns a choice that is not
performed and whose preference is maximal among the choices that are not performed, the stop
choice included; it returns the stop choice when that attains the maximum, and otherwise a
candidate whose `csdIndex` is the smallest among the candidates, not performed, that attain
the maximum. -/
theorem chooseGreedy_returns_best {P : Type} [LinearOrderedRing P] (cfg : RLConfig W P)
    (st : CseState W) (sortTab : List (Option Nat)) (choices : List (Choice P))
    (recompute : Bool)
    (hwf : (recompute = true ∧ sortTabWellFormed st sortTab = true) ∨
      (recompute = false ∧ choicesWellFormed st choices = true)) :
    ∃ (choices1 : List (Choice P)) (choiceNum : Nat) (stopping best : Choice P),
      ChooseGreedy cfg st sortTab choices recompute = some (choices1, choiceNum) ∧
      choices1[0]? = some stopping ∧ stopping.m_dsc = none ∧ stopping.m_performed = false ∧
      stopping.m_preference = cfg.StoppingPreference st ∧
      choices1[choiceNum]? = some best ∧ best.m_performed = false ∧
      (∀ c ∈ choices1, c.m_performed = false → c.m_preference ≤ best.m_preference) ∧
      (stopping.m_preference = best.m_preference → choiceNum = 0) ∧
      (choiceNum ≠ 0 →
        (∃ slot d, best.m_dsc = some slot ∧ st.dscAt slot = some d) ∧
        ∀ c ∈ choices1, c.m_performed = false → c.m_preference = best.m_preference →
          choiceIndex st best ≤ choiceIndex st c) := by
  have hbuilt : ∃ (stop : Choice P) (rest : List (Choice P)),
      (∀ n, chooseGreedyLoop st (stop :: rest) 1 rest 0 = some n →
        ChooseGreedy cfg st sortTab choices recompute = some (stop :: rest, n)) ∧
      stop.m_dsc = none ∧ stop.m_performed = false ∧
      stop.m_preference = cfg.StoppingPreference st ∧
      ∀ c ∈ rest, c.m_performed = false →
        ∃ slot d, c.m_dsc = some slot ∧ st.dscAt slot = some d := by
    rcases hwf with ⟨hr, hst⟩ | ⟨hr, hcw⟩
    · subst hr
      unfold sortTabWellFormed at hst
      simp only [Bool.and_eq_true, decide_eq_true_eq, List.all_eq_true] at hst
      obtain ⟨hlen, hall⟩ := hst
      have htab : ∀ e ∈ sortTab, ∀ slot, e = some slot → (st.dscAt slot).isSome = true := by
        intro e he slot hes
        have := hall e he
        rw [hes] at this
        exact this
      obtain ⟨res, hres, hgood⟩ := buildChoicesLoop_total cfg st sortTab htab
        (List.range st.comp.optCSECandidateCount) []
        (fun i hi => lt_of_lt_of_le (List.mem_range.1 hi) hlen)
        (fun c hc => absurd hc (by simp))
      refine ⟨Choice.mk none (cfg.StoppingPreference st) 0 false, res, ?_, rfl, rfl, rfl,
        fun c hc _ => (hgood c hc).2⟩
      intro n hn
      unfold ChooseGreedy
      simp only [if_true, BuildChoices, hres, List.drop_succ_cons, List.drop_zero]
      rw [hn]
    · subst hr
      cases choices with
      | nil => exact absurd hcw (by simp [choicesWellFormed])
      | cons stopping rest =>
        unfold choicesWellFormed at hcw
        simp only [Bool.and_eq_true, Option.isNone_iff_eq_none, Bool.not_eq_true',
          List.all_eq_true, Bool.or_eq_true] at hcw
        obtain ⟨⟨h1, h2⟩, h3⟩ := hcw
        refine ⟨Choice.mk stopping.m_dsc (cfg.StoppingPreference st) stopping.m_softmax
          stopping.m_performed, rest, ?_, h1, h2, rfl, ?_⟩
        · intro n hn
          unfold ChooseGreedy
          simp only [Bool.false_eq_true, if_false, List.drop_succ_cons, List.drop_zero]
          rw [hn]
        · intro c hc hcp
          rcases h3 c hc with h | h
          · rw [hcp] at h
            exact absurd h (by simp)
          · cases hd : c.m_dsc with
            | none =>
              rw [hd] at h
              exact absurd h (by simp)
            | some slot =>
              rw [hd] at h
              obtain ⟨d, hdd⟩ := Option.isSome_iff_exists.1 h
              exact ⟨slot, d, rfl, hdd⟩
  obtain ⟨stop, rest, hb, hsd, hsp, hspref, hgood⟩ := hbuilt
  obtain ⟨r, bestR, hloop, hread, hperf, hdisj, hall⟩ :=
    chooseGreedyLoop_max st (stop :: rest) stop hsd hsp rest [stop] 0 stop rfl (by simp) hgood
      (by simp) hsp (Or.inl rfl)
      (by
        intro c hc _
        simp only [List.mem_singleton] at hc
        rw [hc]
        exact ⟨le_refl _, fun _ => Or.inl rfl⟩)
  simp only [List.length_singleton] at hloop
  refine ⟨stop :: rest, r, stop, bestR, hb r hloop, by simp, hsd, hsp, hspref, hread, hperf,
    fun c hc hcp => (hall c hc hcp).1, ?_, ?_⟩
  · intro he
    rcases hdisj with hz | ⟨-, hlt⟩
    · exact hz
    · rw [he] at hlt
      exact absurd hlt (lt_irrefl _)
  · intro hne
    rcases hdisj with hz | ⟨hd, -⟩
    · exact absurd hz hne
    · refine ⟨hd, ?_⟩
      intro c hc hcp he
      rcases (hall c hc hcp).2 he with hz | hle
      · exact absurd hz hne
      · exact hle

theorem chooseGreedy_returns_best_witness :
    ((true = true ∧ sortTabWellFormed exPerfState (copySortTab exPerfState) = true) ∨
      (true = false ∧ choicesWellFormed exPerfState ([] : List (Choice Int)) = true)) ∧
    ∃ (choices1 : List (Choice Int)) (choiceNum : Nat) (best : Choice Int),
      ChooseGreedy exRLConfig exPerfState (copySortTab exPerfState) [] true =
        some (choices1, choiceNum) ∧
      choices1[choiceNum]? = some best ∧ best.m_performed = false ∧
      ∀ c ∈ choices1, c.m_performed = false → c.m_preference ≤ best.m_preference := by
  refine ⟨Or.inl ⟨rfl, by decide⟩, ?_⟩
  obtain ⟨choices1, choiceNum, -, best, h1, -, -, -, -, h6, h7, h8, -, -⟩ :=
    chooseGreedy_returns_best exRLConfig exPerfState (copySortTab exPerfState) [] true
      (Or.inl ⟨rfl, by decide⟩)
  exact ⟨choices1, choiceNum, best, h1, h6, h7, h8⟩

end Greedy

/-! ## The comparators as orders; the guarded operations of the promotion check -/

theorem lex4_irrefl {α A B C D : Type} [LinearOrder A] [LinearOrder B] [LinearOrder C]
    [LinearOrder D] (f1 : α → A) (f2 : α → B) (f3 : α → C) (f4 : α → D) (a : α) :
    ¬ (f1 a < f1 a ∨ (f1 a = f1 a ∧ f2 a < f2 a) ∨ (f1 a = f1 a ∧ f2 a = f2 a ∧ f3 a < f3 a) ∨
      (f1 a = f1 a ∧ f2 a = f2 a ∧ f3 a = f3 a ∧ f4 a < f4 a)) := by
  rintro (h | ⟨-, h⟩ | ⟨-, -, h⟩ | ⟨-, -, -, h⟩) <;> exact lt_irrefl _ h

theorem lex4_trans {α A B C D : Type} [LinearOrder A] [LinearOrder B] [LinearOrder C]
    [LinearOrder D] (f1 : α → A) (f2 : α → B) (f3 : α → C) (f4 : α → D) (a b c : α)
    (hab : f1 b < f1 a ∨ (f1 a = f1 b ∧ f2 b < f2 a) ∨
      (f1 a = f1 b ∧ f2 a = f2 b ∧ f3 a < f3 b) ∨
      (f1 a = f1 b ∧ f2 a = f2 b ∧ f3 a = f3 b ∧ f4 a < f4 b))
    (hbc : f1 c < f1 b ∨ (f1 b = f1 c ∧ f2 c < f2 b) ∨
      (f1 b = f1 c ∧ f2 b = f2 c ∧ f3 b < f3 c) ∨
      (f1 b = f1 c ∧ f2 b = f2 c ∧ f3 b = f3 c ∧ f4 b < f4 c)) :
    f1 c < f1 a ∨ (f1 a = f1 c ∧ f2 c < f2 a) ∨
      (f1 a = f1 c ∧ f2 a = f2 c ∧ f3 a < f3 c) ∨
      (f1 a = f1 c ∧ f2 a = f2 c ∧ f3 a = f3 c ∧ f4 a < f4 c) := by
  rcases hab with h | ⟨e1, h⟩ | ⟨e1, e2, h⟩ | ⟨e1, e2, e3, h⟩
  · rcases hbc with g | ⟨d1, g⟩ | ⟨d1, d2, g⟩ | ⟨d1, d2, d3, g⟩
    · exact Or.inl (lt_trans g h)
    · exact Or.inl (by rw [← d1]; exact h)
    · exact Or.inl (by rw [← d1]; exact h)
    · exact Or.inl (by rw [← d1]; exact h)
  · rcases hbc with g | ⟨d1, g⟩ | ⟨d1, d2, g⟩ | ⟨d1, d2, d3, g⟩
    · exact Or.inl (by rw [e1]; exact g)
    · exact Or.inr (Or.inl ⟨e1.trans d1, lt_trans g h⟩)
    · exact Or.inr (Or.inl ⟨e1.trans d1, by rw [← d2]; exact h⟩)
    · exact Or.inr (Or.inl ⟨e1.trans d1, by rw [← d2]; exact h⟩)
  · rcases hbc with g | ⟨d1, g⟩ | ⟨d1, d2, g⟩ | ⟨d1, d2, d3, g⟩
    · exact Or.inl (by rw [e1]; exact g)
    · exact Or.inr (Or.inl ⟨e1.trans d1, by rw [e2]; exact g⟩)
    · exact Or.inr (Or.inr (Or.inl ⟨e1.trans d1, e2.trans d2, lt_trans h g⟩))
    · exact Or.inr (Or.inr (Or.inl ⟨e1.trans d1, e2.trans d2, by rw [← d3]; exact h⟩))
  · rcases hbc with g | ⟨d1, g⟩ | ⟨d1, d2, g⟩ | ⟨d1, d2, d3, g⟩
    · exact Or.inl (by rw [e1]; exact g)
    · exact Or.inr (Or.inl ⟨e1.trans d1, by rw [e2]; exact g⟩)
    · exact Or.inr (Or.inr (Or.inl ⟨e1.trans d1, e2.trans d2, by rw [e3]; exact g⟩))
    · exact Or.inr (Or.inr (Or.inr ⟨e1.trans d1, e2.trans d2, e3.trans d3, lt_trans h g⟩))

theorem lex4_total {α A B C D : Type} [LinearOrder A] [LinearOrder B] [LinearOrder C]
    [LinearOrder D] (f1 : α → A) (f2 : α → B) (f3 : α → C) (f4 : α → D) (a b : α)
    (hne : f4 a ≠ f4 b) :
    (f1 b < f1 a ∨ (f1 a = f1 b ∧ f2 b < f2 a) ∨
      (f1 a = f1 b ∧ f2 a = f2 b ∧ f3 a < f3 b) ∨
      (f1 a = f1 b ∧ f2 a = f2 b ∧ f3 a = f3 b ∧ f4 a < f4 b)) ∨
    (f1 a < f1 b ∨ (f1 b = f1 a ∧ f2 a < f2 b) ∨
      (f1 b = f1 a ∧ f2 b = f2 a ∧ f3 b < f3 a) ∨
      (f1 b = f1 a ∧ f2 b = f2 a ∧ f3 b = f3 a ∧ f4 b < f4 a)) := by
  rcases lt_trichotomy (f1 a) (f1 b) with h1 | h1 | h1
  · exact Or.inr (Or.inl h1)
  · rcases lt_trichotomy (f2 a) (f2 b) with h2 | h2 | h2
    · exact Or.inr (Or.inr (Or.inl ⟨h1.symm, h2⟩))
    · rcases lt_trichotomy (f3 a) (f3 b) with h3 | h3 | h3
      · exact Or.inl (Or.inr (Or.inr (Or.inl ⟨h1, h2, h3⟩)))
      · rcases lt_or_gt_of_ne hne with h4 | h4
        · exact Or.inl (Or.inr (Or.inr (Or.inr ⟨h1, h2, h3, h4⟩)))
        · exact Or.inr (Or.inr (Or.inr (Or.inr ⟨h1.symm, h2.symm, h3.symm, h4⟩)))
      · exact Or.inr (Or.inr (Or.inr (Or.inl ⟨h1.symm, h2.symm, h3⟩)))
    · exact Or.inl (Or.inr (Or.inl ⟨h1, h2⟩))
  · exact Or.inl (Or.inl h1)

theorem cmpEx_irrefl [LinearOrder W] (G : GenTree → Nat) (a : CSEdsc W) :
    optCSEcostCmpEx G a a = false := by
  cases h : optCSEcostCmpEx G a a
  · rfl
  · exact absurd ((optCSEcostCmpEx_iff (fun x => lt_irrefl x) G a a).1 h)
      (lex4_irrefl (fun d : CSEdsc W => G d.csdTreeList.tslTree) (fun d => d.csdUseWtCnt)
        (fun d => d.csdDefWtCnt) (fun d => d.csdIndex) a)

theorem cmpEx_trans [LinearOrder W] (G : GenTree → Nat) (a b c : CSEdsc W)
    (hab : optCSEcostCmpEx G a b = true) (hbc : optCSEcostCmpEx G b c = true) :
    optCSEcostCmpEx G a c = true :=
  (optCSEcostCmpEx_iff (fun x => lt_irrefl x) G a c).2
    (lex4_trans (fun d : CSEdsc W => G d.csdTreeList.tslTree) (fun d => d.csdUseWtCnt)
      (fun d => d.csdDefWtCnt) (fun d => d.csdIndex) a b c
      ((optCSEcostCmpEx_iff (fun x => lt_irrefl x) G a b).1 hab)
      ((optCSEcostCmpEx_iff (fun x => lt_irrefl x) G b c).1 hbc))

theorem cmpEx_total [LinearOrder W] (G : GenTree → Nat) (a b : CSEdsc W)
    (hne : a.csdIndex ≠ b.csdIndex) :
    optCSEcostCmpEx G a b = true ∨ optCSEcostCmpEx G b a = true := by
  rcases lex4_total (fun d : CSEdsc W => G d.csdTreeList.tslTree) (fun d => d.csdUseWtCnt)
      (fun d => d.csdDefWtCnt) (fun d => d.csdIndex) a b hne with h | h
  · exact Or.inl ((optCSEcostCmpEx_iff (fun x => lt_irrefl x) G a b).2 h)
  · exact Or.inr ((optCSEcostCmpEx_iff (fun x => lt_irrefl x) G b a).2 h)

theorem cmpSz_irrefl (G : GenTree → Nat) (a : CSEdsc W) : optCSEcostCmpSz G a a = false := by
  cases h : optCSEcostCmpSz G a a
  · rfl
  · exact absurd ((optCSEcostCmpSz_iff G a a).1 h)
      (lex4_irrefl (fun d : CSEdsc W => G d.csdTreeList.tslTree) (fun d => d.csdUseCount)
        (fun d => d.csdDefCount) (fun d => d.csdIndex) a)

theorem cmpSz_trans (G : GenTree → Nat) (a b c : CSEdsc W)
    (hab : optCSEcostCmpSz G a b = true) (hbc : optCSEcostCmpSz G b c = true) :
    optCSEcostCmpSz G a c = true :=
  (optCSEcostCmpSz_iff G a c).2
    (lex4_trans (fun d : CSEdsc W => G d.csdTreeList.tslTree) (fun d => d.csdUseCount)
      (fun d => d.csdDefCount) (fun d => d.csdIndex) a b c
      ((optCSEcostCmpSz_iff G a b).1 hab) ((optCSEcostCmpSz_iff G b c).1 hbc))

theorem cmpSz_total (G : GenTree → Nat) (a b : CSEdsc W) (hne : a.csdIndex ≠ b.csdIndex) :
    optCSEcostCmpSz G a b = true ∨ optCSEcostCmpSz G b a = true := by
  rcases lex4_total (fun d : CSEdsc W => G d.csdTreeList.tslTree) (fun d => d.csdUseCount)
      (fun d => d.csdDefCount) (fun d => d.csdIndex) a b hne with h | h
  · exact Or.inl ((optCSEcostCmpSz_iff G a b).2 h)
  · exact Or.inr ((optCSEcostCmpSz_iff G b a).2 h)

/-- Two arrangements of the same descriptors, with pairwise distinct `csdIndex`, that are both
without an inversion for a relation that is irreflexive, transitive and total on distinct
indices, are the same list. -/
theorem sorted_unique (cmp : CSEdsc W → CSEdsc W → Bool)
    (hirr : ∀ a, cmp a a = false)
    (htrans : ∀ a b c, cmp a b = true → cmp b c = true → cmp a c = true)
    (htotal : ∀ a b, a.csdIndex ≠ b.csdIndex → cmp a b = true ∨ cmp b a = true)
    (l1 l2 : List (CSEdsc W)) (hnd : (l1.map fun d => d.csdIndex).Nodup)
    (hperm : List.Perm l1 l2)
    (h1 : l1.Pairwise fun a b => cmp b a = false)
    (h2 : l2.Pairwise fun a b => cmp b a = false) : l1 = l2 := by
  have hnd2 : (l2.map fun d => d.csdIndex).Nodup := (hperm.map _).nodup_iff.1 hnd
  have key : ∀ l : List (CSEdsc W), (l.map fun d => d.csdIndex).Nodup →
      (l.Pairwise fun a b => cmp b a = false) → l.Pairwise fun a b => cmp a b = true := by
    intro l hn hp
    rw [List.Nodup, List.pairwise_map] at hn
    have := hn.and hp
    exact this.imp (fun {a b} h => by
      rcases htotal a b h.1 with h3 | h3
      · exact h3
      · rw [h.2] at h3
        exact absurd h3 (by simp))
  haveI : IsAntisymm (CSEdsc W) (fun a b => cmp a b = true) :=
    ⟨fun a b hab hba => by
      have := htrans a b a hab hba
      rw [hirr a] at this
      exact absurd this (by simp)⟩
  exact List.eq_of_perm_of_sorted hperm (key l1 hnd h1) (key l2 hnd2 h2)

/-- C38. With weights in a linear order (exact numbers), each of the comparators
`optCSEcostCmpEx` and `optCSEcostCmpSz` is irreflexive and transitive, and of two descriptors
with different `csdIndex` it places exactly one before the other; hence two arrangements of a
table with pairwise distinct `csdIndex` that are both sorted for the comparator of
`SortCandidates` (no descriptor stands before one it should follow) are equal. -/
theorem sort_comparators_strict_total [LinearOrder W] (GetCostEx GetCostSz : GenTree → Nat) :
    (∀ a : CSEdsc W, optCSEcostCmpEx GetCostEx a a = false) ∧
    (∀ a b c : CSEdsc W, optCSEcostCmpEx GetCostEx a b = true →
      optCSEcostCmpEx GetCostEx b c = true → optCSEcostCmpEx GetCostEx a c = true) ∧
    (∀ a b : CSEdsc W, a.csdIndex ≠ b.csdIndex →
      (optCSEcostCmpEx GetCostEx a b = true ∧ optCSEcostCmpEx GetCostEx b a = false) ∨
      (optCSEcostCmpEx GetCostEx a b = false ∧ optCSEcostCmpEx GetCostEx b a = true)) ∧
    (∀ a : CSEdsc W, optCSEcostCmpSz GetCostSz a a = false) ∧
    (∀ a b c : CSEdsc W, optCSEcostCmpSz GetCostSz a b = true →
      optCSEcostCmpSz GetCostSz b c = true → optCSEcostCmpSz GetCostSz a c = true) ∧
    (∀ a b : CSEdsc W, a.csdIndex ≠ b.csdIndex →
      (optCSEcostCmpSz GetCostSz a b = true ∧ optCSEcostCmpSz GetCostSz b a = false) ∨
      (optCSEcostCmpSz GetCostSz a b = false ∧ optCSEcostCmpSz GetCostSz b a = true)) ∧
    (∀ (SMALL_CODE : Bool) (l1 l2 : List (CSEdsc W)),
      (l1.map fun d => d.csdIndex).Nodup → List.Perm l1 l2 →
      (l1.Pairwise fun a b =>
        CSE_Heuristic.sortComparator SMALL_CODE GetCostEx GetCostSz b a = false) →
      (l2.Pairwise fun a b =>
        CSE_Heuristic.sortComparator SMALL_CODE GetCostEx GetCostSz b a = false) →
      l1 = l2) := by
  have asymEx : ∀ a b : CSEdsc W, optCSEcostCmpEx GetCostEx a b = true →
      optCSEcostCmpEx GetCostEx b a = false := by
    intro a b h
    cases h2 : optCSEcostCmpEx GetCostEx b a
    · rfl
    · have := cmpEx_trans GetCostEx a b a h h2
      rw [cmpEx_irrefl] at this
      exact absurd this (by simp)
  have asymSz : ∀ a b : CSEdsc W, optCSEcostCmpSz GetCostSz a b = true →
      optCSEcostCmpSz GetCostSz b a = false := by
    intro a b h
    cases h2 : optCSEcostCmpSz GetCostSz b a
    · rfl
    · have := cmpSz_trans GetCostSz a b a h h2
      rw [cmpSz_irrefl] at this
      exact absurd this (by simp)
  refine ⟨cmpEx_irrefl GetCostEx, cmpEx_trans GetCostEx, ?_, cmpSz_irrefl GetCostSz,
    cmpSz_trans GetCostSz, ?_, ?_⟩
  · intro a b hne
    rcases cmpEx_total GetCostEx a b hne with h | h
    · exact Or.inl ⟨h, asymEx a b h⟩
    · exact Or.inr ⟨asymEx b a h, h⟩
  · intro a b hne
    rcases cmpSz_total GetCostSz a b hne with h | h
    · exact Or.inl ⟨h, asymSz a b h⟩
    · exact Or.inr ⟨asymSz b a h, h⟩
  · intro SMALL_CODE l1 l2 hnd hperm h1 h2
    cases SMALL_CODE
    · exact sorted_unique (optCSEcostCmpEx GetCostEx) (cmpEx_irrefl GetCostEx)
        (cmpEx_trans GetCostEx) (cmpEx_total GetCostEx) l1 l2 hnd hperm
        (by simpa [CSE_Heuristic.sortComparator] using h1)
        (by simpa [CSE_Heuristic.sortComparator] using h2)
    · exact sorted_unique (optCSEcostCmpSz GetCostSz) (cmpSz_irrefl GetCostSz)
        (cmpSz_trans GetCostSz) (cmpSz_total GetCostSz) l1 l2 hnd hperm
        (by simpa [CSE_Heuristic.sortComparator] using h1)
        (by simpa [CSE_Heuristic.sortComparator] using h2)

theorem sort_comparators_strict_total_witness :
    exSortDscA.csdIndex ≠ exSortDscB.csdIndex ∧
    ((optCSEcostCmpEx (fun _ => 4) exSortDscA exSortDscB = true ∧
        optCSEcostCmpEx (fun _ => 4) exSortDscB exSortDscA = false) ∨
      (optCSEcostCmpEx (fun _ => 4) exSortDscA exSortDscB = false ∧
        optCSEcostCmpEx (fun _ => 4) exSortDscB exSortDscA = true)) :=
  ⟨by decide,
    (sort_comparators_strict_total (fun _ => 4) (fun _ => 4)).2.2.1 exSortDscA exSortDscB
      (by decide)⟩

/-- C40. In `CSE_Heuristic::PromotionCheck`, with costs in a linearly ordered semiring (exact
numbers): the division `(no_cse_cost * 100) / yes_cse_cost` is executed only when
`yes_cse_cost > no_cse_cost > 0`, so that the divisor is not zero, and its result is what the
call hands to `compStressCompile`; without it the call returns the verdict of the cost
comparison. The subtraction `candidate->Size() - cse_use_cost` is executed only when
`candidate->Size() > cse_use_cost`, so it does not underflow, and `extra_no_cost` is 0 when it
is not executed. -/
theorem promotion_check_guarded_operations [LinearOrderedSemiring W] [Div W]
    (h : PromotionConfig W) (candidate : CSE_Candidate W) :
    (∀ n d, promotionStressDivision h candidate = some (n, d) →
      d ≠ 0 ∧ d = (promotionCosts h candidate).yes_cse_cost ∧
      n = (promotionCosts h candidate).no_cse_cost * ((100 : Nat) : W) ∧
      (promotionCosts h candidate).no_cse_cost < (promotionCosts h candidate).yes_cse_cost ∧
      0 < (promotionCosts h candidate).no_cse_cost ∧
      CSE_Heuristic.PromotionCheck h candidate = h.compStressCompile (h.toInt (n / d))) ∧
    (promotionStressDivision h candidate = none →
      CSE_Heuristic.PromotionCheck h candidate =
        (!(h.DEBUG && h.optConfigDisableCSE2) &&
          decide ((promotionCosts h candidate).yes_cse_cost ≤
            (promotionCosts h candidate).no_cse_cost))) ∧
    (∀ size cost, promotionSizeSubtraction h candidate = some (size, cost) →
      cost < size ∧ size = candidate.Size ∧
      cost = (promotionCosts h candidate).cse_use_cost ∧
      (promotionCosts h candidate).extra_no_cost =
        ((((size - cost) * candidate.CseDsc.csdUseCount) % 2 ^ 32) * 2) % 2 ^ 32) ∧
    (promotionSizeSubtraction h candidate = none →
      (promotionCosts h candidate).extra_no_cost = 0) := by
  refine ⟨?_, ?_, ?_, ?_⟩
  · intro n d hnd
    unfold promotionStressDivision at hnd
    unfold CSE_Heuristic.PromotionCheck
    cases hg : (h.DEBUG && h.optConfigDisableCSE2)
    · simp only [hg, Bool.false_eq_true, if_false] at hnd ⊢
      by_cases hle : (promotionCosts h candidate).yes_cse_cost ≤
          (promotionCosts h candidate).no_cse_cost
      · simp [hle] at hnd
      · by_cases hpos : 0 < (promotionCosts h candidate).no_cse_cost
        · simp only [hle, if_false, hpos, if_true, Option.some.injEq, Prod.mk.injEq] at hnd
          obtain ⟨rfl, rfl⟩ := hnd
          have hlt := not_le.1 hle
          refine ⟨ne_of_gt (lt_trans hpos hlt), rfl, rfl, hlt, hpos, ?_⟩
          rw [if_neg hle, if_pos hpos]
        · simp [hle, hpos] at hnd
    · simp [hg] at hnd
  · intro hnone
    unfold promotionStressDivision at hnone
    unfold CSE_Heuristic.PromotionCheck
    cases hg : (h.DEBUG && h.optConfigDisableCSE2)
    · simp only [hg, Bool.false_eq_true, if_false] at hnone ⊢
      by_cases hle : (promotionCosts h candidate).yes_cse_cost ≤
          (promotionCosts h candidate).no_cse_cost
      · simp [hle]
      · by_cases hpos : 0 < (promotionCosts h candidate).no_cse_cost
        · simp [hle, hpos] at hnone
        · simp [hle, hpos]
    · simp
  · intro size cost hs
    unfold promotionSizeSubtraction at hs
    simp only at hs
    by_cases hlt : (promotionCosts h candidate).cse_use_cost < candidate.Size
    · simp only [hlt, if_true, Option.some.injEq, Prod.mk.injEq] at hs
      obtain ⟨rfl, rfl⟩ := hs
      refine ⟨hlt, rfl, rfl, ?_⟩
      show (promotionCosts h candidate).extra_no_cost = _
      have : (promotionCosts h candidate).extra_no_cost =
          if (promotionCosts h candidate).cse_use_cost < candidate.Size then
            ((((candidate.Size - (promotionCosts h candidate).cse_use_cost) *
              candidate.CseDsc.csdUseCount) % 2 ^ 32) * 2) % 2 ^ 32
          else 0 := rfl
      rw [this, if_pos hlt]
    · simp [hlt] at hs
  · intro hs
    unfold promotionSizeSubtraction at hs
    simp only at hs
    by_cases hlt : (promotionCosts h candidate).cse_use_cost < candidate.Size
    · simp [hlt] at hs
    · have : (promotionCosts h candidate).extra_no_cost =
          if (promotionCosts h candidate).cse_use_cost < candidate.Size then
            ((((candidate.Size - (promotionCosts h candidate).cse_use_cost) *
              candidate.CseDsc.csdUseCount) % 2 ^ 32) * 2) % 2 ^ 32
          else 0 := rfl
      rw [this, if_neg hlt]

theorem promotion_check_guarded_operations_witness :
    promotionStressDivision exPromotionConfig exCandidateCostly = some (100, 11) ∧
    (11 : Nat) ≠ 0 ∧
    promotionSizeSubtraction exPromotionConfig exCandidate = some (4, 2) ∧ 2 < 4 ∧
    (promotionCosts exPromotionConfig exCandidate).extra_no_cost = 12 := by
  have h1 := (promotion_check_guarded_operations exPromotionConfig exCandidateCostly).1 100 11
    (by decide)
  have h2 := (promotion_check_guarded_operations exPromotionConfig exCandidate).2.2.1 4 2
    (by decide)
  exact ⟨by decide, h1.1, by decide, h2.1, by decide⟩

/-! ## The labeler: calls whose tag is cleared, and the `DEBUG` assertion -/

/-- C36. Evaluation of `optValnumCSE_Availability` at a call node whose tag the labeler clears:
after the block `exAbandonBlockA`, the call (node 2) of the block `exAbandonBlockB` abandons
candidate 1 and leaves the labeler without a tag, and immediately after it the
available-across-call bit of candidate 2 (bit 3) is still in `available_cses`; the same call
without a tag leaves only the available bit (bit 2). At the end of the labeler candidate 2 is not
marked live across a call, although the call lies between its def and its use. -/
theorem cleared_call_tag_skips_call_kill :
    getCSEAvailCrossCallBit 2 = 3 ∧
    (∃ c1 bs1, optValnumCSE_Availability exCompiler2 [exAbandonBlockA] = some (c1, bs1) ∧
      (∃ c2 a2 out,
        availabilityTrees 1 { c1 with compCurBB := 2 } (c1.bbCseIn 2)
          [exTree 12 2 6 false, exTree 2 1 2 true] = some (c2, a2, out) ∧
        (out.map fun t => (t.gtTreeID, t.gtCSEnum, t.isCall)) =
          [(12, -2, false), (2, 0, true)] ∧
        a2 = {2, 3}) ∧
      (∃ c2 a2 out,
        availabilityTrees 1 { c1 with compCurBB := 2 } (c1.bbCseIn 2)
          [exTree 12 2 6 false, exTree 2 0 2 true] = some (c2, a2, out) ∧
        (out.map fun t => (t.gtTreeID, t.gtCSEnum, t.isCall)) =
          [(12, -2, false), (2, 0, true)] ∧
        a2 = {2})) ∧
    ((optValnumCSE_Availability exCompiler2 [exAbandonBlockA, exAbandonBlockB]).map fun r =>
      ((optCSEfindDsc r.1 2).map fun d => (d.csdDefCount, d.csdUseCount, d.csdLiveAcrossCall),
        r.2.map fun b => b.nodes.map fun t => (t.gtTreeID, t.gtCSEnum))) =
      some (some (2, 1, false),
        [[(11, -2), (1, -1), (3, 1)], [(12, -2), (2, 0), (13, 2)]]) := by
  refine ⟨by decide, ⟨_, _, rfl, ⟨_, _, _, rfl, by decide, by decide⟩,
    ⟨_, _, _, rfl, by decide, by decide⟩⟩, by decide⟩

/-! ### The invariant of `available_cses` -/

theorem pairClosed_empty : PairClosed (∅ : EXPSET_TP) := by
  intro k _ h
  exact absurd h (Finset.not_mem_empty _)

theorem pairClosed_inter {s t : EXPSET_TP} (hs : PairClosed s) (ht : PairClosed t) :
    PairClosed (s ∩ t) := by
  intro k hk h
  rw [Finset.mem_inter] at h ⊢
  exact ⟨hs k hk h.1, ht k hk h.2⟩

theorem pairClosed_union {s t : EXPSET_TP} (hs : PairClosed s) (ht : PairClosed t) :
    PairClosed (s ∪ t) := by
  intro k hk h
  rw [Finset.mem_union] at h ⊢
  rcases h with h | h
  · exact Or.inl (hs k hk h)
  · exact Or.inr (ht k hk h)

theorem pairClosed_of_no_cross {s : EXPSET_TP}
    (h : ∀ k, 1 ≤ k → getCSEAvailCrossCallBit k ∉ s) : PairClosed s :=
  fun k hk hm => absurd hm (h k hk)

theorem pairClosed_inter_mask (s : EXPSET_TP) (n : Nat) :
    PairClosed (s ∩ initCallKillsMask n) :=
  pairClosed_of_no_cross fun k _ hm => crossBit_not_mem_mask n k (Finset.mem_inter.mp hm).2

theorem pairClosed_insert_avail {s : EXPSET_TP} (hs : PairClosed s) (k : Nat) :
    PairClosed (insert (getCSEAvailBit k) s) := by
  intro j hj h
  rcases Finset.mem_insert.mp h with h1 | h1
  · exact absurd h1.symm (availBit_ne_crossBit _ _)
  · exact Finset.mem_insert_of_mem (hs j hj h1)

theorem pairClosed_insert_both {s : EXPSET_TP} (hs : PairClosed s) (k : Nat) (hk : 1 ≤ k) :
    PairClosed (insert (getCSEAvailCrossCallBit k) (insert (getCSEAvailBit k) s)) := by
  intro j hj h
  rcases Finset.mem_insert.mp h with h1 | h1
  · rw [crossBit_inj j k hj hk h1]
    exact Finset.mem_insert_of_mem (Finset.mem_insert_self _ _)
  · exact Finset.mem_insert_of_mem (pairClosed_insert_avail hs k j hj h1)

theorem callKill_untagged_closed (c : Compiler W) (a : EXPSET_TP) (t : GenTree)
    (hmask : c.cseCallKillsMask = initCallKillsMask c.optCSECandidateCount)
    (ha : PairClosed a) : PairClosed (availabilityCallKill c a t false false) := by
  unfold availabilityCallKill
  simp only [Bool.false_eq_true, if_false, hmask]
  split_ifs
  · exact pairClosed_of_no_cross fun k _ hm =>
      crossBit_not_mem_mask _ k (Finset.mem_inter.mp (Finset.mem_inter.mp hm).1).2
  · exact pairClosed_inter_mask _ _
  · exact ha
  · exact ha

theorem callKill_def_closed (c : Compiler W) (a : EXPSET_TP) (t : GenTree)
    (hmask : c.cseCallKillsMask = initCallKillsMask c.optCSECandidateCount)
    (hasync : t.isAsyncCall = false)
    (hk1 : 1 ≤ GET_CSE_INDEX t.gtCSEnum)
    (hk2 : GET_CSE_INDEX t.gtCSEnum ≤ c.optCSECandidateCount)
    (hav : getCSEAvailBit (GET_CSE_INDEX t.gtCSEnum) ∈ a)
    (ha : PairClosed a) : PairClosed (availabilityCallKill c a t false true) := by
  unfold availabilityCallKill
  simp only [hasync, Bool.false_and, Bool.false_eq_true, if_false, if_true, hmask]
  split_ifs
  · intro j hj h
    rcases Finset.mem_insert.mp h with h1 | h1
    · rw [crossBit_inj j _ hj hk1 h1]
      exact Finset.mem_insert_of_mem
        (Finset.mem_inter.mpr ⟨hav, availBit_mem_mask _ _ hk1 hk2⟩)
    · exact absurd (Finset.mem_inter.mp h1).2 (crossBit_not_mem_mask _ _)
  · exact ha
  · exact ha

theorem visit_bbCseIn [Add W] {stmw : W} {c c1 : Compiler W} {a a1 : EXPSET_TP} {t t1 : GenTree}
    (h : availabilityVisitTree stmw c a t = some (c1, a1, t1)) : c1.bbCseIn = c.bbCseIn := by
  rcases visit_avail stmw c c1 a a1 t t1 h with ⟨_, hc, _⟩ | ⟨_, d0, d1, _, hc, _⟩
  · rw [hc]
  · rw [hc]; rfl

theorem visit_pairClosed [Add W] {stmw : W} {c c1 : Compiler W} {a a1 : EXPSET_TP}
    {t t1 : GenTree} (h : availabilityVisitTree stmw c a t = some (c1, a1, t1))
    (hmask : c.cseCallKillsMask = initCallKillsMask c.optCSECandidateCount)
    (hasync : IS_CSE_INDEX t.gtCSEnum = true → t.isAsyncCall = false)
    (ha : PairClosed a) : PairClosed a1 := by
  rcases visit_avail stmw c c1 a a1 t t1 h with ⟨_, _, _, ha1⟩ | ⟨htag, d0, d1, hd, _, _, hcase⟩
  · rw [ha1]
    exact callKill_untagged_closed c a t hmask ha
  · obtain ⟨hk1, hk2⟩ := findDsc_le hd
    have hidx : IS_CSE_INDEX t.gtCSEnum = true := by
      unfold IS_CSE_INDEX
      simpa using htag
    rcases hcase with ⟨_, ha1⟩ | ⟨_, ht1, ha1⟩ | ⟨_, _, ha1⟩
    · rw [ha1]; exact ha
    · rw [ha1]
      have hi : GET_CSE_INDEX t1.gtCSEnum = GET_CSE_INDEX t.gtCSEnum := by
        rw [ht1]; exact GET_CSE_INDEX_neg _
      have has1 : t1.isAsyncCall = false := by rw [ht1]; exact hasync hidx
      apply callKill_def_closed c _ t1 hmask has1
      · rw [hi]; exact hk1
      · rw [hi]; exact hk2
      · rw [hi]; exact Finset.mem_insert_of_mem (Finset.mem_insert_self _ _)
      · exact pairClosed_insert_both ha _ hk1
    · rw [ha1]; exact ha

theorem defAssert_of_pairClosed {a : EXPSET_TP} (ha : PairClosed a) (t : GenTree) :
    availabilityDefAssert a t = true := by
  unfold availabilityDefAssert
  by_cases hidx : IS_CSE_INDEX t.gtCSEnum = true
  · simp only [hidx, if_true]
    by_cases hav : getCSEAvailBit (GET_CSE_INDEX t.gtCSEnum) ∈ a
    · simp [hav]
    · have hcr : getCSEAvailCrossCallBit (GET_CSE_INDEX t.gtCSEnum) ∉ a :=
        fun hc => hav (ha _ (GET_CSE_INDEX_pos _ hidx) hc)
      simp [hav, hcr]
  · simp [hidx]

theorem trees_pairClosed [Add W] (stmw : W) : ∀ (l : List GenTree) (c : Compiler W)
    (a : EXPSET_TP),
    c.cseCallKillsMask = initCallKillsMask c.optCSECandidateCount →
    (∀ t ∈ l, IS_CSE_INDEX t.gtCSEnum = true → t.isAsyncCall = false) →
    PairClosed a →
    availabilityAssertsTrees stmw c a l = true ∧
    ∀ c1 a1 out, availabilityTrees stmw c a l = some (c1, a1, out) →
      PairClosed a1 ∧ c1.cseCallKillsMask = initCallKillsMask c1.optCSECandidateCount ∧
      c1.bbCseIn = c.bbCseIn := by
  intro l
  induction l with
  | nil =>
    intro c a hmask _ ha
    refine ⟨rfl, ?_⟩
    intro c1 a1 out h
    simp only [availabilityTrees, Option.some.injEq, Prod.mk.injEq] at h
    obtain ⟨rfl, rfl, -⟩ := h
    exact ⟨ha, hmask, rfl⟩
  | cons t rest ih =>
    intro c a hmask hasync ha
    have hrest : ∀ u ∈ rest, IS_CSE_INDEX u.gtCSEnum = true → u.isAsyncCall = false :=
      fun u hu => hasync u (List.mem_cons_of_mem _ hu)
    constructor
    · simp only [availabilityAssertsTrees]
      cases hv : availabilityVisitTree stmw c a t with
      | none => rfl
      | some r =>
        obtain ⟨c1, a1, t1⟩ := r
        simp only [Bool.and_eq_true]
        have hst := visit_static hv
        have hm1 : c1.cseCallKillsMask = initCallKillsMask c1.optCSECandidateCount := by
          rw [hst.1, hst.2.2.2, hmask]
        exact ⟨defAssert_of_pairClosed ha t,
          (ih c1 a1 hm1 hrest
            (visit_pairClosed hv hmask (hasync t (List.mem_cons_self _ _)) ha)).1⟩
    · intro c2 a2 out h
      obtain ⟨c1, a1, t1, out2, hv, hr, -⟩ := trees_cons stmw t rest c c2 a a2 out h
      have hst := visit_static hv
      have hm1 : c1.cseCallKillsMask = initCallKillsMask c1.optCSECandidateCount := by
        rw [hst.1, hst.2.2.2, hmask]
      obtain ⟨h1, h2, h3⟩ := (ih c1 a1 hm1 hrest
        (visit_pairClosed hv hmask (hasync t (List.mem_cons_self _ _)) ha)).2 c2 a2 out2 hr
      exact ⟨h1, h2, h3.trans (visit_bbCseIn hv)⟩

theorem stmts_pairClosed [Add W] (stmw : W) : ∀ (l : List Statement) (c : Compiler W)
    (a : EXPSET_TP),
    c.cseCallKillsMask = initCallKillsMask c.optCSECandidateCount →
    (∀ s ∈ l, ∀ t ∈ s.treeList, IS_CSE_INDEX t.gtCSEnum = true → t.isAsyncCall = false) →
    PairClosed a →
    availabilityAssertsStmts stmw c a l = true ∧
    ∀ c1 a1 out, availabilityStmts stmw c a l = some (c1, a1, out) →
      PairClosed a1 ∧ c1.cseCallKillsMask = initCallKillsMask c1.optCSECandidateCount ∧
      c1.bbCseIn = c.bbCseIn := by
  intro l
  induction l with
  | nil =>
    intro c a hmask _ ha
    refine ⟨rfl, ?_⟩
    intro c1 a1 out h
    simp only [availabilityStmts, Option.some.injEq, Prod.mk.injEq] at h
    obtain ⟨rfl, rfl, -⟩ := h
    exact ⟨ha, hmask, rfl⟩
  | cons s rest ih =>
    intro c a hmask hasync ha
    have hrest : ∀ u ∈ rest, ∀ t ∈ u.treeList, IS_CSE_INDEX t.gtCSEnum = true →
        t.isAsyncCall = false := fun u hu => hasync u (List.mem_cons_of_mem _ hu)
    obtain ⟨hA, hT⟩ := trees_pairClosed stmw s.treeList c a hmask
      (hasync s (List.mem_cons_self _ _)) ha
    constructor
    · simp only [availabilityAssertsStmts, Bool.and_eq_true]
      refine ⟨hA, ?_⟩
      cases hv : availabilityTrees stmw c a s.treeList with
      | none => rfl
      | some r =>
        obtain ⟨c1, a1, ts1⟩ := r
        obtain ⟨h1, h2, -⟩ := hT c1 a1 ts1 hv
        exact (ih c1 a1 h2 hrest h1).1
    · intro c2 a2 out h
      simp only [availabilityStmts] at h
      cases hv : availabilityTrees stmw c a s.treeList with
      | none => simp [hv] at h
      | some r =>
        obtain ⟨c1, a1, ts1⟩ := r
        simp only [hv] at h
        obtain ⟨h1, h2, h3⟩ := hT c1 a1 ts1 hv
        cases hr : availabilityStmts stmw c1 a1 rest with
        | none => simp [hr] at h
        | some r2 =>
          obtain ⟨c3, a3, ss1⟩ := r2
          simp only [hr, Option.some.injEq, Prod.mk.injEq] at h
          obtain ⟨rfl, rfl, -⟩ := h
          obtain ⟨k1, k2, k3⟩ := (ih c1 a1 h2 hrest h1).2 c3 a3 ss1 hr
          exact ⟨k1, k2, k3.trans h3⟩

theorem mem_nodes_of_mem {b : BasicBlock W} {s : Statement} {t : GenTree}
    (hs : s ∈ b.stmts) (ht : t ∈ s.treeList) : t ∈ b.nodes := by
  unfold BasicBlock.nodes
  rw [List.mem_flatMap]
  exact ⟨s, hs, ht⟩

/-- C32. The `DEBUG` assertion of `optValnumCSE_Availability` holds at every node the labeler
reaches: whenever an occurrence of a candidate is classified as a def, the
available-across-call bit of the candidate is not in `available_cses`. This is so for every list
of blocks, in any order, with calls and async calls anywhere, given that `bbCseIn` of every block
holds no available-across-call bit without the available bit, that `cseCallKillsMask` is the
mask `optValnumCSE_InitDataFlow` builds, and that no tagged node is an async call. -/
theorem labeler_def_assert_valid [Add W] (c : Compiler W) (blocks : List (BasicBlock W))
    (hin : ∀ b ∈ blocks, PairClosed (c.bbCseIn b.bbNum))
    (hmask : c.cseCallKillsMask = initCallKillsMask c.optCSECandidateCount)
    (hasync : ∀ b ∈ blocks, ∀ t ∈ b.nodes, IS_CSE_INDEX t.gtCSEnum = true →
      t.isAsyncCall = false) :
    availabilityAssertsBlocks c blocks = true := by
  induction blocks generalizing c with
  | nil => rfl
  | cons b bs ih =>
    have hb : ∀ s ∈ b.stmts, ∀ t ∈ s.treeList, IS_CSE_INDEX t.gtCSEnum = true →
        t.isAsyncCall = false :=
      fun s hs t ht => hasync b (List.mem_cons_self _ _) t (mem_nodes_of_mem hs ht)
    obtain ⟨hA, hT⟩ := stmts_pairClosed b.bbWeight b.stmts { c with compCurBB := b.bbNum }
      (c.bbCseIn b.bbNum) hmask hb (hin b (List.mem_cons_self _ _))
    simp only [availabilityAssertsBlocks, Bool.and_eq_true]
    refine ⟨hA, ?_⟩
    cases hv : availabilityStmts b.bbWeight { c with compCurBB := b.bbNum } (c.bbCseIn b.bbNum)
        b.stmts with
    | none => rfl
    | some r =>
      obtain ⟨c1, a1, ss1⟩ := r
      obtain ⟨-, h2, h3⟩ := hT c1 a1 ss1 hv
      apply ih c1
      · intro b2 hb2
        have : c1.bbCseIn = c.bbCseIn := h3
        rw [this]
        exact hin b2 (List.mem_cons_of_mem _ hb2)
      · exact h2
      · exact fun b2 hb2 => hasync b2 (List.mem_cons_of_mem _ hb2)

theorem labeler_def_assert_valid_witness :
    availabilityAssertsBlocks exCompiler2 [exAbandonBlockA, exAbandonBlockB, s1Use] = true ∧
    (optValnumCSE_Availability exCompiler2 [exAbandonBlockA, exAbandonBlockB, s1Use]).isSome
      = true := by
  refine ⟨labeler_def_assert_valid exCompiler2 [exAbandonBlockA, exAbandonBlockB, s1Use]
    ?_ (by decide) ?_, by decide⟩
  · intro b hb
    simp only [List.mem_cons, List.mem_singleton, List.not_mem_nil, or_false] at hb
    rcases hb with rfl | rfl | rfl
    · exact pairClosed_empty
    · exact pairClosed_empty
    · intro k hk h
      have h2 : getCSEAvailCrossCallBit k ∈ ({0, 1} : Finset Nat) := h
      have h3 : k = 1 := by
        simp only [Finset.mem_insert, Finset.mem_singleton, getCSEAvailCrossCallBit,
          getCSEAvailBit, genCSEnum2bit] at h2
        omega
      subst h3
      show getCSEAvailBit 1 ∈ ({0, 1} : Finset Nat)
      decide
  · intro b hb t ht _
    simp only [List.mem_cons, List.mem_singleton, List.not_mem_nil, or_false] at hb
    rcases hb with rfl | rfl | rfl
    · have : ∀ u ∈ exAbandonBlockA.nodes, u.isAsyncCall = false := by decide
      exact this t ht
    · have : ∀ u ∈ exAbandonBlockB.nodes, u.isAsyncCall = false := by decide
      exact this t ht
    · have : ∀ u ∈ s1Use.nodes, u.isAsyncCall = false := by decide
      exact this t ht

/-! ## The dataflow sets: monotonicity, bit pairs, `bbCseGen`, async kills -/

/-! ### `EndMerge` and `Merge` never add a bit -/

theorem EndMerge_static (df : CSE_DataFlow W) (block : BasicBlock W) :
    (df.EndMerge block).1.m_comp.DataFlowD = df.m_comp.DataFlowD ∧
    (df.EndMerge block).1.m_comp.bbCseGen = df.m_comp.bbCseGen ∧
    (df.EndMerge block).1.m_comp.cseCallKillsMask = df.m_comp.cseCallKillsMask := by
  unfold CSE_DataFlow.EndMerge
  cases block.BBF_NO_CSE_IN <;> cases block.BBF_HAS_CALL <;> simp <;> split_ifs <;> simp

theorem EndMerge_out_subset (df : CSE_DataFlow W) (block : BasicBlock W)
    (hD : ∀ o g i, df.m_comp.DataFlowD o g i ⊆ o) (n : Nat) :
    (df.EndMerge block).1.m_comp.bbCseOut n ⊆ df.m_comp.bbCseOut n := by
  unfold CSE_DataFlow.EndMerge
  by_cases hn : n = block.bbNum
  · subst hn
    cases block.BBF_NO_CSE_IN <;> cases block.BBF_HAS_CALL <;> simp <;>
      (try split_ifs) <;> simp [hD]
  · cases block.BBF_NO_CSE_IN <;> cases block.BBF_HAS_CALL <;> simp <;>
      (try split_ifs) <;> simp [Function.update_noteq hn]

theorem EndMerge_in_subset (df : CSE_DataFlow W) (block : BasicBlock W) (n : Nat) :
    (df.EndMerge block).1.m_comp.bbCseIn n ⊆ df.m_comp.bbCseIn n := by
  unfold CSE_DataFlow.EndMerge
  by_cases hn : n = block.bbNum
  · subst hn
    cases block.BBF_NO_CSE_IN <;> cases block.BBF_HAS_CALL <;> simp <;>
      (try split_ifs) <;> simp [MakeEmpty]
  · cases block.BBF_NO_CSE_IN <;> cases block.BBF_HAS_CALL <;> simp <;>
      (try split_ifs) <;> simp [Function.update_noteq hn]

theorem Merge_in_subset (df : CSE_DataFlow W) (block : BasicBlock W) (predBlock n : Nat) :
    (df.Merge block predBlock).m_comp.bbCseIn n ⊆ df.m_comp.bbCseIn n := by
  unfold CSE_DataFlow.Merge
  by_cases hn : n = block.bbNum
  · subst hn
    simp only [Function.update_same]
    exact Finset.inter_subset_left
  · simp only [Function.update_noteq hn]
    exact Finset.Subset.refl _

theorem step_static (df : CSE_DataFlow W) (s : FlowStep W) :
    (df.step s).m_comp.DataFlowD = df.m_comp.DataFlowD ∧
    (df.step s).m_comp.bbCseGen = df.m_comp.bbCseGen ∧
    (df.step s).m_comp.cseCallKillsMask = df.m_comp.cseCallKillsMask := by
  cases s with
  | StartMerge b => exact ⟨rfl, rfl, rfl⟩
  | Merge b p => exact ⟨rfl, rfl, rfl⟩
  | MergeHandler b => exact ⟨rfl, rfl, rfl⟩
  | EndMerge b => exact EndMerge_static df b

theorem step_out_subset (df : CSE_DataFlow W) (s : FlowStep W)
    (hD : ∀ o g i, df.m_comp.DataFlowD o g i ⊆ o) (n : Nat) :
    (df.step s).m_comp.bbCseOut n ⊆ df.m_comp.bbCseOut n := by
  cases s with
  | StartMerge b => exact Finset.Subset.refl _
  | Merge b p => exact Finset.Subset.refl _
  | MergeHandler b => exact Finset.Subset.refl _
  | EndMerge b => exact EndMerge_out_subset df b hD n

theorem run_cons (df : CSE_DataFlow W) (s : FlowStep W) (rest : List (FlowStep W)) :
    df.run (s :: rest) = (df.step s).run rest := rfl

theorem run_static : ∀ (steps : List (FlowStep W)) (df : CSE_DataFlow W),
    (df.run steps).m_comp.DataFlowD = df.m_comp.DataFlowD ∧
    (df.run steps).m_comp.bbCseGen = df.m_comp.bbCseGen ∧
    (df.run steps).m_comp.cseCallKillsMask = df.m_comp.cseCallKillsMask := by
  intro steps
  induction steps with
  | nil => intro df; exact ⟨rfl, rfl, rfl⟩
  | cons s rest ih =>
    intro df
    rw [run_cons]
    obtain ⟨h1, h2, h3⟩ := ih (df.step s)
    obtain ⟨k1, k2, k3⟩ := step_static df s
    exact ⟨h1.trans k1, h2.trans k2, h3.trans k3⟩

theorem run_out_subset : ∀ (steps : List (FlowStep W)) (df : CSE_DataFlow W),
    (∀ o g i, df.m_comp.DataFlowD o g i ⊆ o) → ∀ n,
    (df.run steps).m_comp.bbCseOut n ⊆ df.m_comp.bbCseOut n := by
  intro steps
  induction steps with
  | nil => intro df _ n; exact Finset.Subset.refl _
  | cons s rest ih =>
    intro df hD n
    rw [run_cons]
    have hD1 : ∀ o g i, (df.step s).m_comp.DataFlowD o g i ⊆ o := by
      intro o g i
      rw [(step_static df s).1]
      exact hD o g i
    exact (ih (df.step s) hD1 n).trans (step_out_subset df s hD n)

theorem outChanges_card : ∀ (steps : List (FlowStep W)) (df : CSE_DataFlow W),
    (∀ o g i, df.m_comp.DataFlowD o g i ⊆ o) → ∀ n,
    outChanges df steps n + ((df.run steps).m_comp.bbCseOut n).card ≤
      (df.m_comp.bbCseOut n).card := by
  intro steps
  induction steps with
  | nil =>
    intro df _ n
    simp [outChanges, CSE_DataFlow.run]
  | cons s rest ih =>
    intro df hD n
    rw [run_cons]
    have hD1 : ∀ o g i, (df.step s).m_comp.DataFlowD o g i ⊆ o := by
      intro o g i
      rw [(step_static df s).1]
      exact hD o g i
    have h1 := ih (df.step s) hD1 n
    have h2 := step_out_subset df s hD n
    simp only [outChanges]
    split_ifs with hne
    · have h3 : (df.step s).m_comp.bbCseOut n ⊂ df.m_comp.bbCseOut n :=
        Finset.ssubset_iff_subset_ne.mpr ⟨h2, hne⟩
      have h4 := Finset.card_lt_card h3
      omega
    · have h4 := Finset.card_le_card h2
      omega

theorem forwardVisit_out_sub (df : CSE_DataFlow W) (block : BasicBlock W)
    (hD : ∀ o g i, df.m_comp.DataFlowD o g i ⊆ o) (n : Nat) :
    (forwardVisit df block).1.m_comp.bbCseOut n ⊆ df.m_comp.bbCseOut n := by
  rw [forwardVisit_comp]
  simp only [Function.update_apply]
  split_ifs with h
  · rw [h]
    exact hD _ _ _
  · exact Finset.Subset.refl _

theorem forwardPass_out_sub : ∀ (l : List (BasicBlock W)) (df : CSE_DataFlow W),
    (∀ o g i, df.m_comp.DataFlowD o g i ⊆ o) →
    (forwardPass df l).1.m_comp.DataFlowD = df.m_comp.DataFlowD ∧
    (∀ n, (forwardPass df l).1.m_comp.bbCseOut n ⊆ df.m_comp.bbCseOut n) ∧
    ((forwardPass df l).2 = true →
      ∃ b ∈ l, (forwardPass df l).1.m_comp.bbCseOut b.bbNum ⊂ df.m_comp.bbCseOut b.bbNum) := by
  intro l
  induction l with
  | nil =>
    intro df _
    exact ⟨rfl, fun _ => Finset.Subset.refl _, fun h => by simp [forwardPass] at h⟩
  | cons b rest ih =>
    intro df hD
    have hst1 := forwardVisit_static df b
    have hD1 : ∀ o g i, (forwardVisit df b).1.m_comp.DataFlowD o g i ⊆ o := by
      intro o g i
      rw [hst1.2.2.2.1]
      exact hD o g i
    obtain ⟨k1, k2, k3⟩ := ih (forwardVisit df b).1 hD1
    have hO1 := forwardVisit_out_sub df b hD
    simp only [forwardPass]
    refine ⟨k1.trans hst1.2.2.2.1, fun n => (k2 n).trans (hO1 n), ?_⟩
    intro hflag
    cases h1 : (forwardVisit df b).2 with
    | true =>
      refine ⟨b, List.mem_cons_self _ _, ?_⟩
      rw [forwardVisit_changed] at h1
      have hne : visitOut df.m_comp b ≠ df.m_comp.bbCseOut b.bbNum := by simpa using h1
      have hv : (forwardVisit df b).1.m_comp.bbCseOut b.bbNum = visitOut df.m_comp b := by
        rw [forwardVisit_comp]
        simp
      have hss : (forwardVisit df b).1.m_comp.bbCseOut b.bbNum ⊂ df.m_comp.bbCseOut b.bbNum :=
        Finset.ssubset_iff_subset_ne.mpr ⟨hO1 b.bbNum, by rw [hv]; exact hne⟩
      exact Finset.ssubset_of_subset_of_ssubset (k2 b.bbNum) hss
    | false =>
      have h2 : (forwardPass (forwardVisit df b).1 rest).2 = true := by
        simpa [h1] using hflag
      obtain ⟨x, hx, hss⟩ := k3 h2
      exact ⟨x, List.mem_cons_of_mem _ hx,
        Finset.ssubset_of_ssubset_of_subset hss (hO1 x.bbNum)⟩

theorem ForwardAnalysis_total (blocks : List (BasicBlock W)) :
    ∀ (n : Nat) (df : CSE_DataFlow W), outMeasure df.m_comp blocks < n →
      (∀ o g i, df.m_comp.DataFlowD o g i ⊆ o) →
      ∃ df1, ForwardAnalysis n df blocks = some df1 := by
  intro n
  induction n with
  | zero => intro df h; omega
  | succ n ih =>
    intro df hlt hD
    simp only [ForwardAnalysis]
    obtain ⟨k1, k2, k3⟩ := forwardPass_out_sub blocks df hD
    split_ifs with hflag
    · obtain ⟨b, hb, hss⟩ := k3 hflag
      have hm : outMeasure (forwardPass df blocks).1.m_comp blocks <
          outMeasure df.m_comp blocks := by
        unfold outMeasure
        exact List.sum_lt_sum _ _ (fun x _ => Finset.card_le_card (k2 x.bbNum))
          ⟨b, hb, Finset.card_lt_card hss⟩
      refine ih (forwardPass df blocks).1 (by omega) ?_
      intro o g i
      rw [k1]
      exact hD o g i
    · exact ⟨_, rfl⟩

/-- C37. With a `DataFlowD` that never adds a bit to its `out` argument: the value of
`bbCseOut` of every block after `CSE_DataFlow::EndMerge` is a subset of the value before it, and
the value of `bbCseIn` after `CSE_DataFlow::Merge` is a subset of the value before it; along any
sequence of callback calls the number of changes of a block's `bbCseOut` is at most the number
of bits it held at the start, hence at most `2N + 1` from a value within the `2N + 1` bits of the
trait; and the forward analysis over any list of blocks returns within as many passes as there
are bits in the `bbCseOut` sets, plus one. -/
theorem dataflow_never_adds_bits (df : CSE_DataFlow W)
    (hD : ∀ o g i, df.m_comp.DataFlowD o g i ⊆ o) :
    (∀ block n, (df.EndMerge block).1.m_comp.bbCseOut n ⊆ df.m_comp.bbCseOut n) ∧
    (∀ block predBlock n,
      (df.Merge block predBlock).m_comp.bbCseIn n ⊆ df.m_comp.bbCseIn n ∧
      (df.Merge block predBlock).m_comp.bbCseOut n = df.m_comp.bbCseOut n) ∧
    (∀ steps n N, df.m_comp.bbCseOut n ⊆ MakeFull (2 * N + 1) →
      outChanges df steps n ≤ 2 * N + 1) ∧
    (∀ blocks, ∃ df1,
      ForwardAnalysis (outMeasure df.m_comp blocks + 1) df blocks = some df1) := by
  refine ⟨fun block n => EndMerge_out_subset df block hD n,
    fun block predBlock n => ⟨Merge_in_subset df block predBlock n, rfl⟩, ?_, ?_⟩
  · intro steps n N hfull
    have h1 := outChanges_card steps df hD n
    have h2 := Finset.card_le_card hfull
    simp only [MakeFull, Finset.card_range] at h2
    omega
  · intro blocks
    exact ForwardAnalysis_total blocks _ df (Nat.lt_succ_self _) hD

theorem dataflow_never_adds_bits_witness :
    (∀ n, ((exFlowStart clampedDataFlowD exFlowLoop).EndMerge
        (exFlowBlock 0 [1] false)).1.m_comp.bbCseOut n ⊆
      (exFlowStart clampedDataFlowD exFlowLoop).m_comp.bbCseOut n) ∧
    outChanges (exFlowStart clampedDataFlowD exFlowLoop)
      [FlowStep.EndMerge (exFlowBlock 0 [1] false), FlowStep.EndMerge (exFlowBlock 1 [0] false)]
      0 ≤ 2 * 1 + 1 ∧
    ∃ df1, ForwardAnalysis
      (outMeasure (exFlowStart clampedDataFlowD exFlowLoop).m_comp exFlowLoop + 1)
      (exFlowStart clampedDataFlowD exFlowLoop) exFlowLoop = some df1 := by
  have h := dataflow_never_adds_bits (exFlowStart clampedDataFlowD exFlowLoop)
    (fun _ _ _ => Finset.inter_subset_left)
  exact ⟨fun n => h.1 (exFlowBlock 0 [1] false) n, h.2.2.1 _ 0 1 (by decide), h.2.2.2 exFlowLoop⟩

/-! ### Positions relative to the last call -/

theorem atOrAfterLastCall_nil (u : GenTree) : ¬ atOrAfterLastCall [] u := by
  rintro ⟨pre, post, h, -⟩
  cases pre <;> simp at h

theorem atOrAfterLastCall_append (l1 l2 : List GenTree) (u : GenTree) :
    atOrAfterLastCall (l1 ++ l2) u ↔
      atOrAfterLastCall l2 u ∨ ((∀ v ∈ l2, v.isCall = false) ∧ atOrAfterLastCall l1 u) := by
  constructor
  · rintro ⟨pre, post, h, hpost⟩
    rcases List.append_eq_append_iff.mp h with ⟨a, ha1, ha2⟩ | ⟨a, ha1, ha2⟩
    · exact Or.inl ⟨a, post, ha2, hpost⟩
    · cases a with
      | nil =>
        simp only [List.nil_append] at ha2
        exact Or.inl ⟨[], post, by simpa using ha2.symm, hpost⟩
      | cons x a2 =>
        simp only [List.cons_append, List.cons.injEq] at ha2
        obtain ⟨rfl, hp⟩ := ha2
        right
        refine ⟨fun v hv => hpost v (by rw [hp]; exact List.mem_append_right _ hv),
          pre, a2, ha1, fun v hv => hpost v (by rw [hp]; exact List.mem_append_left _ hv)⟩
  · rintro (⟨pre, post, h, hpost⟩ | ⟨hno, pre, post, h, hpost⟩)
    · exact ⟨l1 ++ pre, post, by rw [h, List.append_assoc], hpost⟩
    · refine ⟨pre, post ++ l2, by rw [h, List.append_assoc, List.cons_append], ?_⟩
      intro v hv
      rcases List.mem_append.mp hv with h1 | h1
      · exact hpost v h1
      · exact hno v h1

theorem atOrAfterLastCall_singleton (t u : GenTree) : atOrAfterLastCall [t] u ↔ u = t := by
  constructor
  · rintro ⟨pre, post, h, -⟩
    cases pre with
    | nil =>
      simp only [List.nil_append, List.cons.injEq] at h
      exact h.1.symm
    | cons x pre2 =>
      simp only [List.cons_append, List.cons.injEq] at h
      have := h.2
      cases pre2 <;> simp at this
  · rintro rfl
    exact ⟨[], [], rfl, fun v hv => absurd hv (List.not_mem_nil _)⟩

theorem atOrAfterLastCall_mem {l : List GenTree} {u : GenTree} (h : atOrAfterLastCall l u) :
    u ∈ l := by
  obtain ⟨pre, post, h1, -⟩ := h
  rw [h1]
  exact List.mem_append_right _ (List.mem_cons_self _ _)

/-- A node at or after the last call stands at or after every call. -/
theorem atOrAfterLastCall_mem_tail {pre post : List GenTree} {t u : GenTree}
    (ht : t.isCall = true) (h : atOrAfterLastCall (pre ++ t :: post) u) : u ∈ t :: post := by
  obtain ⟨pre2, post2, h1, hpost⟩ := h
  rcases List.append_eq_append_iff.mp h1 with ⟨a, ha1, ha2⟩ | ⟨a, ha1, ha2⟩
  · rw [ha2]
    exact List.mem_append_right _ (List.mem_cons_self _ _)
  · cases a with
    | nil =>
      simp only [List.nil_append, List.cons.injEq] at ha2
      rw [ha2.1]
      exact List.mem_cons_self _ _
    | cons x a2 =>
      simp only [List.cons_append, List.cons.injEq] at ha2
      obtain ⟨-, hp⟩ := ha2
      have := hpost t (by rw [hp]; exact List.mem_append_right _ (List.mem_cons_self _ _))
      rw [ht] at this
      exact absurd this (by simp)

/-! ### The backward scan -/

theorem callGenTrees_spec : ∀ (rev : List GenTree) (g : EXPSET_TP),
    ((callGenTrees g rev).2 = true ↔ ∃ v ∈ rev, v.isCall = true) ∧
    ∀ x, x ∈ (callGenTrees g rev).1 ↔
      x ∈ g ∨ ∃ u, atOrAfterLastCall rev.reverse u ∧ IS_CSE_INDEX u.gtCSEnum = true ∧
        x = getCSEAvailCrossCallBit (GET_CSE_INDEX u.gtCSEnum) := by
  intro rev
  induction rev with
  | nil =>
    intro g
    refine ⟨by simp [callGenTrees], ?_⟩
    intro x
    simp only [callGenTrees, List.reverse_nil]
    constructor
    · exact Or.inl
    · rintro (h | ⟨u, hu, -⟩)
      · exact h
      · exact absurd hu (atOrAfterLastCall_nil u)
  | cons tree prev ih =>
    intro g
    have hgen1 : ∀ x, x ∈ (if IS_CSE_INDEX tree.gtCSEnum then
          insert (getCSEAvailCrossCallBit (GET_CSE_INDEX tree.gtCSEnum)) g else g) ↔
        x ∈ g ∨ (IS_CSE_INDEX tree.gtCSEnum = true ∧
          x = getCSEAvailCrossCallBit (GET_CSE_INDEX tree.gtCSEnum)) := by
      intro x
      by_cases hi : IS_CSE_INDEX tree.gtCSEnum = true
      · simp only [hi, if_true, Finset.mem_insert, true_and]
        tauto
      · simp [hi]
    have hpos : ∀ u, atOrAfterLastCall ((tree :: prev).reverse) u ↔
        u = tree ∨ (tree.isCall = false ∧ atOrAfterLastCall prev.reverse u) := by
      intro u
      rw [List.reverse_cons, atOrAfterLastCall_append, atOrAfterLastCall_singleton]
      simp
    by_cases hc : tree.isCall = true
    · have hval : callGenTrees g (tree :: prev) =
          ((if IS_CSE_INDEX tree.gtCSEnum then
            insert (getCSEAvailCrossCallBit (GET_CSE_INDEX tree.gtCSEnum)) g else g), true) := by
        simp [callGenTrees, hc]
      rw [hval]
      refine ⟨⟨fun _ => ⟨tree, List.mem_cons_self _ _, hc⟩, fun _ => rfl⟩, ?_⟩
      intro x
      rw [hgen1 x]
      constructor
      · rintro (h | ⟨h1, h2⟩)
        · exact Or.inl h
        · exact Or.inr ⟨tree, (hpos tree).mpr (Or.inl rfl), h1, h2⟩
      · rintro (h | ⟨u, hu, h1, h2⟩)
        · exact Or.inl h
        · rcases (hpos u).mp hu with rfl | ⟨hf, -⟩
          · exact Or.inr ⟨h1, h2⟩
          · rw [hc] at hf
            exact absurd hf (by simp)
    · have hcf : tree.isCall = false := by simpa using hc
      have hval : callGenTrees g (tree :: prev) =
          callGenTrees (if IS_CSE_INDEX tree.gtCSEnum then
            insert (getCSEAvailCrossCallBit (GET_CSE_INDEX tree.gtCSEnum)) g else g) prev := by
        simp [callGenTrees, hcf]
      rw [hval]
      obtain ⟨ih1, ih2⟩ := ih (if IS_CSE_INDEX tree.gtCSEnum then
            insert (getCSEAvailCrossCallBit (GET_CSE_INDEX tree.gtCSEnum)) g else g)
      constructor
      · rw [ih1]
        constructor
        · rintro ⟨v, hv, hvc⟩
          exact ⟨v, List.mem_cons_of_mem _ hv, hvc⟩
        · rintro ⟨v, hv, hvc⟩
          rcases List.mem_cons.mp hv with rfl | hv2
          · rw [hcf] at hvc
            exact absurd hvc (by simp)
          · exact ⟨v, hv2, hvc⟩
      · intro x
        rw [ih2 x, hgen1 x]
        constructor
        · rintro ((h | ⟨h1, h2⟩) | ⟨u, hu, h1, h2⟩)
          · exact Or.inl h
          · exact Or.inr ⟨tree, (hpos tree).mpr (Or.inl rfl), h1, h2⟩
          · exact Or.inr ⟨u, (hpos u).mpr (Or.inr ⟨hcf, hu⟩), h1, h2⟩
        · rintro (h | ⟨u, hu, h1, h2⟩)
          · exact Or.inl (Or.inl h)
          · rcases (hpos u).mp hu with rfl | ⟨-, hu2⟩
            · exact Or.inl (Or.inr ⟨h1, h2⟩)
            · exact Or.inr ⟨u, hu2, h1, h2⟩

theorem flatMap_reverse_cons (s : Statement) (prev : List Statement) :
    ((s :: prev).reverse.flatMap fun s => s.treeList) =
      (prev.reverse.flatMap fun s => s.treeList) ++ s.treeList := by
  simp [List.flatMap_append]

theorem callGenStmts_spec : ∀ (stmtsRev : List Statement) (g : EXPSET_TP) (x : Nat),
    x ∈ callGenStmts g stmtsRev ↔
      x ∈ g ∨ ∃ u, atOrAfterLastCall (stmtsRev.reverse.flatMap fun s => s.treeList) u ∧
        IS_CSE_INDEX u.gtCSEnum = true ∧
        x = getCSEAvailCrossCallBit (GET_CSE_INDEX u.gtCSEnum) := by
  intro stmtsRev
  induction stmtsRev with
  | nil =>
    intro g x
    simp only [callGenStmts, List.reverse_nil, List.flatMap_nil]
    constructor
    · exact Or.inl
    · rintro (h | ⟨u, hu, -⟩)
      · exact h
      · exact absurd hu (atOrAfterLastCall_nil u)
  | cons s prev ih =>
    intro g x
    obtain ⟨h1, h2⟩ := callGenTrees_spec s.treeList.reverse g
    rw [List.reverse_reverse] at h2
    rw [flatMap_reverse_cons]
    simp only [callGenStmts]
    by_cases hf : (callGenTrees g s.treeList.reverse).2 = true
    · rw [if_pos hf, h2 x]
      obtain ⟨v, hv, hvc⟩ := h1.mp hf
      have hv2 : v ∈ s.treeList := List.mem_reverse.mp hv
      constructor
      · rintro (h | ⟨u, hu, k1, k2⟩)
        · exact Or.inl h
        · exact Or.inr ⟨u, (atOrAfterLastCall_append _ _ u).mpr (Or.inl hu), k1, k2⟩
      · rintro (h | ⟨u, hu, k1, k2⟩)
        · exact Or.inl h
        · rcases (atOrAfterLastCall_append _ _ u).mp hu with h3 | ⟨hno, -⟩
          · exact Or.inr ⟨u, h3, k1, k2⟩
          · rw [hno v hv2] at hvc
            exact absurd hvc (by simp)
    · rw [if_neg hf, ih, h2 x]
      have hno : ∀ v ∈ s.treeList, v.isCall = false := by
        intro v hv
        by_contra hc
        exact hf (h1.mpr ⟨v, List.mem_reverse.mpr hv, by simpa using hc⟩)
      constructor
      · rintro ((h | ⟨u, hu, k1, k2⟩) | ⟨u, hu, k1, k2⟩)
        · exact Or.inl h
        · exact Or.inr ⟨u, (atOrAfterLastCall_append _ _ u).mpr (Or.inl hu), k1, k2⟩
        · exact Or.inr ⟨u, (atOrAfterLastCall_append _ _ u).mpr (Or.inr ⟨hno, hu⟩), k1, k2⟩
      · rintro (h | ⟨u, hu, k1, k2⟩)
        · exact Or.inl (Or.inl h)
        · rcases (atOrAfterLastCall_append _ _ u).mp hu with h3 | ⟨-, h3⟩
          · exact Or.inl (Or.inr ⟨u, h3, k1, k2⟩)
          · exact Or.inr ⟨u, h3, k1, k2⟩

theorem nodes_eq (b : BasicBlock W) :
    (b.stmts.reverse.reverse.flatMap fun s => s.treeList) = b.nodes := by
  rw [List.reverse_reverse]
  rfl

theorem callGenSet_spec (hasCall : Bool) (b : BasicBlock W) (g : EXPSET_TP) (x : Nat) :
    x ∈ callGenSet hasCall b.stmts g ↔
      x ∈ g ∨ (hasCall = true ∧ g ≠ MakeEmpty ∧ ∃ u, atOrAfterLastCall b.nodes u ∧
        IS_CSE_INDEX u.gtCSEnum = true ∧
        x = getCSEAvailCrossCallBit (GET_CSE_INDEX u.gtCSEnum)) := by
  unfold callGenSet
  cases hasCall with
  | false => simp
  | true =>
    by_cases he : g = MakeEmpty
    · simp [he]
    · simp only [Bool.not_true, Bool.false_eq_true, if_false, he, callGenStmts_spec, nodes_eq,
        ne_eq, not_false_eq_true, true_and]

/-! ### The search for the last async call and the re-add loop -/

theorem findAsyncCallInStmt_spec : ∀ (rev after : List GenTree),
    (findAsyncCallInStmt rev after = none ↔ ∀ v ∈ rev, isAsyncCallNode v = false) ∧
    ∀ tail, findAsyncCallInStmt rev after = some tail →
      ∃ pre t post, rev.reverse = pre ++ t :: post ∧ isAsyncCallNode t = true ∧
        (∀ v ∈ post, isAsyncCallNode v = false) ∧ tail = t :: post ++ after := by
  intro rev
  induction rev with
  | nil =>
    intro after
    simp [findAsyncCallInStmt]
  | cons tree prev ih =>
    intro after
    by_cases ha : isAsyncCallNode tree = true
    · have hval : findAsyncCallInStmt (tree :: prev) after = some (tree :: after) := by
        unfold isAsyncCallNode at ha
        simp [findAsyncCallInStmt, ha]
      rw [hval]
      constructor
      · constructor
        · intro h; exact absurd h (by simp)
        · intro h
          rw [h tree (List.mem_cons_self _ _)] at ha
          exact absurd ha (by simp)
      · intro tail ht
        obtain rfl := Option.some.inj ht
        exact ⟨prev.reverse, tree, [], by simp, ha,
          fun v hv => absurd hv (List.not_mem_nil _), rfl⟩
    · have haf : isAsyncCallNode tree = false := by simpa using ha
      have hval : findAsyncCallInStmt (tree :: prev) after =
          findAsyncCallInStmt prev (tree :: after) := by
        unfold isAsyncCallNode at haf
        simp [findAsyncCallInStmt, haf]
      rw [hval]
      obtain ⟨ih1, ih2⟩ := ih (tree :: after)
      constructor
      · rw [ih1]
        constructor
        · intro h v hv
          rcases List.mem_cons.mp hv with rfl | hv2
          · exact haf
          · exact h v hv2
        · intro h v hv
          exact h v (List.mem_cons_of_mem _ hv)
      · intro tail ht
        obtain ⟨pre, t, post, h1, h2, h3, h4⟩ := ih2 tail ht
        refine ⟨pre, t, post ++ [tree], ?_, h2, ?_, ?_⟩
        · rw [List.reverse_cons, h1]
          simp
        · intro v hv
          rcases List.mem_append.mp hv with h5 | h5
          · exact h3 v h5
          · rw [List.mem_singleton.mp h5]
            exact haf
        · rw [h4]
          simp

theorem findLastAsyncCall_spec (F : Statement → Bool) :
    ∀ (stmtsRev : List Statement) (later : List GenTree),
    (∀ tail, findLastAsyncCall F stmtsRev later = some tail →
      ∃ pre t post, (stmtsRev.reverse.flatMap fun s => s.treeList) = pre ++ t :: post ∧
        isAsyncCallNode t = true ∧ tail = t :: post ++ later ∧
        ((∀ s ∈ stmtsRev, (∃ v ∈ s.treeList, isAsyncCallNode v = true) → F s = true) →
          ∀ v ∈ post, isAsyncCallNode v = false)) ∧
    ((∀ s ∈ stmtsRev, (∃ v ∈ s.treeList, isAsyncCallNode v = true) → F s = true) →
      (∃ s ∈ stmtsRev, ∃ v ∈ s.treeList, isAsyncCallNode v = true) →
      ∃ tail, findLastAsyncCall F stmtsRev later = some tail) := by
  intro stmtsRev
  induction stmtsRev with
  | nil =>
    intro later
    simp [findLastAsyncCall]
  | cons stmt prev ih =>
    intro later
    obtain ⟨a1, a2⟩ := findAsyncCallInStmt_spec stmt.treeList.reverse []
    rw [List.reverse_reverse] at a2
    have hnone : (∃ v ∈ stmt.treeList, isAsyncCallNode v = true) → F stmt = true →
        ∃ tl, findAsyncCallInStmt stmt.treeList.reverse [] = some tl := by
      rintro ⟨v, hv, hva⟩ _
      cases hq : findAsyncCallInStmt stmt.treeList.reverse [] with
      | some tl => exact ⟨tl, rfl⟩
      | none =>
        have := a1.mp hq v (List.mem_reverse.mpr hv)
        rw [this] at hva
        exact absurd hva (by simp)
    cases hin : (if F stmt then findAsyncCallInStmt stmt.treeList.reverse [] else none) with
    | some tl =>
      have hval : findLastAsyncCall F (stmt :: prev) later = some (tl ++ later) := by
        simp only [findLastAsyncCall, hin]
      have hF : F stmt = true := by
        by_contra hne
        simp [hne] at hin
      have hfind : findAsyncCallInStmt stmt.treeList.reverse [] = some tl := by
        simpa [hF] using hin
      obtain ⟨pre, t, post, h1, h2, h3, h4⟩ := a2 tl hfind
      rw [hval, flatMap_reverse_cons]
      constructor
      · intro tail ht
        obtain rfl := Option.some.inj ht
        refine ⟨(prev.reverse.flatMap fun s => s.treeList) ++ pre, t, post, ?_, h2, ?_,
          fun _ => h3⟩
        · rw [h1, List.append_assoc]
        · rw [h4]; simp
      · intro _ _
        exact ⟨_, rfl⟩
    | none =>
      have hval : findLastAsyncCall F (stmt :: prev) later =
          findLastAsyncCall F prev (stmt.treeList ++ later) := by
        simp only [findLastAsyncCall, hin]
      have hstmt : (∃ v ∈ stmt.treeList, isAsyncCallNode v = true) → F stmt = true → False := by
        intro hex hF
        obtain ⟨tl, htl⟩ := hnone hex hF
        simp [hF, htl] at hin
      rw [hval, flatMap_reverse_cons]
      obtain ⟨ih1, ih2⟩ := ih (stmt.treeList ++ later)
      constructor
      · intro tail ht
        obtain ⟨pre, t, post, h1, h2, h3, h4⟩ := ih1 tail ht
        refine ⟨pre, t, post ++ stmt.treeList, ?_, h2, ?_, ?_⟩
        · rw [h1]; simp
        · rw [h3]; simp
        · intro hflags v hv
          rcases List.mem_append.mp hv with h5 | h5
          · exact h4 (fun s hs => hflags s (List.mem_cons_of_mem _ hs)) v h5
          · by_contra hc
            have hva : isAsyncCallNode v = true := by simpa using hc
            exact hstmt ⟨v, h5, hva⟩ (hflags stmt (List.mem_cons_self _ _) ⟨v, h5, hva⟩)
      · intro hflags hex
        apply ih2 (fun s hs => hflags s (List.mem_cons_of_mem _ hs))
        obtain ⟨s, hs, hv⟩ := hex
        rcases List.mem_cons.mp hs with rfl | hs2
        · exact absurd (hflags s (List.mem_cons_self _ _) hv) (fun hF => hstmt hv hF)
        · exact ⟨s, hs2, hv⟩

theorem asyncReAdd_spec : ∀ (l : List GenTree) (s : EXPSET_TP) (x : Nat),
    x ∈ asyncReAdd s l ↔
      x ∈ s ∨ ∃ u ∈ l, IS_CSE_INDEX u.gtCSEnum = true ∧
        x = getCSEAvailBit (GET_CSE_INDEX u.gtCSEnum) := by
  intro l
  induction l with
  | nil =>
    intro s x
    simp [asyncReAdd]
  | cons t rest ih =>
    intro s x
    by_cases hi : IS_CSE_INDEX t.gtCSEnum = true
    · simp only [asyncReAdd, hi, if_true, ih, Finset.mem_insert, List.mem_cons]
      constructor
      · rintro ((h | h) | ⟨u, hu, k1, k2⟩)
        · exact Or.inr ⟨t, Or.inl rfl, hi, h⟩
        · exact Or.inl h
        · exact Or.inr ⟨u, Or.inr hu, k1, k2⟩
      · rintro (h | ⟨u, hu | hu, k1, k2⟩)
        · exact Or.inl (Or.inr h)
        · subst hu
          exact Or.inl (Or.inl k2)
        · exact Or.inr ⟨u, hu, k1, k2⟩
    · simp only [asyncReAdd, hi, Bool.false_eq_true, if_false, ih, List.mem_cons]
      constructor
      · rintro (h | ⟨u, hu, k1, k2⟩)
        · exact Or.inl h
        · exact Or.inr ⟨u, Or.inr hu, k1, k2⟩
      · rintro (h | ⟨u, hu | hu, k1, k2⟩)
        · exact Or.inl h
        · subst hu
          exact absurd k1 hi
        · exact Or.inr ⟨u, hu, k1, k2⟩

theorem pairClosed_asyncReAdd : ∀ (l : List GenTree) (s : EXPSET_TP), PairClosed s →
    PairClosed (asyncReAdd s l) := by
  intro l
  induction l with
  | nil => intro s hs; exact hs
  | cons t rest ih =>
    intro s hs
    simp only [asyncReAdd]
    split_ifs
    · exact ih _ (pairClosed_insert_avail hs _)
    · exact ih _ hs

theorem pairClosed_asyncKillsSet (F : Statement → Bool) (mask : EXPSET_TP)
    (stmts : List Statement) (s : EXPSET_TP) (hm : PairClosed mask) (hs : PairClosed s) :
    PairClosed (asyncKillsSet F mask stmts s) := by
  unfold asyncKillsSet
  split
  · exact hs
  · exact pairClosed_asyncReAdd _ _ (pairClosed_inter hs hm)

/-- The available bit of every tagged node at or after the last call of the block is in the
set the async block loop leaves, when the set held the available bit of every tagged node. -/
theorem asyncKillsSet_keeps_scanned (F : Statement → Bool) (mask : EXPSET_TP)
    (b : BasicBlock W) (s : EXPSET_TP)
    (hs : ∀ u ∈ b.nodes, IS_CSE_INDEX u.gtCSEnum = true →
      getCSEAvailBit (GET_CSE_INDEX u.gtCSEnum) ∈ s)
    (u : GenTree) (hu : atOrAfterLastCall b.nodes u) (hi : IS_CSE_INDEX u.gtCSEnum = true) :
    getCSEAvailBit (GET_CSE_INDEX u.gtCSEnum) ∈ asyncKillsSet F mask b.stmts s := by
  unfold asyncKillsSet
  cases hf : findLastAsyncCall F b.stmts.reverse [] with
  | none => exact hs u (atOrAfterLastCall_mem hu) hi
  | some tail =>
    obtain ⟨pre, t, post, h1, h2, h3, -⟩ := (findLastAsyncCall_spec F b.stmts.reverse []).1 tail hf
    rw [nodes_eq] at h1
    have htc : t.isCall = true := by
      unfold isAsyncCallNode at h2
      simp only [Bool.and_eq_true] at h2
      exact h2.1
    rw [h1] at hu
    have hmem := atOrAfterLastCall_mem_tail htc hu
    show getCSEAvailBit (GET_CSE_INDEX u.gtCSEnum) ∈ asyncReAdd (s ∩ mask) tail
    rw [asyncReAdd_spec]
    exact Or.inr ⟨u, by rw [h3]; simpa using hmem, hi, rfl⟩

/-! ### The block loops of `optValnumCSE_InitDataFlow` as updates of the sets -/

theorem asyncKillsBlock_eq (F : Statement → Bool) (c : Compiler W) (b : BasicBlock W) :
    asyncKillsBlock F c b =
      { c with
        bbCseGen := Function.update c.bbCseGen b.bbNum
          (asyncKillsSet F c.cseAsyncKillsMask b.stmts (c.bbCseGen b.bbNum))
        bbCseOut := Function.update c.bbCseOut b.bbNum
          (asyncKillsSet F c.cseAsyncKillsMask b.stmts (c.bbCseOut b.bbNum)) } := by
  unfold asyncKillsBlock asyncKillsSet
  cases findLastAsyncCall F b.stmts.reverse [] with
  | none => simp only [Function.update_eq_self]
  | some tail => rfl

theorem callGenBlock_eq (c : Compiler W) (b : BasicBlock W) :
    callGenBlock c b =
      { c with
        bbCseGen := Function.update c.bbCseGen b.bbNum
          (callGenSet b.BBF_HAS_CALL b.stmts (c.bbCseGen b.bbNum)) } := by
  unfold callGenBlock callGenSet
  cases b.BBF_HAS_CALL with
  | false => simp only [Bool.not_false, if_true, Function.update_eq_self]
  | true =>
    simp only [Bool.not_true, Bool.false_eq_true, if_false]
    split_ifs
    · simp only [Function.update_eq_self]
    · rfl

theorem asyncKills_fold (F : Statement → Bool) : ∀ (l : List (BasicBlock W)) (c : Compiler W),
    (l.map fun b => b.bbNum).Nodup →
    ∃ g o, l.foldl (asyncKillsBlock F) c = { c with bbCseGen := g, bbCseOut := o } ∧
      (∀ n, n ∉ l.map (fun b => b.bbNum) → g n = c.bbCseGen n ∧ o n = c.bbCseOut n) ∧
      ∀ b ∈ l,
        g b.bbNum = asyncKillsSet F c.cseAsyncKillsMask b.stmts (c.bbCseGen b.bbNum) ∧
        o b.bbNum = asyncKillsSet F c.cseAsyncKillsMask b.stmts (c.bbCseOut b.bbNum) := by
  intro l
  induction l with
  | nil =>
    intro c _
    exact ⟨c.bbCseGen, c.bbCseOut, rfl, fun _ _ => ⟨rfl, rfl⟩,
      fun b hb => absurd hb (List.not_mem_nil _)⟩
  | cons x rest ih =>
    intro c hnd
    rw [List.map_cons, List.nodup_cons] at hnd
    obtain ⟨hx, hnd2⟩ := hnd
    obtain ⟨g, o, h1, h2, h3⟩ := ih (asyncKillsBlock F c x) hnd2
    refine ⟨g, o, ?_, ?_, ?_⟩
    · rw [List.foldl_cons, h1, asyncKillsBlock_eq]
    · intro n hn
      rw [List.map_cons, List.mem_cons, not_or] at hn
      obtain ⟨k1, k2⟩ := h2 n hn.2
      rw [k1, k2, asyncKillsBlock_eq]
      simp only [Function.update_noteq hn.1]
      exact ⟨trivial, trivial⟩
    · intro b hb
      rcases List.mem_cons.mp hb with rfl | hb2
      · obtain ⟨k1, k2⟩ := h2 b.bbNum hx
        rw [k1, k2, asyncKillsBlock_eq]
        simp only [Function.update_same]
        exact ⟨trivial, trivial⟩
      · have hne : b.bbNum ≠ x.bbNum := by
          intro he
          exact hx (List.mem_map.mpr ⟨b, hb2, he⟩)
        obtain ⟨k1, k2⟩ := h3 b hb2
        rw [k1, k2, asyncKillsBlock_eq]
        simp only [Function.update_noteq hne]
        exact ⟨trivial, trivial⟩

theorem callGen_fold : ∀ (l : List (BasicBlock W)) (c : Compiler W),
    (l.map fun b => b.bbNum).Nodup →
    ∃ g, l.foldl callGenBlock c = { c with bbCseGen := g } ∧
      (∀ n, n ∉ l.map (fun b => b.bbNum) → g n = c.bbCseGen n) ∧
      ∀ b ∈ l, g b.bbNum = callGenSet b.BBF_HAS_CALL b.stmts (c.bbCseGen b.bbNum) := by
  intro l
  induction l with
  | nil =>
    intro c _
    exact ⟨c.bbCseGen, rfl, fun _ _ => rfl, fun b hb => absurd hb (List.not_mem_nil _)⟩
  | cons x rest ih =>
    intro c hnd
    rw [List.map_cons, List.nodup_cons] at hnd
    obtain ⟨hx, hnd2⟩ := hnd
    obtain ⟨g, h1, h2, h3⟩ := ih (callGenBlock c x) hnd2
    refine ⟨g, ?_, ?_, ?_⟩
    · rw [List.foldl_cons, h1, callGenBlock_eq]
    · intro n hn
      rw [List.map_cons, List.mem_cons, not_or] at hn
      rw [h2 n hn.2, callGenBlock_eq]
      simp only [Function.update_noteq hn.1]
    · intro b hb
      rcases List.mem_cons.mp hb with rfl | hb2
      · rw [h2 b.bbNum hx, callGenBlock_eq]
        simp only [Function.update_same]
      · have hne : b.bbNum ≠ x.bbNum := by
          intro he
          exact hx (List.mem_map.mpr ⟨b, hb2, he⟩)
        rw [h3 b hb2, callGenBlock_eq]
        simp only [Function.update_noteq hne]

/-! ### The gen bits of the occurrences -/

theorem initGenOcc_fold (blocks : List (BasicBlock W)) (K : Nat) :
    ∀ (occs : List treeStmtLst) (c : Compiler W),
    ∃ g, occs.foldl (initGenOccurrence blocks K) c = { c with bbCseGen := g } ∧
      ∀ n x, x ∈ g n ↔ x ∈ c.bbCseGen n ∨
        ((∃ occ ∈ occs, occ.tslBlock = n) ∧
          (x = getCSEAvailBit K ∨
            (blockHasCall blocks n = false ∧ x = getCSEAvailCrossCallBit K))) := by
  intro occs
  induction occs with
  | nil =>
    intro c
    exact ⟨c.bbCseGen, rfl, fun n x => by simp⟩
  | cons occ rest ih =>
    intro c
    obtain ⟨g, h1, h2⟩ := ih (initGenOccurrence blocks K c occ)
    refine ⟨g, ?_, ?_⟩
    · rw [List.foldl_cons, h1]
      rfl
    · intro n x
      rw [h2 n x]
      have hstep : x ∈ (initGenOccurrence blocks K c occ).bbCseGen n ↔
          x ∈ c.bbCseGen n ∨ (occ.tslBlock = n ∧ (x = getCSEAvailBit K ∨
            (blockHasCall blocks n = false ∧ x = getCSEAvailCrossCallBit K))) := by
        unfold initGenOccurrence
        by_cases hn : n = occ.tslBlock
        · subst hn
          simp only [Function.update_same, true_and]
          cases hc : blockHasCall blocks occ.tslBlock
          · simp only [Bool.not_false, if_true, Finset.mem_insert, true_and]
            tauto
          · simp only [Bool.not_true, Bool.false_eq_true, if_false, Finset.mem_insert,
              false_and, or_false]
            tauto
        · simp only [Function.update_noteq hn]
          have : ¬ occ.tslBlock = n := fun h => hn h.symm
          simp [this]
      rw [hstep]
      simp only [List.mem_cons, exists_eq_or_imp]
      tauto

theorem initGenLoop_spec (blocks : List (BasicBlock W)) :
    ∀ (l : List Nat) (c : Compiler W),
    (∀ inx ∈ l, ∃ dsc, (c.optCSEtab.get? inx).join = some dsc) →
    ∃ g, initGenLoop blocks l c = some { c with bbCseGen := g } ∧
      ∀ n x, x ∈ g n ↔ x ∈ c.bbCseGen n ∨
        ∃ inx ∈ l, ∃ dsc, (c.optCSEtab.get? inx).join = some dsc ∧
          (∃ occ ∈ dsc.occurrences, occ.tslBlock = n) ∧
          (x = getCSEAvailBit dsc.csdIndex ∨
            (blockHasCall blocks n = false ∧ x = getCSEAvailCrossCallBit dsc.csdIndex)) := by
  intro l
  induction l with
  | nil =>
    intro c _
    exact ⟨c.bbCseGen, rfl, fun n x => by simp⟩
  | cons inx rest ih =>
    intro c hsl
    obtain ⟨dsc, hd⟩ := hsl inx (List.mem_cons_self _ _)
    obtain ⟨g1, k1, k2⟩ := initGenOcc_fold blocks dsc.csdIndex dsc.occurrences c
    have hsl2 : ∀ i ∈ rest, ∃ d,
        (({ c with bbCseGen := g1 } : Compiler W).optCSEtab.get? i).join = some d :=
      fun i hi => hsl i (List.mem_cons_of_mem _ hi)
    obtain ⟨g, h1, h2⟩ := ih { c with bbCseGen := g1 } hsl2
    refine ⟨g, ?_, ?_⟩
    · simp only [initGenLoop, hd, k1]
      exact h1
    · intro n x
      rw [h2 n x]
      show (x ∈ g1 n ∨ _) ↔ _
      rw [k2 n x]
      constructor
      · rintro ((h | ⟨ho, hx⟩) | ⟨i, hi, d, hdd, ho, hx⟩)
        · exact Or.inl h
        · exact Or.inr ⟨inx, List.mem_cons_self _ _, dsc, hd, ho, hx⟩
        · exact Or.inr ⟨i, List.mem_cons_of_mem _ hi, d, hdd, ho, hx⟩
      · rintro (h | ⟨i, hi, d, hdd, ho, hx⟩)
        · exact Or.inl (Or.inl h)
        · rcases List.mem_cons.mp hi with rfl | hi2
          · rw [hd] at hdd
            obtain rfl := Option.some.inj hdd
            exact Or.inl (Or.inr ⟨ho, hx⟩)
          · exact Or.inr ⟨i, hi2, d, hdd, ho, hx⟩

theorem initInOut_eq (c : Compiler W) (blocks : List (BasicBlock W)) :
    ∃ i o g, initDataFlowInOut c blocks =
        { c with cseLivenessTraits := c.optCSECandidateCount * 2 + 1
                 cseCallKillsMask := initCallKillsMask c.optCSECandidateCount
                 bbCseIn := i, bbCseOut := o, bbCseGen := g } ∧
      ∀ b ∈ blocks, g b.bbNum = MakeEmpty ∧
        o b.bbNum = MakeFull (c.optCSECandidateCount * 2 + 1) ∧
        (i b.bbNum = MakeEmpty ∨ i b.bbNum = MakeFull (c.optCSECandidateCount * 2 + 1)) := by
  unfold initDataFlowInOut
  induction blocks using List.reverseRecOn with
  | nil =>
    exact ⟨c.bbCseIn, c.bbCseOut, c.bbCseGen, rfl, fun b hb => absurd hb (List.not_mem_nil _)⟩
  | append_singleton l x ih =>
    obtain ⟨i, o, g, h1, h2⟩ := ih
    rw [List.foldl_append, List.foldl_cons, List.foldl_nil]
    simp only at h1 ⊢
    rw [h1]
    refine ⟨_, _, _, rfl, ?_⟩
    intro b hb
    by_cases hn : b.bbNum = x.bbNum
    · rw [hn]
      simp only [Function.update_same, true_and]
      split_ifs
      · exact Or.inl rfl
      · exact Or.inr rfl
    · simp only [Function.update_noteq hn]
      rcases List.mem_append.mp hb with hb1 | hb1
      · exact h2 b hb1
      · rw [List.mem_singleton.mp hb1] at hn
        exact absurd rfl hn

/-! ### The async mask -/

theorem asyncKillsLoop_mem (TYP_BYREF TYP_STRUCT : Nat) (layoutHasGCByRef : GenTree → Bool)
    (tab : List (Option (CSEdsc W))) : ∀ (l : List Nat) (m : EXPSET_TP),
    (∀ inx ∈ l, ∃ d, (tab.get? (inx - 1)).join = some d) →
    ∃ m1, asyncKillsLoop TYP_BYREF TYP_STRUCT layoutHasGCByRef tab l m = some m1 ∧
      ∀ x, x ∈ m1 ↔ x ∈ m ∧ ∀ inx ∈ l, ∀ d, (tab.get? (inx - 1)).join = some d →
        isByRefCSE TYP_BYREF TYP_STRUCT layoutHasGCByRef d.csdTreeList.tslTree = true →
        x ≠ getCSEAvailBit inx ∧ x ≠ getCSEAvailCrossCallBit inx := by
  intro l
  induction l with
  | nil =>
    intro m _
    exact ⟨m, rfl, fun x => by simp⟩
  | cons inx rest ih =>
    intro m hsl
    obtain ⟨d, hd⟩ := hsl inx (List.mem_cons_self _ _)
    have hsl2 : ∀ i ∈ rest, ∃ d, (tab.get? (i - 1)).join = some d :=
      fun i hi => hsl i (List.mem_cons_of_mem _ hi)
    by_cases hb : isByRefCSE TYP_BYREF TYP_STRUCT layoutHasGCByRef d.csdTreeList.tslTree = true
    · obtain ⟨m1, h1, h2⟩ := ih ((m.erase (getCSEAvailBit inx)).erase
        (getCSEAvailCrossCallBit inx)) hsl2
      refine ⟨m1, ?_, ?_⟩
      · simp only [asyncKillsLoop, hd, hb, if_true]
        exact h1
      · intro x
        rw [h2 x]
        simp only [Finset.mem_erase, List.mem_cons, forall_eq_or_imp]
        constructor
        · rintro ⟨⟨k1, k2, k3⟩, k4⟩
          refine ⟨k3, ?_, k4⟩
          intro d2 hd2 _
          exact ⟨k2, k1⟩
        · rintro ⟨k1, k2, k3⟩
          obtain ⟨k4, k5⟩ := k2 d hd hb
          exact ⟨⟨k5, k4, k1⟩, k3⟩
    · obtain ⟨m1, h1, h2⟩ := ih m hsl2
      refine ⟨m1, ?_, ?_⟩
      · simp only [asyncKillsLoop, hd, hb, Bool.false_eq_true, if_false]
        exact h1
      · intro x
        rw [h2 x]
        simp only [List.mem_cons, forall_eq_or_imp]
        constructor
        · rintro ⟨k1, k2⟩
          refine ⟨k1, ?_, k2⟩
          intro d2 hd2 hb2
          rw [hd] at hd2
          obtain rfl := Option.some.inj hd2
          exact absurd hb2 hb
        · rintro ⟨k1, -, k3⟩
          exact ⟨k1, k3⟩

theorem pairClosed_full (n : Nat) : PairClosed (MakeFull n) := by
  intro k _ h
  simp only [MakeFull, Finset.mem_range, getCSEAvailCrossCallBit] at h ⊢
  omega

theorem avail_eq_of_cross_eq {j k : Nat}
    (h : getCSEAvailCrossCallBit j = getCSEAvailCrossCallBit k) :
    getCSEAvailBit j = getCSEAvailBit k := by
  unfold getCSEAvailCrossCallBit at h
  omega

theorem asyncKillsMask_closed (TYP_BYREF TYP_STRUCT : Nat) (layoutHasGCByRef : GenTree → Bool)
    (c : Compiler W)
    (hsl : ∀ inx, inx < c.optCSECandidateCount → ∃ d, (c.optCSEtab.get? inx).join = some d) :
    ∃ mask, asyncKillsMask TYP_BYREF TYP_STRUCT layoutHasGCByRef c = some mask ∧
      PairClosed mask := by
  unfold asyncKillsMask
  have hsl2 : ∀ inx ∈ List.range' 1 c.optCSECandidateCount,
      ∃ d, (c.optCSEtab.get? (inx - 1)).join = some d := by
    intro inx hi
    rw [List.mem_range'_1] at hi
    exact hsl (inx - 1) (by omega)
  obtain ⟨m1, h1, h2⟩ := asyncKillsLoop_mem TYP_BYREF TYP_STRUCT layoutHasGCByRef c.optCSEtab
    (List.range' 1 c.optCSECandidateCount) (MakeFull c.cseLivenessTraits) hsl2
  refine ⟨m1, h1, ?_⟩
  intro j hj hm
  obtain ⟨k1, k2⟩ := (h2 _).mp hm
  refine (h2 _).mpr ⟨pairClosed_full _ j hj k1, ?_⟩
  intro inx hi d hd hb
  obtain ⟨-, k4⟩ := k2 inx hi d hd hb
  refine ⟨?_, availBit_ne_crossBit _ _⟩
  intro he
  rw [List.mem_range'_1] at hi
  exact k4 (by rw [availBit_inj j inx hj hi.1 he])

/-! ### The async kill in `bbCseGen` and `bbCseOut` -/

theorem mem_nodes_iff (b : BasicBlock W) (v : GenTree) :
    v ∈ b.nodes ↔ ∃ s ∈ b.stmts, v ∈ s.treeList := by
  unfold BasicBlock.nodes
  rw [List.mem_flatMap]

theorem findDsc_slot {c : Compiler W} {k : Nat} {d : CSEdsc W}
    (h : optCSEfindDsc c k = some d) : (c.optCSEtab.get? (k - 1)).join = some d := by
  unfold optCSEfindDsc at h
  split_ifs at h
  exact h

/-- The last async call of a list of nodes is at one place only. -/
theorem lastAsyncCall_unique {pre0 post0 : List GenTree} {t0 : GenTree}
    (ht0 : isAsyncCallNode t0 = true) (hpost0 : ∀ v ∈ post0, isAsyncCallNode v = false)
    {u : GenTree} (hu : atOrAfterLastAsyncCall (pre0 ++ t0 :: post0) u) : u ∈ t0 :: post0 := by
  obtain ⟨pre, t, post, h, ht, hpost, hmem⟩ := hu
  rcases List.append_eq_append_iff.mp h with ⟨a, ha1, ha2⟩ | ⟨a, ha1, ha2⟩
  · cases a with
    | nil =>
      simp only [List.nil_append] at ha2
      rw [ha2]
      exact hmem
    | cons x a2 =>
      simp only [List.cons_append, List.cons.injEq] at ha2
      obtain ⟨-, hp⟩ := ha2
      have := hpost0 t (by rw [hp]; exact List.mem_append_right _ (List.mem_cons_self _ _))
      rw [ht] at this
      exact absurd this (by simp)
  · cases a with
    | nil =>
      simp only [List.nil_append] at ha2
      rw [← ha2]
      exact hmem
    | cons x a2 =>
      simp only [List.cons_append, List.cons.injEq] at ha2
      obtain ⟨-, hp⟩ := ha2
      have := hpost t0 (by rw [hp]; exact List.mem_append_right _ (List.mem_cons_self _ _))
      rw [ht0] at this
      exact absurd this (by simp)

/-- C33. In `optValnumCSE_SetUpAsyncByrefKills`, for a block that contains an async call (the
root of every statement with an async call carrying `GTF_CALL`) and a by-ref candidate `k` none
of whose tagged occurrences stands at or after the last async call of the block: the available
bit of `k` is in neither `bbCseGen` nor `bbCseOut` of the block when the function returns, and,
with a `DataFlowD` that never adds a bit to its `out` argument, it is not in `bbCseOut` of the
block after any sequence of dataflow callbacks from a state with that `bbCseOut`, whatever
`bbCseIn` and `bbCseGen` are. -/
theorem async_kill_removes_byref_candidate (TYP_BYREF TYP_STRUCT : Nat)
    (layoutHasGCByRef : GenTree → Bool) (GTF_CALL_root : Statement → Bool)
    (c c1 : Compiler W) (blocks : List (BasicBlock W)) (b : BasicBlock W) (k : Nat)
    (dsc : CSEdsc W)
    (hrun : optValnumCSE_SetUpAsyncByrefKills TYP_BYREF TYP_STRUCT layoutHasGCByRef
      GTF_CALL_root c blocks = some c1)
    (hnodup : (blocks.map fun b => b.bbNum).Nodup) (hb : b ∈ blocks)
    (hflags : ∀ s ∈ b.stmts, (∃ v ∈ s.treeList, isAsyncCallNode v = true) →
      GTF_CALL_root s = true)
    (hasync : ∃ v ∈ b.nodes, isAsyncCallNode v = true)
    (hk : optCSEfindDsc c k = some dsc)
    (hbyref : isByRefCSE TYP_BYREF TYP_STRUCT layoutHasGCByRef dsc.csdTreeList.tslTree = true)
    (hno : ∀ u, atOrAfterLastAsyncCall b.nodes u → ¬ taggedWith k u) :
    getCSEAvailBit k ∉ c1.bbCseGen b.bbNum ∧ getCSEAvailBit k ∉ c1.bbCseOut b.bbNum ∧
    ∀ (df : CSE_DataFlow W), df.m_comp.bbCseOut b.bbNum ⊆ c1.bbCseOut b.bbNum →
      (∀ o g i, df.m_comp.DataFlowD o g i ⊆ o) →
      ∀ steps, getCSEAvailBit k ∉ (df.run steps).m_comp.bbCseOut b.bbNum := by
  obtain ⟨hk1, hk2⟩ := findDsc_le hk
  have hd := findDsc_slot hk
  have hmemk : k ∈ List.range' 1 c.optCSECandidateCount := by
    rw [List.mem_range'_1]; omega
  unfold optValnumCSE_SetUpAsyncByrefKills at hrun
  cases hm : asyncKillsMask TYP_BYREF TYP_STRUCT layoutHasGCByRef c with
  | none => simp [hm] at hrun
  | some mask =>
    have hany : anyAsyncKills TYP_BYREF TYP_STRUCT layoutHasGCByRef c = true := by
      unfold anyAsyncKills
      rw [List.any_eq_true]
      exact ⟨k, hmemk, by simp only [hd, hbyref]⟩
    simp only [hm, hany, if_true, Option.some.injEq] at hrun
    obtain ⟨-, hbits⟩ := asyncKillsLoop_spec TYP_BYREF TYP_STRUCT layoutHasGCByRef c.optCSEtab
      _ _ _ hm
    obtain ⟨hb1, -⟩ := hbits k hmemk dsc hd hbyref
    obtain ⟨g, o, h1, -, h3⟩ := asyncKills_fold GTF_CALL_root blocks
      { c with cseAsyncKillsMask := mask } hnodup
    obtain ⟨hg, ho⟩ := h3 b hb
    have hflags2 : ∀ s ∈ b.stmts.reverse, (∃ v ∈ s.treeList, isAsyncCallNode v = true) →
        GTF_CALL_root s = true := fun s hs => hflags s (List.mem_reverse.mp hs)
    have hex : ∃ s ∈ b.stmts.reverse, ∃ v ∈ s.treeList, isAsyncCallNode v = true := by
      obtain ⟨v, hv, hva⟩ := hasync
      obtain ⟨s, hs, hvs⟩ := (mem_nodes_iff b v).mp hv
      exact ⟨s, List.mem_reverse.mpr hs, v, hvs, hva⟩
    obtain ⟨tail, htail⟩ := (findLastAsyncCall_spec GTF_CALL_root b.stmts.reverse []).2
      hflags2 hex
    obtain ⟨pre, t, post, k1, k2, k3, k4⟩ :=
      (findLastAsyncCall_spec GTF_CALL_root b.stmts.reverse []).1 tail htail
    rw [nodes_eq] at k1
    have hset : ∀ s : EXPSET_TP,
        getCSEAvailBit k ∉ asyncKillsSet GTF_CALL_root mask b.stmts s := by
      intro s hmem
      unfold asyncKillsSet at hmem
      rw [htail] at hmem
      simp only at hmem
      rcases (asyncReAdd_spec tail (s ∩ mask) _).mp hmem with h5 | ⟨u, hu, hi, he⟩
      · exact hb1 (Finset.mem_inter.mp h5).2
      · have hidx : GET_CSE_INDEX u.gtCSEnum = k :=
          (availBit_inj _ _ hk1 (GET_CSE_INDEX_pos _ hi) he).symm
        have hut : u ∈ t :: post := by
          rw [k3] at hu
          simpa using hu
        exact hno u ⟨pre, t, post, k1, k2, k4 hflags2, hut⟩ ⟨hi, hidx⟩
    have hgen : getCSEAvailBit k ∉ c1.bbCseGen b.bbNum := by
      rw [← hrun, h1]
      show getCSEAvailBit k ∉ g b.bbNum
      rw [hg]
      exact hset _
    have hout : getCSEAvailBit k ∉ c1.bbCseOut b.bbNum := by
      rw [← hrun, h1]
      show getCSEAvailBit k ∉ o b.bbNum
      rw [ho]
      exact hset _
    refine ⟨hgen, hout, ?_⟩
    intro df hsub hD steps hmem
    exact hout (hsub (run_out_subset steps df hD b.bbNum hmem))

theorem async_kill_removes_byref_candidate_witness :
    ∃ c1, optValnumCSE_SetUpAsyncByrefKills 7 99 (fun _ => false) exCallRoot exGenAsyncStart
        exGenBlocks = some c1 ∧
      getCSEAvailBit 1 ∈ exGenAsyncStart.bbCseGen 4 ∧
      (getCSEAvailBit 1 ∉ c1.bbCseGen 4 ∧ getCSEAvailBit 1 ∉ c1.bbCseOut 4 ∧
        ∀ (df : CSE_DataFlow Nat), df.m_comp.bbCseOut 4 ⊆ c1.bbCseOut 4 →
          (∀ o g i, df.m_comp.DataFlowD o g i ⊆ o) →
          ∀ steps, getCSEAvailBit 1 ∉ (df.run steps).m_comp.bbCseOut 4) := by
  refine ⟨_, rfl, by decide, ?_⟩
  have hdec : exGenBlockAsync.nodes =
      [exByRefTree 41 1] ++ exAsyncCall 42 :: [exTree 43 3 8 false] := by decide
  refine async_kill_removes_byref_candidate 7 99 (fun _ => false) exCallRoot exGenAsyncStart _
    exGenBlocks exGenBlockAsync 1 _ (by rfl) (by decide)
    (by unfold exGenBlocks exGenBlockAsync; simp) (by decide) (by decide)
    (by rfl) (by decide) ?_
  intro u hu
  rw [hdec] at hu
  have hmem := lastAsyncCall_unique (by decide) (by decide) hu
  have hall : ∀ v ∈ [exAsyncCall 42, exTree 43 3 8 false], ¬ taggedWith 1 v := by
    intro v hv
    simp only [List.mem_cons, List.mem_singleton, List.not_mem_nil, or_false] at hv
    rcases hv with rfl | rfl
    · rintro ⟨h1, -⟩
      exact absurd h1 (by decide)
    · rintro ⟨-, h2⟩
      exact absurd h2 (by decide)
  exact hall u hmem

/-! ### The state `optValnumCSE_InitDataFlow` leaves -/

theorem asyncStage_spec (TYP_BYREF TYP_STRUCT : Nat) (layoutHasGCByRef : GenTree → Bool)
    (F : Statement → Bool) (c2 : Compiler W) (blocks : List (BasicBlock W))
    (hnodup : (blocks.map fun b => b.bbNum).Nodup)
    (hsl : ∀ inx, inx < c2.optCSECandidateCount → ∃ d, (c2.optCSEtab.get? inx).join = some d) :
    ∃ m g3 o3,
      (if c2.compIsAsync then
          optValnumCSE_SetUpAsyncByrefKills TYP_BYREF TYP_STRUCT layoutHasGCByRef F c2 blocks
        else some c2) =
        some { c2 with cseAsyncKillsMask := m, bbCseGen := g3, bbCseOut := o3 } ∧
      ∀ b ∈ blocks,
        (c2.compIsAsync = true ∧ ∃ mask, PairClosed mask ∧
          g3 b.bbNum = asyncKillsSet F mask b.stmts (c2.bbCseGen b.bbNum) ∧
          o3 b.bbNum = asyncKillsSet F mask b.stmts (c2.bbCseOut b.bbNum)) ∨
        (g3 b.bbNum = c2.bbCseGen b.bbNum ∧ o3 b.bbNum = c2.bbCseOut b.bbNum) := by
  by_cases ha : c2.compIsAsync = true
  · obtain ⟨mask, hm, hclosed⟩ := asyncKillsMask_closed TYP_BYREF TYP_STRUCT layoutHasGCByRef
      c2 hsl
    rw [if_pos ha]
    unfold optValnumCSE_SetUpAsyncByrefKills
    rw [hm]
    by_cases hany : anyAsyncKills TYP_BYREF TYP_STRUCT layoutHasGCByRef c2 = true
    · obtain ⟨g, o, h1, -, h3⟩ := asyncKills_fold F blocks
        { c2 with cseAsyncKillsMask := mask } hnodup
      refine ⟨mask, g, o, ?_, ?_⟩
      · show (if anyAsyncKills TYP_BYREF TYP_STRUCT layoutHasGCByRef c2 = true then _
          else _) = _
        rw [if_pos hany, h1]
      · intro b hb
        obtain ⟨k1, k2⟩ := h3 b hb
        exact Or.inl ⟨ha, mask, hclosed, k1, k2⟩
    · refine ⟨mask, c2.bbCseGen, c2.bbCseOut, ?_, fun b _ => Or.inr ⟨rfl, rfl⟩⟩
      show (if anyAsyncKills TYP_BYREF TYP_STRUCT layoutHasGCByRef c2 = true then _
        else _) = _
      rw [if_neg hany]
  · rw [if_neg ha]
    exact ⟨c2.cseAsyncKillsMask, c2.bbCseGen, c2.bbCseOut, rfl, fun b _ => Or.inr ⟨rfl, rfl⟩⟩

theorem initDataFlow_structure (TYP_BYREF TYP_STRUCT : Nat) (layoutHasGCByRef : GenTree → Bool)
    (F : Statement → Bool) (c : Compiler W) (blocks : List (BasicBlock W))
    (hnodup : (blocks.map fun b => b.bbNum).Nodup)
    (hsl : ∀ inx, inx < c.optCSECandidateCount → ∃ d, (c.optCSEtab.get? inx).join = some d) :
    ∃ (c4 : Compiler W) (g2 g3 : Nat → EXPSET_TP),
      optValnumCSE_InitDataFlow TYP_BYREF TYP_STRUCT layoutHasGCByRef F c blocks = some c4 ∧
      c4.cseCallKillsMask = initCallKillsMask c.optCSECandidateCount ∧
      c4.DataFlowD = c.DataFlowD ∧
      ∀ b ∈ blocks,
        (∀ x, x ∈ g2 b.bbNum ↔
          ∃ inx ∈ List.range c.optCSECandidateCount, ∃ dsc,
            (c.optCSEtab.get? inx).join = some dsc ∧
            (∃ occ ∈ dsc.occurrences, occ.tslBlock = b.bbNum) ∧
            (x = getCSEAvailBit dsc.csdIndex ∨
              (blockHasCall blocks b.bbNum = false ∧
                x = getCSEAvailCrossCallBit dsc.csdIndex))) ∧
        c4.bbCseGen b.bbNum = callGenSet b.BBF_HAS_CALL b.stmts (g3 b.bbNum) ∧
        (c4.bbCseIn b.bbNum = MakeEmpty ∨
          c4.bbCseIn b.bbNum = MakeFull (c.optCSECandidateCount * 2 + 1)) ∧
        ((c.compIsAsync = true ∧ ∃ mask, PairClosed mask ∧
            g3 b.bbNum = asyncKillsSet F mask b.stmts (g2 b.bbNum) ∧
            c4.bbCseOut b.bbNum =
              asyncKillsSet F mask b.stmts (MakeFull (c.optCSECandidateCount * 2 + 1))) ∨
          (g3 b.bbNum = g2 b.bbNum ∧
            c4.bbCseOut b.bbNum = MakeFull (c.optCSECandidateCount * 2 + 1))) := by
  obtain ⟨i, o, g0, e1, v1⟩ := initInOut_eq c blocks
  obtain ⟨g2, e2, v2⟩ := initGenLoop_spec blocks (List.range c.optCSECandidateCount)
    { c with cseLivenessTraits := c.optCSECandidateCount * 2 + 1
             cseCallKillsMask := initCallKillsMask c.optCSECandidateCount
             bbCseIn := i, bbCseOut := o, bbCseGen := g0 }
    (fun inx hi => hsl inx (List.mem_range.mp hi))
  obtain ⟨m, g3, o3, e3, v3⟩ := asyncStage_spec TYP_BYREF TYP_STRUCT layoutHasGCByRef F
    { c with cseLivenessTraits := c.optCSECandidateCount * 2 + 1
             cseCallKillsMask := initCallKillsMask c.optCSECandidateCount
             bbCseIn := i, bbCseOut := o, bbCseGen := g2 } blocks hnodup hsl
  obtain ⟨g4, e4, -, v4⟩ := callGen_fold blocks
    { c with cseLivenessTraits := c.optCSECandidateCount * 2 + 1
             cseCallKillsMask := initCallKillsMask c.optCSECandidateCount
             cseAsyncKillsMask := m
             bbCseIn := i, bbCseOut := o3, bbCseGen := g3 } hnodup
  refine ⟨{ c with cseLivenessTraits := c.optCSECandidateCount * 2 + 1
                   cseCallKillsMask := initCallKillsMask c.optCSECandidateCount
                   cseAsyncKillsMask := m
                   bbCseIn := i, bbCseOut := o3, bbCseGen := g4 }, g2, g3, ?_, ?_, ?_, ?_⟩
  · unfold optValnumCSE_InitDataFlow
    simp only []
    rw [e1]
    simp only []
    rw [e2]
    simp only []
    rw [e3]
    simp only []
    rw [e4]
  · rfl
  · rfl
  · intro b hb
    obtain ⟨w1, w2, w3⟩ := v1 b hb
    refine ⟨?_, v4 b hb, w3, ?_⟩
    · intro x
      rw [v2 b.bbNum x]
      show (x ∈ g0 b.bbNum ∨ _) ↔ _
      rw [w1]
      simp [MakeEmpty]
    · rcases v3 b hb with ⟨k1, mask, k2, k3, k4⟩ | ⟨k3, k4⟩
      · refine Or.inl ⟨k1, mask, k2, k3, ?_⟩
        show o3 b.bbNum = _
        rw [k4]
        show asyncKillsSet F mask b.stmts (o b.bbNum) = _
        rw [w2]
      · refine Or.inr ⟨k3, ?_⟩
        show o3 b.bbNum = _
        rw [k4]
        exact w2

theorem blockHasCall_eq (blocks : List (BasicBlock W))
    (hnodup : (blocks.map fun b => b.bbNum).Nodup) (b : BasicBlock W) (hb : b ∈ blocks) :
    blockHasCall blocks b.bbNum = b.BBF_HAS_CALL := by
  unfold blockHasCall
  induction blocks with
  | nil => exact absurd hb (List.not_mem_nil _)
  | cons x rest ih =>
    rw [List.map_cons, List.nodup_cons] at hnodup
    obtain ⟨hx, hnd2⟩ := hnodup
    rw [List.any_cons]
    rcases List.mem_cons.mp hb with rfl | hb2
    · have hrest : (rest.any fun y => decide (y.bbNum = b.bbNum) && y.BBF_HAS_CALL) = false := by
        rw [List.any_eq_false]
        intro y hy
        have hne : y.bbNum ≠ b.bbNum := fun he => hx (List.mem_map.mpr ⟨y, hy, he⟩)
        simp [hne]
      simp [hrest]
    · have hne : x.bbNum ≠ b.bbNum := fun he => hx (List.mem_map.mpr ⟨b, hb2, he.symm⟩)
      simp only [hne, decide_False, Bool.false_and, Bool.false_or]
      exact ih hnd2 hb2

theorem findDsc_of_slot {c : Compiler W} {inx : Nat} {d : CSEdsc W}
    (hi : inx < c.optCSECandidateCount) (h : (c.optCSEtab.get? inx).join = some d) :
    optCSEfindDsc c (inx + 1) = some d := by
  unfold optCSEfindDsc
  have h1 : ¬ c.optCSECandidateCount < inx + 1 := by omega
  simp only [Nat.add_one_ne_zero, if_false, h1, Nat.add_sub_cancel]
  exact h

theorem gen_occurrences (c : Compiler W) (blocks : List (BasicBlock W))
    (hnodup : (blocks.map fun b => b.bbNum).Nodup) (hdense : TableDense c)
    (b : BasicBlock W) (hb : b ∈ blocks) (s : EXPSET_TP)
    (hs : ∀ x, x ∈ s ↔
      ∃ inx ∈ List.range c.optCSECandidateCount, ∃ dsc,
        (c.optCSEtab.get? inx).join = some dsc ∧
        (∃ occ ∈ dsc.occurrences, occ.tslBlock = b.bbNum) ∧
        (x = getCSEAvailBit dsc.csdIndex ∨
          (blockHasCall blocks b.bbNum = false ∧ x = getCSEAvailCrossCallBit dsc.csdIndex)))
    (k : Nat) (hk : 1 ≤ k) :
    (getCSEAvailBit k ∈ s ↔ hasOccurrenceIn c k b.bbNum) ∧
    (getCSEAvailCrossCallBit k ∈ s ↔ b.BBF_HAS_CALL = false ∧ hasOccurrenceIn c k b.bbNum) := by
  rw [blockHasCall_eq blocks hnodup b hb] at hs
  have hback : hasOccurrenceIn c k b.bbNum →
      ∃ inx ∈ List.range c.optCSECandidateCount, ∃ dsc,
        (c.optCSEtab.get? inx).join = some dsc ∧
        (∃ occ ∈ dsc.occurrences, occ.tslBlock = b.bbNum) ∧ dsc.csdIndex = k := by
    rintro ⟨dsc, hd, hocc⟩
    obtain ⟨-, hk2⟩ := findDsc_le hd
    have hslot := findDsc_slot hd
    obtain ⟨d2, hd2, hidx⟩ := hdense (k - 1) (by omega)
    rw [hslot] at hd2
    obtain rfl := Option.some.inj hd2
    exact ⟨k - 1, List.mem_range.mpr (by omega), dsc, hslot, hocc, by omega⟩
  have hfwd : ∀ inx ∈ List.range c.optCSECandidateCount, ∀ dsc,
      (c.optCSEtab.get? inx).join = some dsc →
      (∃ occ ∈ dsc.occurrences, occ.tslBlock = b.bbNum) →
      1 ≤ dsc.csdIndex ∧ hasOccurrenceIn c dsc.csdIndex b.bbNum := by
    intro inx hi dsc hd hocc
    have hi2 := List.mem_range.mp hi
    obtain ⟨d2, hd2, hidx⟩ := hdense inx hi2
    rw [hd] at hd2
    obtain rfl := Option.some.inj hd2
    refine ⟨by omega, dsc, ?_, hocc⟩
    rw [hidx]
    exact findDsc_of_slot hi2 hd
  constructor
  · rw [hs]
    constructor
    · rintro ⟨inx, hi, dsc, hd, hocc, he | ⟨-, he⟩⟩
      · obtain ⟨h1, h2⟩ := hfwd inx hi dsc hd hocc
        rw [availBit_inj k _ hk h1 he]
        exact h2
      · exact absurd he (availBit_ne_crossBit _ _)
    · intro h
      obtain ⟨inx, hi, dsc, hd, hocc, hidx⟩ := hback h
      exact ⟨inx, hi, dsc, hd, hocc, Or.inl (by rw [hidx])⟩
  · rw [hs]
    constructor
    · rintro ⟨inx, hi, dsc, hd, hocc, he | ⟨hc, he⟩⟩
      · exact absurd he.symm (availBit_ne_crossBit _ _)
      · obtain ⟨h1, h2⟩ := hfwd inx hi dsc hd hocc
        rw [crossBit_inj k _ hk h1 he]
        exact ⟨hc, h2⟩
    · rintro ⟨hc, h⟩
      obtain ⟨inx, hi, dsc, hd, hocc, hidx⟩ := hback h
      exact ⟨inx, hi, dsc, hd, hocc, Or.inr ⟨hc, by rw [hidx]⟩⟩

/-! ### Bit pairs in the dataflow sets -/

theorem TableDense_of_check (c : Compiler W) (h : tableDenseB c = true) : TableDense c := by
  intro inx hi
  unfold tableDenseB at h
  have h1 := List.all_eq_true.mp h inx (List.mem_range.mpr hi)
  cases hd : (c.optCSEtab.get? inx).join with
  | none =>
    rw [hd] at h1
    exact absurd h1 (by simp)
  | some d =>
    rw [hd] at h1
    exact ⟨d, rfl, by simpa using h1⟩

theorem TagsListed_of_check (c : Compiler W) (b : BasicBlock W) (h : tagsListedB c b = true) :
    TagsListed c b := by
  intro t ht hi
  unfold tagsListedB at h
  have h1 := List.all_eq_true.mp h t ht
  simp only [hi, Bool.not_true, Bool.false_or] at h1
  cases hd : optCSEfindDsc c (GET_CSE_INDEX t.gtCSEnum) with
  | none =>
    rw [hd] at h1
    exact absurd h1 (by simp)
  | some d =>
    rw [hd] at h1
    simp only [List.any_eq_true, decide_eq_true_eq] at h1
    exact ⟨d, hd, h1⟩

theorem pairClosed_DataFlowD {D : EXPSET_TP → EXPSET_TP → EXPSET_TP → EXPSET_TP}
    (hD : ∀ o g i, D o g i = o ∩ (g ∪ i) ∨ D o g i = g ∪ i) {o g i : EXPSET_TP}
    (ho : PairClosed o) (hg : PairClosed g) (hi : PairClosed i) : PairClosed (D o g i) := by
  rcases hD o g i with h | h
  · rw [h]; exact pairClosed_inter ho (pairClosed_union hg hi)
  · rw [h]; exact pairClosed_union hg hi

theorem EndMerge_values (df : CSE_DataFlow W) (b : BasicBlock W) :
    ∃ X Y, (X = MakeEmpty ∨ X = df.m_comp.bbCseIn b.bbNum) ∧
      (Y = X ∨ Y = X ∩ df.m_comp.cseCallKillsMask) ∧
      (df.EndMerge b).1.m_comp =
        { df.m_comp with
          bbCseIn := Function.update df.m_comp.bbCseIn b.bbNum X
          bbCseOut := Function.update df.m_comp.bbCseOut b.bbNum
            (df.m_comp.DataFlowD (df.m_comp.bbCseOut b.bbNum) (df.m_comp.bbCseGen b.bbNum) Y) } := by
  unfold CSE_DataFlow.EndMerge
  cases hn : b.BBF_NO_CSE_IN with
  | true =>
    by_cases hc : (!b.BBF_HAS_CALL ||
        decide (Function.update df.m_comp.bbCseIn b.bbNum MakeEmpty b.bbNum = MakeEmpty)) = true
    · refine ⟨MakeEmpty, MakeEmpty, Or.inl rfl, Or.inl rfl, ?_⟩
      simp only [if_true]
      rw [if_pos hc]
      simp only [Function.update_same]
    · exact absurd (by simp) hc
  | false =>
    by_cases hc : (!b.BBF_HAS_CALL || decide (df.m_comp.bbCseIn b.bbNum = MakeEmpty)) = true
    · refine ⟨df.m_comp.bbCseIn b.bbNum, df.m_comp.bbCseIn b.bbNum, Or.inr rfl, Or.inl rfl, ?_⟩
      simp only [Bool.false_eq_true, if_false]
      rw [if_pos hc]
      simp only [Function.update_eq_self]
    · refine ⟨df.m_comp.bbCseIn b.bbNum,
        df.m_comp.bbCseIn b.bbNum ∩ df.m_comp.cseCallKillsMask, Or.inr rfl, Or.inr rfl, ?_⟩
      simp only [Bool.false_eq_true, if_false]
      rw [if_neg hc]
      simp only [Function.update_eq_self]

theorem step_pairClosed (df : CSE_DataFlow W) (s : FlowStep W) (S : Nat → Prop)
    (hS : ∀ n ∈ s.nums, S n)
    (hinv : ∀ n, S n → PairClosed (df.m_comp.bbCseGen n) ∧ PairClosed (df.m_comp.bbCseIn n) ∧
      PairClosed (df.m_comp.bbCseOut n))
    (hmask : PairClosed df.m_comp.cseCallKillsMask)
    (hD : ∀ o g i, df.m_comp.DataFlowD o g i = o ∩ (g ∪ i) ∨ df.m_comp.DataFlowD o g i = g ∪ i) :
    ∀ n, S n → PairClosed ((df.step s).m_comp.bbCseGen n) ∧
      PairClosed ((df.step s).m_comp.bbCseIn n) ∧ PairClosed ((df.step s).m_comp.bbCseOut n) := by
  intro n hn
  obtain ⟨h1, h2, h3⟩ := hinv n hn
  cases s with
  | StartMerge b => exact ⟨h1, h2, h3⟩
  | MergeHandler b => exact ⟨h1, h2, h3⟩
  | Merge b p =>
    refine ⟨h1, ?_, h3⟩
    show PairClosed ((df.Merge b p).m_comp.bbCseIn n)
    unfold CSE_DataFlow.Merge
    by_cases he : n = b.bbNum
    · subst he
      simp only [Function.update_same]
      exact pairClosed_inter h2 (hinv p (hS p (by simp [FlowStep.nums]))).2.2
    · simp only [Function.update_noteq he]
      exact h2
  | EndMerge b =>
    obtain ⟨X, Y, hX, hY, he⟩ := EndMerge_values df b
    obtain ⟨b1, b2, b3⟩ := hinv b.bbNum (hS b.bbNum (by simp [FlowStep.nums]))
    have hXc : PairClosed X := by
      rcases hX with rfl | rfl
      · exact pairClosed_empty
      · exact b2
    have hYc : PairClosed Y := by
      rcases hY with rfl | rfl
      · exact hXc
      · exact pairClosed_inter hXc hmask
    show PairClosed ((df.EndMerge b).1.m_comp.bbCseGen n) ∧
      PairClosed ((df.EndMerge b).1.m_comp.bbCseIn n) ∧
      PairClosed ((df.EndMerge b).1.m_comp.bbCseOut n)
    rw [he]
    refine ⟨h1, ?_, ?_⟩
    · show PairClosed (Function.update df.m_comp.bbCseIn b.bbNum X n)
      by_cases hnb : n = b.bbNum
      · subst hnb
        rw [Function.update_same]
        exact hXc
      · rw [Function.update_noteq hnb]
        exact h2
    · show PairClosed (Function.update df.m_comp.bbCseOut b.bbNum _ n)
      by_cases hnb : n = b.bbNum
      · subst hnb
        rw [Function.update_same]
        exact pairClosed_DataFlowD hD b3 b1 hYc
      · rw [Function.update_noteq hnb]
        exact h3

theorem run_pairClosed (S : Nat → Prop) : ∀ (steps : List (FlowStep W)) (df : CSE_DataFlow W),
    (∀ s ∈ steps, ∀ n ∈ s.nums, S n) →
    (∀ n, S n → PairClosed (df.m_comp.bbCseGen n) ∧ PairClosed (df.m_comp.bbCseIn n) ∧
      PairClosed (df.m_comp.bbCseOut n)) →
    PairClosed df.m_comp.cseCallKillsMask →
    (∀ o g i, df.m_comp.DataFlowD o g i = o ∩ (g ∪ i) ∨ df.m_comp.DataFlowD o g i = g ∪ i) →
    ∀ n, S n → PairClosed ((df.run steps).m_comp.bbCseGen n) ∧
      PairClosed ((df.run steps).m_comp.bbCseIn n) ∧
      PairClosed ((df.run steps).m_comp.bbCseOut n) := by
  intro steps
  induction steps with
  | nil => intro df _ hinv _ _ n hn; exact hinv n hn
  | cons s rest ih =>
    intro df hS hinv hmask hD
    rw [run_cons]
    obtain ⟨k1, -, k3⟩ := step_static df s
    apply ih (df.step s) (fun t ht => hS t (List.mem_cons_of_mem _ ht))
      (step_pairClosed df s S (hS s (List.mem_cons_self _ _)) hinv hmask hD)
    · rw [k3]; exact hmask
    · intro o g i
      rw [k1]
      exact hD o g i

theorem initDataFlow_closed (TYP_BYREF TYP_STRUCT : Nat) (layoutHasGCByRef : GenTree → Bool)
    (F : Statement → Bool) (c : Compiler W) (blocks : List (BasicBlock W))
    (hnodup : (blocks.map fun b => b.bbNum).Nodup) (hdense : TableDense c)
    (hlisted : ∀ b ∈ blocks, TagsListed c b) :
    ∃ c1, optValnumCSE_InitDataFlow TYP_BYREF TYP_STRUCT layoutHasGCByRef F c blocks = some c1 ∧
      c1.cseCallKillsMask = initCallKillsMask c.optCSECandidateCount ∧
      c1.DataFlowD = c.DataFlowD ∧
      ∀ b ∈ blocks, PairClosed (c1.bbCseGen b.bbNum) ∧ PairClosed (c1.bbCseIn b.bbNum) ∧
        PairClosed (c1.bbCseOut b.bbNum) := by
  have hsl : ∀ inx, inx < c.optCSECandidateCount →
      ∃ d, (c.optCSEtab.get? inx).join = some d := by
    intro inx hi
    obtain ⟨d, hd, -⟩ := hdense inx hi
    exact ⟨d, hd⟩
  obtain ⟨c4, g2, g3, hrun, hmask, hDF, hblocks⟩ :=
    initDataFlow_structure TYP_BYREF TYP_STRUCT layoutHasGCByRef F c blocks hnodup hsl
  refine ⟨c4, hrun, hmask, hDF, ?_⟩
  intro b hb
  obtain ⟨v1, v2, v3, v4⟩ := hblocks b hb
  have hg2 := gen_occurrences c blocks hnodup hdense b hb (g2 b.bbNum) v1
  have hg2c : PairClosed (g2 b.bbNum) :=
    fun k hk h => (hg2 k hk).1.mpr ((hg2 k hk).2.mp h).2
  have htag : ∀ u ∈ b.nodes, IS_CSE_INDEX u.gtCSEnum = true →
      getCSEAvailBit (GET_CSE_INDEX u.gtCSEnum) ∈ g2 b.bbNum :=
    fun u hu hi => (hg2 _ (GET_CSE_INDEX_pos _ hi)).1.mpr (hlisted b hb u hu hi)
  have hg3 : PairClosed (g3 b.bbNum) ∧
      ∀ u, atOrAfterLastCall b.nodes u → IS_CSE_INDEX u.gtCSEnum = true →
        getCSEAvailBit (GET_CSE_INDEX u.gtCSEnum) ∈ g3 b.bbNum := by
    rcases v4 with ⟨-, mask, hm, hg, -⟩ | ⟨hg, -⟩
    · rw [hg]
      exact ⟨pairClosed_asyncKillsSet F mask b.stmts _ hm hg2c,
        fun u hu hi => asyncKillsSet_keeps_scanned F mask b _ htag u hu hi⟩
    · rw [hg]
      exact ⟨hg2c, fun u hu hi => htag u (atOrAfterLastCall_mem hu) hi⟩
  refine ⟨?_, ?_, ?_⟩
  · rw [v2]
    intro j hj h
    rw [callGenSet_spec] at h ⊢
    rcases h with h | ⟨-, -, u, hu, hi, he⟩
    · exact Or.inl (hg3.1 j hj h)
    · left
      rw [avail_eq_of_cross_eq he]
      exact hg3.2 u hu hi
  · rcases v3 with h | h
    · rw [h]; exact pairClosed_empty
    · rw [h]; exact pairClosed_full _
  · rcases v4 with ⟨-, mask, hm, -, ho⟩ | ⟨-, ho⟩
    · rw [ho]
      exact pairClosed_asyncKillsSet F mask b.stmts _ hm (pairClosed_full _)
    · rw [ho]; exact pairClosed_full _

/-- C35. After `optValnumCSE_InitDataFlow` (which returns, for blocks with pairwise distinct
numbers, a dense candidate table and tagged nodes listed as occurrences of their candidate), in
an async procedure or not, and after every later `StartMerge`, `Merge`, `MergeHandler` and
`EndMerge` call on blocks and predecessors of the list, with a `DataFlowD` that yields
`out ∩ (gen ∪ in)` or `gen ∪ in`: in `bbCseGen`, `bbCseIn` and `bbCseOut` of every block the
available-across-call bit of a candidate is present only together with its available bit. -/
theorem no_illegal_bit_pair (TYP_BYREF TYP_STRUCT : Nat) (layoutHasGCByRef : GenTree → Bool)
    (GTF_CALL_root : Statement → Bool) (c : Compiler W) (blocks : List (BasicBlock W))
    (hnodup : (blocks.map fun b => b.bbNum).Nodup) (hdense : TableDense c)
    (hlisted : ∀ b ∈ blocks, TagsListed c b) :
    ∃ c1, optValnumCSE_InitDataFlow TYP_BYREF TYP_STRUCT layoutHasGCByRef GTF_CALL_root c
        blocks = some c1 ∧
      (∀ b ∈ blocks, PairClosed (c1.bbCseGen b.bbNum) ∧ PairClosed (c1.bbCseIn b.bbNum) ∧
        PairClosed (c1.bbCseOut b.bbNum)) ∧
      ∀ (pm : EXPSET_TP) (steps : List (FlowStep W)),
        (∀ o g i, c1.DataFlowD o g i = o ∩ (g ∪ i) ∨ c1.DataFlowD o g i = g ∪ i) →
        (∀ s ∈ steps, ∀ n ∈ s.nums, n ∈ blocks.map fun b => b.bbNum) →
        ∀ b ∈ blocks,
          PairClosed (((CSE_DataFlow.mk c1 pm).run steps).m_comp.bbCseGen b.bbNum) ∧
          PairClosed (((CSE_DataFlow.mk c1 pm).run steps).m_comp.bbCseIn b.bbNum) ∧
          PairClosed (((CSE_DataFlow.mk c1 pm).run steps).m_comp.bbCseOut b.bbNum) := by
  obtain ⟨c1, hrun, hmask, -, hcl⟩ := initDataFlow_closed TYP_BYREF TYP_STRUCT layoutHasGCByRef
    GTF_CALL_root c blocks hnodup hdense hlisted
  refine ⟨c1, hrun, hcl, ?_⟩
  intro pm steps hD hsteps b hb
  apply run_pairClosed (fun n => n ∈ blocks.map fun b => b.bbNum) steps (CSE_DataFlow.mk c1 pm)
    hsteps ?_ ?_ hD b.bbNum (List.mem_map.mpr ⟨b, hb, rfl⟩)
  · intro n hn
    obtain ⟨b2, hb2, rfl⟩ := List.mem_map.mp hn
    exact hcl b2 hb2
  · show PairClosed c1.cseCallKillsMask
    rw [hmask]
    exact pairClosed_of_no_cross fun k _ hm => crossBit_not_mem_mask _ k hm

theorem exGen_listed (c : Compiler Nat) (h : (exGenBlocks.all fun b => tagsListedB c b) = true) :
    ∀ b ∈ exGenBlocks, TagsListed c b :=
  fun b hb => TagsListed_of_check c b (List.all_eq_true.mp h b hb)

theorem no_illegal_bit_pair_witness :
    ∃ c1, optValnumCSE_InitDataFlow 7 99 (fun _ => false) exCallRoot exGenCompilerAsync
        exGenBlocks = some c1 ∧
      (∀ b ∈ exGenBlocks, PairClosed (c1.bbCseGen b.bbNum) ∧ PairClosed (c1.bbCseIn b.bbNum) ∧
        PairClosed (c1.bbCseOut b.bbNum)) ∧
      ∀ (pm : EXPSET_TP) (steps : List (FlowStep Nat)),
        (∀ o g i, c1.DataFlowD o g i = o ∩ (g ∪ i) ∨ c1.DataFlowD o g i = g ∪ i) →
        (∀ s ∈ steps, ∀ n ∈ s.nums, n ∈ exGenBlocks.map fun b => b.bbNum) →
        ∀ b ∈ exGenBlocks,
          PairClosed (((CSE_DataFlow.mk c1 pm).run steps).m_comp.bbCseGen b.bbNum) ∧
          PairClosed (((CSE_DataFlow.mk c1 pm).run steps).m_comp.bbCseIn b.bbNum) ∧
          PairClosed (((CSE_DataFlow.mk c1 pm).run steps).m_comp.bbCseOut b.bbNum) :=
  no_illegal_bit_pair 7 99 (fun _ => false) exCallRoot exGenCompilerAsync exGenBlocks
    (by decide) (TableDense_of_check _ (by decide)) (exGen_listed _ (by decide))

/-! ### The bits of `bbCseGen` in a procedure that is not async -/

theorem afterLastCall_not_call {l : List GenTree} {u : GenTree} (h : afterLastCall l u) :
    u ∈ l ∧ u.isCall = false := by
  obtain ⟨pre, post, h1, h2⟩ := h
  refine ⟨?_, h2 u (List.mem_cons_self _ _)⟩
  rw [h1]
  exact List.mem_append_right _ (List.mem_cons_self _ _)

/-- C31, with "at or after the last call" for "after the last call". After
`optValnumCSE_InitDataFlow` in a procedure that is not async (the function returns, for blocks
with pairwise distinct numbers, a dense candidate table and tagged nodes listed as occurrences
of their candidate), for every block `b` and candidate `k`: the available bit of `k` is in
`bbCseGen(b)` iff `k` has an occurrence in `b`; if `b` lacks `BBF_HAS_CALL`, the
available-across-call bit of `k` is in `bbCseGen(b)` iff `k` has an occurrence in `b`; and if
`b` has `BBF_HAS_CALL`, the available-across-call bit of `k` is in `bbCseGen(b)` iff some node
tagged with `k` stands at or after the last call of `b` in execution order (the last call
itself included). -/
theorem initDataFlow_gen_bits (TYP_BYREF TYP_STRUCT : Nat) (layoutHasGCByRef : GenTree → Bool)
    (GTF_CALL_root : Statement → Bool) (c : Compiler W) (blocks : List (BasicBlock W))
    (hasync : c.compIsAsync = false)
    (hnodup : (blocks.map fun b => b.bbNum).Nodup) (hdense : TableDense c)
    (hlisted : ∀ b ∈ blocks, TagsListed c b) :
    ∃ c1, optValnumCSE_InitDataFlow TYP_BYREF TYP_STRUCT layoutHasGCByRef GTF_CALL_root c
        blocks = some c1 ∧
      ∀ b ∈ blocks, ∀ k, 1 ≤ k →
        (getCSEAvailBit k ∈ c1.bbCseGen b.bbNum ↔ hasOccurrenceIn c k b.bbNum) ∧
        (b.BBF_HAS_CALL = false →
          (getCSEAvailCrossCallBit k ∈ c1.bbCseGen b.bbNum ↔ hasOccurrenceIn c k b.bbNum)) ∧
        (b.BBF_HAS_CALL = true →
          (getCSEAvailCrossCallBit k ∈ c1.bbCseGen b.bbNum ↔
            ∃ t, atOrAfterLastCall b.nodes t ∧ taggedWith k t)) := by
  have hsl : ∀ inx, inx < c.optCSECandidateCount →
      ∃ d, (c.optCSEtab.get? inx).join = some d := by
    intro inx hi
    obtain ⟨d, hd, -⟩ := hdense inx hi
    exact ⟨d, hd⟩
  obtain ⟨c4, g2, g3, hrun, -, -, hblocks⟩ :=
    initDataFlow_structure TYP_BYREF TYP_STRUCT layoutHasGCByRef GTF_CALL_root c blocks hnodup
      hsl
  refine ⟨c4, hrun, ?_⟩
  intro b hb k hk
  obtain ⟨v1, v2, -, v4⟩ := hblocks b hb
  have hg2 := gen_occurrences c blocks hnodup hdense b hb (g2 b.bbNum) v1
  have hg3 : g3 b.bbNum = g2 b.bbNum := by
    rcases v4 with ⟨ha, -⟩ | ⟨hg, -⟩
    · rw [hasync] at ha
      exact absurd ha (by simp)
    · exact hg
  rw [v2, hg3]
  refine ⟨?_, ?_, ?_⟩
  · rw [callGenSet_spec, (hg2 k hk).1]
    constructor
    · rintro (h | ⟨-, -, u, -, -, he⟩)
      · exact h
      · exact absurd he (availBit_ne_crossBit _ _)
    · exact Or.inl
  · intro hc
    rw [callGenSet_spec, (hg2 k hk).2]
    constructor
    · rintro (h | ⟨hc2, -⟩)
      · exact h.2
      · rw [hc] at hc2
        exact absurd hc2 (by simp)
    · exact fun h => Or.inl ⟨hc, h⟩
  · intro hc
    rw [callGenSet_spec, (hg2 k hk).2]
    constructor
    · rintro (h | ⟨-, -, u, hu, hi, he⟩)
      · rw [hc] at h
        exact absurd h.1 (by simp)
      · exact ⟨u, hu, hi, (crossBit_inj _ _ hk (GET_CSE_INDEX_pos _ hi) he).symm⟩
    · rintro ⟨t, ht, hi, hidx⟩
      right
      have hocc := hlisted b hb t (atOrAfterLastCall_mem ht) hi
      rw [hidx] at hocc
      have hav := (hg2 k hk).1.mpr hocc
      refine ⟨hc, ?_, t, ht, hi, by rw [hidx]⟩
      intro he
      rw [he] at hav
      exact absurd hav (Finset.not_mem_empty _)

theorem initDataFlow_gen_bits_witness :
    ∃ c1, optValnumCSE_InitDataFlow 7 99 (fun _ => false) exCallRoot exGenCompiler
        exGenBlocks = some c1 ∧
      ∀ b ∈ exGenBlocks, ∀ k, 1 ≤ k →
        (getCSEAvailBit k ∈ c1.bbCseGen b.bbNum ↔ hasOccurrenceIn exGenCompiler k b.bbNum) ∧
        (b.BBF_HAS_CALL = false →
          (getCSEAvailCrossCallBit k ∈ c1.bbCseGen b.bbNum ↔
            hasOccurrenceIn exGenCompiler k b.bbNum)) ∧
        (b.BBF_HAS_CALL = true →
          (getCSEAvailCrossCallBit k ∈ c1.bbCseGen b.bbNum ↔
            ∃ t, atOrAfterLastCall b.nodes t ∧ taggedWith k t)) :=
  initDataFlow_gen_bits 7 99 (fun _ => false) exCallRoot exGenCompiler exGenBlocks rfl
    (by decide) (TableDense_of_check _ (by decide)) (exGen_listed _ (by decide))

/-- Counterexample to C31 as stated: block 1 of `exGenBlocks` has `BBF_HAS_CALL` and two calls,
both occurrences of candidate 2. After `optValnumCSE_InitDataFlow` the available-across-call bit
of candidate 2 is in `bbCseGen` of the block, although no node tagged with candidate 2 stands
after the last call: the scan tests the tag of the last call before it stops at it. -/
theorem last_call_occurrence_sets_cross_call_bit :
    ∃ c1, optValnumCSE_InitDataFlow 7 99 (fun _ => false) exCallRoot exGenCompiler
        exGenBlocks = some c1 ∧
      exGenCompiler.compIsAsync = false ∧
      exGenBlockCalls ∈ exGenBlocks ∧ exGenBlockCalls.BBF_HAS_CALL = true ∧
      (∃ t ∈ exGenBlockCalls.nodes, t.isCall = true) ∧
      getCSEAvailCrossCallBit 2 ∈ c1.bbCseGen exGenBlockCalls.bbNum ∧
      ¬ ∃ t, afterLastCall exGenBlockCalls.nodes t ∧ taggedWith 2 t := by
  refine ⟨_, rfl, rfl, by unfold exGenBlocks exGenBlockCalls; simp, rfl, by decide, by decide,
    ?_⟩
  rintro ⟨t, ht, -⟩
  obtain ⟨h1, h2⟩ := afterLastCall_not_call ht
  have hall : ∀ v ∈ exGenBlockCalls.nodes, v.isCall = true := by decide
  rw [hall t h1] at h2
  exact absurd h2 (by simp)

/-! ## `GreedyPolicy`: no candidate twice, at most `N + 1` rounds -/

section GreedyRounds
set_option linter.unusedSectionVars false
variable [Zero W] [Add W] [Sub W] [LE W] [LT W]
  [DecidableRel (LE.le : W → W → Prop)] [DecidableRel (LT.lt : W → W → Prop)]
variable {P : Type} [Zero P] [Add P] [Sub P] [Div P] [LT P] [DecidableEq P]
  [DecidableRel (LT.lt : P → P → Prop)]

theorem TableIndexed_of_check (st : CseState W) (h : tableIndexedB st = true) :
    TableIndexed st := by
  intro i dsc hd
  have hslot := (dscAt_eq_some st i dsc).1 hd
  have hlt : i < st.comp.optCSEtab.length := by
    by_contra hn
    rw [List.getElem?_eq_none (by omega)] at hslot
    exact absurd hslot (by simp)
  unfold tableIndexedB at h
  have h1 := List.all_eq_true.mp h i (List.mem_range.mpr hlt)
  rw [hslot] at h1
  simpa using h1

theorem sortTabLive_set : ∀ (l : List (Option Nat)) (i x : Nat),
    l[i]? = some (some x) → sortTabLive (l.set i none) + 1 = sortTabLive l := by
  intro l
  induction l with
  | nil => intro i x h; simp at h
  | cons e rest ih =>
    intro i x h
    cases i with
    | zero =>
      simp only [List.getElem?_cons_zero, Option.some.injEq] at h
      subst h
      simp [sortTabLive, List.countP_cons]
    | succ j =>
      simp only [List.getElem?_cons_succ] at h
      have := ih j x h
      simp only [sortTabLive, List.set_cons_succ, List.countP_cons] at this ⊢
      omega

theorem sortTabLive_le (l : List (Option Nat)) : sortTabLive l ≤ l.length :=
  List.countP_le_length _

theorem buildChoicesLoop_slots (cfg : RLConfig W P) (st : CseState W)
    (sortTab : List (Option Nat))
    (hsort : ∀ (i s : Nat), sortTab[i]? = some (some s) → s = i) :
    ∀ (todo : List Nat) (acc res : List (Choice P)), todo.Nodup →
      (acc.map fun ch => ch.m_dsc).Nodup →
      (∀ ch ∈ acc, ∃ s, ch.m_dsc = some s ∧ sortTab[s]? = some (some s) ∧ s ∉ todo) →
      buildChoicesLoop cfg st sortTab todo acc = some res →
      (res.map fun ch => ch.m_dsc).Nodup ∧
      ∀ ch ∈ res, ∃ s, ch.m_dsc = some s ∧ sortTab[s]? = some (some s) := by
  intro todo
  induction todo with
  | nil =>
    intro acc res _ hnd hacc h
    simp only [buildChoicesLoop, Option.some.injEq] at h
    subst h
    refine ⟨hnd, ?_⟩
    intro ch hch
    obtain ⟨s, h1, h2, -⟩ := hacc ch hch
    exact ⟨s, h1, h2⟩
  | cons i rest ih =>
    intro acc res htodo hnd hacc h
    rw [List.nodup_cons] at htodo
    obtain ⟨hi, htodo2⟩ := htodo
    have hacc2 : ∀ ch ∈ acc, ∃ s, ch.m_dsc = some s ∧ sortTab[s]? = some (some s) ∧
        s ∉ rest := by
      intro ch hch
      obtain ⟨s, h1, h2, h3⟩ := hacc ch hch
      exact ⟨s, h1, h2, fun hm => h3 (List.mem_cons_of_mem _ hm)⟩
    unfold buildChoicesLoop at h
    split at h
    · exact absurd h (by simp)
    · exact ih acc res htodo2 hnd hacc2 h
    · rename_i slot hslot
      have hsi : slot = i := hsort i slot hslot
      subst hsi
      split at h
      · exact absurd h (by simp)
      · rename_i dsc hdsc
        split at h
        · exact ih acc res htodo2 hnd hacc2 h
        · apply ih _ res htodo2 ?_ ?_ h
          · rw [List.map_cons, List.nodup_cons]
            refine ⟨?_, hnd⟩
            intro hm
            obtain ⟨ch, hch, he⟩ := List.mem_map.mp hm
            obtain ⟨s, h1, -, h3⟩ := hacc ch hch
            simp only at he
            rw [h1, Option.some.injEq] at he
            exact h3 (by rw [he]; exact List.mem_cons_self _ _)
          · intro ch hch
            rcases List.mem_cons.mp hch with rfl | hch2
            · exact ⟨slot, rfl, hslot, hi⟩
            · exact hacc2 ch hch2

/-- The choice array between two rounds of `GreedyPolicy`: the stop choice on top, the other
choices name pairwise different slots, and every choice not performed names a slot that
`sortTab` still holds. -/
theorem ChooseGreedy_slots (cfg : RLConfig W P) (st : CseState W)
    (sortTab : List (Option Nat)) (choices choices1 : List (Choice P)) (recompute : Bool)
    (choiceNum : Nat)
    (hsort : ∀ (i s : Nat), sortTab[i]? = some (some s) → s = i)
    (hinv : recompute = false → ∃ stop rest, choices = stop :: rest ∧ stop.m_dsc = none ∧
      (rest.map fun ch => ch.m_dsc).Nodup ∧
      ∀ ch ∈ rest, ch.m_performed = false →
        ∃ s, ch.m_dsc = some s ∧ sortTab[s]? = some (some s))
    (h : ChooseGreedy cfg st sortTab choices recompute = some (choices1, choiceNum)) :
    (∃ stop rest, choices1 = stop :: rest ∧ stop.m_dsc = none ∧
      (rest.map fun ch => ch.m_dsc).Nodup ∧
      ∀ ch ∈ rest, ch.m_performed = false →
        ∃ s, ch.m_dsc = some s ∧ sortTab[s]? = some (some s)) ∧
    (choiceNum = 0 ∨ ∃ ch, choices1[choiceNum]? = some ch ∧ ch.m_performed = false) := by
  unfold ChooseGreedy at h
  simp only at h
  split at h
  · exact absurd h (by simp)
  · rename_i built hb
    split at h
    · exact absurd h (by simp)
    · rename_i num hloop
      simp only [Option.some.injEq, Prod.mk.injEq] at h
      obtain ⟨rfl, rfl⟩ := h
      constructor
      · cases recompute with
        | false =>
          simp only [Bool.false_eq_true, if_false] at hb
          obtain ⟨stop, rest, hc, hs, hnd, hall⟩ := hinv rfl
          subst hc
          simp only [Option.some.injEq] at hb
          exact ⟨_, rest, hb.symm, hs, hnd, hall⟩
        | true =>
          simp only [if_true] at hb
          unfold BuildChoices at hb
          split at hb
          · exact absurd hb (by simp)
          · rename_i res hres
            simp only [Option.some.injEq] at hb
            obtain ⟨k1, k2⟩ := buildChoicesLoop_slots cfg st sortTab hsort
              (List.range st.comp.optCSECandidateCount) [] res (List.nodup_range _)
              (by simp) (fun ch hch => absurd hch (List.not_mem_nil _)) hres
            exact ⟨_, res, hb.symm, rfl, k1, fun ch hch _ => k2 ch hch⟩
      · refine chooseGreedyLoop_spec st built (built.drop 1) 1 0 num hloop ?_
        intro k ch hk
        rw [List.getElem?_drop] at hk
        exact hk

theorem PerformLe_indexed {st st1 : CseState W} (hle : PerformLe st st1)
    (hidx : TableIndexed st) : TableIndexed st1 := by
  intro i d1 hd1
  have h1 := (dscAt_eq_some st1 i d1).1 hd1
  obtain ⟨-, -, hlen, hslots⟩ := hle
  have hlt : i < st.comp.optCSEtab.length := by
    rw [← hlen]
    by_contra hn
    rw [List.getElem?_eq_none (by omega)] at h1
    exact absurd h1 (by simp)
  obtain ⟨k1, k2⟩ := hslots i
  cases hx : st.comp.optCSEtab[i]? with
  | none =>
    rw [List.getElem?_eq_none_iff] at hx
    omega
  | some e =>
    cases e with
    | none =>
      rw [k1 hx] at h1
      exact absurd h1 (by simp)
    | some d =>
      obtain ⟨d2, hd2, hp, -⟩ := k2 d hx
      rw [h1] at hd2
      simp only [Option.some.injEq] at hd2
      subst hd2
      have hi := hidx i d ((dscAt_eq_some st i d).2 hx)
      rw [hp.1]
      exact hi

theorem greedyLoop_rounds (cfg : RLConfig W P) (ir : CseIR W) :
    ∀ (fuel : Nat) (sortTab : List (Option Nat)) (choices : List (Choice P))
      (numUnmarked : Nat) (recompute : Bool) (st : CseState W),
      TableIndexed st →
      (∀ (i s : Nat), sortTab[i]? = some (some s) → s = i) →
      (recompute = false → ∃ stop rest, choices = stop :: rest ∧ stop.m_dsc = none ∧
        (rest.map fun ch => ch.m_dsc).Nodup ∧
        ∀ ch ∈ rest, ch.m_performed = false →
          ∃ s, ch.m_dsc = some s ∧ sortTab[s]? = some (some s)) →
      sortTabLive sortTab < fuel →
      greedyLoop cfg ir fuel sortTab choices numUnmarked recompute st ≠ Outcome.outOfFuel ∧
      ∀ st1, greedyLoop cfg ir fuel sortTab choices numUnmarked recompute st =
          Outcome.done st1 →
        ∃ new, st1.performLog = st.performLog ++ new ∧
          (new.map fun d => d.csdIndex).Nodup ∧
          (∀ d ∈ new, ∃ x, sortTab[d.csdIndex - 1]? = some (some x)) ∧
          new.length ≤ sortTabLive sortTab := by
  intro fuel
  induction fuel with
  | zero =>
    intro sortTab choices numUnmarked recompute st _ _ _ hf
    exact absurd hf (by omega)
  | succ fuel ih =>
    intro sortTab choices numUnmarked recompute st hidx hsort hinv hf
    unfold greedyLoop
    split
    · exact ⟨by simp, fun st1 h => absurd h (by simp)⟩
    · rename_i choices1 choiceNum hchoose
      obtain ⟨⟨stop, rest, hc1, hstop, hnd, hall⟩, hnum⟩ :=
        ChooseGreedy_slots cfg st sortTab choices choices1 recompute choiceNum hsort hinv
          hchoose
      split
      · exact ⟨by simp, fun st1 h => absurd h (by simp)⟩
      · rename_i choice hget
        split
        · refine ⟨by simp, ?_⟩
          intro st1 h
          simp only [Outcome.done.injEq] at h
          subst h
          exact ⟨[], by simp, by simp, by simp, by simp⟩
        · rename_i slot hslot
          split
          · exact ⟨by simp, fun st1 h => absurd h (by simp)⟩
          · rename_i dsc hdsc
            split
            · exact ⟨by simp, fun st1 h => absurd h (by simp)⟩
            · rename_i st2 hperf
              have hne : choiceNum ≠ 0 := by
                intro h0
                rw [h0, hc1] at hget
                simp only [List.getElem?_cons_zero, Option.some.injEq] at hget
                rw [← hget, hstop] at hslot
                exact absurd hslot (by simp)
              have hnp : choice.m_performed = false := by
                rcases hnum with h0 | ⟨ch, hch, hp⟩
                · exact absurd h0 hne
                · rw [hget] at hch
                  simp only [Option.some.injEq] at hch
                  rw [hch]
                  exact hp
              obtain ⟨j, hj⟩ := Nat.exists_eq_succ_of_ne_zero hne
              have hgetr : rest[j]? = some choice := by
                rw [hj, hc1] at hget
                simpa using hget
              have hmem : choice ∈ rest := List.getElem?_mem hgetr
              obtain ⟨s, hs1, hs2⟩ := hall choice hmem hnp
              rw [hslot, Option.some.injEq] at hs1
              subst hs1
              have hdi : dsc.csdIndex = slot + 1 := hidx slot dsc hdsc
              have hdi2 : dsc.csdIndex - 1 = slot := by omega
              obtain ⟨hle, -, dsc2, hdsc2, hlog⟩ := PerformCSE_frame ir st st2 slot hperf
              rw [hdsc] at hdsc2
              simp only [Option.some.injEq] at hdsc2
              subst hdsc2
              have hlive := sortTabLive_set sortTab slot slot hs2
              have hsort2 : ∀ (i s : Nat), (sortTab.set (dsc.csdIndex - 1) none)[i]? = some (some s) →
                  s = i := by
                intro i s hi
                rw [hdi2, List.getElem?_set] at hi
                split_ifs at hi with h1 h2
                all_goals first
                  | exact hsort i s hi
                  | exact absurd hi (by simp)
              have hinv2 : (numUnmarked != st2.optCSEunmarks) = false →
                  ∃ stop2 rest2,
                    choices1.set choiceNum { choice with m_performed := true } =
                      stop2 :: rest2 ∧ stop2.m_dsc = none ∧
                    (rest2.map fun ch => ch.m_dsc).Nodup ∧
                    ∀ ch ∈ rest2, ch.m_performed = false →
                      ∃ s, ch.m_dsc = some s ∧
                        (sortTab.set (dsc.csdIndex - 1) none)[s]? = some (some s) := by
                intro _
                refine ⟨stop, rest.set j { choice with m_performed := true }, ?_, hstop, ?_, ?_⟩
                · rw [hc1, hj]
                  rfl
                · have : ((rest.set j { choice with m_performed := true }).map
                      fun ch => ch.m_dsc) = rest.map fun ch => ch.m_dsc := by
                    rw [List.map_set]
                    apply List.ext_getElem?
                    intro n
                    rw [List.getElem?_set]
                    split_ifs with h1 h2
                    · subst h1
                      rw [List.getElem?_map, hgetr]
                      rfl
                    · subst h1
                      rw [List.length_map] at h2
                      rw [List.getElem?_eq_none (by rw [List.length_map]; omega)]
                    · rfl
                  rw [this]
                  exact hnd
                · intro ch hch hp
                  obtain ⟨n, hn0⟩ := List.getElem?_of_mem hch
                  have hnj : n ≠ j := by
                    intro hnj
                    subst hnj
                    rw [List.getElem?_set] at hn0
                    simp only [if_true] at hn0
                    split_ifs at hn0
                    simp only [Option.some.injEq] at hn0
                    rw [← hn0] at hp
                    exact absurd hp (by simp)
                  have hn : rest[n]? = some ch := by
                    rw [List.getElem?_set_ne (Ne.symm hnj)] at hn0
                    exact hn0
                  have hm : ch ∈ rest := List.getElem?_mem hn
                  · obtain ⟨s, k1, k2⟩ := hall ch hm hp
                    refine ⟨s, k1, ?_⟩
                    have hsne : s ≠ slot := by
                      intro he
                      subst he
                      have hdup := List.nodup_iff_getElem?_ne_getElem?.mp hnd
                      have e1 : (rest.map fun ch => ch.m_dsc)[n]? = some (some s) := by
                        rw [List.getElem?_map, hn]
                        simp [k1]
                      have e2 : (rest.map fun ch => ch.m_dsc)[j]? = some (some s) := by
                        rw [List.getElem?_map, hgetr]
                        simp [hslot]
                      have l1 : n < (rest.map fun ch => ch.m_dsc).length := by
                        by_contra hc
                        rw [List.getElem?_eq_none (by omega)] at e1
                        exact absurd e1 (by simp)
                      have l2 : j < (rest.map fun ch => ch.m_dsc).length := by
                        by_contra hc
                        rw [List.getElem?_eq_none (by omega)] at e2
                        exact absurd e2 (by simp)
                      rcases Nat.lt_or_gt_of_ne hnj with hlt | hgt
                      · exact hdup n j hlt l2 (e1.trans e2.symm)
                      · exact hdup j n hgt l1 (e2.trans e1.symm)
                    rw [hdi2, List.getElem?_set_ne (Ne.symm hsne)]
                    exact k2
              have hf2 : sortTabLive (sortTab.set (dsc.csdIndex - 1) none) < fuel := by
                rw [hdi2]
                omega
              obtain ⟨r1, r2⟩ := ih (sortTab.set (dsc.csdIndex - 1) none)
                (choices1.set choiceNum { choice with m_performed := true })
                st2.optCSEunmarks (numUnmarked != st2.optCSEunmarks) st2
                (PerformLe_indexed hle hidx) hsort2 hinv2 hf2
              refine ⟨r1, ?_⟩
              intro st1 h
              obtain ⟨new, n1, n2, n3, n4⟩ := r2 st1 h
              refine ⟨dsc :: new, ?_, ?_, ?_, ?_⟩
              · rw [n1, hlog]
                simp
              · rw [List.map_cons, List.nodup_cons]
                refine ⟨?_, n2⟩
                intro hm
                obtain ⟨d, hd, he⟩ := List.mem_map.mp hm
                obtain ⟨x, hx⟩ := n3 d hd
                rw [he, List.getElem?_set] at hx
                rw [if_pos rfl] at hx
                split_ifs at hx
                all_goals exact absurd hx (by simp)
              · intro d hd
                rcases List.mem_cons.mp hd with rfl | hd2
                · exact ⟨slot, by rw [hdi2]; exact hs2⟩
                · obtain ⟨x, hx⟩ := n3 d hd2
                  rw [hdi2, List.getElem?_set] at hx
                  split_ifs at hx with h1 h2
                  all_goals first
                    | exact ⟨x, hx⟩
                    | exact absurd hx (by simp)
              · rw [hdi2] at n4
                simp only [List.length_cons]
                omega

theorem copySortTab_slots (st : CseState W) :
    (∀ (i s : Nat), (copySortTab st)[i]? = some (some s) → s = i) ∧
    (copySortTab st).length = st.comp.optCSECandidateCount := by
  unfold copySortTab
  refine ⟨?_, by simp⟩
  intro i s h
  rw [List.getElem?_map] at h
  cases hr : (List.range st.comp.optCSECandidateCount)[i]? with
  | none => simp [hr] at h
  | some j =>
    have hj : j = i := by
      rw [List.getElem?_range] at hr
      · simpa using hr.symm
      · by_contra hc
        rw [List.getElem?_eq_none (by simpa using hc)] at hr
        exact absurd hr (by simp)
    subst hj
    simp only [hr, Option.map_some', Option.some.injEq, CseState.tabPtr] at h
    split_ifs at h
    simpa using h.symm

/-- C39. `CSE_HeuristicParameterized::GreedyPolicy` on the copy `sortTab` of a candidate table
in which slot `i` holds the descriptor with `csdIndex = i + 1` (what the `assert` of the loop
states), with `N = optCSECandidateCount`: the loop ends within `N + 1` rounds, that is `N + 1`
calls of `ChooseGreedy`, and when it returns, the descriptors for which `PerformCSE` was
entered have pairwise different `csdIndex` and are at most `N`: no candidate returned by
`ChooseGreedy` is returned by a later call, whether the choice array was rebuilt or not. -/
theorem greedy_performs_each_candidate_once (cfg : RLConfig W P) (ir : CseIR W)
    (st : CseState W) (fuel : Nat) (hidx : TableIndexed st)
    (hfuel : st.comp.optCSECandidateCount + 1 ≤ fuel) :
    GreedyPolicy cfg ir fuel (copySortTab st) st ≠ Outcome.outOfFuel ∧
    ∀ st1, GreedyPolicy cfg ir fuel (copySortTab st) st = Outcome.done st1 →
      ∃ new, st1.performLog = st.performLog ++ new ∧
        (new.map fun d => d.csdIndex).Nodup ∧
        new.length ≤ st.comp.optCSECandidateCount := by
  obtain ⟨h1, h2⟩ := copySortTab_slots st
  have hlive : sortTabLive (copySortTab st) < fuel := by
    have := sortTabLive_le (copySortTab st)
    omega
  obtain ⟨r1, r2⟩ := greedyLoop_rounds cfg ir fuel (copySortTab st) [] st.optCSEunmarks true st
    hidx h1 (fun h => absurd h (by simp)) hlive
  refine ⟨r1, ?_⟩
  intro st1 h
  obtain ⟨new, n1, n2, -, n4⟩ := r2 st1 h
  refine ⟨new, n1, n2, ?_⟩
  have := sortTabLive_le (copySortTab st)
  omega

theorem greedy_performs_each_candidate_once_witness :
    GreedyPolicy exRLConfig exIR 3 (copySortTab exPerfState) exPerfState ≠ Outcome.outOfFuel ∧
    ∃ st1, GreedyPolicy exRLConfig exIR 3 (copySortTab exPerfState) exPerfState =
        Outcome.done st1 ∧
      (st1.performLog.map fun d => d.csdIndex) = [2, 1] ∧
      ∃ new, st1.performLog = exPerfState.performLog ++ new ∧
        (new.map fun d => d.csdIndex).Nodup ∧
        new.length ≤ exPerfState.comp.optCSECandidateCount := by
  have h := greedy_performs_each_candidate_once exRLConfig exIR exPerfState 3
    (TableIndexed_of_check _ (by decide)) (by decide)
  exact ⟨h.1, _, rfl, by decide, h.2 _ rfl⟩

end GreedyRounds

/-! ## `optExtractSideEffectsForCSE`: what the walk appends -/

section Extract
set_option linter.unusedSectionVars false
variable [Zero W] [Add W] [Sub W] [LE W] [LT W]
  [DecidableRel (LE.le : W → W → Prop)] [DecidableRel (LT.lt : W → W → Prop)]

theorem optUnmarkCSE_result (st st1 : CseState W) (t : GenTree) (b : Bool)
    (h : optUnmarkCSE st t = some (st1, b)) :
    b = !IS_CSE_DEF (st.comp.treeCSEnum t.gtTreeID) ∧
    (b = false → st1 = st) ∧
    (b = true → st1.comp.treeCSEnum t.gtTreeID = 0) ∧
    (∀ id, IS_CSE_DEF (st1.comp.treeCSEnum id) = IS_CSE_DEF (st.comp.treeCSEnum id)) := by
  by_cases hidx : IS_CSE_INDEX (st.comp.treeCSEnum t.gtTreeID) = true
  · rcases tag_def_or_use _ hidx with ⟨hd, hu⟩ | ⟨hd, hu⟩
    · unfold optUnmarkCSE at h
      simp only [hidx, hu, Bool.not_true, Bool.false_eq_true, if_false] at h
      split_ifs at h
      simp only [Option.some.injEq, Prod.mk.injEq] at h
      obtain ⟨rfl, rfl⟩ := h
      exact ⟨by simp [hd], fun _ => rfl, fun hb => absurd hb (by simp), fun _ => rfl⟩
    · have hpos : ¬ st.comp.treeCSEnum t.gtTreeID < 0 := by
        unfold IS_CSE_DEF at hd
        simpa using hd
      unfold optUnmarkCSE at h
      simp only [hidx, hu, Bool.not_true, Bool.false_eq_true, if_false, if_true] at h
      by_cases hw : 0 ≤ st.optCSEweight
      · simp only [hw, not_true_eq_false, if_false] at h
        cases hf : optCSEfindDsc st.comp (GET_CSE_INDEX (st.comp.treeCSEnum t.gtTreeID)) with
        | none => simp [hf] at h
        | some desc =>
          simp only [hf] at h
          by_cases hc : 0 < desc.csdUseCount
          · simp only [hc, not_true_eq_false, if_false, Option.some.injEq, Prod.mk.injEq] at h
            obtain ⟨rfl, rfl⟩ := h
            refine ⟨by simp [hd], fun hb => absurd hb (by simp), ?_, ?_⟩
            · intro _
              simp [CseState.setTag, NO_CSE]
            · intro id
              by_cases hid : id = t.gtTreeID
              · subst hid
                simp [CseState.setTag, NO_CSE, IS_CSE_DEF, hpos]
              · simp [CseState.setTag, Function.update_noteq hid, setDsc]
          · simp [hc] at h
      · simp [hw] at h
  · have hf : IS_CSE_INDEX (st.comp.treeCSEnum t.gtTreeID) = false := by simpa using hidx
    obtain ⟨hd, -⟩ := tag_untagged _ hf
    have h0 : st.comp.treeCSEnum t.gtTreeID = 0 := by
      unfold IS_CSE_INDEX at hf
      simpa using hf
    rw [optUnmarkCSE_untagged st t h0] at h
    simp only [Option.some.injEq, Prod.mk.injEq] at h
    obtain ⟨rfl, rfl⟩ := h
    exact ⟨by simp [hd], fun hb => absurd hb (by simp), fun _ => h0, fun _ => rfl⟩

theorem isAppended_congr (ir : CseIR W) {t1 t2 : Nat → Int}
    (h : ∀ id, IS_CSE_DEF (t1 id) = IS_CSE_DEF (t2 id)) (n : GenTree) :
    isAppended ir t1 n = isAppended ir t2 n := by
  unfold isAppended
  rw [h]

theorem walkAppended_congr (ir : CseIR W) {t1 t2 : Nat → Int}
    (h : ∀ id, IS_CSE_DEF (t1 id) = IS_CSE_DEF (t2 id)) :
    ∀ f : GenTreeOps, walkAppended ir t1 f = walkAppended ir t2 f := by
  intro f
  induction f with
  | none => rfl
  | tree node operands next ih1 ih2 =>
    simp only [walkAppended, isAppended_congr ir h, ih1, ih2]

theorem walkVisited_congr (ir : CseIR W) {t1 t2 : Nat → Int}
    (h : ∀ id, IS_CSE_DEF (t1 id) = IS_CSE_DEF (t2 id)) :
    ∀ f : GenTreeOps, walkVisited ir t1 f = walkVisited ir t2 f := by
  intro f
  induction f with
  | none => rfl
  | tree node operands next ih1 ih2 =>
    simp only [walkVisited, isAppended_congr ir h, ih1, ih2]

theorem walkAppended_eq_filter (ir : CseIR W) (tags : Nat → Int) :
    ∀ f : GenTreeOps,
      walkAppended ir tags f = (walkVisited ir tags f).filter (isAppended ir tags) := by
  intro f
  induction f with
  | none => rfl
  | tree node operands next ih1 ih2 =>
    by_cases ha : isAppended ir tags node = true
    · simp only [walkAppended, walkVisited, ha, if_true, List.filter_cons_of_pos, ih2]
    · simp only [walkAppended, walkVisited, ha, Bool.false_eq_true, if_false, ih1, ih2]
      rw [List.filter_cons_of_neg ha, List.filter_append]

theorem walkVisited_sub_preOrder (ir : CseIR W) (tags : Nat → Int) :
    ∀ f : GenTreeOps, ∀ n ∈ walkVisited ir tags f, n ∈ f.preOrder := by
  intro f
  induction f with
  | none => intro n hn; exact absurd hn (List.not_mem_nil _)
  | tree node operands next ih1 ih2 =>
    intro n hn
    simp only [walkVisited] at hn
    simp only [GenTreeOps.preOrder, List.mem_cons, List.mem_append]
    split_ifs at hn
    · rcases List.mem_cons.mp hn with h | h
      · exact Or.inl h
      · exact Or.inr (Or.inr (ih2 n h))
    · rcases List.mem_cons.mp hn with h | h
      · exact Or.inl h
      · rcases List.mem_append.mp h with h2 | h2
        · exact Or.inr (Or.inl (ih1 n h2))
        · exact Or.inr (Or.inr (ih2 n h2))

theorem WalkTree_refines (ir : CseIR W)
    (hse : ∀ t, ir.gtNodeHasSideEffects t = true → ir.gtTreeHasSideEffects t = true) :
    ∀ (f : GenTreeOps) (st : CseState W) (m : Option CseTree) (st1 : CseState W)
      (m1 : Option CseTree), Extractor.WalkTree ir f st m = some (st1, m1) →
      m1 = (walkAppended ir st.comp.treeCSEnum f).foldl Extractor.Append m ∧
      (∀ id, IS_CSE_DEF (st1.comp.treeCSEnum id) = IS_CSE_DEF (st.comp.treeCSEnum id)) ∧
      (∀ id, (∀ n ∈ walkVisited ir st.comp.treeCSEnum f, n.gtTreeID ≠ id) →
        st1.comp.treeCSEnum id = st.comp.treeCSEnum id) ∧
      (∀ n ∈ walkVisited ir st.comp.treeCSEnum f, isAppended ir st.comp.treeCSEnum n = false →
        st1.comp.treeCSEnum n.gtTreeID = 0) := by
  intro f
  induction f with
  | none =>
    intro st m st1 m1 h
    simp only [Extractor.WalkTree, Option.some.injEq, Prod.mk.injEq] at h
    obtain ⟨rfl, rfl⟩ := h
    exact ⟨rfl, fun _ => rfl, fun _ _ => rfl, fun n hn => absurd hn (List.not_mem_nil _)⟩
  | tree node operands next ihop ihnext =>
    intro st m st1 m1 h
    unfold Extractor.WalkTree at h
    by_cases hs : (ir.gtTreeHasSideEffects node && ir.gtNodeHasSideEffects node) = true
    · rw [if_pos hs] at h
      have hn : ir.gtNodeHasSideEffects node = true := by
        simp only [Bool.and_eq_true] at hs
        exact hs.2
      have ha : isAppended ir st.comp.treeCSEnum node = true := by
        simp [isAppended, hn]
      obtain ⟨k1, k2, k3, k4⟩ := ihnext st _ st1 m1 h
      simp only [walkAppended, walkVisited, ha, if_true, List.foldl_cons]
      refine ⟨k1, k2, ?_, ?_⟩
      · intro id hid
        exact k3 id (fun n hn2 => hid n (List.mem_cons_of_mem _ hn2))
      · intro n hn2 hna
        rcases List.mem_cons.mp hn2 with rfl | hn3
        · rw [ha] at hna
          exact absurd hna (by simp)
        · exact k4 n hn3 hna
    · rw [if_neg hs] at h
      have hn : ir.gtNodeHasSideEffects node = false := by
        by_contra hc
        have h1 : ir.gtNodeHasSideEffects node = true := by simpa using hc
        exact hs (by simp [h1, hse node h1])
      cases hu : optUnmarkCSE st node with
      | none => simp [hu] at h
      | some p =>
        obtain ⟨st2, b⟩ := p
        obtain ⟨u1, u2, u3, u4⟩ := optUnmarkCSE_result st st2 node b hu
        obtain ⟨-, -, -, u5, -⟩ := optUnmarkCSE_spec st st2 node b hu
        cases b with
        | true =>
          simp only [hu] at h
          have hd : IS_CSE_DEF (st.comp.treeCSEnum node.gtTreeID) = false := by
            simpa using u1
          have ha : isAppended ir st.comp.treeCSEnum node = false := by
            simp [isAppended, hn, hd]
          cases hw : Extractor.WalkTree ir operands st2 m with
          | none => simp [hw] at h
          | some q =>
            obtain ⟨st3, m3⟩ := q
            simp only [hw] at h
            obtain ⟨a1, a2, a3, a4⟩ := ihop st2 m st3 m3 hw
            obtain ⟨b1, b2, b3, b4⟩ := ihnext st3 m3 st1 m1 h
            obtain ⟨-, -, -, -, c5, -⟩ := WalkTree_spec ir operands st2 m st3 m3 hw
            obtain ⟨-, -, -, -, d5, -⟩ := WalkTree_spec ir next st3 m3 st1 m1 h
            have e2 : ∀ id, IS_CSE_DEF (st3.comp.treeCSEnum id) =
                IS_CSE_DEF (st.comp.treeCSEnum id) := fun id => (a2 id).trans (u4 id)
            rw [walkAppended_congr ir u4] at a1
            rw [walkAppended_congr ir e2] at b1
            rw [walkVisited_congr ir u4] at a3 a4
            rw [walkVisited_congr ir e2] at b3 b4
            simp only [walkAppended, walkVisited, ha, Bool.false_eq_true, if_false,
              List.foldl_append]
            refine ⟨?_, fun id => (b2 id).trans (e2 id), ?_, ?_⟩
            · rw [b1, a1]
            · intro id hid
              have h1 : node.gtTreeID ≠ id := hid node (List.mem_cons_self _ _)
              rw [b3 id (fun n hn2 => hid n (List.mem_cons_of_mem _
                  (List.mem_append_right _ hn2))),
                a3 id (fun n hn2 => hid n (List.mem_cons_of_mem _
                  (List.mem_append_left _ hn2)))]
              exact u5 id (Ne.symm h1)
            · intro n hn2 hna
              have keep : ∀ id, st3.comp.treeCSEnum id = 0 → st1.comp.treeCSEnum id = 0 := by
                intro id h0
                rcases d5 id with h1 | h1
                · rw [h1, h0]
                · exact h1
              have keep2 : ∀ id, st2.comp.treeCSEnum id = 0 → st3.comp.treeCSEnum id = 0 := by
                intro id h0
                rcases c5 id with h1 | h1
                · rw [h1, h0]
                · exact h1
              rcases List.mem_cons.mp hn2 with rfl | hn3
              · exact keep _ (keep2 _ (u3 rfl))
              · rcases List.mem_append.mp hn3 with h1 | h1
                · apply keep
                  apply a4 n h1
                  rw [isAppended_congr ir u4]
                  exact hna
                · apply b4 n h1
                  rw [isAppended_congr ir e2]
                  exact hna
        | false =>
          simp only [hu] at h
          have hst : st2 = st := u2 rfl
          subst hst
          have hd : IS_CSE_DEF (st2.comp.treeCSEnum node.gtTreeID) = true := by
            simpa using u1
          have ha : isAppended ir st2.comp.treeCSEnum node = true := by
            simp [isAppended, hd]
          obtain ⟨k1, k2, k3, k4⟩ := ihnext st2 _ st1 m1 h
          simp only [walkAppended, walkVisited, ha, if_true, List.foldl_cons]
          refine ⟨k1, k2, ?_, ?_⟩
          · intro id hid
            exact k3 id (fun n hn2 => hid n (List.mem_cons_of_mem _ hn2))
          · intro n hn2 hna
            rcases List.mem_cons.mp hn2 with rfl | hn3
            · rw [ha] at hna
              exact absurd hna (by simp)
            · exact k4 n hn3 hna

theorem foldl_Append_some : ∀ (l : List GenTree) (c : CseTree),
    l.foldl Extractor.Append (some c) =
      some (l.foldl (fun chain n => CseTree.comma chain (CseTree.node n)) c) := by
  intro l
  induction l with
  | nil => intro c; rfl
  | cons a rest ih =>
    intro c
    simp only [List.foldl_cons, Extractor.Append]
    exact ih _

theorem foldl_Append_none (l : List GenTree) :
    l.foldl Extractor.Append none = commaChain l := by
  cases l with
  | nil => rfl
  | cons a rest =>
    simp only [List.foldl_cons, Extractor.Append, commaChain]
    exact foldl_Append_some rest _

theorem commaFold_shape : ∀ (l : List GenTree) (c : CseTree), c.isLeftNested = true →
    (l.foldl (fun chain n => CseTree.comma chain (CseTree.node n)) c).isLeftNested = true ∧
    (l.foldl (fun chain n => CseTree.comma chain (CseTree.node n)) c).commaLeaves =
      c.commaLeaves ++ l := by
  intro l
  induction l with
  | nil => intro c hc; exact ⟨hc, by simp⟩
  | cons a rest ih =>
    intro c hc
    simp only [List.foldl_cons]
    obtain ⟨h1, h2⟩ := ih (CseTree.comma c (CseTree.node a)) (by simpa [CseTree.isLeftNested])
    refine ⟨h1, ?_⟩
    rw [h2]
    simp [CseTree.commaLeaves]

theorem commaChain_shape (l : List GenTree) :
    (commaChain l = none ↔ l = []) ∧
    ∀ t, commaChain l = some t → t.isLeftNested = true ∧ t.commaLeaves = l := by
  cases l with
  | nil => exact ⟨by simp [commaChain], fun t h => absurd h (by simp [commaChain])⟩
  | cons a rest =>
    refine ⟨by simp [commaChain], ?_⟩
    intro t h
    simp only [commaChain, Option.some.injEq] at h
    subst h
    obtain ⟨h1, h2⟩ := commaFold_shape rest (CseTree.node a) rfl
    exact ⟨h1, by rw [h2]; rfl⟩

/-! ### The walk returns -/

theorem UseCountsCover_sublist {st : CseState W} {l1 l2 : List GenTree}
    (hs : l1.Sublist l2) (h : UseCountsCover st l2) : UseCountsCover st l1 := by
  intro k hk
  have hle := hs.countP_le (useTagged st.comp.treeCSEnum k)
  obtain ⟨dsc, hd, hc⟩ := h k (by omega)
  exact ⟨dsc, hd, by omega⟩

theorem WalkTree_total (ir : CseIR W) :
    ∀ (f : GenTreeOps) (st : CseState W) (m : Option CseTree) (L : List GenTree),
      0 ≤ st.optCSEweight → UseCountsCover st (f.preOrder ++ L) →
      ∃ st1 m1, Extractor.WalkTree ir f st m = some (st1, m1) ∧ 0 ≤ st1.optCSEweight ∧
        UseCountsCover st1 L := by
  intro f
  induction f with
  | none =>
    intro st m L hw hc
    exact ⟨st, m, rfl, hw, by simpa [GenTreeOps.preOrder] using hc⟩
  | tree node operands next ihop ihnext =>
    intro st m L hw hc
    have hsub1 : (operands.preOrder ++ (next.preOrder ++ L)).Sublist
        ((GenTreeOps.tree node operands next).preOrder ++ L) := by
      simp only [GenTreeOps.preOrder, List.cons_append, List.append_assoc]
      exact List.sublist_cons_self _ _
    have hsub2 : (next.preOrder ++ L).Sublist (operands.preOrder ++ (next.preOrder ++ L)) :=
      List.sublist_append_right _ _
    have hcn : UseCountsCover st (next.preOrder ++ L) :=
      UseCountsCover_sublist (hsub2.trans hsub1) hc
    unfold Extractor.WalkTree
    by_cases hs : (ir.gtTreeHasSideEffects node && ir.gtNodeHasSideEffects node) = true
    · rw [if_pos hs]
      exact ihnext st _ L hw hcn
    · rw [if_neg hs]
      by_cases hidx : IS_CSE_INDEX (st.comp.treeCSEnum node.gtTreeID) = true
      · rcases tag_def_or_use _ hidx with ⟨hd, -⟩ | ⟨-, hu⟩
        · rw [optUnmarkCSE_def st node hd hw]
          exact ihnext st _ L hw hcn
        · have hnode : useTagged st.comp.treeCSEnum
              (GET_CSE_INDEX (st.comp.treeCSEnum node.gtTreeID)) node = true := by
            simp [useTagged, hu]
          have hpos : 0 < ((GenTreeOps.tree node operands next).preOrder ++ L).countP
              (useTagged st.comp.treeCSEnum
                (GET_CSE_INDEX (st.comp.treeCSEnum node.gtTreeID))) := by
            rw [List.countP_pos_iff]
            exact ⟨node, by simp [GenTreeOps.preOrder], hnode⟩
          obtain ⟨desc, hdesc, hcnt⟩ := hc _ hpos
          have hcnt1 : (operands.preOrder ++ (next.preOrder ++ L)).countP
              (useTagged st.comp.treeCSEnum
                (GET_CSE_INDEX (st.comp.treeCSEnum node.gtTreeID))) + 1 ≤ desc.csdUseCount := by
            simp only [GenTreeOps.preOrder, List.cons_append, List.append_assoc,
              List.countP_cons, hnode, if_true] at hcnt
            exact hcnt
          rw [optUnmarkCSE_use st node desc hu hw hdesc (by omega)]
          simp only []
          have hk0 : GET_CSE_INDEX (st.comp.treeCSEnum node.gtTreeID) ≠ 0 := by
            have := GET_CSE_INDEX_pos _ hidx
            omega
          have hcover : UseCountsCover
              ({ st with
                 comp :=
                  { setDsc st.comp (GET_CSE_INDEX (st.comp.treeCSEnum node.gtTreeID))
                      { desc with
                        csdUseCount := desc.csdUseCount - 1
                        csdUseWtCnt := (if desc.csdUseWtCnt < st.optCSEweight then 0
                          else desc.csdUseWtCnt - st.optCSEweight) } with
                    treeCSEnum := Function.update st.comp.treeCSEnum node.gtTreeID NO_CSE }
                 optCSEunmarks := st.optCSEunmarks + 1 } : CseState W)
              (operands.preOrder ++ (next.preOrder ++ L)) := by
            intro j hj
            have hmono : ∀ (l : List GenTree),
                l.countP (useTagged
                  (Function.update st.comp.treeCSEnum node.gtTreeID NO_CSE) j) ≤
                l.countP (useTagged st.comp.treeCSEnum j) := by
              intro l
              apply List.countP_mono_left
              intro x _ hx
              unfold useTagged at hx ⊢
              by_cases hid : x.gtTreeID = node.gtTreeID
              · rw [hid] at hx
                simp [NO_CSE, IS_CSE_USE] at hx
              · rw [Function.update_noteq hid] at hx
                exact hx
            have hj1 := hmono (operands.preOrder ++ (next.preOrder ++ L))
            have hj2 : (operands.preOrder ++ (next.preOrder ++ L)).countP
                (useTagged (Function.update st.comp.treeCSEnum node.gtTreeID NO_CSE) j) =
              (operands.preOrder ++ (next.preOrder ++ L)).countP
                (useTagged ({ st with
                 comp :=
                  { setDsc st.comp (GET_CSE_INDEX (st.comp.treeCSEnum node.gtTreeID))
                      { desc with
                        csdUseCount := desc.csdUseCount - 1
                        csdUseWtCnt := (if desc.csdUseWtCnt < st.optCSEweight then 0
                          else desc.csdUseWtCnt - st.optCSEweight) } with
                    treeCSEnum := Function.update st.comp.treeCSEnum node.gtTreeID NO_CSE }
                 optCSEunmarks := st.optCSEunmarks + 1 } : CseState W).comp.treeCSEnum j) :=
              rfl
            rw [← hj2] at hj ⊢
            by_cases hjk : j = GET_CSE_INDEX (st.comp.treeCSEnum node.gtTreeID)
            · subst hjk
              refine ⟨_, findDsc_setDsc_same st.comp _ desc _ hdesc, ?_⟩
              show _ ≤ desc.csdUseCount - 1
              omega
            · have hpj : 0 < ((GenTreeOps.tree node operands next).preOrder ++ L).countP
                  (useTagged st.comp.treeCSEnum j) := by
                have := hsub1.countP_le (useTagged st.comp.treeCSEnum j)
                omega
              obtain ⟨dj, hdj, hcj⟩ := hc j hpj
              refine ⟨dj, ?_, ?_⟩
              · show optCSEfindDsc (setDsc st.comp _ _) j = some dj
                rw [findDsc_setDsc_other st.comp _ j _ hk0 hjk]
                exact hdj
              · have := hsub1.countP_le (useTagged st.comp.treeCSEnum j)
                omega
          have hstep := fun hw0 => ihop _ m (next.preOrder ++ L) hw0 hcover
          obtain ⟨st2, m2, h2, hw2, hc2⟩ := hstep hw
          rw [h2]
          simp only []
          exact ihnext st2 m2 L hw2 hc2
      · have h0 : st.comp.treeCSEnum node.gtTreeID = 0 := by
          unfold IS_CSE_INDEX at hidx
          simpa using hidx
        rw [optUnmarkCSE_untagged st node h0]
        simp only []
        obtain ⟨st2, m2, h2, hw2, hc2⟩ := ihop st m (next.preOrder ++ L) hw
          (UseCountsCover_sublist hsub1 hc)
        rw [h2]
        simp only []
        exact ihnext st2 m2 L hw2 hc2

/-- C34. `optExtractSideEffectsForCSE(tree)`, the side-effect queries being such that a node
with a side effect of its own is a tree with side effects. When the function returns: the
result is the left-nested chain of `GT_COMMA` nodes over the appended nodes, read left to right
in the order the execution-order walk meets them, and it is null iff no node is appended; the
appended nodes are the visited nodes that have a persistent side effect themselves or are tagged
as a CSE def, where the walk visits no operand of an appended node; a node that is not visited
keeps its tag, and a visited node that is not appended ends without a tag. And the function
returns when `optCSEweight >= 0` and the use counts of the candidates cover the nodes of the
tree that are tagged as their uses (the two `noway_assert`s of `optUnmarkCSE`). -/
theorem extract_side_effects_chain (ir : CseIR W) (st : CseState W) (tree : GenTree)
    (hse : ∀ t, ir.gtNodeHasSideEffects t = true → ir.gtTreeHasSideEffects t = true) :
    (∀ st1 r, optExtractSideEffectsForCSE ir st tree = some (st1, r) →
      r = commaChain (walkAppended ir st.comp.treeCSEnum
        (GenTreeOps.tree tree (ir.gtOperands tree.gtTreeID) GenTreeOps.none)) ∧
      (r = none ↔ walkAppended ir st.comp.treeCSEnum
        (GenTreeOps.tree tree (ir.gtOperands tree.gtTreeID) GenTreeOps.none) = []) ∧
      (∀ t, r = some t → t.isLeftNested = true ∧
        t.commaLeaves = walkAppended ir st.comp.treeCSEnum
          (GenTreeOps.tree tree (ir.gtOperands tree.gtTreeID) GenTreeOps.none)) ∧
      walkAppended ir st.comp.treeCSEnum
          (GenTreeOps.tree tree (ir.gtOperands tree.gtTreeID) GenTreeOps.none) =
        (walkVisited ir st.comp.treeCSEnum
          (GenTreeOps.tree tree (ir.gtOperands tree.gtTreeID) GenTreeOps.none)).filter
          (isAppended ir st.comp.treeCSEnum) ∧
      (∀ id, (∀ n ∈ walkVisited ir st.comp.treeCSEnum
          (GenTreeOps.tree tree (ir.gtOperands tree.gtTreeID) GenTreeOps.none),
          n.gtTreeID ≠ id) → st1.comp.treeCSEnum id = st.comp.treeCSEnum id) ∧
      (∀ n ∈ walkVisited ir st.comp.treeCSEnum
          (GenTreeOps.tree tree (ir.gtOperands tree.gtTreeID) GenTreeOps.none),
        isAppended ir st.comp.treeCSEnum n = false → st1.comp.treeCSEnum n.gtTreeID = 0)) ∧
    (0 ≤ st.optCSEweight →
      UseCountsCover st
        (GenTreeOps.tree tree (ir.gtOperands tree.gtTreeID) GenTreeOps.none).preOrder →
      ∃ st1 r, optExtractSideEffectsForCSE ir st tree = some (st1, r)) := by
  constructor
  · intro st1 r h
    unfold optExtractSideEffectsForCSE at h
    obtain ⟨k1, -, k3, k4⟩ := WalkTree_refines ir hse _ st none st1 r h
    rw [foldl_Append_none] at k1
    obtain ⟨s1, s2⟩ := commaChain_shape (walkAppended ir st.comp.treeCSEnum
      (GenTreeOps.tree tree (ir.gtOperands tree.gtTreeID) GenTreeOps.none))
    refine ⟨k1, ?_, ?_, walkAppended_eq_filter ir _ _, k3, k4⟩
    · rw [k1]
      exact s1
    · intro t ht
      rw [k1] at ht
      exact s2 t ht
  · intro hw hc
    unfold optExtractSideEffectsForCSE
    obtain ⟨st1, m1, h1, -, -⟩ := WalkTree_total ir _ st none [] hw (by simpa using hc)
    exact ⟨st1, m1, h1⟩

theorem extract_side_effects_chain_witness :
    ∃ st1 r, optExtractSideEffectsForCSE exIRChain exPerfState (exTree 3 0 1 false) =
        some (st1, r) ∧
      r = some (CseTree.comma (CseTree.node (exTree 4 0 9 true))
        (CseTree.node (exTree 6 0 8 false))) ∧
      (∀ t, r = some t → t.isLeftNested = true ∧
        t.commaLeaves = [exTree 4 0 9 true, exTree 6 0 8 false]) ∧
      st1.comp.treeCSEnum 3 = 0 ∧ st1.comp.treeCSEnum 5 = 0 ∧ st1.comp.treeCSEnum 6 = -2 ∧
      ∃ st2 r2, optExtractSideEffectsForCSE exIRChain exPerfState (exTree 3 0 1 false) =
        some (st2, r2) := by
  have hthm := extract_side_effects_chain exIRChain exPerfState (exTree 3 0 1 false)
    (fun _ h => h)
  have hcover : UseCountsCover exPerfState
      (GenTreeOps.tree (exTree 3 0 1 false) (exIRChain.gtOperands (exTree 3 0 1 false).gtTreeID)
        GenTreeOps.none).preOrder := by
    intro k hk
    rw [List.countP_pos_iff] at hk
    obtain ⟨a, ha, hka⟩ := hk
    have hmem : a = exTree 3 0 1 false ∨ a = exTree 4 0 9 true ∨ a = exTree 6 0 8 false ∨
        a = exTree 5 0 8 false := by
      have : (GenTreeOps.tree (exTree 3 0 1 false)
          (exIRChain.gtOperands (exTree 3 0 1 false).gtTreeID) GenTreeOps.none).preOrder =
          [exTree 3 0 1 false, exTree 4 0 9 true, exTree 6 0 8 false, exTree 5 0 8 false] := by
        decide
      rw [this] at ha
      simpa using ha
    rcases hmem with rfl | rfl | rfl | rfl
    · have hk1 : k = 1 := by
        have : useTagged exPerfState.comp.treeCSEnum k (exTree 3 0 1 false) =
            decide (1 = k) := by
          simp [useTagged, exPerfState, exCseState, exTree, IS_CSE_USE, GET_CSE_INDEX]
        rw [this] at hka
        exact (of_decide_eq_true hka).symm
      subst hk1
      exact ⟨exPerfDsc, rfl, by decide⟩
    · exact absurd hka (by simp [useTagged, exPerfState, exCseState, exTree, IS_CSE_USE])
    · exact absurd hka (by simp [useTagged, exPerfState, exCseState, exTree, IS_CSE_USE])
    · have hk2 : k = 2 := by
        have : useTagged exPerfState.comp.treeCSEnum k (exTree 5 0 8 false) =
            decide (2 = k) := by
          simp [useTagged, exPerfState, exCseState, exTree, IS_CSE_USE, GET_CSE_INDEX]
        rw [this] at hka
        exact (of_decide_eq_true hka).symm
      subst hk2
      exact ⟨exPerfDsc2, rfl, by decide⟩
  obtain ⟨h1, -, h3, -, -, -⟩ := hthm.1 _ _ rfl
  exact ⟨_, _, rfl, by decide, fun t ht => by
    obtain ⟨a, b⟩ := h3 t ht
    exact ⟨a, by rw [b]; decide⟩, by decide, by decide, by decide, hthm.2 (by decide) hcover⟩

end Extract

/-! ## The block transfer and the first visit of a block -/

/-! ### The state the analysis starts from -/

theorem bits_lt_of_le {k N : Nat} (h1 : 1 ≤ k) (h2 : k ≤ N) :
    getCSEAvailBit k < N * 2 ∧ getCSEAvailCrossCallBit k < N * 2 := by
  unfold getCSEAvailCrossCallBit getCSEAvailBit genCSEnum2bit
  omega

theorem asyncKillsSet_range (F : Statement → Bool) (mask : EXPSET_TP) (b : BasicBlock W)
    (s : EXPSET_TP) (M : Nat) (hs : s ⊆ Finset.range M)
    (htag : ∀ u ∈ b.nodes, IS_CSE_INDEX u.gtCSEnum = true →
      getCSEAvailBit (GET_CSE_INDEX u.gtCSEnum) < M) :
    asyncKillsSet F mask b.stmts s ⊆ Finset.range M := by
  unfold asyncKillsSet
  cases hf : findLastAsyncCall F b.stmts.reverse [] with
  | none => exact hs
  | some tail =>
    obtain ⟨pre, t, post, h1, -, h3, -⟩ := (findLastAsyncCall_spec F b.stmts.reverse []).1 tail hf
    rw [nodes_eq] at h1
    intro x hx
    rw [asyncReAdd_spec] at hx
    rcases hx with hx | ⟨u, hu, hi, rfl⟩
    · exact hs (Finset.mem_inter.mp hx).1
    · rw [Finset.mem_range]
      apply htag u _ hi
      rw [h1]
      rw [h3, List.append_nil] at hu
      exact List.mem_append_right _ hu

theorem initDataFlow_frame (TYP_BYREF TYP_STRUCT : Nat) (layoutHasGCByRef : GenTree → Bool)
    (F : Statement → Bool) (c : Compiler W) (blocks : List (BasicBlock W))
    (hnodup : (blocks.map fun b => b.bbNum).Nodup)
    (hsl : ∀ inx, inx < c.optCSECandidateCount → ∃ d, (c.optCSEtab.get? inx).join = some d) :
    ∃ c4 : Compiler W,
      optValnumCSE_InitDataFlow TYP_BYREF TYP_STRUCT layoutHasGCByRef F c blocks = some c4 ∧
      c4.cseLivenessTraits = c.optCSECandidateCount * 2 + 1 ∧
      c4.fgFirstBB = c.fgFirstBB ∧
      c4.bbCseIn = (initDataFlowInOut c blocks).bbCseIn := by
  obtain ⟨i, o, g0, e1, -⟩ := initInOut_eq c blocks
  obtain ⟨g2, e2, -⟩ := initGenLoop_spec blocks (List.range c.optCSECandidateCount)
    { c with cseLivenessTraits := c.optCSECandidateCount * 2 + 1
             cseCallKillsMask := initCallKillsMask c.optCSECandidateCount
             bbCseIn := i, bbCseOut := o, bbCseGen := g0 }
    (fun inx hi => hsl inx (List.mem_range.mp hi))
  obtain ⟨m, g3, o3, e3, -⟩ := asyncStage_spec TYP_BYREF TYP_STRUCT layoutHasGCByRef F
    { c with cseLivenessTraits := c.optCSECandidateCount * 2 + 1
             cseCallKillsMask := initCallKillsMask c.optCSECandidateCount
             bbCseIn := i, bbCseOut := o, bbCseGen := g2 } blocks hnodup hsl
  obtain ⟨g4, e4, -, -⟩ := callGen_fold blocks
    { c with cseLivenessTraits := c.optCSECandidateCount * 2 + 1
             cseCallKillsMask := initCallKillsMask c.optCSECandidateCount
             cseAsyncKillsMask := m
             bbCseIn := i, bbCseOut := o3, bbCseGen := g3 } hnodup
  refine ⟨{ c with cseLivenessTraits := c.optCSECandidateCount * 2 + 1
                   cseCallKillsMask := initCallKillsMask c.optCSECandidateCount
                   cseAsyncKillsMask := m
                   bbCseIn := i, bbCseOut := o3, bbCseGen := g4 }, ?_, rfl, rfl, ?_⟩
  · unfold optValnumCSE_InitDataFlow
    simp only []
    rw [e1]
    simp only []
    rw [e2]
    simp only []
    rw [e3]
    simp only []
    rw [e4]
  · rw [e1]

/-- The state `optValnumCSE_InitDataFlow` leaves, as far as the forward analysis reads it: the
trait has `2N + 1` bits, `bbCseGen` lies within the `2N` bits of the candidates, `bbCseIn` is
empty for the entry block and handler entries and all ones otherwise, and `bbCseOut` is all
ones unless the procedure is async. -/
theorem initDataFlow_start (TYP_BYREF TYP_STRUCT : Nat) (layoutHasGCByRef : GenTree → Bool)
    (F : Statement → Bool) (c : Compiler W) (blocks : List (BasicBlock W))
    (hnodup : (blocks.map fun b => b.bbNum).Nodup) (hdense : TableDense c)
    (hlisted : ∀ b ∈ blocks, TagsListed c b) :
    ∃ c1, optValnumCSE_InitDataFlow TYP_BYREF TYP_STRUCT layoutHasGCByRef F c blocks = some c1 ∧
      c1.cseLivenessTraits = c.optCSECandidateCount * 2 + 1 ∧
      c1.cseCallKillsMask = initCallKillsMask c.optCSECandidateCount ∧
      c1.DataFlowD = c.DataFlowD ∧ c1.fgFirstBB = c.fgFirstBB ∧
      ∀ b ∈ blocks,
        c1.bbCseGen b.bbNum ⊆ Finset.range (c.optCSECandidateCount * 2) ∧
        c1.bbCseIn b.bbNum =
          (if b.bbNum = c.fgFirstBB ∨ b.isHandlerBeg = true then MakeEmpty
           else MakeFull (c.optCSECandidateCount * 2 + 1)) ∧
        c1.bbCseOut b.bbNum ⊆ MakeFull (c.optCSECandidateCount * 2 + 1) ∧
        (c.compIsAsync = false →
          c1.bbCseOut b.bbNum = MakeFull (c.optCSECandidateCount * 2 + 1)) := by
  have hsl : ∀ inx, inx < c.optCSECandidateCount →
      ∃ d, (c.optCSEtab.get? inx).join = some d := by
    intro inx hi
    obtain ⟨d, hd, -⟩ := hdense inx hi
    exact ⟨d, hd⟩
  obtain ⟨c4, g2, g3, hrun, hmask, hDF, hblocks⟩ :=
    initDataFlow_structure TYP_BYREF TYP_STRUCT layoutHasGCByRef F c blocks hnodup hsl
  obtain ⟨c5, hrun5, hT, hF, hI⟩ :=
    initDataFlow_frame TYP_BYREF TYP_STRUCT layoutHasGCByRef F c blocks hnodup hsl
  rw [hrun] at hrun5
  obtain rfl := Option.some.inj hrun5
  refine ⟨c4, hrun, hT, hmask, hDF, hF, ?_⟩
  intro b hb
  obtain ⟨v1, v2, -, v4⟩ := hblocks b hb
  have htagk : ∀ u ∈ b.nodes, IS_CSE_INDEX u.gtCSEnum = true →
      1 ≤ GET_CSE_INDEX u.gtCSEnum ∧ GET_CSE_INDEX u.gtCSEnum ≤ c.optCSECandidateCount := by
    intro u hu hi
    obtain ⟨dsc, hd, -⟩ := hlisted b hb u hu hi
    exact findDsc_le hd
  have htag : ∀ u ∈ b.nodes, IS_CSE_INDEX u.gtCSEnum = true →
      getCSEAvailBit (GET_CSE_INDEX u.gtCSEnum) < c.optCSECandidateCount * 2 :=
    fun u hu hi => (bits_lt_of_le (htagk u hu hi).1 (htagk u hu hi).2).1
  have hg2 : g2 b.bbNum ⊆ Finset.range (c.optCSECandidateCount * 2) := by
    intro x hx
    obtain ⟨inx, hinx, dsc, hd, -, hx2⟩ := (v1 x).mp hx
    obtain ⟨d2, hd2, hidx⟩ := hdense inx (List.mem_range.mp hinx)
    rw [hd] at hd2
    obtain rfl := Option.some.inj hd2
    have hb2 := bits_lt_of_le (k := dsc.csdIndex) (N := c.optCSECandidateCount) (by omega)
      (by have := List.mem_range.mp hinx; omega)
    rw [Finset.mem_range]
    rcases hx2 with rfl | ⟨-, rfl⟩
    · exact hb2.1
    · exact hb2.2
  have hg3 : g3 b.bbNum ⊆ Finset.range (c.optCSECandidateCount * 2) := by
    rcases v4 with ⟨-, mask, -, hg, -⟩ | ⟨hg, -⟩
    · rw [hg]
      exact asyncKillsSet_range F mask b _ _ hg2 htag
    · rw [hg]
      exact hg2
  refine ⟨?_, ?_, ?_, ?_⟩
  · rw [v2]
    intro x hx
    rw [callGenSet_spec] at hx
    rcases hx with hx | ⟨-, -, u, hu, hi, rfl⟩
    · exact hg3 hx
    · rw [Finset.mem_range]
      have hk := htagk u (atOrAfterLastCall_mem hu) hi
      exact (bits_lt_of_le hk.1 hk.2).2
  · rw [hI]
    exact ((initInOut_spec c blocks hnodup).2.2.2 b hb).2
  · rcases v4 with ⟨-, mask, -, -, ho⟩ | ⟨-, ho⟩
    · rw [ho]
      unfold MakeFull
      apply asyncKillsSet_range F mask b _ _ (Finset.Subset.refl _)
      intro u hu hi
      exact Nat.lt_succ_of_lt (htag u hu hi)
    · rw [ho]
  · intro ha
    rcases v4 with ⟨hasync, -⟩ | ⟨-, ho⟩
    · rw [ha] at hasync
      exact absurd hasync (by simp)
    · exact ho

/-! ### The extra bit along the visits of the driver -/

theorem visitIn_no_extra (c : Compiler W) (block : BasicBlock W) (e : Nat)
    (h : e ∉ c.bbCseIn block.bbNum ∨
      (block.isHandlerBeg = false ∧ ∃ p ∈ block.bbPreds, e ∉ c.bbCseOut p)) :
    e ∉ visitIn c block := by
  intro hm
  rcases h with h | ⟨hh, p, hp, h⟩
  · exact h (visitIn_subset c block hm)
  · unfold visitIn at hm
    simp only [hh, Bool.false_eq_true, if_false] at hm
    split_ifs at hm with h1
    · simp [MakeEmpty] at hm
    · exact h ((mem_foldl_inter _ _ _ _ hm).2 p hp)

theorem visitOut_no_extra (c : Compiler W) (block : BasicBlock W) (e : Nat)
    (hD : ∀ o g i, c.DataFlowD o g i ⊆ g ∪ i)
    (hg : e ∉ c.bbCseGen block.bbNum) (hi : e ∉ visitIn c block) : e ∉ visitOut c block := by
  intro hm
  unfold visitOut at hm
  have h1 := hD _ _ _ hm
  rw [Finset.mem_union] at h1
  rcases h1 with h1 | h1
  · exact hg h1
  · split_ifs at h1
    · exact hi h1
    · exact hi (Finset.mem_inter.mp h1).1

theorem forwardVisit_out (df : CSE_DataFlow W) (block : BasicBlock W) (n : Nat) :
    (forwardVisit df block).1.m_comp.bbCseOut n =
      if n = block.bbNum then visitOut df.m_comp block else df.m_comp.bbCseOut n := by
  rw [forwardVisit_comp]
  simp only [Function.update_apply]

theorem forwardVisits_cons (df : CSE_DataFlow W) (block : BasicBlock W)
    (rest : List (BasicBlock W)) :
    forwardVisits df (block :: rest) = forwardVisits (forwardVisit df block).1 rest := rfl

theorem forwardPass_visits : ∀ (blocks : List (BasicBlock W)) (df : CSE_DataFlow W),
    (forwardPass df blocks).1 = forwardVisits df blocks := by
  intro blocks
  induction blocks with
  | nil => intro df; rfl
  | cons b rest ih =>
    intro df
    rw [forwardVisits_cons, ← ih]
    rfl

theorem forwardVisitOrder_append (first : Nat) : ∀ (l1 l2 : List (BasicBlock W))
    (visited : List Nat),
    forwardVisitOrder first visited (l1 ++ l2) =
      (forwardVisitOrder first visited l1 &&
        forwardVisitOrder first ((l1.map fun b => b.bbNum).reverse ++ visited) l2) := by
  intro l1
  induction l1 with
  | nil => intro l2 visited; simp [forwardVisitOrder]
  | cons x rest ih =>
    intro l2 visited
    show ((decide (x.bbNum = first) || x.isHandlerBeg ||
        x.bbPreds.any fun p => decide (p ∈ visited)) &&
        forwardVisitOrder first (x.bbNum :: visited) (rest ++ l2)) = _
    rw [ih]
    simp only [forwardVisitOrder, List.map_cons, List.reverse_cons, List.append_assoc,
      List.singleton_append, Bool.and_assoc]

/-- One visit in the driver's order leaves a `bbCseOut` without the bit `e`, when `e` is in no
`bbCseGen`, not in `bbCseIn` of the entry block and of handler entries, and in no `bbCseOut` of
the blocks visited before. -/
theorem forwardVisit_no_extra (c1 : Compiler W) (e : Nat) (df : CSE_DataFlow W)
    (block : BasicBlock W) (visited : List Nat)
    (hst : SameStatic c1 df.m_comp)
    (hgen : e ∉ c1.bbCseGen block.bbNum)
    (hin : block.bbNum = c1.fgFirstBB ∨ block.isHandlerBeg = true →
      e ∉ c1.bbCseIn block.bbNum)
    (hD : ∀ o g i, c1.DataFlowD o g i ⊆ g ∪ i)
    (hI : ∀ n, df.m_comp.bbCseIn n ⊆ c1.bbCseIn n)
    (hV : ∀ n ∈ visited, e ∉ df.m_comp.bbCseOut n)
    (hord : (decide (block.bbNum = c1.fgFirstBB) || block.isHandlerBeg ||
      block.bbPreds.any fun p => decide (p ∈ visited)) = true) :
    e ∉ visitOut df.m_comp block := by
  obtain ⟨s1, -, -, s4, -⟩ := hst
  apply visitOut_no_extra
  · intro o g i
    rw [s4]
    exact hD o g i
  · rw [s1]
    exact hgen
  · apply visitIn_no_extra
    by_cases hh : block.isHandlerBeg = true
    · exact Or.inl fun h => hin (Or.inr hh) (hI _ h)
    · by_cases hf : block.bbNum = c1.fgFirstBB
      · exact Or.inl fun h => hin (Or.inl hf) (hI _ h)
      · simp only [hf, decide_False, Bool.false_or, Bool.or_eq_true, hh, false_or,
          List.any_eq_true, decide_eq_true_eq] at hord
        obtain ⟨p, hp, hpv⟩ := hord
        exact Or.inr ⟨by simpa using hh, p, hp, hV p hpv⟩

theorem forwardVisits_no_extra (blocks : List (BasicBlock W)) (c1 : Compiler W) (e : Nat)
    (hgen : ∀ b ∈ blocks, e ∉ c1.bbCseGen b.bbNum)
    (hin : ∀ b ∈ blocks, b.bbNum = c1.fgFirstBB ∨ b.isHandlerBeg = true →
      e ∉ c1.bbCseIn b.bbNum)
    (hD : ∀ o g i, c1.DataFlowD o g i ⊆ g ∪ i) :
    ∀ (visits : List (BasicBlock W)) (df : CSE_DataFlow W) (visited : List Nat),
      SameStatic c1 df.m_comp → (∀ n, df.m_comp.bbCseIn n ⊆ c1.bbCseIn n) →
      (∀ n ∈ visited, e ∉ df.m_comp.bbCseOut n) → (∀ b ∈ visits, b ∈ blocks) →
      forwardVisitOrder c1.fgFirstBB visited visits = true →
      SameStatic c1 (forwardVisits df visits).m_comp ∧
      (∀ n, (forwardVisits df visits).m_comp.bbCseIn n ⊆ c1.bbCseIn n) ∧
      (∀ n ∈ (visits.map fun b => b.bbNum).reverse ++ visited,
        e ∉ (forwardVisits df visits).m_comp.bbCseOut n) ∧
      (∀ n, n ∉ visits.map (fun b => b.bbNum) →
        (forwardVisits df visits).m_comp.bbCseOut n = df.m_comp.bbCseOut n) := by
  intro visits
  induction visits with
  | nil =>
    intro df visited hst hI hV _ _
    exact ⟨hst, hI, by simpa using hV, fun _ _ => rfl⟩
  | cons x rest ih =>
    intro df visited hst hI hV hmem hord
    rw [forwardVisits_cons]
    simp only [forwardVisitOrder, Bool.and_eq_true] at hord
    have hx := hmem x (List.mem_cons_self _ _)
    have hno := forwardVisit_no_extra c1 e df x visited hst (hgen x hx) (hin x hx) hD hI hV
      hord.1
    have hV1 : ∀ n ∈ x.bbNum :: visited, e ∉ (forwardVisit df x).1.m_comp.bbCseOut n := by
      intro n hn
      rw [forwardVisit_out]
      split_ifs with h
      · exact hno
      · rcases List.mem_cons.mp hn with h1 | h1
        · exact absurd h1 h
        · exact hV n h1
    obtain ⟨r1, r2, r3, r4⟩ := ih (forwardVisit df x).1 (x.bbNum :: visited)
      (SameStatic_trans hst (forwardVisit_static df x))
      (fun n => (forwardVisit_in_subset df x n).trans (hI n)) hV1
      (fun b hb => hmem b (List.mem_cons_of_mem _ hb)) hord.2
    refine ⟨r1, r2, ?_, ?_⟩
    · intro n hn
      apply r3
      simp only [List.map_cons, List.reverse_cons, List.append_assoc, List.singleton_append]
        at hn
      exact hn
    · intro n hn
      simp only [List.map_cons, List.mem_cons, not_or] at hn
      rw [r4 n hn.2, forwardVisit_out, if_neg hn.1]

/-- C30. After `optValnumCSE_InitDataFlow` (blocks with pairwise distinct numbers, a dense
candidate table, tagged nodes listed as occurrences; `DataFlowD` yields a subset of
`gen | in`), let the forward driver visit blocks in its order: every block visited is the entry
block, a handler entry, or a successor of a block visited before. Whenever the driver then
visits a block whose `bbCseOut` still has the initial all-ones value, extra bit included, the
`StartMerge`, merges and `EndMerge` of that visit leave a `bbCseOut` without the extra bit: it
has changed and `EndMerge` returns true. In a procedure that is not async every block the
driver has not visited yet still has the all-ones `bbCseOut`. -/
theorem first_merge_changes_out (TYP_BYREF TYP_STRUCT : Nat) (layoutHasGCByRef : GenTree → Bool)
    (GTF_CALL_root : Statement → Bool) (c : Compiler W) (blocks : List (BasicBlock W))
    (hnodup : (blocks.map fun b => b.bbNum).Nodup) (hdense : TableDense c)
    (hlisted : ∀ b ∈ blocks, TagsListed c b)
    (hD : ∀ o g i, c.DataFlowD o g i ⊆ g ∪ i) :
    ∃ c1, optValnumCSE_InitDataFlow TYP_BYREF TYP_STRUCT layoutHasGCByRef GTF_CALL_root c
        blocks = some c1 ∧
      ∀ (pm : EXPSET_TP) (visits : List (BasicBlock W)) (block : BasicBlock W),
        (∀ b ∈ visits, b ∈ blocks) → block ∈ blocks →
        forwardVisitOrder c.fgFirstBB [] (visits ++ [block]) = true →
        (c.compIsAsync = false → block.bbNum ∉ visits.map (fun b => b.bbNum) →
          (forwardVisits (CSE_DataFlow.mk c1 pm) visits).m_comp.bbCseOut block.bbNum =
            MakeFull c1.cseLivenessTraits) ∧
        ((forwardVisits (CSE_DataFlow.mk c1 pm) visits).m_comp.bbCseOut block.bbNum =
            MakeFull c1.cseLivenessTraits →
          (forwardVisit (forwardVisits (CSE_DataFlow.mk c1 pm) visits) block).2 = true ∧
          c.optCSECandidateCount * 2 ∉
            (forwardVisit (forwardVisits (CSE_DataFlow.mk c1 pm) visits)
              block).1.m_comp.bbCseOut block.bbNum ∧
          (forwardVisit (forwardVisits (CSE_DataFlow.mk c1 pm) visits)
            block).1.m_comp.bbCseOut block.bbNum ≠
              (forwardVisits (CSE_DataFlow.mk c1 pm) visits).m_comp.bbCseOut block.bbNum) := by
  obtain ⟨c1, hrun, hT, hmask, hDF, hF, hblocks⟩ := initDataFlow_start TYP_BYREF TYP_STRUCT
    layoutHasGCByRef GTF_CALL_root c blocks hnodup hdense hlisted
  refine ⟨c1, hrun, ?_⟩
  intro pm visits block hvis hb hord
  have hgen : ∀ b ∈ blocks, c.optCSECandidateCount * 2 ∉ c1.bbCseGen b.bbNum := by
    intro b hb2 h
    have := (hblocks b hb2).1 h
    simp at this
  have hin : ∀ b ∈ blocks, b.bbNum = c1.fgFirstBB ∨ b.isHandlerBeg = true →
      c.optCSECandidateCount * 2 ∉ c1.bbCseIn b.bbNum := by
    intro b hb2 hcase
    rw [(hblocks b hb2).2.1, hF.symm, if_pos hcase]
    simp [MakeEmpty]
  have hD1 : ∀ o g i, c1.DataFlowD o g i ⊆ g ∪ i := by
    intro o g i
    rw [hDF]
    exact hD o g i
  rw [forwardVisitOrder_append, Bool.and_eq_true, ← hF] at hord
  obtain ⟨r1, r2, r3, r4⟩ := forwardVisits_no_extra blocks c1 (c.optCSECandidateCount * 2)
    hgen hin hD1 visits (CSE_DataFlow.mk c1 pm) [] (SameStatic_refl c1)
    (fun n => Finset.Subset.refl _) (fun n hn => absurd hn (List.not_mem_nil _)) hvis hord.1
  refine ⟨?_, ?_⟩
  · intro ha hnot
    rw [r4 _ hnot, hT]
    exact (hblocks block hb).2.2.2 ha
  · intro hfull
    have hord2 := hord.2
    simp only [forwardVisitOrder, Bool.and_true] at hord2
    have hno := forwardVisit_no_extra c1 (c.optCSECandidateCount * 2)
      (forwardVisits (CSE_DataFlow.mk c1 pm) visits) block _ r1 (hgen block hb)
      (hin block hb) hD1 r2 r3 hord2
    have hmem : c.optCSECandidateCount * 2 ∈ MakeFull c1.cseLivenessTraits := by
      rw [hT]
      simp [MakeFull]
    have hne : visitOut (forwardVisits (CSE_DataFlow.mk c1 pm) visits).m_comp block ≠
        (forwardVisits (CSE_DataFlow.mk c1 pm) visits).m_comp.bbCseOut block.bbNum := by
      intro he
      rw [he, hfull] at hno
      exact hno hmem
    refine ⟨?_, ?_, ?_⟩
    · rw [forwardVisit_changed]
      simpa using hne
    · rw [forwardVisit_out, if_pos rfl]
      exact hno
    · rw [forwardVisit_out, if_pos rfl]
      exact hne

/-! ### The block transfer of `EndMerge` -/

theorem EndMerge_comp (df : CSE_DataFlow W) (block : BasicBlock W)
    (hin : df.m_comp.bbCseIn block.bbNum ⊆ MakeFull df.m_comp.cseLivenessTraits) :
    (df.EndMerge block).1.m_comp =
      { df.m_comp with
        bbCseIn := Function.update df.m_comp.bbCseIn block.bbNum
          (if block.BBF_NO_CSE_IN then MakeEmpty else df.m_comp.bbCseIn block.bbNum)
        bbCseOut := Function.update df.m_comp.bbCseOut block.bbNum
          (df.m_comp.DataFlowD (df.m_comp.bbCseOut block.bbNum)
            (df.m_comp.bbCseGen block.bbNum)
            ((if block.BBF_NO_CSE_IN then MakeEmpty else df.m_comp.bbCseIn block.bbNum) ∩
              transferMask df.m_comp block)) } := by
  have hX : (if block.BBF_NO_CSE_IN then MakeEmpty else df.m_comp.bbCseIn block.bbNum) ⊆
      MakeFull df.m_comp.cseLivenessTraits := by
    split_ifs
    · simp [MakeEmpty]
    · exact hin
  rw [← transfer_arg df.m_comp block _ hX]
  unfold CSE_DataFlow.EndMerge
  cases hn : block.BBF_NO_CSE_IN <;> cases hc : block.BBF_HAS_CALL <;>
    simp [Function.update_idem] <;> (split_ifs <;> simp [Function.update_idem, *])

theorem step_transfer_inv (c1 : Compiler W) (blocks : List (BasicBlock W))
    (block : BasicBlock W) (df : CSE_DataFlow W) (s : FlowStep W)
    (hnodup : (blocks.map fun b => b.bbNum).Nodup) (hb : block ∈ blocks)
    (hs : s.block ∈ blocks)
    (hD : ∀ o g i, c1.DataFlowD o g i = o ∩ (g ∪ i))
    (hst : SameStatic c1 df.m_comp)
    (hI : ∀ b ∈ blocks, df.m_comp.bbCseIn b.bbNum ⊆ MakeFull c1.cseLivenessTraits) :
    SameStatic c1 (df.step s).m_comp ∧
    (∀ b ∈ blocks, (df.step s).m_comp.bbCseIn b.bbNum ⊆ MakeFull c1.cseLivenessTraits) ∧
    (blockTransfer c1 block (df.m_comp.bbCseIn block.bbNum) ⊆ df.m_comp.bbCseOut block.bbNum →
      blockTransfer c1 block ((df.step s).m_comp.bbCseIn block.bbNum) ⊆
        (df.step s).m_comp.bbCseOut block.bbNum) := by
  cases s with
  | StartMerge b1 => exact ⟨hst, hI, fun h => h⟩
  | MergeHandler b1 => exact ⟨hst, hI, fun h => h⟩
  | Merge b1 p =>
    refine ⟨⟨hst.1, hst.2.1, hst.2.2.1, hst.2.2.2.1, hst.2.2.2.2⟩, ?_, ?_⟩
    · intro b hb2
      exact (Merge_in_subset df b1 p b.bbNum).trans (hI b hb2)
    · intro hJ
      exact (blockTransfer_mono c1 block (Merge_in_subset df b1 p block.bbNum)).trans hJ
  | EndMerge b1 =>
    have hs1 : b1 ∈ blocks := hs
    have hin1 : df.m_comp.bbCseIn b1.bbNum ⊆ MakeFull df.m_comp.cseLivenessTraits := by
      rw [hst.2.2.1]
      exact hI b1 hs1
    have hcomp := EndMerge_comp df b1 hin1
    have hst1 : SameStatic c1 (df.EndMerge b1).1.m_comp := by
      rw [hcomp]
      exact ⟨hst.1, hst.2.1, hst.2.2.1, hst.2.2.2.1, hst.2.2.2.2⟩
    refine ⟨hst1, ?_, ?_⟩
    · intro b hb2
      exact (EndMerge_in_subset df b1 b.bbNum).trans (hI b hb2)
    · intro hJ
      show blockTransfer c1 block ((df.EndMerge b1).1.m_comp.bbCseIn block.bbNum) ⊆
        (df.EndMerge b1).1.m_comp.bbCseOut block.bbNum
      have hmono := (blockTransfer_mono c1 block (EndMerge_in_subset df b1 block.bbNum)).trans hJ
      by_cases he : block.bbNum = b1.bbNum
      · have hbb : block = b1 := List.inj_on_of_nodup_map hnodup hb hs1 he
        subst hbb
        rw [hcomp] at hmono ⊢
        simp only [Function.update_same] at hmono ⊢
        rw [hst.2.2.2.1, hD]
        have hT : df.m_comp.bbCseGen block.bbNum ∪
            ((if block.BBF_NO_CSE_IN then MakeEmpty else df.m_comp.bbCseIn block.bbNum) ∩
              transferMask df.m_comp block) =
            blockTransfer c1 block
              (if block.BBF_NO_CSE_IN then MakeEmpty else df.m_comp.bbCseIn block.bbNum) := by
          rw [← blockTransfer_static hst block]
          rfl
        rw [hT]
        exact Finset.subset_inter hmono (Finset.Subset.refl _)
      · rw [hcomp]
        simp only [Function.update_noteq he]
        exact hJ

theorem run_transfer_inv (c1 : Compiler W) (blocks : List (BasicBlock W))
    (block : BasicBlock W) (hnodup : (blocks.map fun b => b.bbNum).Nodup) (hb : block ∈ blocks)
    (hD : ∀ o g i, c1.DataFlowD o g i = o ∩ (g ∪ i)) :
    ∀ (steps : List (FlowStep W)) (df : CSE_DataFlow W),
      (∀ s ∈ steps, s.block ∈ blocks) → SameStatic c1 df.m_comp →
      (∀ b ∈ blocks, df.m_comp.bbCseIn b.bbNum ⊆ MakeFull c1.cseLivenessTraits) →
      SameStatic c1 (df.run steps).m_comp ∧
      (∀ b ∈ blocks, (df.run steps).m_comp.bbCseIn b.bbNum ⊆ MakeFull c1.cseLivenessTraits) ∧
      (blockTransfer c1 block (df.m_comp.bbCseIn block.bbNum) ⊆
          df.m_comp.bbCseOut block.bbNum →
        blockTransfer c1 block ((df.run steps).m_comp.bbCseIn block.bbNum) ⊆
          (df.run steps).m_comp.bbCseOut block.bbNum) := by
  intro steps
  induction steps with
  | nil => intro df _ hst hI; exact ⟨hst, hI, fun h => h⟩
  | cons s rest ih =>
    intro df hs hst hI
    rw [run_cons]
    obtain ⟨a1, a2, a3⟩ := step_transfer_inv c1 blocks block df s hnodup hb
      (hs s (List.mem_cons_self _ _)) hD hst hI
    obtain ⟨b1, b2, b3⟩ := ih (df.step s) (fun t ht => hs t (List.mem_cons_of_mem _ ht)) a1 a2
    exact ⟨b1, b2, fun h => b3 (a3 h)⟩

/-- C7, as the code has it. After `optValnumCSE_InitDataFlow` (blocks with pairwise distinct
numbers, a dense candidate table, tagged nodes listed as occurrences) and any sequence of
`StartMerge`, `Merge`, `MergeHandler` and `EndMerge` calls on blocks of the list, with
`DataFlowD(out, gen, in)` being `out &= gen | in`: `EndMerge` on a block `b` leaves in
`bbCseOut(b)` its previous value intersected with `bbCseGen(b) ∪ (bbCseIn(b) ∩ M)`, where
`bbCseIn(b)` is the value `EndMerge` leaves and `M` is `cseCallKillsMask` for a `BBF_HAS_CALL`
block and all ones otherwise. For a block whose `bbCseOut` the initialisation left all ones,
which is every block when the procedure is not async, that is `bbCseGen(b) ∪ (bbCseIn(b) ∩ M)`
itself. -/
theorem EndMerge_block_transfer (TYP_BYREF TYP_STRUCT : Nat) (layoutHasGCByRef : GenTree → Bool)
    (GTF_CALL_root : Statement → Bool) (c : Compiler W) (blocks : List (BasicBlock W))
    (hnodup : (blocks.map fun b => b.bbNum).Nodup) (hdense : TableDense c)
    (hlisted : ∀ b ∈ blocks, TagsListed c b)
    (hD : ∀ o g i, c.DataFlowD o g i = o ∩ (g ∪ i)) :
    ∃ c1, optValnumCSE_InitDataFlow TYP_BYREF TYP_STRUCT layoutHasGCByRef GTF_CALL_root c
        blocks = some c1 ∧
      (c.compIsAsync = false →
        ∀ b ∈ blocks, c1.bbCseOut b.bbNum = MakeFull c1.cseLivenessTraits) ∧
      ∀ (pm : EXPSET_TP) (steps : List (FlowStep W)) (block : BasicBlock W),
        (∀ s ∈ steps, s.block ∈ blocks) → block ∈ blocks →
        ((((CSE_DataFlow.mk c1 pm).run steps).EndMerge block).1.m_comp.bbCseOut block.bbNum =
          ((CSE_DataFlow.mk c1 pm).run steps).m_comp.bbCseOut block.bbNum ∩
            ((((CSE_DataFlow.mk c1 pm).run steps).EndMerge block).1.m_comp.bbCseGen block.bbNum ∪
              ((((CSE_DataFlow.mk c1 pm).run steps).EndMerge block).1.m_comp.bbCseIn
                  block.bbNum ∩
                transferMask (((CSE_DataFlow.mk c1 pm).run steps).EndMerge block).1.m_comp
                  block))) ∧
        (c1.bbCseOut block.bbNum = MakeFull c1.cseLivenessTraits →
          (((CSE_DataFlow.mk c1 pm).run steps).EndMerge block).1.m_comp.bbCseOut block.bbNum =
            (((CSE_DataFlow.mk c1 pm).run steps).EndMerge block).1.m_comp.bbCseGen block.bbNum ∪
              ((((CSE_DataFlow.mk c1 pm).run steps).EndMerge block).1.m_comp.bbCseIn
                  block.bbNum ∩
                transferMask (((CSE_DataFlow.mk c1 pm).run steps).EndMerge block).1.m_comp
                  block)) := by
  obtain ⟨c1, hrun, hT, -, hDF, -, hblocks⟩ := initDataFlow_start TYP_BYREF TYP_STRUCT
    layoutHasGCByRef GTF_CALL_root c blocks hnodup hdense hlisted
  refine ⟨c1, hrun, ?_, ?_⟩
  · intro ha b hb
    rw [hT]
    exact (hblocks b hb).2.2.2 ha
  intro pm steps block hsteps hb
  have hD1 : ∀ o g i, c1.DataFlowD o g i = o ∩ (g ∪ i) := by
    intro o g i
    rw [hDF]
    exact hD o g i
  have hI0 : ∀ b ∈ blocks, (CSE_DataFlow.mk c1 pm).m_comp.bbCseIn b.bbNum ⊆
      MakeFull c1.cseLivenessTraits := by
    intro b hb2
    show c1.bbCseIn b.bbNum ⊆ _
    rw [(hblocks b hb2).2.1, hT]
    split_ifs
    · simp [MakeEmpty]
    · exact Finset.Subset.refl _
  obtain ⟨r1, r2, r3⟩ := run_transfer_inv c1 blocks block hnodup hb hD1 steps
    (CSE_DataFlow.mk c1 pm) hsteps (SameStatic_refl c1) hI0
  have hin1 : ((CSE_DataFlow.mk c1 pm).run steps).m_comp.bbCseIn block.bbNum ⊆
      MakeFull ((CSE_DataFlow.mk c1 pm).run steps).m_comp.cseLivenessTraits := by
    rw [r1.2.2.1]
    exact r2 block hb
  have hcomp := EndMerge_comp ((CSE_DataFlow.mk c1 pm).run steps) block hin1
  have hout : (((CSE_DataFlow.mk c1 pm).run steps).EndMerge block).1.m_comp.bbCseOut
      block.bbNum =
      ((CSE_DataFlow.mk c1 pm).run steps).m_comp.bbCseOut block.bbNum ∩
        ((((CSE_DataFlow.mk c1 pm).run steps).EndMerge block).1.m_comp.bbCseGen block.bbNum ∪
          ((((CSE_DataFlow.mk c1 pm).run steps).EndMerge block).1.m_comp.bbCseIn block.bbNum ∩
            transferMask (((CSE_DataFlow.mk c1 pm).run steps).EndMerge block).1.m_comp
              block)) := by
    rw [hcomp]
    simp only [Function.update_same]
    rw [r1.2.2.2.1, hD1]
    rfl
  refine ⟨hout, ?_⟩
  intro hfull
  rw [hout]
  apply Finset.inter_eq_right.mpr
  have hJ0 : blockTransfer c1 block ((CSE_DataFlow.mk c1 pm).m_comp.bbCseIn block.bbNum) ⊆
      (CSE_DataFlow.mk c1 pm).m_comp.bbCseOut block.bbNum := by
    show blockTransfer c1 block (c1.bbCseIn block.bbNum) ⊆ c1.bbCseOut block.bbNum
    rw [hfull, hT]
    unfold blockTransfer MakeFull
    apply Finset.union_subset
    · exact (hblocks block hb).1.trans (Finset.range_subset.mpr (Nat.le_succ _))
    · have := hI0 block hb
      rw [hT] at this
      exact Finset.inter_subset_left.trans this
  have hJ := r3 hJ0
  have hst2 : SameStatic c1 (((CSE_DataFlow.mk c1 pm).run steps).EndMerge block).1.m_comp :=
    (step_transfer_inv c1 blocks block ((CSE_DataFlow.mk c1 pm).run steps)
      (FlowStep.EndMerge block) hnodup hb hb hD1 r1 r2).1
  have hT2 := blockTransfer_static hst2 block
    ((((CSE_DataFlow.mk c1 pm).run steps).EndMerge block).1.m_comp.bbCseIn block.bbNum)
  unfold blockTransfer at hT2
  rw [hT2]
  exact (blockTransfer_mono c1 block
    (EndMerge_in_subset ((CSE_DataFlow.mk c1 pm).run steps) block block.bbNum)).trans hJ

/-! ### Concrete runs -/

theorem exAsyncFlow_init (c1 : Compiler Nat)
    (h : optValnumCSE_InitDataFlow 7 99 (fun _ => false) exCallRoot exAsyncFlowCompiler
      exAsyncFlowBlocks = some c1) : c1 = exAsyncFlowInit := by
  unfold exAsyncFlowInit
  rw [h]
  rfl

theorem exAsyncFlow_listed : ∀ b ∈ exAsyncFlowBlocks, TagsListed exAsyncFlowCompiler b :=
  fun b hb => TagsListed_of_check _ b
    (List.all_eq_true.mp (by decide : (exAsyncFlowBlocks.all
      fun b => tagsListedB exAsyncFlowCompiler b) = true) b hb)

theorem exAsyncFlow_mem :
    exAsyncFlowEntry ∈ exAsyncFlowBlocks ∧ exAsyncFlowAsync ∈ exAsyncFlowBlocks ∧
    exAsyncFlowCalls ∈ exAsyncFlowBlocks := by
  unfold exAsyncFlowBlocks exAsyncFlowEntry exAsyncFlowAsync exAsyncFlowCalls
  simp

/-- Witness of C30: in the async procedure `exAsyncFlowCompiler` the driver visits the entry
block 3, then block 4, then block 1, whose `bbCseOut` is still all ones; `EndMerge` returns
true and leaves `{2, 3, 4}`. -/
theorem first_merge_changes_out_witness :
    ∃ c1, optValnumCSE_InitDataFlow 7 99 (fun _ => false) exCallRoot exAsyncFlowCompiler
        exAsyncFlowBlocks = some c1 ∧
      (forwardVisits (CSE_DataFlow.mk c1 MakeEmpty)
        [exAsyncFlowEntry, exAsyncFlowAsync]).m_comp.bbCseOut 1 = MakeFull 7 ∧
      (forwardVisit (forwardVisits (CSE_DataFlow.mk c1 MakeEmpty)
        [exAsyncFlowEntry, exAsyncFlowAsync]) exAsyncFlowCalls).2 = true ∧
      (forwardVisit (forwardVisits (CSE_DataFlow.mk c1 MakeEmpty)
        [exAsyncFlowEntry, exAsyncFlowAsync]) exAsyncFlowCalls).1.m_comp.bbCseOut 1 =
          {2, 3, 4} := by
  obtain ⟨c1, h1, h2⟩ := first_merge_changes_out 7 99 (fun _ => false) exCallRoot
    exAsyncFlowCompiler exAsyncFlowBlocks (by decide) (TableDense_of_check _ (by decide))
    exAsyncFlow_listed (fun _ _ _ => Finset.inter_subset_right)
  obtain rfl := exAsyncFlow_init c1 h1
  have h3 := (h2 MakeEmpty [exAsyncFlowEntry, exAsyncFlowAsync] exAsyncFlowCalls
    (by
      intro b hb
      simp only [List.mem_cons, List.mem_singleton, List.not_mem_nil, or_false] at hb
      rcases hb with rfl | rfl
      · exact exAsyncFlow_mem.1
      · exact exAsyncFlow_mem.2.1)
    exAsyncFlow_mem.2.2 (by decide)).2 (by decide)
  exact ⟨exAsyncFlowInit, h1, by decide, h3.1, by decide⟩

/-- C7, as stated, fails. In the async procedure `exAsyncFlowCompiler`, with `DataFlowD` being
`out &= gen | in`, the driver visits the entry block 3 and then block 4, which holds an async
call after an occurrence of the by-ref candidate 1. `optValnumCSE_SetUpAsyncByrefKills` has
taken the bits of candidate 1 out of `bbCseOut(4)`; after `StartMerge`, `Merge` with the
predecessor 3 and `EndMerge`, `bbCseOut(4)` is `{4, 5}`, while
`bbCseGen(4) ∪ (bbCseIn(4) ∩ cseCallKillsMask)` is `{0, 4, 5}`. -/
theorem async_clamp_out_is_not_the_transfer :
    ∃ df, exFlowAfter exAsyncFlowCompiler [exAsyncFlowEntry] = some df ∧
      exAsyncFlowCompiler.DataFlowD = clampedDataFlowD ∧
      forwardVisitOrder 3 [] [exAsyncFlowEntry, exAsyncFlowAsync] = true ∧
      exAsyncFlowAsync.BBF_HAS_CALL = true ∧
      (((df.StartMerge exAsyncFlowAsync).Merge exAsyncFlowAsync 3).EndMerge
        exAsyncFlowAsync).1.m_comp.bbCseOut 4 = {4, 5} ∧
      (((df.StartMerge exAsyncFlowAsync).Merge exAsyncFlowAsync 3).EndMerge
          exAsyncFlowAsync).1.m_comp.bbCseGen 4 ∪
        ((((df.StartMerge exAsyncFlowAsync).Merge exAsyncFlowAsync 3).EndMerge
            exAsyncFlowAsync).1.m_comp.bbCseIn 4 ∩
          (((df.StartMerge exAsyncFlowAsync).Merge exAsyncFlowAsync 3).EndMerge
            exAsyncFlowAsync).1.m_comp.cseCallKillsMask) = {0, 4, 5} ∧
      (((df.StartMerge exAsyncFlowAsync).Merge exAsyncFlowAsync 3).EndMerge
        exAsyncFlowAsync).1.m_comp.bbCseOut 4 ≠
        (((df.StartMerge exAsyncFlowAsync).Merge exAsyncFlowAsync 3).EndMerge
            exAsyncFlowAsync).1.m_comp.bbCseGen 4 ∪
          ((((df.StartMerge exAsyncFlowAsync).Merge exAsyncFlowAsync 3).EndMerge
              exAsyncFlowAsync).1.m_comp.bbCseIn 4 ∩
            transferMask (((df.StartMerge exAsyncFlowAsync).Merge exAsyncFlowAsync 3).EndMerge
              exAsyncFlowAsync).1.m_comp exAsyncFlowAsync) := by
  refine ⟨_, rfl, rfl, by decide, rfl, by decide, by decide, by decide⟩

/-- Witness of C7 as amended: in the same procedure, after the visits to the blocks 3 and 4
and the `StartMerge` and `Merge` of block 1, whose `bbCseOut` the initialisation left all ones,
`EndMerge` leaves `bbCseOut(1) = bbCseGen(1) ∪ (bbCseIn(1) ∩ cseCallKillsMask) = {2, 3, 4}`. -/
theorem EndMerge_block_transfer_witness :
    ∃ c1, optValnumCSE_InitDataFlow 7 99 (fun _ => false) exCallRoot exAsyncFlowCompiler
        exAsyncFlowBlocks = some c1 ∧
      c1.bbCseOut 1 = MakeFull c1.cseLivenessTraits ∧
      (((CSE_DataFlow.mk c1 MakeEmpty).run exAsyncFlowSteps).EndMerge
        exAsyncFlowCalls).1.m_comp.bbCseOut 1 =
        (((CSE_DataFlow.mk c1 MakeEmpty).run exAsyncFlowSteps).EndMerge
            exAsyncFlowCalls).1.m_comp.bbCseGen 1 ∪
          ((((CSE_DataFlow.mk c1 MakeEmpty).run exAsyncFlowSteps).EndMerge
              exAsyncFlowCalls).1.m_comp.bbCseIn 1 ∩
            transferMask (((CSE_DataFlow.mk c1 MakeEmpty).run exAsyncFlowSteps).EndMerge
              exAsyncFlowCalls).1.m_comp exAsyncFlowCalls) ∧
      (((CSE_DataFlow.mk c1 MakeEmpty).run exAsyncFlowSteps).EndMerge
        exAsyncFlowCalls).1.m_comp.bbCseOut 1 = {2, 3, 4} := by
  obtain ⟨c1, h1, -, h2⟩ := EndMerge_block_transfer 7 99 (fun _ => false) exCallRoot
    exAsyncFlowCompiler exAsyncFlowBlocks (by decide) (TableDense_of_check _ (by decide))
    exAsyncFlow_listed (fun _ _ _ => rfl)
  obtain rfl := exAsyncFlow_init c1 h1
  have hfull : exAsyncFlowInit.bbCseOut 1 = MakeFull exAsyncFlowInit.cseLivenessTraits := by
    decide
  have h3 := (h2 MakeEmpty exAsyncFlowSteps exAsyncFlowCalls
    (by
      intro s hs
      simp only [exAsyncFlowSteps, List.mem_cons, List.mem_singleton, List.not_mem_nil,
        or_false] at hs
      rcases hs with rfl | rfl | rfl | rfl | rfl | rfl | rfl
      · exact exAsyncFlow_mem.1
      · exact exAsyncFlow_mem.1
      · exact exAsyncFlow_mem.2.1
      · exact exAsyncFlow_mem.2.1
      · exact exAsyncFlow_mem.2.1
      · exact exAsyncFlow_mem.2.2
      · exact exAsyncFlow_mem.2.2)
    exAsyncFlow_mem.2.2).2 hfull
  exact ⟨exAsyncFlowInit, h1, hfull, h3, by decide⟩

end OptCSE
